import Mathlib

/-!
# WHAIS storage engine (pastra): containers

A shallow embedding of `src/dbs/pastra/ps_container.cpp`.

* A byte is a natural number; the operations only move bytes around.
* The 64-bit offsets and lengths of the source are natural numbers: the
  theorems are about offsets and sizes that do not wrap around.
* A unit file (class `File`, an OS file) is the list of its bytes.
* An operation that throws returns `Except.error` carrying the exception
  code and the state the object was left in at the throw.
-/

namespace whais
namespace pastra

abbrev Byte := Nat

/-- The codes of `WFileContainerException`, and `UNDEFINED` for what the C++
code does outside any defined behaviour (division by a zero unit size, an
index past the end of `mFilesHandles`, unbounded recursion) or inside the
`File` class (a missing file, a read past the end of a file). -/
inductive Failure where
  | INVALID_PARAMETERS
  | CONTAINTER_INVALID
  | INVALID_ACCESS_POSITION
  | FILE_OS_IO_ERROR
  | UNDEFINED
  deriving DecidableEq, Repr

instance exceptDecEq {ε α : Type} [DecidableEq ε] [DecidableEq α] : DecidableEq (Except ε α)
  | .ok a, .ok b => if h : a = b then isTrue (by rw [h]) else isFalse (by intro e; cases e; exact h rfl)
  | .error a, .error b =>
    if h : a = b then isTrue (by rw [h]) else isFalse (by intro e; cases e; exact h rfl)
  | .ok _, .error _ => isFalse (by intro e; cases e)
  | .error _, .ok _ => isFalse (by intro e; cases e)

/-! ## The `File` class -/

/-- Modelled from the spec: the `File` class (utils/wfile.h, not in src/) is an
OS file; a unit file is the sequence of the bytes it stores. -/
abbrev File := List Byte

/-- Modelled from the spec: `File::Size()`, the number of bytes of the file. -/
def File.Size (f : File) : Nat := f.length

/-- Modelled from the spec: `File::Seek(pos, WH_SEEK_BEGIN)` followed by
`File::Write(buffer, count)`: the bytes replace what is stored from `pos` on
and extend the file when they run past its end (a seek past the end leaves a
hole of zero bytes). -/
def File.WriteAt (f : File) (pos : Nat) (buffer : List Byte) : File :=
  f.take pos ++ List.replicate (pos - f.length) 0 ++ buffer ++ f.drop (pos + buffer.length)

/-- Modelled from the spec: `File::Seek(pos, WH_SEEK_BEGIN)` followed by
`File::Read(buffer, count)`; reading past the end of the file fails inside
the `File` class. -/
def File.ReadAt (f : File) (pos count : Nat) : Option (List Byte) :=
  if pos + count ≤ f.length then some ((f.drop pos).take count) else none

/-- Modelled from the spec: `File::Size(newSize)` truncates the file or extends
it with zero bytes. -/
def File.SetSize (f : File) (newSize : Nat) : File :=
  f.take newSize ++ List.replicate (newSize - f.length) 0

/-! ## `FileContainer` -/

/-- The state of a `FileContainer`: the unit size and the unit files, unit `k`
being the file `<prefix>k`. -/
structure FileContainer where
  mMaxFileUnitSize : Nat
  mFilesHandles : List File
  deriving DecidableEq, Repr

/-- What an operation of the file container throws: the code and the state at
the throw. -/
abbrev FcThrown := Failure × FileContainer

namespace FileContainer

/-- `FileContainer::Size()`. -/
def Size (c : FileContainer) : Nat :=
  if c.mFilesHandles.length = 0 then 0
  else
    match c.mFilesHandles.getLast? with
    | some lastUnitFile => (c.mFilesHandles.length - 1) * c.mMaxFileUnitSize + lastUnitFile.Size
    | none => 0

/-- `FileContainer::ExtendContainer()`: a new, empty unit file is appended. -/
def ExtendContainer (c : FileContainer) : FileContainer :=
  { c with mFilesHandles := c.mFilesHandles ++ [[]] }

/-- The `actualSize` of `FileContainer::Write`: what of `size` bytes fits into
a unit of `maxFileUnitSize` bytes from `unitPosition` on. -/
def WriteActualSize (maxFileUnitSize unitPosition size : Nat) : Nat :=
  if size + unitPosition > maxFileUnitSize then maxFileUnitSize - unitPosition else size

/-- `FileContainer::Write(to, size, buffer)`, `size` being the length of
`buffer`; `fuel` bounds the depth of the recursion ("Write the rest"). -/
def WriteAux : Nat → FileContainer → Nat → List Byte → Except FcThrown FileContainer
  | 0, c, _, _ => .error (.UNDEFINED, c)
  | fuel + 1, c, toPos, buffer =>
    if c.mMaxFileUnitSize = 0 then .error (.UNDEFINED, c) else
    let size := buffer.length
    let unitsCount := c.mFilesHandles.length
    let unitIndex := toPos / c.mMaxFileUnitSize
    let unitPosition := toPos % c.mMaxFileUnitSize
    if unitIndex > unitsCount then .error (.INVALID_ACCESS_POSITION, c)
    else if unitIndex = unitsCount ∧ unitPosition ≠ 0 then .error (.INVALID_ACCESS_POSITION, c)
    else
      let c1 := if unitIndex = unitsCount then c.ExtendContainer else c
      let actualSize := WriteActualSize c1.mMaxFileUnitSize unitPosition size
      match c1.mFilesHandles[unitIndex]? with
      | none => .error (.UNDEFINED, c1)
      | some file =>
        if file.Size < unitPosition then .error (.INVALID_ACCESS_POSITION, c1)
        else
          let c2 : FileContainer :=
            { c1 with mFilesHandles :=
                c1.mFilesHandles.set unitIndex (file.WriteAt unitPosition (buffer.take actualSize)) }
          if actualSize < size then
            WriteAux fuel c2 (toPos + actualSize) (buffer.drop actualSize)
          else .ok c2

/-- `FileContainer::Write`: every recursive call writes at least one byte, so
a depth of `size + 1` is never exhausted. -/
def Write (c : FileContainer) (toPos : Nat) (buffer : List Byte) : Except FcThrown FileContainer :=
  WriteAux (buffer.length + 1) c toPos buffer

/-- `FileContainer::Read(from, size, buffer)`; the result is the content of
`buffer` after the call. `fuel` bounds the depth of the recursion. The sum
`from + size` of the bounds test is a sum of two `uint64_t` values, which wraps
around at `2 ^ 64`. -/
def ReadAux : Nat → FileContainer → Nat → Nat → Except Failure (List Byte)
  | 0, _, _, _ => .error .UNDEFINED
  | fuel + 1, c, fromPos, size =>
    if size = 0 then .ok []
    else if c.mMaxFileUnitSize = 0 then .error .UNDEFINED
    else
      let unitsCount := c.mFilesHandles.length
      let unitIndex := fromPos / c.mMaxFileUnitSize
      let unitPosition := fromPos % c.mMaxFileUnitSize
      if unitIndex > unitsCount ∨ (fromPos + size) % 2 ^ 64 > c.Size then
        .error .INVALID_ACCESS_POSITION
      else
        match c.mFilesHandles[unitIndex]? with
        | none => .error .UNDEFINED
        | some file =>
          let actualSize :=
            if size + unitPosition > file.Size then file.Size - unitPosition else size
          match file.ReadAt unitPosition actualSize with
          | none => .error .UNDEFINED
          | some head =>
            if actualSize < size then
              match ReadAux fuel c (fromPos + actualSize) (size - actualSize) with
              | .ok rest => .ok (head ++ rest)
              | .error e => .error e
            else .ok head

/-- `FileContainer::Read`. -/
def Read (c : FileContainer) (fromPos size : Nat) : Except Failure (List Byte) :=
  ReadAux (size + 1) c fromPos size

/-- The loop of `FileContainer::Colapse` that moves the bytes after `to` down
to `from` through a bounce buffer of 1024 bytes; one unit of `fuel` per turn. -/
def ColapseLoop : Nat → FileContainer → Nat → Nat → Nat → Except FcThrown FileContainer
  | 0, c, _, _, _ => .error (.UNDEFINED, c)
  | fuel + 1, c, fromPos, toPos, containerSize =>
    if toPos < containerSize then
      let stepSize := if 1024 + toPos > containerSize then containerSize - toPos else 1024
      match c.Read toPos stepSize with
      | .error e => .error (e, c)
      | .ok buffer =>
        match c.Write fromPos buffer with
        | .error e => .error e
        | .ok c1 => ColapseLoop fuel c1 (fromPos + stepSize) (toPos + stepSize) containerSize
    else .ok c

/-- `FileContainer::Colapse(from, to)`. Removing a unit file is taken to
succeed (no `FILE_OS_IO_ERROR`). The index of the last unit and its size are
held in `int` variables (`int lastUnit`, `const int lastUnitSize`): a quotient
or remainder of `2 ^ 31` or more does not fit them, the value they get is not
the one computed, and what the code does with it is reported as `UNDEFINED`. -/
def Colapse (c : FileContainer) (fromPos toPos : Nat) : Except FcThrown FileContainer :=
  let intervalSize := toPos - fromPos
  let containerSize := c.Size
  if toPos < fromPos ∨ containerSize < toPos then .error (.INVALID_PARAMETERS, c)
  else if intervalSize = 0 then .ok c
  else
    match ColapseLoop (containerSize - toPos + 1) c fromPos toPos containerSize with
    | .error e => .error e
    | .ok c1 =>
      if c1.mMaxFileUnitSize = 0 then .error (.UNDEFINED, c1) else
      let newSize := containerSize - intervalSize
      let lastUnit := newSize / c1.mMaxFileUnitSize
      let lastUnitSize := newSize % c1.mMaxFileUnitSize
      if lastUnit ≥ 2 ^ 31 ∨ lastUnitSize ≥ 2 ^ 31 then .error (.UNDEFINED, c1) else
      if newSize = 0 then .ok { c1 with mFilesHandles := [] }
      else
        match c1.mFilesHandles[lastUnit]? with
        | none => .error (.UNDEFINED, c1)
        | some file =>
          .ok { c1 with mFilesHandles :=
                  (c1.mFilesHandles.set lastUnit (file.SetSize lastUnitSize)).take (lastUnit + 1) }

/-- What is left of `Size()` bytes without `[fromPos, toPos)` is cut into
units whose count and last size fit the `int` variables of `Colapse`. -/
def FitsInt (c : FileContainer) (fromPos toPos : Nat) : Prop :=
  (c.Size - (toPos - fromPos)) / c.mMaxFileUnitSize < 2 ^ 31 ∧
  (c.Size - (toPos - fromPos)) % c.mMaxFileUnitSize < 2 ^ 31

instance (c : FileContainer) (fromPos toPos : Nat) : Decidable (c.FitsInt fromPos toPos) :=
  inferInstanceAs (Decidable (_ ∧ _))

/-- The structural consistency check of the constructor, from unit `unit` on:
`true` when some unit makes the constructor throw. -/
def Inconsistent (maxFileSize unitsCount : Nat) : Nat → List File → Bool
  | _, [] => false
  | unit, file :: rest =>
    if file.Size ≠ maxFileSize ∧ (unit ≠ unitsCount - 1 ∨ file.Size > maxFileSize) then true
    else Inconsistent maxFileSize unitsCount (unit + 1) rest

/-- `FileContainer::FileContainer(baseName, maxFileSize, unitsCount, truncate)`
for `disk`, the unit files `<baseName>`, `<baseName>1`, ... found on disk.
Opening a unit file that does not exist fails inside the `File` class. -/
def Open (disk : List File) (maxFileSize unitsCount : Nat) : Except Failure FileContainer :=
  if disk.length < unitsCount then .error .UNDEFINED
  else
    let mFilesHandles := disk.take unitsCount
    if Inconsistent maxFileSize unitsCount 0 mFilesHandles then .error .CONTAINTER_INVALID
    else .ok { mMaxFileUnitSize := maxFileSize, mFilesHandles := mFilesHandles }

/-- A directory seen through one file-name prefix: entry `k` holds the file
`<prefix>k` when it exists. -/
abbrev Family := List (Option File)

/-- The file `<prefix>k` of a family, when it exists. -/
def Family.file (d : Family) (k : Nat) : Option File := (d[k]?).join

/-- `File unitFile(fileName, WH_FILECREATE | WH_FILEWRITE)` followed by
`unitFile.Size(newSize)`: the file is created when missing, then resized. -/
def Family.createSized (d : Family) (k newSize : Nat) : Family :=
  let file : File := ((d.file k).getD []).SetSize newSize
  if k < d.length then d.set k (some file)
  else d ++ List.replicate (k - d.length) none ++ [some file]

/-- The loop of `FileContainer::Fix`; one unit of `fuel` per turn. `none` when
the fuel runs out. -/
def FixLoop : Nat → Family → Nat → Nat → Nat → Nat → Option Family
  | 0, _, _, _, _, _ => none
  | fuel + 1, d, maxFileSize, newContainerSize, size, fileCount =>
    if size ≥ newContainerSize then
      match d.file fileCount with
      | none => some d
      | some _ => FixLoop fuel (d.set fileCount none) maxFileSize newContainerSize size (fileCount + 1)
    else if newContainerSize - size ≥ maxFileSize then
      FixLoop fuel (d.createSized fileCount maxFileSize) maxFileSize newContainerSize
        (size + maxFileSize) (fileCount + 1)
    else
      FixLoop fuel (d.createSized fileCount (newContainerSize - size)) maxFileSize newContainerSize
        newContainerSize (fileCount + 1)

/-- `FileContainer::Fix(baseFile, maxFileSize, newContainerSize)` on the family
of `baseFile`. -/
def Fix (d : Family) (maxFileSize newContainerSize : Nat) : Option Family :=
  FixLoop (newContainerSize + d.length + 2) d maxFileSize newContainerSize 0 0

/-- The logical byte sequence of the container: unit 0, then unit 1, ... -/
def Content (c : FileContainer) : List Byte := c.mFilesHandles.flatten

/-- The unit-size invariant on the list of unit files: every unit but the last
holds exactly `S` bytes, the last one at most `S`. -/
def UnitsInv (S : Nat) : List File → Prop
  | [] => True
  | [file] => file.Size ≤ S
  | file :: next :: rest => file.Size = S ∧ UnitsInv S (next :: rest)

instance UnitsInv.decide (S : Nat) : (units : List File) → Decidable (UnitsInv S units)
  | [] => isTrue trivial
  | [file] => inferInstanceAs (Decidable (file.Size ≤ S))
  | file :: next :: rest =>
    have := UnitsInv.decide S (next :: rest)
    inferInstanceAs (Decidable (file.Size = S ∧ UnitsInv S (next :: rest)))

/-- The unit-size invariant of a file container. -/
def UnitSizeInvariant (c : FileContainer) : Prop := UnitsInv c.mMaxFileUnitSize c.mFilesHandles

instance (c : FileContainer) : Decidable c.UnitSizeInvariant :=
  inferInstanceAs (Decidable (UnitsInv _ _))

end FileContainer

/-! ## `TemporalContainer` -/

/-- The difference `a - b` of two `uint64_t` values (below `2 ^ 64`), which
wraps around when `b` is the larger one. -/
def sub64 (a b : Nat) : Nat := if b ≤ a then a - b else a + 2 ^ 64 - b

/-- `memcpy(cache + offset, buffer, buffer.length)` on a cache buffer. -/
def memcpy (cache : List Byte) (offset : Nat) (buffer : List Byte) : List Byte :=
  cache.take offset ++ buffer ++ cache.drop (offset + buffer.length)

/-- The state of a `TemporalContainer`. `mCache_2` and `mFileContainer` are
`none` for a null pointer; `mMaxFileSize` is `settings.mMaxFileSize`, which
`FillCache` passes to the constructor of the spill file. The state after a
throw is not modelled. -/
structure TemporalContainer where
  mFileContainer : Option FileContainer
  mCache_1 : List Byte
  mCache_2 : Option (List Byte)
  mCacheStartPos_1 : Nat
  mCacheEndPos_1 : Nat
  mCacheStartPos_2 : Nat
  mCacheEndPos_2 : Nat
  mCacheSize : Nat
  mDirtyCache_1 : Bool
  mDirtyCache_2 : Bool
  mCache1LastUsed : Bool
  mMaxFileSize : Nat
  deriving DecidableEq, Repr

namespace TemporalContainer

/-- `TemporalContainer::TemporalContainer(reservedMemory)`; the bytes of a new
cache buffer are not initialised, they are taken to be zero. -/
def New (reservedMemory maxFileSize : Nat) : TemporalContainer :=
  { mFileContainer := none
    mCache_1 := List.replicate (reservedMemory / 2) 0
    mCache_2 := none
    mCacheStartPos_1 := 0
    mCacheEndPos_1 := 0
    mCacheStartPos_2 := 0
    mCacheEndPos_2 := 0
    mCacheSize := reservedMemory / 2
    mDirtyCache_1 := false
    mDirtyCache_2 := false
    mCache1LastUsed := true
    mMaxFileSize := maxFileSize }

/-- `TemporalContainer::Size()`, without its assertions. -/
def Size (t : TemporalContainer) : Nat :=
  match t.mFileContainer with
  | some file => max (max t.mCacheEndPos_1 t.mCacheEndPos_2) file.Size
  | none => max t.mCacheEndPos_1 t.mCacheEndPos_2

/-- `mFileContainer->Write(...)` inside the temporal container. -/
def fileWrite (file : FileContainer) (toPos : Nat) (buffer : List Byte) :
    Except Failure FileContainer :=
  match file.Write toPos buffer with
  | .ok f => .ok f
  | .error e => .error e.1

/-- "if (mDirtyCache_1) { mFileContainer->Write(mCacheStartPos_1, ...); mDirtyCache_1 = false; }" -/
def FlushCache_1 (t : TemporalContainer) (file : FileContainer) :
    Except Failure (TemporalContainer × FileContainer) :=
  if t.mDirtyCache_1 then
    match fileWrite file t.mCacheStartPos_1
        (t.mCache_1.take (t.mCacheEndPos_1 - t.mCacheStartPos_1)) with
    | .error e => .error e
    | .ok f => .ok ({ t with mFileContainer := some f, mDirtyCache_1 := false }, f)
  else .ok (t, file)

/-- "if (mDirtyCache_2) { mFileContainer->Write(mCacheStartPos_2, ...); mDirtyCache_2 = false; }" -/
def FlushCache_2 (t : TemporalContainer) (file : FileContainer) :
    Except Failure (TemporalContainer × FileContainer) :=
  if t.mDirtyCache_2 then
    match fileWrite file t.mCacheStartPos_2
        ((t.mCache_2.getD []).take (t.mCacheEndPos_2 - t.mCacheStartPos_2)) with
    | .error e => .error e
    | .ok f => .ok ({ t with mFileContainer := some f, mDirtyCache_2 := false }, f)
  else .ok (t, file)

/-- `TemporalContainer::FillCache(position)`. The spill file is a
`TemporalFileContainer`, whose constructor takes the unit size as a `const
uint32_t`: of `settings.mMaxFileSize` the low 32 bits are left. -/
def FillCache (t : TemporalContainer) (position : Nat) : Except Failure TemporalContainer :=
  if t.mCacheSize = 0 then .error .UNDEFINED else
  let position := position - position % t.mCacheSize
  if t.mCacheStartPos_1 = position then .ok t
  else if t.mCache_2.isSome ∧ t.mCacheStartPos_2 = position then .ok t
  else if t.mCache_2.isNone ∧ position = t.mCacheSize then
    .ok { t with
      mCache_2 := some (List.replicate t.mCacheSize 0)
      mCacheStartPos_2 := t.mCacheSize
      mCacheEndPos_2 := t.mCacheSize
      mDirtyCache_2 := false
      mCache1LastUsed := false }
  else
    match t.mFileContainer with
    | none =>
      let file : FileContainer :=
        { mMaxFileUnitSize := t.mMaxFileSize % 2 ^ 32, mFilesHandles := [] }
      match fileWrite file 0 (t.mCache_1.take t.mCacheSize) with
      | .error e => .error e
      | .ok file1 =>
        match t.mCache_2 with
        | none => .error .UNDEFINED
        | some cache_2 =>
          match fileWrite file1 t.mCacheSize (cache_2.take t.mCacheSize) with
          | .error e => .error e
          | .ok file2 =>
            .ok { t with
              mFileContainer := some file2
              mDirtyCache_1 := false
              mDirtyCache_2 := false
              mCacheStartPos_1 := position
              mCacheEndPos_1 := position
              mCache1LastUsed := true }
    | some file =>
      if t.mCache1LastUsed then
        match FlushCache_2 t file with
        | .error e => .error e
        | .ok (t1, file1) =>
          match (if position ≥ file1.Size then FlushCache_1 t1 file1 else .ok (t1, file1)) with
          | .error e => .error e
          | .ok (t2, file2) =>
            let toRead := min t2.mCacheSize (sub64 file2.Size position)
            match file2.Read position toRead with
            | .error e => .error e
            | .ok data =>
              .ok { t2 with
                mCache_2 := some (memcpy (t2.mCache_2.getD []) 0 data)
                mCacheStartPos_2 := position
                mCacheEndPos_2 := position + toRead
                mCache1LastUsed := false }
      else
        match FlushCache_1 t file with
        | .error e => .error e
        | .ok (t1, file1) =>
          match (if position ≥ file1.Size then FlushCache_2 t1 file1 else .ok (t1, file1)) with
          | .error e => .error e
          | .ok (t2, file2) =>
            let toRead := min t2.mCacheSize (sub64 file2.Size position)
            match file2.Read position toRead with
            | .error e => .error e
            | .ok data =>
              .ok { t2 with
                mCache_1 := memcpy t2.mCache_1 0 data
                mCacheStartPos_1 := position
                mCacheEndPos_1 := position + toRead
                mCache1LastUsed := true }

/-- The `while (size > 0)` loop of `TemporalContainer::Write`; one unit of
`fuel` per turn. -/
def WriteLoop : Nat → TemporalContainer → Nat → List Byte → Except Failure TemporalContainer
  | 0, _, _, _ => .error .UNDEFINED
  | fuel + 1, t, toPos, buffer =>
    let size := buffer.length
    if size > 0 then
      if t.mCacheStartPos_1 ≤ toPos ∧ toPos < t.mCacheStartPos_1 + t.mCacheSize then
        let toWrite := min size (t.mCacheStartPos_1 + t.mCacheSize - toPos)
        WriteLoop fuel
          { t with
            mCache_1 := memcpy t.mCache_1 (toPos - t.mCacheStartPos_1) (buffer.take toWrite)
            mCacheEndPos_1 :=
              if toPos + toWrite > t.mCacheEndPos_1 then toPos + toWrite else t.mCacheEndPos_1
            mDirtyCache_1 := true }
          (toPos + toWrite) (buffer.drop toWrite)
      else if t.mCache_2.isSome
          ∧ (t.mCacheStartPos_2 ≤ toPos ∧ toPos < t.mCacheStartPos_2 + t.mCacheSize) then
        let toWrite := min size (t.mCacheStartPos_2 + t.mCacheSize - toPos)
        WriteLoop fuel
          { t with
            mCache_2 := some (memcpy (t.mCache_2.getD []) (toPos - t.mCacheStartPos_2)
              (buffer.take toWrite))
            mCacheEndPos_2 :=
              if toPos + toWrite > t.mCacheEndPos_2 then toPos + toWrite else t.mCacheEndPos_2
            mDirtyCache_2 := true }
          (toPos + toWrite) (buffer.drop toWrite)
      else
        match t.FillCache toPos with
        | .error e => .error e
        | .ok t1 => WriteLoop fuel t1 toPos buffer
    else .ok t

/-- `TemporalContainer::Write(to, size, buffer)`: a turn of the loop either
writes a byte or fills a cache for the next turn. -/
def Write (t : TemporalContainer) (toPos : Nat) (buffer : List Byte) :
    Except Failure TemporalContainer :=
  if toPos > t.Size then .error .INVALID_ACCESS_POSITION
  else WriteLoop (2 * buffer.length + 1) t toPos buffer

/-- The `while (size > 0)` loop of `TemporalContainer::Read`; the bytes read so
far are in front of the result. -/
def ReadLoop : Nat → TemporalContainer → Nat → Nat → Except Failure (TemporalContainer × List Byte)
  | 0, _, _, _ => .error .UNDEFINED
  | fuel + 1, t, fromPos, size =>
    if size > 0 then
      if t.mCacheStartPos_1 ≤ fromPos ∧ fromPos < t.mCacheEndPos_1 then
        let toRead := min size (t.mCacheEndPos_1 - fromPos)
        match ReadLoop fuel t (fromPos + toRead) (size - toRead) with
        | .error e => .error e
        | .ok (t1, rest) =>
          .ok (t1, ((t.mCache_1.drop (fromPos - t.mCacheStartPos_1)).take toRead) ++ rest)
      else if t.mCache_2.isSome
          ∧ (t.mCacheStartPos_2 ≤ fromPos ∧ fromPos < t.mCacheEndPos_2) then
        let toRead := min size (t.mCacheEndPos_2 - fromPos)
        match ReadLoop fuel t (fromPos + toRead) (size - toRead) with
        | .error e => .error e
        | .ok (t1, rest) =>
          .ok (t1, (((t.mCache_2.getD []).drop (fromPos - t.mCacheStartPos_2)).take toRead)
            ++ rest)
      else
        match t.FillCache fromPos with
        | .error e => .error e
        | .ok t1 => ReadLoop fuel t1 fromPos size
    else .ok (t, [])

/-- `TemporalContainer::Read(from, size, buffer)`: the state it leaves and the
content of `buffer`. The sum `from + size` of the bounds test is a sum of two
`uint64_t` values, which wraps around at `2 ^ 64`. -/
def Read (t : TemporalContainer) (fromPos size : Nat) :
    Except Failure (TemporalContainer × List Byte) :=
  if (fromPos + size) % 2 ^ 64 > t.Size then .error .INVALID_ACCESS_POSITION
  else ReadLoop (2 * size + 1) t fromPos size

/-- The copy loop of `TemporalContainer::Colapse` for two caches and no spill
file, through a bounce buffer of 128 bytes. -/
def ColapseLoop : Nat → TemporalContainer → Nat → Nat → Nat → Except Failure TemporalContainer
  | 0, _, _, _, _ => .error .UNDEFINED
  | fuel + 1, t, tempFrom, tempTo, containerSize =>
    if tempTo < containerSize then
      let stepSize := if tempTo + 128 > containerSize then containerSize - tempTo else 128
      match t.Read tempTo stepSize with
      | .error e => .error e
      | .ok (t1, stepBuffer) =>
        match t1.Write tempFrom stepBuffer with
        | .error e => .error e
        | .ok t2 => ColapseLoop fuel t2 (tempFrom + stepSize) (tempTo + stepSize) containerSize
    else .ok t

/-- The first part of `TemporalContainer::Colapse`: the bytes are removed from
the caches or from the spill file. An assertion of the code that fails is
reported as `UNDEFINED`. -/
def ColapseContent (t : TemporalContainer) (fromPos toPos containerSize : Nat) :
    Except Failure TemporalContainer :=
  match t.mFileContainer with
  | none =>
    if t.mCache_2.isSome then
      if t.mCacheStartPos_1 = 0 ∧ t.mCacheEndPos_1 = t.mCacheSize ∧
          t.mCacheStartPos_2 = t.mCacheSize ∧ t.mCacheEndPos_2 ≤ 2 * t.mCacheSize ∧
          containerSize = t.mCacheEndPos_2 then
        match ColapseLoop (containerSize - toPos + 1) t fromPos toPos containerSize with
        | .error e => .error e
        | .ok t1 =>
          if toPos ≤ t1.mCacheEndPos_2 then
            let t2 := { t1 with mCacheEndPos_2 := t1.mCacheEndPos_2 - (toPos - fromPos) }
            if t2.mCacheEndPos_2 ≤ t2.mCacheSize then
              .ok { t2 with
                mCacheEndPos_1 := t2.mCacheEndPos_2
                mCacheStartPos_2 := 0
                mCacheEndPos_2 := 0
                mCache_2 := none
                mCache1LastUsed := true }
            else .ok t2
          else .error .UNDEFINED
      else .error .UNDEFINED
    else
      if containerSize = t.mCacheEndPos_1 ∧ (containerSize = 0 ∨ t.mDirtyCache_1 = true) then
        let remainSize := t.mCacheEndPos_1 - toPos
        .ok { t with
          mCache_1 := memcpy t.mCache_1 fromPos ((t.mCache_1.drop toPos).take remainSize)
          mCacheEndPos_1 := t.mCacheEndPos_1 - (toPos - fromPos) }
      else .error .UNDEFINED
  | some file =>
    if t.mCache_2.isSome then
      match FlushCache_1 t file with
      | .error e => .error e
      | .ok (t1, file1) =>
        match FlushCache_2 t1 file1 with
        | .error e => .error e
        | .ok (t2, file2) =>
          match file2.Colapse fromPos toPos with
          | .error e => .error e.1
          | .ok file3 => .ok { t2 with mFileContainer := some file3 }
    else .error .UNDEFINED

/-- The second part of `TemporalContainer::Colapse`: the spill file is dropped
when two caches hold what is left, else both caches are filled again. An
assertion of the code that fails is reported as `UNDEFINED`. -/
def ColapseRefill (t : TemporalContainer) (fromPos : Nat) : Except Failure TemporalContainer :=
  match t.mFileContainer with
  | none => .ok t
  | some file =>
    if file.Size ≤ 2 * t.mCacheSize then
      let step1 : Except Failure TemporalContainer :=
        if file.Size > t.mCacheSize then
          if t.mCache_2.isSome then
            match file.Read t.mCacheSize (file.Size - t.mCacheSize) with
            | .error e => .error e
            | .ok data =>
              .ok { t with
                mCacheStartPos_2 := t.mCacheSize
                mCacheEndPos_2 := file.Size
                mCache_2 := some (memcpy (t.mCache_2.getD []) 0 data)
                mDirtyCache_2 := false }
          else .error .UNDEFINED
        else if t.mCache_2.isSome then
          .ok { t with
            mCacheStartPos_2 := 0
            mCacheEndPos_2 := 0
            mDirtyCache_2 := false
            mCache1LastUsed := true
            mCache_2 := none }
        else .ok t
      match step1 with
      | .error e => .error e
      | .ok t1 =>
        let endPos := min file.Size t1.mCacheSize
        match file.Read 0 (endPos - 0) with
        | .error e => .error e
        | .ok data =>
          .ok { t1 with
            mCacheStartPos_1 := 0
            mCacheEndPos_1 := endPos
            mCache_1 := memcpy t1.mCache_1 0 data
            mDirtyCache_1 := false
            mFileContainer := none }
    else
      if t.mCache_2.isSome ∧ t.mDirtyCache_1 = false ∧ t.mDirtyCache_2 = false then
        if t.mCacheSize = 0 then .error .UNDEFINED else
        match file.Read 0 (t.mCacheSize - 0) with
        | .error e => .error e
        | .ok data1 =>
          let fromPos := fromPos - fromPos % t.mCacheSize
          let fromPos := if fromPos = 0 then t.mCacheSize else fromPos
          let endPos := min file.Size (fromPos + t.mCacheSize)
          match file.Read fromPos (endPos - fromPos) with
          | .error e => .error e
          | .ok data2 =>
            .ok { t with
              mCacheStartPos_1 := 0
              mCacheEndPos_1 := t.mCacheSize
              mCache_1 := memcpy t.mCache_1 0 data1
              mCacheStartPos_2 := fromPos
              mCacheEndPos_2 := endPos
              mCache_2 := some (memcpy (t.mCache_2.getD []) 0 data2)
              mCache1LastUsed := false }
      else .error .UNDEFINED

/-- `TemporalContainer::Colapse(from, to)`. The assertions of `Size()`, `Write`,
`Read` and `FillCache` are about the alignment and the order of the cache
windows; they are not part of the model. -/
def Colapse (t : TemporalContainer) (fromPos toPos : Nat) : Except Failure TemporalContainer :=
  let containerSize := t.Size
  if toPos < fromPos ∨ containerSize < toPos then .error .INVALID_PARAMETERS
  else
    match t.ColapseContent fromPos toPos containerSize with
    | .error e => .error e
    | .ok t1 => t1.ColapseRefill fromPos

/-- The byte a `Read` finds at position `p`: in the first cache, else in the
second cache, else in the spill file. -/
def byteAt (t : TemporalContainer) (p : Nat) : Option Byte :=
  if t.mCacheStartPos_1 ≤ p ∧ p < t.mCacheEndPos_1 then t.mCache_1[p - t.mCacheStartPos_1]?
  else if t.mCache_2.isSome ∧ (t.mCacheStartPos_2 ≤ p ∧ p < t.mCacheEndPos_2) then
    (t.mCache_2.getD [])[p - t.mCacheStartPos_2]?
  else
    match t.mFileContainer with
    | some file => file.Content[p]?
    | none => none

/-- The container represents the flat byte array `l`. -/
def Refines (t : TemporalContainer) (l : List Byte) : Prop :=
  l.length = t.Size ∧ ∀ p, l[p]? = t.byteAt p

/-- State 1: the first cache only. -/
def Inv1 (t : TemporalContainer) : Prop :=
  t.mFileContainer = none ∧ t.mCache_2 = none ∧ t.mCacheStartPos_1 = 0 ∧
  t.mCacheEndPos_1 ≤ t.mCacheSize ∧ t.mCacheStartPos_2 = 0 ∧ t.mCacheEndPos_2 = 0

/-- State 2: both caches, no spill file. -/
def Inv2 (t : TemporalContainer) : Prop :=
  t.mFileContainer = none ∧ (∃ cache_2, t.mCache_2 = some cache_2 ∧ cache_2.length = t.mCacheSize) ∧
  t.mCacheStartPos_1 = 0 ∧ t.mCacheEndPos_1 = t.mCacheSize ∧
  t.mCacheStartPos_2 = t.mCacheSize ∧ t.mCacheSize ≤ t.mCacheEndPos_2 ∧
  t.mCacheEndPos_2 ≤ 2 * t.mCacheSize

/-- What state 3 asks of one cache with window start `s`, end `e`, buffer `cache`
and dirty flag `dirty`, over the bytes `F` of the spill file: the window is
aligned and starts inside the file, a window that is not full ends the file, and
a clean cache holds what the file holds. -/
def CacheOk (cacheSize : Nat) (F : List Byte) (s e : Nat) (cache : List Byte) (dirty : Bool) :
    Prop :=
  s % cacheSize = 0 ∧ s ≤ e ∧ e ≤ s + cacheSize ∧ s ≤ F.length ∧
  (e < s + cacheSize → F.length ≤ e) ∧
  (dirty = false → e ≤ F.length ∧ ∀ p, s ≤ p → p < e → F[p]? = cache[p - s]?)

/-- State 3: both caches over a spill file. -/
def Inv3 (t : TemporalContainer) : Prop :=
  ∃ file cache_2, t.mFileContainer = some file ∧ t.mCache_2 = some cache_2 ∧
    cache_2.length = t.mCacheSize ∧ 0 < file.mMaxFileUnitSize ∧ file.UnitSizeInvariant ∧
    2 * t.mCacheSize ≤ file.Content.length ∧ t.mCacheStartPos_1 ≠ t.mCacheStartPos_2 ∧
    CacheOk t.mCacheSize file.Content t.mCacheStartPos_1 t.mCacheEndPos_1 t.mCache_1
      t.mDirtyCache_1 ∧
    CacheOk t.mCacheSize file.Content t.mCacheStartPos_2 t.mCacheEndPos_2 cache_2
      t.mDirtyCache_2

/-- Position `p` lies in the window of one of the caches. -/
def Covered (t : TemporalContainer) (p : Nat) : Prop :=
  (t.mCacheStartPos_1 ≤ p ∧ p < t.mCacheStartPos_1 + t.mCacheSize) ∨
  (t.mCache_2.isSome ∧ (t.mCacheStartPos_2 ≤ p ∧ p < t.mCacheStartPos_2 + t.mCacheSize))

/-- What a step from `t` to `t2` keeps: the cache size, the unit size of spill
files and the second cache; below `2 * mCacheSize` (position `p`) no spill file
is created. -/
def Keeps (t t2 : TemporalContainer) (p : Nat) : Prop :=
  t2.mCacheSize = t.mCacheSize ∧ t2.mMaxFileSize = t.mMaxFileSize ∧
  (p < 2 * t.mCacheSize → t.mFileContainer = none → t2.mFileContainer = none) ∧
  (t.mCache_2.isSome → t2.mCache_2.isSome)

/-- The invariant of the temporal container. -/
def Inv (t : TemporalContainer) : Prop :=
  0 < t.mCacheSize ∧ 0 < t.mMaxFileSize % 2 ^ 32 ∧ t.mCache_1.length = t.mCacheSize ∧
  (t.Inv1 ∨ t.Inv2 ∨ t.Inv3)

end TemporalContainer

/-- A flat byte array written at `pos` (not past its end): the reference
behaviour of a container `write`. -/
def flatWrite (l : List Byte) (pos : Nat) (buffer : List Byte) : List Byte :=
  l.take pos ++ buffer ++ l.drop (pos + buffer.length)

/-- A flat byte array read at `[pos, pos + count)`. -/
def flatRead (l : List Byte) (pos count : Nat) : List Byte := (l.drop pos).take count

/-- A flat byte array without its bytes `[fromPos, toPos)`. -/
def flatColapse (l : List Byte) (fromPos toPos : Nat) : List Byte :=
  l.take fromPos ++ l.drop toPos

end pastra
end whais

/-! ## Sequences of calls on a container -/

namespace whais
namespace pastra

/-- One call on a container. -/
inductive Op where
  | Write (toPos : Nat) (buffer : List Byte)
  | Read (fromPos size : Nat)
  | Colapse (fromPos toPos : Nat)
  deriving DecidableEq, Repr

/-- What a caller sees of one call: the bytes a `Read` leaves in its buffer
(none for the other calls) and what `Size()` returns after the call. -/
structure Observation where
  bytes : List Byte
  size : Nat
  deriving DecidableEq, Repr

/-- One call on a temporal container, followed by `Size()`. -/
def TemporalContainer.call (t : TemporalContainer) :
    Op → Except Failure (TemporalContainer × Observation)
  | .Write toPos buffer =>
    match t.Write toPos buffer with
    | .error e => .error e
    | .ok t2 => .ok (t2, ⟨[], t2.Size⟩)
  | .Read fromPos size =>
    match t.Read fromPos size with
    | .error e => .error e
    | .ok (t2, buffer) => .ok (t2, ⟨buffer, t2.Size⟩)
  | .Colapse fromPos toPos =>
    match t.Colapse fromPos toPos with
    | .error e => .error e
    | .ok t2 => .ok (t2, ⟨[], t2.Size⟩)

/-- A sequence of calls on a temporal container: what the caller sees of every
call, or the first exception. -/
def TemporalContainer.run : TemporalContainer → List Op → Except Failure (List Observation)
  | _, [] => .ok []
  | t, op :: ops =>
    match t.call op with
    | .error e => .error e
    | .ok (t2, seen) =>
      match TemporalContainer.run t2 ops with
      | .error e => .error e
      | .ok rest => .ok (seen :: rest)

/-- One call on a flat byte array: the array after the call and what the caller
sees of it. -/
def flatCall (l : List Byte) : Op → List Byte × Observation
  | .Write toPos buffer => (flatWrite l toPos buffer, ⟨[], (flatWrite l toPos buffer).length⟩)
  | .Read fromPos size => (l, ⟨flatRead l fromPos size, l.length⟩)
  | .Colapse fromPos toPos =>
    (flatColapse l fromPos toPos, ⟨[], (flatColapse l fromPos toPos).length⟩)

/-- A sequence of calls on a flat byte array. -/
def flatRun : List Byte → List Op → List Observation
  | _, [] => []
  | l, op :: ops => (flatCall l op).2 :: flatRun (flatCall l op).1 ops

/-- The call is within the bounds of a container that holds `l`: a `Write` not
past the end, a `Read` of bytes that are there, a `Colapse` of a range of the
content. -/
def Op.InBounds (l : List Byte) : Op → Prop
  | .Write toPos _ => toPos ≤ l.length
  | .Read fromPos size => fromPos + size ≤ l.length
  | .Colapse fromPos toPos => fromPos ≤ toPos ∧ toPos ≤ l.length

instance Op.InBounds.decide (l : List Byte) : (op : Op) → Decidable (op.InBounds l)
  | .Write toPos _ => inferInstanceAs (Decidable (toPos ≤ l.length))
  | .Read fromPos size => inferInstanceAs (Decidable (fromPos + size ≤ l.length))
  | .Colapse fromPos toPos => inferInstanceAs (Decidable (fromPos ≤ toPos ∧ toPos ≤ l.length))

/-- Every call of the sequence is within bounds when its turn comes. -/
def AllInBounds : List Byte → List Op → Prop
  | _, [] => True
  | l, op :: ops => op.InBounds l ∧ AllInBounds (flatCall l op).1 ops

instance AllInBounds.decide : (l : List Byte) → (ops : List Op) → Decidable (AllInBounds l ops)
  | _, [] => isTrue trivial
  | l, op :: ops =>
    have := AllInBounds.decide (flatCall l op).1 ops
    inferInstanceAs (Decidable (op.InBounds l ∧ AllInBounds (flatCall l op).1 ops))

end pastra
end whais

/-!
# WHAIS storage engine (pastra): the variable-size heap

A shallow embedding of `src/dbs/pastra/ps_varstorage.cpp` and
`ps_varstorage.h`.

* The store is the sequence of its entries, entry `i` being bytes
  `[64 i, 64 i + 64)` of the entries container.
* The two flag bits of the `mNextEntry` field are the fields `mDeleted` and
  `mFirst` of an entry, the other 62 bits the field `mNextEntry`.
* An assertion of the source is checked: where it fails, and where an entry
  past the end of the store is accessed, the operation ends with
  `StoreFailure.UNDEFINED`.
* `uint_t` is `unsigned int`, 32 bits wide.
* The locks are left out: one thread.
-/

namespace whais
namespace pastra

/-- The code `GENERAL_CONTROL_ERROR` of the `DBSException` thrown by the heap,
and `UNDEFINED` for a failed assertion, an access outside the store or outside
an array, a loop that does not end, and a container that is full. -/
inductive StoreFailure where
  | GENERAL_CONTROL_ERROR
  | UNDEFINED
  deriving DecidableEq, Repr

/-- Bits 0 to 61 of a 64-bit word: what the two flag masks leave. -/
def clearFlags (content : Nat) : Nat := content % 2 ^ 62

/-- Bit 63 of a 64-bit word, `ENTRY_DELETED_MASK`. -/
def deletedFlag (content : Nat) : Bool := content / 2 ^ 63 % 2 = 1

/-- Bit 62 of a 64-bit word, `FIRST_RECORD_ENTRY`. -/
def firstFlag (content : Nat) : Bool := content / 2 ^ 62 % 2 = 1

/-- Class `StoreEntry`: `mPrevEntry`, `mNextEntry` without its two flag bits,
the flag bits `ENTRY_DELETED_MASK` and `FIRST_RECORD_ENTRY`, and `mRawData`. -/
structure StoreEntry where
  mPrevEntry : Nat
  mNextEntry : Nat
  mDeleted : Bool
  mFirst : Bool
  mRawData : List Byte
  deriving DecidableEq, Repr

namespace StoreEntry

def LAST_DELETED_ENTRY : Nat := 0x0FFFFFFFFFFFFFFF

def LAST_CHAINED_ENTRY : Nat := 0x0FFFFFFFFFFFFFFF

def ENTRY_SIZE : Nat := 48

/-- `sizeof (StoreEntry)`. -/
def sizeofEntry : Nat := 64

/-- `StoreEntry::StoreEntry()`: every byte is `0xFF`. -/
def New : StoreEntry :=
  { mPrevEntry := 2 ^ 64 - 1
    mNextEntry := 2 ^ 62 - 1
    mDeleted := true
    mFirst := true
    mRawData := List.replicate ENTRY_SIZE 0xFF }

def MarkAsDeleted (e : StoreEntry) (deleted : Bool) : StoreEntry := { e with mDeleted := deleted }

def MarkAsFirstEntry (e : StoreEntry) (first : Bool) : StoreEntry := { e with mFirst := first }

def IsDeleted (e : StoreEntry) : Bool := e.mDeleted

def IsFirstEntry (e : StoreEntry) : Bool := e.mFirst

/-- `PrevEntry()`. -/
def PrevEntry (e : StoreEntry) : Nat := e.mPrevEntry

/-- `PrevEntry(content)`. -/
def SetPrevEntry (e : StoreEntry) (content : Nat) : StoreEntry :=
  { e with mPrevEntry := content % 2 ^ 64 }

/-- `NextEntry()`. -/
def NextEntry (e : StoreEntry) : Nat := e.mNextEntry

/-- `NextEntry(content)`: the flag bits are kept and `content` is or-ed in. -/
def SetNextEntry (e : StoreEntry) (content : Nat) : StoreEntry :=
  { e with
    mNextEntry := clearFlags content
    mDeleted := e.mDeleted || deletedFlag content
    mFirst := e.mFirst || firstFlag content }

/-- `StoreEntry::Size()`. -/
def Size : Nat := ENTRY_SIZE

/-- `StoreEntry::Read(offset, count, buffer)`, its two `uint_t` parameters
taken from 64-bit values: the bytes copied to `buffer`. A copy that leaves
`mRawData` is undefined. -/
def Read (e : StoreEntry) (offset count : Nat) : Except StoreFailure (List Byte) :=
  let offset := offset % 2 ^ 32
  let count := count % 2 ^ 32
  let count := if (count + offset) % 2 ^ 32 > Size then (Size + 2 ^ 32 - offset) % 2 ^ 32 else count
  if offset + count ≤ e.mRawData.length then .ok ((e.mRawData.drop offset).take count)
  else .error .UNDEFINED

/-- `StoreEntry::Write(offset, count, buffer)`, its two `uint_t` parameters
taken from 64-bit values, `buffer` holding at least the 64-bit `count` bytes: the
count returned and the entry. A copy that leaves `mRawData` is undefined. -/
def Write (e : StoreEntry) (offset count : Nat) (buffer : List Byte) :
    Except StoreFailure (Nat × StoreEntry) :=
  let offset := offset % 2 ^ 32
  let count := count % 2 ^ 32
  let count := if (count + offset) % 2 ^ 32 > Size then (Size + 2 ^ 32 - offset) % 2 ^ 32 else count
  if offset + count ≤ e.mRawData.length then
    .ok (count, { e with mRawData := memcpy e.mRawData offset (buffer.take count) })
  else .error .UNDEFINED

end StoreEntry

/-- Class `VariableSizeStore`. `mEntries` is the entries container seen through
the entries cache. -/
structure VariableSizeStore where
  mEntries : List StoreEntry
  mFirstFreeEntry : Nat
  mEntriesCount : Nat
  deriving DecidableEq, Repr

namespace VariableSizeStore

open StoreEntry

/-- An `assert` of the source. -/
def assert (condition : Bool) : Except StoreFailure Unit :=
  if condition then .ok () else .error .UNDEFINED

/-- Modelled from the spec: `mEntriesCache.RetriveItem(item)` followed by
`GetDataForRead()` or `GetDataForUpdate()`. The block cache (ps_blockcache.h,
not in src/) is a write-back cache over the backing store: a reference to entry
`item` of the store. -/
def RetriveItem (s : VariableSizeStore) (item : Nat) : Except StoreFailure StoreEntry :=
  match s.mEntries[item]? with
  | some entry => .ok entry
  | none => .error .UNDEFINED

/-- Modelled from the spec: an assignment through the pointer that
`GetDataForUpdate()` returned for entry `item`. -/
def Store (s : VariableSizeStore) (item : Nat) (entry : StoreEntry) : VariableSizeStore :=
  { s with mEntries := s.mEntries.set item entry }

/-- The assignment `mFirstFreeEntry = entryId`. -/
def SetFirstFreeEntry (s : VariableSizeStore) (entryId : Nat) : VariableSizeStore :=
  { s with mFirstFreeEntry := entryId }

/-- `mEntriesContainer->Write(insertPos, sizeof (newEntry), ...)` at the end of
the container, with `++mEntriesCount`. -/
def Append (s : VariableSizeStore) (newEntry : StoreEntry) : VariableSizeStore :=
  { s with mEntries := s.mEntries ++ [newEntry], mEntriesCount := s.mEntriesCount + 1 }

/-- `VariableSizeStore::Init(tempDir, reservedMem)` with `FinishInit()`: an
empty container gets entry 0, the head of the list of free entries. -/
def Init : VariableSizeStore :=
  let entry := (((StoreEntry.New.MarkAsDeleted true).MarkAsFirstEntry false).SetPrevEntry 0
    ).SetNextEntry LAST_DELETED_ENTRY
  { mEntries := [entry]
    mFirstFreeEntry := entry.NextEntry
    mEntriesCount := 1 }

/-- `VariableSizeStore::ExtentFreeList()`. The entries container takes the new
entry at its end while its size stays below `2 ^ 64`. -/
def ExtentFreeList (s : VariableSizeStore) : Except StoreFailure (VariableSizeStore × Nat) := do
  assert (s.mFirstFreeEntry = LAST_DELETED_ENTRY)
  let newEntry := (((StoreEntry.New.MarkAsDeleted true).SetPrevEntry 0).SetNextEntry
    LAST_DELETED_ENTRY).MarkAsFirstEntry false
  let insertPos := s.mEntries.length * sizeofEntry
  if insertPos + sizeofEntry ≥ 2 ^ 64 then .error .UNDEFINED else
  let s := s.SetFirstFreeEntry (insertPos / sizeofEntry)
  let s := s.Append newEntry
  let entry ← s.RetriveItem 0
  let s := s.Store 0 (entry.SetNextEntry s.mFirstFreeEntry)
  .ok (s, s.mFirstFreeEntry)

/-- `VariableSizeStore::ExtractFromFreeList(entryId)`. -/
def ExtractFromFreeList (s : VariableSizeStore) (entryId : Nat) :
    Except StoreFailure VariableSizeStore := do
  let entry ← s.RetriveItem entryId
  assert (entryId ≠ 0)
  assert entry.IsDeleted
  assert (entry.IsFirstEntry = false)
  let prevEntry := entry.PrevEntry
  let nextEntry := entry.NextEntry
  assert (prevEntry < s.mEntriesCount)
  assert (nextEntry = LAST_DELETED_ENTRY ∨ nextEntry < s.mEntriesCount)
  let s := s.Store entryId (((entry.MarkAsDeleted false).SetPrevEntry 0).SetNextEntry 0)
  let entry ← s.RetriveItem prevEntry
  assert entry.IsDeleted
  assert (entry.IsFirstEntry = false)
  let s := s.Store prevEntry (entry.SetNextEntry nextEntry)
  let s := if entryId = s.mFirstFreeEntry then s.SetFirstFreeEntry nextEntry else s
  if nextEntry ≠ LAST_DELETED_ENTRY then
    let entry ← s.RetriveItem nextEntry
    assert entry.IsDeleted
    assert (entry.IsFirstEntry = false)
    .ok (s.Store nextEntry (entry.SetPrevEntry prevEntry))
  else .ok s

/-- `VariableSizeStore::AllocateEntry(prevEntryId)`: the store and the entry
allocated. -/
def AllocateEntry (s : VariableSizeStore) (prevEntryId : Nat) :
    Except StoreFailure (VariableSizeStore × Nat) := do
  let foundFree := s.mFirstFreeEntry
  let foundFree ←
    (if prevEntryId + 1 < s.mEntriesCount then
      (s.RetriveItem (prevEntryId + 1)).bind fun entry =>
        .ok (if entry.IsDeleted then prevEntryId + 1 else foundFree)
    else if prevEntryId > 1 then
      (s.RetriveItem (prevEntryId - 1)).bind fun entry =>
        .ok (if entry.IsDeleted then prevEntryId - 1 else foundFree)
    else .ok foundFree)
  let (s, foundFree) ←
    (if foundFree = LAST_DELETED_ENTRY then s.ExtentFreeList else .ok (s, foundFree))
  let s ← s.ExtractFromFreeList foundFree
  let entry ← s.RetriveItem foundFree
  if prevEntryId > 0 then
    let prevEntry ← s.RetriveItem prevEntryId
    let prevNext := prevEntry.NextEntry
    assert (prevEntry.IsDeleted = false)
    assert (prevEntry.NextEntry = LAST_CHAINED_ENTRY)
    let s := s.Store prevEntryId (prevEntry.SetNextEntry foundFree)
    let entry ← s.RetriveItem foundFree
    let entry := ((entry.SetPrevEntry prevEntryId).MarkAsFirstEntry false).SetNextEntry prevNext
    let s := s.Store foundFree entry
    if entry.NextEntry ≠ LAST_CHAINED_ENTRY then
      let nextEntry ← s.RetriveItem entry.NextEntry
      .ok (s.Store entry.NextEntry (nextEntry.SetPrevEntry foundFree), foundFree)
    else .ok (s, foundFree)
  else
    let entry := ((entry.MarkAsFirstEntry true).SetPrevEntry 0).SetNextEntry LAST_CHAINED_ENTRY
    .ok (s.Store foundFree entry, foundFree)

/-- The first loop of `GetRecord`: the entry that holds `offset` and the offset
inside it. One unit of `fuel` per turn. -/
def GetRecordSkip : Nat → VariableSizeStore → Nat → Nat → Except StoreFailure (Nat × Nat)
  | 0, _, _, _ => .error .UNDEFINED
  | fuel + 1, s, recordFirstEntry, offset => do
    if recordFirstEntry = LAST_CHAINED_ENTRY then .error .GENERAL_CONTROL_ERROR else
    let entry ← s.RetriveItem recordFirstEntry
    assert (entry.IsDeleted = false)
    if offset < StoreEntry.Size then .ok (recordFirstEntry, offset)
    else GetRecordSkip fuel s entry.NextEntry (offset - StoreEntry.Size)

/-- The second loop of `GetRecord`: the bytes copied to `buffer`. -/
def GetRecordRead : Nat → VariableSizeStore → Nat → Nat → Nat → Except StoreFailure (List Byte)
  | 0, _, _, _, _ => .error .UNDEFINED
  | fuel + 1, s, recordFirstEntry, offset, size => do
    if size > 0 then
      if recordFirstEntry = LAST_CHAINED_ENTRY then .error .GENERAL_CONTROL_ERROR else
      let entry ← s.RetriveItem recordFirstEntry
      assert (entry.IsDeleted = false)
      let chunkSize := min size (StoreEntry.Size - offset)
      let chunk ← entry.Read offset chunkSize
      let rest ← GetRecordRead fuel s entry.NextEntry ((offset + chunkSize) % StoreEntry.Size)
        (size - chunkSize)
      .ok (chunk ++ rest)
    else .ok []

/-- `VariableSizeStore::GetRecord(recordFirstEntry, offset, size, buffer)`: the
content of `buffer` after the call. The first loop takes 48 from `offset` at
every turn but the last, a turn of the second loop copies a byte at least. -/
def GetRecord (s : VariableSizeStore) (recordFirstEntry offset size : Nat) :
    Except StoreFailure (List Byte) := do
  let (recordFirstEntry, offset) ← GetRecordSkip (offset / StoreEntry.Size + 1) s
    recordFirstEntry offset
  GetRecordRead (size + 1) s recordFirstEntry offset size

/-- The first loop of `UpdateRecord`: the entry that holds `offset` (or the end
of the chain), the entry before it, and the offset inside it. -/
def UpdateRecordSkip : Nat → VariableSizeStore → Nat → Nat → Nat →
    Except StoreFailure (Nat × Nat × Nat)
  | 0, _, _, _, _ => .error .UNDEFINED
  | fuel + 1, s, recordFirstEntry, prevEntry, offset => do
    if recordFirstEntry = LAST_CHAINED_ENTRY then
      if offset ≠ 0 then .error .GENERAL_CONTROL_ERROR
      else .ok (recordFirstEntry, prevEntry, offset)
    else
      let entry ← s.RetriveItem recordFirstEntry
      assert (entry.IsDeleted = false)
      if offset < StoreEntry.Size then .ok (recordFirstEntry, prevEntry, offset)
      else UpdateRecordSkip fuel s entry.NextEntry recordFirstEntry (offset - StoreEntry.Size)

/-- The second loop of `UpdateRecord`; `buffer` holds the `size` bytes left. -/
def UpdateRecordWrite : Nat → VariableSizeStore → Nat → Nat → Nat → List Byte →
    Except StoreFailure VariableSizeStore
  | 0, _, _, _, _, _ => .error .UNDEFINED
  | fuel + 1, s, recordFirstEntry, prevEntry, offset, buffer => do
    let size := buffer.length
    if size > 0 then
      let (s, recordFirstEntry) ←
        (if recordFirstEntry = LAST_CHAINED_ENTRY then s.AllocateEntry prevEntry
        else .ok (s, recordFirstEntry))
      let entry ← s.RetriveItem recordFirstEntry
      assert (entry.IsDeleted = false)
      let (chunkSize, entry) ← entry.Write offset size buffer
      let s := s.Store recordFirstEntry entry
      assert (chunkSize > 0)
      UpdateRecordWrite fuel s entry.NextEntry recordFirstEntry
        ((offset + chunkSize) % StoreEntry.Size) (buffer.drop chunkSize)
    else .ok s

/-- `VariableSizeStore::UpdateRecord(recordFirstEntry, offset, size, buffer)`
with `size` the length of `buffer`. A turn of the second loop writes a byte at
least, the assertion on `chunkSize` holding. -/
def UpdateRecord (s : VariableSizeStore) (recordFirstEntry offset : Nat) (buffer : List Byte) :
    Except StoreFailure VariableSizeStore := do
  let (recordFirstEntry, prevEntry, offset) ← UpdateRecordSkip (offset / StoreEntry.Size + 1) s
    recordFirstEntry recordFirstEntry offset
  UpdateRecordWrite (buffer.length + 1) s recordFirstEntry prevEntry offset buffer

/-- `VariableSizeStore::AddRecord(buffer, size)` with `size` the length of
`buffer`: the store and the first entry of the record. -/
def AddRecord (s : VariableSizeStore) (buffer : List Byte) :
    Except StoreFailure (VariableSizeStore × Nat) := do
  let (s, resultEntry) ← s.AllocateEntry 0
  let entry ← s.RetriveItem resultEntry
  let entry := (((entry.MarkAsDeleted false).MarkAsFirstEntry true).SetNextEntry
    LAST_CHAINED_ENTRY).SetPrevEntry 1
  let s := s.Store resultEntry entry
  if resultEntry ≠ 0 ∧ buffer.length > 0 then
    let s ← s.UpdateRecord resultEntry 0 buffer
    .ok (s, resultEntry)
  else .ok (s, resultEntry)

/-- The end of `AddToFreeList`, for an entry without a deleted neighbour: the
entry goes to the front of the list of free entries. -/
def AddToFreeListFront (s : VariableSizeStore) (entryId : Nat) :
    Except StoreFailure VariableSizeStore := do
  let s ←
    (if s.mFirstFreeEntry ≠ LAST_CHAINED_ENTRY then do
      let neighborEntry ← s.RetriveItem s.mFirstFreeEntry
      assert neighborEntry.IsDeleted
      assert (neighborEntry.IsFirstEntry = false)
      .ok (s.Store s.mFirstFreeEntry (neighborEntry.SetPrevEntry entryId))
    else .ok s)
  let entry ← s.RetriveItem entryId
  let s := s.Store entryId ((entry.SetPrevEntry 0).SetNextEntry s.mFirstFreeEntry)
  let s := s.SetFirstFreeEntry entryId
  let entry ← s.RetriveItem 0
  assert entry.IsDeleted
  assert (entry.IsFirstEntry = false)
  .ok (s.Store 0 (entry.SetNextEntry entryId))

/-- The part of `AddToFreeList` for a deleted entry `entryId + 1`, which is
`neighborEntry`: the entry goes before it in the list of free entries. -/
def AddToFreeListNext (s : VariableSizeStore) (entryId : Nat) (neighborEntry : StoreEntry) :
    Except StoreFailure VariableSizeStore := do
  assert (neighborEntry.IsFirstEntry = false)
  let prevEntry := neighborEntry.PrevEntry
  let s := s.Store (entryId + 1) (neighborEntry.SetPrevEntry entryId)
  let entry ← s.RetriveItem entryId
  let s := s.Store entryId ((entry.SetPrevEntry prevEntry).SetNextEntry (entryId + 1))
  let neighborEntry ← s.RetriveItem prevEntry
  assert neighborEntry.IsDeleted
  assert (neighborEntry.IsFirstEntry = false)
  let s := s.Store prevEntry (neighborEntry.SetNextEntry entryId)
  if s.mFirstFreeEntry = entryId + 1 then
    assert (prevEntry = 0)
    .ok (s.SetFirstFreeEntry entryId)
  else .ok s

/-- The part of `AddToFreeList` for a deleted entry `entryId - 1`, which is
`neighborEntry`: the entry goes after it in the list of free entries. -/
def AddToFreeListPrev (s : VariableSizeStore) (entryId : Nat) (neighborEntry : StoreEntry) :
    Except StoreFailure VariableSizeStore := do
  assert (neighborEntry.IsFirstEntry = false)
  let nextEntry := neighborEntry.NextEntry
  let s := s.Store (entryId - 1) (neighborEntry.SetNextEntry entryId)
  let entry ← s.RetriveItem entryId
  let s := s.Store entryId ((entry.SetNextEntry nextEntry).SetPrevEntry (entryId - 1))
  if nextEntry = LAST_CHAINED_ENTRY then .ok s else
  let neighborEntry ← s.RetriveItem nextEntry
  assert neighborEntry.IsDeleted
  assert (neighborEntry.IsFirstEntry = false)
  .ok (s.Store nextEntry (neighborEntry.SetPrevEntry entryId))

/-- `VariableSizeStore::AddToFreeList(entryId)`. -/
def AddToFreeList (s : VariableSizeStore) (entryId : Nat) :
    Except StoreFailure VariableSizeStore := do
  assert (s.mEntriesCount > entryId)
  let entry ← s.RetriveItem entryId
  assert (entry.IsDeleted = false)
  let s := s.Store entryId ((entry.MarkAsDeleted true).MarkAsFirstEntry false)
  if entryId + 1 < s.mEntriesCount then
    let neighborEntry ← s.RetriveItem (entryId + 1)
    if neighborEntry.IsDeleted then s.AddToFreeListNext entryId neighborEntry
    else s.AddToFreeListFront entryId
  else if entryId > 1 then
    let neighborEntry ← s.RetriveItem (entryId - 1)
    if neighborEntry.IsDeleted then s.AddToFreeListPrev entryId neighborEntry
    else s.AddToFreeListFront entryId
  else s.AddToFreeListFront entryId

/-- The loop of `RemoveRecord`; one unit of `fuel` per entry. -/
def RemoveRecordLoop : Nat → VariableSizeStore → Nat → Except StoreFailure VariableSizeStore
  | 0, _, _ => .error .UNDEFINED
  | fuel + 1, s, recordFirstEntry => do
    if recordFirstEntry ≠ LAST_CHAINED_ENTRY then
      let entry ← s.RetriveItem recordFirstEntry
      assert (entry.IsDeleted = false)
      let currentEntry := recordFirstEntry
      let recordFirstEntry := entry.NextEntry
      let s ← s.AddToFreeList currentEntry
      RemoveRecordLoop fuel s recordFirstEntry
    else .ok s

/-- `VariableSizeStore::RemoveRecord(recordFirstEntry)`: every turn of the loop
marks an entry that was not deleted as deleted, so there are no more turns than
entries. -/
def RemoveRecord (s : VariableSizeStore) (recordFirstEntry : Nat) :
    Except StoreFailure VariableSizeStore := do
  let entry ← s.RetriveItem recordFirstEntry
  assert (entry.IsDeleted = false)
  assert entry.IsFirstEntry
  RemoveRecordLoop (s.mEntries.length + 1) s recordFirstEntry

/-- `VariableSizeStore::IncrementRecordRef(recordFirstEntry)`. -/
def IncrementRecordRef (s : VariableSizeStore) (recordFirstEntry : Nat) :
    Except StoreFailure VariableSizeStore := do
  let entry ← s.RetriveItem recordFirstEntry
  assert entry.IsFirstEntry
  assert (entry.IsDeleted = false)
  assert (entry.PrevEntry > 0)
  .ok (s.Store recordFirstEntry (entry.SetPrevEntry (entry.PrevEntry + 1)))

/-- `VariableSizeStore::DecrementRecordRef(recordFirstEntry)`. -/
def DecrementRecordRef (s : VariableSizeStore) (recordFirstEntry : Nat) :
    Except StoreFailure VariableSizeStore := do
  let entry ← s.RetriveItem recordFirstEntry
  assert entry.IsFirstEntry
  assert (entry.IsDeleted = false)
  let refCount := entry.PrevEntry
  assert (refCount > 0)
  let refCount := refCount - 1
  let s := s.Store recordFirstEntry (entry.SetPrevEntry refCount)
  if refCount = 0 then s.RemoveRecord recordFirstEntry else .ok s

end VariableSizeStore

end pastra
end whais

/-! ## The invariant of the heap -/

namespace whais
namespace pastra
namespace VariableSizeStore

open StoreEntry

/-- Entry `item` of the store, or a new entry past its end. -/
def entryAt (s : VariableSizeStore) (item : Nat) : StoreEntry := s.mEntries.getD item StoreEntry.New

/-- The entries `free` are linked one to the next in both directions, from
entry `a` on, and the last one has no next entry. -/
def FreeLinks (s : VariableSizeStore) : Nat → List Nat → Prop
  | a, [] => (s.entryAt a).mNextEntry = LAST_DELETED_ENTRY
  | a, b :: rest =>
    (s.entryAt a).mNextEntry = b ∧ (s.entryAt b).mPrevEntry = a ∧ FreeLinks s b rest

instance FreeLinks.decide (s : VariableSizeStore) :
    (a : Nat) → (free : List Nat) → Decidable (s.FreeLinks a free)
  | a, [] => inferInstanceAs (Decidable ((s.entryAt a).mNextEntry = LAST_DELETED_ENTRY))
  | a, b :: rest =>
    have := FreeLinks.decide s b rest
    inferInstanceAs (Decidable ((s.entryAt a).mNextEntry = b ∧ (s.entryAt b).mPrevEntry = a ∧
      FreeLinks s b rest))

/-- The invariant of the heap, `free` being the entries of the list of free
entries in their order after entry 0: the entries are counted, the container is
smaller than `2 ^ 64` bytes, every entry has 48 bytes of data, the deleted
entries are entry 0 and those of `free`, each once, none is a first entry, each
is linked to the next one in both directions, the last one has no next entry,
and `mFirstFreeEntry` is the next entry of entry 0. -/
def Inv (s : VariableSizeStore) (free : List Nat) : Prop :=
  s.mEntriesCount = s.mEntries.length ∧
  s.mEntries.length * sizeofEntry < 2 ^ 64 ∧
  (∀ i, i < s.mEntries.length → (s.entryAt i).mRawData.length = ENTRY_SIZE) ∧
  (0 :: free).Nodup ∧
  (∀ i ∈ 0 :: free, i < s.mEntries.length ∧ (s.entryAt i).mFirst = false) ∧
  (∀ i, i < s.mEntries.length → ((s.entryAt i).mDeleted = true ↔ i ∈ 0 :: free)) ∧
  s.FreeLinks 0 free ∧
  s.mFirstFreeEntry = (s.entryAt 0).mNextEntry

instance (s : VariableSizeStore) (free : List Nat) : Decidable (s.Inv free) :=
  inferInstanceAs (Decidable (_ ∧ _ ∧ _ ∧ _ ∧ _ ∧ _ ∧ _ ∧ _))

/-- The entries `ids` are a chain of the heap that starts with entry `entryId`:
entries of the store that are not deleted, each the next entry of the one
before, the last one with `LAST_CHAINED_ENTRY` for its next entry. -/
def IsChain (s : VariableSizeStore) : Nat → List Nat → Prop
  | entryId, [] => entryId = LAST_CHAINED_ENTRY
  | entryId, x :: rest => entryId = x ∧ x < s.mEntries.length ∧
    (s.entryAt x).mDeleted = false ∧ IsChain s (s.entryAt x).mNextEntry rest

instance IsChain.decide (s : VariableSizeStore) :
    (entryId : Nat) → (ids : List Nat) → Decidable (s.IsChain entryId ids)
  | entryId, [] => inferInstanceAs (Decidable (entryId = LAST_CHAINED_ENTRY))
  | entryId, x :: rest =>
    have := IsChain.decide s (s.entryAt x).mNextEntry rest
    inferInstanceAs (Decidable (entryId = x ∧ x < s.mEntries.length ∧
      (s.entryAt x).mDeleted = false ∧ IsChain s (s.entryAt x).mNextEntry rest))

/-- The bytes of the entries `ids`, one entry after the other. -/
def chainBytes (s : VariableSizeStore) (ids : List Nat) : List Byte :=
  (ids.map fun i => (s.entryAt i).mRawData).flatten

end VariableSizeStore
end pastra
end whais

namespace whais
namespace pastra
namespace VariableSizeStore

/-- A fixture: the fresh heap after `AddRecord` of the bytes 1, 2, 3, which
holds a record of one entry, entry 1. -/
def oneRecordHeap : VariableSizeStore :=
  match Init.AddRecord [1, 2, 3] with
  | .ok (s, _) => s
  | .error _ => Init

end VariableSizeStore
end pastra
end whais

namespace whais
namespace pastra
namespace VariableSizeStore

/-- `VariableSizeStore::Size()`: the size of the entries container, which
holds `sizeof (StoreEntry)` bytes for every entry. -/
def Size (s : VariableSizeStore) : Nat := s.mEntries.length * StoreEntry.sizeofEntry

/-- A caller that makes `count` calls of `call` on the record
`recordFirstEntry`, one after the other. -/
def callTimes (call : VariableSizeStore → Nat → Except StoreFailure VariableSizeStore) :
    Nat → VariableSizeStore → Nat → Except StoreFailure VariableSizeStore
  | 0, s, _ => .ok s
  | count + 1, s, recordFirstEntry =>
    match call s recordFirstEntry with
    | .error e => .error e
    | .ok s2 => callTimes call count s2 recordFirstEntry

end VariableSizeStore
end pastra
end whais

/-! ## Records copied from another heap -/

namespace whais
namespace pastra
namespace VariableSizeStore

open StoreEntry

/-- The second loop of `UpdateRecord(recordFirstEntry, offset, sourceStore,
sourceFirstEntry, sourceOffset, sourceSize)`, which looks for the entry of the
source that holds `sourceOffset`: the entry and the offset inside it. The entry
it retrieves from the source store at every turn is `recordFirstEntry`, as the
source has it. One unit of `fuel` per turn. -/
def UpdateRecordSkipSource : Nat → VariableSizeStore → Nat → Nat → Nat →
    Except StoreFailure (Nat × Nat)
  | 0, _, _, _, _ => .error .UNDEFINED
  | fuel + 1, sourceStore, recordFirstEntry, sourceFirstEntry, sourceOffset => do
    if sourceFirstEntry = LAST_CHAINED_ENTRY then
      if sourceOffset ≠ 0 then .error .GENERAL_CONTROL_ERROR
      else .ok (sourceFirstEntry, sourceOffset)
    else
      let entry ← sourceStore.RetriveItem recordFirstEntry
      assert (entry.IsDeleted = false)
      if sourceOffset < StoreEntry.Size then .ok (sourceFirstEntry, sourceOffset)
      else
        UpdateRecordSkipSource fuel sourceStore recordFirstEntry entry.NextEntry
          (sourceOffset - StoreEntry.Size)

/-- The third loop of `UpdateRecord` from a source store: a turn reads what is
left of a source entry into `tembuffer` and writes what the entry of the record
has room for. One unit of `fuel` per turn. -/
def UpdateRecordCopy : Nat → VariableSizeStore → VariableSizeStore → Nat → Nat → Nat → Nat →
    Nat → Nat → Except StoreFailure VariableSizeStore
  | 0, _, _, _, _, _, _, _, _ => .error .UNDEFINED
  | fuel + 1, s, sourceStore, recordFirstEntry, prevEntry, offset, sourceFirstEntry,
      sourceOffset, sourceSize => do
    if sourceSize > 0 then
      if sourceFirstEntry = LAST_CHAINED_ENTRY then .error .GENERAL_CONTROL_ERROR else
      let (s, recordFirstEntry) ←
        (if recordFirstEntry = LAST_CHAINED_ENTRY then s.AllocateEntry prevEntry
        else .ok (s, recordFirstEntry))
      let sourceEntry ← sourceStore.RetriveItem sourceFirstEntry
      assert (StoreEntry.Size ≤ 64)
      let tembuffer ← sourceEntry.Read sourceOffset sourceSize
      let tempValid := tembuffer.length
      let sourcePrevEntry := sourceFirstEntry
      let sourceFirstEntry := sourceEntry.NextEntry
      let entry ← s.RetriveItem recordFirstEntry
      assert (entry.IsDeleted = false)
      let (chunkSize, entry) ← entry.Write offset tempValid tembuffer
      let s := s.Store recordFirstEntry entry
      assert (chunkSize > 0)
      let sourceSize := (sourceSize + 2 ^ 64 - chunkSize) % 2 ^ 64
      let offset := offset + chunkSize
      let moved := decide (offset ≥ StoreEntry.Size)
      let prevEntry := if moved then recordFirstEntry else prevEntry
      let recordFirstEntry := if moved then entry.NextEntry else recordFirstEntry
      let offset := if moved then offset - StoreEntry.Size else offset
      let sourceOffset := sourceOffset + chunkSize
      let same := decide (sourceOffset < StoreEntry.Size)
      let sourceFirstEntry := if same then sourcePrevEntry else sourceFirstEntry
      let sourceOffset := if same then sourceOffset else sourceOffset - StoreEntry.Size
      UpdateRecordCopy fuel s sourceStore recordFirstEntry prevEntry offset sourceFirstEntry
        sourceOffset sourceSize
    else .ok s

/-- `VariableSizeStore::UpdateRecord(recordFirstEntry, offset, sourceStore,
sourceFirstEntry, sourceOffset, sourceSize)`, the source another store than
this one. The first loop is that of `UpdateRecord` from a buffer; a turn of the
second loop takes 48 from `sourceOffset` and a turn of the third one copies a
byte at least. -/
def UpdateRecordFromStore (s : VariableSizeStore) (recordFirstEntry offset : Nat)
    (sourceStore : VariableSizeStore) (sourceFirstEntry sourceOffset sourceSize : Nat) :
    Except StoreFailure VariableSizeStore := do
  let (recordFirstEntry, prevEntry, offset) ← UpdateRecordSkip (offset / StoreEntry.Size + 1) s
    recordFirstEntry recordFirstEntry offset
  let (sourceFirstEntry, sourceOffset) ← UpdateRecordSkipSource
    (sourceOffset / StoreEntry.Size + 2) sourceStore recordFirstEntry sourceFirstEntry sourceOffset
  UpdateRecordCopy (sourceSize + 1) s sourceStore recordFirstEntry prevEntry offset
    sourceFirstEntry sourceOffset sourceSize

/-- `VariableSizeStore::AddRecord(sourceStore, sourceFirstEntry, sourceOffset,
sourceSize)`, the source another store than this one: the store and the first
entry of the record. -/
def AddRecordFromStore (s sourceStore : VariableSizeStore)
    (sourceFirstEntry sourceOffset sourceSize : Nat) :
    Except StoreFailure (VariableSizeStore × Nat) := do
  let (s, resultEntry) ← s.AllocateEntry 0
  let entry ← s.RetriveItem resultEntry
  let entry := (((entry.MarkAsDeleted false).MarkAsFirstEntry true).SetNextEntry
    LAST_CHAINED_ENTRY).SetPrevEntry 1
  let s := s.Store resultEntry entry
  if resultEntry ≠ 0 ∧ sourceSize > 0 then
    let s ← s.UpdateRecordFromStore resultEntry 0 sourceStore sourceFirstEntry sourceOffset
      sourceSize
    .ok (s, resultEntry)
  else .ok (s, resultEntry)

/-- A fixture: the fresh heap after `AddRecord` of 96 bytes 1, the record of
entries 1 and 2, and of 96 bytes 2, the record of entries 3 and 4. -/
def twoRecordsHeap : VariableSizeStore :=
  match Init.AddRecord (List.replicate 96 1) with
  | .error _ => Init
  | .ok (s, _) =>
    match s.AddRecord (List.replicate 96 2) with
    | .error _ => Init
    | .ok (s, _) => s

end VariableSizeStore
end pastra
end whais

namespace whais
namespace pastra
namespace VariableSizeStore

open StoreEntry

/-- From every entry that is not deleted, following the next entries stays on
entries that are not deleted and reaches `LAST_CHAINED_ENTRY`. -/
def LiveChains (s : VariableSizeStore) : Prop :=
  ∀ i, i < s.mEntries.length → (s.entryAt i).mDeleted = false → ∃ ids, s.IsChain i ids

/-- The next entry of an entry that is not deleted is no first entry of a
record and has that entry for its previous entry. -/
def Mirror (s : VariableSizeStore) : Prop :=
  ∀ i, i < s.mEntries.length → (s.entryAt i).mDeleted = false →
    (s.entryAt i).mNextEntry ≠ LAST_CHAINED_ENTRY →
    (s.entryAt (s.entryAt i).mNextEntry).mFirst = false ∧
    (s.entryAt (s.entryAt i).mNextEntry).mPrevEntry = i

/-- Each entry of the list after the first is no first entry of a record and
has the entry before it in the list for its previous entry. -/
def Linked (s : VariableSizeStore) : List Nat → Prop
  | [] => True
  | [_] => True
  | a :: b :: rest =>
    (s.entryAt b).mFirst = false ∧ (s.entryAt b).mPrevEntry = a ∧ Linked s (b :: rest)

/-- The invariant of the whole heap, `free` being the entries of the list of
free entries in their order after entry 0: the invariant `Inv` of the list of
free entries, and every entry that is not deleted starts a chain of entries
that are not deleted, whose entries point back to the entry before them. -/
def HeapInv (s : VariableSizeStore) (free : List Nat) : Prop :=
  s.Inv free ∧ s.LiveChains ∧ s.Mirror

/-- The records of `s` other than `r` have the same entries in `s2`: a chain of
`s` that starts with a first entry of a record other than `r` is a chain of
`s2`. -/
def OtherRecordsKept (s s2 : VariableSizeStore) (r : Nat) : Prop :=
  ∀ r2 ids2, r2 ≠ r → (s.entryAt r2).mFirst = true → s.IsChain r2 ids2 → s2.IsChain r2 ids2

end VariableSizeStore
end pastra
end whais

/-!
# WHAIS storage engine (pastra): table creation and the table header

A shallow embedding of the parts of `src/dbs/pastra/ps_table.cpp` that check
the field descriptors of a new table, lay out its rows, and write and read the
header of a table file.

* A C string is the list of its characters before the terminating NUL.
* `uint_t` is `unsigned int`, 32 bits wide.
* A null pointer to the field descriptors is `none`.
* The declarations that `ps_table.cpp` takes from headers outside `src/` are
  the fields of `TableParams`.
-/

namespace whais
namespace pastra

/-- The codes of `DBSException` that the creation, the opening and the repair
of a table and the constructors of the values deal with; `CONTAINER` for an
exception of `FileContainer` or a failure inside the `File` class; `UNDEFINED`
for a failed assertion and for what the C++ code does outside any defined
behaviour. -/
inductive DBSFailure where
  | OPER_NOT_SUPPORTED
  | INVALID_PARAMETERS
  | FIELD_NAME_INVALID
  | FIELD_NAME_DUPLICATED
  | FIELD_TYPE_INVALID
  | TABLE_INVALID
  | TABLE_IN_USE
  | INVALID_DATE
  | INVALID_UNICODE_CHAR
  | GENERAL_CONTROL_ERROR
  | CONTAINER (code : Failure)
  | UNDEFINED
  deriving DecidableEq, Repr

/-- The struct `DBSFieldDescriptor`: what the caller tells about a field. -/
structure DBSFieldDescriptor where
  name : List Char
  type : Nat
  isArray : Bool
  deriving DecidableEq, Repr

/-- Modelled from the spec: class `FieldDescriptor` (ps_table.h, not in src/), an
entry of the descriptors area of a table: the null-bit index of the field, the
row offset of its fixed portion, the offset of its name, its type, and the
index metadata; a setter stores the `uint_t` it is given. -/
structure FieldDescriptor where
  mNullBitIndex : Nat
  mRowDataOff : Nat
  mNameOffset : Nat
  mType : Nat
  mIndexNodeSizeKB : Nat
  mIndexUnitsCount : Nat
  deriving DecidableEq, Repr

/-- What `ps_table.cpp` takes from headers that are not in src/: the type codes
`T_UNKNOWN`, `T_TEXT` and `T_END_OF_TYPES`, `PS_TABLE_ARRAY_MASK`,
`sizeof (FieldDescriptor)`, `Serializer::Size(type, isArray)`, `NIL_NODE`,
`TableRmNode::RAW_NODE_SIZE`, and the bytes that an array of `FieldDescriptor`
followed by the field names is stored as. -/
structure TableParams where
  T_UNKNOWN : Nat
  T_TEXT : Nat
  T_END_OF_TYPES : Nat
  PS_TABLE_ARRAY_MASK : Nat
  sizeofFieldDescriptor : Nat
  SerializerSize : Nat → Bool → Nat
  NIL_NODE : Nat
  RAW_NODE_SIZE : Nat
  descriptorsArea : List FieldDescriptor → List (List Char) → List Byte

def PS_TABLE_SIGNATURE : List Byte := [0x50, 0x41, 0x53, 0x54, 0x52, 0x41, 0x54, 0x42]

def PS_HEADER_SIZE : Nat := 128

def PS_TABLE_SIG_OFF : Nat := 0

def PS_TABLES_SIG_LEN : Nat := 8

def PS_TABLE_FIELDS_COUNT_OFF : Nat := 8

def PS_TABLE_FIELDS_COUNT_LEN : Nat := 4

def PS_TABLE_ELEMS_SIZE_OFF : Nat := 12

def PS_TABLE_ELEMS_SIZE_LEN : Nat := 4

def PS_TABLE_ROWS_COUNT_OFF : Nat := 16

def PS_TABLE_ROWS_COUNT_LEN : Nat := 8

def PS_TABLE_MAX_FILE_SIZE_OFF : Nat := 24

def PS_TABLE_MAX_FILE_SIZE_LEN : Nat := 8

def PS_TABLE_MAINTABLE_SIZE_OFF : Nat := 32

def PS_TABLE_MAINTABLE_SIZE_LEN : Nat := 8

def PS_TABLE_VARSTORAGE_SIZE_OFF : Nat := 40

def PS_TABLE_VARSTORAGE_SIZE_LEN : Nat := 8

def PS_TABLE_BT_ROOT_OFF : Nat := 48

def PS_TABLE_BT_ROOT_LEN : Nat := 4

def PS_TABLE_BT_HEAD_OFF : Nat := 52

def PS_TABLE_BT_HEAD_LEN : Nat := 4

def PS_TABLE_ROW_SIZE_OFF : Nat := 56

def PS_TABLE_ROW_SIZE_LEN : Nat := 4

def PS_TABLE_FLAGS_OFF : Nat := 60

def PS_TABLE_FLAGS_LEN : Nat := 4

def PS_RESEVED_FOR_FUTURE_OFF : Nat := 64

def PS_RESEVED_FOR_FUTURE_LEN : Nat := PS_HEADER_SIZE - PS_RESEVED_FOR_FUTURE_OFF

def PS_TABLE_MODIFIED_MASK : Nat := 1

def PS_TABLE_TO_REPAIR_MASK : Nat := 2

/-- The `count` bytes of `value` from the lowest one on. -/
def leBytes : Nat → Nat → List Byte
  | 0, _ => []
  | count + 1, value => value % 256 :: leBytes count (value / 256)

/-- Modelled from the spec: `store_le_int32(value, dest)` (le_converter.h in src/
declares the conversions in place only): the 32-bit value is stored at `dest`,
which is `buffer + offset`, its lowest byte first. -/
def store_le_int32 (value : Nat) (buffer : List Byte) (offset : Nat) : List Byte :=
  memcpy buffer offset (leBytes 4 (value % 2 ^ 32))

/-- Modelled from the spec: `store_le_int64(value, dest)`, as `store_le_int32`
with 64 bits. -/
def store_le_int64 (value : Nat) (buffer : List Byte) (offset : Nat) : List Byte :=
  memcpy buffer offset (leBytes 8 (value % 2 ^ 64))

/-- The function `from_le_int32` of le_converter.h, which `ps_table.cpp` calls
`load_le_int32`, on the bytes at `buffer + offset`. A byte past the end of the
buffer reads as 0. -/
def load_le_int32 (buffer : List Byte) (offset : Nat) : Nat :=
  let pValue (i : Nat) : Nat := buffer.getD (offset + i) 0 % 256
  let result := pValue 3
  let result := result * 2 ^ 8 % 2 ^ 32
  let result := (result + pValue 2) % 2 ^ 32
  let result := result * 2 ^ 8 % 2 ^ 32
  let result := (result + pValue 1) % 2 ^ 32
  let result := result * 2 ^ 8 % 2 ^ 32
  (result + pValue 0) % 2 ^ 32

/-- The function `from_le_int64` of le_converter.h, which `ps_table.cpp` calls
`load_le_int64`. -/
def load_le_int64 (buffer : List Byte) (offset : Nat) : Nat :=
  let pValue (i : Nat) : Nat := buffer.getD (offset + i) 0 % 256
  let result := pValue 7
  let result := result * 2 ^ 8 % 2 ^ 64
  let result := (result + pValue 6) % 2 ^ 64
  let result := result * 2 ^ 8 % 2 ^ 64
  let result := (result + pValue 5) % 2 ^ 64
  let result := result * 2 ^ 8 % 2 ^ 64
  let result := (result + pValue 4) % 2 ^ 64
  let result := result * 2 ^ 8 % 2 ^ 64
  let result := (result + pValue 3) % 2 ^ 64
  let result := result * 2 ^ 8 % 2 ^ 64
  let result := (result + pValue 2) % 2 ^ 64
  let result := result * 2 ^ 8 % 2 ^ 64
  let result := (result + pValue 1) % 2 ^ 64
  let result := result * 2 ^ 8 % 2 ^ 64
  (result + pValue 0) % 2 ^ 64

/-- `get_fields_names_len(fields, count)`. -/
def get_fields_names_len (fields : List DBSFieldDescriptor) (count : Nat) : Nat :=
  (fields.take count).foldl (fun result field => (result + (field.name.length + 1)) % 2 ^ 32) 0

/-- `validate_field_name(name, failException)`: the loop runs over the
characters before the NUL. -/
def validate_field_name (name : List Char) (failException : Bool := true) :
    Except DBSFailure Bool :=
  match name with
  | [] => .ok true
  | c :: rest =>
    if ¬ (('a' ≤ c ∧ c ≤ 'z') ∨ ('A' ≤ c ∧ c ≤ 'Z') ∨ ('0' ≤ c ∧ c ≤ '9') ∨ c = '_') then
      if failException then .error .FIELD_NAME_INVALID else .ok false
    else validate_field_name rest failException

/-- The outer loop of `validate_field_descriptors`, on `fields[i]` and the
fields after it. -/
def validate_field_descriptors_loop (P : TableParams) :
    List DBSFieldDescriptor → Except DBSFailure Unit
  | [] => .ok ()
  | field :: rest => do
    let _ ← validate_field_name field.name
    if rest.any (fun other => other.name = field.name) then .error .FIELD_NAME_INVALID
    else if field.type = P.T_UNKNOWN ∨ field.type ≥ P.T_END_OF_TYPES then
      .error .FIELD_TYPE_INVALID
    else if field.isArray ∧ field.type = P.T_TEXT then .error .FIELD_TYPE_INVALID
    else validate_field_descriptors_loop P rest

/-- `validate_field_descriptors(fields, fieldsCount)`; an array with less than
`fieldsCount` descriptors is read past its end. -/
def validate_field_descriptors (P : TableParams) (fields : Option (List DBSFieldDescriptor))
    (fieldsCount : Nat) : Except DBSFailure Unit :=
  match fields with
  | none => .error .UNDEFINED
  | some fields =>
    if fieldsCount = 0 then .error .UNDEFINED
    else if fields.length < fieldsCount then .error .UNDEFINED
    else validate_field_descriptors_loop P (fields.take fieldsCount)

/-- `compare_fields(f1, f2)` where the names differ: `strcmp(f1.name, f2.name)
< 0`. -/
def compare_fields (f1 f2 : DBSFieldDescriptor) : Bool := decide (f1.name < f2.name)

/-- The call `std::sort(fields.begin(), fields.end(), compare_fields)` of the
C++ library, on fields with different names: the fields in the order of their
names. -/
def sortFields (fields : List DBSFieldDescriptor) : List DBSFieldDescriptor :=
  fields.insertionSort (fun f1 f2 => f1.name ≤ f2.name)

/-- The loop of `normalize_fields` from field `i` on: the row size, the
descriptors and the names, which are stored one after the other. -/
def normalize_fields_loop (P : TableParams) :
    List DBSFieldDescriptor → Nat → Nat → Nat →
    Except DBSFailure (Nat × List FieldDescriptor × List (List Char))
  | [], _, outRowsSize, _ => .ok (outRowsSize, [], [])
  | field :: rest, i, outRowsSize, fieldNameOff => do
    let fieldDesc : FieldDescriptor :=
      { mNullBitIndex := i
        mRowDataOff := outRowsSize
        mNameOffset := fieldNameOff
        mType := field.type ||| (if field.isArray then P.PS_TABLE_ARRAY_MASK else 0)
        mIndexNodeSizeKB := 0
        mIndexUnitsCount := 0 }
    let nameLen := (field.name.length + 1) % 2 ^ 32
    if ¬ nameLen > 1 then .error .UNDEFINED else
    let fieldNameOff := (fieldNameOff + nameLen) % 2 ^ 32
    let outRowsSize := (outRowsSize + P.SerializerSize field.type field.isArray) % 2 ^ 32
    let (outRowsSize, fieldsDesc, names) ←
      normalize_fields_loop P rest ((i + 1) % 2 ^ 32) outRowsSize fieldNameOff
    .ok (outRowsSize, fieldDesc :: fieldsDesc, field.name :: names)

/-- `normalize_fields(fields, outRowsSize, outFields)`: the sorted fields, the
row size, the descriptors and the names. The assertion of `compare_fields`
fails in the sort when two fields have the same name. -/
def normalize_fields (P : TableParams) (fields : List DBSFieldDescriptor) :
    Except DBSFailure
      (List DBSFieldDescriptor × Nat × List FieldDescriptor × List (List Char)) := do
  let fieldsCount := fields.length % 2 ^ 32
  if ¬ fieldsCount > 0 then .error .UNDEFINED else
  let fieldNameOff := P.sizeofFieldDescriptor * fieldsCount % 2 ^ 32
  if ¬ (fields.map fun field => field.name).Nodup then .error .UNDEFINED else
  let fields := sortFields fields
  let outRowsSize := (fieldsCount + 7) % 2 ^ 32 / 8
  let (outRowsSize, fieldsDesc, names) ← normalize_fields_loop P fields 0 outRowsSize fieldNameOff
  .ok (fields, outRowsSize, fieldsDesc, names)

/-- The header that `create_table_file` builds in its buffer of 128 bytes, whose
first content is `tableHeader`. -/
def create_table_file_header (P : TableParams) (tableHeader : List Byte)
    (fieldsCount descriptorsSize rowSize maxFileSize mainTableSize : Nat) : List Byte :=
  let header := memcpy tableHeader 0 PS_TABLE_SIGNATURE
  let header := store_le_int32 fieldsCount header PS_TABLE_FIELDS_COUNT_OFF
  let header := store_le_int32 descriptorsSize header PS_TABLE_ELEMS_SIZE_OFF
  let header := store_le_int64 0 header PS_TABLE_ROWS_COUNT_OFF
  let header := store_le_int64 0 header PS_TABLE_VARSTORAGE_SIZE_OFF
  let header := store_le_int32 rowSize header PS_TABLE_ROW_SIZE_OFF
  let header := store_le_int32 P.NIL_NODE header PS_TABLE_BT_ROOT_OFF
  let header := store_le_int32 P.NIL_NODE header PS_TABLE_BT_HEAD_OFF
  let header := store_le_int64 maxFileSize header PS_TABLE_MAX_FILE_SIZE_OFF
  let header := store_le_int64 mainTableSize header PS_TABLE_MAINTABLE_SIZE_OFF
  let header := store_le_int32 0 header PS_TABLE_FLAGS_OFF
  memcpy header PS_RESEVED_FOR_FUTURE_OFF (List.replicate PS_RESEVED_FOR_FUTURE_LEN 0)

/-- `create_table_file(maxFileSize, filePrefix, inoutFields, fieldsCount)`: the
content of the table file it creates. `tableHeader` is the first content of the
buffer of the header, 128 bytes. -/
def create_table_file (P : TableParams) (tableHeader : List Byte) (maxFileSize : Nat)
    (inoutFields : Option (List DBSFieldDescriptor)) (fieldsCount : Nat) :
    Except DBSFailure File :=
  match inoutFields with
  | none => .error .OPER_NOT_SUPPORTED
  | some fields => do
    if fieldsCount = 0 ∨ fieldsCount > 0xFFFF then .error .OPER_NOT_SUPPORTED else
    if fields.length < fieldsCount then .error .UNDEFINED else
    let descriptorsSize :=
      (P.sizeofFieldDescriptor * fieldsCount + get_fields_names_len fields fieldsCount) % 2 ^ 32
    validate_field_descriptors P inoutFields fieldsCount
    let vect := fields.take fieldsCount
    let (_, rowSize, fieldsDesc, names) ← normalize_fields P vect
    let fieldsDescs := P.descriptorsArea fieldsDesc names
    let fieldsDescs :=
      fieldsDescs.take descriptorsSize ++ List.replicate (descriptorsSize - fieldsDescs.length) 0
    let tableFile : File := []
    let header := create_table_file_header P tableHeader fieldsCount descriptorsSize rowSize
      maxFileSize (2 ^ 64 - 1)
    let tableFile := tableFile.WriteAt 0 header
    let tableFile := tableFile.WriteAt PS_HEADER_SIZE fieldsDescs
    if P.RAW_NODE_SIZE = 0 then .error .UNDEFINED else
    let minFileSize := (PS_HEADER_SIZE + descriptorsSize + P.RAW_NODE_SIZE - 1) % 2 ^ 64
    let minFileSize := minFileSize / P.RAW_NODE_SIZE
    let minFileSize := minFileSize * P.RAW_NODE_SIZE % 2 ^ 64
    let tableFile := tableFile.SetSize minFileSize
    let header := store_le_int64 tableFile.Size header PS_TABLE_MAINTABLE_SIZE_OFF
    .ok (tableFile.WriteAt 0 header)

/-- What the constructor `TemporalTable::TemporalTable(dbs, inoutFields,
fieldsCount)` computes before it sets up the row cache: the fields count, the
size of the descriptors, the row size, the descriptors and the names. -/
def TemporalTable_new (P : TableParams) (inoutFields : Option (List DBSFieldDescriptor))
    (fieldsCount : Nat) :
    Except DBSFailure (Nat × Nat × Nat × List FieldDescriptor × List (List Char)) :=
  match inoutFields with
  | none => .error .OPER_NOT_SUPPORTED
  | some fields => do
    if fieldsCount = 0 ∨ fieldsCount > 0xFFFF then .error .OPER_NOT_SUPPORTED else
    if fields.length < fieldsCount then .error .UNDEFINED else
    let descriptorsSize :=
      (P.sizeofFieldDescriptor * fieldsCount + get_fields_names_len fields fieldsCount) % 2 ^ 32
    validate_field_descriptors P inoutFields fieldsCount
    let vect := fields.take fieldsCount
    let (_, rowSize, fieldsDesc, names) ← normalize_fields P vect
    .ok (fieldsCount, descriptorsSize, rowSize, fieldsDesc, names)

/-- The members of a `PersistentTable` that its header is about. `mVSData` is
`none` for a null pointer. -/
structure PersistentTable where
  mFieldsCount : Nat
  mDescriptorsSize : Nat
  mRowsCount : Nat
  mVSDataSize : Nat
  mRowSize : Nat
  mRootNode : Nat
  mUnallocatedHead : Nat
  mMaxFileSize : Nat
  mFieldsDescriptors : List Byte
  mTableData : FileContainer
  mVSData : Option VariableSizeStore
  mRemoved : Bool
  mRowModified : Bool

namespace PersistentTable

/-- The part of `PersistentTable::InitFromFile(tableName)` that reads the
header: what it throws, or the header fields and the size of the main table.
`mainTableFile` is the content of the table file. -/
def InitFromFileHeader (P : TableParams) (mainTableFile : File) :
    Except DBSFailure (PersistentTable × Nat) :=
  match mainTableFile.ReadAt 0 PS_HEADER_SIZE with
  | none => .error (.CONTAINER .UNDEFINED)
  | some tableHdr =>
    if tableHdr.take PS_TABLES_SIG_LEN ≠ PS_TABLE_SIGNATURE then .error .TABLE_INVALID else
    let mFieldsCount := load_le_int32 tableHdr PS_TABLE_FIELDS_COUNT_OFF
    let mDescriptorsSize := load_le_int32 tableHdr PS_TABLE_ELEMS_SIZE_OFF
    let mRowsCount := load_le_int64 tableHdr PS_TABLE_ROWS_COUNT_OFF
    let mVSDataSize := load_le_int64 tableHdr PS_TABLE_VARSTORAGE_SIZE_OFF
    let mRowSize := load_le_int32 tableHdr PS_TABLE_ROW_SIZE_OFF
    let mRootNode := load_le_int32 tableHdr PS_TABLE_BT_ROOT_OFF
    let mUnallocatedHead := load_le_int32 tableHdr PS_TABLE_BT_HEAD_OFF
    let mMaxFileSize := load_le_int64 tableHdr PS_TABLE_MAX_FILE_SIZE_OFF
    let mainTableSize := load_le_int64 tableHdr PS_TABLE_MAINTABLE_SIZE_OFF
    if mFieldsCount = 0 ∨ mDescriptorsSize < P.sizeofFieldDescriptor * mFieldsCount
        ∨ mainTableSize < PS_HEADER_SIZE then
      .error .TABLE_INVALID
    else if load_le_int32 tableHdr PS_TABLE_FLAGS_OFF &&& PS_TABLE_MODIFIED_MASK ≠ 0 then
      .error .TABLE_IN_USE
    else
      .ok ({ mFieldsCount := mFieldsCount
             mDescriptorsSize := mDescriptorsSize
             mRowsCount := mRowsCount
             mVSDataSize := mVSDataSize
             mRowSize := mRowSize
             mRootNode := mRootNode
             mUnallocatedHead := mUnallocatedHead
             mMaxFileSize := mMaxFileSize
             mFieldsDescriptors := []
             mTableData := ⟨mMaxFileSize, []⟩
             mVSData := none
             mRemoved := false
             mRowModified := false }, mainTableSize)

/-- `PersistentTable::InitFromFile(tableName)` for `disk`, the unit files of the
table container found on disk, the first one being the table file: after the
header, the descriptors are read and the table container is opened. -/
def InitFromFile (P : TableParams) (disk : List File) : Except DBSFailure PersistentTable :=
  match disk with
  | [] => .error (.CONTAINER .UNDEFINED)
  | mainTableFile :: _ => do
    let (table, mainTableSize) ← InitFromFileHeader P mainTableFile
    match mainTableFile.ReadAt PS_HEADER_SIZE table.mDescriptorsSize with
    | none => .error (.CONTAINER .UNDEFINED)
    | some mFieldsDescriptors =>
      if table.mMaxFileSize = 0 then .error .UNDEFINED else
      match FileContainer.Open disk table.mMaxFileSize
          ((mainTableSize + table.mMaxFileSize - 1) % 2 ^ 64 / table.mMaxFileSize) with
      | .error code => .error (.CONTAINER code)
      | .ok mTableData =>
        .ok { table with mFieldsDescriptors := mFieldsDescriptors, mTableData := mTableData }

/-- The header that `MakeHeaderPersistent` builds in `tableHdr`, an array of 128
bytes that is not initialised. -/
def MakeHeaderPersistent_header (t : PersistentTable) (tableHdr : List Byte) : List Byte :=
  let flags := 0
  let flags := if t.mRowModified then flags ||| PS_TABLE_MODIFIED_MASK else flags
  let tableHdr := memcpy tableHdr 0 PS_TABLE_SIGNATURE
  let tableHdr := store_le_int32 t.mFieldsCount tableHdr PS_TABLE_FIELDS_COUNT_OFF
  let tableHdr := store_le_int32 t.mDescriptorsSize tableHdr PS_TABLE_ELEMS_SIZE_OFF
  let tableHdr := store_le_int64 t.mRowsCount tableHdr PS_TABLE_ROWS_COUNT_OFF
  let tableHdr := store_le_int32 t.mRowSize tableHdr PS_TABLE_ROW_SIZE_OFF
  let tableHdr := store_le_int32 t.mRootNode tableHdr PS_TABLE_BT_ROOT_OFF
  let tableHdr := store_le_int32 t.mUnallocatedHead tableHdr PS_TABLE_BT_HEAD_OFF
  let tableHdr := store_le_int64 t.mMaxFileSize tableHdr PS_TABLE_MAX_FILE_SIZE_OFF
  let tableHdr := store_le_int64 t.mTableData.Size tableHdr PS_TABLE_MAINTABLE_SIZE_OFF
  let tableHdr := store_le_int32 flags tableHdr PS_TABLE_FLAGS_OFF
  let tableHdr := store_le_int64
    (match t.mVSData with
     | some mVSData => mVSData.Size
     | none => 0) tableHdr PS_TABLE_VARSTORAGE_SIZE_OFF
  memcpy tableHdr PS_RESEVED_FOR_FUTURE_OFF (List.replicate PS_RESEVED_FOR_FUTURE_LEN 0)

/-- `PersistentTable::MakeHeaderPersistent()`: the table container after the
header and the descriptors are written. -/
def MakeHeaderPersistent (t : PersistentTable) (tableHdr : List Byte) :
    Except FcThrown PersistentTable :=
  if t.mRemoved then .ok t else
  match t.mTableData.Write 0 (MakeHeaderPersistent_header t tableHdr) with
  | .error e => .error e
  | .ok mTableData =>
    match mTableData.Write PS_HEADER_SIZE (t.mFieldsDescriptors.take t.mDescriptorsSize) with
    | .error e => .error e
    | .ok mTableData => .ok { t with mTableData := mTableData }

end PersistentTable

/-- The layout of a header of 128 bytes: the signature, the fields count, the
length of the descriptors area, the row count, the maximum file size, the size
of the main table, the size of the variable heap, the root and the head of the
tree of removed rows, the row size, the flags, each with its lowest byte first,
and 64 reserved bytes. -/
def headerLayout (fieldsCount descriptorsSize rowsCount maxFileSize mainTableSize
    varStorageSize btRoot btHead rowSize flags : Nat) : List Byte :=
  PS_TABLE_SIGNATURE ++ leBytes 4 (fieldsCount % 2 ^ 32) ++ leBytes 4 (descriptorsSize % 2 ^ 32)
    ++ leBytes 8 (rowsCount % 2 ^ 64) ++ leBytes 8 (maxFileSize % 2 ^ 64)
    ++ leBytes 8 (mainTableSize % 2 ^ 64) ++ leBytes 8 (varStorageSize % 2 ^ 64)
    ++ leBytes 4 (btRoot % 2 ^ 32) ++ leBytes 4 (btHead % 2 ^ 32) ++ leBytes 4 (rowSize % 2 ^ 32)
    ++ leBytes 4 (flags % 2 ^ 32) ++ List.replicate 64 0

/-- A name matches `[A-Za-z0-9_]+`. -/
def IsIdentifier (name : List Char) : Prop :=
  name ≠ [] ∧ ∀ c ∈ name, c.isAlphanum ∨ c = '_'

instance (name : List Char) : Decidable (IsIdentifier name) :=
  inferInstanceAs (Decidable (_ ∧ _))

end pastra
end whais

/-!
# WHAIS values and their wire form

A shallow embedding of the value structs of `src/dbs/include/dbs_values.h` and
of `src/server/common/valtranslator.cpp`.

* The value of a machine integer is an `Int` (a `Nat` for an unsigned
  field); a conversion to a machine type is explicit.
* The eight structs `DInt8`, ..., `DUInt64` differ in the type of `mValue`
  only and are one structure `DInteger` with that type as a parameter.
* `valtranslator.cpp` names the structs `DBSBool`, `DBSDate`, ... and their
  fields `m_Value`, `m_Year`, ...; they are the structs `DBool`, `DDate`, ...
  of `dbs_values.h`.
-/

namespace whais

open pastra

/-! ## The value structs -/

/-- The `struct DBool`. -/
structure DBool where
  mValue : Bool
  mIsNull : Bool
  deriving DecidableEq, Repr

namespace DBool

/-- The constructor `DBool()`. -/
def null : DBool := ⟨false, true⟩

/-- The constructor `DBool(const bool value)`. -/
def ofValue (value : Bool) : DBool := ⟨value, false⟩

def IsNull (a : DBool) : Bool := a.mIsNull

/-- The member `operator<`. -/
def lt (a second : DBool) : Bool :=
  if a.IsNull then (if second.IsNull then false else true)
  else if second.IsNull then false
  else a.mValue == false && second.mValue == true

/-- The member `operator==`. -/
def eq (a second : DBool) : Bool :=
  if a.IsNull != second.IsNull then false
  else if a.IsNull then true
  else a.mValue == second.mValue

/-- The member `operator<=`. -/
def le (a second : DBool) : Bool := a.lt second || a.eq second

/-- The member `operator!=`. -/
def ne (a second : DBool) : Bool := !(a.eq second)

/-- The member `operator>`. -/
def gt (a second : DBool) : Bool := !(a.le second)

/-- The member `operator>=`. -/
def ge (a second : DBool) : Bool := !(a.lt second)

end DBool

/-- The `struct DChar`. -/
structure DChar where
  mValue : Nat
  mIsNull : Bool
  deriving DecidableEq, Repr

namespace DChar

def UTF_LAST_CODEPOINT : Nat := 0x10FFFF

def UTF16_EXTRA_BYTE_MIN : Nat := 0xD800

def UTF16_EXTRA_BYTE_MAX : Nat := 0xDFFF

/-- The constructor `DChar()`. -/
def null : DChar := ⟨0, true⟩

/-- The constructor `DChar(const uint32_t codePoint)`. -/
def ofCodePoint (codePoint : Nat) : Except DBSFailure DChar :=
  if codePoint > UTF_LAST_CODEPOINT
      ∨ (UTF16_EXTRA_BYTE_MIN ≤ codePoint ∧ codePoint ≤ UTF16_EXTRA_BYTE_MAX) then
    .error .INVALID_UNICODE_CHAR
  else .ok ⟨codePoint, if codePoint ≠ 0 then false else true⟩

def IsNull (a : DChar) : Bool := a.mIsNull

end DChar

/-- The `struct DDate`. -/
structure DDate where
  mYear : Int
  mMonth : Nat
  mDay : Nat
  mIsNull : Bool
  deriving DecidableEq, Repr

namespace DDate

/-- The constructor `DDate()`. -/
def null : DDate := ⟨0, 0, 0, true⟩

def IsNull (a : DDate) : Bool := a.mIsNull

/-- The member `operator<`. -/
def lt (a second : DDate) : Bool :=
  if a.IsNull then (if second.IsNull then false else true)
  else if second.IsNull then false
  else if a.mYear < second.mYear then true
  else if a.mYear = second.mYear then
    if a.mMonth < second.mMonth then true
    else if a.mMonth = second.mMonth then decide (a.mDay < second.mDay)
    else false
  else false

/-- The member `operator==`. -/
def eq (a second : DDate) : Bool :=
  if a.IsNull != second.IsNull then false
  else if a.IsNull then true
  else a.mYear = second.mYear && a.mMonth = second.mMonth && a.mDay = second.mDay

/-- The member `operator<=`. -/
def le (a second : DDate) : Bool := a.lt second || a.eq second

/-- The member `operator!=`. -/
def ne (a second : DDate) : Bool := !(a.eq second)

/-- The member `operator>`. -/
def gt (a second : DDate) : Bool := !(a.le second)

/-- The member `operator>=`. -/
def ge (a second : DDate) : Bool := !(a.lt second)

end DDate

/-- The `struct DDateTime`. -/
structure DDateTime where
  mYear : Int
  mMonth : Nat
  mDay : Nat
  mHour : Nat
  mMinutes : Nat
  mSeconds : Nat
  mIsNull : Bool
  deriving DecidableEq, Repr

namespace DDateTime

/-- The constructor `DDateTime()`. -/
def null : DDateTime := ⟨0, 0, 0, 0, 0, 0, true⟩

def IsNull (a : DDateTime) : Bool := a.mIsNull

/-- The member `operator<`. -/
def lt (a second : DDateTime) : Bool :=
  if a.IsNull then (if second.IsNull then false else true)
  else if second.IsNull then false
  else if a.mYear < second.mYear then true
  else if a.mYear = second.mYear then
    if a.mMonth < second.mMonth then true
    else if a.mMonth = second.mMonth then
      if a.mDay < second.mDay then true
      else if a.mDay = second.mDay then
        if a.mHour < second.mHour then true
        else if a.mHour = second.mHour then
          if a.mMinutes < second.mMinutes then true
          else if a.mMinutes = second.mMinutes then decide (a.mSeconds < second.mSeconds)
          else false
        else false
      else false
    else false
  else false

/-- The member `operator==`. -/
def eq (a second : DDateTime) : Bool :=
  if a.IsNull != second.IsNull then false
  else if a.IsNull then true
  else a.mYear = second.mYear && a.mMonth = second.mMonth && a.mDay = second.mDay
    && a.mHour = second.mHour && a.mMinutes = second.mMinutes && a.mSeconds = second.mSeconds

/-- The member `operator<=`. -/
def le (a second : DDateTime) : Bool := a.lt second || a.eq second

/-- The member `operator!=`. -/
def ne (a second : DDateTime) : Bool := !(a.eq second)

/-- The member `operator>`. -/
def gt (a second : DDateTime) : Bool := !(a.le second)

/-- The member `operator>=`. -/
def ge (a second : DDateTime) : Bool := !(a.lt second)

end DDateTime

/-- The `struct DHiresTime`. -/
structure DHiresTime where
  mMicrosec : Nat
  mYear : Int
  mMonth : Nat
  mDay : Nat
  mHour : Nat
  mMinutes : Nat
  mSeconds : Nat
  mIsNull : Bool
  deriving DecidableEq, Repr

namespace DHiresTime

/-- The constructor `DHiresTime()`. -/
def null : DHiresTime := ⟨0, 0, 0, 0, 0, 0, 0, true⟩

def IsNull (a : DHiresTime) : Bool := a.mIsNull

/-- The member `operator<`. -/
def lt (a second : DHiresTime) : Bool :=
  if a.IsNull then (if second.IsNull then false else true)
  else if second.IsNull then false
  else if a.mYear < second.mYear then true
  else if a.mYear = second.mYear then
    if a.mMonth < second.mMonth then true
    else if a.mMonth = second.mMonth then
      if a.mDay < second.mDay then true
      else if a.mDay = second.mDay then
        if a.mHour < second.mHour then true
        else if a.mHour = second.mHour then
          if a.mMinutes < second.mMinutes then true
          else if a.mMinutes = second.mMinutes then
            if a.mSeconds < second.mSeconds then true
            else if a.mSeconds = second.mSeconds then decide (a.mMicrosec < second.mMicrosec)
            else false
          else false
        else false
      else false
    else false
  else false

/-- The member `operator==`. -/
def eq (a second : DHiresTime) : Bool :=
  if a.IsNull != second.IsNull then false
  else if a.IsNull then true
  else a.mYear = second.mYear && a.mMonth = second.mMonth && a.mDay = second.mDay
    && a.mHour = second.mHour && a.mMinutes = second.mMinutes && a.mSeconds = second.mSeconds
    && a.mMicrosec = second.mMicrosec

/-- The member `operator<=`. -/
def le (a second : DHiresTime) : Bool := a.lt second || a.eq second

/-- The member `operator!=`. -/
def ne (a second : DHiresTime) : Bool := !(a.eq second)

/-- The member `operator>`. -/
def gt (a second : DHiresTime) : Bool := !(a.le second)

/-- The member `operator>=`. -/
def ge (a second : DHiresTime) : Bool := !(a.lt second)

end DHiresTime

/-- The type of `mValue` in the structs `DInt8`, `DInt16`, `DInt32`, `DInt64`,
`DUInt8`, `DUInt16`, `DUInt32` and `DUInt64`. -/
inductive IntegerType where
  | int8 | int16 | int32 | int64 | uint8 | uint16 | uint32 | uint64
  deriving DecidableEq, Repr

namespace IntegerType

def bits : IntegerType → Nat
  | int8 | uint8 => 8
  | int16 | uint16 => 16
  | int32 | uint32 => 32
  | int64 | uint64 => 64

def signed : IntegerType → Bool
  | int8 | int16 | int32 | int64 => true
  | uint8 | uint16 | uint32 | uint64 => false

/-- The least value of the type, which `Min()` of its struct holds. -/
def min (T : IntegerType) : Int := if T.signed then -(2 ^ (T.bits - 1)) else 0

/-- The greatest value of the type, which `Max()` of its struct holds. -/
def max (T : IntegerType) : Int := if T.signed then 2 ^ (T.bits - 1) - 1 else 2 ^ T.bits - 1

/-- The conversion of an integer to the type: the value with the same low
bits. -/
def convert (T : IntegerType) (value : Int) : Int :=
  if T.signed then (value + 2 ^ (T.bits - 1)) % 2 ^ T.bits - 2 ^ (T.bits - 1)
  else value % 2 ^ T.bits

end IntegerType

/-- The structs `DInt8`, `DInt16`, `DInt32`, `DInt64`, `DUInt8`, `DUInt16`,
`DUInt32` and `DUInt64`, `T` being the type of `mValue`. -/
structure DInteger (T : IntegerType) where
  mValue : Int
  mIsNull : Bool
  deriving DecidableEq, Repr

abbrev DInt8 := DInteger .int8

abbrev DInt16 := DInteger .int16

abbrev DInt32 := DInteger .int32

abbrev DInt64 := DInteger .int64

abbrev DUInt8 := DInteger .uint8

abbrev DUInt16 := DInteger .uint16

abbrev DUInt32 := DInteger .uint32

abbrev DUInt64 := DInteger .uint64

namespace DInteger

variable {T : IntegerType}

/-- The constructor without arguments: `DInt8()`, ... -/
def null : DInteger T := ⟨0, true⟩

/-- The constructor from a value, which is converted to the type of its
parameter: `DInt8(const int8_t value)`, ... -/
def ofValue (value : Int) : DInteger T := ⟨T.convert value, false⟩

def IsNull (a : DInteger T) : Bool := a.mIsNull

/-- The member `operator<`. -/
def lt (a second : DInteger T) : Bool :=
  if a.IsNull then (if second.IsNull then false else true)
  else if second.IsNull then false
  else decide (a.mValue < second.mValue)

/-- The member `operator==`. -/
def eq (a second : DInteger T) : Bool :=
  if a.IsNull != second.IsNull then false
  else if a.IsNull then true
  else a.mValue = second.mValue

/-- The member `operator<=`. -/
def le (a second : DInteger T) : Bool := a.lt second || a.eq second

/-- The member `operator!=`. -/
def ne (a second : DInteger T) : Bool := !(a.eq second)

/-- The member `operator>`. -/
def gt (a second : DInteger T) : Bool := !(a.le second)

/-- The member `operator>=`. -/
def ge (a second : DInteger T) : Bool := !(a.lt second)

end DInteger

/-- What is asked of the comparison operators of a value struct: `lt` is
irreflexive and transitive, of `a < b`, `a == b` and `b < a` exactly one holds,
a null value is below every value that is not null and equal to every null
value, and the other four operators are what `lt` and `eq` make them. -/
structure NullsFirstOrder {α : Type} (IsNull : α → Bool) (lt eq le ne gt ge : α → α → Bool) :
    Prop where
  irrefl : ∀ a, lt a a = false
  trans : ∀ a b c, lt a b = true → lt b c = true → lt a c = true
  total : ∀ a b, lt a b = true ∨ eq a b = true ∨ lt b a = true
  lt_not_eq : ∀ a b, lt a b = true → eq a b = false
  lt_asymm : ∀ a b, lt a b = true → lt b a = false
  eq_not_gt : ∀ a b, eq a b = true → lt b a = false
  null_lt : ∀ a b, IsNull a = true → IsNull b = false → lt a b = true
  null_eq : ∀ a b, IsNull a = true → IsNull b = true → eq a b = true
  le_iff : ∀ a b, le a b = true ↔ (lt a b = true ∨ eq a b = true)
  gt_iff : ∀ a b, gt a b = true ↔ lt b a = true
  ge_iff : ∀ a b, ge a b = true ↔ (lt b a = true ∨ eq a b = true)
  ne_iff : ∀ a b, ne a b = true ↔ eq a b = false

/-! ## Dates, reals and what the headers outside `src/` declare -/

/-- What the values and their wire form take from code that is not in src/:
which components the constructors of `DDate`, `DDateTime` and `DHiresTime`
(declared in dbs_values.h, defined elsewhere) accept as a date, and the
functions `get_utf8_char_size` and `decode_utf8_char` of utils/include/utf8.h,
the second returning the count of bytes it decoded and the code point. -/
structure ValueParams where
  is_valid_date : Int → Nat → Nat → Bool
  is_valid_datetime : Int → Nat → Nat → Nat → Nat → Nat → Bool
  is_valid_hiresdate : Int → Nat → Nat → Nat → Nat → Nat → Nat → Bool
  get_utf8_char_size : Byte → Nat
  decode_utf8_char : List Byte → Nat × Nat

/-- Modelled from the spec: the constructor `DDate(year, month, day)`, declared
in dbs_values.h and defined outside src/: the value holds the components it is
given when they are a date, the year within the 16 bits of `mYear`; any other
components are refused with an exception. -/
def DDate.make (V : ValueParams) (year : Int) (month day : Nat) : Except DBSFailure DDate :=
  if IntegerType.int16.convert year = year ∧ V.is_valid_date year month day = true then
    .ok ⟨year, month, day, false⟩
  else .error .INVALID_DATE

/-- Modelled from the spec: the constructor `DDateTime(year, month, day, hour,
minutes, seconds)`, as `DDate.make`. -/
def DDateTime.make (V : ValueParams) (year : Int) (month day hour minutes seconds : Nat) :
    Except DBSFailure DDateTime :=
  if IntegerType.int16.convert year = year
      ∧ V.is_valid_datetime year month day hour minutes seconds = true then
    .ok ⟨year, month, day, hour, minutes, seconds, false⟩
  else .error .INVALID_DATE

/-- Modelled from the spec: the constructor `DHiresTime(year, month, day, hour,
minutes, seconds, microsec)`, as `DDate.make`. -/
def DHiresTime.make (V : ValueParams) (year : Int)
    (month day hour minutes seconds microsec : Nat) : Except DBSFailure DHiresTime :=
  if IntegerType.int16.convert year = year
      ∧ V.is_valid_hiresdate year month day hour minutes seconds microsec = true then
    .ok ⟨microsec, year, month, day, hour, minutes, seconds, false⟩
  else .error .INVALID_DATE

/-- Modelled from the spec: the types `DBS_REAL_T` and `DBS_RICHREAL_T`
(dbs_real.h, not in src/): a number held as its integer part and its fractional
part, the second counted in units of `1 / PRECISION`, where `PRECISION` is the
power of ten of the type; both parts have the sign of the number. -/
structure REAL_T (PRECISION : Nat) where
  mIntPart : Int
  mFracPart : Int
  deriving DecidableEq, Repr

namespace REAL_T

variable {PRECISION : Nat}

/-- The member `Integer()`. -/
def Integer (r : REAL_T PRECISION) : Int := r.mIntPart

/-- The member `Fractional()`. -/
def Fractional (r : REAL_T PRECISION) : Int := r.mFracPart

/-- Modelled from the spec: the constructor `DBS_REAL_T(intPart, fracPart,
precision)`: `fracPart` counts units of `1 / precision`, a power of ten. -/
def make (intPart fracPart precision : Int) : REAL_T PRECISION :=
  ⟨intPart, fracPart * ((PRECISION : Int) / precision)⟩

end REAL_T

/-- The structs `DReal` and `DRichReal`, `PRECISION` being the one of the type
of `mValue`. -/
structure DReal (PRECISION : Nat) where
  mValue : REAL_T PRECISION
  mIsNull : Bool
  deriving DecidableEq, Repr

namespace DReal

variable {PRECISION : Nat}

/-- The constructor `DReal()`. -/
def null : DReal PRECISION := ⟨⟨0, 0⟩, true⟩

/-- The constructor `DReal(const REAL_T value)`. -/
def ofValue (value : REAL_T PRECISION) : DReal PRECISION := ⟨value, false⟩

def IsNull (a : DReal PRECISION) : Bool := a.mIsNull

end DReal

/-! ## The wire form: `valtranslator.cpp` -/

namespace Utf8Translator

/-- A value of `D_INT64` after an operation of the source: signed overflow,
which C++ leaves undefined, wraps around as the machine instruction does. -/
def wrap64 (value : Int) : Int := IntegerType.int64.convert value

/-- The loops `while ('0' <= *pLocation && *pLocation <= '9')` of
`read_integer` and `read_real`: `result`, the count of characters and the
power of ten of `read_real` after the digits at the start of `pLocation`, and
what follows the digits. A byte past the end of the buffer reads as 0. -/
def readDigits : List Byte → Int → Nat → Int → Int × Nat × Int × List Byte
  | [], result, count, precision => (result, count, precision, [])
  | c :: rest, result, count, precision =>
    if 48 ≤ c ∧ c ≤ 57 then
      readDigits rest (wrap64 (wrap64 (result * 10) + ((c : Int) - 48))) (count + 1)
        (wrap64 (precision * 10))
    else (result, count, precision, c :: rest)

/-- `read_integer(pLocation, pCount)`: the result and `*pCount`, a `D_UINT`. -/
def read_integer (pLocation : List Byte) : Int × Nat :=
  if pLocation.getD 0 0 = 45 then
    let pLocation := pLocation.drop 1
    if pLocation.getD 0 0 < 48 ∨ pLocation.getD 0 0 > 57 then (0, 0)
    else
      let (result, count, _, _) := readDigits pLocation 0 1 1
      (wrap64 (result * -1), count % 2 ^ 32)
  else
    let (result, count, _, _) := readDigits pLocation 0 0 1
    (result, count % 2 ^ 32)

/-- `read_real(pLocation, pIntPart, pFraPart, pPrecision)`: the result,
`*pIntPart`, `*pFraPart` and `*pPrecision`, which the callers do not read when
the result is 0. -/
def read_real (pLocation : List Byte) : Int × Int × Int × Int :=
  let negative := pLocation.getD 0 0 = 45
  let pLocation := if negative then pLocation.drop 1 else pLocation
  if negative ∧ (pLocation.getD 0 0 < 48 ∨ pLocation.getD 0 0 > 57) then (0, 0, 0, 0)
  else
    let (intPart, size, _, pLocation) := readDigits pLocation 0 (if negative then 1 else 0) 1
    let point := pLocation.getD 0 0 = 46
    let pLocation := if point then pLocation.drop 1 else pLocation
    let (fracPart, size, precision, _) :=
      readDigits pLocation 0 (if point then size + 1 else size) 1
    if negative then (wrap64 size, wrap64 (-intPart), wrap64 (-fracPart), precision)
    else (wrap64 size, intPart, fracPart, precision)

/-- The digits of `n` in decimal, before those of `acc`; `fuel` bounds the
count of digits. -/
def decimalAux : Nat → Nat → List Byte → List Byte
  | 0, _, acc => acc
  | fuel + 1, n, acc =>
    if n < 10 then (48 + n) :: acc else decimalAux fuel (n / 10) ((48 + n % 10) :: acc)

/-- The conversion `%llu` of the C library: the digits of `n` in decimal. -/
def decimal (n : Nat) : List Byte := decimalAux (n + 1) n []

/-- The conversions `%d` and `%lld` of the C library. -/
def printf_d (value : Int) : List Byte :=
  if value < 0 then 45 :: decimal value.natAbs else decimal value.natAbs

/-- `snprintf(dest, size, format, ...)` of the C library, `text` being the
characters that the format and the arguments make: the bytes stored at `dest`,
which are at most `size - 1` characters and a NUL, and the result, which is
the count of the characters of `text`. -/
def snprintf (size : Nat) (text : List Byte) : List Byte × Nat :=
  (if size = 0 then [] else text.take (size - 1) ++ [0], text.length)

/-- What the functions `Write` do after their `snprintf`: the bytes at
`utf8Dest` and the result. -/
def WriteText (maxSize : Nat) (text : List Byte) : List Byte × Nat :=
  let (utf8Dest, result) := snprintf maxSize text
  if result % 2 ^ 32 ≥ maxSize then (utf8Dest, 0) else (utf8Dest, result + 1)

/-- `Utf8Translator::Read(utf8Src, srcSize, DBSChar* pValue)`: the result and
the value stored at `pValue`, if one is. -/
def Read_DBSChar (V : ValueParams) (utf8Src : List Byte) (srcSize : Nat) :
    Except DBSFailure (Nat × Option DChar) :=
  if 1 > srcSize then .ok (0, none)
  else if utf8Src.getD 0 0 = 0 then .ok (1, some DChar.null)
  else
    let result := V.get_utf8_char_size (utf8Src.getD 0 0) % 2 ^ 32
    if result = 0 ∨ (result + 1) % 2 ^ 32 > srcSize then .ok (0, none)
    else
      let (size, ch) := V.decode_utf8_char utf8Src
      if size ≠ result ∨ ch % 2 ^ 32 = 0 ∨ utf8Src.getD result 0 ≠ 0 then .ok (0, none)
      else
        match DChar.ofCodePoint (ch % 2 ^ 32) with
        | .error e => .error e
        | .ok value => .ok ((result + 1) % 2 ^ 32, some value)

/-- One step of the functions `Read` of the dates: `read_integer` at
`utf8Src + result`, then the test of the character after the number against
`separator`. The new `result` and the number, or `none` where the function
returns 0. -/
def readComponent (utf8Src : List Byte) (srcSize result separator : Nat) : Option (Nat × Int) :=
  let (value, temp) := read_integer (utf8Src.drop result)
  let result := (result + temp) % 2 ^ 32
  if temp = 0 ∨ utf8Src.getD result 0 ≠ separator ∨ (result + 1) % 2 ^ 32 > srcSize then none
  else some ((result + 1) % 2 ^ 32, value)

/-- `Utf8Translator::Read(utf8Src, srcSize, DBSDate* pValue)`. -/
def Read_DBSDate (V : ValueParams) (utf8Src : List Byte) (srcSize : Nat) :
    Except DBSFailure (Nat × Option DDate) :=
  if 1 > srcSize then .ok (0, none)
  else if utf8Src.getD 0 0 = 0 then .ok (1, some DDate.null)
  else
    match readComponent utf8Src srcSize 0 47 with
    | none => .ok (0, none)
    | some (result, year) =>
    match readComponent utf8Src srcSize result 47 with
    | none => .ok (0, none)
    | some (result, month) =>
    match readComponent utf8Src srcSize result 0 with
    | none => .ok (0, none)
    | some (result, day) =>
    match DDate.make V (IntegerType.int32.convert year) (IntegerType.uint8.convert month).toNat
        (IntegerType.uint8.convert day).toNat with
    | .error e => .error e
    | .ok value => .ok (result, some value)

/-- `Utf8Translator::Read(utf8Src, srcSize, DBSDateTime* pValue)`. -/
def Read_DBSDateTime (V : ValueParams) (utf8Src : List Byte) (srcSize : Nat) :
    Except DBSFailure (Nat × Option DDateTime) :=
  if 1 > srcSize then .ok (0, none)
  else if utf8Src.getD 0 0 = 0 then .ok (1, some DDateTime.null)
  else
    match readComponent utf8Src srcSize 0 47 with
    | none => .ok (0, none)
    | some (result, year) =>
    match readComponent utf8Src srcSize result 47 with
    | none => .ok (0, none)
    | some (result, month) =>
    match readComponent utf8Src srcSize result 32 with
    | none => .ok (0, none)
    | some (result, day) =>
    match readComponent utf8Src srcSize result 58 with
    | none => .ok (0, none)
    | some (result, hour) =>
    match readComponent utf8Src srcSize result 58 with
    | none => .ok (0, none)
    | some (result, min) =>
    match readComponent utf8Src srcSize result 0 with
    | none => .ok (0, none)
    | some (result, secs) =>
    match DDateTime.make V (IntegerType.int32.convert year)
        (IntegerType.uint8.convert month).toNat (IntegerType.uint8.convert day).toNat
        (IntegerType.uint8.convert hour).toNat (IntegerType.uint8.convert min).toNat
        (IntegerType.uint8.convert secs).toNat with
    | .error e => .error e
    | .ok value => .ok (result, some value)

/-- `Utf8Translator::Read(utf8Src, srcSize, DBSHiresTime* pValue)`. -/
def Read_DBSHiresTime (V : ValueParams) (utf8Src : List Byte) (srcSize : Nat) :
    Except DBSFailure (Nat × Option DHiresTime) :=
  if 1 > srcSize then .ok (0, none)
  else if utf8Src.getD 0 0 = 0 then .ok (1, some DHiresTime.null)
  else
    match readComponent utf8Src srcSize 0 47 with
    | none => .ok (0, none)
    | some (result, year) =>
    match readComponent utf8Src srcSize result 47 with
    | none => .ok (0, none)
    | some (result, month) =>
    match readComponent utf8Src srcSize result 32 with
    | none => .ok (0, none)
    | some (result, day) =>
    match readComponent utf8Src srcSize result 58 with
    | none => .ok (0, none)
    | some (result, hour) =>
    match readComponent utf8Src srcSize result 58 with
    | none => .ok (0, none)
    | some (result, min) =>
    match readComponent utf8Src srcSize result 46 with
    | none => .ok (0, none)
    | some (result, secs) =>
    match readComponent utf8Src srcSize result 0 with
    | none => .ok (0, none)
    | some (result, usecs) =>
    match DHiresTime.make V (IntegerType.int32.convert year)
        (IntegerType.uint8.convert month).toNat (IntegerType.uint8.convert day).toNat
        (IntegerType.uint8.convert hour).toNat (IntegerType.uint8.convert min).toNat
        (IntegerType.uint8.convert secs).toNat (IntegerType.uint32.convert usecs).toNat with
    | .error e => .error e
    | .ok value => .ok (result, some value)

/-- The eight functions `Utf8Translator::Read(utf8Src, srcSize, DBSInt8*
pValue)`, ..., `Read(utf8Src, srcSize, DBSUInt64* pValue)`; those of the
unsigned types have the test `value < 0`. -/
def Read_DBSInt (T : IntegerType) (utf8Src : List Byte) (srcSize : Nat) :
    Nat × Option (DInteger T) :=
  if 1 > srcSize then (0, none)
  else if utf8Src.getD 0 0 = 0 then (1, some DInteger.null)
  else
    let (value, result) := read_integer utf8Src
    if result = 0 ∨ utf8Src.getD result 0 ≠ 0 ∨ (result + 1) % 2 ^ 32 > srcSize
        ∨ (T.signed = false ∧ value < 0) then (0, none)
    else ((result + 1) % 2 ^ 32, some (DInteger.ofValue value))

/-- The functions `Utf8Translator::Read(utf8Src, srcSize, DBSReal* pValue)` and
`Read(utf8Src, srcSize, DBSRichReal* pValue)`. -/
def Read_DBSReal (PRECISION : Nat) (utf8Src : List Byte) (srcSize : Nat) :
    Nat × Option (DReal PRECISION) :=
  if 1 > srcSize then (0, none)
  else if utf8Src.getD 0 0 = 0 then (1, some DReal.null)
  else
    let (size, intPart, fracPart, precision) := read_real utf8Src
    let result := (size % 2 ^ 32).toNat
    if result = 0 ∨ utf8Src.getD result 0 ≠ 0 ∨ (result + 1) % 2 ^ 32 > srcSize
        ∨ precision % 10 ≠ 0 then (0, none)
    else ((result + 1) % 2 ^ 32, some (DReal.ofValue (REAL_T.make intPart fracPart precision)))

/-- `Utf8Translator::Write(utf8Dest, maxSize, const DBSDate& value)`: the bytes
stored at `utf8Dest` and the result. -/
def Write_DBSDate (maxSize : Nat) (value : DDate) : List Byte × Nat :=
  if maxSize = 0 then ([], 0)
  else if value.IsNull then ([0], 1)
  else
    WriteText maxSize
      (printf_d value.mYear ++ [47] ++ printf_d value.mMonth ++ [47] ++ printf_d value.mDay)

/-- `Utf8Translator::Write(utf8Dest, maxSize, const DBSDateTime& value)`. -/
def Write_DBSDateTime (maxSize : Nat) (value : DDateTime) : List Byte × Nat :=
  if maxSize = 0 then ([], 0)
  else if value.IsNull then ([0], 1)
  else
    WriteText maxSize
      (printf_d value.mYear ++ [47] ++ printf_d value.mMonth ++ [47] ++ printf_d value.mDay
        ++ [32] ++ printf_d value.mHour ++ [58] ++ printf_d value.mMinutes ++ [58]
        ++ printf_d value.mSeconds)

/-- `Utf8Translator::Write(utf8Dest, maxSize, const DBSHiresTime& value)`; the
conversion `%d` prints the microseconds, which are below `2 ^ 31`. -/
def Write_DBSHiresTime (maxSize : Nat) (value : DHiresTime) : List Byte × Nat :=
  if maxSize = 0 then ([], 0)
  else if value.IsNull then ([0], 1)
  else
    WriteText maxSize
      (printf_d value.mYear ++ [47] ++ printf_d value.mMonth ++ [47] ++ printf_d value.mDay
        ++ [32] ++ printf_d value.mHour ++ [58] ++ printf_d value.mMinutes ++ [58]
        ++ printf_d value.mSeconds ++ [46]
        ++ printf_d (IntegerType.int32.convert value.mMicrosec))

/-- The eight functions `Utf8Translator::Write(utf8Dest, maxSize, const
DBSInt8& value)`, ..., `Write(utf8Dest, maxSize, const DBSUInt64& value)`:
`%lld` for the signed types, `%llu` for the unsigned ones. -/
def Write_DBSInt {T : IntegerType} (maxSize : Nat) (value : DInteger T) : List Byte × Nat :=
  if maxSize = 0 then ([], 0)
  else if value.IsNull then ([0], 1)
  else if T.signed then WriteText maxSize (printf_d (IntegerType.int64.convert value.mValue))
  else WriteText maxSize (decimal (IntegerType.uint64.convert value.mValue).toNat)

/-- The loop `while ((fracPart % 10) == 0) fracPart /= 10;`, which runs for a
positive `fracPart`; `fuel` bounds its turns. -/
def stripZeros : Nat → Int → Int
  | 0, fracPart => fracPart
  | fuel + 1, fracPart => if fracPart % 10 = 0 then stripZeros fuel (fracPart / 10) else fracPart

/-- The functions `Utf8Translator::Write(utf8Dest, maxSize, const DBSReal&
value)` and `Write(utf8Dest, maxSize, const DBSRichReal& value)`: the bytes
stored at `utf8Dest` and the result. `tempBuffer` has room for the 41 characters
that two numbers of 64 bits and the point take at most. -/
def Write_DBSReal {PRECISION : Nat} (maxSize : Nat) (value : DReal PRECISION) :
    Except DBSFailure (List Byte × Nat) :=
  if maxSize ≤ 1 then .ok ([], 0)
  else if value.IsNull then .ok ([0], 1)
  else
    let intPart := value.mValue.Integer
    let fracPart := value.mValue.Fractional
    let negative := intPart < 0 ∨ fracPart < 0
    let intPart := if negative then wrap64 (-intPart) else intPart
    let fracPart := if negative then wrap64 (-fracPart) else fracPart
    let size := if negative then maxSize - 1 else maxSize
    let result := if negative then 1 else 0
    let fracPart := if fracPart > 0 then stripZeros fracPart.natAbs fracPart else fracPart
    let (tempBuffer, count) := snprintf size (printf_d intPart ++ [46] ++ printf_d fracPart)
    let result := (result + count) % 2 ^ 32
    let utf8Dest := (if negative then [45] else []) ++ tempBuffer
    if utf8Dest.length - 1 ≠ result then .error .UNDEFINED
    else if result ≥ maxSize then .ok (utf8Dest, 0)
    else .ok (utf8Dest, result + 1)

end Utf8Translator

end whais

/-! ## Sequences of calls and the states they reach -/

namespace whais
namespace pastra

/-- The state of a temporal container after a sequence of calls that all
return, or the first exception. -/
def TemporalContainer.after : TemporalContainer → List Op → Except Failure TemporalContainer
  | t, [] => .ok t
  | t, op :: ops =>
    match t.call op with
    | .error e => .error e
    | .ok (t2, _) => TemporalContainer.after t2 ops

/-- The flat byte array after a sequence of calls. -/
def flatAfter : List Byte → List Op → List Byte
  | l, [] => l
  | l, op :: ops => flatAfter (flatCall l op).1 ops

end pastra
end whais

/-! ## The node manager of `RepairTable`: `ps_table.cpp` -/

namespace whais
namespace pastra
namespace RepairTableNodeManager

/-- `RepairTableNodeManager::NodeRawSize()`; `RAW_NODE_SIZE` is
`TableRmNode::RAW_NODE_SIZE`, a constant declared outside src/. -/
def NodeRawSize (RAW_NODE_SIZE : Nat) : Nat := RAW_NODE_SIZE

/-- `RepairTableNodeManager::AllocateNode(parrent, parrentKey)`, `containerSize`
being `mContainer.Size()`; a division by zero is undefined. -/
def AllocateNode (RAW_NODE_SIZE containerSize : Nat) : Except DBSFailure Nat :=
  if NodeRawSize RAW_NODE_SIZE = 0 then .error .UNDEFINED
  else if containerSize % NodeRawSize RAW_NODE_SIZE ≠ 0 then .error .UNDEFINED
  else .ok (NodeRawSize RAW_NODE_SIZE / RAW_NODE_SIZE)

/-- `RepairTableNodeManager::LoadNode(nodeId)`, `rawData` being the bytes of the
new node: the content of `mContainer` after the call and the bytes of the node.
The container is the flat byte array it represents; the position of the
`Write` is not past its end. -/
def LoadNode (RAW_NODE_SIZE : Nat) (mContainer : List Byte) (nodeId : Nat)
    (rawData : List Byte) : Except DBSFailure (List Byte × List Byte) :=
  if NodeRawSize RAW_NODE_SIZE = 0 then .error .UNDEFINED
  else if nodeId < mContainer.length / NodeRawSize RAW_NODE_SIZE then
    .ok (mContainer, flatRead mContainer (nodeId * NodeRawSize RAW_NODE_SIZE)
      (NodeRawSize RAW_NODE_SIZE))
  else if nodeId ≠ mContainer.length / NodeRawSize RAW_NODE_SIZE then .error .UNDEFINED
  else
    .ok (flatWrite mContainer (nodeId * NodeRawSize RAW_NODE_SIZE)
      (rawData.take (NodeRawSize RAW_NODE_SIZE)), rawData.take (NodeRawSize RAW_NODE_SIZE))

end RepairTableNodeManager
end pastra

/-! ## The procedures of a session: `pm_procedures.cpp` -/

namespace prima

open pastra

/-- The function `strncmp` of the C library on two strings that end with a NUL
(a byte past the end of the list reads as NUL): the difference of the first two
bytes that differ among the first `n`, 0 when there is none. -/
def strncmp : List Byte → List Byte → Nat → Int
  | _, _, 0 => 0
  | s1, s2, n + 1 =>
    let c1 := s1.headD 0
    let c2 := s2.headD 0
    if c1 ≠ c2 then (c1 : Int) - (c2 : Int)
    else if c1 = 0 then 0
    else strncmp s1.tail s2.tail n

/-- The fields of `ProcedureEntry` that the two functions below store. -/
structure ProcedureEntry where
  m_LocalsCount : Nat
  m_ArgsCount : Nat
  m_SyncCount : Nat
  m_IdIndex : Nat
  m_CodeSize : Nat
  deriving DecidableEq, Repr

/-- The members of `ProcedureManager` that hold the entries and their names. -/
structure ProcedureManager where
  m_ProcsEntrys : List ProcedureEntry
  m_Identifiers : List Byte
  deriving DecidableEq, Repr

namespace ProcedureManager

/-- The value `INVALID_ENTRY`, declared outside src/: no index of an entry. -/
def INVALID_ENTRY : Nat := 0xFFFFFFFF

/-- The loop of `ProcedureManager::GetProcedure(pName, nameLength)` over the
entries from `index` on. -/
def GetProcedureLoop (m : ProcedureManager) (pName : List Byte) (nameLength : Nat) :
    List ProcedureEntry → Nat → Nat
  | [], _ => INVALID_ENTRY
  | entry :: rest, index =>
    if strncmp pName (m.m_Identifiers.drop entry.m_IdIndex) nameLength = 0 then index
    else GetProcedureLoop m pName nameLength rest (index + 1)

/-- `ProcedureManager::GetProcedure(pName, nameLength)`. -/
def GetProcedure (m : ProcedureManager) (pName : List Byte) (nameLength : Nat) : Nat :=
  GetProcedureLoop m pName nameLength m.m_ProcsEntrys 0

/-- `ProcedureManager::AddProcedure(pName, nameLength, localsCount, argsCount,
syncCount, ..., codeSize, unit)`: the manager and the index of the new entry; a
failed assertion is `none`. -/
def AddProcedure (m : ProcedureManager) (pName : List Byte) (nameLength : Nat)
    (localsCount argsCount syncCount codeSize : Nat) : Option (ProcedureManager × Nat) :=
  if m.GetProcedure pName nameLength ≠ INVALID_ENTRY then none
  else if ¬ localsCount > 0 then none
  else if ¬ argsCount < localsCount then none
  else
    let entry : ProcedureEntry :=
      { m_LocalsCount := localsCount
        m_ArgsCount := argsCount
        m_SyncCount := syncCount
        m_IdIndex := m.m_Identifiers.length
        m_CodeSize := codeSize }
    let result := m.m_ProcsEntrys.length
    some ({ m_ProcsEntrys := m.m_ProcsEntrys ++ [entry]
            m_Identifiers := m.m_Identifiers ++ pName.take nameLength ++ [0] }, result)

end ProcedureManager
end prima

/-! ## The fields of a table declaration: `vardecl.c` -/

namespace compiler

open pastra

/-- The members of `struct DeclaredVar` that `install_field_declaration` reads
and writes, without `extra`: a list of fields is the first field and what
`extra` leads to. `label` points into the text of the source: the list holds
the bytes from there on. -/
structure DeclaredVar where
  label : List Byte
  l_label : Nat
  type : Nat
  deriving DecidableEq, Repr

/-- The second loop of `install_field_declaration`: `result` is linked after
the first field `it` with `strncmp (it->label, result->label, it->l_label) >= 0`;
`none` when the loop ends without one. -/
def insertLoop (result : DeclaredVar) : List DeclaredVar → Option (List DeclaredVar)
  | [] => none
  | it :: rest =>
    if prima.strncmp it.label result.label it.l_label ≥ 0 then some (it :: result :: rest)
    else (insertLoop result rest).map (it :: ·)

/-- `install_field_declaration(state, sem_var, sem_type, extra)`, the text and
length of the identifier being `text` and `length`: the list it returns, `none`
for `NULL` (a field of this name is in `extra`). -/
def install_field_declaration (text : List Byte) (length type : Nat)
    (extra : List DeclaredVar) : Option (List DeclaredVar) :=
  if extra.any (fun it => it.l_label = length ∧ prima.strncmp it.label text it.l_label = 0)
  then none
  else
    let result : DeclaredVar := ⟨text, length, type⟩
    match insertLoop result extra with
    | some fields => some fields
    | none => some (result :: extra)

/-- The fields `texts` declared one after the other on top of the list `extra`:
every call of `install_field_declaration` gets the list the call before
returned. -/
def declare_fields_from : List DeclaredVar → List (List Byte) → Option (List DeclaredVar)
  | extra, [] => some extra
  | extra, text :: rest =>
    match install_field_declaration text text.length 1 extra with
    | none => none
    | some fields => declare_fields_from fields rest

/-- The fields of a table declaration, declared in the order of `texts`; the
first call of `install_field_declaration` gets `NULL`. -/
def declare_fields (texts : List (List Byte)) : Option (List DeclaredVar) :=
  declare_fields_from [] texts

end compiler

/-! ## Integers of 128 bits: `int128.h` -/

/-- The class `WE_I128`: two words of 64 bits. -/
structure WE_I128 where
  m_Hi : Nat
  m_Lo : Nat
  deriving DecidableEq, Repr

namespace WE_I128

/-- The cast `_SC (D_INT64, x)` of a word of 64 bits. -/
def toInt64 (x : Nat) : Int :=
  if x % 2 ^ 64 < 2 ^ 63 then (x % 2 ^ 64 : Nat) else (x % 2 ^ 64 : Nat) - 2 ^ 64

/-- The number that the two words hold, in two's complement. -/
def toInt (a : WE_I128) : Int := toInt64 a.m_Hi * 2 ^ 64 + (a.m_Lo % 2 ^ 64 : Nat)

/-- The constructor `WE_I128(const D_INT64 source)`. -/
def ofInt64 (source : Int) : WE_I128 :=
  { m_Hi := if source < 0 then 2 ^ 64 - 1 else 0
    m_Lo := (source % 2 ^ 64).toNat }

/-- The constructor `WE_I128(const D_UINT64 source)`. -/
def ofUInt64 (source : Nat) : WE_I128 := ⟨0, source % 2 ^ 64⟩

/-- `operator==`. -/
def eq (a op : WE_I128) : Bool := a.m_Hi = op.m_Hi ∧ a.m_Lo = op.m_Lo

/-- `operator!=`. -/
def ne (a op : WE_I128) : Bool := ! a.eq op

/-- `operator<`. -/
def lt (a op : WE_I128) : Bool :=
  if toInt64 a.m_Hi < 0 ∧ toInt64 op.m_Hi ≥ 0 then true
  else if toInt64 a.m_Hi > 0 ∧ toInt64 op.m_Hi ≤ 0 then false
  else a.m_Hi < op.m_Hi ∨ (a.m_Hi = op.m_Hi ∧ a.m_Lo < op.m_Lo)

/-- `operator<=`. -/
def le (a op : WE_I128) : Bool := a.eq op || a.lt op

/-- `operator>`. -/
def gt (a op : WE_I128) : Bool := ! a.le op

/-- `operator>=`. -/
def ge (a op : WE_I128) : Bool := ! a.lt op

end WE_I128

end whais

namespace whais
namespace WE_I128

/-- The value `WE_I128 (0)`, which `*this < 0` and `reminder = 0` build: two
zero words. -/
def zero : WE_I128 := ⟨0, 0⟩

/-- `operator-` with one operand. -/
def neg (a : WE_I128) : WE_I128 :=
  let hi := 2 ^ 64 - 1 - a.m_Hi % 2 ^ 64
  let lo := (2 ^ 64 - 1 - a.m_Lo % 2 ^ 64 + 1) % 2 ^ 64
  ⟨if a.m_Lo = 0 then (hi + 1) % 2 ^ 64 else hi, lo⟩

/-- `operator-` with two operands. -/
def sub (a op : WE_I128) : WE_I128 :=
  let hi := if op.m_Lo > a.m_Lo then (a.m_Hi + 2 ^ 64 - 1) % 2 ^ 64 else a.m_Hi
  ⟨(hi + 2 ^ 64 - op.m_Hi % 2 ^ 64) % 2 ^ 64, (a.m_Lo + 2 ^ 64 - op.m_Lo % 2 ^ 64) % 2 ^ 64⟩

/-- `operator+`. -/
def add (a op : WE_I128) : WE_I128 :=
  let hi := (a.m_Hi + op.m_Hi) % 2 ^ 64
  let lo := (a.m_Lo + op.m_Lo) % 2 ^ 64
  ⟨if lo < op.m_Lo then (hi + 1) % 2 ^ 64 else hi, lo⟩

/-- `lshift96`. -/
def lshift96 (a : WE_I128) : WE_I128 := ⟨a.m_Lo * 2 ^ 32 % 2 ^ 64, 0⟩

/-- `lshift64`. -/
def lshift64 (a : WE_I128) : WE_I128 := ⟨a.m_Lo, 0⟩

/-- `lshift32`. -/
def lshift32 (a : WE_I128) : WE_I128 :=
  ⟨(a.m_Hi * 2 ^ 32 % 2 ^ 64) ||| (a.m_Lo / 2 ^ 32 % 2 ^ 32), a.m_Lo * 2 ^ 32 % 2 ^ 64⟩

/-- `lshift`. -/
def lshift (a : WE_I128) : WE_I128 :=
  ⟨(a.m_Hi * 2 % 2 ^ 64) ||| (a.m_Lo / 2 ^ 63 % 2), a.m_Lo * 2 % 2 ^ 64⟩

/-- `multiply32 (op)`, `op` a word of 32 bits. -/
def multiply32 (a : WE_I128) (op : Nat) : WE_I128 :=
  let op := op % 2 ^ 32
  let temp := ofUInt64 (op * (a.m_Lo % 2 ^ 32))
  let result := temp
  let temp := ofUInt64 (op * (a.m_Lo / 2 ^ 32 % 2 ^ 32))
  let result := result.add temp.lshift32
  let temp := ofUInt64 (op * (a.m_Hi % 2 ^ 32))
  let result := result.add temp.lshift64
  let temp := ofUInt64 (op * (a.m_Hi / 2 ^ 32 % 2 ^ 32))
  result.add temp.lshift96

/-- `multiply (op)`. -/
def multiply (a op : WE_I128) : WE_I128 :=
  let tw0 := a.m_Lo % 2 ^ 32
  let tw1 := a.m_Lo / 2 ^ 32 % 2 ^ 32
  let tw2 := a.m_Hi % 2 ^ 32
  let tw3 := a.m_Hi / 2 ^ 32 % 2 ^ 32
  let opw0 := op.m_Lo % 2 ^ 32
  let opw1 := op.m_Lo / 2 ^ 32 % 2 ^ 32
  let opw2 := op.m_Hi % 2 ^ 32
  let opw3 := op.m_Hi / 2 ^ 32 % 2 ^ 32
  let result := ofUInt64 (opw0 * tw0)
  let result := result.add (ofUInt64 (opw0 * tw1)).lshift32
  let result := result.add (ofUInt64 (opw0 * tw2)).lshift64
  let result := result.add (ofUInt64 (opw0 * tw3)).lshift96
  let result := result.add (ofUInt64 (opw1 * tw0)).lshift32
  let result := result.add (ofUInt64 (opw1 * tw1)).lshift64
  let result := result.add (ofUInt64 (opw1 * tw2)).lshift96
  let result := result.add (ofUInt64 (opw2 * tw0)).lshift64
  let result := result.add (ofUInt64 (opw2 * tw1)).lshift96
  result.add (ofUInt64 (opw3 * tw0)).lshift96

/-- `operator*`. -/
def mul (a op : WE_I128) : WE_I128 :=
  let tneg := a.lt zero
  let tthis := if tneg then a.neg else a
  let oneg := op.lt zero
  let top := if oneg then op.neg else op
  let tthis :=
    if top.m_Hi = 0 ∧ top.m_Lo ≤ 0xFFFFFFFF then tthis.multiply32 top.m_Lo
    else tthis.multiply top
  if xor tneg oneg then tthis.neg else tthis

/-- The loop of `devide64`; one unit of `fuel` per turn. -/
def devide64Loop : Nat → Nat → Nat → Nat → WE_I128 → WE_I128 → Option (WE_I128 × WE_I128)
  | 0, _, _, _, _, _ => none
  | fuel + 1, op, sq, sr, quotient, reminder =>
    if reminder.m_Hi > 0 then
      let temp := (ofUInt64 reminder.m_Hi).mul (ofUInt64 sq)
      let quotient := quotient.add temp
      let temp := (ofUInt64 reminder.m_Hi).mul (ofUInt64 sr)
      let temp := temp.add (ofUInt64 reminder.m_Lo)
      let quotient : WE_I128 := ⟨(quotient.m_Hi + temp.m_Hi / op) % 2 ^ 64, quotient.m_Lo⟩
      let quotient := quotient.add (ofUInt64 (temp.m_Lo / op))
      devide64Loop fuel op sq sr quotient ⟨temp.m_Hi % op, temp.m_Lo % op⟩
    else some (quotient, reminder)

/-- `devide64 (op, quotient, reminder)`: the quotient and the remainder; nothing
for a division by zero, which is undefined, or when `fuel` turns of the loop are
not enough. -/
def devide64 (fuel : Nat) (a : WE_I128) (op : Nat) : Option (WE_I128 × WE_I128) :=
  if op = 0 then none
  else
    let sq := 0xFFFFFFFFFFFFFFFF / op
    let sr := 0xFFFFFFFFFFFFFFFF % op + 1
    let sq := if sr = op then (sq + 1) % 2 ^ 64 else sq
    let sr := if sr = op then 0 else sr
    devide64Loop fuel op sq sr ⟨a.m_Hi / op, a.m_Lo / op⟩ ⟨a.m_Hi % op, a.m_Lo % op⟩

/-- The loop of `devide`, with `count` turns left. -/
def devideLoop : Nat → WE_I128 → WE_I128 → WE_I128 → WE_I128 × WE_I128
  | 0, _, quotient, reminder => (quotient, reminder)
  | count + 1, op, quotient, reminder =>
    let reminder := reminder.lshift
    let reminder : WE_I128 := ⟨reminder.m_Hi, reminder.m_Lo ||| (quotient.m_Hi / 2 ^ 63 % 2)⟩
    let quotient := quotient.lshift
    if reminder.ge op then devideLoop count op ⟨quotient.m_Hi, quotient.m_Lo ||| 1⟩ (reminder.sub op)
    else devideLoop count op quotient reminder

/-- `devide (op, quotient, reminder)`: the quotient and the remainder. -/
def devide (a op : WE_I128) : WE_I128 × WE_I128 := devideLoop 128 op a zero

/-- The division that `operator/` and `operator%` share: whether `*this` and
`op` are negative, the quotient and the remainder of their negations. -/
def divide (fuel : Nat) (a op : WE_I128) : Option (Bool × Bool × WE_I128 × WE_I128) :=
  let tneg := a.lt zero
  let tthis := if tneg then a.neg else a
  let oneg := op.lt zero
  let top := if oneg then op.neg else op
  (if top.m_Hi = 0 ∧ (tthis.m_Hi = 0 ∨ tthis.m_Hi ≥ top.m_Lo ∨ top.m_Lo ≤ 0xFFFFFFFF) then
    tthis.devide64 fuel top.m_Lo
  else some (tthis.devide top)).map fun qr => (tneg, oneg, qr.1, qr.2)

/-- `operator/`. -/
def div (fuel : Nat) (a op : WE_I128) : Option WE_I128 :=
  (divide fuel a op).map fun r => if xor r.1 r.2.1 then r.2.2.1.neg else r.2.2.1

/-- `operator%`. -/
def mod (fuel : Nat) (a op : WE_I128) : Option WE_I128 :=
  (divide fuel a op).map fun r => if r.1 then r.2.2.2.neg else r.2.2.2

end WE_I128
end whais

/-! ## Repair of a table: `ps_table.cpp` -/

namespace whais
namespace pastra

/-- Modelled from the spec: the enumeration `FIX_ERROR_TYPE` (declared outside
src/), the types of the messages that repair sends to its callback. -/
inductive FIX_ERROR_TYPE where
  | INFORMATION
  | FIX_INFO
  | FIX_QUESTION
  | CRITICAL
  deriving DecidableEq, Repr

/-- A call of the callback: the type of the message, the number of the message
(the format strings of `repair_table_header`, `repair_table_fields` and
`RepairTable` are counted in the order of the source, from 1 on in each
function) and the numbers among its arguments. -/
structure FixCall where
  type : FIX_ERROR_TYPE
  message : Nat
  args : List Nat
  deriving DecidableEq, Repr

/-- A `FIX_ERROR_CALLBACK`: what it answers to a call. -/
abbrev FIX_ERROR_CALLBACK := FixCall → Bool

/-- What the repair of a table takes from code that is not in src/, besides
`TableParams`: the macros `GET_BASE_TYPE` and `IS_ARRAY`, the type codes of the
`switch` of `RepairTable` (those with a validator of `Serializer`, `T_BOOL`,
`T_CHAR`, `T_DATE`, `T_DATETIME`, `T_HIRESTIME`, `T_REAL`, `T_RICHREAL`, and the
eight integer types), the validators `Serializer::ValidateD...Buffer` by type
code, the checks of arrays and texts (`check_array_buffer` and
`check_text_buffer`, which go through `Serializer` and `utf8.h`, and
`VariableSizeStore::CheckArrayEntry` and `CheckTextEntry`), and the way an array
of `FieldDescriptor` lies in the bytes of the descriptors area. -/
structure RepairParams where
  P : TableParams
  GET_BASE_TYPE : Nat → Nat
  IS_ARRAY : Nat → Bool
  validatedTypes : List Nat
  integerTypes : List Nat
  ValidateBuffer : Nat → List Byte → Bool
  check_array_buffer : List Byte → Nat → Nat → Bool
  CheckArrayEntry : Nat → Nat → Nat → Bool
  check_text_buffer : List Byte → Nat → Bool
  CheckTextEntry : Nat → Nat → Bool
  loadDescriptors : List Byte → Nat → List FieldDescriptor
  storeDescriptors : List Byte → List FieldDescriptor → List Byte

/-- The loop of `repair_table_fields` from field `i` on: the array after the
loop, the value the function returns (`NOT_FIXED` is 0) and the calls of the
callback. Message 1 asks about the null bit index, message 2 about the data
offset, message 3 tells the data offset. -/
def repair_table_fields_loop (R : RepairParams) (fixCallback : FIX_ERROR_CALLBACK) :
    List FieldDescriptor → Nat → Nat → List FieldDescriptor × Nat × List FixCall
  | [], _, rowSize => ([], rowSize, [])
  | field :: rest, i, rowSize =>
    let askNull : FixCall := ⟨.FIX_QUESTION, 1, [i]⟩
    if field.mNullBitIndex ≠ i ∧ fixCallback askNull = false then (field :: rest, 0, [askNull])
    else
      let calls1 := if field.mNullBitIndex ≠ i then [askNull] else []
      let field1 := if field.mNullBitIndex ≠ i then { field with mNullBitIndex := i } else field
      let askOff : FixCall := ⟨.FIX_QUESTION, 2, [i, rowSize]⟩
      if field1.mRowDataOff ≠ rowSize ∧ fixCallback askOff = false then
        (field1 :: rest, 0, calls1 ++ [askOff])
      else
        let calls2 := calls1 ++
          [if field1.mRowDataOff ≠ rowSize then askOff else ⟨.INFORMATION, 3, [i, rowSize]⟩]
        let field2 :=
          if field1.mRowDataOff ≠ rowSize then { field1 with mRowDataOff := rowSize } else field1
        let rowSize := (rowSize + R.P.SerializerSize (R.GET_BASE_TYPE field2.mType)
          (R.IS_ARRAY field2.mType)) % 2 ^ 32
        let (fields, result, calls) :=
          repair_table_fields_loop R fixCallback rest ((i + 1) % 2 ^ 32) rowSize
        (field2 :: fields, result, calls2 ++ calls)

/-- `repair_table_fields(fields, fieldsCount, fixCallback)`: the array `fields`
after the call, the result and the calls of the callback. -/
def repair_table_fields (R : RepairParams) (fixCallback : FIX_ERROR_CALLBACK)
    (fields : List FieldDescriptor) (fieldsCount : Nat) :
    List FieldDescriptor × Nat × List FixCall :=
  let (repaired, result, calls) := repair_table_fields_loop R fixCallback
    (fields.take fieldsCount) 0 ((fieldsCount + 7) % 2 ^ 32 / 8)
  (repaired ++ fields.drop fieldsCount, result, calls)

/-- A descriptor array in the words of the specification: field `i` has the null
bit index `i` and its row offset is the size of the null bits, `ceil(n / 8)`
bytes, and of the fields before it; the row size is the size of the null bits
and of all the fields. -/
def layoutFrom (size : FieldDescriptor → Nat) :
    List FieldDescriptor → Nat → Nat → List FieldDescriptor × Nat
  | [], _, offset => ([], offset)
  | field :: rest, i, offset =>
    let (fields, rowSize) := layoutFrom size rest (i + 1) (offset + size field)
    ({ field with mNullBitIndex := i, mRowDataOff := offset } :: fields, rowSize)

/-- The layout of the specification for `n` fields. -/
def specLayout (R : RepairParams) (fields : List FieldDescriptor) : List FieldDescriptor × Nat :=
  layoutFrom (fun field => R.P.SerializerSize (R.GET_BASE_TYPE field.mType)
    (R.IS_ARRAY field.mType)) fields 0 ((fields.length + 7) / 8)

/-- The function `strlen` on the bytes of `buffer` from `offset` on; `none` when
there is no NUL before the end of the buffer (the function reads past it). -/
def strlen (buffer : List Byte) (offset : Nat) : Option Nat :=
  if 0 ∈ buffer.drop offset then some ((buffer.drop offset).indexOf 0) else none

/-- The C string at `buffer + offset`, without its NUL. -/
def cstring (buffer : List Byte) (offset : Nat) : List Char :=
  ((buffer.drop offset).takeWhile (fun c => c ≠ 0)).map Char.ofNat

/-- `field_type_to_text(type)` returns a text for the types of its two
`switch`es and throws for any other type. -/
def field_type_to_text (R : RepairParams) (type : Nat) : Except DBSFailure Unit :=
  if R.IS_ARRAY type then
    if R.GET_BASE_TYPE type ∈ R.validatedTypes ++ R.integerTypes then .ok ()
    else .error .GENERAL_CONTROL_ERROR
  else if R.GET_BASE_TYPE type ∈ R.validatedTypes ++ R.integerTypes
      ∨ R.GET_BASE_TYPE type = R.P.T_TEXT then .ok ()
  else .error .GENERAL_CONTROL_ERROR

/-- The start of a turn of the loop of `repair_table_header` over the names of
the fields, the test of the name offset of field `i`: the descriptor after it,
`none` where the function returns `false`, and the calls of the callback.
Message 5 asks about the name offset, 6 tells the name that was set, 7 is
critical (the restored name is not valid). -/
def repair_name_check (fixCallback : FIX_ERROR_CALLBACK) (descriptors : List Byte)
    (field : FieldDescriptor) (i nameOffset : Nat) :
    Except DBSFailure (Option FieldDescriptor) × List FixCall :=
  let ask : FixCall := ⟨.FIX_QUESTION, 5, [i, nameOffset]⟩
  if field.mNameOffset ≠ nameOffset then
    if fixCallback ask = false then (.ok none, [ask])
    else
      match strlen descriptors nameOffset with
      | none => (.error .UNDEFINED, [ask])
      | some _ =>
        match validate_field_name (cstring descriptors nameOffset) with
        | .error e => (.error e, [ask])
        | .ok true =>
          (.ok (some { field with mNameOffset := nameOffset }),
            [ask, ⟨.INFORMATION, 6, [nameOffset]⟩])
        | .ok false => (.ok none, [ask, ⟨.CRITICAL, 7, []⟩])
  else (.ok (some field), [])

/-- The end of a turn of the same loop: the name offset of the next field,
`none` where the function returns `false`, and the calls of the callback.
Message 8 tells the field found, 9 is critical (a name runs past the
descriptors). -/
def repair_name_next (R : RepairParams) (descriptors : List Byte) (descSize : Nat)
    (field : FieldDescriptor) (nameOffset : Nat) :
    Except DBSFailure (Option Nat) × List FixCall :=
  match field_type_to_text R field.mType with
  | .error e => (.error e, [])
  | .ok _ =>
    match strlen descriptors nameOffset with
    | none => (.error .UNDEFINED, [⟨.INFORMATION, 8, [nameOffset, field.mType]⟩])
    | some length =>
      if (nameOffset + (length + 1)) % 2 ^ 32 > descSize then
        (.ok none, [⟨.INFORMATION, 8, [nameOffset, field.mType]⟩, ⟨.CRITICAL, 9, []⟩])
      else
        (.ok (some ((nameOffset + (length + 1)) % 2 ^ 32)),
          [⟨.INFORMATION, 8, [nameOffset, field.mType]⟩])

/-- The loop of `repair_table_header` over the names of the fields, from field
`i` on: the descriptors and `nameOffset` after the loop, `none` where the
function returns `false`, and the calls of the callback. -/
def repair_names_loop (R : RepairParams) (fixCallback : FIX_ERROR_CALLBACK)
    (descriptors : List Byte) (descSize : Nat) :
    List FieldDescriptor → Nat → Nat →
    Except DBSFailure (Option (List FieldDescriptor × Nat)) × List FixCall
  | [], _, nameOffset => (.ok (some ([], nameOffset)), [])
  | field :: rest, i, nameOffset =>
    match repair_name_check fixCallback descriptors field i nameOffset with
    | (.error e, calls) => (.error e, calls)
    | (.ok none, calls) => (.ok none, calls)
    | (.ok (some field1), calls) =>
      match repair_name_next R descriptors descSize field1 nameOffset with
      | (.error e, calls1) => (.error e, calls ++ calls1)
      | (.ok none, calls1) => (.ok none, calls ++ calls1)
      | (.ok (some nameOffset), calls1) =>
        match repair_names_loop R fixCallback descriptors descSize rest
            ((i + 1) % 2 ^ 32) nameOffset with
        | (.error e, calls2) => (.error e, calls ++ calls1 ++ calls2)
        | (.ok none, calls2) => (.ok none, calls ++ calls1 ++ calls2)
        | (.ok (some (fields, result)), calls2) =>
          (.ok (some (field1 :: fields, result)), calls ++ calls1 ++ calls2)

/-- The files of a table that `repair_table_header` touches: the family of the
table file (its first file holds the header and the descriptors) and the family
of the container of the variable size fields. -/
structure TableDisk where
  table : FileContainer.Family
  varfields : FileContainer.Family
  deriving DecidableEq, Repr

/-- The end of `repair_table_header`, from the reset of the list of the
removed rows on: the header and the descriptors are written, the table file gets
`fileSize` bytes and the two containers are fixed. -/
def repair_table_header_write (R : RepairParams) (maxFileSize : Nat) (disk : TableDisk)
    (tableFile : File) (header descriptors : List Byte) (fds : List FieldDescriptor)
    (fileSize : Nat) : TableDisk × Except DBSFailure Bool :=
  let header := store_le_int32 R.P.NIL_NODE header PS_TABLE_BT_ROOT_OFF
  let header := store_le_int32 R.P.NIL_NODE header PS_TABLE_BT_HEAD_OFF
  let vsSize := load_le_int64 header PS_TABLE_VARSTORAGE_SIZE_OFF
  let vsSize := vsSize / StoreEntry.sizeofEntry
  let vsSize := vsSize * StoreEntry.sizeofEntry % 2 ^ 64
  let header := store_le_int64 vsSize header PS_TABLE_VARSTORAGE_SIZE_OFF
  let tableFile := tableFile.WriteAt 0 header
  let tableFile := tableFile.WriteAt PS_HEADER_SIZE (R.storeDescriptors descriptors fds)
  let tableFile := tableFile.SetSize fileSize
  match FileContainer.Fix (disk.table.set 0 (some tableFile)) maxFileSize fileSize with
  | none => (disk, .error .UNDEFINED)
  | some table =>
    match FileContainer.Fix disk.varfields maxFileSize vsSize with
    | none => (disk, .error .UNDEFINED)
    | some varfields => (⟨table, varfields⟩, .ok true)

/-- The middle of `repair_table_header`, from the loop over the names to the
question about the row size, followed by its end. Message 10 is critical (the
names do not end where the descriptors end), 11 asks about the row size, 12
tells it. -/
def repair_table_header_fields (R : RepairParams) (fixCallback : FIX_ERROR_CALLBACK)
    (maxFileSize : Nat) (disk : TableDisk) (tableFile : File) (header descriptors : List Byte)
    (fieldsCount descSize fileSize : Nat) : TableDisk × Except DBSFailure Bool × List FixCall :=
  match repair_names_loop R fixCallback descriptors descSize
      (R.loadDescriptors descriptors fieldsCount) 0
      (fieldsCount * R.P.sizeofFieldDescriptor % 2 ^ 32) with
  | (.error e, calls) => (disk, .error e, calls)
  | (.ok none, calls) => (disk, .ok false, calls)
  | (.ok (some (fds, nameOffset)), calls) =>
    if nameOffset ≠ descSize then (disk, .ok false, calls ++ [⟨.CRITICAL, 10, []⟩])
    else
      let repaired := repair_table_fields R fixCallback fds fieldsCount
      let rowSize := repaired.2.1
      let ask : FixCall := ⟨.FIX_QUESTION, 11,
        [load_le_int32 header PS_TABLE_ROW_SIZE_OFF, rowSize]⟩
      if rowSize = 0 then (disk, .ok false, calls ++ repaired.2.2)
      else if rowSize ≠ load_le_int32 header PS_TABLE_ROW_SIZE_OFF then
        if fixCallback ask = false then (disk, .ok false, calls ++ repaired.2.2 ++ [ask])
        else
          let written := repair_table_header_write R maxFileSize disk tableFile
            (store_le_int32 rowSize header PS_TABLE_ROW_SIZE_OFF) descriptors repaired.1 fileSize
          (written.1, written.2, calls ++ repaired.2.2 ++ [ask])
      else
        let written := repair_table_header_write R maxFileSize disk tableFile header descriptors
          repaired.1 fileSize
        (written.1, written.2, calls ++ repaired.2.2 ++ [⟨.INFORMATION, 12, [rowSize]⟩])

/-- `repair_table_header(name, fileNamePrefix, maxFileSize, fixCallback)`: the
files after the call, what the function returns or throws, and the calls of the
callback. The critical messages are 1 (file below 128 bytes), 2 (no signature),
3 (descriptors too damaged), 4 (file shorter than its descriptors), 7, 9 and
10. The sum `PS_HEADER_SIZE + descSize` is a sum of two `uint_t` values, which
wraps around at `2 ^ 32`; the descriptors are read through the `File` class,
where a read past the end of the file fails. -/
def repair_table_header (R : RepairParams) (fixCallback : FIX_ERROR_CALLBACK)
    (maxFileSize : Nat) (disk : TableDisk) :
    TableDisk × Except DBSFailure Bool × List FixCall :=
  match disk.table.file 0 with
  | none => (disk, .error (.CONTAINER .UNDEFINED), [])
  | some tableFile =>
    if tableFile.Size < PS_HEADER_SIZE then (disk, .ok false, [⟨.CRITICAL, 1, []⟩])
    else
      let header := tableFile.take PS_HEADER_SIZE
      if header.take PS_TABLE_SIGNATURE.length ≠ PS_TABLE_SIGNATURE then
        (disk, .ok false, [⟨.CRITICAL, 2, []⟩])
      else
        let fieldsCount := load_le_int32 header PS_TABLE_FIELDS_COUNT_OFF
        let descSize := load_le_int32 header PS_TABLE_ELEMS_SIZE_OFF
        if R.P.RAW_NODE_SIZE = 0 then (disk, .error .UNDEFINED, []) else
        let fileSize := (PS_HEADER_SIZE + descSize + R.P.RAW_NODE_SIZE - 1) % 2 ^ 32
        let fileSize := fileSize / R.P.RAW_NODE_SIZE
        let fileSize := fileSize * R.P.RAW_NODE_SIZE % 2 ^ 32
        if fieldsCount = 0 ∨ fieldsCount > 0xFFFF
            ∨ fieldsCount * R.P.sizeofFieldDescriptor ≥ descSize then
          (disk, .ok false, [⟨.CRITICAL, 3, []⟩])
        else if tableFile.Size < (PS_HEADER_SIZE + descSize) % 2 ^ 32 then
          (disk, .ok false, [⟨.CRITICAL, 4, []⟩])
        else
          match tableFile.ReadAt PS_HEADER_SIZE descSize with
          | none => (disk, .error (.CONTAINER .UNDEFINED), [])
          | some descriptors =>
            repair_table_header_fields R fixCallback maxFileSize disk tableFile header
              descriptors fieldsCount descSize fileSize

/-- The part of `RepairTable` that opens the container of the rows and settles
the count of the rows (lines 1221 to 1292), with the row count it stores in the
header at the end (line 1663): the header, the container of the rows and the
calls of the callback, `none` where the function returns `false`. `rowsDisk`
holds the files of the container found on disk. Message 1 asks about the rows,
2 tells the count that was set, 3 the count that was found. -/
def RepairTable_rows (fixCallback : FIX_ERROR_CALLBACK) (maxFileSize : Nat)
    (tableHeader : List Byte) (rowsDisk : List File) :
    Except DBSFailure (Option (List Byte × FileContainer)) × List FixCall :=
  let rowSize := load_le_int32 tableHeader PS_TABLE_ROW_SIZE_OFF
  let rowsCount := load_le_int32 tableHeader PS_TABLE_ROWS_COUNT_OFF
  if maxFileSize = 0 then (.error .UNDEFINED, []) else
  match FileContainer.Open rowsDisk maxFileSize
      ((rowSize * rowsCount % 2 ^ 32 + maxFileSize - 1) % 2 ^ 64 / maxFileSize) with
  | .error e => (.error (.CONTAINER e), [])
  | .ok rowsData =>
    if rowSize * rowsCount % 2 ^ 32 ≠ rowsData.Size then
      let ask : FixCall := ⟨.FIX_QUESTION, 1, []⟩
      if fixCallback ask = false then (.ok none, [ask])
      else if rowSize = 0 then (.error .UNDEFINED, [ask])
      else
        let rowsCount := min (rowsData.Size / rowSize) rowsCount % 2 ^ 32
        let calls := [ask, ⟨.INFORMATION, 2, [rowsCount]⟩]
        match rowsData.Colapse (rowsCount * rowSize % 2 ^ 32) rowsData.Size with
        | .error e => (.error (.CONTAINER e.1), calls)
        | .ok rowsData =>
          (.ok (some (store_le_int64 rowsCount tableHeader PS_TABLE_ROWS_COUNT_OFF, rowsData)),
            calls)
    else
      (.ok (some (store_le_int64 rowsCount tableHeader PS_TABLE_ROWS_COUNT_OFF, rowsData)),
        [⟨.INFORMATION, 3, [rowsCount]⟩])

/-- The body of the loop over the fields of a row in `RepairTable` (lines 1314
to 1640) for one field: the row and the calls of the callback. `indexed` tells
whether `indexNodeMgrs[field]` is not null. The keys that the function inserts
in the index of the field are not modelled. -/
def RepairTable_field (R : RepairParams) (field : FieldDescriptor) (indexed : Bool)
    (rowData : List Byte) : Except DBSFailure (List Byte × Bool × List FixCall) :=
  let byteOff := field.mNullBitIndex / 8
  let bitOff := field.mNullBitIndex % 8
  let fieldData := rowData.drop field.mRowDataOff
  let isNullValue : Bool := (rowData.getD byteOff 0 &&& (1 <<< bitOff)) ≠ 0
  let fixInfo : FixCall := ⟨.FIX_INFO, 4, [field.mNameOffset]⟩
  let fieldEntry := load_le_int64 fieldData 0
  let fieldSize := load_le_int64 fieldData 8
  let checked : Except DBSFailure (Bool × List FixCall) :=
    if R.IS_ARRAY field.mType ∧ isNullValue = false then
      if fieldSize &&& 0x8000000000000000 ≠ 0 then
        if R.check_array_buffer fieldData ((fieldSize >>> 56) &&& 0x7F)
            (R.GET_BASE_TYPE field.mType) = false then .ok (true, [fixInfo])
        else .ok (isNullValue, [])
      else if R.CheckArrayEntry fieldEntry fieldSize (R.GET_BASE_TYPE field.mType) = false then
        .ok (true, [fixInfo])
      else .ok (isNullValue, [])
    else if R.GET_BASE_TYPE field.mType = R.P.T_TEXT ∧ isNullValue = false then
      if fieldSize &&& 0x8000000000000000 ≠ 0 then
        if R.check_text_buffer fieldData ((fieldSize >>> 56) &&& 0x7F) = false then
          .ok (true, [fixInfo])
        else .ok (isNullValue, [])
      else if R.CheckTextEntry fieldEntry fieldSize = false then .ok (true, [fixInfo])
      else .ok (isNullValue, [])
    else if indexed then
      if R.GET_BASE_TYPE field.mType ∈ R.validatedTypes then
        if isNullValue = false
            ∧ R.ValidateBuffer (R.GET_BASE_TYPE field.mType) fieldData = false then
          .ok (true, [fixInfo])
        else .ok (isNullValue, [])
      else if R.GET_BASE_TYPE field.mType ∈ R.integerTypes then .ok (isNullValue, [])
      else .error .GENERAL_CONTROL_ERROR
    else .ok (isNullValue, [])
  match checked with
  | .error e => .error e
  | .ok (isNullValue, calls) =>
    .ok (if isNullValue then rowData.set byteOff (rowData.getD byteOff 0 ||| (1 <<< bitOff))
      else rowData, isNullValue, calls)

end pastra
end whais

namespace whais
namespace pastra

/-- A fixture: the type code 1 is `T_BOOL`, the only type with a validator, and 2
an integer type; no type is an array; a field descriptor takes 16 bytes and a
field one byte of the row; no buffer holds a valid value. -/
def repairFixture : RepairParams :=
  { P := ⟨0, 18, 20, 256, 16, fun _ _ => 1, 0, 128, fun _ _ => []⟩
    GET_BASE_TYPE := fun type => type
    IS_ARRAY := fun _ => false
    validatedTypes := [1]
    integerTypes := [2]
    ValidateBuffer := fun _ _ => false
    check_array_buffer := fun _ _ _ => false
    CheckArrayEntry := fun _ _ _ => false
    check_text_buffer := fun _ _ => false
    CheckTextEntry := fun _ _ => false
    loadDescriptors := fun _ _ => []
    storeDescriptors := fun descriptors _ => descriptors }

/-- A fixture: a table header of 128 bytes with the row size 1 and the row count
`2 ^ 32 + 1`. -/
def wideRowCountHeader : List Byte :=
  store_le_int64 (2 ^ 32 + 1)
    (store_le_int32 1 (memcpy (List.replicate 128 0) 0 PS_TABLE_SIGNATURE) PS_TABLE_ROW_SIZE_OFF)
    PS_TABLE_ROWS_COUNT_OFF

/-- A fixture: a table file of 128 bytes, the header alone, with the signature,
one field and `2 ^ 32 - 1` as the size of the descriptors. -/
def wideDescriptorsFile : File :=
  store_le_int32 (2 ^ 32 - 1)
    (store_le_int32 1 (memcpy (List.replicate 128 0) 0 PS_TABLE_SIGNATURE)
      PS_TABLE_FIELDS_COUNT_OFF)
    PS_TABLE_ELEMS_SIZE_OFF

end pastra
end whais

namespace whais
namespace pastra

/-! ## Flat byte arrays -/

theorem flatWrite_length (l : List Byte) (pos : Nat) (buffer : List Byte) (h : pos ≤ l.length) :
    (flatWrite l pos buffer).length = max l.length (pos + buffer.length) := by
  simp only [flatWrite, List.length_append, List.length_take, List.length_drop]
  omega

theorem flatRead_flatWrite (l : List Byte) (pos : Nat) (buffer : List Byte) (h : pos ≤ l.length) :
    flatRead (flatWrite l pos buffer) pos buffer.length = buffer := by
  have h1 : (l.take pos).length = pos := by simp [List.length_take]; omega
  simp only [flatRead, flatWrite, List.append_assoc]
  rw [List.drop_left' h1, List.take_left]

theorem flatWrite_nil (l : List Byte) (pos : Nat) : flatWrite l pos [] = l := by
  simp [flatWrite]

/-- Writing a buffer in two pieces is writing it at once. -/
theorem flatWrite_flatWrite (l : List Byte) (pos : Nat) (b1 b2 : List Byte) (h : pos ≤ l.length) :
    flatWrite (flatWrite l pos b1) (pos + b1.length) b2 = flatWrite l pos (b1 ++ b2) := by
  have h1 : (l.take pos).length = pos := by simp [List.length_take]; omega
  have h2 : (l.take pos ++ b1).length = pos + b1.length := by simp [h1]
  unfold flatWrite
  rw [List.take_left' h2]
  rw [show pos + b1.length + b2.length = (l.take pos ++ b1).length + b2.length by rw [h2]]
  rw [List.drop_append, List.drop_drop, List.length_append]
  rw [show pos + b1.length + b2.length = pos + (b1.length + b2.length) by omega]
  simp only [List.append_assoc]

/-- A write inside the middle part of `x ++ f ++ y` is a write into `f`, when
it stays inside `f` or nothing follows `f`. -/
theorem flatWrite_middle (x f y : List Byte) (p : Nat) (b : List Byte) (hp : p ≤ f.length)
    (hy : p + b.length ≤ f.length ∨ y = []) :
    flatWrite (x ++ (f ++ y)) (x.length + p) b = x ++ (flatWrite f p b ++ y) := by
  unfold flatWrite
  rw [List.take_append, Nat.add_assoc x.length, List.drop_append]
  simp only [List.append_assoc]
  congr 1
  rw [List.take_append_of_le_length hp]
  congr 2
  rcases hy with hy | hy
  · rw [List.drop_append_of_le_length hy]
  · subst hy; simp

/-! ## The unit files of a container -/

namespace FileContainer

theorem UnitsInv_cons_le {S : Nat} {f : File} {B : List File} (h : UnitsInv S (f :: B)) :
    f.length ≤ S := by
  cases B with
  | nil => exact h
  | cons g r => exact Nat.le_of_eq h.1

theorem UnitsInv_cons_eq {S : Nat} {f : File} {B : List File} (h : UnitsInv S (f :: B))
    (hB : B ≠ []) : f.length = S := by
  cases B with
  | nil => exact absurd rfl hB
  | cons g r => exact h.1

theorem UnitsInv_tail {S : Nat} {f : File} {B : List File} (h : UnitsInv S (f :: B)) :
    UnitsInv S B := by
  cases B with
  | nil => trivial
  | cons g r => exact h.2

theorem UnitsInv_append {S : Nat} (A : List File) (f : File) (B : List File) :
    UnitsInv S (A ++ f :: B) ↔ (∀ a ∈ A, a.length = S) ∧ UnitsInv S (f :: B) := by
  induction A with
  | nil => simp
  | cons a A ih =>
    cases A with
    | nil =>
      simp only [List.cons_append, List.nil_append, UnitsInv, File.Size, List.mem_singleton,
        forall_eq]
    | cons a2 A =>
      have e : UnitsInv S (a :: a2 :: A ++ f :: B) ↔
          a.length = S ∧ UnitsInv S (a2 :: A ++ f :: B) := Iff.rfl
      rw [e, ih]
      simp only [List.mem_cons, forall_eq_or_imp, and_assoc]

theorem UnitsInv_replace {S : Nat} {f : File} {B : List File} (h : UnitsInv S (f :: B))
    (g : File) (hg : g.length ≤ S) (hB : B ≠ [] → g.length = S) : UnitsInv S (g :: B) := by
  cases B with
  | nil => exact hg
  | cons b r => exact ⟨hB (by simp), h.2⟩

theorem length_flatten_full {S : Nat} (A : List File) (h : ∀ a ∈ A, a.length = S) :
    A.flatten.length = A.length * S := by
  induction A with
  | nil => simp
  | cons a A ih =>
    simp only [List.flatten_cons, List.length_append, List.length_cons]
    rw [ih (fun x hx => h x (List.mem_cons_of_mem _ hx)), h a (List.mem_cons_self _ _)]
    rw [Nat.add_mul, Nat.one_mul, Nat.add_comm]

theorem length_flatten_le {S : Nat} (l : List File) (h : UnitsInv S l) :
    l.flatten.length ≤ l.length * S := by
  induction l with
  | nil => simp
  | cons a l ih =>
    have h1 := UnitsInv_cons_le h
    have h2 := ih (UnitsInv_tail h)
    simp only [List.flatten_cons, List.length_append, List.length_cons, Nat.add_mul, Nat.one_mul]
    omega

/-- A family that honours the invariant and holds `length * S` bytes has only
full units. -/
theorem full_of_length_flatten {S : Nat} (l : List File) (h : UnitsInv S l)
    (hl : l.length * S ≤ l.flatten.length) : ∀ a ∈ l, a.length = S := by
  induction l with
  | nil => simp
  | cons a l ih =>
    have h1 := UnitsInv_cons_le h
    have h2 := length_flatten_le l (UnitsInv_tail h)
    simp only [List.flatten_cons, List.length_append, List.length_cons, Nat.add_mul,
      Nat.one_mul] at hl
    intro x hx
    rcases List.mem_cons.1 hx with hx | hx
    · subst hx; omega
    · exact ih (UnitsInv_tail h) (by omega) x hx

theorem UnitsInv_concat {S : Nat} (A : List File) (f : File) (hA : ∀ a ∈ A, a.length = S)
    (hf : f.length ≤ S) : UnitsInv S (A ++ [f]) :=
  (UnitsInv_append A f []).2 ⟨hA, hf⟩

theorem split_at {α : Type} (l : List α) (i : Nat) (h : i < l.length) :
    l = l.take i ++ l[i] :: l.drop (i + 1) := by
  rw [← List.drop_eq_getElem_cons h, List.take_append_drop]

/-- With the invariant, `Size()` is the number of bytes stored. -/
theorem Size_eq_length (c : FileContainer) (h : c.UnitSizeInvariant) :
    c.Size = c.Content.length := by
  unfold Size Content
  unfold UnitSizeInvariant at h
  rcases List.eq_nil_or_concat c.mFilesHandles with hn | ⟨A, f, hc⟩
  · rw [hn]; simp
  · rw [List.concat_eq_append] at hc
    rw [hc] at h ⊢
    have hA := ((UnitsInv_append A f []).1 h).1
    simp [File.Size, length_flatten_full A hA]

end FileContainer

end pastra
end whais

namespace whais
namespace pastra
namespace FileContainer

theorem WriteAt_eq_flatWrite (f : File) (p : Nat) (b : List Byte) (hp : p ≤ f.length) :
    File.WriteAt f p b = flatWrite f p b := by
  unfold File.WriteAt flatWrite
  rw [Nat.sub_eq_zero_of_le hp]
  simp

/-- One call of `Write` on a container that honours the invariant: the unit
written stays inside the invariant and the call goes on with the rest. -/
theorem WriteAux_step (fuel : Nat) (c : FileContainer) (toPos : Nat) (buffer : List Byte)
    (hS : 0 < c.mMaxFileUnitSize) (hinv : c.UnitSizeInvariant) (hto : toPos ≤ c.Content.length) :
    ∃ c2 : FileContainer, c2.mMaxFileUnitSize = c.mMaxFileUnitSize ∧ c2.UnitSizeInvariant ∧
      c2.Content = flatWrite c.Content toPos (buffer.take
        (WriteActualSize c.mMaxFileUnitSize (toPos % c.mMaxFileUnitSize) buffer.length)) ∧
      WriteAux (fuel + 1) c toPos buffer =
        if WriteActualSize c.mMaxFileUnitSize (toPos % c.mMaxFileUnitSize) buffer.length
            < buffer.length
        then WriteAux fuel c2
          (toPos + WriteActualSize c.mMaxFileUnitSize (toPos % c.mMaxFileUnitSize) buffer.length)
          (buffer.drop
            (WriteActualSize c.mMaxFileUnitSize (toPos % c.mMaxFileUnitSize) buffer.length))
        else .ok c2 := by
  obtain ⟨S, files⟩ := c
  simp only [UnitSizeInvariant, Content] at *
  have hS0 : S ≠ 0 := Nat.pos_iff_ne_zero.1 hS
  have hle := length_flatten_le files hinv
  have hdm := Nat.div_add_mod toPos S
  have hp := Nat.mod_lt toPos hS
  have hi : toPos / S ≤ files.length := Nat.div_le_of_le_mul (by rw [Nat.mul_comm]; omega)
  have hal : WriteActualSize S (toPos % S) buffer.length ≤ buffer.length := by
    unfold WriteActualSize; split <;> omega
  have haS : toPos % S + WriteActualSize S (toPos % S) buffer.length ≤ S := by
    unfold WriteActualSize; split <;> omega
  generalize ha : WriteActualSize S (toPos % S) buffer.length = a at *
  by_cases hin : toPos / S = files.length
  · -- the write starts a new unit
    rw [hin] at hdm
    have hmul : S * files.length = files.length * S := Nat.mul_comm _ _
    have hp0 : toPos % S = 0 := by omega
    have hfull := full_of_length_flatten files hinv (by omega)
    have hto' : toPos = files.flatten.length := by omega
    refine ⟨⟨S, files ++ [buffer.take a]⟩, rfl, ?_, ?_, ?_⟩
    · exact UnitsInv_concat files _ hfull (by simp [List.length_take]; omega)
    · simp only [List.flatten_append, List.flatten_cons, List.flatten_nil, List.append_nil]
      rw [hto']
      simp only [flatWrite, List.take_length, List.append_assoc]
      rw [List.drop_of_length_le (by omega), List.append_nil]
    · rw [WriteAux]
      have h2 : ¬(toPos / S = files.length ∧ toPos % S ≠ 0) := by omega
      have hset : (files ++ [([] : File)]).set files.length
          (File.WriteAt [] (toPos % S) (buffer.take a)) = files ++ [buffer.take a] := by
        rw [List.set_append_right _ _ (Nat.le_refl _), hp0]
        simp [File.WriteAt]
      simp only [hS0, if_false, h2]
      simp only [hin, gt_iff_lt, Nat.lt_irrefl, if_false, if_true, ExtendContainer,
        List.getElem?_concat_length, File.Size, List.length_nil, Nat.not_lt_zero, ha, hset]
      rw [if_neg (by omega)]
  · have hlt : toPos / S < files.length := by omega
    have hsplit := split_at files (toPos / S) hlt
    generalize hA : files.take (toPos / S) = A at hsplit
    generalize hf : files[toPos / S] = f at hsplit
    generalize hB : files.drop (toPos / S + 1) = B at hsplit
    have hAl : A.length = toPos / S := by rw [← hA, List.length_take]; omega
    rw [hsplit] at hinv hto
    obtain ⟨hAfull, hfB⟩ := (UnitsInv_append A f B).1 hinv
    have hAflat := length_flatten_full A hAfull
    rw [hAl] at hAflat
    have hfle := UnitsInv_cons_le hfB
    have hmul : S * (toPos / S) = toPos / S * S := Nat.mul_comm _ _
    have hpf : toPos % S ≤ f.length := by
      by_cases hBn : B = []
      · subst hBn
        simp only [List.flatten_append, List.flatten_cons, List.flatten_nil, List.append_nil,
          List.length_append] at hto
        omega
      · have := UnitsInv_cons_eq hfB hBn
        omega
    have hfl : (flatWrite f (toPos % S) (buffer.take a)).length
        = max f.length (toPos % S + a) := by
      rw [flatWrite_length _ _ _ hpf, List.length_take, Nat.min_eq_left hal]
    refine ⟨⟨S, A ++ flatWrite f (toPos % S) (buffer.take a) :: B⟩, rfl, ?_, ?_, ?_⟩
    · refine (UnitsInv_append A _ B).2 ⟨hAfull, UnitsInv_replace hfB _ ?_ ?_⟩
      · rw [hfl]; omega
      · intro hBn
        have := UnitsInv_cons_eq hfB hBn
        rw [hfl]; omega
    · rw [hsplit]
      simp only [List.flatten_append, List.flatten_cons]
      have e : toPos = A.flatten.length + toPos % S := by omega
      conv => rhs; rw [e]
      rw [flatWrite_middle _ _ _ _ _ hpf]
      by_cases hBn : B = []
      · right; subst hBn; rfl
      · left
        have := UnitsInv_cons_eq hfB hBn
        rw [List.length_take, Nat.min_eq_left hal]; omega
    · rw [WriteAux]
      have hget : files[toPos / S]? = some f := by
        rw [List.getElem?_eq_getElem hlt, hf]
      have hset : files.set (toPos / S) (File.WriteAt f (toPos % S) (buffer.take a))
          = A ++ flatWrite f (toPos % S) (buffer.take a) :: B := by
        rw [WriteAt_eq_flatWrite _ _ _ hpf]
        conv => lhs; rw [hsplit]
        rw [List.set_append_right _ _ (by omega), hAl, Nat.sub_self]
        rfl
      simp only [hS0, if_false, hin, gt_iff_lt, Nat.not_lt.2 hi, false_and, hget, File.Size,
        Nat.not_lt.2 hpf, hset, ha]

end FileContainer
end pastra
end whais

namespace whais
namespace pastra
namespace FileContainer

/-- `Write` on a container that honours the invariant, at an offset not past
its end: it returns, keeps the invariant and the unit size, and the bytes stored
are those of the flat byte array written at the same place. -/
theorem WriteAux_spec (fuel : Nat) : ∀ (c : FileContainer) (toPos : Nat) (buffer : List Byte),
    0 < c.mMaxFileUnitSize → c.UnitSizeInvariant → toPos ≤ c.Content.length →
    buffer.length < fuel →
    ∃ c2 : FileContainer, WriteAux fuel c toPos buffer = .ok c2 ∧
      c2.mMaxFileUnitSize = c.mMaxFileUnitSize ∧ c2.UnitSizeInvariant ∧
      c2.Content = flatWrite c.Content toPos buffer := by
  induction fuel with
  | zero => intro c toPos buffer _ _ _ h; omega
  | succ fuel ih =>
    intro c toPos buffer hS hinv hto hfuel
    obtain ⟨c2, hS2, hinv2, hc2, hstep⟩ := WriteAux_step fuel c toPos buffer hS hinv hto
    have hp := Nat.mod_lt toPos hS
    rw [hstep]
    generalize ha : WriteActualSize c.mMaxFileUnitSize (toPos % c.mMaxFileUnitSize)
      buffer.length = a at *
    by_cases hlt : a < buffer.length
    · rw [if_pos hlt]
      have hapos : 0 < a := by
        rw [← ha]; unfold WriteActualSize
        unfold WriteActualSize at ha
        split <;> omega
      have htl : (buffer.take a).length = a := by rw [List.length_take]; omega
      have hlen : toPos + a ≤ c2.Content.length := by
        rw [hc2, flatWrite_length _ _ _ hto, htl]; omega
      obtain ⟨c3, hw, hS3, hinv3, hc3⟩ := ih c2 (toPos + a) (buffer.drop a) (by omega) hinv2 hlen
        (by rw [List.length_drop]; omega)
      refine ⟨c3, hw, by omega, hinv3, ?_⟩
      rw [hc3, hc2]
      have := flatWrite_flatWrite c.Content toPos (buffer.take a) (buffer.drop a) hto
      rw [htl, List.take_append_drop] at this
      exact this
    · rw [if_neg hlt]
      refine ⟨c2, rfl, hS2, hinv2, ?_⟩
      rw [hc2, List.take_of_length_le (by omega)]

theorem Write_spec (c : FileContainer) (toPos : Nat) (buffer : List Byte)
    (hS : 0 < c.mMaxFileUnitSize) (hinv : c.UnitSizeInvariant) (hto : toPos ≤ c.Size) :
    ∃ c2 : FileContainer, c.Write toPos buffer = .ok c2 ∧
      c2.mMaxFileUnitSize = c.mMaxFileUnitSize ∧ c2.UnitSizeInvariant ∧
      c2.Content = flatWrite c.Content toPos buffer := by
  rw [Size_eq_length c hinv] at hto
  exact WriteAux_spec _ c toPos buffer hS hinv hto (Nat.lt_succ_self _)

/-- `Read` of a range that lies inside a container that honours the invariant
returns the bytes of the flat byte array. -/
theorem ReadAux_spec (fuel : Nat) : ∀ (c : FileContainer) (fromPos size : Nat),
    0 < c.mMaxFileUnitSize → c.UnitSizeInvariant → fromPos + size ≤ c.Content.length →
    size < fuel → ReadAux fuel c fromPos size = .ok (flatRead c.Content fromPos size) := by
  induction fuel with
  | zero => intro c fromPos size _ _ _ h; omega
  | succ fuel ih =>
    intro c fromPos size hS hinv hrange hfuel
    rw [ReadAux]
    by_cases hz : size = 0
    · subst hz; simp [flatRead]
    rw [if_neg hz]
    have hsize := Size_eq_length c hinv
    have ih' := ih c
    obtain ⟨S, files⟩ := c
    simp only [UnitSizeInvariant, Content] at *
    have hS0 : S ≠ 0 := Nat.pos_iff_ne_zero.1 hS
    have hle := length_flatten_le files hinv
    have hdm := Nat.div_add_mod fromPos S
    have hp := Nat.mod_lt fromPos hS
    have hlt : fromPos / S < files.length :=
      (Nat.div_lt_iff_lt_mul hS).2 (by omega)
    have hsplit := split_at files (fromPos / S) hlt
    have hget : files[fromPos / S]? = some files[fromPos / S] := List.getElem?_eq_getElem hlt
    generalize hA : files.take (fromPos / S) = A at hsplit
    generalize hf : files[fromPos / S] = f at hsplit hget
    generalize hB : files.drop (fromPos / S + 1) = B at hsplit
    have hAl : A.length = fromPos / S := by rw [← hA, List.length_take]; omega
    have hinv' := hinv
    rw [hsplit] at hinv'
    obtain ⟨hAfull, hfB⟩ := (UnitsInv_append A f B).1 hinv'
    have hAflat := length_flatten_full A hAfull
    rw [hAl] at hAflat
    have hfle := UnitsInv_cons_le hfB
    have hmul : S * (fromPos / S) = fromPos / S * S := Nat.mul_comm _ _
    have hflat : files.flatten = A.flatten ++ (f ++ B.flatten) := by
      conv => lhs; rw [hsplit]
      simp
    have hpf : fromPos % S < f.length := by
      by_cases hBn : B = []
      · subst hBn
        have := congrArg List.length hflat
        simp only [List.flatten_nil, List.append_nil, List.length_append] at this
        omega
      · have := UnitsInv_cons_eq hfB hBn
        omega
    have hdrop : files.flatten.drop fromPos = f.drop (fromPos % S) ++ B.flatten := by
      rw [hflat]
      have e : fromPos = A.flatten.length + fromPos % S := by omega
      conv => lhs; rw [e]
      rw [List.drop_append, List.drop_append_of_le_length (Nat.le_of_lt hpf)]
    have hc1 : ¬(fromPos / S > files.length ∨
        (fromPos + size) % 2 ^ 64 > Size ⟨S, files⟩) := by
      have := Nat.mod_le (fromPos + size) (2 ^ 64)
      rw [hsize]; omega
    simp only [hS0, if_false, hc1, hget, File.Size, File.ReadAt]
    generalize ha : (if size + fromPos % S > f.length then f.length - fromPos % S else size) = a
    have hal : a ≤ size := by rw [← ha]; split <;> omega
    have haf : fromPos % S + a ≤ f.length := by rw [← ha]; split <;> omega
    have hapos : 0 < a := by rw [← ha]; split <;> omega
    rw [if_pos haf]
    have hhead : (f.drop (fromPos % S)).take a = (files.flatten.drop fromPos).take a := by
      rw [hdrop, List.take_append_of_le_length (by rw [List.length_drop]; omega)]
    simp only [hhead]
    by_cases hlt2 : a < size
    · rw [if_pos hlt2, ih' (fromPos + a) (size - a) hS hinv (by omega) (by omega)]
      simp only [flatRead]
      have := List.take_add (files.flatten.drop fromPos) a (size - a)
      rw [List.drop_drop, show a + (size - a) = size by omega] at this
      rw [this]
    · rw [if_neg hlt2]
      have : a = size := by omega
      rw [this, flatRead]

theorem Read_spec (c : FileContainer) (fromPos size : Nat)
    (hS : 0 < c.mMaxFileUnitSize) (hinv : c.UnitSizeInvariant) (hrange : fromPos + size ≤ c.Size) :
    c.Read fromPos size = .ok (flatRead c.Content fromPos size) := by
  rw [Size_eq_length c hinv] at hrange
  exact ReadAux_spec _ c fromPos size hS hinv hrange (Nat.lt_succ_self _)

end FileContainer
end pastra
end whais

namespace whais
namespace pastra
namespace FileContainer

theorem flatRead_length (l : List Byte) (pos count : Nat) (h : pos + count ≤ l.length) :
    (flatRead l pos count).length = count := by
  simp only [flatRead, List.length_take, List.length_drop]; omega

/-- The copy loop of `Colapse` on a container that honours the invariant: it
returns, and the first `fromPos + (size - toPos)` bytes are then the bytes
before `fromPos` followed by the bytes from `toPos` on. -/
theorem ColapseLoop_spec (fuel : Nat) : ∀ (c : FileContainer) (fromPos toPos : Nat),
    0 < c.mMaxFileUnitSize → c.UnitSizeInvariant → fromPos ≤ toPos →
    toPos ≤ c.Content.length → c.Content.length - toPos < fuel →
    ∃ c2 : FileContainer, ColapseLoop fuel c fromPos toPos c.Content.length = .ok c2 ∧
      c2.mMaxFileUnitSize = c.mMaxFileUnitSize ∧ c2.UnitSizeInvariant ∧
      c2.Content.length = c.Content.length ∧
      c2.Content.take (fromPos + (c.Content.length - toPos))
        = c.Content.take fromPos ++ c.Content.drop toPos := by
  induction fuel with
  | zero => intro c fromPos toPos _ _ _ _ h; omega
  | succ fuel ih =>
    intro c fromPos toPos hS hinv hft hto hfuel
    rw [ColapseLoop]
    by_cases hlt : toPos < c.Content.length
    · rw [if_pos hlt]
      generalize hs : (if 1024 + toPos > c.Content.length then c.Content.length - toPos
        else 1024) = s
      have hs1 : toPos + s ≤ c.Content.length := by rw [← hs]; split <;> omega
      have hs0 : 0 < s := by rw [← hs]; split <;> omega
      have hsize := Size_eq_length c hinv
      dsimp only []
      rw [Read_spec c toPos s hS hinv (by omega)]
      obtain ⟨c1, hw, hS1, hinv1, hc1⟩ := Write_spec c fromPos (flatRead c.Content toPos s) hS hinv
        (by omega)
      have hrl := flatRead_length c.Content toPos s hs1
      have hl1 : c1.Content.length = c.Content.length := by
        rw [hc1, flatWrite_length _ _ _ (by omega), hrl]; omega
      simp only [hw]
      obtain ⟨c2, hloop, hS2, hinv2, hl2, hc2⟩ := ih c1 (fromPos + s) (toPos + s) (by omega) hinv1
        (by omega) (by omega) (by omega)
      rw [hl1] at hloop hl2 hc2
      refine ⟨c2, hloop, by omega, hinv2, hl2, ?_⟩
      have e : fromPos + (c.Content.length - toPos) = fromPos + s + (c.Content.length - (toPos + s)) := by
        omega
      rw [e, hc2, hc1]
      have ht : (c.Content.take fromPos).length = fromPos := by
        rw [List.length_take]; omega
      have ht2 : (c.Content.take fromPos ++ flatRead c.Content toPos s).length = fromPos + s := by
        rw [List.length_append, ht, hrl]
      unfold flatWrite
      rw [hrl, List.take_left' ht2]
      rw [show toPos + s = (c.Content.take fromPos ++ flatRead c.Content toPos s).length
        + (toPos - fromPos) by rw [ht2]; omega]
      rw [List.drop_append, List.drop_drop, List.append_assoc]
      congr 1
      rw [show fromPos + s + (toPos - fromPos) = toPos + s by omega]
      unfold flatRead
      rw [← List.drop_drop, List.take_append_drop]
    · rw [if_neg hlt]
      refine ⟨c, rfl, rfl, hinv, rfl, ?_⟩
      have : toPos = c.Content.length := by omega
      rw [this, Nat.sub_self, Nat.add_zero, List.drop_length, List.append_nil]

/-- Cutting a container that honours the invariant down to `newSize` bytes, the
way the end of `Colapse` does. -/
theorem truncate_spec (c : FileContainer) (newSize : Nat) (hS : 0 < c.mMaxFileUnitSize)
    (hinv : c.UnitSizeInvariant) (hlt : newSize < c.Content.length) :
    ∃ file, c.mFilesHandles[newSize / c.mMaxFileUnitSize]? = some file ∧
      UnitsInv c.mMaxFileUnitSize
        ((c.mFilesHandles.set (newSize / c.mMaxFileUnitSize)
          (file.SetSize (newSize % c.mMaxFileUnitSize))).take (newSize / c.mMaxFileUnitSize + 1)) ∧
      ((c.mFilesHandles.set (newSize / c.mMaxFileUnitSize)
          (file.SetSize (newSize % c.mMaxFileUnitSize))).take
            (newSize / c.mMaxFileUnitSize + 1)).flatten = c.Content.take newSize := by
  obtain ⟨S, files⟩ := c
  simp only [UnitSizeInvariant, Content] at *
  have hle := length_flatten_le files hinv
  have hdm := Nat.div_add_mod newSize S
  have hp := Nat.mod_lt newSize hS
  have hi : newSize / S < files.length := (Nat.div_lt_iff_lt_mul hS).2 (by omega)
  have hsplit := split_at files (newSize / S) hi
  have hget : files[newSize / S]? = some files[newSize / S] := List.getElem?_eq_getElem hi
  generalize hA : files.take (newSize / S) = A at hsplit
  generalize hf : files[newSize / S] = f at hsplit hget
  generalize hB : files.drop (newSize / S + 1) = B at hsplit
  have hAl : A.length = newSize / S := by rw [← hA, List.length_take]; omega
  have hinv' := hinv
  rw [hsplit] at hinv'
  obtain ⟨hAfull, hfB⟩ := (UnitsInv_append A f B).1 hinv'
  have hAflat := length_flatten_full A hAfull
  rw [hAl] at hAflat
  have hfle := UnitsInv_cons_le hfB
  have hmul : S * (newSize / S) = newSize / S * S := Nat.mul_comm _ _
  have hflat : files.flatten = A.flatten ++ (f ++ B.flatten) := by
    conv => lhs; rw [hsplit]
    simp
  have hpf : newSize % S ≤ f.length := by
    by_cases hBn : B = []
    · subst hBn
      have := congrArg List.length hflat
      simp only [List.flatten_nil, List.append_nil, List.length_append] at this
      omega
    · have := UnitsInv_cons_eq hfB hBn
      omega
  have hset : (files.set (newSize / S) (File.SetSize f (newSize % S))).take (newSize / S + 1)
      = A ++ [f.take (newSize % S)] := by
    conv => lhs; rw [hsplit]
    rw [List.set_append_right _ _ (by omega), hAl, Nat.sub_self]
    rw [← hAl, List.take_append]
    simp [File.SetSize, Nat.sub_eq_zero_of_le hpf]
  refine ⟨f, hget, ?_, ?_⟩
  · rw [hset]
    exact UnitsInv_concat A _ hAfull (by rw [List.length_take]; omega)
  · rw [hset, hflat]
    have e : newSize = A.flatten.length + newSize % S := by omega
    conv => rhs; rw [e]
    rw [List.take_append, List.take_append_of_le_length hpf]
    simp

/-- `Colapse` on a container that honours the invariant, for `from <= to <=
size`: it returns, keeps the invariant and the unit size, and the bytes stored
are those of the flat byte array without `[from, to)`. -/
theorem Colapse_spec (c : FileContainer) (fromPos toPos : Nat) (hS : 0 < c.mMaxFileUnitSize)
    (hinv : c.UnitSizeInvariant) (hft : fromPos ≤ toPos) (hto : toPos ≤ c.Size)
    (hfit : fromPos < toPos → FitsInt c fromPos toPos) :
    ∃ c2 : FileContainer, c.Colapse fromPos toPos = .ok c2 ∧
      c2.mMaxFileUnitSize = c.mMaxFileUnitSize ∧ c2.UnitSizeInvariant ∧
      c2.Content = flatColapse c.Content fromPos toPos := by
  have hsize := Size_eq_length c hinv
  unfold Colapse
  simp only []
  rw [if_neg (by omega)]
  by_cases he : toPos - fromPos = 0
  · rw [if_pos he]
    refine ⟨c, rfl, rfl, hinv, ?_⟩
    have : toPos = fromPos := by omega
    rw [this, flatColapse, List.take_append_drop]
  have hfit2 := hfit (by omega)
  unfold FitsInt at hfit2
  rw [if_neg he, hsize]
  rw [hsize] at hto hfit2
  obtain ⟨c1, hloop, hS1, hinv1, hl1, hc1⟩ := ColapseLoop_spec (c.Content.length - toPos + 1) c
    fromPos toPos hS hinv hft hto (Nat.lt_succ_self _)
  simp only [hloop]
  rw [if_neg (by omega), if_neg (by rw [hS1]; omega)]
  have hnew : c.Content.length - (toPos - fromPos) = fromPos + (c.Content.length - toPos) := by
    omega
  by_cases h0 : c.Content.length - (toPos - fromPos) = 0
  · rw [if_pos h0]
    refine ⟨_, rfl, hS1, trivial, ?_⟩
    have h1 : fromPos = 0 := by omega
    have h2 : toPos = c.Content.length := by omega
    simp [Content, flatColapse, h1, h2]
  · rw [if_neg h0]
    obtain ⟨file, hget, hinv2, hcont⟩ := truncate_spec c1 (c.Content.length - (toPos - fromPos))
      (by omega) hinv1 (by omega)
    simp only [hget]
    refine ⟨_, rfl, hS1, hinv2, ?_⟩
    simp only [Content] at hcont hnew hc1 ⊢
    rw [hcont, hnew]
    exact hc1

/-- `Colapse` of a range that is not empty, where the index of the last unit
left or its size does not fit an `int`: the bytes are moved, and the cut of the
unit files is not the one computed. -/
theorem Colapse_unfit (c : FileContainer) (fromPos toPos : Nat) (hS : 0 < c.mMaxFileUnitSize)
    (hinv : c.UnitSizeInvariant) (hft : fromPos < toPos) (hto : toPos ≤ c.Size)
    (hfit : ¬ FitsInt c fromPos toPos) :
    ∃ c1 : FileContainer, c.Colapse fromPos toPos = .error (.UNDEFINED, c1) := by
  have hsize := Size_eq_length c hinv
  unfold FitsInt at hfit
  unfold Colapse
  simp only []
  rw [if_neg (by omega), if_neg (by omega), hsize]
  rw [hsize] at hto hfit
  obtain ⟨c1, hloop, hS1, hinv1, hl1, hc1⟩ := ColapseLoop_spec (c.Content.length - toPos + 1) c
    fromPos toPos hS hinv (by omega) hto (Nat.lt_succ_self _)
  simp only [hloop]
  rw [if_neg (by omega), hS1, if_pos (by omega)]
  exact ⟨c1, rfl⟩

/-- A `Colapse` that returns had values that fit. -/
theorem FitsInt_of_Colapse (c c2 : FileContainer) (fromPos toPos : Nat)
    (hS : 0 < c.mMaxFileUnitSize) (hinv : c.UnitSizeInvariant) (hft : fromPos < toPos)
    (hto : toPos ≤ c.Size) (h : c.Colapse fromPos toPos = .ok c2) :
    FitsInt c fromPos toPos := by
  by_cases hfit : FitsInt c fromPos toPos
  · exact hfit
  · obtain ⟨c1, h1⟩ := Colapse_unfit c fromPos toPos hS hinv hft hto hfit
    rw [h1] at h
    cases h

end FileContainer
end pastra
end whais

namespace whais
namespace pastra
namespace FileContainer

theorem flatRead_one (l : List Byte) (i : Nat) : flatRead l i 1 = (l[i]?).toList := by
  unfold flatRead
  induction l generalizing i with
  | nil => simp
  | cons x l ih =>
    cases i with
    | zero => simp
    | succ i => simpa using ih i

theorem flatColapse_length (l : List Byte) (a b : Nat) (hab : a ≤ b) (hb : b ≤ l.length) :
    (flatColapse l a b).length = l.length - (b - a) := by
  simp only [flatColapse, List.length_append, List.length_take, List.length_drop]; omega

theorem flatColapse_getElem?_lt (l : List Byte) (a b i : Nat) (hb : b ≤ l.length) (hab : a ≤ b)
    (hi : i < a) : (flatColapse l a b)[i]? = l[i]? := by
  unfold flatColapse
  rw [List.getElem?_append_left (by rw [List.length_take]; omega), List.getElem?_take_of_lt hi]

theorem flatColapse_getElem?_ge (l : List Byte) (a b i : Nat) (hb : b ≤ l.length) (hab : a ≤ b)
    (hi : b ≤ i) : (flatColapse l a b)[i - (b - a)]? = l[i]? := by
  unfold flatColapse
  have hl : (l.take a).length = a := by rw [List.length_take]; omega
  rw [List.getElem?_append_right (by omega), hl, List.getElem?_drop]
  congr 1
  omega

end FileContainer

/-- C1: on a file container that honours the unit-size invariant (unit size
positive), a `Write` of any buffer at any offset not past `Size()` returns; a
`Read` of the same range then returns exactly the buffer, and `Size()` is at
least `offset + len(buf)`. -/
theorem FileContainer.write_then_read (c : FileContainer) (offset : Nat) (buf : List Byte)
    (hS : 0 < c.mMaxFileUnitSize) (hinv : c.UnitSizeInvariant) (hoff : offset ≤ c.Size) :
    ∃ c2 : FileContainer, c.Write offset buf = .ok c2 ∧
      c2.Read offset buf.length = .ok buf ∧ c2.Size ≥ offset + buf.length := by
  obtain ⟨c2, hw, hS2, hinv2, hc2⟩ := FileContainer.Write_spec c offset buf hS hinv hoff
  rw [FileContainer.Size_eq_length c hinv] at hoff
  have hlen : c2.Content.length = max c.Content.length (offset + buf.length) := by
    rw [hc2, flatWrite_length _ _ _ hoff]
  have hsz := FileContainer.Size_eq_length c2 hinv2
  refine ⟨c2, hw, ?_, by omega⟩
  rw [FileContainer.Read_spec c2 offset buf.length (by omega) hinv2 (by omega), hc2,
    flatRead_flatWrite _ _ _ hoff]

/-- C1, on a buffer that spans three unit files of four bytes. -/
theorem FileContainer.write_then_read_witness :
    ∃ c2 : FileContainer,
      FileContainer.Write ⟨4, [[1, 2, 3, 4], [5]]⟩ 3 [9, 10, 11, 12, 13, 14, 15] = .ok c2 ∧
      c2.Read 3 [9, 10, 11, 12, 13, 14, 15].length = .ok [9, 10, 11, 12, 13, 14, 15] ∧
      c2.Size ≥ 3 + [9, 10, 11, 12, 13, 14, 15].length :=
  FileContainer.write_then_read ⟨4, [[1, 2, 3, 4], [5]]⟩ 3 [9, 10, 11, 12, 13, 14, 15]
    (by decide) (by decide) (by decide)

/-- `Colapse(a, b)` with `a <= b <= n` on a file container of size `n` that
honours the unit-size invariant, where the count of the units left and the size
of the last one fit an `int`: it returns; the size is then `n - (b - a)`, every
byte before `a` reads as before, and the byte formerly at position `i` in
`[b, n)` reads at position `i - (b - a)`. -/
theorem FileContainer.colapse_shifts_suffix (c : FileContainer) (a b : Nat)
    (hS : 0 < c.mMaxFileUnitSize) (hinv : c.UnitSizeInvariant) (hab : a ≤ b) (hb : b ≤ c.Size)
    (hfit : c.FitsInt a b) :
    ∃ c2 : FileContainer, c.Colapse a b = .ok c2 ∧ c2.Size = c.Size - (b - a) ∧
      (∀ i, i < a → ∃ x, c.Read i 1 = .ok [x] ∧ c2.Read i 1 = .ok [x]) ∧
      (∀ i, b ≤ i → i < c.Size →
        ∃ x, c.Read i 1 = .ok [x] ∧ c2.Read (i - (b - a)) 1 = .ok [x]) := by
  obtain ⟨c2, hcol, hS2, hinv2, hc2⟩ := FileContainer.Colapse_spec c a b hS hinv hab hb
    (fun _ => hfit)
  have hsz := FileContainer.Size_eq_length c hinv
  have hsz2 := FileContainer.Size_eq_length c2 hinv2
  rw [hsz] at hb
  have hlen := FileContainer.flatColapse_length c.Content a b hab hb
  rw [← hc2] at hlen
  refine ⟨c2, hcol, by omega, ?_, ?_⟩
  · intro i hi
    have hi1 : i < c.Content.length := by omega
    refine ⟨c.Content[i], ?_, ?_⟩
    · rw [FileContainer.Read_spec c i 1 hS hinv (by omega), FileContainer.flatRead_one,
        List.getElem?_eq_getElem hi1]
      rfl
    · rw [FileContainer.Read_spec c2 i 1 (by omega) hinv2 (by omega),
        FileContainer.flatRead_one, hc2,
        FileContainer.flatColapse_getElem?_lt _ _ _ _ hb hab hi, List.getElem?_eq_getElem hi1]
      rfl
  · intro i hbi hi
    have hi1 : i < c.Content.length := by omega
    refine ⟨c.Content[i], ?_, ?_⟩
    · rw [FileContainer.Read_spec c i 1 hS hinv (by omega), FileContainer.flatRead_one,
        List.getElem?_eq_getElem hi1]
      rfl
    · rw [FileContainer.Read_spec c2 (i - (b - a)) 1 (by omega) hinv2 (by omega),
        FileContainer.flatRead_one, hc2,
        FileContainer.flatColapse_getElem?_ge _ _ _ _ hb hab hbi, List.getElem?_eq_getElem hi1]
      rfl

/-- Three units of four bytes with the bytes `[2, 5)` removed. -/
theorem FileContainer.colapse_shifts_suffix_witness :
    ∃ c2 : FileContainer,
      FileContainer.Colapse ⟨4, [[1, 2, 3, 4], [5, 6, 7, 8], [9]]⟩ 2 5 = .ok c2 ∧
      c2.Size = FileContainer.Size ⟨4, [[1, 2, 3, 4], [5, 6, 7, 8], [9]]⟩ - (5 - 2) ∧
      (∀ i, i < 2 → ∃ x,
        FileContainer.Read ⟨4, [[1, 2, 3, 4], [5, 6, 7, 8], [9]]⟩ i 1 = .ok [x] ∧
        c2.Read i 1 = .ok [x]) ∧
      (∀ i, 5 ≤ i → i < FileContainer.Size ⟨4, [[1, 2, 3, 4], [5, 6, 7, 8], [9]]⟩ → ∃ x,
        FileContainer.Read ⟨4, [[1, 2, 3, 4], [5, 6, 7, 8], [9]]⟩ i 1 = .ok [x] ∧
        c2.Read (i - (5 - 2)) 1 = .ok [x]) :=
  FileContainer.colapse_shifts_suffix ⟨4, [[1, 2, 3, 4], [5, 6, 7, 8], [9]]⟩ 2 5
    (by decide) (by decide) (by decide) (by decide) (by decide)

/-- One unit file of `2 ^ 31 + 1` bytes in a container whose unit size is
`2 ^ 31 + 1`. -/
theorem FileContainer.Colapse_wide_unit (f : File) (hlen : f.length = 2 ^ 31 + 1) :
    FileContainer.UnitSizeInvariant ⟨2 ^ 31 + 1, [f]⟩ ∧
    FileContainer.Size ⟨2 ^ 31 + 1, [f]⟩ = 2 ^ 31 + 1 ∧
    ∃ c1, FileContainer.Colapse ⟨2 ^ 31 + 1, [f]⟩ 0 1 = .error (.UNDEFINED, c1) := by
  have hinv : FileContainer.UnitSizeInvariant ⟨2 ^ 31 + 1, [f]⟩ := by
    show f.length ≤ 2 ^ 31 + 1
    omega
  have hsize : FileContainer.Size ⟨2 ^ 31 + 1, [f]⟩ = 2 ^ 31 + 1 := by
    rw [FileContainer.Size_eq_length _ hinv]
    show ([f] : List File).flatten.length = 2 ^ 31 + 1
    simp only [List.flatten_cons, List.flatten_nil, List.append_nil]
    exact hlen
  refine ⟨hinv, hsize, ?_⟩
  apply FileContainer.Colapse_unfit _ 0 1 (by show 0 < 2 ^ 31 + 1; omega) hinv (by omega)
    (by rw [hsize]; omega)
  unfold FileContainer.FitsInt
  rw [hsize]
  show ¬ ((2 ^ 31 + 1 - (1 - 0)) / (2 ^ 31 + 1) < 2 ^ 31 ∧
    (2 ^ 31 + 1 - (1 - 0)) % (2 ^ 31 + 1) < 2 ^ 31)
  omega

/-- C2 (failing input): the container of unit size `2 ^ 31 + 1` whose one unit
file is full honours the unit-size invariant and has the size `2 ^ 31 + 1`.
`Colapse(0, 1)` moves the bytes down and then holds the size of the unit left,
`2 ^ 31`, in `const int lastUnitSize`, which it does not fit: the file is not
cut to `2 ^ 31` bytes and the size is not `n - (b - a)`. -/
theorem FileContainer.colapse_unit_size_past_int :
    FileContainer.UnitSizeInvariant ⟨2 ^ 31 + 1, [List.replicate (2 ^ 31 + 1) 0]⟩ ∧
    FileContainer.Size ⟨2 ^ 31 + 1, [List.replicate (2 ^ 31 + 1) 0]⟩ = 2 ^ 31 + 1 ∧
    ∃ c1, FileContainer.Colapse ⟨2 ^ 31 + 1, [List.replicate (2 ^ 31 + 1) 0]⟩ 0 1
      = .error (.UNDEFINED, c1) :=
  FileContainer.Colapse_wide_unit _ (List.length_replicate _ _)

/-- C3 (failing input): a `Write` at the start of the next unit while the last
unit holds one byte of four is not rejected: it creates the unit past the gap,
although the offset 8 is past `Size()` = 5, and the constructor refuses the
family it leaves. -/
theorem FileContainer.write_past_partial_unit :
    FileContainer.Size ⟨4, [[1, 2, 3, 4], [5]]⟩ = 5 ∧
    FileContainer.UnitSizeInvariant ⟨4, [[1, 2, 3, 4], [5]]⟩ ∧
    FileContainer.Write ⟨4, [[1, 2, 3, 4], [5]]⟩ 8 [9] = .ok ⟨4, [[1, 2, 3, 4], [5], [9]]⟩ ∧
    FileContainer.Open [[1, 2, 3, 4], [5], [9]] 4 3 = .error .CONTAINTER_INVALID := by
  decide

end pastra
end whais

namespace whais
namespace pastra

/-- C4 (counterexample): a `Read` of length 0 at offset 5 of an empty container
has `offset + len > Size()` and does not raise. -/
theorem FileContainer.read_nothing_past_end :
    5 + 0 > FileContainer.Size ⟨4, []⟩ ∧ FileContainer.Read ⟨4, []⟩ 5 0 = .ok [] := by
  decide

/-- C4 (amended): a `Read` of length 0 returns whatever the offset; a `Read` of
a positive length whose end `offset + len` is below `2 ^ 64` raises
`INVALID_ACCESS_POSITION` whenever `offset + len > Size()`; and a `Read` with
`offset + len <= Size()` on a container that honours the unit-size invariant
returns the `len` bytes stored at `[offset, offset+len)`. -/
theorem FileContainer.read_raises_or_returns (c : FileContainer) (offset len : Nat)
    (hS : 0 < c.mMaxFileUnitSize) :
    (len = 0 → c.Read offset len = .ok []) ∧
    (0 < len → offset + len < 2 ^ 64 → offset + len > c.Size →
      c.Read offset len = .error .INVALID_ACCESS_POSITION) ∧
    (c.UnitSizeInvariant → offset + len ≤ c.Size →
      c.Read offset len = .ok ((c.Content.drop offset).take len) ∧
      ((c.Content.drop offset).take len).length = len) := by
  refine ⟨?_, ?_, ?_⟩
  · intro h0
    subst h0
    rfl
  · intro hpos hfit hgt
    unfold FileContainer.Read
    rw [FileContainer.ReadAux]
    rw [if_neg (by omega), if_neg (by omega),
      if_pos (Or.inr (by rw [Nat.mod_eq_of_lt hfit]; exact hgt))]
  · intro hinv hle
    have h := FileContainer.Read_spec c offset len hS hinv hle
    rw [FileContainer.Size_eq_length c hinv] at hle
    exact ⟨h, FileContainer.flatRead_length _ _ _ hle⟩

/-- C4 (amended), on two units of four bytes: the two bytes at offset 3 are
read, and a read of two bytes at offset 4 raises. -/
theorem FileContainer.read_raises_or_returns_witness :
    ((2 = 0 → FileContainer.Read ⟨4, [[1, 2, 3, 4], [5]]⟩ 3 2 = .ok []) ∧
     (0 < 2 → 3 + 2 < 2 ^ 64 → 3 + 2 > FileContainer.Size ⟨4, [[1, 2, 3, 4], [5]]⟩ →
       FileContainer.Read ⟨4, [[1, 2, 3, 4], [5]]⟩ 3 2 = .error .INVALID_ACCESS_POSITION) ∧
     (FileContainer.UnitSizeInvariant ⟨4, [[1, 2, 3, 4], [5]]⟩ →
       3 + 2 ≤ FileContainer.Size ⟨4, [[1, 2, 3, 4], [5]]⟩ →
       FileContainer.Read ⟨4, [[1, 2, 3, 4], [5]]⟩ 3 2
         = .ok (((FileContainer.Content ⟨4, [[1, 2, 3, 4], [5]]⟩).drop 3).take 2) ∧
       (((FileContainer.Content ⟨4, [[1, 2, 3, 4], [5]]⟩).drop 3).take 2).length = 2)) ∧
    FileContainer.Read ⟨4, [[1, 2, 3, 4], [5]]⟩ 3 2 = .ok [4, 5] ∧
    FileContainer.Read ⟨4, [[1, 2, 3, 4], [5]]⟩ 4 2 = .error .INVALID_ACCESS_POSITION :=
  ⟨FileContainer.read_raises_or_returns ⟨4, [[1, 2, 3, 4], [5]]⟩ 3 2 (by decide),
   ((FileContainer.read_raises_or_returns ⟨4, [[1, 2, 3, 4], [5]]⟩ 3 2 (by decide)).2.2
      (by decide) (by decide)).1,
   (FileContainer.read_raises_or_returns ⟨4, [[1, 2, 3, 4], [5]]⟩ 4 2 (by decide)).2.1
      (by decide) (by decide) (by decide)⟩

namespace FileContainer

theorem WriteAux_error_code (fuel : Nat) : ∀ (c : FileContainer) (toPos : Nat)
    (buffer : List Byte) (e : Failure) (c2 : FileContainer),
    WriteAux fuel c toPos buffer = .error (e, c2) →
    e = .INVALID_ACCESS_POSITION ∨ e = .UNDEFINED := by
  induction fuel with
  | zero =>
    intro c toPos buffer e c2 h
    simp only [WriteAux, Except.error.injEq, Prod.mk.injEq] at h
    exact Or.inr h.1.symm
  | succ fuel ih =>
    intro c toPos buffer e c2 h
    rw [WriteAux] at h
    dsimp only [] at h
    repeat' (split at h)
    all_goals first
      | exact ih _ _ _ _ _ h
      | (simp only [Except.error.injEq, Prod.mk.injEq] at h
         first
           | exact Or.inr h.1.symm
           | exact Or.inl h.1.symm)
      | cases h

theorem ReadAux_error_code (fuel : Nat) : ∀ (c : FileContainer) (fromPos size : Nat)
    (e : Failure), ReadAux fuel c fromPos size = .error e →
    e = .INVALID_ACCESS_POSITION ∨ e = .UNDEFINED := by
  induction fuel with
  | zero =>
    intro c fromPos size e h
    simp only [ReadAux, Except.error.injEq] at h
    exact Or.inr h.symm
  | succ fuel ih =>
    intro c fromPos size e h
    rw [ReadAux] at h
    dsimp only [] at h
    repeat' (split at h)
    all_goals first
      | (rename_i e2 he
         simp only [Except.error.injEq] at h
         subst h
         exact ih _ _ _ _ he)
      | (simp only [Except.error.injEq] at h
         first
           | exact Or.inr h.symm
           | exact Or.inl h.symm)
      | cases h

theorem ColapseLoop_error_code (fuel : Nat) : ∀ (c : FileContainer) (fromPos toPos n : Nat)
    (e : Failure) (c2 : FileContainer), ColapseLoop fuel c fromPos toPos n = .error (e, c2) →
    e = .INVALID_ACCESS_POSITION ∨ e = .UNDEFINED := by
  induction fuel with
  | zero =>
    intro c fromPos toPos n e c2 h
    simp only [ColapseLoop, Except.error.injEq, Prod.mk.injEq] at h
    exact Or.inr h.1.symm
  | succ fuel ih =>
    intro c fromPos toPos n e c2 h
    rw [ColapseLoop] at h
    dsimp only [] at h
    split at h
    · split at h
      · rename_i e2 he
        simp only [Except.error.injEq, Prod.mk.injEq] at h
        rw [← h.1]
        exact ReadAux_error_code _ _ _ _ _ he
      · split at h
        · rename_i e2 he
          simp only [Except.error.injEq] at h
          subst h
          exact WriteAux_error_code _ _ _ _ _ _ he
        · exact ih _ _ _ _ _ _ h
    · cases h

end FileContainer

/-- C5: on every file container and for every pair `(from, to)`,
`Colapse(from, to)` raises `INVALID_PARAMETERS` if and only if `to < from` or
`to > Size()`, and the container it raises on is left as it was (same unit
files, same contents). -/
theorem FileContainer.colapse_raises_iff (c : FileContainer) (fromPos toPos : Nat)
    (c2 : FileContainer) :
    c.Colapse fromPos toPos = .error (.INVALID_PARAMETERS, c2) ↔
      (toPos < fromPos ∨ c.Size < toPos) ∧ c2 = c := by
  unfold FileContainer.Colapse
  dsimp only []
  constructor
  · intro h
    split at h
    · rename_i hc
      simp only [Except.error.injEq, Prod.mk.injEq, true_and] at h
      exact ⟨hc, h.symm⟩
    split at h
    · cases h
    split at h
    · rename_i e he
      simp only [Except.error.injEq] at h
      subst h
      have := FileContainer.ColapseLoop_error_code _ _ _ _ _ _ _ he
      rcases this with h | h <;> cases h
    split at h
    · simp only [Except.error.injEq, Prod.mk.injEq] at h; exact absurd h.1 (by decide)
    split at h
    · simp only [Except.error.injEq, Prod.mk.injEq] at h; exact absurd h.1 (by decide)
    split at h
    · cases h
    split at h
    · simp only [Except.error.injEq, Prod.mk.injEq] at h; exact absurd h.1 (by decide)
    · cases h
  · rintro ⟨hc, rfl⟩
    rw [if_pos hc]

end pastra
end whais

namespace whais
namespace pastra

namespace FileContainer

theorem Inconsistent_iff (S n : Nat) (l : List File) : ∀ k : Nat,
    Inconsistent S n k l = true ↔
      ∃ j file, l[j]? = some file ∧ file.Size ≠ S ∧ (k + j ≠ n - 1 ∨ file.Size > S) := by
  induction l with
  | nil => intro k; simp [Inconsistent]
  | cons f l ih =>
    intro k
    rw [Inconsistent]
    by_cases hc : f.Size ≠ S ∧ (k ≠ n - 1 ∨ f.Size > S)
    · rw [if_pos hc]
      simp only [true_iff]
      exact ⟨0, f, by simp, hc.1, by simpa using hc.2⟩
    · rw [if_neg hc, ih (k + 1)]
      constructor
      · rintro ⟨j, file, hj, h1, h2⟩
        exact ⟨j + 1, file, by simpa using hj, h1, by
          rcases h2 with h2 | h2
          · left; omega
          · right; exact h2⟩
      · rintro ⟨j, file, hj, h1, h2⟩
        cases j with
        | zero =>
          simp only [List.getElem?_cons_zero, Option.some.injEq] at hj
          subst hj
          exact absurd ⟨h1, by simpa using h2⟩ hc
        | succ j =>
          exact ⟨j, file, by simpa using hj, h1, by
            rcases h2 with h2 | h2
            · left; omega
            · right; exact h2⟩

end FileContainer

/-- C6: opening an existing family of `n` unit files with unit size `S` raises
`CONTAINER_INVALID` if and only if some unit other than the last has a size
different from `S` or the last unit has a size greater than `S`; otherwise the
open succeeds, with these unit files. -/
theorem FileContainer.open_raises_iff (disk : List File) (S : Nat) :
    (FileContainer.Open disk S disk.length = .error .CONTAINTER_INVALID ↔
      ((∃ k file, k + 1 < disk.length ∧ disk[k]? = some file ∧ file.Size ≠ S) ∨
        (∃ file, disk.getLast? = some file ∧ file.Size > S))) ∧
    (¬((∃ k file, k + 1 < disk.length ∧ disk[k]? = some file ∧ file.Size ≠ S) ∨
        (∃ file, disk.getLast? = some file ∧ file.Size > S)) →
      FileContainer.Open disk S disk.length = .ok ⟨S, disk⟩) := by
  have key : FileContainer.Inconsistent S disk.length 0 disk = true ↔
      ((∃ k file, k + 1 < disk.length ∧ disk[k]? = some file ∧ file.Size ≠ S) ∨
        (∃ file, disk.getLast? = some file ∧ file.Size > S)) := by
    rw [FileContainer.Inconsistent_iff]
    constructor
    · rintro ⟨j, file, hj, h1, h2⟩
      have hjl : j < disk.length := (List.getElem?_eq_some_iff.1 hj).1
      by_cases hlast : j + 1 < disk.length
      · exact Or.inl ⟨j, file, hlast, hj, h1⟩
      · right
        refine ⟨file, ?_, ?_⟩
        · rw [List.getLast?_eq_getElem?, ← hj]
          congr 1
          omega
        · rcases h2 with h2 | h2
          · omega
          · exact h2
    · rintro (⟨k, file, hk, hget, hne⟩ | ⟨file, hlast, hgt⟩)
      · exact ⟨k, file, hget, hne, Or.inl (by omega)⟩
      · rw [List.getLast?_eq_getElem?] at hlast
        exact ⟨disk.length - 1, file, hlast, by omega, Or.inr hgt⟩
  unfold FileContainer.Open
  simp only [Nat.lt_irrefl, if_false, List.take_length]
  constructor
  · rw [← key]
    by_cases h : FileContainer.Inconsistent S disk.length 0 disk = true
    · simp [h]
    · simp [h]
  · intro hn
    rw [← key] at hn
    simp [hn]

end pastra
end whais

namespace whais
namespace pastra

namespace FileContainer

theorem UnitsInv_iff_consistent (S : Nat) (l : List File) : ∀ k : Nat,
    UnitsInv S l ↔ Inconsistent S (k + l.length) k l = false := by
  induction l with
  | nil => intro k; simp [UnitsInv, Inconsistent]
  | cons f l ih =>
    intro k
    rw [Inconsistent]
    cases l with
    | nil =>
      simp only [UnitsInv, List.length_cons, List.length_nil, Nat.zero_add, Nat.add_sub_cancel,
        ne_eq, not_true_eq_false, false_or, Inconsistent]
      by_cases h : f.Size ≤ S
      · simp [h]
      · simp [h]; omega
    | cons g r =>
      have e : UnitsInv S (f :: g :: r) ↔ f.Size = S ∧ UnitsInv S (g :: r) := Iff.rfl
      rw [e, ih (k + 1)]
      have hk : k ≠ k + (f :: g :: r).length - 1 := by simp only [List.length_cons]; omega
      have hn : k + 1 + (g :: r).length = k + (f :: g :: r).length := by
        simp only [List.length_cons]; omega
      rw [hn]
      by_cases h : f.Size = S
      · simp [h]
      · simp [h, hk]

theorem Open_of_UnitsInv (S : Nat) (l : List File) (h : UnitsInv S l) :
    Open l S l.length = .ok ⟨S, l⟩ := by
  have := (UnitsInv_iff_consistent S l 0).1 h
  rw [Nat.zero_add] at this
  simp [Open, this]

theorem UnitsInv_getElem? {S : Nat} (l : List File) (h : UnitsInv S l) (k : Nat) (file : File)
    (hk : k + 1 < l.length) (hget : l[k]? = some file) : file.Size = S := by
  have hkl : k < l.length := by omega
  have hsplit := split_at l k hkl
  rw [hsplit] at h
  have h2 := ((UnitsInv_append _ _ _).1 h).2
  have hf : l[k] = file := by
    rw [List.getElem?_eq_getElem hkl] at hget
    exact Option.some.inj hget
  rw [hf] at h2
  exact UnitsInv_cons_eq h2 (by
    intro hnil
    have := congrArg List.length hnil
    simp only [List.length_drop, List.length_nil] at this
    omega)

theorem UnitsInv_cons_full {S : Nat} (f : File) (l : List File) (hf : f.length = S)
    (h : UnitsInv S l) : UnitsInv S (f :: l) := by
  cases l with
  | nil => exact Nat.le_of_eq hf
  | cons g r => exact ⟨hf, h⟩

theorem SetSize_length (f : File) (n : Nat) : (f.SetSize n).length = n := by
  simp only [File.SetSize, List.length_append, List.length_take, List.length_replicate]; omega

theorem file_at_length (pre : Family) (rest : List File) :
    Family.file (pre ++ rest.map some) pre.length = rest.head? := by
  unfold Family.file
  rw [List.getElem?_append_right (Nat.le_refl _), Nat.sub_self]
  cases rest <;> simp

theorem createSized_at_length (pre : Family) (rest : List File) (n : Nat) :
    Family.createSized (pre ++ rest.map some) pre.length n
      = (pre ++ [some ((rest.head?.getD []).SetSize n)]) ++ rest.tail.map some := by
  unfold Family.createSized
  rw [file_at_length]
  cases rest with
  | nil => simp
  | cons r rs =>
    simp only [List.map_cons, List.length_append, List.length_cons, List.length_map,
      List.head?_cons, Option.getD_some, List.tail_cons, List.append_assoc, List.singleton_append]
    rw [if_pos (by omega), List.set_append_right _ _ (Nat.le_refl _), Nat.sub_self]
    rfl

/-- The removal phase of `Fix`: every file from `fileCount` on is removed. -/
theorem FixLoop_remove (S d : Nat) (fuel : Nat) : ∀ (pre : Family) (rest : List File)
    (size : Nat), d ≤ size → rest.length < fuel →
    FixLoop fuel (pre ++ rest.map some) S d size pre.length
      = some (pre ++ List.replicate rest.length none) := by
  induction fuel with
  | zero => intro pre rest size _ h; omega
  | succ fuel ih =>
    intro pre rest size hsize hfuel
    rw [FixLoop, if_pos hsize, file_at_length]
    cases rest with
    | nil => simp
    | cons r rs =>
      simp only [List.head?_cons, List.map_cons]
      rw [List.set_append_right _ _ (Nat.le_refl _), Nat.sub_self]
      have e : pre ++ (some r :: List.map some rs).set 0 none
          = (pre ++ [none]) ++ rs.map some := by simp
      have hl : pre.length + 1 = (pre ++ [none]).length := by simp
      rw [e, hl, ih (pre ++ [none]) rs size hsize (by simpa using hfuel)]
      simp [List.replicate_succ]

/-- The loop of `Fix` from a state where `size` bytes are laid out in the files
before `fileCount`. -/
theorem FixLoop_spec (S d : Nat) (hS : 0 < S) (fuel : Nat) : ∀ (pre : Family)
    (rest : List File) (size : Nat), size ≤ d → (d - size) + rest.length < fuel →
    ∃ units : List File,
      FixLoop fuel (pre ++ rest.map some) S d size pre.length
        = some (pre ++ units.map some ++ List.replicate (rest.length - units.length) none) ∧
      units.length = (d - size + S - 1) / S ∧ UnitsInv S units ∧
      units.flatten.length = d - size := by
  induction fuel with
  | zero => intro pre rest size _ h; omega
  | succ fuel ih =>
    intro pre rest size hsize hfuel
    by_cases hdone : d ≤ size
    · refine ⟨[], ?_, ?_, trivial, ?_⟩
      · rw [FixLoop_remove S d _ pre rest size hdone (by omega)]
        simp
      · have : d - size + S - 1 = S - 1 := by omega
        rw [this, List.length_nil]
        exact ((Nat.div_eq_zero_iff hS).2 (by omega)).symm
      · simp; omega
    · rw [FixLoop, if_neg (by omega)]
      have hrl : rest.tail.length = rest.length - 1 := by simp
      by_cases hfull : d - size ≥ S
      · rw [if_pos hfull, createSized_at_length]
        have hl : pre.length + 1 = (pre ++ [some ((rest.head?.getD []).SetSize S)]).length := by
          simp
        rw [hl]
        obtain ⟨units, hloop, hlen, hinv, hflat⟩ := ih
          (pre ++ [some ((rest.head?.getD []).SetSize S)]) rest.tail (size + S) (by omega)
          (by omega)
        refine ⟨(rest.head?.getD []).SetSize S :: units, ?_, ?_, ?_, ?_⟩
        · rw [hloop, hrl]
          simp only [List.map_cons, List.length_cons, List.append_assoc, List.singleton_append]
          rw [show rest.length - 1 - units.length = rest.length - (units.length + 1) by omega]
        · rw [List.length_cons, hlen]
          have : d - size + S - 1 = (d - (size + S) + S - 1) + S := by omega
          rw [this, Nat.add_div_right _ hS]
        · exact UnitsInv_cons_full _ _ (SetSize_length _ _) hinv
        · rw [List.flatten_cons, List.length_append, hflat, SetSize_length]; omega
      · rw [if_neg hfull, createSized_at_length]
        have hl : pre.length + 1
            = (pre ++ [some ((rest.head?.getD []).SetSize (d - size))]).length := by simp
        rw [hl, FixLoop_remove S d _ _ rest.tail d (Nat.le_refl _) (by omega)]
        refine ⟨[(rest.head?.getD []).SetSize (d - size)], ?_, ?_, ?_, ?_⟩
        · rw [hrl]; simp
        · rw [List.length_singleton]
          exact (Nat.div_eq_of_lt_le (by omega) (by omega)).symm
        · show File.Size _ ≤ S
          rw [File.Size, SetSize_length]; omega
        · simp [SetSize_length]

end FileContainer

/-- C7: for every unit size `S > 0`, every desired size `d` and every family of
consecutively numbered unit files, `Fix(prefix, S, d)` returns and leaves exactly
`ceil(d / S)` unit files (the files past them are gone), each but the last of
size `S`, the last of at most `S`, their sizes adding up to `d`; the constructor
opens the family as a container of size `d`. -/
theorem FileContainer.fix_sizes (S d : Nat) (units : List File) (hS : 0 < S) :
    ∃ fixed : List File,
      FileContainer.Fix (units.map some) S d
        = some (fixed.map some ++ List.replicate (units.length - fixed.length) none) ∧
      fixed.length = (d + S - 1) / S ∧
      (∀ k file, k + 1 < fixed.length → fixed[k]? = some file → file.Size = S) ∧
      (∀ file, fixed.getLast? = some file → file.Size ≤ S) ∧
      (fixed.map File.Size).sum = d ∧
      FileContainer.Open fixed S fixed.length = .ok ⟨S, fixed⟩ ∧
      FileContainer.Size ⟨S, fixed⟩ = d := by
  obtain ⟨fixed, hloop, hlen, hinv, hflat⟩ := FileContainer.FixLoop_spec S d hS
    (d + (units.map some).length + 2) [] units 0 (Nat.zero_le _) (by simp)
  refine ⟨fixed, ?_, hlen, ?_, ?_, ?_, FileContainer.Open_of_UnitsInv S fixed hinv, ?_⟩
  · simpa [FileContainer.Fix] using hloop
  · intro k file hk hget
    exact FileContainer.UnitsInv_getElem? fixed hinv k file hk hget
  · intro file hlast
    obtain ⟨ys, hys⟩ := List.getLast?_eq_some_iff.1 hlast
    rw [hys] at hinv
    exact ((FileContainer.UnitsInv_append ys file []).1 hinv).2
  · have := List.length_flatten fixed
    rw [hflat] at this
    exact this.symm
  · rw [FileContainer.Size_eq_length ⟨S, fixed⟩ hinv]
    exact hflat

/-- C7, on a family of four unit files fixed to 6 bytes in units of 4. -/
theorem FileContainer.fix_sizes_witness :
    ∃ fixed : List File,
      FileContainer.Fix (([[1, 2, 3], [4], [5], [6]] : List File).map some) 4 6
        = some (fixed.map some ++
            List.replicate (([[1, 2, 3], [4], [5], [6]] : List File).length - fixed.length) none) ∧
      fixed.length = (6 + 4 - 1) / 4 ∧
      (∀ k file, k + 1 < fixed.length → fixed[k]? = some file → file.Size = 4) ∧
      (∀ file, fixed.getLast? = some file → file.Size ≤ 4) ∧
      (fixed.map File.Size).sum = 6 ∧
      FileContainer.Open fixed 4 fixed.length = .ok ⟨4, fixed⟩ ∧
      FileContainer.Size ⟨4, fixed⟩ = 6 :=
  FileContainer.fix_sizes 4 6 [[1, 2, 3], [4], [5], [6]] (by decide)

end pastra
end whais

namespace whais
namespace pastra

/-- The sizes of the unit files of a container that honours the invariant and
holds a number of bytes that is not a multiple of the unit size. -/
theorem FileContainer.unit_sizes (c : FileContainer) (hS : 0 < c.mMaxFileUnitSize)
    (hinv : c.UnitSizeInvariant) (hn : c.Content.length % c.mMaxFileUnitSize ≠ 0) :
    c.mFilesHandles.map File.Size
      = List.replicate (c.Content.length / c.mMaxFileUnitSize) c.mMaxFileUnitSize
        ++ [c.Content.length % c.mMaxFileUnitSize] := by
  obtain ⟨S, files⟩ := c
  simp only [FileContainer.UnitSizeInvariant, FileContainer.Content] at *
  rcases List.eq_nil_or_concat files with hnil | ⟨A, last, hc⟩
  · subst hnil
    simp at hn
  · rw [List.concat_eq_append] at hc
    subst hc
    obtain ⟨hA, hlast⟩ := (FileContainer.UnitsInv_append A last []).1 hinv
    have hAflat := FileContainer.length_flatten_full A hA
    have hlen : (A ++ [last]).flatten.length = last.length + S * A.length := by
      simp only [List.flatten_append, List.flatten_cons, List.flatten_nil, List.append_nil,
        List.length_append, hAflat]
      rw [Nat.mul_comm, Nat.add_comm]
    have hlast' : last.length ≤ S := hlast
    rw [hlen] at hn ⊢
    have hlt : last.length < S := by
      rcases Nat.lt_or_eq_of_le hlast' with h | h
      · exact h
      · rw [h] at hn
        simp at hn
    rw [Nat.add_mul_div_left _ _ hS, Nat.add_mul_mod_self_left, Nat.div_eq_of_lt hlt,
      Nat.mod_eq_of_lt hlt, Nat.zero_add]
    simp only [List.map_append, List.map_cons, List.map_nil, File.Size]
    congr 1
    exact List.eq_replicate_iff.2 ⟨by simp, by
      intro b hb
      obtain ⟨a, ha, rfl⟩ := List.mem_map.1 hb
      exact hA a ha⟩

/-- C8 (counterexample): after 2500 bytes `0xAB` are written at offset 0 of an
empty container with unit size 1024, `Colapse(500, 2000)` does not leave a
container of size 2000: it removes 1500 bytes and leaves 1000. -/
theorem FileContainer.stripe_scenario_fails :
    ¬ ∃ c1 c2 : FileContainer,
      FileContainer.Write ⟨1024, []⟩ 0 (List.replicate 2500 0xAB) = .ok c1 ∧
      c1.mFilesHandles.map File.Size = [1024, 1024, 452] ∧
      c1.Colapse 500 2000 = .ok c2 ∧
      c2.Size = 2000 ∧
      c2.mFilesHandles.map File.Size = [1024, 976] := by
  have hlen : (List.replicate 2500 0xAB : List Byte).length = 2500 := List.length_replicate _ _
  generalize (List.replicate 2500 0xAB : List Byte) = buf at hlen
  rintro ⟨c1, c2, hw, -, hcol, hsize, -⟩
  obtain ⟨d1, hw2, hS1, hinv1, hc1⟩ := FileContainer.Write_spec ⟨1024, []⟩ 0 buf (by decide)
    (by decide) (by decide)
  rw [hw] at hw2
  cases hw2
  have hS1b : c1.mMaxFileUnitSize = 1024 := hS1
  have hl1 : c1.Content.length = 2500 := by
    rw [hc1]
    simp [FileContainer.Content, flatWrite, hlen]
  have hsz1 := FileContainer.Size_eq_length c1 hinv1
  obtain ⟨d2, hcol2, hS2, hinv2, hc2⟩ := FileContainer.Colapse_spec c1 500 2000 (by omega) hinv1
    (by omega) (by omega)
    (fun _ => by unfold FileContainer.FitsInt; rw [hsz1, hl1, hS1b]; decide)
  rw [hcol] at hcol2
  cases hcol2
  have hl2 : c2.Content.length = 1000 := by
    rw [hc2, FileContainer.flatColapse_length _ _ _ (by omega) (by omega), hl1]
  have hsz2 := FileContainer.Size_eq_length c2 hinv2
  omega

/-- C8 (amended): with unit size 1024, writing 2500 bytes at offset 0 into an
empty file container gives three units of 1024, 1024 and 452 bytes;
`Colapse(500, 2000)` then removes 1500 bytes and leaves a container of size 1000
made of one unit of 1000 bytes. -/
theorem FileContainer.stripe_scenario (buf : List Byte) (hlen : buf.length = 2500) :
    ∃ c1 c2 : FileContainer,
      FileContainer.Write ⟨1024, []⟩ 0 buf = .ok c1 ∧
      c1.mFilesHandles.map File.Size = [1024, 1024, 452] ∧
      c1.Colapse 500 2000 = .ok c2 ∧
      c2.Size = 1000 ∧
      c2.mFilesHandles.map File.Size = [1000] := by
  obtain ⟨c1, hw, hS1, hinv1, hc1⟩ := FileContainer.Write_spec ⟨1024, []⟩ 0 buf (by decide)
    (by decide) (by decide)
  have hS1b : c1.mMaxFileUnitSize = 1024 := hS1
  have hl1 : c1.Content.length = 2500 := by
    rw [hc1]
    simp [FileContainer.Content, flatWrite, hlen]
  have hsz1 := FileContainer.Size_eq_length c1 hinv1
  obtain ⟨c2, hcol, hS2, hinv2, hc2⟩ := FileContainer.Colapse_spec c1 500 2000 (by omega) hinv1
    (by omega) (by omega)
    (fun _ => by unfold FileContainer.FitsInt; rw [hsz1, hl1, hS1b]; decide)
  have hl2 : c2.Content.length = 1000 := by
    rw [hc2, FileContainer.flatColapse_length _ _ _ (by omega) (by omega), hl1]
  have hsz2 := FileContainer.Size_eq_length c2 hinv2
  have hS2b : c2.mMaxFileUnitSize = 1024 := by omega
  refine ⟨c1, c2, hw, ?_, hcol, by omega, ?_⟩
  · rw [FileContainer.unit_sizes c1 (by omega) hinv1 (by rw [hl1, hS1b]; decide), hl1, hS1b]
    rfl
  · rw [FileContainer.unit_sizes c2 (by omega) hinv2 (by rw [hl2, hS2b]; decide), hl2, hS2b]
    rfl

/-- C8 (amended), on 2500 bytes `0xAB`. -/
theorem FileContainer.stripe_scenario_witness :
    ∃ c1 c2 : FileContainer,
      FileContainer.Write ⟨1024, []⟩ 0 (List.replicate 2500 0xAB) = .ok c1 ∧
      c1.mFilesHandles.map File.Size = [1024, 1024, 452] ∧
      c1.Colapse 500 2000 = .ok c2 ∧
      c2.Size = 1000 ∧
      c2.mFilesHandles.map File.Size = [1000] :=
  FileContainer.stripe_scenario (List.replicate 2500 0xAB) (List.length_replicate _ _)

end pastra
end whais

namespace whais
namespace pastra

/-! ## The temporal container -/

theorem flatWrite_getElem? (l : List Byte) (pos : Nat) (buf : List Byte) (h : pos ≤ l.length)
    (p : Nat) : (flatWrite l pos buf)[p]?
      = if pos ≤ p ∧ p < pos + buf.length then buf[p - pos]? else l[p]? := by
  unfold flatWrite
  have hl : (l.take pos).length = pos := by rw [List.length_take]; omega
  by_cases h1 : p < pos
  · rw [if_neg (by omega), List.append_assoc, List.getElem?_append_left (by omega),
      List.getElem?_take_of_lt h1]
  · by_cases h2 : p < pos + buf.length
    · rw [if_pos (by omega), List.getElem?_append_left (by rw [List.length_append]; omega),
        List.getElem?_append_right (by omega), hl]
    · rw [if_neg (by omega), List.getElem?_append_right (by rw [List.length_append]; omega),
        List.length_append, hl, List.getElem?_drop]
      congr 1
      omega

theorem memcpy_length (cache : List Byte) (off : Nat) (buf : List Byte)
    (h : off + buf.length ≤ cache.length) : (memcpy cache off buf).length = cache.length := by
  simp only [memcpy, List.length_append, List.length_take, List.length_drop]; omega

theorem memcpy_getElem? (cache : List Byte) (off : Nat) (buf : List Byte)
    (h : off ≤ cache.length) (p : Nat) : (memcpy cache off buf)[p]?
      = if off ≤ p ∧ p < off + buf.length then buf[p - off]? else cache[p]? :=
  flatWrite_getElem? cache off buf h p

theorem flatRead_getElem? (l : List Byte) (pos count p : Nat) :
    (flatRead l pos count)[p]? = if p < count then l[pos + p]? else none := by
  unfold flatRead
  by_cases h : p < count
  · rw [if_pos h, List.getElem?_take_of_lt h, List.getElem?_drop]
  · rw [if_neg h, List.getElem?_eq_none]
    rw [List.length_take]; omega

theorem aligned_gap {C a b : Nat} (ha : a % C = 0) (hb : b % C = 0) (hlt : a < b) :
    a + C ≤ b := by
  obtain ⟨k, rfl⟩ := Nat.dvd_of_mod_eq_zero ha
  obtain ⟨m, rfl⟩ := Nat.dvd_of_mod_eq_zero hb
  have hC : 0 < C := by
    rcases Nat.eq_zero_or_pos C with h | h
    · subst h; simp at hlt
    · exact h
  have hkm : k < m := Nat.lt_of_mul_lt_mul_left hlt
  calc C * k + C = C * (k + 1) := by rw [Nat.mul_succ]
    _ ≤ C * m := Nat.mul_le_mul_left C hkm

theorem aligned_disjoint {C a b : Nat} (ha : a % C = 0) (hb : b % C = 0) (hne : a ≠ b) :
    a + C ≤ b ∨ b + C ≤ a := by
  rcases Nat.lt_or_gt_of_ne hne with h | h
  · exact Or.inl (aligned_gap ha hb h)
  · exact Or.inr (aligned_gap hb ha h)

theorem align_down (C p : Nat) (hC : 0 < C) :
    (p - p % C) % C = 0 ∧ p - p % C ≤ p ∧ p < p - p % C + C := by
  have h1 := Nat.mod_lt p hC
  have h2 := Nat.mod_le p C
  have h3 := Nat.div_add_mod p C
  refine ⟨?_, by omega, by omega⟩
  have : p - p % C = C * (p / C) := by omega
  rw [this, Nat.mul_mod_right]

end pastra
end whais

namespace whais
namespace pastra
namespace TemporalContainer

theorem Size_of_file (t : TemporalContainer) (file : FileContainer)
    (hf : t.mFileContainer = some file) (hinv : file.UnitSizeInvariant) :
    t.Size = max (max t.mCacheEndPos_1 t.mCacheEndPos_2) file.Content.length := by
  unfold Size
  rw [hf]
  simp only [FileContainer.Size_eq_length file hinv]

theorem Size_of_none (t : TemporalContainer) (hf : t.mFileContainer = none) :
    t.Size = max t.mCacheEndPos_1 t.mCacheEndPos_2 := by
  unfold Size
  rw [hf]

/-- A cache whose window is not full holds the end of the container. -/
theorem partial_is_tail_1 (t : TemporalContainer) (h : t.Inv)
    (hp : t.mCacheEndPos_1 < t.mCacheStartPos_1 + t.mCacheSize) : t.Size = t.mCacheEndPos_1 := by
  obtain ⟨hC, hS, hc1, h1 | h2 | h3⟩ := h
  · obtain ⟨hf, hc2, hs1, he1, hs2, he2⟩ := h1
    rw [Size_of_none t hf]; omega
  · obtain ⟨hf, -, hs1, he1, hs2, he2, he2'⟩ := h2
    omega
  · obtain ⟨file, cache_2, hf, hc2, hl2, hS', hinv, hF, hne, ⟨a1, b1, c1, d1, e1, -⟩,
      ⟨a2, b2, c2, d2, e2, -⟩⟩ := h3
    rw [Size_of_file t file hf hinv]
    have := e1 hp
    rcases aligned_disjoint a1 a2 hne with h | h <;> omega

theorem partial_is_tail_2 (t : TemporalContainer) (h : t.Inv) (hc : t.mCache_2.isSome)
    (hp : t.mCacheEndPos_2 < t.mCacheStartPos_2 + t.mCacheSize) : t.Size = t.mCacheEndPos_2 := by
  obtain ⟨hC, hS, hc1, h1 | h2 | h3⟩ := h
  · obtain ⟨hf, hc2, hs1, he1, hs2, he2⟩ := h1
    rw [hc2] at hc
    cases hc
  · obtain ⟨hf, -, hs1, he1, hs2, he2, he2'⟩ := h2
    rw [Size_of_none t hf]; omega
  · obtain ⟨file, cache_2, hf, hc2, hl2, hS', hinv, hF, hne, ⟨a1, b1, c1, d1, e1, -⟩,
      ⟨a2, b2, c2, d2, e2, -⟩⟩ := h3
    rw [Size_of_file t file hf hinv]
    have := e2 hp
    rcases aligned_disjoint a1 a2 hne with h | h <;> omega

/-- The windows of the two caches do not meet. -/
theorem windows_disjoint (t : TemporalContainer) (h : t.Inv) (hc : t.mCache_2.isSome) :
    t.mCacheStartPos_1 + t.mCacheSize ≤ t.mCacheStartPos_2
      ∨ t.mCacheStartPos_2 + t.mCacheSize ≤ t.mCacheStartPos_1 := by
  obtain ⟨hC, hS, hc1, h1 | h2 | h3⟩ := h
  · rw [h1.2.1] at hc
    cases hc
  · obtain ⟨hf, -, hs1, he1, hs2, he2, he2'⟩ := h2
    omega
  · obtain ⟨file, cache_2, hf, hc2, hl2, hS', hinv, hF, hne, ⟨a1, -⟩, ⟨a2, -⟩⟩ := h3
    exact aligned_disjoint a1 a2 hne

/-- The ends of the caches lie in their windows. -/
theorem ends_in_window (t : TemporalContainer) (h : t.Inv) :
    t.mCacheStartPos_1 ≤ t.mCacheEndPos_1 ∧
    t.mCacheEndPos_1 ≤ t.mCacheStartPos_1 + t.mCacheSize ∧
    t.mCacheStartPos_2 ≤ t.mCacheEndPos_2 ∧
    t.mCacheEndPos_2 ≤ t.mCacheStartPos_2 + t.mCacheSize := by
  obtain ⟨hC, hS, hc1, h1 | h2 | h3⟩ := h
  · obtain ⟨hf, hc2, hs1, he1, hs2, he2⟩ := h1
    omega
  · obtain ⟨hf, -, hs1, he1, hs2, he2, he2'⟩ := h2
    omega
  · obtain ⟨file, cache_2, hf, hc2, hl2, hS', hinv, hF, hne, ⟨a1, b1, c1, -⟩,
      ⟨a2, b2, c2, -⟩⟩ := h3
    omega

theorem no_file_Size_le (t : TemporalContainer) (h : t.Inv) (hf : t.mFileContainer = none) :
    t.Size ≤ 2 * t.mCacheSize := by
  rw [Size_of_none t hf]
  obtain ⟨hC, hS, hc1, h1 | h2 | h3⟩ := h
  · obtain ⟨hf, hc2, hs1, he1, hs2, he2⟩ := h1
    omega
  · obtain ⟨hf, -, hs1, he1, hs2, he2, he2'⟩ := h2
    omega
  · obtain ⟨file, cache_2, hf', -⟩ := h3
    rw [hf] at hf'
    cases hf'

end TemporalContainer
end pastra
end whais

namespace whais
namespace pastra
namespace TemporalContainer

theorem take_getElem?_lt (cch : List Byte) (n p : Nat) (h : p < n) : (cch.take n)[p]? = cch[p]? :=
  List.getElem?_take_of_lt h

/-- A cache written back to the spill file is clean. -/
theorem CacheOk_flush_self {C : Nat} {F : List Byte} {s e : Nat} {cch : List Byte} {d : Bool}
    (h : CacheOk C F s e cch d) (hc : cch.length = C) :
    CacheOk C (flatWrite F s (cch.take (e - s))) s e cch false := by
  obtain ⟨a1, a2, a3, a4, a5, a6⟩ := h
  have hlen : (cch.take (e - s)).length = e - s := by rw [List.length_take]; omega
  have hF := flatWrite_length F s (cch.take (e - s)) a4
  rw [hlen] at hF
  refine ⟨a1, a2, a3, by omega, fun hp => by have := a5 hp; omega, fun _ => ⟨by omega, ?_⟩⟩
  intro p hp1 hp2
  rw [flatWrite_getElem? _ _ _ a4, hlen, if_pos (by omega), take_getElem?_lt _ _ _ (by omega)]

/-- Writing one cache back leaves what is asked of the other cache. -/
theorem CacheOk_flush_other {C : Nat} {F : List Byte} {s e : Nat} {cch : List Byte} {d : Bool}
    {s2 e2 : Nat} {cch2 : List Byte} {d2 : Bool}
    (h : CacheOk C F s e cch d) (h2 : CacheOk C F s2 e2 cch2 d2) (hc : cch.length = C)
    (hdis : s + C ≤ s2 ∨ s2 + C ≤ s) :
    CacheOk C (flatWrite F s (cch.take (e - s))) s2 e2 cch2 d2 := by
  obtain ⟨a1, a2, a3, a4, a5, a6⟩ := h
  obtain ⟨b1, b2, b3, b4, b5, b6⟩ := h2
  have hlen : (cch.take (e - s)).length = e - s := by rw [List.length_take]; omega
  have hF := flatWrite_length F s (cch.take (e - s)) a4
  rw [hlen] at hF
  refine ⟨b1, b2, b3, by omega, fun hp => by have := b5 hp; omega, fun hd => ?_⟩
  obtain ⟨b7, b8⟩ := b6 hd
  refine ⟨by omega, ?_⟩
  intro p hp1 hp2
  rw [flatWrite_getElem? _ _ _ a4, hlen, if_neg (by omega)]
  exact b8 p hp1 hp2

/-- A cache filled from the spill file at an aligned position is clean. -/
theorem CacheOk_load {C : Nat} (F : List Byte) (P : Nat) (cch : List Byte)
    (hP : P % C = 0) (hPF : P ≤ F.length) :
    CacheOk C F P (P + min C (F.length - P))
      (memcpy cch 0 (flatRead F P (min C (F.length - P)))) false := by
  have hlen : (flatRead F P (min C (F.length - P))).length = min C (F.length - P) :=
    FileContainer.flatRead_length _ _ _ (by omega)
  refine ⟨hP, by omega, by omega, hPF, fun hp => by omega, fun _ => ⟨by omega, ?_⟩⟩
  intro p hp1 hp2
  rw [memcpy_getElem? _ _ _ (Nat.zero_le _), hlen, if_pos (by omega), flatRead_getElem?,
    if_pos (by omega)]
  congr 1
  omega

theorem flatWrite_getElem?_outside (F : List Byte) (s : Nat) (d : List Byte) (h : s ≤ F.length)
    (p : Nat) (hp : ¬(s ≤ p ∧ p < s + d.length)) : (flatWrite F s d)[p]? = F[p]? := by
  rw [flatWrite_getElem? _ _ _ h, if_neg hp]

end TemporalContainer
end pastra
end whais

namespace whais
namespace pastra
namespace TemporalContainer

theorem Inv3_of_file (t : TemporalContainer) (h : t.Inv) (file : FileContainer)
    (hf : t.mFileContainer = some file) :
    ∃ cache_2, t.mCache_2 = some cache_2 ∧
      cache_2.length = t.mCacheSize ∧ 0 < file.mMaxFileUnitSize ∧ file.UnitSizeInvariant ∧
      2 * t.mCacheSize ≤ file.Content.length ∧ t.mCacheStartPos_1 ≠ t.mCacheStartPos_2 ∧
      CacheOk t.mCacheSize file.Content t.mCacheStartPos_1 t.mCacheEndPos_1 t.mCache_1
        t.mDirtyCache_1 ∧
      CacheOk t.mCacheSize file.Content t.mCacheStartPos_2 t.mCacheEndPos_2 cache_2
        t.mDirtyCache_2 := by
  obtain ⟨hC, hS, hc1, h1 | h2 | h3⟩ := h
  · rw [h1.1] at hf; cases hf
  · rw [h2.1] at hf; cases hf
  · obtain ⟨file', cache_2, hf', rest⟩ := h3
    rw [hf] at hf'
    cases hf'
    exact ⟨cache_2, rest⟩

theorem fileWrite_spec (file : FileContainer) (toPos : Nat) (buffer : List Byte)
    (hS : 0 < file.mMaxFileUnitSize) (hinv : file.UnitSizeInvariant)
    (hto : toPos ≤ file.Content.length) :
    ∃ f2 : FileContainer, fileWrite file toPos buffer = .ok f2 ∧
      0 < f2.mMaxFileUnitSize ∧ f2.UnitSizeInvariant ∧
      f2.Content = flatWrite file.Content toPos buffer := by
  rw [← FileContainer.Size_eq_length file hinv] at hto
  obtain ⟨f2, hw, hS2, hinv2, hc2⟩ := FileContainer.Write_spec file toPos buffer hS hinv hto
  exact ⟨f2, by rw [fileWrite, hw], by omega, hinv2, hc2⟩

/-- Writing the first cache back to the spill file, when it is dirty, keeps the
invariant and the bytes represented. -/
theorem FlushCache_1_spec (t : TemporalContainer) (l : List Byte) (file : FileContainer)
    (h : t.Inv) (hr : t.Refines l) (hf : t.mFileContainer = some file) :
    ∃ file2, FlushCache_1 t file
        = .ok ({ t with mFileContainer := some file2, mDirtyCache_1 := false }, file2) ∧
      ({ t with mFileContainer := some file2, mDirtyCache_1 := false } : TemporalContainer).Inv ∧
      ({ t with mFileContainer := some file2, mDirtyCache_1 := false } : TemporalContainer).Refines l
      ∧ file.Content.length ≤ file2.Content.length
      ∧ t.mCacheEndPos_1 ≤ file2.Content.length := by
  obtain ⟨cache_2, hc2, hl2, hS', hinv, hF, hne, ok1, ok2⟩ := Inv3_of_file t h file hf
  have hC := h.1
  have hS := h.2.1
  have hc1 := h.2.2.1
  obtain ⟨fo, cache_1, c2o, s1, e1, s2, e2, C, d1, d2, lu, S⟩ := t
  simp only at *
  subst hf hc2
  unfold FlushCache_1
  simp only
  cases d1 with
  | false =>
    refine ⟨file, by simp, h, hr, Nat.le_refl _, (ok1.2.2.2.2.2 rfl).1⟩
  | true =>
    have a4 := ok1.2.2.2.1
    obtain ⟨f2, hw, hS2, hinv2, hcont⟩ := fileWrite_spec file s1 (cache_1.take (e1 - s1)) hS'
      hinv a4
    have hlen : (cache_1.take (e1 - s1)).length = e1 - s1 := by
      rw [List.length_take]; have := ok1.2.2.1; omega
    have hFlen := flatWrite_length file.Content s1 (cache_1.take (e1 - s1)) a4
    rw [hlen, ← hcont] at hFlen
    have hdis := aligned_disjoint ok1.1 ok2.1 hne
    have ok1' := CacheOk_flush_self ok1 hc1
    have ok2' := CacheOk_flush_other ok1 ok2 hc1 hdis
    rw [← hcont] at ok1' ok2'
    have b2 := ok1.2.1
    have hF2 : 2 * C ≤ f2.Content.length := by omega
    refine ⟨f2, by simp [hw], ⟨hC, hS, hc1, Or.inr (Or.inr ⟨f2, cache_2, rfl, rfl, hl2, hS2, hinv2,
      hF2, hne, ok1', ok2'⟩)⟩, ?_, by omega, by omega⟩
    obtain ⟨hsize, hbytes⟩ := hr
    constructor
    · rw [hsize, Size_of_file _ file rfl hinv, Size_of_file _ f2 rfl hinv2]
      simp only
      omega
    · intro p
      rw [hbytes p]
      unfold byteAt
      simp only
      by_cases hw1 : s1 ≤ p ∧ p < e1
      · rw [if_pos hw1, if_pos hw1]
      · rw [if_neg hw1, if_neg hw1]
        by_cases hw2 : (some cache_2).isSome = true ∧ s2 ≤ p ∧ p < e2
        · rw [if_pos hw2, if_pos hw2]
        · rw [if_neg hw2, if_neg hw2, hcont,
            flatWrite_getElem?_outside _ _ _ a4 _ (by rw [hlen]; omega)]

/-- Writing the second cache back to the spill file, when it is dirty, keeps
the invariant and the bytes represented. -/
theorem FlushCache_2_spec (t : TemporalContainer) (l : List Byte) (file : FileContainer)
    (h : t.Inv) (hr : t.Refines l) (hf : t.mFileContainer = some file) :
    ∃ file2, FlushCache_2 t file
        = .ok ({ t with mFileContainer := some file2, mDirtyCache_2 := false }, file2) ∧
      ({ t with mFileContainer := some file2, mDirtyCache_2 := false } : TemporalContainer).Inv ∧
      ({ t with mFileContainer := some file2, mDirtyCache_2 := false } : TemporalContainer).Refines l
      ∧ file.Content.length ≤ file2.Content.length
      ∧ t.mCacheEndPos_2 ≤ file2.Content.length := by
  obtain ⟨cache_2, hc2, hl2, hS', hinv, hF, hne, ok1, ok2⟩ := Inv3_of_file t h file hf
  have hC := h.1
  have hS := h.2.1
  have hc1 := h.2.2.1
  obtain ⟨fo, cache_1, c2o, s1, e1, s2, e2, C, d1, d2, lu, S⟩ := t
  simp only at *
  subst hf hc2
  unfold FlushCache_2
  simp only
  cases d2 with
  | false =>
    refine ⟨file, by simp, h, hr, Nat.le_refl _, (ok2.2.2.2.2.2 rfl).1⟩
  | true =>
    have a4 := ok2.2.2.2.1
    obtain ⟨f2, hw, hS2, hinv2, hcont⟩ := fileWrite_spec file s2 (cache_2.take (e2 - s2)) hS'
      hinv a4
    have hlen : (cache_2.take (e2 - s2)).length = e2 - s2 := by
      rw [List.length_take]; have := ok2.2.2.1; omega
    have hFlen := flatWrite_length file.Content s2 (cache_2.take (e2 - s2)) a4
    rw [hlen, ← hcont] at hFlen
    have hdis := aligned_disjoint ok2.1 ok1.1 (Ne.symm hne)
    have ok2' := CacheOk_flush_self ok2 hl2
    have ok1' := CacheOk_flush_other ok2 ok1 hl2 hdis
    rw [← hcont] at ok1' ok2'
    have b2 := ok2.2.1
    have hF2 : 2 * C ≤ f2.Content.length := by omega
    refine ⟨f2, by simp [hw], ⟨hC, hS, hc1, Or.inr (Or.inr ⟨f2, cache_2, rfl, rfl, hl2, hS2, hinv2,
      hF2, hne, ok1', ok2'⟩)⟩, ?_, by omega, by omega⟩
    obtain ⟨hsize, hbytes⟩ := hr
    constructor
    · rw [hsize, Size_of_file _ file rfl hinv, Size_of_file _ f2 rfl hinv2]
      simp only
      omega
    · intro p
      rw [hbytes p]
      unfold byteAt
      simp only
      by_cases hw1 : s1 ≤ p ∧ p < e1
      · rw [if_pos hw1, if_pos hw1]
      · rw [if_neg hw1, if_neg hw1]
        by_cases hw2 : (some cache_2).isSome = true ∧ s2 ≤ p ∧ p < e2
        · rw [if_pos hw2, if_pos hw2]
        · rw [if_neg hw2, if_neg hw2, hcont,
            flatWrite_getElem?_outside _ _ _ a4 _ (by rw [hlen]; simp at hw2; omega)]

end TemporalContainer
end pastra
end whais

namespace whais
namespace pastra
namespace TemporalContainer

theorem mod_self_sub (C : Nat) : C - C % C = C := by simp

theorem two_mul_mod_sub (C : Nat) : 2 * C - 2 * C % C = 2 * C := by simp

/-- `FillCache` in state 1 (one cache): the second cache is created. -/
theorem FillCache_state1 (t : TemporalContainer) (l : List Byte) (p : Nat)
    (h : t.Inv) (h1 : t.Inv1) (hr : t.Refines l) (hp : p ≤ t.Size) (hcov : ¬t.Covered p) :
    ∃ t2, t.FillCache p = .ok t2 ∧ t2.Inv ∧ t2.Refines l ∧ t2.Covered p ∧ t.Keeps t2 p := by
  obtain ⟨hC, hS, hc1, -⟩ := h
  obtain ⟨hf, hc2, hs1, he1, hs2, he2⟩ := h1
  have hsz := Size_of_none t hf
  obtain ⟨fo, cache_1, c2o, s1, e1, s2, e2, C, d1, d2, lu, S⟩ := t
  simp only at *
  subst hf hc2 hs1 hs2 he2
  simp only [Covered, Option.isSome_none, Bool.false_eq_true, false_and, or_false] at hcov
  have hpC : C = p := by omega
  have heC : C = e1 := by omega
  subst hpC
  subst heC
  refine ⟨_, by
    unfold FillCache
    simp only [mod_self_sub, Option.isSome_none, Option.isNone_none]
    rw [if_neg (by omega), if_neg (by omega), if_neg (by simp), if_pos (by simp)], ?_, ?_, ?_, ?_⟩
  · exact ⟨hC, hS, hc1, Or.inr (Or.inl ⟨rfl, ⟨_, rfl, by simp⟩, rfl, rfl, rfl, Nat.le_refl _,
      by dsimp only; omega⟩)⟩
  · obtain ⟨hsize, hbytes⟩ := hr
    constructor
    · rw [hsize, hsz, Size_of_none _ rfl]
      simp
    · intro q
      rw [hbytes q]
      unfold byteAt
      simp only [Option.isSome_none, Bool.false_eq_true, false_and, if_false]
      by_cases hq : 0 ≤ q ∧ q < C
      · rw [if_pos hq, if_pos hq]
      · rw [if_neg hq, if_neg hq, if_neg (by omega)]
  · right
    simp only [Option.isSome_some, true_and]
    omega
  · exact ⟨rfl, rfl, fun _ _ => rfl, fun hc => by simp at hc⟩

/-- `FillCache` in state 2 (two caches): the spill file is created from both
caches. -/
theorem FillCache_state2 (t : TemporalContainer) (l : List Byte) (p : Nat)
    (h : t.Inv) (h2 : t.Inv2) (hr : t.Refines l) (hp : p ≤ t.Size) (hcov : ¬t.Covered p) :
    ∃ t2, t.FillCache p = .ok t2 ∧ t2.Inv ∧ t2.Refines l ∧ t2.Covered p ∧ t.Keeps t2 p := by
  obtain ⟨hC, hS, hc1, -⟩ := h
  obtain ⟨hf, ⟨cache_2, hc2, hl2⟩, hs1, he1, hs2, he2, he2'⟩ := h2
  have hsz := Size_of_none t hf
  obtain ⟨fo, cache_1, c2o, s1, e1, s2, e2, C, d1, d2, lu, S⟩ := t
  simp only at *
  have hs2b := hs2.symm
  have he1b := he1.symm
  subst hf hc2 hs1
  subst hs2b
  subst he1b
  simp only [Covered, Option.isSome_some, true_and] at hcov
  have hp2 : p = 2 * C := by omega
  have he2C : e2 = 2 * C := by omega
  subst hp2 he2C
  obtain ⟨f1, hw1, hS1, hinv1, hcont1⟩ := fileWrite_spec ⟨S % 2 ^ 32, []⟩ 0 (cache_1.take C) hS
    trivial (Nat.zero_le _)
  have hF1 : f1.Content = cache_1 := by
    rw [hcont1, ← hc1]
    simp [FileContainer.Content, flatWrite]
  obtain ⟨f2, hw2, hS2, hinv2, hcont2⟩ := fileWrite_spec f1 C (cache_2.take C) hS1 hinv1
    (by rw [hF1, hc1])
  have hF2 : f2.Content = cache_1 ++ cache_2 := by
    rw [hcont2, hF1, ← hl2, List.take_length, flatWrite, hl2, ← hc1, List.take_length]
    rw [List.drop_of_length_le (by omega), List.append_nil]
  have hF2l : f2.Content.length = 2 * C := by
    rw [hF2, List.length_append, hc1, hl2]; omega
  refine ⟨_, by
    unfold FillCache
    simp only [two_mul_mod_sub, Option.isSome_some, Option.isNone_some, hw1, hw2]
    rw [if_neg (by omega), if_neg (by omega), if_neg (by omega), if_neg (by simp)], ?_, ?_, ?_, ?_⟩
  · have ok1 : CacheOk C f2.Content (2 * C) (2 * C) cache_1 false := by
      refine ⟨by simp, Nat.le_refl _, by omega, by omega, fun _ => by omega,
        fun _ => ⟨by omega, ?_⟩⟩
      intro q hq1 hq2
      omega
    have ok2 : CacheOk C f2.Content C (2 * C) cache_2 false := by
      refine ⟨by simp, by omega, by omega, by omega, fun hh => by omega,
        fun _ => ⟨by omega, ?_⟩⟩
      intro q hq1 hq2
      rw [hF2, List.getElem?_append_right (by omega), hc1]
    have hne : 2 * C ≠ C := by omega
    exact ⟨hC, hS, hc1, Or.inr (Or.inr ⟨f2, cache_2, rfl, rfl, hl2, hS2, hinv2,
      Nat.le_of_eq hF2l.symm, hne, ok1, ok2⟩)⟩
  · obtain ⟨hsize, hbytes⟩ := hr
    constructor
    · rw [hsize, hsz, Size_of_file _ f2 rfl hinv2]
      simp only
      omega
    · intro q
      rw [hbytes q]
      unfold byteAt
      simp only [Option.isSome_some, true_and, Option.getD_some]
      have n1 : ¬(2 * C ≤ q ∧ q < 2 * C) := by omega
      rw [if_neg n1]
      by_cases hq : q < C
      · have p1 : 0 ≤ q ∧ q < C := ⟨Nat.zero_le _, hq⟩
        have n2 : ¬(C ≤ q ∧ q < 2 * C) := by omega
        rw [if_pos p1, if_neg n2, hF2, List.getElem?_append_left (by omega), Nat.sub_zero]
      · have n3 : ¬(0 ≤ q ∧ q < C) := by omega
        rw [if_neg n3]
        by_cases hq2 : C ≤ q ∧ q < 2 * C
        · rw [if_pos hq2, if_pos hq2]
        · rw [if_neg hq2, if_neg hq2, List.getElem?_eq_none (by omega)]
  · left
    simp only
    omega
  · exact ⟨rfl, rfl, fun hlt => by dsimp only at hlt; omega, fun _ => rfl⟩

end TemporalContainer
end pastra
end whais

namespace whais
namespace pastra
namespace TemporalContainer

theorem memcpy_zero_getElem? (cache data : List Byte) (q : Nat) (hq : q < data.length) :
    (memcpy cache 0 data)[q]? = data[q]? := by
  rw [memcpy_getElem? _ _ _ (Nat.zero_le _), if_pos (by omega), Nat.sub_zero]

/-- The second cache, clean, filled again from the spill file at an aligned
position that no cache holds. -/
theorem load_2 (t : TemporalContainer) (l : List Byte) (file : FileContainer) (P : Nat)
    (h : t.Inv) (hr : t.Refines l) (hf : t.mFileContainer = some file)
    (hd : t.mDirtyCache_2 = false) (hP : P % t.mCacheSize = 0)
    (hPF : P ≤ file.Content.length) (hP1 : t.mCacheStartPos_1 ≠ P)
    (hP2 : t.mCacheStartPos_2 ≠ P) :
    ({ t with
        mCache_2 := some (memcpy (t.mCache_2.getD []) 0
          (flatRead file.Content P (min t.mCacheSize (file.Content.length - P))))
        mCacheStartPos_2 := P
        mCacheEndPos_2 := P + min t.mCacheSize (file.Content.length - P)
        mCache1LastUsed := false } : TemporalContainer).Inv ∧
    ({ t with
        mCache_2 := some (memcpy (t.mCache_2.getD []) 0
          (flatRead file.Content P (min t.mCacheSize (file.Content.length - P))))
        mCacheStartPos_2 := P
        mCacheEndPos_2 := P + min t.mCacheSize (file.Content.length - P)
        mCache1LastUsed := false } : TemporalContainer).Refines l := by
  obtain ⟨cache_2, hc2, hl2, hS', hinv, hF, hne, ok1, ok2⟩ := Inv3_of_file t h file hf
  have hC := h.1
  have hS := h.2.1
  have hc1 := h.2.2.1
  obtain ⟨fo, cache_1, c2o, s1, e1, s2, e2, C, d1, d2, lu, S⟩ := t
  simp only at *
  subst hf hc2 hd
  simp only [Option.getD_some]
  have hdl : (flatRead file.Content P (min C (file.Content.length - P))).length
      = min C (file.Content.length - P) := FileContainer.flatRead_length _ _ _ (by omega)
  have hml : (memcpy cache_2 0 (flatRead file.Content P (min C (file.Content.length - P)))).length
      = C := by rw [memcpy_length _ _ _ (by rw [hdl]; omega), hl2]
  have ok2' := CacheOk_load (C := C) file.Content P cache_2 hP hPF
  obtain ⟨b1, b2, b3, b4, b5, b6⟩ := ok2
  obtain ⟨b7, b8⟩ := b6 rfl
  have hdis := aligned_disjoint b1 hP hP2
  constructor
  · exact ⟨hC, hS, hc1, Or.inr (Or.inr ⟨file, _, rfl, rfl, hml, hS', hinv, hF, hP1, ok1, ok2'⟩)⟩
  · obtain ⟨hsize, hbytes⟩ := hr
    constructor
    · rw [hsize, Size_of_file _ file rfl hinv, Size_of_file _ file rfl hinv]
      dsimp only
      omega
    · intro q
      rw [hbytes q]
      unfold byteAt
      simp only [Option.isSome_some, true_and, Option.getD_some]
      by_cases hA : s1 ≤ q ∧ q < e1
      · rw [if_pos hA, if_pos hA]
      · rw [if_neg hA, if_neg hA]
        by_cases hB : s2 ≤ q ∧ q < e2
        · have hn : ¬(P ≤ q ∧ q < P + min C (file.Content.length - P)) := by omega
          rw [if_pos hB, if_neg hn, b8 q hB.1 hB.2]
        · rw [if_neg hB]
          by_cases hCc : P ≤ q ∧ q < P + min C (file.Content.length - P)
          · rw [if_pos hCc, memcpy_zero_getElem? _ _ _ (by rw [hdl]; omega), flatRead_getElem?,
              if_pos (by omega)]
            congr 1
            omega
          · rw [if_neg hCc]

/-- The first cache, clean, filled again from the spill file at an aligned
position that no cache holds. -/
theorem load_1 (t : TemporalContainer) (l : List Byte) (file : FileContainer) (P : Nat)
    (h : t.Inv) (hr : t.Refines l) (hf : t.mFileContainer = some file)
    (hd : t.mDirtyCache_1 = false) (hP : P % t.mCacheSize = 0)
    (hPF : P ≤ file.Content.length) (hP1 : t.mCacheStartPos_1 ≠ P)
    (hP2 : t.mCacheStartPos_2 ≠ P) :
    ({ t with
        mCache_1 := memcpy t.mCache_1 0
          (flatRead file.Content P (min t.mCacheSize (file.Content.length - P)))
        mCacheStartPos_1 := P
        mCacheEndPos_1 := P + min t.mCacheSize (file.Content.length - P)
        mCache1LastUsed := true } : TemporalContainer).Inv ∧
    ({ t with
        mCache_1 := memcpy t.mCache_1 0
          (flatRead file.Content P (min t.mCacheSize (file.Content.length - P)))
        mCacheStartPos_1 := P
        mCacheEndPos_1 := P + min t.mCacheSize (file.Content.length - P)
        mCache1LastUsed := true } : TemporalContainer).Refines l := by
  obtain ⟨cache_2, hc2, hl2, hS', hinv, hF, hne, ok1, ok2⟩ := Inv3_of_file t h file hf
  have hC := h.1
  have hS := h.2.1
  have hc1 := h.2.2.1
  obtain ⟨fo, cache_1, c2o, s1, e1, s2, e2, C, d1, d2, lu, S⟩ := t
  simp only at *
  subst hf hc2 hd
  have hdl : (flatRead file.Content P (min C (file.Content.length - P))).length
      = min C (file.Content.length - P) := FileContainer.flatRead_length _ _ _ (by omega)
  have hml : (memcpy cache_1 0 (flatRead file.Content P (min C (file.Content.length - P)))).length
      = C := by rw [memcpy_length _ _ _ (by rw [hdl]; omega), hc1]
  have ok1' := CacheOk_load (C := C) file.Content P cache_1 hP hPF
  obtain ⟨a1, a2, a3, a4, a5, a6⟩ := ok1
  obtain ⟨a7, a8⟩ := a6 rfl
  have hdis := aligned_disjoint a1 hP hP1
  have hdis2 := aligned_disjoint a1 ok2.1 hne
  have b2 := ok2.2.1
  have b3 := ok2.2.2.1
  constructor
  · exact ⟨hC, hS, hml, Or.inr (Or.inr ⟨file, _, rfl, rfl, hl2, hS', hinv, hF, Ne.symm hP2, ok1',
      ok2⟩)⟩
  · obtain ⟨hsize, hbytes⟩ := hr
    constructor
    · rw [hsize, Size_of_file _ file rfl hinv, Size_of_file _ file rfl hinv]
      dsimp only
      omega
    · intro q
      rw [hbytes q]
      unfold byteAt
      simp only [Option.isSome_some, true_and, Option.getD_some]
      by_cases hCc : P ≤ q ∧ q < P + min C (file.Content.length - P)
      · have hn : ¬(s1 ≤ q ∧ q < e1) := by omega
        have hdis3 := aligned_disjoint ok2.1 hP hP2
        have hn2 : ¬(s2 ≤ q ∧ q < e2) := by omega
        rw [if_pos hCc, if_neg hn, if_neg hn2, memcpy_zero_getElem? _ _ _ (by rw [hdl]; omega),
          flatRead_getElem?, if_pos (by omega)]
        congr 1
        omega
      · rw [if_neg hCc]
        by_cases hA : s1 ≤ q ∧ q < e1
        · have hn2 : ¬(s2 ≤ q ∧ q < e2) := by omega
          rw [if_pos hA, if_neg hn2, a8 q hA.1 hA.2]
        · rw [if_neg hA]

end TemporalContainer
end pastra
end whais

namespace whais
namespace pastra
namespace TemporalContainer

theorem sub64_le (a b : Nat) (h : b ≤ a) : sub64 a b = a - b := by
  unfold sub64
  rw [if_pos h]

/-- `FillCache` in state 3 when the first cache was filled last: the second
cache is written back and filled at the new position. -/
theorem FillCache_state3_evict2 (t : TemporalContainer) (l : List Byte) (p : Nat)
    (file : FileContainer) (h : t.Inv) (hf : t.mFileContainer = some file) (hr : t.Refines l)
    (hp : p ≤ t.Size) (hcov : ¬t.Covered p) (hlu : t.mCache1LastUsed = true) :
    ∃ t2, t.FillCache p = .ok t2 ∧ t2.Inv ∧ t2.Refines l ∧ t2.Covered p ∧ t.Keeps t2 p := by
  have hC := h.1
  obtain ⟨hP0, hPp, hpP⟩ := align_down t.mCacheSize p hC
  obtain ⟨cache_2, hc2, -⟩ := Inv3_of_file t h file hf
  have hP1 : t.mCacheStartPos_1 ≠ p - p % t.mCacheSize := by
    intro he
    exact hcov (Or.inl (by omega))
  have hP2 : t.mCacheStartPos_2 ≠ p - p % t.mCacheSize := by
    intro he
    exact hcov (Or.inr ⟨by rw [hc2]; rfl, by omega⟩)
  obtain ⟨file1, hfl1, hinv1, hr1, hle1, hend1⟩ := FlushCache_2_spec t l file h hr hf
  generalize ht1 : ({ t with mFileContainer := some file1, mDirtyCache_2 := false }
    : TemporalContainer) = t1 at hfl1 hinv1 hr1
  have hf1 : t1.mFileContainer = some file1 := by rw [← ht1]
  have hd1 : t1.mDirtyCache_2 = false := by rw [← ht1]
  have hfields1 : t1.mCacheSize = t.mCacheSize ∧ t1.mCacheStartPos_1 = t.mCacheStartPos_1 ∧
      t1.mCacheStartPos_2 = t.mCacheStartPos_2 ∧ t1.mCacheEndPos_1 = t.mCacheEndPos_1 ∧
      t1.mCacheEndPos_2 = t.mCacheEndPos_2 ∧ t1.mMaxFileSize = t.mMaxFileSize ∧
      t1.mCache_2 = t.mCache_2 ∧ t1.mCache1LastUsed = t.mCache1LastUsed := by
    rw [← ht1]; exact ⟨rfl, rfl, rfl, rfl, rfl, rfl, rfl, rfl⟩
  obtain ⟨-, -, -, hS1, hfinv1, -⟩ := Inv3_of_file t1 hinv1 file1 hf1
  -- the second flush
  have hstep : ∃ t2 file2,
      (if p - p % t.mCacheSize ≥ file1.Size then FlushCache_1 t1 file1 else .ok (t1, file1))
        = .ok (t2, file2) ∧ t2.Inv ∧ t2.Refines l ∧ t2.mFileContainer = some file2 ∧
      t2.mDirtyCache_2 = false ∧ p - p % t.mCacheSize ≤ file2.Content.length ∧
      (t2.mCacheSize = t.mCacheSize ∧ t2.mCacheStartPos_1 = t.mCacheStartPos_1 ∧
        t2.mCacheStartPos_2 = t.mCacheStartPos_2 ∧ t2.mMaxFileSize = t.mMaxFileSize ∧
        t2.mCache_2 = t.mCache_2) := by
    rw [FileContainer.Size_eq_length file1 hfinv1]
    by_cases hge : p - p % t.mCacheSize ≥ file1.Content.length
    · rw [if_pos hge]
      obtain ⟨file2, hfl2, hinv2, hr2, hle2, hend2⟩ := FlushCache_1_spec t1 l file1 hinv1 hr1 hf1
      refine ⟨_, file2, hfl2, hinv2, hr2, rfl, hd1, ?_, ?_⟩
      · obtain ⟨-, -, -, -, hfinv2, -⟩ := Inv3_of_file _ hinv2 file2 rfl
        have hs2 := Size_of_file ({ t1 with mFileContainer := some file2, mDirtyCache_1 := false }) file2
          rfl hfinv2
        have hsz := hr2.1
        rw [hs2] at hsz
        have hsz0 := hr.1
        dsimp only at hsz
        omega
      · exact ⟨hfields1.1, hfields1.2.1, hfields1.2.2.1, hfields1.2.2.2.2.2.1,
          hfields1.2.2.2.2.2.2.1⟩
    · rw [if_neg hge]
      exact ⟨t1, file1, rfl, hinv1, hr1, hf1, hd1, by omega, hfields1.1, hfields1.2.1,
        hfields1.2.2.1, hfields1.2.2.2.2.2.1, hfields1.2.2.2.2.2.2.1⟩
  obtain ⟨t2, file2, hfl2, hinv2, hr2, hf2, hd2, hPF, hC2, hs12, hs22, hS2, hcache2⟩ := hstep
  obtain ⟨-, -, -, hS2', hfinv2, -⟩ := Inv3_of_file t2 hinv2 file2 hf2
  have hsize2 := FileContainer.Size_eq_length file2 hfinv2
  have hread := FileContainer.Read_spec file2 (p - p % t.mCacheSize)
    (min t.mCacheSize (file2.Content.length - (p - p % t.mCacheSize))) hS2' hfinv2
    (by rw [hsize2]; omega)
  have hload := load_2 t2 l file2 (p - p % t.mCacheSize) hinv2 hr2 hf2 hd2 (by rw [hC2]; exact hP0)
    hPF (by rw [hs12]; exact hP1) (by rw [hs22]; exact hP2)
  rw [hC2] at hload
  refine ⟨_, by
    unfold FillCache
    rw [if_neg (by omega)]
    simp only []
    rw [if_neg hP1, if_neg (fun hh => hP2 hh.2), if_neg (by rw [hc2]; simp), hf]
    simp only [hlu, if_true, hfl1, hfl2, hC2, hsize2, sub64_le _ _ hPF, hread], hload.1, hload.2,
    ?_, ?_⟩
  · right
    dsimp only
    exact ⟨rfl, hPp, by omega⟩
  · refine ⟨rfl, hS2, fun _ hn => ?_, fun _ => rfl⟩
    rw [hf] at hn
    cases hn

/-- `FillCache` in state 3 when the second cache was filled last: the first
cache is written back and filled at the new position. -/
theorem FillCache_state3_evict1 (t : TemporalContainer) (l : List Byte) (p : Nat)
    (file : FileContainer) (h : t.Inv) (hf : t.mFileContainer = some file) (hr : t.Refines l)
    (hp : p ≤ t.Size) (hcov : ¬t.Covered p) (hlu : t.mCache1LastUsed = false) :
    ∃ t2, t.FillCache p = .ok t2 ∧ t2.Inv ∧ t2.Refines l ∧ t2.Covered p ∧ t.Keeps t2 p := by
  have hC := h.1
  obtain ⟨hP0, hPp, hpP⟩ := align_down t.mCacheSize p hC
  obtain ⟨cache_2, hc2, -⟩ := Inv3_of_file t h file hf
  have hP1 : t.mCacheStartPos_1 ≠ p - p % t.mCacheSize := by
    intro he
    exact hcov (Or.inl (by omega))
  have hP2 : t.mCacheStartPos_2 ≠ p - p % t.mCacheSize := by
    intro he
    exact hcov (Or.inr ⟨by rw [hc2]; rfl, by omega⟩)
  obtain ⟨file1, hfl1, hinv1, hr1, hle1, hend1⟩ := FlushCache_1_spec t l file h hr hf
  generalize ht1 : ({ t with mFileContainer := some file1, mDirtyCache_1 := false }
    : TemporalContainer) = t1 at hfl1 hinv1 hr1
  have hf1 : t1.mFileContainer = some file1 := by rw [← ht1]
  have hd1 : t1.mDirtyCache_1 = false := by rw [← ht1]
  have hfields1 : t1.mCacheSize = t.mCacheSize ∧ t1.mCacheStartPos_1 = t.mCacheStartPos_1 ∧
      t1.mCacheStartPos_2 = t.mCacheStartPos_2 ∧ t1.mCacheEndPos_1 = t.mCacheEndPos_1 ∧
      t1.mCacheEndPos_2 = t.mCacheEndPos_2 ∧ t1.mMaxFileSize = t.mMaxFileSize ∧
      t1.mCache_2 = t.mCache_2 ∧ t1.mCache1LastUsed = t.mCache1LastUsed := by
    rw [← ht1]; exact ⟨rfl, rfl, rfl, rfl, rfl, rfl, rfl, rfl⟩
  obtain ⟨-, -, -, hS1, hfinv1, -⟩ := Inv3_of_file t1 hinv1 file1 hf1
  -- the second flush
  have hstep : ∃ t2 file2,
      (if p - p % t.mCacheSize ≥ file1.Size then FlushCache_2 t1 file1 else .ok (t1, file1))
        = .ok (t2, file2) ∧ t2.Inv ∧ t2.Refines l ∧ t2.mFileContainer = some file2 ∧
      t2.mDirtyCache_1 = false ∧ p - p % t.mCacheSize ≤ file2.Content.length ∧
      (t2.mCacheSize = t.mCacheSize ∧ t2.mCacheStartPos_1 = t.mCacheStartPos_1 ∧
        t2.mCacheStartPos_2 = t.mCacheStartPos_2 ∧ t2.mMaxFileSize = t.mMaxFileSize ∧
        t2.mCache_2 = t.mCache_2) := by
    rw [FileContainer.Size_eq_length file1 hfinv1]
    by_cases hge : p - p % t.mCacheSize ≥ file1.Content.length
    · rw [if_pos hge]
      obtain ⟨file2, hfl2, hinv2, hr2, hle2, hend2⟩ := FlushCache_2_spec t1 l file1 hinv1 hr1 hf1
      refine ⟨_, file2, hfl2, hinv2, hr2, rfl, hd1, ?_, ?_⟩
      · obtain ⟨-, -, -, -, hfinv2, -⟩ := Inv3_of_file _ hinv2 file2 rfl
        have hs2 := Size_of_file ({ t1 with mFileContainer := some file2, mDirtyCache_2 := false }) file2
          rfl hfinv2
        have hsz := hr2.1
        rw [hs2] at hsz
        have hsz0 := hr.1
        dsimp only at hsz
        omega
      · exact ⟨hfields1.1, hfields1.2.1, hfields1.2.2.1, hfields1.2.2.2.2.2.1,
          hfields1.2.2.2.2.2.2.1⟩
    · rw [if_neg hge]
      exact ⟨t1, file1, rfl, hinv1, hr1, hf1, hd1, by omega, hfields1.1, hfields1.2.1,
        hfields1.2.2.1, hfields1.2.2.2.2.2.1, hfields1.2.2.2.2.2.2.1⟩
  obtain ⟨t2, file2, hfl2, hinv2, hr2, hf2, hd2, hPF, hC2, hs12, hs22, hS2, hcache2⟩ := hstep
  obtain ⟨-, -, -, hS2', hfinv2, -⟩ := Inv3_of_file t2 hinv2 file2 hf2
  have hsize2 := FileContainer.Size_eq_length file2 hfinv2
  have hread := FileContainer.Read_spec file2 (p - p % t.mCacheSize)
    (min t.mCacheSize (file2.Content.length - (p - p % t.mCacheSize))) hS2' hfinv2
    (by rw [hsize2]; omega)
  have hload := load_1 t2 l file2 (p - p % t.mCacheSize) hinv2 hr2 hf2 hd2 (by rw [hC2]; exact hP0)
    hPF (by rw [hs12]; exact hP1) (by rw [hs22]; exact hP2)
  rw [hC2] at hload
  refine ⟨_, by
    unfold FillCache
    rw [if_neg (by omega)]
    simp only []
    rw [if_neg hP1, if_neg (fun hh => hP2 hh.2), if_neg (by rw [hc2]; simp), hf]
    simp only [hlu, Bool.false_eq_true, if_false, hfl1, hfl2, hC2, hsize2, sub64_le _ _ hPF, hread], hload.1, hload.2,
    ?_, ?_⟩
  · left
    dsimp only
    exact ⟨hPp, by omega⟩
  · refine ⟨rfl, hS2, fun _ hn => ?_, fun hh => by dsimp only; rw [hcache2]; exact hh⟩
    rw [hf] at hn
    cases hn

end TemporalContainer
end pastra
end whais

namespace whais
namespace pastra
namespace TemporalContainer

/-- `FillCache` at a position not past the end that no cache window holds:
it returns, the container represents the same bytes and a cache window holds
the position. -/
theorem FillCache_spec (t : TemporalContainer) (l : List Byte) (p : Nat)
    (h : t.Inv) (hr : t.Refines l) (hp : p ≤ t.Size) (hcov : ¬t.Covered p) :
    ∃ t2, t.FillCache p = .ok t2 ∧ t2.Inv ∧ t2.Refines l ∧ t2.Covered p ∧ t.Keeps t2 p := by
  rcases h.2.2.2 with h1 | h2 | h3
  · exact FillCache_state1 t l p h h1 hr hp hcov
  · exact FillCache_state2 t l p h h2 hr hp hcov
  · obtain ⟨file, -, hf, -⟩ := h3
    cases hlu : t.mCache1LastUsed with
    | true => exact FillCache_state3_evict2 t l p file h hf hr hp hcov hlu
    | false => exact FillCache_state3_evict1 t l p file h hf hr hp hcov hlu

/-- A position in the window of the first cache and not past the end of the
container is not past the end of the cache. -/
theorem le_end_1 (t : TemporalContainer) (h : t.Inv) (p : Nat) (hp : p ≤ t.Size)
    (hw : p < t.mCacheStartPos_1 + t.mCacheSize) : p ≤ t.mCacheEndPos_1 := by
  by_cases hpart : t.mCacheEndPos_1 < t.mCacheStartPos_1 + t.mCacheSize
  · rw [partial_is_tail_1 t h hpart] at hp
    exact hp
  · omega

theorem le_end_2 (t : TemporalContainer) (h : t.Inv) (hc : t.mCache_2.isSome) (p : Nat)
    (hp : p ≤ t.Size) (hw : p < t.mCacheStartPos_2 + t.mCacheSize) : p ≤ t.mCacheEndPos_2 := by
  by_cases hpart : t.mCacheEndPos_2 < t.mCacheStartPos_2 + t.mCacheSize
  · rw [partial_is_tail_2 t h hc hpart] at hp
    exact hp
  · omega

/-- One turn of the `Write` loop through the first cache. -/
theorem write_step_1 (t : TemporalContainer) (l : List Byte) (toPos : Nat) (chunk : List Byte)
    (h : t.Inv) (hr : t.Refines l) (hto : toPos ≤ t.Size)
    (hw1 : t.mCacheStartPos_1 ≤ toPos)
    (hw2 : toPos + chunk.length ≤ t.mCacheStartPos_1 + t.mCacheSize)
    (hn : 0 < chunk.length) :
    ({ t with
        mCache_1 := memcpy t.mCache_1 (toPos - t.mCacheStartPos_1) chunk
        mCacheEndPos_1 :=
          if toPos + chunk.length > t.mCacheEndPos_1 then toPos + chunk.length
          else t.mCacheEndPos_1
        mDirtyCache_1 := true } : TemporalContainer).Inv ∧
    ({ t with
        mCache_1 := memcpy t.mCache_1 (toPos - t.mCacheStartPos_1) chunk
        mCacheEndPos_1 :=
          if toPos + chunk.length > t.mCacheEndPos_1 then toPos + chunk.length
          else t.mCacheEndPos_1
        mDirtyCache_1 := true } : TemporalContainer).Refines (flatWrite l toPos chunk) := by
  have hle := le_end_1 t h toPos hto (by omega)
  obtain ⟨hsize, hbytes⟩ := hr
  have hC := h.1
  have hS := h.2.1
  have hc1 := h.2.2.1
  have hends := ends_in_window t h
  generalize he' : (if toPos + chunk.length > t.mCacheEndPos_1 then toPos + chunk.length
    else t.mCacheEndPos_1) = e'
  have he1 : e' = max t.mCacheEndPos_1 (toPos + chunk.length) := by
    rw [← he']; split <;> omega
  have hml : (memcpy t.mCache_1 (toPos - t.mCacheStartPos_1) chunk).length = t.mCacheSize := by
    rw [memcpy_length _ _ _ (by omega), hc1]
  have hflen := flatWrite_length l toPos chunk (by omega)
  have hbytes' : ∀ q, (flatWrite l toPos chunk)[q]?
      = ({ t with
            mCache_1 := memcpy t.mCache_1 (toPos - t.mCacheStartPos_1) chunk
            mCacheEndPos_1 := e'
            mDirtyCache_1 := true } : TemporalContainer).byteAt q := by
    intro q
    rw [flatWrite_getElem? _ _ _ (by omega), hbytes q]
    unfold byteAt
    dsimp only
    by_cases hq : toPos ≤ q ∧ q < toPos + chunk.length
    · have hq' : t.mCacheStartPos_1 ≤ q ∧ q < e' := by omega
      rw [if_pos hq, if_pos hq', memcpy_getElem? _ _ _ (by omega), if_pos (by omega)]
      congr 1
      omega
    · rw [if_neg hq]
      by_cases hq1 : t.mCacheStartPos_1 ≤ q ∧ q < e'
      · have hq2 : t.mCacheStartPos_1 ≤ q ∧ q < t.mCacheEndPos_1 := by omega
        rw [if_pos hq1, if_pos hq2, memcpy_getElem? _ _ _ (by omega), if_neg (by omega)]
      · have hq2 : ¬(t.mCacheStartPos_1 ≤ q ∧ q < t.mCacheEndPos_1) := by omega
        rw [if_neg hq1, if_neg hq2]
  rcases h.2.2.2 with h1 | h2 | h3
  · obtain ⟨hf, hc2, hs1, hee1, hs2, he2⟩ := h1
    refine ⟨⟨hC, hS, hml, Or.inl ⟨hf, hc2, hs1, by dsimp only; omega, hs2, he2⟩⟩, ?_, hbytes'⟩
    rw [hflen, hsize]
    unfold Size
    dsimp only
    rw [hf]
    dsimp only
    omega
  · obtain ⟨hf, hc2, hs1, hee1, hs2, he2, he2'⟩ := h2
    refine ⟨⟨hC, hS, hml, Or.inr (Or.inl ⟨hf, hc2, hs1, by dsimp only; omega, hs2, he2, he2'⟩)⟩,
      ?_, hbytes'⟩
    rw [hflen, hsize]
    unfold Size
    dsimp only
    rw [hf]
    dsimp only
    omega
  · obtain ⟨file, cache_2, hf, hc2, hl2, hS', hinv, hF, hne, ⟨a1, a2, a3, a4, a5, a6⟩, ok2⟩ := h3
    have ok1 : CacheOk t.mCacheSize file.Content t.mCacheStartPos_1 e'
        (memcpy t.mCache_1 (toPos - t.mCacheStartPos_1) chunk) true :=
      ⟨a1, by omega, by omega, a4, fun hh => by have := a5 (by omega); omega,
        fun hh => by cases hh⟩
    refine ⟨⟨hC, hS, hml, Or.inr (Or.inr ⟨file, cache_2, hf, hc2, hl2, hS', hinv, hF, hne,
      ok1, ok2⟩)⟩, ?_, hbytes'⟩
    rw [hflen, hsize]
    unfold Size
    dsimp only
    rw [hf]
    dsimp only
    rw [FileContainer.Size_eq_length file hinv]
    omega

/-- One turn of the `Write` loop through the second cache. -/
theorem write_step_2 (t : TemporalContainer) (l : List Byte) (toPos : Nat) (chunk : List Byte)
    (cache_2 : List Byte) (h : t.Inv) (hr : t.Refines l) (hto : toPos ≤ t.Size)
    (hc2 : t.mCache_2 = some cache_2) (hw1 : t.mCacheStartPos_2 ≤ toPos)
    (hw2 : toPos + chunk.length ≤ t.mCacheStartPos_2 + t.mCacheSize)
    (hn : 0 < chunk.length) :
    ({ t with
        mCache_2 := some (memcpy cache_2 (toPos - t.mCacheStartPos_2) chunk)
        mCacheEndPos_2 :=
          if toPos + chunk.length > t.mCacheEndPos_2 then toPos + chunk.length
          else t.mCacheEndPos_2
        mDirtyCache_2 := true } : TemporalContainer).Inv ∧
    ({ t with
        mCache_2 := some (memcpy cache_2 (toPos - t.mCacheStartPos_2) chunk)
        mCacheEndPos_2 :=
          if toPos + chunk.length > t.mCacheEndPos_2 then toPos + chunk.length
          else t.mCacheEndPos_2
        mDirtyCache_2 := true } : TemporalContainer).Refines (flatWrite l toPos chunk) := by
  have hsome : t.mCache_2.isSome := by rw [hc2]; rfl
  have hle := le_end_2 t h hsome toPos hto (by omega)
  have hdis := windows_disjoint t h hsome
  obtain ⟨hsize, hbytes⟩ := hr
  have hC := h.1
  have hS := h.2.1
  have hc1 := h.2.2.1
  have hends := ends_in_window t h
  generalize he' : (if toPos + chunk.length > t.mCacheEndPos_2 then toPos + chunk.length
    else t.mCacheEndPos_2) = e'
  have he1 : e' = max t.mCacheEndPos_2 (toPos + chunk.length) := by
    rw [← he']; split <;> omega
  have hflen := flatWrite_length l toPos chunk (by omega)
  have hl2 : cache_2.length = t.mCacheSize := by
    rcases h.2.2.2 with h1 | h2 | h3
    · rw [h1.2.1] at hc2; cases hc2
    · obtain ⟨c, hc, hl⟩ := h2.2.1
      rw [hc2] at hc; cases hc; exact hl
    · obtain ⟨file, c, hf, hc, hl, -⟩ := h3
      rw [hc2] at hc; cases hc; exact hl
  have hml : (memcpy cache_2 (toPos - t.mCacheStartPos_2) chunk).length = t.mCacheSize := by
    rw [memcpy_length _ _ _ (by omega), hl2]
  have hbytes' : ∀ q, (flatWrite l toPos chunk)[q]?
      = ({ t with
            mCache_2 := some (memcpy cache_2 (toPos - t.mCacheStartPos_2) chunk)
            mCacheEndPos_2 := e'
            mDirtyCache_2 := true } : TemporalContainer).byteAt q := by
    intro q
    rw [flatWrite_getElem? _ _ _ (by omega), hbytes q]
    unfold byteAt
    simp only [hc2, Option.isSome_some, true_and, Option.getD_some]
    by_cases hA : t.mCacheStartPos_1 ≤ q ∧ q < t.mCacheEndPos_1
    · have hq : ¬(toPos ≤ q ∧ q < toPos + chunk.length) := by omega
      rw [if_neg hq, if_pos hA, if_pos hA]
    · rw [if_neg hA, if_neg hA]
      by_cases hq : toPos ≤ q ∧ q < toPos + chunk.length
      · have hq' : t.mCacheStartPos_2 ≤ q ∧ q < e' := by omega
        rw [if_pos hq, if_pos hq', memcpy_getElem? _ _ _ (by omega), if_pos (by omega)]
        congr 1
        omega
      · rw [if_neg hq]
        by_cases hq1 : t.mCacheStartPos_2 ≤ q ∧ q < e'
        · have hq2 : t.mCacheStartPos_2 ≤ q ∧ q < t.mCacheEndPos_2 := by omega
          rw [if_pos hq1, if_pos hq2, memcpy_getElem? _ _ _ (by omega), if_neg (by omega)]
        · have hq2 : ¬(t.mCacheStartPos_2 ≤ q ∧ q < t.mCacheEndPos_2) := by omega
          rw [if_neg hq1, if_neg hq2]
  rcases h.2.2.2 with h1 | h2 | h3
  · rw [h1.2.1] at hc2; cases hc2
  · obtain ⟨hf, -, hs1, hee1, hs2, he2, he2'⟩ := h2
    refine ⟨⟨hC, hS, hc1, Or.inr (Or.inl ⟨hf, ⟨_, rfl, hml⟩, hs1, hee1, hs2, by dsimp only; omega,
      by dsimp only; omega⟩)⟩, ?_, hbytes'⟩
    rw [hflen, hsize]
    unfold Size
    dsimp only
    rw [hf]
    dsimp only
    omega
  · obtain ⟨file, c, hf, hc, -, hS', hinv, hF, hne, ok1, ⟨a1, a2, a3, a4, a5, a6⟩⟩ := h3
    have ok2 : CacheOk t.mCacheSize file.Content t.mCacheStartPos_2 e'
        (memcpy cache_2 (toPos - t.mCacheStartPos_2) chunk) true :=
      ⟨a1, by omega, by omega, a4, fun hh => by have := a5 (by omega); omega,
        fun hh => by cases hh⟩
    refine ⟨⟨hC, hS, hc1, Or.inr (Or.inr ⟨file, _, hf, rfl, hml, hS', hinv, hF, hne,
      ok1, ok2⟩)⟩, ?_, hbytes'⟩
    rw [hflen, hsize]
    unfold Size
    dsimp only
    rw [hf]
    dsimp only
    rw [FileContainer.Size_eq_length file hinv]
    omega

end TemporalContainer
end pastra
end whais

namespace whais
namespace pastra
namespace TemporalContainer

/-- The loop of `Write` at an offset not past the end: it returns within the
fuel, keeps the invariant, and the container represents the flat byte array
written at the same place. -/
theorem WriteLoop_spec (fuel : Nat) : ∀ (t : TemporalContainer) (l : List Byte) (toPos : Nat)
    (buffer : List Byte), t.Inv → t.Refines l → toPos ≤ t.Size →
    0 < fuel → 2 * buffer.length ≤ fuel → (¬t.Covered toPos → 2 * buffer.length + 1 ≤ fuel) →
    ∃ t2, WriteLoop fuel t toPos buffer = .ok t2 ∧ t2.Inv ∧
      t2.Refines (flatWrite l toPos buffer) ∧
      t2.mCacheSize = t.mCacheSize ∧ t2.mMaxFileSize = t.mMaxFileSize ∧
      (toPos + buffer.length ≤ 2 * t.mCacheSize → t.mFileContainer = none →
        t2.mFileContainer = none) ∧
      (t.mCache_2.isSome → t2.mCache_2.isSome) := by
  induction fuel with
  | zero => intro t l toPos buffer _ _ _ h; omega
  | succ fuel ih =>
    intro t l toPos buffer h hr hto _ hfuel hfuel2
    rw [WriteLoop]
    dsimp only
    by_cases hn : buffer.length > 0
    · rw [if_pos hn]
      have hC := h.1
      by_cases hb1 : t.mCacheStartPos_1 ≤ toPos ∧ toPos < t.mCacheStartPos_1 + t.mCacheSize
      · rw [if_pos hb1]
        generalize hw : min buffer.length (t.mCacheStartPos_1 + t.mCacheSize - toPos) = toWrite
        have hw0 : 0 < toWrite := by omega
        have hwn : toWrite ≤ buffer.length := by omega
        have hcl : (buffer.take toWrite).length = toWrite := by rw [List.length_take]; omega
        have hstep := write_step_1 t l toPos (buffer.take toWrite) h hr hto hb1.1
          (by rw [hcl]; omega) (by rw [hcl]; exact hw0)
        rw [hcl] at hstep
        obtain ⟨hinv1, hr1⟩ := hstep
        have hflen := flatWrite_length l toPos (buffer.take toWrite) (by rw [hr.1]; exact hto)
        rw [hcl] at hflen
        obtain ⟨t2, hloop, hinv2, hr2, hC2, hS2, hf2, hc2⟩ := ih _ (flatWrite l toPos
          (buffer.take toWrite)) (toPos + toWrite) (buffer.drop toWrite) hinv1 hr1
          (by rw [← hr1.1, hflen]; omega) (by omega) (by rw [List.length_drop]; omega)
          (fun _ => by rw [List.length_drop]; omega)
        refine ⟨t2, hloop, hinv2, ?_, hC2, hS2, ?_, hc2⟩
        · have := flatWrite_flatWrite l toPos (buffer.take toWrite) (buffer.drop toWrite)
            (by rw [hr.1]; exact hto)
          rw [hcl, List.take_append_drop] at this
          rw [← this]
          exact hr2
        · intro hle hnone
          exact hf2 (by rw [List.length_drop]; dsimp only; omega) hnone
      · rw [if_neg hb1]
        by_cases hb2 : t.mCache_2.isSome = true
            ∧ (t.mCacheStartPos_2 ≤ toPos ∧ toPos < t.mCacheStartPos_2 + t.mCacheSize)
        · rw [if_pos hb2]
          obtain ⟨cache_2, hcache⟩ := Option.isSome_iff_exists.1 hb2.1
          generalize hw : min buffer.length (t.mCacheStartPos_2 + t.mCacheSize - toPos) = toWrite
          have hw0 : 0 < toWrite := by omega
          have hwn : toWrite ≤ buffer.length := by omega
          have hcl : (buffer.take toWrite).length = toWrite := by rw [List.length_take]; omega
          have hstep := write_step_2 t l toPos (buffer.take toWrite) cache_2 h hr hto hcache
            hb2.2.1 (by rw [hcl]; omega) (by rw [hcl]; exact hw0)
          rw [hcl] at hstep
          obtain ⟨hinv1, hr1⟩ := hstep
          have hflen := flatWrite_length l toPos (buffer.take toWrite) (by rw [hr.1]; exact hto)
          rw [hcl] at hflen
          obtain ⟨t2, hloop, hinv2, hr2, hC2, hS2, hf2, hc2⟩ := ih _ (flatWrite l toPos
            (buffer.take toWrite)) (toPos + toWrite) (buffer.drop toWrite) hinv1 hr1
            (by rw [← hr1.1, hflen]; omega) (by omega) (by rw [List.length_drop]; omega)
            (fun _ => by rw [List.length_drop]; omega)
          simp only [hcache, Option.getD_some]
          refine ⟨t2, hloop, hinv2, ?_, hC2, hS2, ?_, fun _ => hc2 rfl⟩
          · have := flatWrite_flatWrite l toPos (buffer.take toWrite) (buffer.drop toWrite)
              (by rw [hr.1]; exact hto)
            rw [hcl, List.take_append_drop] at this
            rw [← this]
            exact hr2
          · intro hle hnone
            exact hf2 (by rw [List.length_drop]; dsimp only; omega) hnone
        · rw [if_neg hb2]
          have hcov : ¬t.Covered toPos := by
            intro hc
            rcases hc with hc | hc
            · exact hb1 hc
            · exact hb2 hc
          obtain ⟨t1, hfill, hinv1, hr1, hcov1, hk1, hk2, hk3, hk4⟩ :=
            FillCache_spec t l toPos h hr hto hcov
          rw [hfill]
          dsimp only
          have hfl := hfuel2 hcov
          obtain ⟨t2, hloop, hinv2, hr2, hC2, hS2, hf2, hc2⟩ := ih t1 l toPos buffer hinv1 hr1
            (by rw [← hr1.1, hr.1]; exact hto) (by omega) (by omega)
            (fun hncov => absurd hcov1 hncov)
          refine ⟨t2, hloop, hinv2, hr2, by omega, by omega, ?_, fun hh => hc2 (hk4 hh)⟩
          intro hle hnone
          exact hf2 (by omega) (hk3 (by omega) hnone)
    · rw [if_neg hn]
      have hnil : buffer = [] := List.length_eq_zero.1 (by omega)
      subst hnil
      exact ⟨t, rfl, h, by rw [flatWrite_nil]; exact hr, rfl, rfl, fun _ hh => hh, fun hh => hh⟩

/-- `TemporalContainer::Write` at an offset not past the end. -/
theorem Write_refines (t : TemporalContainer) (l : List Byte) (toPos : Nat) (buffer : List Byte)
    (h : t.Inv) (hr : t.Refines l) (hto : toPos ≤ l.length) :
    ∃ t2, t.Write toPos buffer = .ok t2 ∧ t2.Inv ∧ t2.Refines (flatWrite l toPos buffer) ∧
      t2.mCacheSize = t.mCacheSize ∧ t2.mMaxFileSize = t.mMaxFileSize ∧
      (toPos + buffer.length ≤ 2 * t.mCacheSize → t.mFileContainer = none →
        t2.mFileContainer = none) ∧
      (t.mCache_2.isSome → t2.mCache_2.isSome) := by
  unfold Write
  rw [hr.1] at hto
  rw [if_neg (by omega)]
  exact WriteLoop_spec _ t l toPos buffer h hr hto (by omega) (by omega) (fun _ => by omega)

end TemporalContainer
end pastra
end whais

namespace whais
namespace pastra
namespace TemporalContainer

theorem flatRead_append (l : List Byte) (p a b : Nat) :
    flatRead l p a ++ flatRead l (p + a) b = flatRead l p (a + b) := by
  unfold flatRead
  rw [List.take_add, List.drop_drop]

theorem cache_read_eq (l cache : List Byte) (fromPos off n : Nat)
    (h : ∀ i, i < n → l[fromPos + i]? = cache[off + i]?) :
    (cache.drop off).take n = flatRead l fromPos n := by
  apply List.ext_getElem?
  intro i
  rw [flatRead_getElem?]
  by_cases hi : i < n
  · rw [if_pos hi, List.getElem?_take_of_lt hi, List.getElem?_drop, h i hi]
  · rw [if_neg hi, List.getElem?_eq_none]
    rw [List.length_take]; omega

theorem lt_end_1 (t : TemporalContainer) (h : t.Inv) (p : Nat) (hp : p < t.Size)
    (hw : p < t.mCacheStartPos_1 + t.mCacheSize) : p < t.mCacheEndPos_1 := by
  by_cases hpart : t.mCacheEndPos_1 < t.mCacheStartPos_1 + t.mCacheSize
  · rw [partial_is_tail_1 t h hpart] at hp
    exact hp
  · omega

theorem lt_end_2 (t : TemporalContainer) (h : t.Inv) (hc : t.mCache_2.isSome) (p : Nat)
    (hp : p < t.Size) (hw : p < t.mCacheStartPos_2 + t.mCacheSize) : p < t.mCacheEndPos_2 := by
  by_cases hpart : t.mCacheEndPos_2 < t.mCacheStartPos_2 + t.mCacheSize
  · rw [partial_is_tail_2 t h hc hpart] at hp
    exact hp
  · omega

/-- The loop of `Read` on a range inside the container: it returns within the
fuel with the bytes of the flat byte array, and the container still represents
the same bytes. -/
theorem ReadLoop_spec (fuel : Nat) : ∀ (t : TemporalContainer) (l : List Byte)
    (fromPos size : Nat), t.Inv → t.Refines l → fromPos + size ≤ l.length →
    0 < fuel → 2 * size ≤ fuel → (¬t.Covered fromPos → 2 * size + 1 ≤ fuel) →
    ∃ t2, ReadLoop fuel t fromPos size = .ok (t2, flatRead l fromPos size) ∧ t2.Inv ∧
      t2.Refines l ∧ t2.mCacheSize = t.mCacheSize ∧ t2.mMaxFileSize = t.mMaxFileSize ∧
      (t.mFileContainer = none → t2.mFileContainer = none) ∧
      (t.mCache_2.isSome → t2.mCache_2.isSome) := by
  induction fuel with
  | zero => intro t l fromPos size _ _ _ h; omega
  | succ fuel ih =>
    intro t l fromPos size h hr hrange _ hfuel hfuel2
    rw [ReadLoop]
    by_cases hn : size > 0
    · rw [if_pos hn]
      have hC := h.1
      have hends := ends_in_window t h
      have hlt : fromPos < t.Size := by rw [← hr.1]; omega
      by_cases hb1 : t.mCacheStartPos_1 ≤ fromPos ∧ fromPos < t.mCacheEndPos_1
      · rw [if_pos hb1]
        dsimp only
        generalize hw : min size (t.mCacheEndPos_1 - fromPos) = toRead
        have hw0 : 0 < toRead := by omega
        have hwn : toRead ≤ size := by omega
        obtain ⟨t2, hloop, hinv2, hr2, hC2, hS2, hf2, hc2⟩ := ih t l (fromPos + toRead)
          (size - toRead) h hr (by omega) (by omega) (by omega) (fun _ => by omega)
        rw [hloop]
        dsimp only
        refine ⟨t2, ?_, hinv2, hr2, hC2, hS2, hf2, hc2⟩
        have hdata : (t.mCache_1.drop (fromPos - t.mCacheStartPos_1)).take toRead
            = flatRead l fromPos toRead := by
          apply cache_read_eq
          intro i hi
          rw [hr.2 (fromPos + i)]
          unfold byteAt
          rw [if_pos (by omega)]
          congr 1
          omega
        rw [hdata, flatRead_append, show toRead + (size - toRead) = size by omega]
      · rw [if_neg hb1]
        by_cases hb2 : t.mCache_2.isSome = true
            ∧ (t.mCacheStartPos_2 ≤ fromPos ∧ fromPos < t.mCacheEndPos_2)
        · rw [if_pos hb2]
          dsimp only
          obtain ⟨cache_2, hcache⟩ := Option.isSome_iff_exists.1 hb2.1
          have hdis := windows_disjoint t h hb2.1
          generalize hw : min size (t.mCacheEndPos_2 - fromPos) = toRead
          have hw0 : 0 < toRead := by omega
          have hwn : toRead ≤ size := by omega
          obtain ⟨t2, hloop, hinv2, hr2, hC2, hS2, hf2, hc2⟩ := ih t l (fromPos + toRead)
            (size - toRead) h hr (by omega) (by omega) (by omega) (fun _ => by omega)
          rw [hloop]
          dsimp only
          refine ⟨t2, ?_, hinv2, hr2, hC2, hS2, hf2, hc2⟩
          have hdata : ((t.mCache_2.getD []).drop (fromPos - t.mCacheStartPos_2)).take toRead
              = flatRead l fromPos toRead := by
            apply cache_read_eq
            intro i hi
            rw [hr.2 (fromPos + i)]
            unfold byteAt
            rw [if_neg (by omega), if_pos ⟨hb2.1, by omega⟩]
            congr 1
            omega
          rw [hdata, flatRead_append, show toRead + (size - toRead) = size by omega]
        · rw [if_neg hb2]
          have hcov : ¬t.Covered fromPos := by
            intro hc
            rcases hc with hc | hc
            · exact hb1 ⟨hc.1, lt_end_1 t h fromPos hlt hc.2⟩
            · exact hb2 ⟨hc.1, hc.2.1, lt_end_2 t h hc.1 fromPos hlt hc.2.2⟩
          obtain ⟨t1, hfill, hinv1, hr1, hcov1, hk1, hk2, hk3, hk4⟩ :=
            FillCache_spec t l fromPos h hr (by omega) hcov
          rw [hfill]
          dsimp only
          have hfl := hfuel2 hcov
          obtain ⟨t2, hloop, hinv2, hr2, hC2, hS2, hf2, hc2⟩ := ih t1 l fromPos size hinv1 hr1
            hrange (by omega) (by omega) (fun hncov => absurd hcov1 hncov)
          refine ⟨t2, hloop, hinv2, hr2, by omega, by omega, ?_, fun hh => hc2 (hk4 hh)⟩
          intro hnone
          have := no_file_Size_le t h hnone
          exact hf2 (hk3 (by omega) hnone)
    · rw [if_neg hn]
      have hz : size = 0 := by omega
      subst hz
      exact ⟨t, by simp [flatRead], h, hr, rfl, rfl, fun hh => hh, fun hh => hh⟩

/-- `TemporalContainer::Read` of a range inside the container. -/
theorem Read_refines (t : TemporalContainer) (l : List Byte) (fromPos size : Nat)
    (h : t.Inv) (hr : t.Refines l) (hrange : fromPos + size ≤ l.length) :
    ∃ t2, t.Read fromPos size = .ok (t2, flatRead l fromPos size) ∧ t2.Inv ∧ t2.Refines l ∧
      t2.mCacheSize = t.mCacheSize ∧ t2.mMaxFileSize = t.mMaxFileSize ∧
      (t.mFileContainer = none → t2.mFileContainer = none) ∧
      (t.mCache_2.isSome → t2.mCache_2.isSome) := by
  unfold Read
  rw [if_neg (by
    have := Nat.mod_le (fromPos + size) (2 ^ 64)
    rw [← hr.1]; omega)]
  exact ReadLoop_spec _ t l fromPos size h hr hrange (by omega) (by omega) (fun _ => by omega)

end TemporalContainer
end pastra
end whais

namespace whais
namespace pastra
namespace TemporalContainer

theorem flatColapse_getElem? (l : List Byte) (a b q : Nat) (hab : a ≤ b) (hb : b ≤ l.length) :
    (flatColapse l a b)[q]? = if q < a then l[q]? else l[q + (b - a)]? := by
  by_cases hq : q < a
  · rw [if_pos hq, flatColapse, List.getElem?_append_left (by rw [List.length_take]; omega),
      List.getElem?_take_of_lt hq]
  · rw [if_neg hq, flatColapse]
    have hl : (l.take a).length = a := by rw [List.length_take]; omega
    rw [List.getElem?_append_right (by omega), hl, List.getElem?_drop]
    congr 1
    omega

/-- One turn of a copy loop that moves the bytes after `toPos` down to
`fromPos`, on flat byte arrays. -/
theorem shift_step (X : List Byte) (fromPos toPos s : Nat) (hft : fromPos ≤ toPos)
    (hs : toPos + s ≤ X.length) :
    (flatWrite X fromPos (flatRead X toPos s)).take (fromPos + s)
      ++ (flatWrite X fromPos (flatRead X toPos s)).drop (toPos + s)
      = X.take fromPos ++ X.drop toPos := by
  have hrl := FileContainer.flatRead_length X toPos s hs
  have ht : (X.take fromPos).length = fromPos := by rw [List.length_take]; omega
  have ht2 : (X.take fromPos ++ flatRead X toPos s).length = fromPos + s := by
    rw [List.length_append, ht, hrl]
  unfold flatWrite
  rw [hrl, List.take_left' ht2]
  rw [show toPos + s = (X.take fromPos ++ flatRead X toPos s).length + (toPos - fromPos) by
    rw [ht2]; omega]
  rw [List.drop_append, List.drop_drop, List.append_assoc]
  congr 1
  rw [show fromPos + s + (toPos - fromPos) = toPos + s by omega]
  unfold flatRead
  rw [← List.drop_drop, List.take_append_drop]

theorem Refines_unique (t : TemporalContainer) (l l2 : List Byte) (h : t.Refines l)
    (h2 : t.Refines l2) : l = l2 := by
  apply List.ext_getElem?
  intro q
  rw [h.2 q, h2.2 q]

/-- Over clean caches the container represents the bytes of the spill file. -/
theorem Refines_of_clean (t : TemporalContainer) (file : FileContainer) (h : t.Inv)
    (hf : t.mFileContainer = some file) (hd1 : t.mDirtyCache_1 = false)
    (hd2 : t.mDirtyCache_2 = false) : t.Refines file.Content := by
  obtain ⟨cache_2, hc2, hl2, hS', hinv, hF, hne, ⟨a1, a2, a3, a4, a5, a6⟩,
    ⟨b1, b2, b3, b4, b5, b6⟩⟩ := Inv3_of_file t h file hf
  obtain ⟨a7, a8⟩ := a6 hd1
  obtain ⟨b7, b8⟩ := b6 hd2
  constructor
  · rw [Size_of_file t file hf hinv]; omega
  · intro q
    unfold byteAt
    rw [hf, hc2]
    simp only [Option.isSome_some, true_and, Option.getD_some]
    by_cases hA : t.mCacheStartPos_1 ≤ q ∧ q < t.mCacheEndPos_1
    · rw [if_pos hA, a8 q hA.1 hA.2]
    · rw [if_neg hA]
      by_cases hB : t.mCacheStartPos_2 ≤ q ∧ q < t.mCacheEndPos_2
      · rw [if_pos hB, b8 q hB.1 hB.2]
      · rw [if_neg hB]

/-- `ColapseContent` in state 1: the bytes move inside the first cache. -/
theorem ColapseContent_state1 (t : TemporalContainer) (l : List Byte) (fromPos toPos : Nat)
    (h : t.Inv) (h1 : t.Inv1) (hr : t.Refines l) (hft : fromPos ≤ toPos)
    (hto : toPos ≤ l.length) (hA : t.Size = 0 ∨ t.mDirtyCache_1 = true) :
    ∃ t2, t.ColapseContent fromPos toPos t.Size = .ok t2 ∧ t2.Inv ∧
      t2.Refines (flatColapse l fromPos toPos) ∧ t2.mFileContainer = none ∧
      t2.mCacheSize = t.mCacheSize ∧ t2.mMaxFileSize = t.mMaxFileSize := by
  obtain ⟨hC, hS, hc1, -⟩ := h
  obtain ⟨hf, hc2, hs1, he1, hs2, he2⟩ := h1
  obtain ⟨hsize, hbytes⟩ := hr
  have hsz := Size_of_none t hf
  obtain ⟨fo, cache_1, c2o, s1, e1, s2, e2, C, d1, d2, lu, S⟩ := t
  dsimp only at *
  subst hf hc2 hs1 hs2 he2
  have hn : l.length = e1 := by rw [hsize, hsz]; omega
  have hsrc : ((cache_1.drop toPos).take (e1 - toPos)).length = e1 - toPos := by
    rw [List.length_take, List.length_drop]; omega
  have hml : (memcpy cache_1 fromPos ((cache_1.drop toPos).take (e1 - toPos))).length = C := by
    rw [memcpy_length _ _ _ (by rw [hsrc]; omega), hc1]
  refine ⟨_, by
    unfold ColapseContent
    simp only [Option.isSome_none, Bool.false_eq_true, if_false]
    rw [if_pos ⟨by rw [hsz]; omega, hA⟩], ?_, ⟨?_, ?_⟩, ?_, ?_, ?_⟩
  · exact ⟨hC, hS, hml, Or.inl ⟨rfl, rfl, rfl, by dsimp only; omega, rfl, rfl⟩⟩
  · rw [FileContainer.flatColapse_length _ _ _ hft hto]
    unfold Size
    dsimp only
    omega
  · intro q
    rw [flatColapse_getElem? _ _ _ _ hft hto]
    unfold byteAt
    simp only [Option.isSome_none, Bool.false_eq_true, false_and, if_false, Nat.sub_zero]
    have hby : ∀ r, r < e1 → l[r]? = cache_1[r]? := by
      intro r hr'
      rw [hbytes r]
      unfold byteAt
      dsimp only
      rw [if_pos (by omega), Nat.sub_zero]
    by_cases hq : q < fromPos
    · rw [if_pos hq, if_pos (by omega), memcpy_getElem? _ _ _ (by omega), if_neg (by omega),
        hby q (by omega)]
    · rw [if_neg hq]
      by_cases hq2 : q < e1 - (toPos - fromPos)
      · rw [if_pos (by omega), memcpy_getElem? _ _ _ (by omega), hsrc, if_pos (by omega),
          List.getElem?_take_of_lt (by omega), List.getElem?_drop, hby _ (by omega)]
        congr 1
        omega
      · rw [if_neg (by omega), List.getElem?_eq_none (by omega)]
  · rfl
  · rfl
  · rfl

end TemporalContainer
end pastra
end whais

namespace whais
namespace pastra
namespace TemporalContainer

/-- The copy loop of `Colapse` in state 2 (two caches, no spill file). -/
theorem ColapseLoop_refines (fuel : Nat) : ∀ (t : TemporalContainer) (l : List Byte)
    (fromPos toPos : Nat), t.Inv → t.Refines l → t.mFileContainer = none →
    t.mCache_2.isSome → fromPos ≤ toPos → toPos ≤ l.length → l.length - toPos < fuel →
    ∃ t2 l2, ColapseLoop fuel t fromPos toPos l.length = .ok t2 ∧ t2.Inv ∧ t2.Refines l2 ∧
      l2.length = l.length ∧
      l2.take (fromPos + (l.length - toPos)) = l.take fromPos ++ l.drop toPos ∧
      t2.mFileContainer = none ∧ t2.mCache_2.isSome ∧
      t2.mCacheSize = t.mCacheSize ∧ t2.mMaxFileSize = t.mMaxFileSize := by
  induction fuel with
  | zero => intro t l fromPos toPos _ _ _ _ _ _ h; omega
  | succ fuel ih =>
    intro t l fromPos toPos h hr hf hc hft hto hfuel
    rw [ColapseLoop]
    by_cases hlt : toPos < l.length
    · rw [if_pos hlt]
      generalize hs : (if toPos + 128 > l.length then l.length - toPos else 128) = s
      have hs1 : toPos + s ≤ l.length := by rw [← hs]; split <;> omega
      have hs0 : 0 < s := by rw [← hs]; split <;> omega
      dsimp only
      obtain ⟨t1, hread, hinv1, hr1, hC1, hS1, hf1, hc1⟩ := Read_refines t l toPos s h hr hs1
      have hrl := FileContainer.flatRead_length l toPos s hs1
      have hsz := no_file_Size_le t h hf
      obtain ⟨t2, hwrite, hinv2, hr2, hC2, hS2, hf2, hc2⟩ := Write_refines t1 l fromPos
        (flatRead l toPos s) hinv1 hr1 (by omega)
      have hl2 : (flatWrite l fromPos (flatRead l toPos s)).length = l.length := by
        rw [flatWrite_length _ _ _ (by omega), hrl]; omega
      rw [hread]
      dsimp only
      rw [hwrite]
      dsimp only
      obtain ⟨t3, l3, hloop, hinv3, hr3, hl3, htake, hf3, hc3, hC3, hS3⟩ := ih t2
        (flatWrite l fromPos (flatRead l toPos s)) (fromPos + s) (toPos + s) hinv2 hr2
        (hf2 (by rw [hrl, hC1, ← hr.1] at *; omega) (hf1 hf)) (hc2 (hc1 hc)) (by omega)
        (by omega) (by omega)
      rw [hl2] at hloop hl3 htake
      refine ⟨t3, l3, hloop, hinv3, hr3, hl3, ?_, hf3, hc3, by omega, by omega⟩
      rw [show fromPos + (l.length - toPos) = fromPos + s + (l.length - (toPos + s)) by omega,
        htake, shift_step l fromPos toPos s hft hs1]
    · rw [if_neg hlt]
      refine ⟨t, l, rfl, h, hr, rfl, ?_, hf, hc, rfl, rfl⟩
      have : toPos = l.length := by omega
      rw [this, Nat.sub_self, Nat.add_zero, List.drop_length, List.append_nil]

end TemporalContainer
end pastra
end whais

namespace whais
namespace pastra
namespace TemporalContainer

theorem take_getElem? (l : List Byte) (n q : Nat) :
    (l.take n)[q]? = if q < n then l[q]? else none := by
  by_cases h : q < n
  · rw [if_pos h, List.getElem?_take_of_lt h]
  · rw [if_neg h, List.getElem?_eq_none]
    rw [List.length_take]; omega

/-- `ColapseContent` in state 2: the bytes are copied through the caches, and
the second cache is dropped when the first one holds what is left. -/
theorem ColapseContent_state2 (t : TemporalContainer) (l : List Byte) (fromPos toPos : Nat)
    (h : t.Inv) (hf : t.mFileContainer = none) (hc : t.mCache_2.isSome) (hr : t.Refines l)
    (hft : fromPos ≤ toPos) (hto : toPos ≤ l.length) :
    ∃ t2, t.ColapseContent fromPos toPos t.Size = .ok t2 ∧ t2.Inv ∧
      t2.Refines (flatColapse l fromPos toPos) ∧ t2.mFileContainer = none ∧
      t2.mCacheSize = t.mCacheSize ∧ t2.mMaxFileSize = t.mMaxFileSize := by
  obtain ⟨t1, l1, hloop, hinv1, hr1, hl1, htake, hf1, hc1, hC1, hS1⟩ :=
    ColapseLoop_refines (l.length - toPos + 1) t l fromPos toPos h hr hf hc hft hto (by omega)
  have hcol : flatColapse l fromPos toPos = l1.take (fromPos + (l.length - toPos)) := by
    rw [htake]; rfl
  have hstart : t.ColapseContent fromPos toPos t.Size
      = (let t2 : TemporalContainer :=
          { t1 with mCacheEndPos_2 := t1.mCacheEndPos_2 - (toPos - fromPos) }
        if t2.mCacheEndPos_2 ≤ t2.mCacheSize then
          .ok { t2 with
            mCacheEndPos_1 := t2.mCacheEndPos_2
            mCacheStartPos_2 := 0
            mCacheEndPos_2 := 0
            mCache_2 := none
            mCache1LastUsed := true }
        else .ok t2) := by
    have hInv2t : t.Inv2 := by
      rcases h.2.2.2 with i1 | i2 | i3
      · rw [i1.2.1] at hc; cases hc
      · exact i2
      · obtain ⟨file, -, hff, -⟩ := i3
        rw [hf] at hff; cases hff
    have hszt := Size_of_none t hf
    have hend1 : toPos ≤ t1.mCacheEndPos_2 := by
      have hInv2 : t1.Inv2 := by
        rcases hinv1.2.2.2 with i1 | i2 | i3
        · rw [i1.2.1] at hc1; cases hc1
        · exact i2
        · obtain ⟨file, -, hff, -⟩ := i3
          rw [hf1] at hff; cases hff
      have := Size_of_none t1 hf1
      have := hr1.1
      obtain ⟨-, -, -, a1, -, a2, -⟩ := hInv2
      omega
    unfold ColapseContent
    rw [hf]
    dsimp only
    rw [if_pos hc, if_pos ⟨hInv2t.2.2.1, hInv2t.2.2.2.1, hInv2t.2.2.2.2.1, hInv2t.2.2.2.2.2.2, by
      obtain ⟨-, -, -, a1, -, a2, -⟩ := hInv2t
      omega⟩, ← hr.1, hloop]
    dsimp only
    rw [if_pos hend1]
  rw [hstart, hcol]
  clear hstart hcol hloop
  obtain ⟨hC, hS, hc1', hstate⟩ := hinv1
  have hInv2 : t1.Inv2 := by
    rcases hstate with h1 | h2 | h3
    · rw [h1.2.1] at hc1; cases hc1
    · exact h2
    · obtain ⟨file, -, hff, -⟩ := h3
      rw [hf1] at hff; cases hff
  obtain ⟨-, ⟨cache_2, hc2, hl2⟩, hs1, he1, hs2, he2, he2'⟩ := hInv2
  obtain ⟨hsize1, hbytes1⟩ := hr1
  have hsz := Size_of_none t1 hf1
  obtain ⟨fo, cache_1, c2o, s1, e1, s2, e2, C, d1, d2, lu, S⟩ := t1
  dsimp only at *
  subst hf1 hc2 hs1
  have hs2b := hs2.symm
  have he1b := he1.symm
  subst hs2b
  subst he1b
  have hn : e2 = l.length := by omega
  have hby : ∀ q, q < e2 → l1[q]? = if q < C then cache_1[q]? else cache_2[q - C]? := by
    intro q hq
    rw [hbytes1 q]
    unfold byteAt
    simp only [Option.isSome_some, true_and, Option.getD_some, Nat.sub_zero]
    by_cases hqC : q < C
    · rw [if_pos ⟨Nat.zero_le _, hqC⟩, if_pos hqC]
    · rw [if_neg (by omega), if_pos (by omega), if_neg hqC]
  by_cases hsmall : e2 - (toPos - fromPos) ≤ C
  · rw [if_pos hsmall]
    refine ⟨_, rfl, ?_, ⟨?_, ?_⟩, rfl, hC1, hS1⟩
    · exact ⟨hC, hS, hc1', Or.inl ⟨rfl, rfl, rfl, hsmall, rfl, rfl⟩⟩
    · rw [List.length_take]
      unfold Size
      dsimp only
      omega
    · intro q
      rw [take_getElem?]
      unfold byteAt
      simp only [Option.isSome_none, Bool.false_eq_true, false_and, if_false, Nat.sub_zero]
      by_cases hq : q < fromPos + (l.length - toPos)
      · rw [if_pos hq, if_pos (by omega), hby q (by omega), if_pos (by omega)]
      · rw [if_neg hq, if_neg (by omega)]
  · rw [if_neg hsmall]
    refine ⟨_, rfl, ?_, ⟨?_, ?_⟩, rfl, hC1, hS1⟩
    · exact ⟨hC, hS, hc1', Or.inr (Or.inl ⟨rfl, ⟨_, rfl, hl2⟩, rfl, rfl, rfl, by dsimp only; omega,
        by dsimp only; omega⟩)⟩
    · rw [List.length_take]
      unfold Size
      dsimp only
      omega
    · intro q
      rw [take_getElem?]
      unfold byteAt
      simp only [Option.isSome_some, true_and, Option.getD_some, Nat.sub_zero]
      by_cases hq : q < fromPos + (l.length - toPos)
      · rw [if_pos hq, hby q (by omega)]
        by_cases hqC : q < C
        · rw [if_pos hqC, if_pos ⟨Nat.zero_le _, hqC⟩]
        · rw [if_neg hqC, if_neg (by omega), if_pos (by omega)]
      · rw [if_neg hq, if_neg (by omega), if_neg (by omega)]

end TemporalContainer
end pastra
end whais


namespace whais
namespace pastra
namespace TemporalContainer

/-- The end of `Colapse` over a spill file that holds `F`: either the file is
dropped and the caches hold `F`, or both caches are filled again from it. -/
theorem ColapseRefill_spec (t : TemporalContainer) (file : FileContainer) (cache_2 : List Byte)
    (fromPos : Nat) (hC : 0 < t.mCacheSize) (hS : 0 < t.mMaxFileSize % 2 ^ 32)
    (hc1 : t.mCache_1.length = t.mCacheSize) (hf : t.mFileContainer = some file)
    (hc2 : t.mCache_2 = some cache_2) (hl2 : cache_2.length = t.mCacheSize)
    (hfS : 0 < file.mMaxFileUnitSize) (hinv : file.UnitSizeInvariant)
    (hd1 : t.mDirtyCache_1 = false) (hd2 : t.mDirtyCache_2 = false)
    (hfrom : fromPos ≤ file.Content.length) :
    ∃ t2, t.ColapseRefill fromPos = .ok t2 ∧ t2.Inv ∧ t2.Refines file.Content ∧
      t2.mCacheSize = t.mCacheSize ∧ t2.mMaxFileSize = t.mMaxFileSize := by
  have hsize := FileContainer.Size_eq_length file hinv
  obtain ⟨fo, cache_1, c2o, s1, e1, s2, e2, C, d1, d2, lu, S⟩ := t
  dsimp only at *
  subst hf hc2 hd1 hd2
  unfold ColapseRefill
  dsimp only
  simp only [Option.getD_some]
  rw [hsize]
  by_cases hsmall : file.Content.length ≤ 2 * C
  · rw [if_pos hsmall]
    by_cases hmid : file.Content.length > C
    · rw [if_pos hmid]
      simp only [Option.isSome_some, if_true]
      have hread2 := FileContainer.Read_spec file C (file.Content.length - C) hfS hinv
        (by rw [hsize]; omega)
      have hread1 := FileContainer.Read_spec file 0 (min file.Content.length C - 0) hfS hinv
        (by rw [hsize]; omega)
      rw [hread2]
      dsimp only
      rw [hread1]
      dsimp only
      have hmin : min file.Content.length C = C := by omega
      have hdl1 : (flatRead file.Content 0 (min file.Content.length C - 0)).length = C := by
        rw [FileContainer.flatRead_length _ _ _ (by omega)]; omega
      have hdl2 : (flatRead file.Content C (file.Content.length - C)).length
          = file.Content.length - C := FileContainer.flatRead_length _ _ _ (by omega)
      refine ⟨_, rfl, ?_, ⟨?_, ?_⟩, rfl, rfl⟩
      · refine ⟨hC, hS, by dsimp only; rw [memcpy_length _ _ _ (by omega), hc1],
          Or.inr (Or.inl ⟨rfl, ⟨_, rfl, by rw [memcpy_length _ _ _ (by omega), hl2]⟩, rfl, ?_, rfl,
            ?_, ?_⟩)⟩
        · dsimp only; omega
        · dsimp only; omega
        · dsimp only; omega
      · unfold Size
        dsimp only
        omega
      · intro q
        rw [Nat.sub_zero] at hdl1
        unfold byteAt
        simp only [Option.isSome_some, true_and, Option.getD_some, Nat.sub_zero]
        by_cases hq : q < C
        · rw [if_pos (by omega), memcpy_zero_getElem? _ _ _ (by omega), flatRead_getElem?,
            if_pos (by omega), Nat.zero_add]
        · rw [if_neg (by omega)]
          by_cases hq2 : q < file.Content.length
          · rw [if_pos (by omega), memcpy_zero_getElem? _ _ _ (by omega), flatRead_getElem?,
              if_pos (by omega)]
            congr 1
            omega
          · rw [if_neg (by omega), List.getElem?_eq_none (by omega)]
    · rw [if_neg hmid]
      simp only [Option.isSome_some, if_true]
      have hread1 := FileContainer.Read_spec file 0 (min file.Content.length C - 0) hfS hinv
        (by rw [hsize]; omega)
      rw [hread1]
      dsimp only
      have hmin : min file.Content.length C = file.Content.length := by omega
      have hdl1 : (flatRead file.Content 0 (min file.Content.length C - 0)).length
          = file.Content.length := by
        rw [FileContainer.flatRead_length _ _ _ (by omega)]; omega
      refine ⟨_, rfl, ?_, ⟨?_, ?_⟩, rfl, rfl⟩
      · exact ⟨hC, hS, by dsimp only; rw [memcpy_length _ _ _ (by omega), hc1],
          Or.inl ⟨rfl, rfl, rfl, by dsimp only; omega, rfl, rfl⟩⟩
      · unfold Size
        dsimp only
        omega
      · intro q
        rw [Nat.sub_zero] at hdl1
        unfold byteAt
        simp only [Option.isSome_none, Bool.false_eq_true, false_and, if_false, Nat.sub_zero]
        by_cases hq : q < file.Content.length
        · rw [if_pos (by omega), memcpy_zero_getElem? _ _ _ (by omega), flatRead_getElem?,
            if_pos (by omega), Nat.zero_add]
        · rw [if_neg (by omega), List.getElem?_eq_none (by omega)]
  · rw [if_neg hsmall, if_pos (by simp), if_neg (by omega)]
    generalize hP : (if fromPos - fromPos % C = 0 then C else fromPos - fromPos % C) = P
    obtain ⟨hal1, hal2, hal3⟩ := align_down C fromPos hC
    have hP0 : P % C = 0 := by
      rw [← hP]; split
      · exact Nat.mod_self C
      · exact hal1
    have hPC : C ≤ P := by
      rw [← hP]; split
      · exact Nat.le_refl _
      · rename_i hne
        have := aligned_gap (C := C) (a := 0) (b := fromPos - fromPos % C) (Nat.zero_mod C) hal1
          (by omega)
        omega
    have hPF : P ≤ file.Content.length := by
      rw [← hP]; split <;> omega
    have hread1 := FileContainer.Read_spec file 0 (C - 0) hfS hinv (by rw [hsize]; omega)
    have hread2 := FileContainer.Read_spec file P (min file.Content.length (P + C) - P) hfS hinv
      (by rw [hsize]; omega)
    rw [hread1]
    dsimp only
    rw [hread2]
    dsimp only
    have e1' : C - 0 = min C (file.Content.length - 0) := by omega
    have e2' : min file.Content.length (P + C) - P = min C (file.Content.length - P) := by omega
    have e3' : min file.Content.length (P + C)
        = P + (min file.Content.length (P + C) - P) := by omega
    have ok1 := CacheOk_load (C := C) file.Content 0 cache_1 (Nat.zero_mod C) (Nat.zero_le _)
    have ok2 := CacheOk_load (C := C) file.Content P cache_2 hP0 hPF
    rw [← e1'] at ok1
    rw [← e2'] at ok2
    rw [← e3'] at ok2
    have hC0 : 0 + (C - 0) = C := by omega
    rw [hC0] at ok1
    have hdl1 : (flatRead file.Content 0 (C - 0)).length = C - 0 :=
      FileContainer.flatRead_length _ _ _ (by omega)
    have hdl2 : (flatRead file.Content P (min file.Content.length (P + C) - P)).length
        = min file.Content.length (P + C) - P := FileContainer.flatRead_length _ _ _ (by omega)
    have hne : (0 : Nat) ≠ P := by omega
    have hinvR : Inv ⟨some file, memcpy cache_1 0 (flatRead file.Content 0 (C - 0)),
        some (memcpy cache_2 0 (flatRead file.Content P (min file.Content.length (P + C) - P))),
        0, C, P, min file.Content.length (P + C), C, false, false, false, S⟩ :=
      ⟨hC, hS, by dsimp only; rw [memcpy_length _ _ _ (by omega), hc1],
        Or.inr (Or.inr ⟨file, _, rfl, rfl, by rw [memcpy_length _ _ _ (by omega), hl2], hfS, hinv,
          by dsimp only; omega, hne, ok1, ok2⟩)⟩
    exact ⟨_, rfl, hinvR, Refines_of_clean _ file hinvR rfl rfl rfl, rfl, rfl⟩

end TemporalContainer
end pastra
end whais

namespace whais
namespace pastra
namespace TemporalContainer

/-- Without a spill file the second part of `Colapse` does nothing. -/
theorem ColapseRefill_none (t : TemporalContainer) (fromPos : Nat)
    (hf : t.mFileContainer = none) : t.ColapseRefill fromPos = .ok t := by
  unfold ColapseRefill
  rw [hf]

/-- The first part of `Colapse` over a spill file: both caches are written back
and the bytes are removed from the file, unless the count of the units left or
the size of the last one does not fit the `int` variables of
`FileContainer::Colapse`. -/
theorem ColapseContent_state3 (t : TemporalContainer) (l : List Byte) (file : FileContainer)
    (fromPos toPos n : Nat) (h : t.Inv) (hf : t.mFileContainer = some file) (hr : t.Refines l)
    (hft : fromPos ≤ toPos) (hto : toPos ≤ l.length) :
    (∃ t2 file2 cache_2, t.ColapseContent fromPos toPos n = .ok t2 ∧
      t2.mFileContainer = some file2 ∧ t2.mCache_2 = some cache_2 ∧
      cache_2.length = t.mCacheSize ∧ t2.mCache_1.length = t.mCacheSize ∧
      0 < file2.mMaxFileUnitSize ∧ file2.UnitSizeInvariant ∧
      file2.Content = flatColapse l fromPos toPos ∧
      t2.mDirtyCache_1 = false ∧ t2.mDirtyCache_2 = false ∧
      t2.mCacheSize = t.mCacheSize ∧ t2.mMaxFileSize = t.mMaxFileSize) ∨
    t.ColapseContent fromPos toPos n = .error .UNDEFINED := by
  obtain ⟨fo, cache_1, c2o, s1, e1, s2, e2, C, d1, d2, lu, S⟩ := t
  dsimp only at hf
  subst hf
  obtain ⟨f1, hfl1, hinv1, hr1, -, -⟩ := FlushCache_1_spec _ l file h hr rfl
  dsimp only at hfl1 hinv1 hr1
  obtain ⟨f2, hfl2, hinv2, hr2, -, -⟩ := FlushCache_2_spec _ l f1 hinv1 hr1 rfl
  dsimp only at hfl2 hinv2 hr2
  obtain ⟨cache_2, hc2, hl2, hS2, hu2, -, -, -, -⟩ := Inv3_of_file _ hinv2 f2 rfl
  dsimp only at hc2 hl2
  have hclean := Refines_of_clean _ f2 hinv2 rfl rfl rfl
  have hl : l = f2.Content := Refines_unique _ _ _ hr2 hclean
  have hsz := FileContainer.Size_eq_length f2 hu2
  have hc1 : cache_1.length = C := hinv2.2.2.1
  have hstart : ColapseContent ⟨some file, cache_1, c2o, s1, e1, s2, e2, C, d1, d2, lu, S⟩
      fromPos toPos n
      = (match f2.Colapse fromPos toPos with
        | .error e => .error e.1
        | .ok file3 =>
          .ok ⟨some file3, cache_1, c2o, s1, e1, s2, e2, C, false, false, lu, S⟩) := by
    unfold ColapseContent
    dsimp only
    rw [if_pos (by rw [hc2]; rfl), hfl1]
    dsimp only
    rw [hfl2] <;> rfl
  rw [hstart]
  by_cases hfit : fromPos < toPos → f2.FitsInt fromPos toPos
  · left
    obtain ⟨f3, hcol, hS3, hu3, hcont3⟩ := FileContainer.Colapse_spec f2 fromPos toPos hS2 hu2 hft
      (by rw [hsz, ← hl]; exact hto) hfit
    refine ⟨⟨some f3, cache_1, c2o, s1, e1, s2, e2, C, false, false, lu, S⟩, f3, cache_2, ?_, rfl,
      hc2, hl2, hc1, by rw [hS3]; exact hS2, hu3, by rw [hcont3, ← hl], rfl, rfl, rfl, rfl⟩
    rw [hcol]
  · right
    have hlt : fromPos < toPos := by
      by_cases c : fromPos < toPos
      · exact c
      · exact absurd (fun c2 => absurd c2 c) hfit
    obtain ⟨c1, hcol⟩ := FileContainer.Colapse_unfit f2 fromPos toPos hS2 hu2 hlt
      (by rw [hsz, ← hl]; exact hto) (fun c => hfit (fun _ => c))
    rw [hcol]

/-- In state 1 the assertion `(containerSize == 0) || mDirtyCache_1` of `Colapse`
fails on a container that holds bytes and whose first cache is not dirty. -/
theorem Colapse_clean_cache (t : TemporalContainer) (fromPos toPos : Nat)
    (hf : t.mFileContainer = none) (hc : t.mCache_2 = none)
    (hA : ¬ (t.Size = 0 ∨ t.mDirtyCache_1 = true)) (hft : fromPos ≤ toPos)
    (hto : toPos ≤ t.Size) : t.Colapse fromPos toPos = .error .UNDEFINED := by
  unfold Colapse
  dsimp only
  rw [if_neg (by omega)]
  unfold ColapseContent
  rw [hf]
  dsimp only
  rw [hc]
  simp only [Option.isSome_none, Bool.false_eq_true, if_false]
  rw [if_neg (fun c => hA c.2)]

/-- A `Colapse(fromPos, toPos)` with `fromPos ≤ toPos ≤ |l|` that returns, on a
container that represents `l`: the container then represents `l` without its
bytes `[fromPos, toPos)`. -/
theorem Colapse_refines (t t2 : TemporalContainer) (l : List Byte) (fromPos toPos : Nat)
    (h : t.Inv) (hr : t.Refines l) (hft : fromPos ≤ toPos) (hto : toPos ≤ l.length)
    (hrun : t.Colapse fromPos toPos = .ok t2) :
    t2.Inv ∧ t2.Refines (flatColapse l fromPos toPos) ∧
      t2.mCacheSize = t.mCacheSize ∧ t2.mMaxFileSize = t.mMaxFileSize := by
  have hsize := hr.1
  have hrun0 := hrun
  unfold Colapse at hrun
  dsimp only at hrun
  rw [if_neg (by omega)] at hrun
  cases hfc : t.mFileContainer with
  | none =>
    have hcontent : ∃ t2, t.ColapseContent fromPos toPos t.Size = .ok t2 ∧ t2.Inv ∧
        t2.Refines (flatColapse l fromPos toPos) ∧ t2.mFileContainer = none ∧
        t2.mCacheSize = t.mCacheSize ∧ t2.mMaxFileSize = t.mMaxFileSize := by
      cases hc : t.mCache_2 with
      | none =>
        have hA : t.Size = 0 ∨ t.mDirtyCache_1 = true := by
          by_cases c : t.Size = 0 ∨ t.mDirtyCache_1 = true
          · exact c
          · rw [Colapse_clean_cache t fromPos toPos hfc hc c hft (by omega)] at hrun0
            cases hrun0
        obtain ⟨hC, hS, hc1, h1 | h2 | h3⟩ := h
        · exact ColapseContent_state1 t l fromPos toPos ⟨hC, hS, hc1, Or.inl h1⟩ h1 hr hft hto hA
        · obtain ⟨-, ⟨c2, hc2, -⟩, -⟩ := h2
          rw [hc] at hc2
          exact absurd hc2 (by simp)
        · obtain ⟨f, c2, hf, -⟩ := h3
          rw [hfc] at hf
          exact absurd hf (by simp)
      | some c2 =>
        exact ColapseContent_state2 t l fromPos toPos h hfc (by rw [hc]; rfl) hr hft hto
    obtain ⟨t3, hcc, hinv2, hr2, hf2, hC2, hS2⟩ := hcontent
    rw [hcc] at hrun
    dsimp only at hrun
    rw [ColapseRefill_none t3 fromPos hf2] at hrun
    cases hrun
    exact ⟨hinv2, hr2, hC2, hS2⟩
  | some file =>
    rcases ColapseContent_state3 t l file fromPos toPos t.Size h hfc hr hft hto with
      ⟨t3, file2, cache_2, hcc, hf2, hc2, hl2, hc1, hS2, hu2, hcont, hd1, hd2, hC2, hS2'⟩ | herr
    · rw [hcc] at hrun
      dsimp only at hrun
      have hlen := FileContainer.flatColapse_length l fromPos toPos hft hto
      obtain ⟨t4, hre, hinv3, hr3, hC3, hS3⟩ := ColapseRefill_spec t3 file2 cache_2 fromPos
        (by rw [hC2]; exact h.1) (by rw [hS2']; exact h.2.1) (by rw [hC2]; exact hc1) hf2 hc2
        (by rw [hC2]; exact hl2) hS2 hu2 hd1 hd2 (by rw [hcont, hlen]; omega)
      rw [hre] at hrun
      cases hrun
      rw [hcont] at hr3
      exact ⟨hinv3, hr3, by rw [hC3, hC2], by rw [hS3, hS2']⟩
    · rw [herr] at hrun
      cases hrun

/-- A new container is in state 1. -/
theorem New_Inv (reservedMemory maxFileSize : Nat) (hC : 0 < reservedMemory / 2)
    (hS : 0 < maxFileSize % 2 ^ 32) : (New reservedMemory maxFileSize).Inv :=
  ⟨hC, hS, List.length_replicate _ _, Or.inl ⟨rfl, rfl, rfl, Nat.zero_le _, rfl, rfl⟩⟩

/-- A new container represents the empty byte array. -/
theorem New_Refines (reservedMemory maxFileSize : Nat) :
    (New reservedMemory maxFileSize).Refines [] := by
  constructor
  · rfl
  · intro p
    unfold byteAt New
    simp

end TemporalContainer
end pastra
end whais

namespace whais
namespace pastra
namespace TemporalContainer

/-- One call within bounds that returns, on a container that represents `l`:
it shows what the flat byte array shows, and leaves a container that represents
the array after the call. A `Write` and a `Read` within bounds always return. -/
theorem call_refines (t t2 : TemporalContainer) (l : List Byte) (op : Op) (o : Observation)
    (h : t.Inv) (hr : t.Refines l) (hb : op.InBounds l) (hrun : t.call op = .ok (t2, o)) :
    o = (flatCall l op).2 ∧ t2.Inv ∧ t2.Refines (flatCall l op).1 := by
  cases op with
  | Write toPos buffer =>
    obtain ⟨t3, hw, hinv2, hr2, -⟩ := Write_refines t l toPos buffer h hr hb
    simp only [call, flatCall] at hrun ⊢
    rw [hw] at hrun
    dsimp only at hrun
    cases hrun
    exact ⟨by rw [hr2.1], hinv2, hr2⟩
  | Read fromPos size =>
    obtain ⟨t3, hrd, hinv2, hr2, -⟩ := Read_refines t l fromPos size h hr hb
    simp only [call, flatCall] at hrun ⊢
    rw [hrd] at hrun
    dsimp only at hrun
    cases hrun
    exact ⟨by rw [hr2.1], hinv2, hr2⟩
  | Colapse fromPos toPos =>
    simp only [call, flatCall] at hrun ⊢
    cases hc : t.Colapse fromPos toPos with
    | error e =>
      rw [hc] at hrun
      cases hrun
    | ok t3 =>
      obtain ⟨hinv2, hr2, -⟩ := Colapse_refines t t3 l fromPos toPos h hr hb.1 hb.2 hc
      rw [hc] at hrun
      dsimp only at hrun
      cases hrun
      exact ⟨by rw [hr2.1], hinv2, hr2⟩

/-- A sequence of calls within bounds that returns, on a container that
represents `l`, shows what the same calls show on the flat byte array. -/
theorem run_refines (ops : List Op) : ∀ (t : TemporalContainer) (l : List Byte)
    (obs : List Observation), t.Inv → t.Refines l → AllInBounds l ops →
    t.run ops = .ok obs → obs = flatRun l ops := by
  induction ops with
  | nil =>
    intro t l obs _ _ _ hrun
    cases hrun
    rfl
  | cons op ops ih =>
    intro t l obs h hr hb hrun
    unfold run at hrun
    cases hcall : t.call op with
    | error e =>
      rw [hcall] at hrun
      cases hrun
    | ok r =>
      obtain ⟨t2, o⟩ := r
      rw [hcall] at hrun
      dsimp only at hrun
      obtain ⟨ho, hinv2, hr2⟩ := call_refines t t2 l op o h hr hb.1 hcall
      cases hrest : t2.run ops with
      | error e =>
        rw [hrest] at hrun
        cases hrun
      | ok obs2 =>
        rw [hrest] at hrun
        dsimp only at hrun
        cases hrun
        have := ih t2 _ obs2 hinv2 hr2 hb.2 hrest
        unfold flatRun
        rw [this, ho]

/-- C9 (failing input): on the new container with caches of 2 bytes, 5 bytes
are written (the spill file is made), 4 of them are removed (the byte left is
read back from the file into the first cache, which is not dirty, and the file
is dropped), and the byte left is removed. The three calls are within bounds and
the flat byte array is empty after them; the third call fails the assertion
`(containerSize == 0) || mDirtyCache_1` of `Colapse`. -/
theorem colapse_after_refill_fails_assertion :
    AllInBounds [] [.Write 0 [1, 2, 3, 4, 5], .Colapse 0 4, .Colapse 0 1] ∧
    flatRun [] [.Write 0 [1, 2, 3, 4, 5], .Colapse 0 4, .Colapse 0 1]
      = [⟨[], 5⟩, ⟨[], 1⟩, ⟨[], 0⟩] ∧
    (New 4 16).run [.Write 0 [1, 2, 3, 4, 5], .Colapse 0 4]
      = .ok [⟨[], 5⟩, ⟨[], 1⟩] ∧
    (New 4 16).run [.Write 0 [1, 2, 3, 4, 5], .Colapse 0 4, .Colapse 0 1]
      = .error .UNDEFINED := by
  decide

end TemporalContainer
end pastra
end whais
namespace whais
namespace pastra
namespace VariableSizeStore

open StoreEntry

theorem getElem?_entryAt (s : VariableSizeStore) (i : Nat) (h : i < s.mEntries.length) :
    s.mEntries[i]? = some (s.entryAt i) := by
  unfold entryAt
  rw [List.getD_eq_getElem?_getD, List.getElem?_eq_getElem h]
  rfl

theorem RetriveItem_lt (s : VariableSizeStore) (i : Nat) (h : i < s.mEntries.length) :
    s.RetriveItem i = .ok (s.entryAt i) := by
  unfold RetriveItem
  rw [getElem?_entryAt s i h]

theorem length_Store (s : VariableSizeStore) (i : Nat) (e : StoreEntry) :
    (s.Store i e).mEntries.length = s.mEntries.length := by
  unfold Store
  simp only [List.length_set]

theorem entryAt_Store_same (s : VariableSizeStore) (i : Nat) (e : StoreEntry)
    (h : i < s.mEntries.length) : (s.Store i e).entryAt i = e := by
  unfold entryAt Store
  simp only [List.getD_eq_getElem?_getD, List.getElem?_set, if_pos h, if_true, Option.getD_some]

theorem entryAt_Store_ne (s : VariableSizeStore) (i j : Nat) (e : StoreEntry) (h : j ≠ i) :
    (s.Store i e).entryAt j = s.entryAt j := by
  unfold entryAt Store
  simp only [List.getD_eq_getElem?_getD, List.getElem?_set, if_neg (Ne.symm h)]

theorem SetNextEntry_lt (e : StoreEntry) (content : Nat) (h : content < 2 ^ 62) :
    e.SetNextEntry content = { e with mNextEntry := content } := by
  unfold SetNextEntry clearFlags deletedFlag firstFlag
  have h1 : content % 2 ^ 62 = content := Nat.mod_eq_of_lt h
  have h2 : content / 2 ^ 63 = 0 := Nat.div_eq_of_lt (by omega)
  have h3 : content / 2 ^ 62 = 0 := Nat.div_eq_of_lt h
  rw [h1, h2, h3]
  simp

theorem SetPrevEntry_lt (e : StoreEntry) (content : Nat) (h : content < 2 ^ 64) :
    e.SetPrevEntry content = { e with mPrevEntry := content } := by
  unfold SetPrevEntry
  rw [Nat.mod_eq_of_lt h]

theorem FreeLinks_nil (s : VariableSizeStore) (a : Nat) :
    s.FreeLinks a [] ↔ (s.entryAt a).mNextEntry = LAST_DELETED_ENTRY := Iff.rfl

theorem FreeLinks_cons (s : VariableSizeStore) (a b : Nat) (rest : List Nat) :
    s.FreeLinks a (b :: rest) ↔
      (s.entryAt a).mNextEntry = b ∧ (s.entryAt b).mPrevEntry = a ∧ s.FreeLinks b rest := Iff.rfl

theorem IsChain_nil (s : VariableSizeStore) (entryId : Nat) :
    s.IsChain entryId [] ↔ entryId = LAST_CHAINED_ENTRY := Iff.rfl

theorem IsChain_cons (s : VariableSizeStore) (entryId x : Nat) (rest : List Nat) :
    s.IsChain entryId (x :: rest) ↔ entryId = x ∧ x < s.mEntries.length ∧
      (s.entryAt x).mDeleted = false ∧ s.IsChain (s.entryAt x).mNextEntry rest := Iff.rfl

/-- The links of a list of free entries depend on the next fields of its
entries and of the entry before, and on the prev fields of its entries. -/
theorem FreeLinks_frame (s s2 : VariableSizeStore) (l : List Nat) : ∀ (a : Nat),
    s.FreeLinks a l →
    (∀ i ∈ a :: l, (s2.entryAt i).mNextEntry = (s.entryAt i).mNextEntry) →
    (∀ i ∈ l, (s2.entryAt i).mPrevEntry = (s.entryAt i).mPrevEntry) → s2.FreeLinks a l := by
  induction l with
  | nil =>
    intro a h hn _
    rw [FreeLinks_nil] at *
    rw [hn a (List.mem_cons_self _ _)]
    exact h
  | cons b rest ih =>
    intro a h hn hp
    rw [FreeLinks_cons] at *
    obtain ⟨h1, h2, h3⟩ := h
    refine ⟨?_, ?_, ih b h3 ?_ ?_⟩
    · rw [hn a (List.mem_cons_self _ _)]; exact h1
    · rw [hp b (List.mem_cons_self _ _)]; exact h2
    · intro i hi; exact hn i (List.mem_cons_of_mem _ hi)
    · intro i hi; exact hp i (List.mem_cons_of_mem _ hi)

/-- Taking entry `x` out of a list of free entries: the entry before takes the
next entry of `x`, which takes the entry before `x` for its prev entry. -/
theorem FreeLinks_remove (s s2 : VariableSizeStore) (x : Nat) (B : List Nat) (A : List Nat) :
    ∀ (a : Nat), s.FreeLinks a (A ++ x :: B) → (a :: (A ++ x :: B)).Nodup →
    (∀ i, i ≠ A.getLastD a → i ≠ x → (s2.entryAt i).mNextEntry = (s.entryAt i).mNextEntry) →
    (∀ i, i ≠ x → (∀ b ∈ B.head?, i ≠ b) →
      (s2.entryAt i).mPrevEntry = (s.entryAt i).mPrevEntry) →
    (s2.entryAt (A.getLastD a)).mNextEntry = (s.entryAt x).mNextEntry →
    (∀ b ∈ B.head?, (s2.entryAt b).mPrevEntry = A.getLastD a) →
    s2.FreeLinks a (A ++ B) ∧ (s.entryAt x).mPrevEntry = A.getLastD a ∧
      (s.entryAt (A.getLastD a)).mNextEntry = x ∧
      (s.entryAt x).mNextEntry = (B.head?).getD LAST_DELETED_ENTRY := by
  induction A with
  | nil =>
    intro a h hnd hnext hprev hp hn
    simp only [List.nil_append, List.getLastD_nil] at *
    rw [FreeLinks_cons] at h
    obtain ⟨h1, h2, h3⟩ := h
    have hxB : (s.entryAt x).mNextEntry = (B.head?).getD LAST_DELETED_ENTRY := by
      cases B with
      | nil => rw [FreeLinks_nil] at h3; simpa using h3
      | cons b B2 => rw [FreeLinks_cons] at h3; simpa using h3.1
    refine ⟨?_, h2, h1, hxB⟩
    cases B with
    | nil =>
      rw [FreeLinks_nil] at h3 ⊢
      rw [hp]; exact h3
    | cons b B2 =>
      rw [FreeLinks_cons] at h3 ⊢
      obtain ⟨h4, h5, h6⟩ := h3
      have hnd2 : (a :: x :: b :: B2).Nodup := hnd
      simp only [List.nodup_cons, List.mem_cons, not_or] at hnd2
      refine ⟨by rw [hp]; exact h4, hn b (by simp), ?_⟩
      apply FreeLinks_frame s s2 B2 b h6
      · intro i hi
        apply hnext
        · intro e; subst e
          rcases List.mem_cons.1 hi with e | e
          · exact hnd2.1.2.1 e
          · exact hnd2.1.2.2 e
        · intro e; subst e
          rcases List.mem_cons.1 hi with e | e
          · exact hnd2.2.1.1 e
          · exact hnd2.2.1.2 e
      · intro i hi
        apply hprev
        · intro e; subst e; exact hnd2.2.1.2 hi
        · intro b2 hb2
          simp only [List.head?_cons, Option.mem_def, Option.some.injEq] at hb2
          subst hb2
          intro e; subst e; exact hnd2.2.2.1 hi
  | cons a2 A2 ih =>
    intro a h hnd hnext hprev hp hn
    have hlast : (a2 :: A2).getLastD a = A2.getLastD a2 := List.getLastD_cons a a2 A2
    rw [hlast] at hnext hp hn ⊢
    simp only [List.cons_append] at h hnd ⊢
    rw [FreeLinks_cons] at h ⊢
    obtain ⟨h1, h2, h3⟩ := h
    have hnd2 := hnd
    rw [List.nodup_cons] at hnd2
    obtain ⟨ha, hnd3⟩ := hnd2
    have hmem : A2.getLastD a2 ∈ a2 :: A2 := List.getLastD_mem_cons A2 a2
    obtain ⟨ih1, ih2, ih3, ih4⟩ := ih a2 h3 hnd3 hnext hprev hp hn
    refine ⟨⟨?_, ?_, ih1⟩, ih2, ih3, ih4⟩
    · rw [hnext a ?_ ?_]
      · exact h1
      · intro e
        apply ha
        rw [e]
        rcases List.mem_cons.1 hmem with e2 | e2
        · rw [e2]; simp
        · exact List.mem_cons_of_mem _ (List.mem_append_left _ e2)
      · intro e
        apply ha
        rw [e]
        exact List.mem_cons_of_mem _ (List.mem_append_right _ (List.mem_cons_self _ _))
    · rw [hprev a2 ?_ ?_]
      · exact h2
      · intro e
        rw [List.nodup_cons] at hnd3
        apply hnd3.1
        rw [e]
        exact List.mem_append_right _ (List.mem_cons_self _ _)
      · intro b hb e
        rw [List.nodup_cons] at hnd3
        apply hnd3.1
        rw [e]
        have : b ∈ B := List.mem_of_mem_head? hb
        exact List.mem_append_right _ (List.mem_cons_of_mem _ this)

end VariableSizeStore
end pastra
end whais

namespace whais
namespace pastra
namespace VariableSizeStore

open StoreEntry

theorem FreeLinks_at (s : VariableSizeStore) (x : Nat) (B : List Nat) (A : List Nat) :
    ∀ (a : Nat), s.FreeLinks a (A ++ x :: B) →
    (s.entryAt x).mPrevEntry = A.getLastD a ∧ (s.entryAt (A.getLastD a)).mNextEntry = x ∧
      (s.entryAt x).mNextEntry = (B.head?).getD LAST_DELETED_ENTRY := by
  induction A with
  | nil =>
    intro a h
    simp only [List.nil_append, List.getLastD_nil] at *
    rw [FreeLinks_cons] at h
    obtain ⟨h1, h2, h3⟩ := h
    refine ⟨h2, h1, ?_⟩
    cases B with
    | nil => rw [FreeLinks_nil] at h3; simpa using h3
    | cons b B2 => rw [FreeLinks_cons] at h3; simpa using h3.1
  | cons a2 A2 ih =>
    intro a h
    rw [List.getLastD_cons]
    simp only [List.cons_append] at h
    rw [FreeLinks_cons] at h
    exact ih a2 h.2.2

theorem Inv_bounds (s : VariableSizeStore) (free : List Nat) (h : s.Inv free) :
    s.mEntries.length < 2 ^ 58 ∧ 0 < s.mEntries.length := by
  obtain ⟨-, h2, -, -, h5, -⟩ := h
  have := (h5 0 (List.mem_cons_self _ _)).1
  unfold sizeofEntry at h2
  omega

theorem assert_true (b : Bool) (h : b = true) : assert b = .ok () := by
  unfold assert
  rw [if_pos h]

theorem Store_mFirstFreeEntry (s : VariableSizeStore) (i : Nat) (e : StoreEntry) :
    (s.Store i e).mFirstFreeEntry = s.mFirstFreeEntry := rfl

theorem Store_mEntriesCount (s : VariableSizeStore) (i : Nat) (e : StoreEntry) :
    (s.Store i e).mEntriesCount = s.mEntriesCount := rfl

/-- The heap after entry `x` has left the list of free entries `A ++ x :: B`,
told by the fields of its entries. -/
theorem Inv_remove (s s2 : VariableSizeStore) (A B : List Nat) (x : Nat)
    (h : s.Inv (A ++ x :: B))
    (hlen : s2.mEntries.length = s.mEntries.length)
    (hcnt : s2.mEntriesCount = s.mEntriesCount)
    (hff : s2.mFirstFreeEntry
      = if x = s.mFirstFreeEntry then (s.entryAt x).mNextEntry else s.mFirstFreeEntry)
    (hdata : ∀ i, (s2.entryAt i).mRawData = (s.entryAt i).mRawData)
    (hfst : ∀ i, (s2.entryAt i).mFirst = (s.entryAt i).mFirst)
    (hdel : ∀ i, (s2.entryAt i).mDeleted = if i = x then false else (s.entryAt i).mDeleted)
    (hnext : ∀ i, i ≠ A.getLastD 0 → i ≠ x → (s2.entryAt i).mNextEntry = (s.entryAt i).mNextEntry)
    (hprev : ∀ i, i ≠ x → (∀ b ∈ B.head?, i ≠ b) →
      (s2.entryAt i).mPrevEntry = (s.entryAt i).mPrevEntry)
    (hp : (s2.entryAt (A.getLastD 0)).mNextEntry = (s.entryAt x).mNextEntry)
    (hn : ∀ b ∈ B.head?, (s2.entryAt b).mPrevEntry = A.getLastD 0) :
    s2.Inv (A ++ B) := by
  obtain ⟨h1, h2, h3, h4, h5, h6, h7, h8⟩ := h
  obtain ⟨r1, r2, r3, r4⟩ := FreeLinks_remove s s2 x B A 0 h7 h4 hnext hprev hp hn
  have hsub : List.Sublist (0 :: (A ++ B)) (0 :: (A ++ x :: B)) :=
    List.Sublist.cons₂ _ (List.Sublist.append_left (List.sublist_cons_self x B) A)
  have hx0 : x ≠ 0 := by
    intro e
    rw [List.nodup_cons] at h4
    exact h4.1 (by rw [← e]; exact List.mem_append_right _ (List.mem_cons_self _ _))
  have hxA : x ∉ A := by
    intro e
    rw [List.nodup_cons] at h4
    have := h4.2
    rw [List.nodup_append] at this
    exact this.2.2 e (List.mem_cons_self _ _)
  have hxB : x ∉ B := by
    intro e
    rw [List.nodup_cons] at h4
    have := h4.2
    rw [List.nodup_append] at this
    have h2 := this.2.1
    rw [List.nodup_cons] at h2
    exact h2.1 e
  have hmem : ∀ i, i ∈ 0 :: (A ++ B) ↔ (i ∈ 0 :: (A ++ x :: B) ∧ i ≠ x) := by
    intro i
    simp only [List.mem_cons, List.mem_append]
    constructor
    · rintro (e | e | e)
      · exact ⟨Or.inl e, by rw [e]; exact Ne.symm hx0⟩
      · exact ⟨Or.inr (Or.inl e), fun e2 => hxA (e2 ▸ e)⟩
      · exact ⟨Or.inr (Or.inr (Or.inr e)), fun e2 => hxB (e2 ▸ e)⟩
    · rintro ⟨e | e | e | e, hne⟩
      · exact Or.inl e
      · exact Or.inr (Or.inl e)
      · exact absurd e hne
      · exact Or.inr (Or.inr e)
  refine ⟨by rw [hcnt, hlen]; exact h1, by rw [hlen]; exact h2, ?_, hsub.nodup h4, ?_, ?_, r1, ?_⟩
  · intro i hi
    rw [hdata]
    exact h3 i (by rw [← hlen]; exact hi)
  · intro i hi
    rw [hlen, hfst]
    exact h5 i (hsub.subset hi)
  · intro i hi
    rw [hlen] at hi
    rw [hdel, hmem]
    by_cases hix : i = x
    · simp [hix]
    · rw [if_neg hix, h6 i hi]
      simp [hix]
  · rw [hff]
    by_cases hA : A = []
    · subst hA
      simp only [List.getLastD_nil] at r3 hp
      rw [h8, r3, if_pos rfl, hp]
    · have hne : (0 : Nat) ≠ A.getLastD 0 := by
        intro e
        obtain ⟨a, A2, rfl⟩ := List.exists_cons_of_ne_nil hA
        rw [List.getLastD_cons] at e
        have hm := List.getLastD_mem_cons A2 a
        rw [← e] at hm
        rw [List.nodup_cons] at h4
        exact h4.1 (List.mem_append_left _ hm)
      have hh : (s.entryAt 0).mNextEntry ≠ x := by
        obtain ⟨a, A2, rfl⟩ := List.exists_cons_of_ne_nil hA
        simp only [List.cons_append] at h7
        rw [FreeLinks_cons] at h7
        rw [h7.1]
        intro e
        exact hxA (by rw [← e]; exact List.mem_cons_self _ _)
      rw [h8, if_neg (Ne.symm hh), hnext 0 hne (Ne.symm hx0)]

end VariableSizeStore
end pastra
end whais

namespace whais
namespace pastra
namespace VariableSizeStore

open StoreEntry

theorem entryAt_Store (s : VariableSizeStore) (i j : Nat) (e : StoreEntry)
    (h : i < s.mEntries.length) :
    (s.Store i e).entryAt j = if j = i then e else s.entryAt j := by
  by_cases hji : j = i
  · rw [if_pos hji, hji, entryAt_Store_same s i e h]
  · rw [if_neg hji, entryAt_Store_ne s i j e hji]

theorem entryAt_SetFirstFreeEntry (t : VariableSizeStore) (n i : Nat) :
    (t.SetFirstFreeEntry n).entryAt i = t.entryAt i := rfl

theorem length_SetFirstFreeEntry (t : VariableSizeStore) (n : Nat) :
    (t.SetFirstFreeEntry n).mEntries.length = t.mEntries.length := rfl

theorem mEntriesCount_SetFirstFreeEntry (t : VariableSizeStore) (n : Nat) :
    (t.SetFirstFreeEntry n).mEntriesCount = t.mEntriesCount := rfl

theorem mFirstFreeEntry_SetFirstFreeEntry (t : VariableSizeStore) (n : Nat) :
    (t.SetFirstFreeEntry n).mFirstFreeEntry = n := rfl

theorem entryAt_ite (t : VariableSizeStore) (c : Prop) [Decidable c] (n i : Nat) :
    (if c then t.SetFirstFreeEntry n else t).entryAt i = t.entryAt i := by
  split <;> rfl

theorem length_ite (t : VariableSizeStore) (c : Prop) [Decidable c] (n : Nat) :
    (if c then t.SetFirstFreeEntry n else t).mEntries.length = t.mEntries.length := by
  split <;> rfl

theorem mEntriesCount_ite (t : VariableSizeStore) (c : Prop) [Decidable c] (n : Nat) :
    (if c then t.SetFirstFreeEntry n else t).mEntriesCount = t.mEntriesCount := by
  split <;> rfl

theorem mFirstFreeEntry_ite (t : VariableSizeStore) (c : Prop) [Decidable c] (n : Nat) :
    (if c then t.SetFirstFreeEntry n else t).mFirstFreeEntry
      = if c then n else t.mFirstFreeEntry := by
  split <;> rfl

/-- What `ExtractFromFreeList` does to the entries: entry `x` is no more
deleted, the entry before it takes its next entry, which takes the entry
before for its prev entry. -/
theorem ExtractFromFreeList_run (s : VariableSizeStore) (x : Nat)
    (hlen : s.mEntries.length < 2 ^ 58) (hcnt : s.mEntriesCount = s.mEntries.length)
    (hxlt : x < s.mEntries.length) (hx0 : x ≠ 0)
    (hxdel : (s.entryAt x).mDeleted = true) (hxfst : (s.entryAt x).mFirst = false)
    (hplt : (s.entryAt x).mPrevEntry < s.mEntries.length)
    (hpx : (s.entryAt x).mPrevEntry ≠ x)
    (hpdel : (s.entryAt (s.entryAt x).mPrevEntry).mDeleted = true)
    (hpfst : (s.entryAt (s.entryAt x).mPrevEntry).mFirst = false)
    (hn : (s.entryAt x).mNextEntry = LAST_DELETED_ENTRY ∨
      ((s.entryAt x).mNextEntry < s.mEntries.length ∧
        (s.entryAt (s.entryAt x).mNextEntry).mDeleted = true ∧
        (s.entryAt (s.entryAt x).mNextEntry).mFirst = false ∧
        (s.entryAt x).mNextEntry ≠ x ∧ (s.entryAt x).mNextEntry ≠ (s.entryAt x).mPrevEntry)) :
    ∃ s2, s.ExtractFromFreeList x = .ok s2 ∧
      s2.mEntries.length = s.mEntries.length ∧ s2.mEntriesCount = s.mEntriesCount ∧
      s2.mFirstFreeEntry
        = (if x = s.mFirstFreeEntry then (s.entryAt x).mNextEntry else s.mFirstFreeEntry) ∧
      ∀ i, s2.entryAt i =
        if i = (s.entryAt x).mNextEntry ∧ (s.entryAt x).mNextEntry ≠ LAST_DELETED_ENTRY then
          { s.entryAt i with mPrevEntry := (s.entryAt x).mPrevEntry }
        else if i = (s.entryAt x).mPrevEntry then
          { s.entryAt i with mNextEntry := (s.entryAt x).mNextEntry }
        else if i = x then
          { s.entryAt x with mDeleted := false, mPrevEntry := 0, mNextEntry := 0 }
        else s.entryAt i := by
  have hrx := RetriveItem_lt s x hxlt
  have e1 : ((s.entryAt x).MarkAsDeleted false).SetPrevEntry 0
      = { s.entryAt x with mDeleted := false, mPrevEntry := 0 } := by
    rw [SetPrevEntry_lt _ _ (by omega)]; rfl
  have e2 : (((s.entryAt x).MarkAsDeleted false).SetPrevEntry 0).SetNextEntry 0
      = { s.entryAt x with mDeleted := false, mPrevEntry := 0, mNextEntry := 0 } := by
    rw [e1, SetNextEntry_lt _ _ (by omega)]
  have hnlt : (s.entryAt x).mNextEntry < 2 ^ 62 := by
    rcases hn with e | e
    · rw [e]; unfold LAST_DELETED_ENTRY; omega
    · omega
  have e3 : (s.entryAt (s.entryAt x).mPrevEntry).SetNextEntry (s.entryAt x).mNextEntry
      = { s.entryAt (s.entryAt x).mPrevEntry with mNextEntry := (s.entryAt x).mNextEntry } :=
    SetNextEntry_lt _ _ hnlt
  have a4 : assert (decide ((s.entryAt x).mNextEntry = LAST_DELETED_ENTRY ∨
      (s.entryAt x).mNextEntry < s.mEntriesCount)) = .ok () := by
    apply assert_true
    rw [decide_eq_true_eq, hcnt]
    rcases hn with e | e
    · exact Or.inl e
    · exact Or.inr e.1
  by_cases hlast : (s.entryAt x).mNextEntry = LAST_DELETED_ENTRY
  · refine ⟨_, by
      unfold ExtractFromFreeList
      simp only [bind, Except.bind, hrx]
      rw [assert_true _ (by simpa using hx0), assert_true _ (by simpa [IsDeleted] using hxdel),
        assert_true _ (by simpa [IsFirstEntry] using hxfst),
        assert_true _ (by simp only [PrevEntry, hcnt, decide_eq_true_eq]; exact hplt)]
      simp only [PrevEntry, NextEntry, e2, a4]
      rw [RetriveItem_lt _ _ (by rw [length_Store]; exact hplt), entryAt_Store_ne _ _ _ _ hpx]
      dsimp only
      rw [assert_true _ (by simpa [IsDeleted] using hpdel),
        assert_true _ (by simpa [IsFirstEntry] using hpfst)]
      simp only [e3]
      rw [if_neg (by rw [hlast]; simp)], ?_, ?_, ?_, ?_⟩
    · rw [length_ite, length_Store, length_Store]
    · rw [mEntriesCount_ite, Store_mEntriesCount, Store_mEntriesCount]
    · rw [mFirstFreeEntry_ite, Store_mFirstFreeEntry, Store_mFirstFreeEntry]
    · intro i
      rw [entryAt_ite, entryAt_Store _ _ _ _ (by rw [length_Store]; exact hplt),
        entryAt_Store _ _ _ _ hxlt]
      have hc : ¬ (i = (s.entryAt x).mNextEntry ∧ (s.entryAt x).mNextEntry ≠ LAST_DELETED_ENTRY) :=
        fun h => h.2 hlast
      rw [if_neg hc]
      by_cases c1 : i = (s.entryAt x).mPrevEntry
      · rw [if_pos c1, if_pos c1, c1]
      · rw [if_neg c1, if_neg c1]
  · have hn2 := hn.resolve_left hlast
    obtain ⟨hnlt2, hndel, hnfst, hnx, hnp⟩ := hn2
    refine ⟨_, by
      unfold ExtractFromFreeList
      simp only [bind, Except.bind, hrx]
      rw [assert_true _ (by simpa using hx0), assert_true _ (by simpa [IsDeleted] using hxdel),
        assert_true _ (by simpa [IsFirstEntry] using hxfst),
        assert_true _ (by simp only [PrevEntry, hcnt, decide_eq_true_eq]; exact hplt)]
      simp only [PrevEntry, NextEntry, e2, a4]
      rw [RetriveItem_lt _ _ (by rw [length_Store]; exact hplt), entryAt_Store_ne _ _ _ _ hpx]
      dsimp only
      rw [assert_true _ (by simpa [IsDeleted] using hpdel),
        assert_true _ (by simpa [IsFirstEntry] using hpfst)]
      simp only [e3]
      rw [if_pos hlast, RetriveItem_lt _ _ (by
        rw [length_ite, length_Store, length_Store]; exact hnlt2)]
      dsimp only
      rw [entryAt_ite, entryAt_Store_ne _ _ _ _ hnp, entryAt_Store_ne _ _ _ _ hnx,
        assert_true _ (by simpa [IsDeleted] using hndel),
        assert_true _ (by simpa [IsFirstEntry] using hnfst)], ?_, ?_, ?_, ?_⟩
    · rw [length_Store, length_ite, length_Store, length_Store]
    · rw [Store_mEntriesCount, mEntriesCount_ite, Store_mEntriesCount, Store_mEntriesCount]
    · rw [Store_mFirstFreeEntry, mFirstFreeEntry_ite, Store_mFirstFreeEntry,
        Store_mFirstFreeEntry]
    · intro i
      rw [entryAt_Store _ _ _ _ (by rw [length_ite, length_Store, length_Store]; exact hnlt2),
        entryAt_ite, entryAt_Store _ _ _ _ (by rw [length_Store]; exact hplt),
        entryAt_Store _ _ _ _ hxlt]
      by_cases c0 : i = (s.entryAt x).mNextEntry
      · rw [if_pos c0, if_pos ⟨c0, hlast⟩, c0, SetPrevEntry_lt _ _ (by omega)]
      · have hc : ¬ (i = (s.entryAt x).mNextEntry ∧
            (s.entryAt x).mNextEntry ≠ LAST_DELETED_ENTRY) := fun h => c0 h.1
        rw [if_neg c0, if_neg hc]
        by_cases c1 : i = (s.entryAt x).mPrevEntry
        · rw [if_pos c1, if_pos c1, c1]
        · rw [if_neg c1, if_neg c1]

/-- `ExtractFromFreeList` on an entry of the list of free entries returns: the
entry is no more deleted and has left the list, the entries that are not
deleted are as they were. -/
theorem ExtractFromFreeList_spec (s : VariableSizeStore) (free : List Nat) (x : Nat)
    (h : s.Inv free) (hx : x ∈ free) :
    ∃ s2, s.ExtractFromFreeList x = .ok s2 ∧ s2.Inv (free.erase x) ∧
      s2.mEntries.length = s.mEntries.length ∧
      (∀ i, i ∉ 0 :: free → s2.entryAt i = s.entryAt i) ∧
      s2.entryAt x = { s.entryAt x with mDeleted := false, mPrevEntry := 0, mNextEntry := 0 } := by
  obtain ⟨hb1, hb2⟩ := Inv_bounds s free h
  obtain ⟨A, B, rfl⟩ := List.append_of_mem hx
  have hinv := h
  obtain ⟨h1, h2, h3, h4, h5, h6, h7, h8⟩ := h
  obtain ⟨hpx, hpn, hxn⟩ := FreeLinks_at s x B A 0 h7
  have hpm : A.getLastD 0 ∈ 0 :: A := List.getLastD_mem_cons A 0
  generalize hpdef : A.getLastD 0 = p at *
  have hxm : x ∈ 0 :: (A ++ x :: B) :=
    List.mem_cons_of_mem _ (List.mem_append_right _ (List.mem_cons_self _ _))
  have hpm2 : p ∈ 0 :: (A ++ x :: B) := by
    rcases List.mem_cons.1 hpm with e | e
    · rw [e]; exact List.mem_cons_self _ _
    · exact List.mem_cons_of_mem _ (List.mem_append_left _ e)
  have hxlt := (h5 x hxm).1
  have hplt := (h5 p hpm2).1
  have hnd := h4
  rw [List.nodup_cons, List.nodup_append] at hnd
  obtain ⟨hnd0, hndA, hndB, hdisj⟩ := hnd
  rw [List.nodup_cons] at hndB
  have hx0 : x ≠ 0 := by
    intro e
    exact hnd0 (by rw [← e]; exact List.mem_append_right _ (List.mem_cons_self _ _))
  have hxA : x ∉ A := fun e => hdisj e (List.mem_cons_self _ _)
  have hpx2 : p ≠ x := by
    intro e
    rcases List.mem_cons.1 hpm with e2 | e2
    · exact hx0 (by rw [← e, e2])
    · exact hxA (by rw [← e]; exact e2)
  have herase : (A ++ x :: B).erase x = A ++ B := by
    rw [List.erase_append_right _ hxA, List.erase_cons_head]
  rw [herase]
  have hxdel : (s.entryAt x).mDeleted = true := (h6 x hxlt).2 hxm
  have hpdel : (s.entryAt p).mDeleted = true := (h6 p hplt).2 hpm2
  have hxfst := (h5 x hxm).2
  have hpfst := (h5 p hpm2).2
  have hnfacts : (s.entryAt x).mNextEntry = LAST_DELETED_ENTRY ∨
      ((s.entryAt x).mNextEntry < s.mEntries.length ∧
        (s.entryAt (s.entryAt x).mNextEntry).mDeleted = true ∧
        (s.entryAt (s.entryAt x).mNextEntry).mFirst = false ∧
        (s.entryAt x).mNextEntry ≠ x ∧ (s.entryAt x).mNextEntry ≠ (s.entryAt x).mPrevEntry) := by
    rw [hxn, hpx]
    cases B with
    | nil => left; rfl
    | cons b B2 =>
      right
      simp only [List.head?_cons, Option.getD_some]
      have hbm : b ∈ 0 :: (A ++ x :: b :: B2) := List.mem_cons_of_mem _ (List.mem_append_right _
        (List.mem_cons_of_mem _ (List.mem_cons_self _ _)))
      have hblt := (h5 b hbm).1
      refine ⟨hblt, (h6 b hblt).2 hbm, (h5 b hbm).2, ?_, ?_⟩
      · intro e
        exact hndB.1 (by rw [← e]; exact List.mem_cons_self _ _)
      · intro e
        rcases List.mem_cons.1 hpm with e2 | e2
        · exact hnd0 (by
            rw [← e2, ← e]
            exact List.mem_append_right _ (List.mem_cons_of_mem _ (List.mem_cons_self _ _)))
        · exact hdisj (e ▸ e2) (List.mem_cons_of_mem _ (List.mem_cons_self _ _))
  obtain ⟨s2, hrun, hlen2, hcnt2, hff2, hent⟩ := ExtractFromFreeList_run s x hb1 h1 hxlt hx0 hxdel
    hxfst (by rw [hpx]; exact hplt) (by rw [hpx]; exact hpx2) (by rw [hpx]; exact hpdel)
    (by rw [hpx]; exact hpfst) hnfacts
  rw [hpx] at hent
  have hmemB : ∀ i, (i = (s.entryAt x).mNextEntry ∧ (s.entryAt x).mNextEntry ≠ LAST_DELETED_ENTRY)
      ↔ i ∈ B.head? := by
    intro i
    rw [hxn]
    cases B with
    | nil => simp
    | cons b B2 =>
      simp only [List.head?_cons, Option.getD_some, Option.mem_def, Option.some.injEq]
      have hbm : b ∈ 0 :: (A ++ x :: b :: B2) := List.mem_cons_of_mem _ (List.mem_append_right _
        (List.mem_cons_of_mem _ (List.mem_cons_self _ _)))
      have hblt := (h5 b hbm).1
      constructor
      · rintro ⟨e, -⟩; exact e.symm
      · intro e; exact ⟨e.symm, by unfold LAST_DELETED_ENTRY; omega⟩
  have hxnotB : ¬ (x = (s.entryAt x).mNextEntry ∧ (s.entryAt x).mNextEntry ≠ LAST_DELETED_ENTRY) := by
    rw [hmemB]
    intro e
    exact hndB.1 (List.mem_of_mem_head? e)
  have hpnotB : ¬ (p = (s.entryAt x).mNextEntry ∧ (s.entryAt x).mNextEntry ≠ LAST_DELETED_ENTRY) := by
    rw [hmemB]
    intro e
    have hB := List.mem_of_mem_head? e
    rcases List.mem_cons.1 hpm with e2 | e2
    · exact hnd0 (by rw [← e2]; exact List.mem_append_right _ (List.mem_cons_of_mem _ hB))
    · exact hdisj e2 (List.mem_cons_of_mem _ hB)
  refine ⟨s2, hrun, ?_, hlen2, ?_, ?_⟩
  · apply Inv_remove s s2 A B x hinv hlen2 hcnt2 hff2
    · intro i; rw [hent]; split_ifs with c1 c2 c3
      · rfl
      · rfl
      · rw [c3]
      · rfl
    · intro i; rw [hent]; split_ifs with c1 c2 c3
      · rfl
      · rfl
      · rw [c3]
      · rfl
    · intro i; rw [hent]
      by_cases c3 : i = x
      · rw [c3, if_neg hxnotB, if_neg (Ne.symm hpx2), if_pos rfl, if_pos rfl]
      · rw [if_neg c3]; split_ifs <;> rfl
    · intro i hip hix; rw [hpdef] at hip; rw [hent, if_neg hip, if_neg hix]; split_ifs <;> rfl
    · intro i hix hib
      have c1 : ¬ (i = (s.entryAt x).mNextEntry ∧
          (s.entryAt x).mNextEntry ≠ LAST_DELETED_ENTRY) := by
        intro e
        rw [hmemB] at e
        exact hib i e rfl
      rw [hent, if_neg c1]
      split_ifs <;> rfl
    · rw [hpdef, hent, if_neg hpnotB, if_pos rfl]
    · intro b hb
      rw [hpdef, hent, if_pos ((hmemB b).2 hb)]
  · intro i hi
    have c1 : ¬ (i = (s.entryAt x).mNextEntry ∧
        (s.entryAt x).mNextEntry ≠ LAST_DELETED_ENTRY) := by
      intro e
      rw [hmemB] at e
      exact hi (List.mem_cons_of_mem _ (List.mem_append_right _
        (List.mem_cons_of_mem _ (List.mem_of_mem_head? e))))
    have c2 : i ≠ p := fun e => hi (e ▸ hpm2)
    have c3 : i ≠ x := fun e => hi (e ▸ hxm)
    rw [hent, if_neg c1, if_neg c2, if_neg c3]
  · rw [hent, if_neg hxnotB, if_neg (Ne.symm hpx2), if_pos rfl]

end VariableSizeStore
end pastra
end whais

namespace whais
namespace pastra
namespace VariableSizeStore

open StoreEntry

theorem entryAt_Append (s : VariableSizeStore) (e : StoreEntry) (i : Nat) :
    (s.Append e).entryAt i = if i = s.mEntries.length then e else s.entryAt i := by
  unfold entryAt Append
  simp only [List.getD_eq_getElem?_getD]
  by_cases h : i = s.mEntries.length
  · rw [if_pos h, h, List.getElem?_append_right (Nat.le_refl _)]
    simp
  · rw [if_neg h]
    by_cases h2 : i < s.mEntries.length
    · rw [List.getElem?_append_left h2]
    · rw [List.getElem?_eq_none (by simp only [List.length_append, List.length_singleton]; omega),
        List.getElem?_eq_none (by omega)]

theorem length_Append (s : VariableSizeStore) (e : StoreEntry) :
    (s.Append e).mEntries.length = s.mEntries.length + 1 := by
  unfold Append
  simp only [List.length_append, List.length_singleton]

/-- With entries in it, the list of free entries starts at `mFirstFreeEntry`,
an entry of the store. -/
theorem Inv_first (s : VariableSizeStore) (free : List Nat) (h : s.Inv free) :
    (free = [] ∧ s.mFirstFreeEntry = LAST_DELETED_ENTRY) ∨
    (∃ rest, free = s.mFirstFreeEntry :: rest ∧ s.mFirstFreeEntry ≠ LAST_DELETED_ENTRY) := by
  obtain ⟨hb1, hb2⟩ := Inv_bounds s free h
  obtain ⟨h1, h2, h3, h4, h5, h6, h7, h8⟩ := h
  cases free with
  | nil => left; rw [FreeLinks_nil] at h7; exact ⟨rfl, by rw [h8, h7]⟩
  | cons f rest =>
    right
    rw [FreeLinks_cons] at h7
    have := (h5 f (List.mem_cons_of_mem _ (List.mem_cons_self _ _))).1
    rw [h8, h7.1]
    refine ⟨rest, rfl, ?_⟩
    unfold LAST_DELETED_ENTRY
    omega

/-- `ExtentFreeList` on a heap without free entries returns: the store has a new
entry at its end, the only free entry. -/
theorem ExtentFreeList_spec (s : VariableSizeStore) (free : List Nat) (h : s.Inv free)
    (hff : s.mFirstFreeEntry = LAST_DELETED_ENTRY)
    (hroom : (s.mEntries.length + 1) * sizeofEntry < 2 ^ 64) :
    free = [] ∧ ∃ s2, s.ExtentFreeList = .ok (s2, s.mEntries.length) ∧
      s2.Inv [s.mEntries.length] ∧ s2.mEntries.length = s.mEntries.length + 1 ∧
      (∀ i, i ≠ 0 → i < s.mEntries.length → s2.entryAt i = s.entryAt i) := by
  obtain ⟨hb1, hb2⟩ := Inv_bounds s free h
  have hfree : free = [] := by
    rcases Inv_first s free h with e | ⟨rest, -, e⟩
    · exact e.1
    · exact absurd hff e
  subst hfree
  refine ⟨rfl, ?_⟩
  obtain ⟨h1, h2, h3, h4, h5, h6, h7, h8⟩ := h
  have hnew : (((StoreEntry.New.MarkAsDeleted true).SetPrevEntry 0).SetNextEntry
      LAST_DELETED_ENTRY).MarkAsFirstEntry false
      = ⟨0, LAST_DELETED_ENTRY, true, false, List.replicate ENTRY_SIZE 0xFF⟩ := by
    decide
  have hdiv : s.mEntries.length * sizeofEntry / sizeofEntry = s.mEntries.length :=
    Nat.mul_div_cancel _ (by unfold sizeofEntry; omega)
  have h0del : (s.entryAt 0).mDeleted = true := (h6 0 hb2).2 (List.mem_cons_self _ _)
  have h0fst := (h5 0 (List.mem_cons_self _ _)).2
  have hent : ∀ i, (((s.SetFirstFreeEntry s.mEntries.length).Append
      ⟨0, LAST_DELETED_ENTRY, true, false, List.replicate ENTRY_SIZE 0xFF⟩).Store 0
        { s.entryAt 0 with mNextEntry := s.mEntries.length }).entryAt i
      = if i = 0 then { s.entryAt 0 with mNextEntry := s.mEntries.length }
        else if i = s.mEntries.length then
          ⟨0, LAST_DELETED_ENTRY, true, false, List.replicate ENTRY_SIZE 0xFF⟩
        else s.entryAt i := by
    intro i
    rw [entryAt_Store _ _ _ _ (by rw [length_Append, length_SetFirstFreeEntry]; omega),
      entryAt_Append, length_SetFirstFreeEntry, entryAt_SetFirstFreeEntry]
  refine ⟨((s.SetFirstFreeEntry s.mEntries.length).Append
      ⟨0, LAST_DELETED_ENTRY, true, false, List.replicate ENTRY_SIZE 0xFF⟩).Store 0
        { s.entryAt 0 with mNextEntry := s.mEntries.length }, by
    unfold ExtentFreeList
    simp only [bind, Except.bind]
    rw [assert_true _ (by simpa using hff)]
    dsimp only
    rw [if_neg (by unfold sizeofEntry at *; omega), hnew, hdiv,
      RetriveItem_lt _ _ (by rw [length_Append, length_SetFirstFreeEntry]; omega)]
    dsimp only
    rw [entryAt_Append, length_SetFirstFreeEntry, if_neg (by omega), entryAt_SetFirstFreeEntry,
      SetNextEntry_lt _ _ (by
        show s.mEntries.length < 2 ^ 62
        omega)]
    rfl, ?_, ?_, ?_⟩
  · refine ⟨?_, ?_, ?_, ?_, ?_, ?_, ?_, ?_⟩
    · rw [Store_mEntriesCount, length_Store, length_Append, length_SetFirstFreeEntry]
      show s.mEntriesCount + 1 = _
      rw [h1]
    · rw [length_Store, length_Append, length_SetFirstFreeEntry]; exact hroom
    · intro i hi
      rw [length_Store, length_Append, length_SetFirstFreeEntry] at hi
      rw [hent]
      split_ifs with c1 c2
      · exact h3 0 hb2
      · simp
      · exact h3 i (by omega)
    · simp only [List.nodup_cons, List.mem_singleton, List.not_mem_nil, not_false_eq_true,
        List.nodup_nil, and_true]
      omega
    · intro i hi
      rw [length_Store, length_Append, length_SetFirstFreeEntry, hent]
      simp only [List.mem_cons, List.mem_singleton, List.not_mem_nil, or_false] at hi
      rcases hi with e | e
      · rw [if_pos e, e]; exact ⟨by omega, h0fst⟩
      · rw [if_neg (by omega), if_pos e, e]; exact ⟨by omega, rfl⟩
    · intro i hi
      rw [length_Store, length_Append, length_SetFirstFreeEntry] at hi
      rw [hent]
      simp only [List.mem_cons, List.mem_singleton, List.not_mem_nil, or_false]
      split_ifs with c1 c2
      · simp [c1, h0del]
      · simp [c2]
      · have := h6 i (by omega)
        simp only [List.mem_cons, List.not_mem_nil, or_false] at this
        rw [this]
        simp [c1, c2]
    · rw [FreeLinks_cons, FreeLinks_nil, hent, hent, if_pos rfl, if_neg (by omega), if_pos rfl]
      exact ⟨rfl, rfl, rfl⟩
    · rw [hent, if_pos rfl]
      rfl
  · rw [length_Store, length_Append, length_SetFirstFreeEntry]
  · intro i hi0 hilt
    rw [hent, if_neg hi0, if_neg (by omega)]

end VariableSizeStore
end pastra
end whais

namespace whais
namespace pastra
namespace VariableSizeStore

open StoreEntry

/-- The invariant depends on the deleted entries only, but for the data size
and the deleted flag of the others. -/
theorem Inv_frame (s s2 : VariableSizeStore) (free : List Nat) (h : s.Inv free)
    (hlen : s2.mEntries.length = s.mEntries.length)
    (hcnt : s2.mEntriesCount = s.mEntriesCount)
    (hff : s2.mFirstFreeEntry = s.mFirstFreeEntry)
    (hL : ∀ i ∈ 0 :: free, s2.entryAt i = s.entryAt i)
    (hlive : ∀ i, i < s.mEntries.length → i ∉ 0 :: free →
      (s2.entryAt i).mDeleted = false ∧ (s2.entryAt i).mRawData.length = ENTRY_SIZE) :
    s2.Inv free := by
  obtain ⟨h1, h2, h3, h4, h5, h6, h7, h8⟩ := h
  refine ⟨by rw [hcnt, hlen]; exact h1, by rw [hlen]; exact h2, ?_, h4, ?_, ?_, ?_, ?_⟩
  · intro i hi
    rw [hlen] at hi
    by_cases hm : i ∈ 0 :: free
    · rw [hL i hm]; exact h3 i hi
    · exact (hlive i hi hm).2
  · intro i hi
    rw [hlen, hL i hi]
    exact h5 i hi
  · intro i hi
    rw [hlen] at hi
    by_cases hm : i ∈ 0 :: free
    · rw [hL i hm]; exact h6 i hi
    · rw [(hlive i hi hm).1]
      simp [hm]
  · exact FreeLinks_frame s s2 free 0 h7 (fun i hi => by rw [hL i hi])
      (fun i hi => by rw [hL i (List.mem_cons_of_mem _ hi)])
  · rw [hff, hL 0 (List.mem_cons_self _ _)]
    exact h8

/-- `AllocateEntry(prevEntryId)`, for 0 or the last entry of a chain, returns:
the entry allocated comes from the list of free entries or is new at the end of
the store, it follows `prevEntryId` in its chain, and the other entries that
were not deleted are as they were. -/
theorem AllocateEntry_spec (s : VariableSizeStore) (free : List Nat) (prevEntryId : Nat)
    (h : s.Inv free) (hroom : (s.mEntries.length + 1) * sizeofEntry < 2 ^ 64)
    (hprev : prevEntryId = 0 ∨ (prevEntryId < s.mEntries.length ∧
      (s.entryAt prevEntryId).mDeleted = false ∧
      (s.entryAt prevEntryId).mNextEntry = LAST_CHAINED_ENTRY)) :
    ∃ s2 free2 n, s.AllocateEntry prevEntryId = .ok (s2, n) ∧ s2.Inv free2 ∧
      s.mEntries.length ≤ s2.mEntries.length ∧ s2.mEntries.length ≤ s.mEntries.length + 1 ∧
      n < s2.mEntries.length ∧ n ≠ 0 ∧ (n < s.mEntries.length → (s.entryAt n).mDeleted = true) ∧
      (∀ i, i < s.mEntries.length → (s.entryAt i).mDeleted = false → i ≠ prevEntryId →
        s2.entryAt i = s.entryAt i) ∧
      (s2.entryAt n).mDeleted = false ∧ (s2.entryAt n).mNextEntry = LAST_CHAINED_ENTRY ∧
      (s2.entryAt n).mPrevEntry = prevEntryId ∧
      (s2.entryAt n).mFirst = decide (prevEntryId = 0) ∧
      (0 < prevEntryId →
        s2.entryAt prevEntryId = { s.entryAt prevEntryId with mNextEntry := n }) ∧
      (free = [] → free2 = [] ∧ n = s.mEntries.length ∧
        s2.mEntries.length = s.mEntries.length + 1) ∧
      (free ≠ [] → n ∈ free ∧ free2 = free.erase n ∧ s2.mEntries.length = s.mEntries.length) ∧
      (prevEntryId + 1 < s.mEntries.length → (s.entryAt (prevEntryId + 1)).mDeleted = true →
        n = prevEntryId + 1) ∧
      (¬ prevEntryId + 1 < s.mEntries.length → 1 < prevEntryId →
        (s.entryAt (prevEntryId - 1)).mDeleted = true → n = prevEntryId - 1) ∧
      (¬ (prevEntryId + 1 < s.mEntries.length ∧ (s.entryAt (prevEntryId + 1)).mDeleted = true) →
        ¬ (¬ prevEntryId + 1 < s.mEntries.length ∧ 1 < prevEntryId ∧
          (s.entryAt (prevEntryId - 1)).mDeleted = true) →
        free ≠ [] → n = s.mFirstFreeEntry) := by
  obtain ⟨hb1, hb2⟩ := Inv_bounds s free h
  have hinv := h
  obtain ⟨h1, h2, h3, h4, h5, h6, h7, h8⟩ := h
  have hplt : prevEntryId < s.mEntries.length := by
    rcases hprev with e | e
    · rw [e]; exact hb2
    · exact e.1
  -- the entry found before the list is extended
  obtain ⟨f, hf, hfmem, hf1, hf2, hf3⟩ : ∃ f,
      (if prevEntryId + 1 < s.mEntriesCount then
        (s.RetriveItem (prevEntryId + 1)).bind fun entry =>
          Except.ok (if entry.IsDeleted then prevEntryId + 1 else s.mFirstFreeEntry)
      else if prevEntryId > 1 then
        (s.RetriveItem (prevEntryId - 1)).bind fun entry =>
          Except.ok (if entry.IsDeleted then prevEntryId - 1 else s.mFirstFreeEntry)
      else Except.ok s.mFirstFreeEntry) = Except.ok f ∧
      ((f = s.mFirstFreeEntry ∧ f = LAST_DELETED_ENTRY ∧ free = []) ∨ f ∈ free) ∧
      (prevEntryId + 1 < s.mEntries.length → (s.entryAt (prevEntryId + 1)).mDeleted = true →
        f = prevEntryId + 1) ∧
      (¬ prevEntryId + 1 < s.mEntries.length → 1 < prevEntryId →
        (s.entryAt (prevEntryId - 1)).mDeleted = true → f = prevEntryId - 1) ∧
      (¬ (prevEntryId + 1 < s.mEntries.length ∧ (s.entryAt (prevEntryId + 1)).mDeleted = true) →
        ¬ (¬ prevEntryId + 1 < s.mEntries.length ∧ 1 < prevEntryId ∧
          (s.entryAt (prevEntryId - 1)).mDeleted = true) → f = s.mFirstFreeEntry) := by
    have hfirst : (s.mFirstFreeEntry = s.mFirstFreeEntry ∧
        s.mFirstFreeEntry = LAST_DELETED_ENTRY ∧ free = []) ∨ s.mFirstFreeEntry ∈ free := by
      rcases Inv_first s free hinv with e | ⟨rest, e, -⟩
      · exact Or.inl ⟨rfl, e.2, e.1⟩
      · right; rw [e]; exact List.mem_cons_self _ _
    have hdelmem : ∀ i, i < s.mEntries.length → i ≠ 0 → (s.entryAt i).mDeleted = true →
        i ∈ free := by
      intro i hi hi0 hd
      have := (h6 i hi).1 hd
      rcases List.mem_cons.1 this with e | e
      · exact absurd e hi0
      · exact e
    rw [h1]
    by_cases c1 : prevEntryId + 1 < s.mEntries.length
    · rw [if_pos c1, RetriveItem_lt _ _ c1]
      by_cases c2 : (s.entryAt (prevEntryId + 1)).mDeleted = true
      · refine ⟨prevEntryId + 1, by simp [Except.bind, IsDeleted, c2], ?_, ?_, ?_, ?_⟩
        · exact Or.inr (hdelmem _ c1 (by omega) c2)
        · intro _ _; rfl
        · intro c; exact absurd c1 c
        · intro c; exact absurd ⟨c1, c2⟩ c
      · refine ⟨s.mFirstFreeEntry, by simp [Except.bind, IsDeleted, c2], hfirst, ?_, ?_, ?_⟩
        · intro _ c; exact absurd c c2
        · intro c; exact absurd c1 c
        · intro _ _; rfl
    · rw [if_neg c1]
      by_cases c3 : prevEntryId > 1
      · rw [if_pos c3, RetriveItem_lt _ _ (by omega)]
        by_cases c2 : (s.entryAt (prevEntryId - 1)).mDeleted = true
        · refine ⟨prevEntryId - 1, by simp [Except.bind, IsDeleted, c2], ?_, ?_, ?_, ?_⟩
          · exact Or.inr (hdelmem _ (by omega) (by omega) c2)
          · intro c; exact absurd c c1
          · intro _ _ _; rfl
          · intro _ c; exact absurd ⟨c1, c3, c2⟩ c
        · refine ⟨s.mFirstFreeEntry, by simp [Except.bind, IsDeleted, c2], hfirst, ?_, ?_, ?_⟩
          · intro c; exact absurd c c1
          · intro _ _ c; exact absurd c c2
          · intro _ _; rfl
      · rw [if_neg c3]
        refine ⟨s.mFirstFreeEntry, rfl, hfirst, ?_, ?_, ?_⟩
        · intro c; exact absurd c c1
        · intro _ c; exact absurd c c3
        · intro _ _; rfl
  -- the list is extended when it is empty
  obtain ⟨s1, free1, n, hext, hinv1, hn1, hkeep1, hlen1, hE, hNE⟩ : ∃ s1 free1 n,
      (if f = LAST_DELETED_ENTRY then s.ExtentFreeList else Except.ok (s, f)) = .ok (s1, n) ∧
      s1.Inv free1 ∧ n ∈ free1 ∧
      (∀ i, i ≠ 0 → i < s.mEntries.length → s1.entryAt i = s.entryAt i) ∧
      (s.mEntries.length ≤ s1.mEntries.length ∧ s1.mEntries.length ≤ s.mEntries.length + 1) ∧
      (free = [] → free1 = [n] ∧ n = s.mEntries.length ∧
        s1.mEntries.length = s.mEntries.length + 1) ∧
      (free ≠ [] → n = f ∧ free1 = free ∧ s1 = s) := by
    rcases hfmem with ⟨e1, e2, e3⟩ | e
    · obtain ⟨-, s1, hs1, hi1, hl1, hk1⟩ := ExtentFreeList_spec s free hinv (by rw [← e1, e2]) hroom
      refine ⟨s1, [s.mEntries.length], s.mEntries.length, by rw [if_pos e2, hs1], hi1,
        List.mem_singleton_self _, hk1, ⟨by omega, by omega⟩, fun _ => ⟨rfl, rfl, hl1⟩,
        fun c => absurd e3 c⟩
    · have hflt := (h5 f (List.mem_cons_of_mem _ e)).1
      refine ⟨s, free, f, by rw [if_neg (by unfold LAST_DELETED_ENTRY; omega)], hinv, e,
        fun _ _ _ => rfl, ⟨Nat.le_refl _, Nat.le_succ _⟩, fun c => ?_, fun _ => ⟨rfl, rfl, rfl⟩⟩
      rw [c] at e
      exact absurd e (List.not_mem_nil _)
  obtain ⟨hc1, hc2⟩ := Inv_bounds s1 free1 hinv1
  obtain ⟨s2, hextract, hinv2, hlen2, hkeep2, hn2⟩ := ExtractFromFreeList_spec s1 free1 n hinv1 hn1
  have hn1m : n ∈ 0 :: free1 := List.mem_cons_of_mem _ hn1
  have hnlt1 : n < s1.mEntries.length := (hinv1.2.2.2.2.1 n hn1m).1
  have hn0 : n ≠ 0 := by
    intro e
    have := hinv1.2.2.2.1
    rw [List.nodup_cons] at this
    exact this.1 (e ▸ hn1)
  have hndel : n < s.mEntries.length → (s.entryAt n).mDeleted = true := by
    intro hlt
    rw [← hkeep1 n hn0 hlt]
    exact (hinv1.2.2.2.2.2.1 n hnlt1).2 hn1m
  -- an entry of `s` that is not deleted is as it was
  have hlive : ∀ i, i < s.mEntries.length → (s.entryAt i).mDeleted = false →
      i ∉ 0 :: free1 ∧ s2.entryAt i = s.entryAt i := by
    intro i hi hd
    have hi0 : i ≠ 0 := by
      intro e
      rw [e, (h6 0 hb2).2 (List.mem_cons_self _ _)] at hd
      exact absurd hd (by simp)
    have h1i := hkeep1 i hi0 hi
    have hnm : i ∉ 0 :: free1 := by
      intro hm
      have := (hinv1.2.2.2.2.2.1 i (by omega)).2 hm
      rw [h1i, hd] at this
      exact absurd this (by simp)
    exact ⟨hnm, by rw [hkeep2 i hnm, h1i]⟩
  have hdata2 := hinv2.2.2.1
  have hfree2 : ∀ i ∈ 0 :: free1.erase n, i ≠ n := by
    intro i hi e
    rw [e] at hi
    rcases List.mem_cons.1 hi with e2 | e2
    · exact hn0 e2
    · have hnd := hinv1.2.2.2.1
      rw [List.nodup_cons] at hnd
      exact (List.Nodup.mem_erase_iff hnd.2).1 e2 |>.1 rfl
  have hA : free = [] → free1.erase n = [] ∧ n = s.mEntries.length ∧
      s2.mEntries.length = s.mEntries.length + 1 := by
    intro c
    obtain ⟨e1, e2, e3⟩ := hE c
    rw [e1, hlen2]
    exact ⟨by simp, e2, e3⟩
  have hB : free ≠ [] → n ∈ free ∧ free1.erase n = free.erase n ∧
      s2.mEntries.length = s.mEntries.length := by
    intro c
    obtain ⟨e1, e2, e3⟩ := hNE c
    exact ⟨e2 ▸ hn1, by rw [e2], by rw [hlen2, e3]⟩
  have hC1 : prevEntryId + 1 < s.mEntries.length →
      (s.entryAt (prevEntryId + 1)).mDeleted = true → n = prevEntryId + 1 := by
    intro c1 c2
    by_cases c : free = []
    · subst c
      have := (h6 _ c1).1 c2
      simp at this
    · rw [(hNE c).1]; exact hf1 c1 c2
  have hC2 : ¬ prevEntryId + 1 < s.mEntries.length → 1 < prevEntryId →
      (s.entryAt (prevEntryId - 1)).mDeleted = true → n = prevEntryId - 1 := by
    intro c1 c2 c3
    by_cases c : free = []
    · subst c
      have := (h6 _ (by omega)).1 c3
      simp only [List.mem_cons, List.not_mem_nil, or_false] at this
      omega
    · rw [(hNE c).1]; exact hf2 c1 c2 c3
  have hC3 : ¬ (prevEntryId + 1 < s.mEntries.length ∧
        (s.entryAt (prevEntryId + 1)).mDeleted = true) →
      ¬ (¬ prevEntryId + 1 < s.mEntries.length ∧ 1 < prevEntryId ∧
        (s.entryAt (prevEntryId - 1)).mDeleted = true) →
      free ≠ [] → n = s.mFirstFreeEntry := by
    intro c1 c2 c3
    rw [(hNE c3).1]; exact hf3 c1 c2
  unfold AllocateEntry
  simp only [bind]
  rw [hf]
  simp only [Except.bind]
  rw [hext]
  dsimp only
  rw [hextract]
  dsimp only
  have hn2 : s2.entryAt n = ⟨0, 0, false, (s1.entryAt n).mFirst, (s1.entryAt n).mRawData⟩ := hn2
  rw [RetriveItem_lt _ _ (by rw [hlen2]; exact hnlt1), hn2]
  dsimp only
  by_cases hp0 : prevEntryId = 0
  · subst hp0
    rw [if_neg (by omega)]
    have e1 : (((⟨0, 0, false, (s1.entryAt n).mFirst, (s1.entryAt n).mRawData⟩ :
        StoreEntry).MarkAsFirstEntry true).SetPrevEntry 0).SetNextEntry LAST_CHAINED_ENTRY
        = ⟨0, LAST_CHAINED_ENTRY, false, true, (s1.entryAt n).mRawData⟩ := by
      rw [SetNextEntry_lt _ _ (by unfold LAST_CHAINED_ENTRY; omega),
        SetPrevEntry_lt _ _ (by omega)]
      rfl
    rw [e1]
    have hent : ∀ i, (s2.Store n
        ⟨0, LAST_CHAINED_ENTRY, false, true, (s1.entryAt n).mRawData⟩).entryAt i
        = if i = n then ⟨0, LAST_CHAINED_ENTRY, false, true, (s1.entryAt n).mRawData⟩
          else s2.entryAt i := by
      intro i
      rw [entryAt_Store _ _ _ _ (by rw [hlen2]; exact hnlt1)]
    refine ⟨_, free1.erase n, n, rfl, ?_, ?_, ?_, ?_, hn0, hndel, ?_, ?_, ?_, ?_, ?_, ?_, ?_, ?_,
      ?_, ?_, ?_⟩
    · apply Inv_frame s2 _ _ hinv2 (length_Store _ _ _) rfl rfl
      · intro i hi
        rw [hent, if_neg (hfree2 i hi)]
      · intro i hi hnm
        rw [hent]
        by_cases c : i = n
        · rw [if_pos c]
          have := hdata2 n (by rw [hlen2]; exact hnlt1)
          rw [hn2] at this
          exact ⟨rfl, this⟩
        · rw [if_neg c]
          have hd := (hinv2.2.2.2.2.2.1 i hi)
          refine ⟨?_, hdata2 i hi⟩
          cases hdd : (s2.entryAt i).mDeleted
          · rfl
          · exact absurd (hd.1 hdd) hnm
    · rw [length_Store, hlen2]; exact hlen1.1
    · rw [length_Store, hlen2]; exact hlen1.2
    · rw [length_Store, hlen2]; exact hnlt1
    · intro i hi hd _
      rw [hent, if_neg (fun e => by
        rw [e, hndel (e ▸ hi)] at hd
        exact absurd hd (by simp))]
      exact (hlive i hi hd).2
    · rw [hent, if_pos rfl]
    · rw [hent, if_pos rfl]
    · rw [hent, if_pos rfl]
    · rw [hent, if_pos rfl]; simp
    · intro c; exact absurd c (by omega)
    · rw [length_Store]; exact hA
    · rw [length_Store]; exact hB
    · exact hC1
    · exact hC2
    · exact hC3
  · have hpos : prevEntryId > 0 := Nat.pos_of_ne_zero hp0
    obtain ⟨-, hpdel, hpnext⟩ := hprev.resolve_left hp0
    obtain ⟨hpnm, hpkeep⟩ := hlive prevEntryId hplt hpdel
    have hplt2 : prevEntryId < s2.mEntries.length := by rw [hlen2]; omega
    have hnp : n ≠ prevEntryId := by
      intro e
      have := hndel (e ▸ hplt)
      rw [e, hpdel] at this
      exact absurd this (by simp)
    rw [if_pos hpos, RetriveItem_lt _ _ hplt2, hpkeep]
    dsimp only
    rw [assert_true _ (by simpa [IsDeleted] using hpdel),
      assert_true _ (by simpa [NextEntry] using hpnext)]
    dsimp only
    rw [SetNextEntry_lt _ _ (by omega),
      RetriveItem_lt _ _ (by rw [length_Store, hlen2]; exact hnlt1),
      entryAt_Store_ne _ _ _ _ hnp, hn2]
    dsimp only
    have e1 : (((⟨0, 0, false, (s1.entryAt n).mFirst, (s1.entryAt n).mRawData⟩ :
        StoreEntry).SetPrevEntry prevEntryId).MarkAsFirstEntry false).SetNextEntry
          (s.entryAt prevEntryId).NextEntry
        = ⟨prevEntryId, LAST_CHAINED_ENTRY, false, false, (s1.entryAt n).mRawData⟩ := by
      rw [show (s.entryAt prevEntryId).NextEntry = LAST_CHAINED_ENTRY from hpnext,
        SetNextEntry_lt _ _ (by unfold LAST_CHAINED_ENTRY; omega),
        SetPrevEntry_lt _ _ (by omega)]
      rfl
    rw [e1]
    rw [if_neg (by simp [NextEntry])]
    have hent : ∀ i, ((s2.Store prevEntryId { s.entryAt prevEntryId with mNextEntry := n }).Store
        n ⟨prevEntryId, LAST_CHAINED_ENTRY, false, false, (s1.entryAt n).mRawData⟩).entryAt i
        = if i = n then ⟨prevEntryId, LAST_CHAINED_ENTRY, false, false, (s1.entryAt n).mRawData⟩
          else if i = prevEntryId then { s.entryAt prevEntryId with mNextEntry := n }
          else s2.entryAt i := by
      intro i
      rw [entryAt_Store _ _ _ _ (by rw [length_Store, hlen2]; exact hnlt1),
        entryAt_Store _ _ _ _ hplt2]
    have hpnm2 : prevEntryId ∉ 0 :: free1.erase n := by
      intro hm
      apply hpnm
      rcases List.mem_cons.1 hm with e | e
      · rw [e]; exact List.mem_cons_self _ _
      · exact List.mem_cons_of_mem _ (List.mem_of_mem_erase e)
    refine ⟨_, free1.erase n, n, rfl, ?_, ?_, ?_, ?_, hn0, hndel, ?_, ?_, ?_, ?_, ?_, ?_, ?_, ?_,
      ?_, ?_, ?_⟩
    · refine Inv_frame s2 _ _ hinv2 ?_ rfl rfl ?_ ?_
      · rw [length_Store, length_Store]
      · intro i hi
        have c2 : i ≠ prevEntryId := fun e => hpnm2 (e ▸ hi)
        rw [hent, if_neg (hfree2 i hi), if_neg c2]
      · intro i hi hnm
        rw [hent]
        by_cases c : i = n
        · rw [if_pos c]
          have := hdata2 n (by rw [hlen2]; exact hnlt1)
          rw [hn2] at this
          exact ⟨rfl, this⟩
        · rw [if_neg c]
          by_cases c2 : i = prevEntryId
          · rw [if_pos c2]
            exact ⟨hpdel, h3 prevEntryId hplt⟩
          · rw [if_neg c2]
            have hd := (hinv2.2.2.2.2.2.1 i hi)
            refine ⟨?_, hdata2 i hi⟩
            cases hdd : (s2.entryAt i).mDeleted
            · rfl
            · exact absurd (hd.1 hdd) hnm
    · rw [length_Store, length_Store, hlen2]; exact hlen1.1
    · rw [length_Store, length_Store, hlen2]; exact hlen1.2
    · rw [length_Store, length_Store, hlen2]; exact hnlt1
    · intro i hi hd hip
      have hin : i ≠ n := by
        intro e
        rw [e, hndel (e ▸ hi)] at hd
        exact absurd hd (by simp)
      rw [hent, if_neg hin, if_neg hip]
      exact (hlive i hi hd).2
    · rw [hent, if_pos rfl]
    · rw [hent, if_pos rfl]
    · rw [hent, if_pos rfl]
    · rw [hent, if_pos rfl]; simp [hp0]
    · intro _
      rw [hent, if_neg (Ne.symm hnp), if_pos rfl]
    · rw [length_Store, length_Store]; exact hA
    · rw [length_Store, length_Store]; exact hB
    · exact hC1
    · exact hC2
    · exact hC3

end VariableSizeStore
end pastra
end whais
namespace whais
namespace pastra
namespace VariableSizeStore

open StoreEntry

/-- A chain depends on the deleted flags and the next fields of its entries. -/
theorem IsChain_frame (s s2 : VariableSizeStore) (ids : List Nat) : ∀ (entryId : Nat),
    s.IsChain entryId ids → s.mEntries.length ≤ s2.mEntries.length →
    (∀ i ∈ ids, (s2.entryAt i).mDeleted = (s.entryAt i).mDeleted ∧
      (s2.entryAt i).mNextEntry = (s.entryAt i).mNextEntry) → s2.IsChain entryId ids := by
  induction ids with
  | nil => intro entryId h _ _; exact h
  | cons x rest ih =>
    intro entryId h hlen hsame
    rw [IsChain_cons] at h ⊢
    obtain ⟨h1, h2, h3, h4⟩ := h
    obtain ⟨e1, e2⟩ := hsame x (List.mem_cons_self _ _)
    refine ⟨h1, by omega, by rw [e1]; exact h3, ?_⟩
    rw [e2]
    exact ih _ h4 hlen (fun i hi => hsame i (List.mem_cons_of_mem _ hi))

theorem IsChain_mem (s : VariableSizeStore) (ids : List Nat) : ∀ (entryId : Nat),
    s.IsChain entryId ids → ∀ i ∈ ids, i < s.mEntries.length ∧ (s.entryAt i).mDeleted = false := by
  induction ids with
  | nil => intro _ _ i hi; exact absurd hi (List.not_mem_nil _)
  | cons x rest ih =>
    intro entryId h i hi
    rw [IsChain_cons] at h
    obtain ⟨h1, h2, h3, h4⟩ := h
    rcases List.mem_cons.1 hi with e | e
    · rw [e]; exact ⟨h2, h3⟩
    · exact ih _ h4 i e

/-- The rest of a chain is a chain. -/
theorem IsChain_drop (s : VariableSizeStore) (k : Nat) : ∀ (ids : List Nat) (entryId : Nat),
    s.IsChain entryId ids → k < ids.length →
    ∃ x rest, ids.drop k = x :: rest ∧ s.IsChain x (x :: rest) := by
  induction k with
  | zero =>
    intro ids entryId h hk
    cases ids with
    | nil => simp at hk
    | cons x rest =>
      rw [IsChain_cons] at h
      exact ⟨x, rest, rfl, (IsChain_cons _ _ _ _).2 ⟨rfl, h.2⟩⟩
  | succ k ih =>
    intro ids entryId h hk
    cases ids with
    | nil => simp at hk
    | cons x rest =>
      rw [IsChain_cons] at h
      simp only [List.length_cons] at hk
      exact ih rest _ h.2.2.2 (by omega)

/-- A chain is told by its first entry. -/
theorem IsChain_unique (s : VariableSizeStore) (hlen : s.mEntries.length < 2 ^ 58)
    (ids : List Nat) : ∀ (ids2 : List Nat) (entryId : Nat),
    s.IsChain entryId ids → s.IsChain entryId ids2 → ids = ids2 := by
  induction ids with
  | nil =>
    intro ids2 entryId h h2
    cases ids2 with
    | nil => rfl
    | cons y rest2 =>
      rw [IsChain_nil] at h
      rw [IsChain_cons] at h2
      have := h2.2.1
      rw [← h2.1, h] at this
      unfold LAST_CHAINED_ENTRY at this
      omega
  | cons x rest ih =>
    intro ids2 entryId h h2
    cases ids2 with
    | nil =>
      rw [IsChain_nil] at h2
      rw [IsChain_cons] at h
      have := h.2.1
      rw [← h.1, h2] at this
      unfold LAST_CHAINED_ENTRY at this
      omega
    | cons y rest2 =>
      rw [IsChain_cons] at h h2
      have hxy : x = y := by rw [← h.1, ← h2.1]
      subst hxy
      rw [ih rest2 _ h.2.2.2 h2.2.2.2]

/-- No entry is twice in a chain. -/
theorem IsChain_nodup (s : VariableSizeStore) (hlen : s.mEntries.length < 2 ^ 58)
    (ids : List Nat) : ∀ (entryId : Nat), s.IsChain entryId ids → ids.Nodup := by
  induction ids with
  | nil => intro _ _; exact List.nodup_nil
  | cons x rest ih =>
    intro entryId h
    have h0 := h
    rw [IsChain_cons] at h
    obtain ⟨h1, h2, h3, h4⟩ := h
    rw [List.nodup_cons]
    refine ⟨?_, ih _ h4⟩
    intro hm
    obtain ⟨k, hk, hkx⟩ := List.getElem_of_mem hm
    obtain ⟨y, rest2, hd, hc⟩ := IsChain_drop s k rest _ h4 hk
    have hy : y = x := by
      have hd2 := hd
      rw [List.drop_eq_getElem_cons hk] at hd2
      rw [← hkx, (List.cons.inj hd2).1]
    subst hy
    have hc0 : s.IsChain y (y :: rest) := (IsChain_cons _ _ _ _).2 ⟨rfl, h2, h3, h4⟩
    have := IsChain_unique s hlen _ _ _ hc hc0
    have hl : (y :: rest2).length = (y :: rest).length := by rw [this]
    have hl2 : (rest.drop k).length = rest.length - k := List.length_drop _ _
    rw [hd] at hl2
    simp only [List.length_cons] at hl hl2
    omega

/-- A chain with a new last entry. -/
theorem IsChain_snoc (s s2 : VariableSizeStore) (p n : Nat) (pre : List Nat) :
    ∀ (entryId : Nat), s.IsChain entryId (pre ++ [p]) →
    s.mEntries.length ≤ s2.mEntries.length →
    (∀ i ∈ pre, (s2.entryAt i).mDeleted = (s.entryAt i).mDeleted ∧
      (s2.entryAt i).mNextEntry = (s.entryAt i).mNextEntry) →
    (s2.entryAt p).mDeleted = false → (s2.entryAt p).mNextEntry = n →
    n < s2.mEntries.length → (s2.entryAt n).mDeleted = false →
    (s2.entryAt n).mNextEntry = LAST_CHAINED_ENTRY →
    s2.IsChain entryId (pre ++ [p, n]) := by
  induction pre with
  | nil =>
    intro entryId h hlen _ hpd hpn hn hnd hnn
    simp only [List.nil_append] at h ⊢
    rw [IsChain_cons] at h
    rw [IsChain_cons, IsChain_cons, IsChain_nil]
    exact ⟨h.1, by omega, hpd, hpn, hn, hnd, hnn⟩
  | cons x rest ih =>
    intro entryId h hlen hsame hpd hpn hn hnd hnn
    simp only [List.cons_append] at h ⊢
    rw [IsChain_cons] at h ⊢
    obtain ⟨h1, h2, h3, h4⟩ := h
    obtain ⟨e1, e2⟩ := hsame x (List.mem_cons_self _ _)
    refine ⟨h1, by omega, by rw [e1]; exact h3, ?_⟩
    rw [e2]
    exact ih _ h4 hlen (fun i hi => hsame i (List.mem_cons_of_mem _ hi)) hpd hpn hn hnd hnn

theorem chainBytes_nil (s : VariableSizeStore) : s.chainBytes [] = [] := rfl

theorem chainBytes_cons (s : VariableSizeStore) (x : Nat) (rest : List Nat) :
    s.chainBytes (x :: rest) = (s.entryAt x).mRawData ++ s.chainBytes rest := rfl

theorem chainBytes_append (s : VariableSizeStore) (A B : List Nat) :
    s.chainBytes (A ++ B) = s.chainBytes A ++ s.chainBytes B := by
  unfold chainBytes
  rw [List.map_append, List.flatten_append]

theorem chainBytes_length (s : VariableSizeStore) (ids : List Nat)
    (h : ∀ i ∈ ids, (s.entryAt i).mRawData.length = ENTRY_SIZE) :
    (s.chainBytes ids).length = ENTRY_SIZE * ids.length := by
  induction ids with
  | nil => rfl
  | cons x rest ih =>
    rw [chainBytes_cons, List.length_append, h x (List.mem_cons_self _ _),
      ih (fun i hi => h i (List.mem_cons_of_mem _ hi)), List.length_cons]
    unfold ENTRY_SIZE
    omega

theorem chainBytes_frame (s s2 : VariableSizeStore) (ids : List Nat)
    (h : ∀ i ∈ ids, (s2.entryAt i).mRawData = (s.entryAt i).mRawData) :
    s2.chainBytes ids = s.chainBytes ids := by
  induction ids with
  | nil => rfl
  | cons x rest ih =>
    rw [chainBytes_cons, chainBytes_cons, h x (List.mem_cons_self _ _),
      ih (fun i hi => h i (List.mem_cons_of_mem _ hi))]

end VariableSizeStore
end pastra
end whais
namespace whais
namespace pastra
namespace VariableSizeStore

open StoreEntry

theorem GetRecordSkip_step (fuel : Nat) (s : VariableSizeStore) (x offset : Nat)
    (hx : x < s.mEntries.length) (hlen : s.mEntries.length < 2 ^ 58)
    (hd : (s.entryAt x).mDeleted = false) :
    GetRecordSkip (fuel + 1) s x offset =
      if offset < 48 then .ok (x, offset)
      else GetRecordSkip fuel s (s.entryAt x).mNextEntry (offset - 48) := by
  rw [GetRecordSkip]
  simp only [bind, Except.bind]
  rw [if_neg (by unfold LAST_CHAINED_ENTRY; omega), RetriveItem_lt _ _ hx]
  dsimp only
  rw [assert_true _ (by simpa [IsDeleted] using hd)]
  rfl

/-- The first loop of `GetRecord` stops at the entry of the chain that holds
`offset`. -/
theorem GetRecordSkip_spec (s : VariableSizeStore) (hlen : s.mEntries.length < 2 ^ 58)
    (ids : List Nat) : ∀ (entryId offset fuel : Nat), s.IsChain entryId ids →
    offset / 48 < ids.length → offset / 48 < fuel →
    ∃ x rest, ids.drop (offset / 48) = x :: rest ∧
      GetRecordSkip fuel s entryId offset = .ok (x, offset % 48) := by
  induction ids with
  | nil => intro _ _ _ _ h; simp at h
  | cons x rest ih =>
    intro entryId offset fuel h hk hf
    rw [IsChain_cons] at h
    obtain ⟨h1, h2, h3, h4⟩ := h
    subst h1
    obtain ⟨fuel, rfl⟩ : ∃ f, fuel = f + 1 := ⟨fuel - 1, by omega⟩
    rw [GetRecordSkip_step fuel s _ offset h2 hlen h3]
    by_cases ho : offset < 48
    · rw [if_pos ho, Nat.div_eq_of_lt ho, Nat.mod_eq_of_lt ho]
      exact ⟨_, rest, rfl, rfl⟩
    · rw [if_neg ho]
      simp only [List.length_cons] at hk
      have e1 : offset / 48 = (offset - 48) / 48 + 1 := by omega
      have e2 : offset % 48 = (offset - 48) % 48 := by omega
      obtain ⟨y, rest2, hy, hr⟩ := ih _ (offset - 48) fuel h4 (by omega) (by omega)
      rw [e1, e2, List.drop_succ_cons]
      exact ⟨y, rest2, hy, hr⟩

theorem GetRecordRead_zero (fuel : Nat) (s : VariableSizeStore) (x offset : Nat) :
    GetRecordRead (fuel + 1) s x offset 0 = .ok [] := by
  rw [GetRecordRead]
  simp

theorem StoreEntry_Read_spec (e : StoreEntry) (offset count : Nat) (hd : e.mRawData.length = 48)
    (h : offset + count ≤ 48) :
    e.Read offset count = .ok ((e.mRawData.drop offset).take count) := by
  unfold Read StoreEntry.Size ENTRY_SIZE
  have e1 : offset % 2 ^ 32 = offset := Nat.mod_eq_of_lt (by omega)
  have e2 : count % 2 ^ 32 = count := Nat.mod_eq_of_lt (by omega)
  have e3 : (count + offset) % 2 ^ 32 = count + offset := Nat.mod_eq_of_lt (by omega)
  dsimp only
  rw [e1, e2, e3, if_neg (show ¬ count + offset > 48 by omega), hd, if_pos h]

/-- The second loop of `GetRecord` returns the bytes of the chain. -/
theorem GetRecordRead_spec (s : VariableSizeStore) (hlen : s.mEntries.length < 2 ^ 58)
    (ids : List Nat) : ∀ (entryId offset size fuel : Nat), s.IsChain entryId ids →
    (∀ i ∈ ids, (s.entryAt i).mRawData.length = 48) →
    offset < 48 → offset + size ≤ 48 * ids.length → size < fuel →
    GetRecordRead fuel s entryId offset size = .ok (flatRead (s.chainBytes ids) offset size) := by
  induction ids with
  | nil =>
    intro entryId offset size fuel _ _ _ hs hf
    have : size = 0 := by simp at hs; omega
    subst this
    obtain ⟨fuel, rfl⟩ : ∃ f, fuel = f + 1 := ⟨fuel - 1, by omega⟩
    rw [GetRecordRead_zero]
    simp [flatRead]
  | cons x rest ih =>
    intro entryId offset size fuel h hdata ho hs hf
    obtain ⟨fuel, rfl⟩ : ∃ f, fuel = f + 1 := ⟨fuel - 1, by omega⟩
    by_cases hz : size = 0
    · subst hz
      rw [GetRecordRead_zero]
      simp [flatRead]
    rw [IsChain_cons] at h
    obtain ⟨h1, h2, h3, h4⟩ := h
    subst h1
    have hdx := hdata _ (List.mem_cons_self _ _)
    rw [GetRecordRead]
    simp only [bind, Except.bind]
    rw [if_pos (by omega), if_neg (by unfold LAST_CHAINED_ENTRY; omega), RetriveItem_lt _ _ h2]
    dsimp only
    rw [assert_true _ (by simpa [IsDeleted] using h3)]
    dsimp only
    have hS : StoreEntry.Size = 48 := rfl
    rw [hS, StoreEntry_Read_spec _ _ _ hdx (by omega)]
    dsimp only
    simp only [List.length_cons] at hs
    rw [chainBytes_cons]
    by_cases hc : size ≤ 48 - offset
    · have e1 : min size (48 - offset) = size := by omega
      rw [e1, Nat.sub_self]
      obtain ⟨fuel, rfl⟩ : ∃ f, fuel = f + 1 := ⟨fuel - 1, by omega⟩
      rw [GetRecordRead_zero]
      dsimp only
      unfold flatRead
      rw [List.append_nil, List.drop_append_of_le_length (by omega),
        List.take_append_of_le_length (by rw [List.length_drop]; omega)]
    · have e1 : min size (48 - offset) = 48 - offset := by omega
      have e2 : (offset + (48 - offset)) % 48 = 0 := by
        rw [show offset + (48 - offset) = 48 by omega]
      rw [e1, e2, show (s.entryAt entryId).NextEntry = (s.entryAt entryId).mNextEntry from rfl,
        ih _ 0 _ fuel h4 (fun i hi => hdata i (List.mem_cons_of_mem _ hi)) (by omega)
        (by omega) (by omega)]
      dsimp only
      unfold flatRead
      have hA : List.drop offset ((s.entryAt entryId).mRawData ++ s.chainBytes rest)
          = List.drop offset (s.entryAt entryId).mRawData ++ s.chainBytes rest :=
        List.drop_append_of_le_length (by omega)
      have hB : List.take size (List.drop offset (s.entryAt entryId).mRawData
            ++ s.chainBytes rest)
          = List.drop offset (s.entryAt entryId).mRawData
            ++ List.take (size - (48 - offset)) (s.chainBytes rest) := by
        rw [List.take_append_eq_append_take,
          List.take_of_length_le (by rw [List.length_drop]; omega), List.length_drop, hdx]
      have hC : List.take (48 - offset) (List.drop offset (s.entryAt entryId).mRawData)
          = List.drop offset (s.entryAt entryId).mRawData :=
        List.take_of_length_le (by rw [List.length_drop]; omega)
      rw [hA, hB, hC, List.drop_zero]

/-- `GetRecord` on a chain returns the bytes of the chain it is asked for. -/
theorem GetRecord_spec (s : VariableSizeStore) (hlen : s.mEntries.length < 2 ^ 58)
    (ids : List Nat) (entryId offset size : Nat) (h : s.IsChain entryId ids)
    (hdata : ∀ i ∈ ids, (s.entryAt i).mRawData.length = 48)
    (ho : offset < 48 * ids.length) (hs : offset + size ≤ 48 * ids.length) :
    s.GetRecord entryId offset size = .ok (flatRead (s.chainBytes ids) offset size) := by
  have hk : offset / 48 < ids.length := by omega
  obtain ⟨x, rest, hd, hskip⟩ := GetRecordSkip_spec s hlen ids entryId offset (offset / 48 + 1) h hk
    (by omega)
  obtain ⟨x2, rest2, hd2, hc⟩ := IsChain_drop s (offset / 48) ids entryId h hk
  rw [hd] at hd2
  obtain ⟨rfl, rfl⟩ := List.cons.inj hd2
  have hlen2 : (ids.drop (offset / 48)).length = ids.length - offset / 48 := List.length_drop _ _
  have hmem : ∀ i ∈ x :: rest, (s.entryAt i).mRawData.length = 48 := by
    intro i hi
    rw [← hd] at hi
    exact hdata i (List.mem_of_mem_drop hi)
  unfold GetRecord
  simp only [bind, Except.bind]
  have hS : StoreEntry.Size = 48 := rfl
  rw [hS, hskip]
  dsimp only
  rw [GetRecordRead_spec s hlen (x :: rest) x (offset % 48) size (size + 1) hc hmem
    (Nat.mod_lt _ (by omega)) (by rw [← hd, hlen2]; omega) (by omega)]
  congr 1
  have hsplit : s.chainBytes ids
      = s.chainBytes (ids.take (offset / 48)) ++ s.chainBytes (x :: rest) := by
    rw [← hd, ← chainBytes_append, List.take_append_drop]
  have hl : (s.chainBytes (ids.take (offset / 48))).length = 48 * (offset / 48) := by
    rw [chainBytes_length _ _ (fun i hi => hdata i (List.mem_of_mem_take hi)), List.length_take]
    unfold ENTRY_SIZE
    rw [Nat.min_eq_left (by omega)]
  have hR : List.drop offset (s.chainBytes (ids.take (offset / 48)) ++ s.chainBytes (x :: rest))
      = List.drop (offset % 48) (s.chainBytes (x :: rest)) := by
    rw [List.drop_append_eq_append_drop, hl,
      List.drop_of_length_le (l := s.chainBytes (ids.take (offset / 48))) (by rw [hl]; omega),
      List.nil_append]
    congr 1
    omega
  rw [hsplit]
  unfold flatRead
  rw [hR]

end VariableSizeStore
end pastra
end whais
namespace whais
namespace pastra
namespace VariableSizeStore

open StoreEntry

theorem StoreEntry_Write_spec (e : StoreEntry) (offset : Nat) (buffer : List Byte)
    (hd : e.mRawData.length = 48) (ho : offset < 48) (hb : buffer.length + 48 ≤ 2 ^ 32) :
    e.Write offset buffer.length buffer = .ok (min buffer.length (48 - offset),
      ⟨e.mPrevEntry, e.mNextEntry, e.mDeleted, e.mFirst,
        memcpy e.mRawData offset (buffer.take (min buffer.length (48 - offset)))⟩) := by
  unfold Write StoreEntry.Size ENTRY_SIZE
  have e1 : offset % 2 ^ 32 = offset := Nat.mod_eq_of_lt (by omega)
  have e2 : buffer.length % 2 ^ 32 = buffer.length := Nat.mod_eq_of_lt (by omega)
  have e3 : (buffer.length + offset) % 2 ^ 32 = buffer.length + offset :=
    Nat.mod_eq_of_lt (by omega)
  have e4 : (48 + 2 ^ 32 - offset) % 2 ^ 32 = 48 - offset := by omega
  dsimp only
  rw [e1, e2, e3, e4]
  by_cases hc : buffer.length + offset > 48
  · rw [if_pos hc, hd, if_pos (by omega), Nat.min_eq_right (by omega)]
  · rw [if_neg hc, hd, if_pos (by omega), Nat.min_eq_left (by omega)]

theorem drop_memcpy (data buffer : List Byte) (offset : Nat)
    (h : offset + buffer.length ≤ data.length) :
    (memcpy data offset buffer).drop offset = buffer ++ data.drop (offset + buffer.length) := by
  unfold memcpy
  rw [List.append_assoc, List.drop_append_of_le_length (by rw [List.length_take]; omega),
    List.drop_of_length_le (by rw [List.length_take]; omega), List.nil_append]

/-- The next entry of the first entry of a chain is the first entry of the
rest. -/
theorem IsChain_head (s : VariableSizeStore) (ids : List Nat) (entryId : Nat)
    (h : s.IsChain entryId ids) : entryId = ids.headD LAST_CHAINED_ENTRY := by
  cases ids with
  | nil => exact h
  | cons x rest => exact h.1

theorem IsChain_last (s : VariableSizeStore) (p : Nat) (pre : List Nat) : ∀ (entryId : Nat),
    s.IsChain entryId (pre ++ [p]) →
    p < s.mEntries.length ∧ (s.entryAt p).mDeleted = false ∧
      (s.entryAt p).mNextEntry = LAST_CHAINED_ENTRY := by
  induction pre with
  | nil =>
    intro entryId h
    simp only [List.nil_append] at h
    rw [IsChain_cons, IsChain_nil] at h
    exact ⟨h.2.1, h.2.2.1, h.2.2.2⟩
  | cons x rest ih =>
    intro entryId h
    simp only [List.cons_append] at h
    rw [IsChain_cons] at h
    exact ih _ h.2.2.2

theorem UpdateRecordSkip_step (fuel : Nat) (s : VariableSizeStore) (x prev offset : Nat)
    (hx : x < s.mEntries.length) (hlen : s.mEntries.length < 2 ^ 58)
    (hd : (s.entryAt x).mDeleted = false) :
    UpdateRecordSkip (fuel + 1) s x prev offset =
      if offset < 48 then .ok (x, prev, offset)
      else UpdateRecordSkip fuel s (s.entryAt x).mNextEntry x (offset - 48) := by
  rw [UpdateRecordSkip]
  simp only [bind, Except.bind]
  rw [if_neg (by unfold LAST_CHAINED_ENTRY; omega), RetriveItem_lt _ _ hx]
  dsimp only
  rw [assert_true _ (by simpa [IsDeleted] using hd)]
  rfl

/-- The first loop of `UpdateRecord` stops at the entry of the chain that holds
`offset`, or at the end of the chain. -/
theorem UpdateRecordSkip_spec (s : VariableSizeStore) (hlen : s.mEntries.length < 2 ^ 58)
    (ids : List Nat) : ∀ (entryId prev offset fuel : Nat), s.IsChain entryId ids →
    offset ≤ 48 * ids.length → offset / 48 < fuel →
    UpdateRecordSkip fuel s entryId prev offset
      = .ok ((ids.drop (offset / 48)).headD LAST_CHAINED_ENTRY,
          (ids.take (offset / 48)).getLastD prev, offset % 48) := by
  induction ids with
  | nil =>
    intro entryId prev offset fuel h ho hf
    have : offset = 0 := by simp at ho; omega
    subst this
    obtain ⟨fuel, rfl⟩ : ∃ f, fuel = f + 1 := ⟨fuel - 1, by omega⟩
    rw [IsChain_nil] at h
    rw [UpdateRecordSkip]
    simp [h]
  | cons x rest ih =>
    intro entryId prev offset fuel h ho hf
    rw [IsChain_cons] at h
    obtain ⟨h1, h2, h3, h4⟩ := h
    subst h1
    obtain ⟨fuel, rfl⟩ : ∃ f, fuel = f + 1 := ⟨fuel - 1, by omega⟩
    rw [UpdateRecordSkip_step fuel s _ prev offset h2 hlen h3]
    by_cases ho2 : offset < 48
    · rw [if_pos ho2, Nat.div_eq_of_lt ho2, Nat.mod_eq_of_lt ho2]
      rfl
    · rw [if_neg ho2]
      simp only [List.length_cons] at ho
      have e1 : offset / 48 = (offset - 48) / 48 + 1 := by omega
      have e2 : offset % 48 = (offset - 48) % 48 := by omega
      rw [ih _ entryId (offset - 48) fuel h4 (by omega) (by omega), e1, e2, List.drop_succ_cons,
        List.take_succ_cons, List.getLastD_cons]

end VariableSizeStore
end pastra
end whais
namespace whais
namespace pastra
namespace VariableSizeStore

open StoreEntry

/-- One turn of the second loop of `UpdateRecord`. -/
theorem UpdateRecordWrite_step (fuel : Nat) (s s1 : VariableSizeStore)
    (entryId prev offset x : Nat) (buffer : List Byte) (hb : buffer ≠ [])
    (halloc : (if entryId = LAST_CHAINED_ENTRY then s.AllocateEntry prev
      else Except.ok (s, entryId)) = .ok (s1, x))
    (hx : x < s1.mEntries.length) (hd : (s1.entryAt x).mDeleted = false)
    (hdata : (s1.entryAt x).mRawData.length = 48) (ho : offset < 48)
    (hlen : buffer.length + 48 ≤ 2 ^ 32) :
    UpdateRecordWrite (fuel + 1) s entryId prev offset buffer =
      UpdateRecordWrite fuel
        (s1.Store x ⟨(s1.entryAt x).mPrevEntry, (s1.entryAt x).mNextEntry, (s1.entryAt x).mDeleted,
          (s1.entryAt x).mFirst, memcpy (s1.entryAt x).mRawData offset
            (buffer.take (min buffer.length (48 - offset)))⟩)
        (s1.entryAt x).mNextEntry x ((offset + min buffer.length (48 - offset)) % 48)
        (buffer.drop (min buffer.length (48 - offset))) := by
  have hpos : buffer.length > 0 := List.length_pos.2 hb
  rw [UpdateRecordWrite]
  simp only [bind]
  rw [if_pos hpos, halloc]
  simp only [Except.bind]
  rw [RetriveItem_lt _ _ hx]
  dsimp only
  rw [assert_true _ (by simpa [IsDeleted] using hd)]
  dsimp only
  rw [StoreEntry_Write_spec _ _ _ hdata ho hlen]
  dsimp only
  rw [assert_true _ (by
    rw [decide_eq_true_eq]
    omega)]
  rfl

end VariableSizeStore
end pastra
end whais
namespace whais
namespace pastra
namespace VariableSizeStore

open StoreEntry

theorem UpdateRecordWrite_nil (fuel : Nat) (s : VariableSizeStore) (entryId prev offset : Nat) :
    UpdateRecordWrite (fuel + 1) s entryId prev offset [] = .ok s := by
  rw [UpdateRecordWrite]
  simp

/-- What the second loop of `UpdateRecord` starts with: the entry it writes to,
which is the first entry of what is left of the chain, or a new last entry of
the chain. -/
theorem UpdateRecordWrite_alloc (s : VariableSizeStore) (free pre post : List Nat)
    (r prev offset : Nat) (n : Nat) (hinv : s.Inv free) (hchain : s.IsChain r (pre ++ post))
    (hpost : post = [] → pre ≠ [] ∧ prev = pre.getLastD 0 ∧ offset = 0)
    (hroom : (s.mEntries.length + n + 1) * sizeofEntry < 2 ^ 64) (hn : 0 < n) :
    ∃ s1 free1 x rest1 added1,
      (if post.headD LAST_CHAINED_ENTRY = LAST_CHAINED_ENTRY then s.AllocateEntry prev
        else Except.ok (s, post.headD LAST_CHAINED_ENTRY)) = .ok (s1, x) ∧
      s1.Inv free1 ∧ s1.IsChain r (pre ++ x :: rest1) ∧ post ++ added1 = x :: rest1 ∧
      added1.length ≤ 1 ∧ (post = [] → added1 = [x]) ∧ (post ≠ [] → added1 = []) ∧
      (∀ i ∈ pre, (s1.entryAt i).mRawData = (s.entryAt i).mRawData) ∧
      (∀ i ∈ pre ++ post, (s1.entryAt i).mFirst = (s.entryAt i).mFirst ∧
        (s1.entryAt i).mPrevEntry = (s.entryAt i).mPrevEntry) ∧
      s.mEntries.length ≤ s1.mEntries.length ∧
      s1.mEntries.length ≤ s.mEntries.length + added1.length ∧
      (free = [] → free1 = [] ∧ s1.mEntries.length = s.mEntries.length + added1.length) := by
  obtain ⟨hb1, hb2⟩ := Inv_bounds s free hinv
  cases post with
  | cons x rest =>
    have hx := (IsChain_mem s _ _ hchain x (List.mem_append_right _ (List.mem_cons_self _ _))).1
    refine ⟨s, free, x, rest, [], ?_, hinv, hchain, by simp, by simp, fun c => by simp at c,
      fun _ => rfl,
      fun _ _ => rfl, fun _ _ => ⟨rfl, rfl⟩, Nat.le_refl _, by simp, fun c => ⟨c, by simp⟩⟩
    rw [List.headD_cons, if_neg (by unfold LAST_CHAINED_ENTRY; omega)]
  | nil =>
    obtain ⟨hpre, hprev, ho⟩ := hpost rfl
    obtain ⟨pre2, p, rfl⟩ : ∃ pre2 p, pre = pre2 ++ [p] :=
      ⟨pre.dropLast, pre.getLast hpre, (List.dropLast_append_getLast hpre).symm⟩
    have hp : prev = p := by rw [hprev]; simp
    subst hp
    rw [List.append_nil] at hchain
    obtain ⟨hplt, hpdel, hpnext⟩ := IsChain_last s prev pre2 r hchain
    obtain ⟨s1, free1, x, halloc, hinv1, hl1, hl2, hxlt, hx0, hxdel, hkeep, hxd, hxn, hxp, hxf, hpn,
      hE, hNE, -⟩ := AllocateEntry_spec s free prev hinv (by unfold sizeofEntry at *; omega)
        (Or.inr ⟨hplt, hpdel, hpnext⟩)
    have hprev0 : 0 < prev := by
      rcases Nat.eq_zero_or_pos prev with e | e
      · rw [e, (hinv.2.2.2.2.2.1 0 hb2).2 (List.mem_cons_self _ _)] at hpdel
        exact absurd hpdel (by simp)
      · exact e
    have hnodup := IsChain_nodup s hb1 _ r hchain
    have hpnotin : prev ∉ pre2 := by
      intro hm
      rw [List.nodup_append] at hnodup
      exact hnodup.2.2 hm (List.mem_singleton_self _)
    have hkeep2 : ∀ i ∈ pre2, s1.entryAt i = s.entryAt i := by
      intro i hi
      obtain ⟨a, b⟩ := IsChain_mem s _ _ hchain i (List.mem_append_left _ hi)
      exact hkeep i a b (fun e => hpnotin (e ▸ hi))
    have hchain1 : s1.IsChain r (pre2 ++ [prev, x]) := by
      apply IsChain_snoc s s1 prev x pre2 r hchain hl1
      · intro i hi; rw [hkeep2 i hi]; exact ⟨rfl, rfl⟩
      · rw [hpn hprev0]; exact hpdel
      · rw [hpn hprev0]
      · exact hxlt
      · exact hxd
      · exact hxn
    refine ⟨s1, free1, x, [], [x], ?_, hinv1, ?_, rfl, by simp, fun _ => rfl,
      fun c => absurd rfl c, ?_, ?_, hl1,
      by simpa using hl2, ?_⟩
    · rw [List.headD_nil, if_pos rfl, halloc]
    · rw [List.append_assoc]; exact hchain1
    · intro i hi
      rcases List.mem_append.1 hi with e | e
      · rw [hkeep2 i e]
      · rw [List.mem_singleton.1 e, hpn hprev0]
    · intro i hi
      rw [List.append_nil] at hi
      rcases List.mem_append.1 hi with e | e
      · rw [hkeep2 i e]; exact ⟨rfl, rfl⟩
      · rw [List.mem_singleton.1 e, hpn hprev0]; exact ⟨rfl, rfl⟩
    · intro c
      obtain ⟨e1, e2, e3⟩ := hE c
      exact ⟨e1, by simpa using e3⟩

/-- The bytes read back from an entry written at `offset` and the entries after
it, which hold the rest of the buffer. -/
theorem flatRead_chunk (data R buffer : List Byte) (offset : Nat) (hd : data.length = 48)
    (ho : offset < 48)
    (hR : flatRead R 0 (buffer.length - min buffer.length (48 - offset)) =
      buffer.drop (min buffer.length (48 - offset))) :
    flatRead (memcpy data offset (buffer.take (min buffer.length (48 - offset))) ++ R) offset
      buffer.length = buffer := by
  have hc : (buffer.take (min buffer.length (48 - offset))).length =
      min buffer.length (48 - offset) := by
    rw [List.length_take]; omega
  have hml := memcpy_length data offset (buffer.take (min buffer.length (48 - offset)))
    (by rw [hc]; omega)
  unfold flatRead at *
  rw [List.drop_append_of_le_length (by rw [hml]; omega),
    drop_memcpy data _ offset (by rw [hc]; omega), hc]
  rw [List.drop_zero] at hR
  rcases Nat.lt_or_ge (48 - offset) buffer.length with c | c
  · have e : min buffer.length (48 - offset) = 48 - offset := by omega
    rw [e] at hR hc ⊢
    rw [List.drop_of_length_le (by omega), List.append_nil, List.take_append_eq_append_take,
      hc, hR, List.take_of_length_le (by rw [hc]; omega), List.take_append_drop]
  · have e : min buffer.length (48 - offset) = buffer.length := by omega
    rw [e, List.take_length, List.append_assoc, List.take_append_eq_append_take,
      List.take_length, Nat.sub_self, List.take_zero, List.append_nil]

end VariableSizeStore
end pastra
end whais
namespace whais
namespace pastra
namespace VariableSizeStore

open StoreEntry

/-- The second loop of `UpdateRecord`, started on the entries `post` of the
chain `pre ++ post` of record `r` (or past its last entry, `post` being empty)
with enough fuel and room in the container: it returns, the heap invariant
holds, the chain of `r` is what it was and the entries `added` after it, the
entries before and the flags and reference counts of the chain are untouched,
and the bytes of `post ++ added` from `offset` on are those of the buffer. -/
theorem UpdateRecordWrite_spec (fuel : Nat) : ∀ (s : VariableSizeStore) (free pre post : List Nat)
    (r prev offset : Nat) (buffer : List Byte),
    s.Inv free → s.IsChain r (pre ++ post) →
    (post = [] → pre ≠ [] ∧ prev = pre.getLastD 0 ∧ offset = 0) →
    offset < 48 → buffer.length + 48 ≤ 2 ^ 32 →
    (s.mEntries.length + buffer.length + 1) * sizeofEntry < 2 ^ 64 →
    buffer.length < fuel →
    ∃ s2 free2 added,
      UpdateRecordWrite fuel s (post.headD LAST_CHAINED_ENTRY) prev offset buffer = .ok s2 ∧
      s2.Inv free2 ∧ s2.IsChain r (pre ++ (post ++ added)) ∧
      (∀ i ∈ pre, (s2.entryAt i).mRawData = (s.entryAt i).mRawData) ∧
      (∀ i ∈ pre ++ post, (s2.entryAt i).mFirst = (s.entryAt i).mFirst ∧
        (s2.entryAt i).mPrevEntry = (s.entryAt i).mPrevEntry) ∧
      flatRead (s2.chainBytes (post ++ added)) offset buffer.length = buffer ∧
      (buffer ≠ [] → offset + buffer.length ≤ 48 * (post ++ added).length) ∧
      (added ≠ [] → 48 * ((post ++ added).length - 1) < offset + buffer.length) ∧
      s.mEntries.length ≤ s2.mEntries.length ∧
      s2.mEntries.length ≤ s.mEntries.length + added.length ∧
      (free = [] → free2 = [] ∧ s2.mEntries.length = s.mEntries.length + added.length) := by
  induction fuel with
  | zero => intro s free pre post r prev offset buffer _ _ _ _ _ _ hf; omega
  | succ f ih =>
    intro s free pre post r prev offset buffer hinv hchain hpost ho hlen hroom hf
    by_cases hb : buffer = []
    · subst hb
      refine ⟨s, free, [], UpdateRecordWrite_nil _ _ _ _ _, hinv, by simpa using hchain,
        fun _ _ => rfl, fun _ _ => ⟨rfl, rfl⟩, by simp [flatRead], fun c => absurd rfl c,
        fun c => absurd rfl c, Nat.le_refl _, by simp, fun c => ⟨c, by simp⟩⟩
    · have hbl : 0 < buffer.length := List.length_pos.2 hb
      obtain ⟨s1, free1, x, rest1, added1, halloc, hinv1, hchain1, hsplit, ha1, hpe, hpne, hdata1,
        hfl1, hle1, hle2, hfree1⟩ :=
        UpdateRecordWrite_alloc s free pre post r prev offset buffer.length hinv hchain hpost
          hroom hbl
      obtain ⟨hb1, hb2⟩ := Inv_bounds s1 free1 hinv1
      obtain ⟨hxlt, hxdel⟩ := IsChain_mem s1 _ _ hchain1 x
        (List.mem_append_right _ (List.mem_cons_self _ _))
      have hxdata : (s1.entryAt x).mRawData.length = 48 := hinv1.2.2.1 x hxlt
      have hnodup := IsChain_nodup s1 hb1 _ r hchain1
      have hxpre : x ∉ pre := by
        intro hm
        rw [List.nodup_append] at hnodup
        exact hnodup.2.2 hm (List.mem_cons_self _ _)
      obtain ⟨x2, rest2, hdrop, hchx⟩ := IsChain_drop s1 pre.length _ r hchain1 (by simp)
      rw [List.drop_left] at hdrop
      obtain ⟨ex, er⟩ := List.cons.inj hdrop
      subst ex er
      rw [IsChain_cons] at hchx
      have hnext := IsChain_head s1 _ _ hchx.2.2.2
      rw [UpdateRecordWrite_step f s s1 _ prev offset x buffer hb halloc hxlt hxdel hxdata ho hlen]
      generalize hc : min buffer.length (48 - offset) = c
      have hcl : (buffer.take c).length = c := by rw [List.length_take]; omega
      generalize he : (⟨(s1.entryAt x).mPrevEntry, (s1.entryAt x).mNextEntry,
        (s1.entryAt x).mDeleted, (s1.entryAt x).mFirst,
        memcpy (s1.entryAt x).mRawData offset (buffer.take c)⟩ : StoreEntry) = e
      have he1 : e.mPrevEntry = (s1.entryAt x).mPrevEntry := by rw [← he]
      have he2 : e.mNextEntry = (s1.entryAt x).mNextEntry := by rw [← he]
      have he3 : e.mDeleted = (s1.entryAt x).mDeleted := by rw [← he]
      have he4 : e.mFirst = (s1.entryAt x).mFirst := by rw [← he]
      have he5 : e.mRawData = memcpy (s1.entryAt x).mRawData offset (buffer.take c) := by rw [← he]
      have he6 : e.mRawData.length = 48 := by
        rw [he5, memcpy_length _ _ _ (by rw [hcl]; omega), hxdata]
      have hx0 : x ∉ 0 :: free1 := by
        intro hm
        rw [(hinv1.2.2.2.2.2.1 x hxlt).2 hm] at hxdel
        exact absurd hxdel (by simp)
      have hinv2 : (s1.Store x e).Inv free1 := by
        refine Inv_frame s1 _ free1 hinv1 (length_Store _ _ _) (Store_mEntriesCount _ _ _)
          (Store_mFirstFreeEntry _ _ _) ?_ ?_
        · intro i hi
          have c1 : i ≠ x := fun e => hx0 (e ▸ hi)
          exact entryAt_Store_ne s1 x i e c1
        · intro i hi hnot
          by_cases c1 : i = x
          · rw [c1, entryAt_Store_same s1 x e hxlt, he3]
            exact ⟨hxdel, he6⟩
          · rw [entryAt_Store_ne s1 x i e c1]
            refine ⟨?_, hinv1.2.2.1 i hi⟩
            cases hd : (s1.entryAt i).mDeleted with
            | false => rfl
            | true => exact absurd ((hinv1.2.2.2.2.2.1 i hi).1 hd) hnot
      have hkeep : ∀ i, (((s1.Store x e).entryAt i).mDeleted = (s1.entryAt i).mDeleted ∧
          ((s1.Store x e).entryAt i).mNextEntry = (s1.entryAt i).mNextEntry) ∧
          ((s1.Store x e).entryAt i).mFirst = (s1.entryAt i).mFirst ∧
          ((s1.Store x e).entryAt i).mPrevEntry = (s1.entryAt i).mPrevEntry := by
        intro i
        by_cases c1 : i = x
        · rw [c1, entryAt_Store_same s1 x e hxlt]
          exact ⟨⟨he3, he2⟩, he4, he1⟩
        · rw [entryAt_Store_ne s1 x i e c1]
          exact ⟨⟨rfl, rfl⟩, rfl, rfl⟩
      have hchain2 : (s1.Store x e).IsChain r (pre ++ x :: rest1) :=
        IsChain_frame s1 _ _ r hchain1 (by rw [length_Store]) (fun i _ => (hkeep i).1)
      have hsub : ∀ i ∈ pre ++ post, i ∈ pre ++ x :: rest1 := by
        intro i hi
        rw [← hsplit]
        rcases List.mem_append.1 hi with c1 | c1
        · exact List.mem_append_left _ c1
        · exact List.mem_append_right _ (List.mem_append_left _ c1)
      have hfuel : ∃ f2, f = f2 + 1 := ⟨f - 1, by omega⟩
      obtain ⟨f2, hf2⟩ := hfuel
      have hmod : (offset + c) % 48 = if c = 48 - offset then 0 else offset + c := by
        split
        · next c1 => rw [c1]; have : offset + (48 - offset) = 48 := by omega
                     rw [this]
        · next c1 => exact Nat.mod_eq_of_lt (by omega)
      have hrest : ∃ s2 free2 added2,
          UpdateRecordWrite f (s1.Store x e) (rest1.headD LAST_CHAINED_ENTRY) x
            ((offset + c) % 48) (buffer.drop c) = .ok s2 ∧
          s2.Inv free2 ∧ s2.IsChain r ((pre ++ [x]) ++ (rest1 ++ added2)) ∧
          (∀ i ∈ pre ++ [x], (s2.entryAt i).mRawData = ((s1.Store x e).entryAt i).mRawData) ∧
          (∀ i ∈ (pre ++ [x]) ++ rest1,
            (s2.entryAt i).mFirst = ((s1.Store x e).entryAt i).mFirst ∧
            (s2.entryAt i).mPrevEntry = ((s1.Store x e).entryAt i).mPrevEntry) ∧
          flatRead (s2.chainBytes (rest1 ++ added2)) 0 (buffer.drop c).length = buffer.drop c ∧
          (buffer.drop c ≠ [] → (buffer.drop c).length ≤ 48 * (rest1 ++ added2).length) ∧
          (added2 ≠ [] → 48 * ((rest1 ++ added2).length - 1) < (buffer.drop c).length) ∧
          (s1.Store x e).mEntries.length ≤ s2.mEntries.length ∧
          s2.mEntries.length ≤ (s1.Store x e).mEntries.length + added2.length ∧
          (free1 = [] → free2 = [] ∧
            s2.mEntries.length = (s1.Store x e).mEntries.length + added2.length) ∧
          (buffer.drop c = [] → added2 = []) := by
        by_cases hd : buffer.drop c = []
        · rw [hd, hf2, UpdateRecordWrite_nil]
          refine ⟨_, free1, [], rfl, hinv2, by simpa using hchain2, fun _ _ => rfl,
            fun _ _ => ⟨rfl, rfl⟩, by simp [flatRead], fun c => absurd rfl c,
            fun c => absurd rfl c, Nat.le_refl _, by simp, fun c => ⟨c, by simp⟩, fun _ => rfl⟩
        · have hdl : 0 < (buffer.drop c).length := List.length_pos.2 hd
          rw [List.length_drop] at hdl
          have hc48 : c = 48 - offset := by omega
          rw [hmod, if_pos hc48]
          obtain ⟨s2, free2, added2, h1, h2, h3, h4, h5, h6, h7, h8, h9, h10, h11⟩ :=
            ih (s1.Store x e) free1 (pre ++ [x]) rest1 r x 0 (buffer.drop c) hinv2
              (by rw [List.append_assoc]; exact hchain2)
              (fun _ => ⟨by simp, by simp, rfl⟩) (by omega)
              (by rw [List.length_drop]; omega)
              (by rw [List.length_drop, length_Store]; unfold sizeofEntry at *; omega)
              (by rw [List.length_drop]; omega)
          rw [Nat.zero_add] at h7 h8
          exact ⟨s2, free2, added2, h1, h2, h3, h4, h5, h6, h7, h8, h9, h10, h11,
            fun c => absurd c hd⟩
      obtain ⟨s2, free2, added2, h1, h2, h3, h4, h5, h6, h7, h8, h9, h10, h11, h12⟩ := hrest
      rw [length_Store] at h9 h10 h11
      rw [List.length_drop] at h6 h7 h8
      refine ⟨s2, free2, added1 ++ added2, ?_, h2, ?_, ?_, ?_, ?_, ?_, ?_, by omega, ?_, ?_⟩
      · rw [← hnext] at h1; exact h1
      · rw [← List.append_assoc post, hsplit]
        simpa using h3
      · intro i hi
        have c1 : i ≠ x := fun e => hxpre (e ▸ hi)
        rw [h4 i (List.mem_append_left _ hi), entryAt_Store_ne s1 x i e c1, hdata1 i hi]
      · intro i hi
        have hm : i ∈ (pre ++ [x]) ++ rest1 := by
          have := hsub i hi
          simpa using this
        obtain ⟨a, b⟩ := h5 i hm
        rw [a, b, (hkeep i).2.1, (hkeep i).2.2]
        exact hfl1 i hi
      · rw [← List.append_assoc, hsplit, List.cons_append, chainBytes_cons,
          h4 x (by simp), entryAt_Store_same s1 x e hxlt, he5, ← hc]
        apply flatRead_chunk _ _ _ _ hxdata ho
        rw [hc]; exact h6
      · intro _
        rw [← List.append_assoc, hsplit, List.cons_append, List.length_cons]
        by_cases hd : buffer.drop c = []
        · have := congrArg List.length hd
          rw [List.length_drop, List.length_nil] at this
          omega
        · have := h7 hd
          omega
      · intro hadd
        rw [← List.append_assoc, hsplit, List.cons_append, List.length_cons, Nat.add_sub_cancel]
        by_cases hd : buffer.drop c = []
        · rw [h12 hd, List.append_nil] at hadd ⊢
          have hp : post = [] := by
            by_contra c1
            exact hadd (hpne c1)
          rw [hp, hpe hp] at hsplit
          have er : rest1 = [] := by
            have := (List.cons.inj hsplit).2
            exact this.symm
          rw [er, List.length_nil]
          omega
        · have hdl : 0 < (buffer.drop c).length := List.length_pos.2 hd
          rw [List.length_drop] at hdl
          have h7b := h7 hd
          by_cases ha2 : added2 = []
          · rw [ha2, List.append_nil] at hadd ⊢
            have hp : post = [] := by
              by_contra c1
              exact hadd (hpne c1)
            rw [hp, hpe hp] at hsplit
            have er : rest1 = [] := ((List.cons.inj hsplit).2).symm
            rw [er, ha2] at h7b
            simp at h7b
            omega
          · have := h8 ha2
            have hpos : 0 < (rest1 ++ added2).length := by
              rw [List.length_append]
              have := List.length_pos.2 ha2
              omega
            omega
      · rw [List.length_append]; omega
      · intro c1
        obtain ⟨a1, a2⟩ := hfree1 c1
        obtain ⟨b1, b2⟩ := h11 a1
        exact ⟨b1, by rw [List.length_append]; omega⟩

end VariableSizeStore
end pastra
end whais
namespace whais
namespace pastra
namespace VariableSizeStore

open StoreEntry

theorem getLastD_of_ne_nil (l : List Nat) (a b : Nat) (h : l ≠ []) :
    l.getLastD a = l.getLastD b := by
  cases l with
  | nil => exact absurd rfl h
  | cons x rest => rw [List.getLastD_cons, List.getLastD_cons]

theorem flatRead_append_right (A B : List Byte) (o n : Nat) :
    flatRead (A ++ B) (A.length + o) n = flatRead B o n := by
  unfold flatRead
  rw [List.drop_append]

/-- The fresh heap: entry 0 alone, no free entry after it. -/
theorem Init_Inv : Init.Inv [] := by decide

/-- On the chain `ids` of record `r`, `UpdateRecord` at an offset that is not
past the end of the chain returns, with room in the container: the heap
invariant holds, the chain of `r` is `ids` and the entries `added` after it,
and the bytes of the chain from `offset` on are those of the buffer. -/
theorem UpdateRecord_spec (s : VariableSizeStore) (free ids : List Nat) (r offset : Nat)
    (buffer : List Byte) (hinv : s.Inv free) (hchain : s.IsChain r ids) (hids : ids ≠ [])
    (ho : offset ≤ 48 * ids.length) (hlen : buffer.length + 48 ≤ 2 ^ 32)
    (hroom : (s.mEntries.length + buffer.length + 1) * sizeofEntry < 2 ^ 64) :
    ∃ s2 free2 added, s.UpdateRecord r offset buffer = .ok s2 ∧ s2.Inv free2 ∧
      s2.IsChain r (ids ++ added) ∧
      (∀ i ∈ ids, (s2.entryAt i).mFirst = (s.entryAt i).mFirst ∧
        (s2.entryAt i).mPrevEntry = (s.entryAt i).mPrevEntry) ∧
      flatRead (s2.chainBytes (ids ++ added)) offset buffer.length = buffer ∧
      (buffer ≠ [] → offset + buffer.length ≤ 48 * (ids ++ added).length) ∧
      (added ≠ [] → 48 * ((ids ++ added).length - 1) < offset + buffer.length) ∧
      (buffer = [] → s2 = s ∧ added = []) ∧
      s.mEntries.length ≤ s2.mEntries.length ∧
      s2.mEntries.length ≤ s.mEntries.length + added.length ∧
      (free = [] → free2 = [] ∧ s2.mEntries.length = s.mEntries.length + added.length) := by
  obtain ⟨hb1, hb2⟩ := Inv_bounds s free hinv
  have hskip := UpdateRecordSkip_spec s hb1 ids r r offset (offset / 48 + 1) hchain ho (by omega)
  have hsplit : ids.take (offset / 48) ++ ids.drop (offset / 48) = ids := List.take_append_drop _ _
  have hk : (ids.take (offset / 48)).length = offset / 48 := by
    rw [List.length_take]; omega
  have hpost : ids.drop (offset / 48) = [] →
      ids.take (offset / 48) ≠ [] ∧ (ids.take (offset / 48)).getLastD r =
        (ids.take (offset / 48)).getLastD 0 ∧ offset % 48 = 0 := by
    intro hd
    have hl := congrArg List.length hd
    rw [List.length_drop, List.length_nil] at hl
    have hne : ids.take (offset / 48) ≠ [] := by
      rw [hd, List.append_nil] at hsplit
      rw [hsplit]; exact hids
    exact ⟨hne, getLastD_of_ne_nil _ _ _ hne, by omega⟩
  have hrun : s.UpdateRecord r offset buffer =
      UpdateRecordWrite (buffer.length + 1) s ((ids.drop (offset / 48)).headD LAST_CHAINED_ENTRY)
        ((ids.take (offset / 48)).getLastD r) (offset % 48) buffer := by
    unfold UpdateRecord
    rw [show offset / StoreEntry.Size = offset / 48 from rfl, hskip]
    rfl
  rw [hrun]
  by_cases hb : buffer = []
  · subst hb
    refine ⟨s, free, [], UpdateRecordWrite_nil _ _ _ _ _, hinv, by simpa using hchain,
      fun _ _ => ⟨rfl, rfl⟩, by simp [flatRead], fun c => absurd rfl c,
      fun c => absurd rfl c, fun _ => ⟨rfl, rfl⟩, Nat.le_refl _, by simp, fun c => ⟨c, by simp⟩⟩
  · obtain ⟨s2, free2, added, h1, h2, h3, h4, h5, h6, h7, h8, h9, h10, h11⟩ :=
      UpdateRecordWrite_spec (buffer.length + 1) s free (ids.take (offset / 48))
        (ids.drop (offset / 48)) r ((ids.take (offset / 48)).getLastD r) (offset % 48) buffer hinv
        (by rw [hsplit]; exact hchain) hpost (Nat.mod_lt _ (by omega)) hlen hroom (by omega)
    rw [← List.append_assoc, hsplit] at h3
    rw [hsplit] at h5
    obtain ⟨hc1, hc2⟩ := Inv_bounds s2 free2 h2
    have hdata : ∀ i ∈ ids.take (offset / 48), (s2.entryAt i).mRawData.length = ENTRY_SIZE := by
      intro i hi
      have hm : i ∈ ids ++ added := List.mem_append_left _ (List.mem_of_mem_take hi)
      exact h2.2.2.1 i (IsChain_mem s2 _ _ h3 i hm).1
    have hpl := chainBytes_length s2 _ hdata
    rw [hk] at hpl
    have hoff : offset = (s2.chainBytes (ids.take (offset / 48))).length + offset % 48 := by
      rw [hpl]; unfold ENTRY_SIZE; omega
    have hbytes : s2.chainBytes (ids ++ added) =
        s2.chainBytes (ids.take (offset / 48)) ++
          s2.chainBytes (ids.drop (offset / 48) ++ added) := by
      rw [← chainBytes_append, ← List.append_assoc, hsplit]
    have hlenpost : (ids.drop (offset / 48) ++ added).length + offset / 48 =
        (ids ++ added).length := by
      rw [List.length_append, List.length_append, List.length_drop]; omega
    refine ⟨s2, free2, added, h1, h2, h3, h5, ?_, ?_, ?_, fun c => absurd c hb, h9, h10, h11⟩
    · rw [hbytes]
      conv => lhs; arg 2; rw [hoff]
      rw [flatRead_append_right]
      exact h6
    · intro c
      have := h7 c
      omega
    · intro c
      have := h8 c
      omega

end VariableSizeStore
end pastra
end whais
namespace whais
namespace pastra
namespace VariableSizeStore

open StoreEntry

/-- What `AddRecord` stores in the entry it allocated. -/
theorem AddRecord_entry (e : StoreEntry) :
    (((e.MarkAsDeleted false).MarkAsFirstEntry true).SetNextEntry LAST_CHAINED_ENTRY).SetPrevEntry 1
      = ⟨1, LAST_CHAINED_ENTRY, false, true, e.mRawData⟩ := by
  rw [SetNextEntry_lt _ _ (by unfold LAST_CHAINED_ENTRY; omega),
    SetPrevEntry_lt _ _ (by omega)]
  rfl

/-- In a state of the heap invariant with room in the container, `AddRecord`
returns a record `r` that is not entry 0: the invariant holds, the chain of
`r` has as many entries as the buffer needs, its first entry is marked as such
with a reference count of 1, and the bytes of the chain are those of the
buffer. The entries are new ones when no entry is free, and `r` is a free entry
otherwise: entry 1 when that is free, the first free entry if not. -/
theorem AddRecord_spec (s : VariableSizeStore) (free : List Nat) (buffer : List Byte)
    (hinv : s.Inv free) (hlen : buffer.length + 48 ≤ 2 ^ 32)
    (hroom : (s.mEntries.length + buffer.length + 2) * sizeofEntry < 2 ^ 64) :
    ∃ s2 free2 r rest, s.AddRecord buffer = .ok (s2, r) ∧ s2.Inv free2 ∧
      s2.IsChain r (r :: rest) ∧ r ≠ 0 ∧
      (s2.entryAt r).mFirst = true ∧ (s2.entryAt r).mPrevEntry = 1 ∧
      flatRead (s2.chainBytes (r :: rest)) 0 buffer.length = buffer ∧
      buffer.length ≤ 48 * (rest.length + 1) ∧ (rest ≠ [] → 48 * rest.length < buffer.length) ∧
      s.mEntries.length ≤ s2.mEntries.length ∧
      (free = [] → free2 = [] ∧ r = s.mEntries.length ∧
        s2.mEntries.length = s.mEntries.length + (rest.length + 1)) ∧
      (free ≠ [] → r ∈ free) ∧
      (1 < s.mEntries.length → (s.entryAt 1).mDeleted = true → r = 1) ∧
      (¬ (1 < s.mEntries.length ∧ (s.entryAt 1).mDeleted = true) → free ≠ [] →
        r = s.mFirstFreeEntry) := by
  obtain ⟨s1, free1, n, halloc, hinv1, hl1, hl2, hnlt, hn0, -, -, hnd, -, -, -, -,
    hE, hNE, hr1, -, hr3⟩ := AllocateEntry_spec s free 0 hinv (by unfold sizeofEntry at *; omega)
      (Or.inl rfl)
  generalize he : (⟨1, LAST_CHAINED_ENTRY, false, true, (s1.entryAt n).mRawData⟩ : StoreEntry) = e
  have he1 : e.mPrevEntry = 1 := by rw [← he]
  have he2 : e.mNextEntry = LAST_CHAINED_ENTRY := by rw [← he]
  have he3 : e.mDeleted = false := by rw [← he]
  have he4 : e.mFirst = true := by rw [← he]
  have he5 : e.mRawData = (s1.entryAt n).mRawData := by rw [← he]
  have hn0' : n ∉ 0 :: free1 := by
    intro hm
    rw [(hinv1.2.2.2.2.2.1 n hnlt).2 hm] at hnd
    exact absurd hnd (by simp)
  have hinv2 : (s1.Store n e).Inv free1 := by
    refine Inv_frame s1 _ free1 hinv1 (length_Store _ _ _) (Store_mEntriesCount _ _ _)
      (Store_mFirstFreeEntry _ _ _) ?_ ?_
    · intro i hi
      have c1 : i ≠ n := fun e => hn0' (e ▸ hi)
      exact entryAt_Store_ne s1 n i e c1
    · intro i hi hnot
      by_cases c1 : i = n
      · rw [c1, entryAt_Store_same s1 n e hnlt, he3, he5]
        exact ⟨rfl, hinv1.2.2.1 n hnlt⟩
      · rw [entryAt_Store_ne s1 n i e c1]
        refine ⟨?_, hinv1.2.2.1 i hi⟩
        cases hd : (s1.entryAt i).mDeleted with
        | false => rfl
        | true => exact absurd ((hinv1.2.2.2.2.2.1 i hi).1 hd) hnot
  have hsame := entryAt_Store_same s1 n e hnlt
  have hchain2 : (s1.Store n e).IsChain n [n] := by
    rw [IsChain_cons, IsChain_nil, length_Store, hsame]
    exact ⟨rfl, hnlt, he3, he2⟩
  have hrun : s.AddRecord buffer =
      if n ≠ 0 ∧ buffer.length > 0 then
        ((s1.Store n e).UpdateRecord n 0 buffer).bind fun s3 => .ok (s3, n)
      else .ok (s1.Store n e, n) := by
    unfold AddRecord
    simp only [bind]
    rw [halloc]
    simp only [Except.bind]
    rw [RetriveItem_lt _ _ hnlt]
    dsimp only
    rw [AddRecord_entry, he]
  have hrules : (free = [] → free1 = [] ∧ n = s.mEntries.length ∧
        s1.mEntries.length = s.mEntries.length + 1) ∧
      (free ≠ [] → n ∈ free) ∧
      (1 < s.mEntries.length → (s.entryAt 1).mDeleted = true → n = 1) ∧
      (¬ (1 < s.mEntries.length ∧ (s.entryAt 1).mDeleted = true) → free ≠ [] →
        n = s.mFirstFreeEntry) := by
    refine ⟨hE, fun c => (hNE c).1, fun a b => hr1 a b, fun a b => hr3 a ?_ b⟩
    intro c
    omega
  obtain ⟨hq1, hq2, hq3, hq4⟩ := hrules
  rw [hrun]
  by_cases hb : buffer = []
  · subst hb
    rw [if_neg (by simp)]
    refine ⟨_, free1, n, [], rfl, hinv2, hchain2, hn0, by rw [hsame, he4], by rw [hsame, he1],
      by simp [flatRead], by simp, fun c => absurd rfl c, by rw [length_Store]; exact hl1, ?_,
      hq2, hq3, hq4⟩
    intro c
    obtain ⟨a1, a2, a3⟩ := hq1 c
    exact ⟨a1, a2, by rw [length_Store, a3]; rfl⟩
  · have hbl : 0 < buffer.length := List.length_pos.2 hb
    rw [if_pos ⟨hn0, hbl⟩]
    obtain ⟨s2, free2, added, h1, h2, h3, h4, h5, h6, h7, -, h9, h10, h11⟩ :=
      UpdateRecord_spec (s1.Store n e) free1 [n] n 0 buffer hinv2 hchain2 (by simp) (by simp) hlen
        (by rw [length_Store]; unfold sizeofEntry at *; omega)
    rw [h1]
    rw [length_Store] at h9 h10 h11
    obtain ⟨a, b⟩ := h4 n (List.mem_singleton_self _)
    rw [hsame] at a b
    refine ⟨s2, free2, n, added, rfl, h2, h3, hn0, by rw [a, he4], by rw [b, he1], h5, ?_, ?_,
      by omega, ?_, hq2, hq3, hq4⟩
    · have := h6 hb
      simp only [List.singleton_append, List.length_cons] at this
      omega
    · intro c
      have := h7 c
      simp only [List.singleton_append, List.length_cons] at this
      omega
    · intro c
      obtain ⟨a1, a2, a3⟩ := hq1 c
      obtain ⟨b1, b2⟩ := h11 a1
      exact ⟨b1, a2, by omega⟩

end VariableSizeStore
end pastra
end whais
namespace whais
namespace pastra

open StoreEntry

/-- C10 (counterexample): on the fresh heap with one record of one entry, an
`UpdateRecord` of no bytes at offset 48, the end of the chain, returns, and the
`GetRecord` of no bytes at that offset raises `GENERAL_CONTROL_ERROR`. -/
theorem VariableSizeStore.nothing_written_at_chain_end :
    VariableSizeStore.oneRecordHeap.IsChain 1 [1] ∧
    VariableSizeStore.oneRecordHeap.UpdateRecord 1 48 [] = .ok VariableSizeStore.oneRecordHeap ∧
    VariableSizeStore.oneRecordHeap.GetRecord 1 48 0 = .error .GENERAL_CONTROL_ERROR := by
  decide

/-- C10 (amended): in every state of the heap invariant (the fresh heap and what
the calls make of it), for the chain `ids` of a record `r`, a buffer of less
than `2 ^ 32 - 48` bytes that the container has room for, and an offset not
past the end of the chain, with a buffer that is not empty or an offset before
the end of the chain: `UpdateRecord(r, offset, len(buf), buf)` returns and then
`GetRecord(r, offset, len(buf))` returns `buf`; and `AddRecord(buf, len(buf))`
returns a record whose `GetRecord` at offset 0 returns `buf`. -/
theorem VariableSizeStore.update_then_get (s : VariableSizeStore) (free ids : List Nat)
    (r offset : Nat) (buffer : List Byte) (hinv : s.Inv free) (hchain : s.IsChain r ids)
    (hids : ids ≠ []) (ho : offset ≤ 48 * ids.length)
    (hne : buffer ≠ [] ∨ offset < 48 * ids.length) (hlen : buffer.length + 48 ≤ 2 ^ 32)
    (hroom : (s.mEntries.length + buffer.length + 2) * sizeofEntry < 2 ^ 64) :
    (∃ s2, s.UpdateRecord r offset buffer = .ok s2 ∧
      s2.GetRecord r offset buffer.length = .ok buffer) ∧
    (∃ s3 r3, s.AddRecord buffer = .ok (s3, r3) ∧
      s3.GetRecord r3 0 buffer.length = .ok buffer) := by
  constructor
  · obtain ⟨s2, free2, added, h1, h2, h3, -, h5, h6, -, h8, -, -, -⟩ :=
      VariableSizeStore.UpdateRecord_spec s free ids r offset buffer hinv hchain hids ho hlen
        (by unfold sizeofEntry at *; omega)
    obtain ⟨hb1, -⟩ := VariableSizeStore.Inv_bounds s2 free2 h2
    have hdata : ∀ i ∈ ids ++ added, (s2.entryAt i).mRawData.length = 48 := fun i hi =>
      h2.2.2.1 i (VariableSizeStore.IsChain_mem s2 _ _ h3 i hi).1
    have hbound : offset < 48 * (ids ++ added).length ∧
        offset + buffer.length ≤ 48 * (ids ++ added).length := by
      by_cases hb : buffer = []
      · obtain ⟨-, e⟩ := h8 hb
        rw [e, hb, List.append_nil, List.length_nil]
        rcases hne with c | c
        · exact absurd hb c
        · omega
      · have := h6 hb
        have := List.length_pos.2 hb
        omega
    refine ⟨s2, h1, ?_⟩
    rw [VariableSizeStore.GetRecord_spec s2 hb1 _ r offset buffer.length h3 hdata hbound.1
      hbound.2, h5]
  · obtain ⟨s3, free3, r3, rest, h1, h2, h3, -, -, -, h7, h8, -⟩ :=
      VariableSizeStore.AddRecord_spec s free buffer hinv hlen hroom
    obtain ⟨hb1, -⟩ := VariableSizeStore.Inv_bounds s3 free3 h2
    have hdata : ∀ i ∈ r3 :: rest, (s3.entryAt i).mRawData.length = 48 := fun i hi =>
      h2.2.2.1 i (VariableSizeStore.IsChain_mem s3 _ _ h3 i hi).1
    refine ⟨s3, r3, h1, ?_⟩
    rw [VariableSizeStore.GetRecord_spec s3 hb1 _ r3 0 buffer.length h3 hdata
      (by simp) (by simpa using h8), h7]

/-- C10 (witness): 100 bytes written at offset 2 of the record of the fixture,
which has one entry. -/
theorem VariableSizeStore.update_then_get_witness :
    (∃ s2, VariableSizeStore.oneRecordHeap.UpdateRecord 1 2 (List.replicate 100 7 : List Byte) = .ok s2 ∧
      s2.GetRecord 1 2 (List.replicate 100 7 : List Byte).length = .ok (List.replicate 100 7 : List Byte)) ∧
    (∃ s3 r3, VariableSizeStore.oneRecordHeap.AddRecord (List.replicate 100 7 : List Byte) = .ok (s3, r3) ∧
      s3.GetRecord r3 0 (List.replicate 100 7 : List Byte).length = .ok (List.replicate 100 7 : List Byte)) :=
  VariableSizeStore.update_then_get VariableSizeStore.oneRecordHeap [] [1] 1 2
    (List.replicate 100 7 : List Byte) (by decide) (by decide) (by decide) (by decide)
    (Or.inl (by decide)) (by decide) (by decide)

/-- On the fresh heap `AddRecord` of `n > 0` bytes, `n` no more than
`2 ^ 32 - 48`, returns entry 1, the first of `ceil(n / 48)` entries that it adds
to the store, 3 for 128 bytes; entry 1 is marked as the first of a record, is
not deleted and has a reference count of 1, and its chain has `ceil(n / 48)`
entries, the last one with `LAST_CHAINED_ENTRY` for its next entry. -/
theorem VariableSizeStore.add_record_on_fresh_heap (buffer : List Byte)
    (hn : 0 < buffer.length) (hlen : buffer.length + 48 ≤ 2 ^ 32) :
    ∃ s2 rest, VariableSizeStore.Init.AddRecord buffer = .ok (s2, 1) ∧
      s2.mEntries.length = VariableSizeStore.Init.mEntries.length + (buffer.length + 47) / 48 ∧
      (buffer.length = 128 → s2.mEntries.length = VariableSizeStore.Init.mEntries.length + 3) ∧
      (s2.entryAt 1).IsFirstEntry = true ∧ (s2.entryAt 1).IsDeleted = false ∧
      (s2.entryAt 1).PrevEntry = 1 ∧
      s2.IsChain 1 (1 :: rest) ∧ (1 :: rest).length = (buffer.length + 47) / 48 := by
  obtain ⟨s2, free2, r, rest, h1, h2, h3, -, h5, h6, -, h8, h9, -, h11, -⟩ :=
    VariableSizeStore.AddRecord_spec VariableSizeStore.Init [] buffer VariableSizeStore.Init_Inv
      hlen (by
        have : VariableSizeStore.Init.mEntries.length = 1 := rfl
        rw [this]; unfold sizeofEntry; omega)
  obtain ⟨-, hr, hl⟩ := h11 rfl
  have hr1 : r = 1 := hr
  subst hr1
  have hlen0 : VariableSizeStore.Init.mEntries.length = 1 := rfl
  have hceil : rest.length + 1 = (buffer.length + 47) / 48 := by
    by_cases c : rest = []
    · rw [c, List.length_nil] at h8 ⊢
      omega
    · have := h9 c
      omega
  rw [VariableSizeStore.IsChain_cons] at h3
  refine ⟨s2, rest, h1, by rw [hl, hceil], ?_, h5, h3.2.2.1, h6,
    (VariableSizeStore.IsChain_cons _ _ _ _).2 h3, by rw [List.length_cons, hceil]⟩
  intro c
  rw [hl, hceil, c]

/-- The record of 128 bytes on the fresh heap: three entries. -/
theorem VariableSizeStore.add_record_on_fresh_heap_witness :
    ∃ s2 rest, VariableSizeStore.Init.AddRecord (List.replicate 128 5 : List Byte) = .ok (s2, 1) ∧
      s2.mEntries.length = VariableSizeStore.Init.mEntries.length +
        ((List.replicate 128 5 : List Byte).length + 47) / 48 ∧
      ((List.replicate 128 5 : List Byte).length = 128 →
        s2.mEntries.length = VariableSizeStore.Init.mEntries.length + 3) ∧
      (s2.entryAt 1).IsFirstEntry = true ∧ (s2.entryAt 1).IsDeleted = false ∧
      (s2.entryAt 1).PrevEntry = 1 ∧
      s2.IsChain 1 (1 :: rest) ∧
      (1 :: rest).length = ((List.replicate 128 5 : List Byte).length + 47) / 48 :=
  VariableSizeStore.add_record_on_fresh_heap (List.replicate 128 5 : List Byte)
    (by rw [List.length_replicate]; omega) (by rw [List.length_replicate]; omega)

end pastra
end whais
namespace whais
namespace pastra
namespace VariableSizeStore

open StoreEntry

/-- Putting entry `x` into a list of free entries, between `A` and `B`: the
entry before takes `x` for its next entry, `x` takes the next entry of that one,
which takes `x` for its prev entry. -/
theorem FreeLinks_insert (s s2 : VariableSizeStore) (x : Nat) (B : List Nat) (A : List Nat) :
    ∀ (a : Nat), s.FreeLinks a (A ++ B) → (a :: (A ++ x :: B)).Nodup →
    (∀ i, i ≠ A.getLastD a → i ≠ x → (s2.entryAt i).mNextEntry = (s.entryAt i).mNextEntry) →
    (∀ i, i ≠ x → (∀ b ∈ B.head?, i ≠ b) →
      (s2.entryAt i).mPrevEntry = (s.entryAt i).mPrevEntry) →
    (s2.entryAt (A.getLastD a)).mNextEntry = x →
    (s2.entryAt x).mPrevEntry = A.getLastD a →
    (s2.entryAt x).mNextEntry = (s.entryAt (A.getLastD a)).mNextEntry →
    (∀ b ∈ B.head?, (s2.entryAt b).mPrevEntry = x) →
    s2.FreeLinks a (A ++ x :: B) := by
  induction A with
  | nil =>
    intro a h hnd hnext hprev hp hx1 hx2 hn
    simp only [List.nil_append, List.getLastD_nil] at *
    rw [FreeLinks_cons]
    refine ⟨hp, hx1, ?_⟩
    cases B with
    | nil =>
      rw [FreeLinks_nil] at h ⊢
      rw [hx2]; exact h
    | cons b B2 =>
      rw [FreeLinks_cons] at h ⊢
      obtain ⟨h4, h5, h6⟩ := h
      have hnd2 : (a :: x :: b :: B2).Nodup := hnd
      simp only [List.nodup_cons, List.mem_cons, not_or] at hnd2
      refine ⟨by rw [hx2]; exact h4, hn b (by simp), ?_⟩
      apply FreeLinks_frame s s2 B2 b h6
      · intro i hi
        apply hnext
        · intro e; subst e
          rcases List.mem_cons.1 hi with e | e
          · exact hnd2.1.2.1 e
          · exact hnd2.1.2.2 e
        · intro e; subst e
          rcases List.mem_cons.1 hi with e | e
          · exact hnd2.2.1.1 e
          · exact hnd2.2.1.2 e
      · intro i hi
        apply hprev
        · intro e; subst e; exact hnd2.2.1.2 hi
        · intro b2 hb2
          simp only [List.head?_cons, Option.mem_def, Option.some.injEq] at hb2
          subst hb2
          intro e; subst e; exact hnd2.2.2.1 hi
  | cons a2 A2 ih =>
    intro a h hnd hnext hprev hp hx1 hx2 hn
    have hlast : (a2 :: A2).getLastD a = A2.getLastD a2 := List.getLastD_cons a a2 A2
    rw [hlast] at hnext hp hx1 hx2
    simp only [List.cons_append] at h hnd ⊢
    rw [FreeLinks_cons] at h ⊢
    obtain ⟨h1, h2, h3⟩ := h
    have hnd2 := hnd
    rw [List.nodup_cons] at hnd2
    obtain ⟨ha, hnd3⟩ := hnd2
    have hmem : A2.getLastD a2 ∈ a2 :: A2 := List.getLastD_mem_cons A2 a2
    refine ⟨?_, ?_, ih a2 h3 hnd3 hnext hprev hp hx1 hx2 hn⟩
    · rw [hnext a ?_ ?_]
      · exact h1
      · intro e
        apply ha
        rw [e]
        rcases List.mem_cons.1 hmem with e2 | e2
        · rw [e2]; simp
        · exact List.mem_cons_of_mem _ (List.mem_append_left _ e2)
      · intro e
        apply ha
        rw [e]
        exact List.mem_cons_of_mem _ (List.mem_append_right _ (List.mem_cons_self _ _))
    · rw [hprev a2 ?_ ?_]
      · exact h2
      · intro e
        rw [List.nodup_cons] at hnd3
        apply hnd3.1
        rw [e]
        exact List.mem_append_right _ (List.mem_cons_self _ _)
      · intro b hb e
        rw [List.nodup_cons] at hnd3
        apply hnd3.1
        rw [e]
        have : b ∈ B := List.mem_of_mem_head? hb
        exact List.mem_append_right _ (List.mem_cons_of_mem _ this)

/-- The heap after the live entry `x` has joined the list of free entries
`A ++ B` between `A` and `B`, told by the fields of its entries. -/
theorem Inv_insert (s s2 : VariableSizeStore) (A B : List Nat) (x : Nat)
    (h : s.Inv (A ++ B)) (hx : x < s.mEntries.length) (hxd : (s.entryAt x).mDeleted = false)
    (hlen : s2.mEntries.length = s.mEntries.length)
    (hcnt : s2.mEntriesCount = s.mEntriesCount)
    (hff : s2.mFirstFreeEntry = if A = [] then x else s.mFirstFreeEntry)
    (hdata : ∀ i, (s2.entryAt i).mRawData = (s.entryAt i).mRawData)
    (hfst : ∀ i, (s2.entryAt i).mFirst = if i = x then false else (s.entryAt i).mFirst)
    (hdel : ∀ i, (s2.entryAt i).mDeleted = if i = x then true else (s.entryAt i).mDeleted)
    (hnext : ∀ i, i ≠ A.getLastD 0 → i ≠ x → (s2.entryAt i).mNextEntry = (s.entryAt i).mNextEntry)
    (hprev : ∀ i, i ≠ x → (∀ b ∈ B.head?, i ≠ b) →
      (s2.entryAt i).mPrevEntry = (s.entryAt i).mPrevEntry)
    (hp : (s2.entryAt (A.getLastD 0)).mNextEntry = x)
    (hx1 : (s2.entryAt x).mPrevEntry = A.getLastD 0)
    (hx2 : (s2.entryAt x).mNextEntry = (s.entryAt (A.getLastD 0)).mNextEntry)
    (hn : ∀ b ∈ B.head?, (s2.entryAt b).mPrevEntry = x) :
    s2.Inv (A ++ x :: B) := by
  obtain ⟨h1, h2, h3, h4, h5, h6, h7, h8⟩ := h
  have hxnot : x ∉ 0 :: (A ++ B) := by
    intro hm
    rw [(h6 x hx).2 hm] at hxd
    exact absurd hxd (by simp)
  have hnd : (0 :: (A ++ x :: B)).Nodup := by
    have hperm : List.Perm (x :: 0 :: (A ++ B)) (0 :: (A ++ x :: B)) :=
      (List.Perm.swap 0 x (A ++ B)).trans (List.Perm.cons 0 List.perm_middle.symm)
    exact hperm.nodup_iff.1 (List.nodup_cons.2 ⟨hxnot, h4⟩)
  have hmem : ∀ i, i ∈ 0 :: (A ++ x :: B) ↔ i = x ∨ i ∈ 0 :: (A ++ B) := by
    intro i
    simp only [List.mem_cons, List.mem_append]
    tauto
  refine ⟨by rw [hcnt, hlen]; exact h1, by rw [hlen]; exact h2, ?_, hnd, ?_, ?_,
    FreeLinks_insert s s2 x B A 0 h7 hnd hnext hprev hp hx1 hx2 hn, ?_⟩
  · intro i hi
    rw [hdata i]
    exact h3 i (by rw [← hlen]; exact hi)
  · intro i hi
    rw [hlen, hfst i]
    rcases (hmem i).1 hi with e | e
    · rw [if_pos e, e]; exact ⟨hx, rfl⟩
    · obtain ⟨a, b⟩ := h5 i e
      refine ⟨a, ?_⟩
      split
      · rfl
      · exact b
  · intro i hi
    rw [hlen] at hi
    rw [hdel i, hmem i]
    by_cases e : i = x
    · rw [if_pos e]; simp [e]
    · rw [if_neg e, h6 i hi]
      simp [e]
  · cases A with
    | nil =>
      rw [if_pos rfl] at hff
      rw [hff]
      simpa using hp.symm
    | cons a2 A2 =>
      rw [if_neg (by simp)] at hff
      rw [hff, h8]
      have hlast : (a2 :: A2).getLastD 0 = A2.getLastD a2 := List.getLastD_cons 0 a2 A2
      have hmemL : A2.getLastD a2 ∈ a2 :: A2 := List.getLastD_mem_cons A2 a2
      have h0 : (0 : Nat) ≠ (a2 :: A2).getLastD 0 := by
        rw [hlast]
        intro e
        rw [List.nodup_cons] at h4
        apply h4.1
        rw [e]
        exact List.mem_append_left _ hmemL
      have h0x : (0 : Nat) ≠ x := by
        intro e
        apply hxnot
        rw [← e]
        exact List.mem_cons_self _ _
      rw [hnext 0 h0 h0x]

end VariableSizeStore
end pastra
end whais
namespace whais
namespace pastra
namespace VariableSizeStore

open StoreEntry

/-- The fields of the heap after `AddToFreeListFront`. -/
theorem AddToFreeListFront_run (s : VariableSizeStore) (x : Nat)
    (hlen : s.mEntries.length < 2 ^ 58) (hxlt : x < s.mEntries.length) (hx0 : x ≠ 0)
    (h0del : (s.entryAt 0).mDeleted = true) (h0fst : (s.entryAt 0).mFirst = false)
    (hf : s.mFirstFreeEntry = LAST_DELETED_ENTRY ∨
      (s.mFirstFreeEntry < s.mEntries.length ∧ s.mFirstFreeEntry ≠ 0 ∧ s.mFirstFreeEntry ≠ x ∧
        (s.entryAt s.mFirstFreeEntry).mDeleted = true ∧
        (s.entryAt s.mFirstFreeEntry).mFirst = false)) :
    ∃ s2, s.AddToFreeListFront x = .ok s2 ∧
      s2.mEntries.length = s.mEntries.length ∧ s2.mEntriesCount = s.mEntriesCount ∧
      s2.mFirstFreeEntry = x ∧
      ∀ i, s2.entryAt i =
        if i = 0 then { s.entryAt 0 with mNextEntry := x }
        else if i = x then { s.entryAt x with mPrevEntry := 0, mNextEntry := s.mFirstFreeEntry }
        else if i = s.mFirstFreeEntry ∧ s.mFirstFreeEntry ≠ LAST_DELETED_ENTRY then
          { s.entryAt i with mPrevEntry := x }
        else s.entryAt i := by
  have h0lt : 0 < s.mEntries.length := by omega
  have hfl : s.mFirstFreeEntry < 2 ^ 62 := by
    rcases hf with c | c
    · rw [c]; unfold LAST_DELETED_ENTRY; omega
    · omega
  have e1 : ∀ e : StoreEntry, (e.SetPrevEntry 0).SetNextEntry s.mFirstFreeEntry
      = { e with mPrevEntry := 0, mNextEntry := s.mFirstFreeEntry } := by
    intro e
    rw [SetPrevEntry_lt _ _ (by omega), SetNextEntry_lt _ _ hfl]
  have e2 : ∀ e : StoreEntry, e.SetNextEntry x = { e with mNextEntry := x } :=
    fun e => SetNextEntry_lt _ _ (by omega)
  have e3 : ∀ e : StoreEntry, e.SetPrevEntry x = { e with mPrevEntry := x } :=
    fun e => SetPrevEntry_lt _ _ (by omega)
  by_cases hlast : s.mFirstFreeEntry = LAST_DELETED_ENTRY
  · refine ⟨_, by
      unfold AddToFreeListFront
      simp only [bind, Except.bind]
      rw [if_neg (show ¬ s.mFirstFreeEntry ≠ LAST_CHAINED_ENTRY from fun c => c hlast)]
      dsimp only
      rw [RetriveItem_lt _ _ hxlt]
      dsimp only
      rw [RetriveItem_lt _ _ (by
        rw [length_SetFirstFreeEntry, length_Store]; exact h0lt)]
      dsimp only
      rw [entryAt_SetFirstFreeEntry, entryAt_Store_ne _ _ _ _ (Ne.symm hx0),
        assert_true _ (by simpa [IsDeleted] using h0del),
        assert_true _ (by simpa [IsFirstEntry] using h0fst)], ?_, ?_, ?_, ?_⟩
    · rw [length_Store, length_SetFirstFreeEntry, length_Store]
    · rw [Store_mEntriesCount, mEntriesCount_SetFirstFreeEntry, Store_mEntriesCount]
    · rw [Store_mFirstFreeEntry, mFirstFreeEntry_SetFirstFreeEntry]
    · intro i
      rw [entryAt_Store _ _ _ _ (by rw [length_SetFirstFreeEntry, length_Store]; exact h0lt),
        entryAt_SetFirstFreeEntry, entryAt_Store _ _ _ _ hxlt, e1, e2]
      have hc : ¬ (i = s.mFirstFreeEntry ∧ s.mFirstFreeEntry ≠ LAST_DELETED_ENTRY) :=
        fun h => h.2 hlast
      rw [if_neg hc]
  · obtain ⟨hflt, hf0, hfx, hfdel, hffst⟩ := hf.resolve_left hlast
    refine ⟨_, by
      unfold AddToFreeListFront
      simp only [bind, Except.bind]
      rw [if_pos (show s.mFirstFreeEntry ≠ LAST_CHAINED_ENTRY from hlast),
        RetriveItem_lt _ _ hflt]
      dsimp only
      rw [assert_true _ (by simpa [IsDeleted] using hfdel),
        assert_true _ (by simpa [IsFirstEntry] using hffst)]
      dsimp only
      rw [RetriveItem_lt _ _ (by rw [length_Store]; exact hxlt)]
      dsimp only
      rw [RetriveItem_lt _ _ (by
        rw [length_SetFirstFreeEntry, length_Store, length_Store]; exact h0lt)]
      dsimp only
      rw [entryAt_SetFirstFreeEntry, entryAt_Store_ne _ _ _ _ (Ne.symm hx0),
        entryAt_Store_ne _ _ _ _ (Ne.symm hf0),
        assert_true _ (by simpa [IsDeleted] using h0del),
        assert_true _ (by simpa [IsFirstEntry] using h0fst)], ?_, ?_, ?_, ?_⟩
    · rw [length_Store, length_SetFirstFreeEntry, length_Store, length_Store]
    · rw [Store_mEntriesCount, mEntriesCount_SetFirstFreeEntry, Store_mEntriesCount,
        Store_mEntriesCount]
    · rw [Store_mFirstFreeEntry, mFirstFreeEntry_SetFirstFreeEntry]
    · intro i
      rw [entryAt_Store _ _ _ _ (by
          rw [length_SetFirstFreeEntry, length_Store, length_Store]; exact h0lt),
        entryAt_SetFirstFreeEntry, entryAt_Store _ _ _ _ (by rw [length_Store]; exact hxlt),
        entryAt_Store_ne _ _ _ _ (Ne.symm hfx), Store_mFirstFreeEntry, e1, e2, e3,
        entryAt_Store _ _ _ _ hflt]
      by_cases c0 : i = 0
      · rw [if_pos c0, if_pos c0]
      · rw [if_neg c0, if_neg c0]
        by_cases c1 : i = x
        · rw [if_pos c1, if_pos c1]
        · rw [if_neg c1, if_neg c1]
          by_cases c2 : i = s.mFirstFreeEntry
          · rw [if_pos c2, if_pos ⟨c2, hlast⟩, c2]
          · rw [if_neg c2, if_neg (fun h => c2 h.1)]

end VariableSizeStore
end pastra
end whais
namespace whais
namespace pastra
namespace VariableSizeStore

open StoreEntry

/-- The fields of the heap after `AddToFreeListNext`. -/
theorem AddToFreeListNext_run (s : VariableSizeStore) (x p : Nat)
    (hlen : s.mEntries.length < 2 ^ 58) (hxlt : x + 1 < s.mEntries.length)
    (hnfst : (s.entryAt (x + 1)).mFirst = false)
    (hp : (s.entryAt (x + 1)).mPrevEntry = p)
    (hplt : p < s.mEntries.length) (hpx : p ≠ x) (hpx1 : p ≠ x + 1)
    (hpdel : (s.entryAt p).mDeleted = true) (hpfst : (s.entryAt p).mFirst = false)
    (hfirst : s.mFirstFreeEntry = x + 1 → p = 0) :
    ∃ s2, s.AddToFreeListNext x (s.entryAt (x + 1)) = .ok s2 ∧
      s2.mEntries.length = s.mEntries.length ∧ s2.mEntriesCount = s.mEntriesCount ∧
      s2.mFirstFreeEntry = (if s.mFirstFreeEntry = x + 1 then x else s.mFirstFreeEntry) ∧
      ∀ i, s2.entryAt i =
        if i = p then { s.entryAt p with mNextEntry := x }
        else if i = x then { s.entryAt x with mPrevEntry := p, mNextEntry := x + 1 }
        else if i = x + 1 then { s.entryAt (x + 1) with mPrevEntry := x }
        else s.entryAt i := by
  have hx : x < s.mEntries.length := by omega
  have e1 : ∀ e : StoreEntry, (e.SetPrevEntry p).SetNextEntry (x + 1)
      = { e with mPrevEntry := p, mNextEntry := x + 1 } := by
    intro e
    rw [SetPrevEntry_lt _ _ (by omega), SetNextEntry_lt _ _ (by omega)]
  have e2 : ∀ e : StoreEntry, e.SetNextEntry x = { e with mNextEntry := x } :=
    fun e => SetNextEntry_lt _ _ (by omega)
  have e3 : ∀ e : StoreEntry, e.SetPrevEntry x = { e with mPrevEntry := x } :=
    fun e => SetPrevEntry_lt _ _ (by omega)
  have hx1x : x ≠ x + 1 := by omega
  have hrun : s.AddToFreeListNext x (s.entryAt (x + 1)) =
      if s.mFirstFreeEntry = x + 1 then
        .ok ((((s.Store (x + 1) ((s.entryAt (x + 1)).SetPrevEntry x)).Store x
          (((s.entryAt x).SetPrevEntry p).SetNextEntry (x + 1))).Store p
            ((s.entryAt p).SetNextEntry x)).SetFirstFreeEntry x)
      else
        .ok (((s.Store (x + 1) ((s.entryAt (x + 1)).SetPrevEntry x)).Store x
          (((s.entryAt x).SetPrevEntry p).SetNextEntry (x + 1))).Store p
            ((s.entryAt p).SetNextEntry x)) := by
    unfold AddToFreeListNext
    simp only [bind, Except.bind]
    rw [assert_true _ (by simpa [IsFirstEntry] using hnfst)]
    dsimp only
    rw [RetriveItem_lt _ _ (by rw [length_Store]; exact hx), entryAt_Store_ne _ _ _ _ hx1x]
    dsimp only
    rw [show (s.entryAt (x + 1)).PrevEntry = p from hp]
    rw [RetriveItem_lt _ _ (by rw [length_Store, length_Store]; exact hplt),
      entryAt_Store_ne _ _ _ _ hpx, entryAt_Store_ne _ _ _ _ hpx1]
    dsimp only
    rw [assert_true _ (by simpa [IsDeleted] using hpdel),
      assert_true _ (by simpa [IsFirstEntry] using hpfst)]
    dsimp only
    rw [Store_mFirstFreeEntry, Store_mFirstFreeEntry, Store_mFirstFreeEntry]
    by_cases c : s.mFirstFreeEntry = x + 1
    · rw [if_pos c, if_pos c, assert_true _ (by simpa using hfirst c)]
    · rw [if_neg c, if_neg c]
  have hfields : ∀ i, (((s.Store (x + 1) ((s.entryAt (x + 1)).SetPrevEntry x)).Store x
      (((s.entryAt x).SetPrevEntry p).SetNextEntry (x + 1))).Store p
        ((s.entryAt p).SetNextEntry x)).entryAt i =
      if i = p then { s.entryAt p with mNextEntry := x }
      else if i = x then { s.entryAt x with mPrevEntry := p, mNextEntry := x + 1 }
      else if i = x + 1 then { s.entryAt (x + 1) with mPrevEntry := x }
      else s.entryAt i := by
    intro i
    rw [entryAt_Store _ _ _ _ (by rw [length_Store, length_Store]; exact hplt),
      entryAt_Store _ _ _ _ (by rw [length_Store]; exact hx),
      entryAt_Store _ _ _ _ hxlt, e1, e2, e3]
  rw [hrun]
  by_cases c : s.mFirstFreeEntry = x + 1
  · rw [if_pos c, if_pos c]
    refine ⟨_, rfl, ?_, ?_, ?_, ?_⟩
    · rw [length_SetFirstFreeEntry, length_Store, length_Store, length_Store]
    · rw [mEntriesCount_SetFirstFreeEntry, Store_mEntriesCount, Store_mEntriesCount,
        Store_mEntriesCount]
    · rw [mFirstFreeEntry_SetFirstFreeEntry]
    · intro i
      rw [entryAt_SetFirstFreeEntry]
      exact hfields i
  · rw [if_neg c, if_neg c]
    refine ⟨_, rfl, ?_, ?_, ?_, hfields⟩
    · rw [length_Store, length_Store, length_Store]
    · rw [Store_mEntriesCount, Store_mEntriesCount, Store_mEntriesCount]
    · rw [Store_mFirstFreeEntry, Store_mFirstFreeEntry, Store_mFirstFreeEntry]

/-- The fields of the heap after `AddToFreeListPrev`. -/
theorem AddToFreeListPrev_run (s : VariableSizeStore) (x nx : Nat)
    (hlen : s.mEntries.length < 2 ^ 58) (hxlt : x < s.mEntries.length) (hx1 : 1 < x)
    (hnfst : (s.entryAt (x - 1)).mFirst = false)
    (hnx : (s.entryAt (x - 1)).mNextEntry = nx)
    (hn : nx = LAST_DELETED_ENTRY ∨
      (nx < s.mEntries.length ∧ nx ≠ x ∧ nx ≠ x - 1 ∧
        (s.entryAt nx).mDeleted = true ∧ (s.entryAt nx).mFirst = false)) :
    ∃ s2, s.AddToFreeListPrev x (s.entryAt (x - 1)) = .ok s2 ∧
      s2.mEntries.length = s.mEntries.length ∧ s2.mEntriesCount = s.mEntriesCount ∧
      s2.mFirstFreeEntry = s.mFirstFreeEntry ∧
      ∀ i, s2.entryAt i =
        if i = nx ∧ nx ≠ LAST_DELETED_ENTRY then { s.entryAt i with mPrevEntry := x }
        else if i = x then { s.entryAt x with mNextEntry := nx, mPrevEntry := x - 1 }
        else if i = x - 1 then { s.entryAt (x - 1) with mNextEntry := x }
        else s.entryAt i := by
  have hnl : nx < 2 ^ 62 := by
    rcases hn with c | c
    · rw [c]; unfold LAST_DELETED_ENTRY; omega
    · omega
  have e1 : ∀ e : StoreEntry, (e.SetNextEntry nx).SetPrevEntry (x - 1)
      = { e with mNextEntry := nx, mPrevEntry := x - 1 } := by
    intro e
    rw [SetNextEntry_lt _ _ hnl, SetPrevEntry_lt _ _ (by omega)]
  have e2 : ∀ e : StoreEntry, e.SetNextEntry x = { e with mNextEntry := x } :=
    fun e => SetNextEntry_lt _ _ (by omega)
  have e3 : ∀ e : StoreEntry, e.SetPrevEntry x = { e with mPrevEntry := x } :=
    fun e => SetPrevEntry_lt _ _ (by omega)
  have hxx : x ≠ x - 1 := by omega
  have hx1lt : x - 1 < s.mEntries.length := by omega
  have hrun : s.AddToFreeListPrev x (s.entryAt (x - 1)) =
      if nx = LAST_CHAINED_ENTRY then
        .ok ((s.Store (x - 1) ((s.entryAt (x - 1)).SetNextEntry x)).Store x
          (((s.entryAt x).SetNextEntry nx).SetPrevEntry (x - 1)))
      else
        .ok (((s.Store (x - 1) ((s.entryAt (x - 1)).SetNextEntry x)).Store x
          (((s.entryAt x).SetNextEntry nx).SetPrevEntry (x - 1))).Store nx
            ((s.entryAt nx).SetPrevEntry x)) := by
    unfold AddToFreeListPrev
    simp only [bind, Except.bind]
    rw [assert_true _ (by simpa [IsFirstEntry] using hnfst)]
    dsimp only
    rw [RetriveItem_lt _ _ (by rw [length_Store]; exact hxlt), entryAt_Store_ne _ _ _ _ hxx]
    dsimp only
    rw [show (s.entryAt (x - 1)).NextEntry = nx from hnx]
    by_cases c : nx = LAST_CHAINED_ENTRY
    · rw [if_pos c, if_pos c]
    · rw [if_neg c, if_neg c]
      obtain ⟨a1, a2, a3, a4, a5⟩ := hn.resolve_left c
      rw [RetriveItem_lt _ _ (by rw [length_Store, length_Store]; exact a1),
        entryAt_Store_ne _ _ _ _ a2, entryAt_Store_ne _ _ _ _ a3]
      dsimp only
      rw [assert_true _ (by simpa [IsDeleted] using a4),
        assert_true _ (by simpa [IsFirstEntry] using a5)]
  rw [hrun]
  by_cases c : nx = LAST_CHAINED_ENTRY
  · rw [if_pos c]
    refine ⟨_, rfl, ?_, ?_, ?_, ?_⟩
    · rw [length_Store, length_Store]
    · rw [Store_mEntriesCount, Store_mEntriesCount]
    · rw [Store_mFirstFreeEntry, Store_mFirstFreeEntry]
    · intro i
      rw [entryAt_Store _ _ _ _ (by rw [length_Store]; exact hxlt),
        entryAt_Store _ _ _ _ hx1lt, e1, e2]
      have hc : ¬ (i = nx ∧ nx ≠ LAST_DELETED_ENTRY) := fun h => h.2 c
      rw [if_neg hc]
  · rw [if_neg c]
    obtain ⟨a1, a2, a3, a4, a5⟩ := hn.resolve_left c
    refine ⟨_, rfl, ?_, ?_, ?_, ?_⟩
    · rw [length_Store, length_Store, length_Store]
    · rw [Store_mEntriesCount, Store_mEntriesCount, Store_mEntriesCount]
    · rw [Store_mFirstFreeEntry, Store_mFirstFreeEntry, Store_mFirstFreeEntry]
    · intro i
      rw [entryAt_Store _ _ _ _ (by rw [length_Store, length_Store]; exact a1),
        entryAt_Store _ _ _ _ (by rw [length_Store]; exact hxlt),
        entryAt_Store _ _ _ _ hx1lt, e1, e2, e3]
      by_cases c0 : i = nx
      · rw [if_pos c0, if_pos ⟨c0, c⟩, c0]
      · have hc : ¬ (i = nx ∧ nx ≠ LAST_DELETED_ENTRY) := fun h => c0 h.1
        rw [if_neg c0, if_neg hc]

end VariableSizeStore
end pastra
end whais
namespace whais
namespace pastra
namespace VariableSizeStore

open StoreEntry

/-- `AddToFreeList` on a live entry whose entry `x + 1` is deleted: the entry
joins the list of free entries before entry `x + 1`. -/
theorem AddToFreeList_next (s : VariableSizeStore) (free : List Nat) (x : Nat)
    (hinv : s.Inv free) (hxd : (s.entryAt x).mDeleted = false)
    (hx1 : x + 1 < s.mEntries.length) (hnd : (s.entryAt (x + 1)).mDeleted = true) :
    ∃ s2 A B, free = A ++ B ∧ s.AddToFreeList x = .ok s2 ∧ s2.Inv (A ++ x :: B) ∧
      s2.mEntries.length = s.mEntries.length ∧
      (∀ i, i ≠ x → (s.entryAt i).mDeleted = false → s2.entryAt i = s.entryAt i) := by
  obtain ⟨hb1, hb2⟩ := Inv_bounds s free hinv
  have hinv0 := hinv
  obtain ⟨h1, h2, h3, h4, h5, h6, h7, h8⟩ := hinv
  have hx : x < s.mEntries.length := by omega
  have hmem : x + 1 ∈ free := by
    have := (h6 (x + 1) hx1).1 hnd
    rcases List.mem_cons.1 this with c | c
    · omega
    · exact c
  obtain ⟨A, B, hfree⟩ := List.append_of_mem hmem
  subst hfree
  obtain ⟨hp1, hp2, -⟩ := FreeLinks_at s (x + 1) B A 0 h7
  have hpmem : A.getLastD 0 ∈ 0 :: A := List.getLastD_mem_cons A 0
  have hpmem2 : A.getLastD 0 ∈ 0 :: (A ++ (x + 1) :: B) := by
    rcases List.mem_cons.1 hpmem with c | c
    · rw [c]; exact List.mem_cons_self _ _
    · exact List.mem_cons_of_mem _ (List.mem_append_left _ c)
  obtain ⟨hplt, hpfst⟩ := h5 _ hpmem2
  have hpdel := (h6 _ hplt).2 hpmem2
  have hpx : A.getLastD 0 ≠ x := by
    intro c
    rw [c, hxd] at hpdel
    exact absurd hpdel (by simp)
  have hpx1 : A.getLastD 0 ≠ x + 1 := by
    intro c
    have hnd2 : (0 :: A ++ (x + 1) :: B).Nodup := h4
    rw [List.nodup_append] at hnd2
    exact hnd2.2.2 hpmem (by rw [c]; exact List.mem_cons_self _ _)
  have hfirst : s.mFirstFreeEntry = x + 1 ↔ A = [] := by
    rcases Inv_first s _ hinv0 with c | ⟨rest, c, -⟩
    · exact absurd c.1 (by simp)
    · cases A with
      | nil =>
        have := (List.cons.inj c).1
        exact ⟨fun _ => rfl, fun _ => this.symm⟩
      | cons a A2 =>
        have e := (List.cons.inj c).1
        refine ⟨fun c2 => ?_, fun c2 => absurd c2 (by simp)⟩
        exfalso
        have hnd2 : (a :: A2 ++ (x + 1) :: B).Nodup := (List.nodup_cons.1 h4).2
        rw [List.nodup_append] at hnd2
        exact hnd2.2.2 (List.mem_cons_self _ _) (by rw [e, c2]; exact List.mem_cons_self _ _)
  generalize hs1 : s.Store x (((s.entryAt x).MarkAsDeleted true).MarkAsFirstEntry false) = s1
  have hs1e : ∀ i, s1.entryAt i = if i = x then
      ⟨(s.entryAt x).mPrevEntry, (s.entryAt x).mNextEntry, true, false, (s.entryAt x).mRawData⟩
      else s.entryAt i := by
    intro i
    rw [← hs1, entryAt_Store _ _ _ _ hx]
    rfl
  have hs1l : s1.mEntries.length = s.mEntries.length := by rw [← hs1, length_Store]
  have hs1c : s1.mEntriesCount = s.mEntriesCount := by rw [← hs1, Store_mEntriesCount]
  have hs1f : s1.mFirstFreeEntry = s.mFirstFreeEntry := by rw [← hs1, Store_mFirstFreeEntry]
  have hne1 : x + 1 ≠ x := by omega
  have hs1n : s1.entryAt (x + 1) = s.entryAt (x + 1) := by rw [hs1e, if_neg hne1]
  have hs1p : s1.entryAt (A.getLastD 0) = s.entryAt (A.getLastD 0) := by rw [hs1e, if_neg hpx]
  obtain ⟨s2, hrun, hl2, hc2, hf2, he2⟩ := AddToFreeListNext_run s1 x (A.getLastD 0)
    (by rw [hs1l]; exact hb1) (by rw [hs1l]; exact hx1)
    (by rw [hs1n]; exact (h5 _ (List.mem_cons_of_mem _ hmem)).2)
    (by rw [hs1n]; exact hp1) (by rw [hs1l]; exact hplt) hpx hpx1
    (by rw [hs1p]; exact hpdel) (by rw [hs1p]; exact hpfst)
    (by
      rw [hs1f]
      intro c
      rw [hfirst.1 c]
      rfl)
  have hall : ∀ i, s2.entryAt i =
      if i = A.getLastD 0 then { s.entryAt (A.getLastD 0) with mNextEntry := x }
      else if i = x then ⟨A.getLastD 0, x + 1, true, false, (s.entryAt x).mRawData⟩
      else if i = x + 1 then { s.entryAt (x + 1) with mPrevEntry := x }
      else s.entryAt i := by
    intro i
    rw [he2 i, hs1p, hs1n, hs1e x, if_pos rfl, hs1e i]
    by_cases c0 : i = A.getLastD 0
    · rw [if_pos c0, if_pos c0]
    · rw [if_neg c0, if_neg c0]
      by_cases c1 : i = x
      · rw [if_pos c1, if_pos c1]
      · rw [if_neg c1, if_neg c1, if_neg c1]
  refine ⟨s2, A, (x + 1) :: B, rfl, ?_, ?_, by rw [hl2, hs1l], ?_⟩
  · unfold AddToFreeList
    simp only [bind, Except.bind]
    rw [assert_true _ (by rw [decide_eq_true_eq, h1]; exact hx), RetriveItem_lt _ _ hx]
    dsimp only
    rw [assert_true _ (by simpa [IsDeleted] using hxd)]
    dsimp only
    rw [hs1, hs1c, h1, if_pos hx1, RetriveItem_lt _ _ (by rw [hs1l]; exact hx1)]
    dsimp only
    rw [if_pos (by rw [hs1n]; exact hnd)]
    exact hrun
  · refine Inv_insert s s2 A ((x + 1) :: B) x hinv0 hx hxd (by rw [hl2, hs1l])
      (by rw [hc2, hs1c]) ?_ ?_ ?_ ?_ ?_ ?_ ?_ ?_ ?_ ?_
    · rw [hf2, hs1f]
      by_cases c : A = []
      · rw [if_pos c, if_pos (hfirst.2 c)]
      · rw [if_neg c, if_neg (fun h => c (hfirst.1 h))]
    · intro i
      rw [hall i]
      split_ifs <;> simp_all
    · intro i
      rw [hall i]
      split_ifs <;> simp_all
    · intro i
      rw [hall i]
      split_ifs <;> simp_all
    · intro i c0 c1
      rw [hall i, if_neg c0, if_neg c1]
      split_ifs with c2
      · rw [c2]
      · rfl
    · intro i c1 c2
      have c3 : i ≠ x + 1 := c2 (x + 1) (by simp)
      rw [hall i, if_neg c1, if_neg c3]
      split_ifs with c0
      · rw [c0]
      · rfl
    · rw [hall, if_pos rfl]
    · rw [hall, if_neg (Ne.symm hpx), if_pos rfl]
    · rw [hall, if_neg (Ne.symm hpx), if_pos rfl, hp2]
    · intro b hb
      simp only [List.head?_cons, Option.mem_def, Option.some.injEq] at hb
      subst hb
      rw [hall, if_neg (Ne.symm hpx1), if_neg hne1, if_pos rfl]
  · intro i c1 c2
    have c0 : i ≠ A.getLastD 0 := by
      intro c; rw [c, hpdel] at c2; exact absurd c2 (by simp)
    have c3 : i ≠ x + 1 := by
      intro c; rw [c, hnd] at c2; exact absurd c2 (by simp)
    rw [hall i, if_neg c0, if_neg c1, if_neg c3]

end VariableSizeStore
end pastra
end whais
namespace whais
namespace pastra
namespace VariableSizeStore

open StoreEntry

/-- `AddToFreeList` on the last entry of the store, live, whose entry `x - 1`
is deleted: the entry joins the list of free entries after entry `x - 1`. -/
theorem AddToFreeList_prev (s : VariableSizeStore) (free : List Nat) (x : Nat)
    (hinv : s.Inv free) (hxd : (s.entryAt x).mDeleted = false) (hx : x < s.mEntries.length)
    (hx1 : ¬ x + 1 < s.mEntries.length) (hxp : 1 < x)
    (hnd : (s.entryAt (x - 1)).mDeleted = true) :
    ∃ s2 A B, free = A ++ B ∧ s.AddToFreeList x = .ok s2 ∧ s2.Inv (A ++ x :: B) ∧
      s2.mEntries.length = s.mEntries.length ∧
      (∀ i, i ≠ x → (s.entryAt i).mDeleted = false → s2.entryAt i = s.entryAt i) := by
  obtain ⟨hb1, hb2⟩ := Inv_bounds s free hinv
  have hinv0 := hinv
  obtain ⟨h1, h2, h3, h4, h5, h6, h7, h8⟩ := hinv
  have hx1lt : x - 1 < s.mEntries.length := by omega
  have hmem : x - 1 ∈ free := by
    have := (h6 (x - 1) hx1lt).1 hnd
    rcases List.mem_cons.1 this with c | c
    · omega
    · exact c
  obtain ⟨A, B, hfree⟩ := List.append_of_mem hmem
  subst hfree
  obtain ⟨-, -, hp3⟩ := FreeLinks_at s (x - 1) B A 0 h7
  have hnodup : (A ++ (x - 1) :: B).Nodup := (List.nodup_cons.1 h4).2
  have hne1 : x - 1 ≠ x := by omega
  have hn : (s.entryAt (x - 1)).mNextEntry = LAST_DELETED_ENTRY ∨
      ((s.entryAt (x - 1)).mNextEntry < s.mEntries.length ∧
        (s.entryAt (x - 1)).mNextEntry ≠ x ∧ (s.entryAt (x - 1)).mNextEntry ≠ x - 1 ∧
        (s.entryAt (s.entryAt (x - 1)).mNextEntry).mDeleted = true ∧
        (s.entryAt (s.entryAt (x - 1)).mNextEntry).mFirst = false) := by
    cases B with
    | nil => left; simpa using hp3
    | cons b B2 =>
      right
      have e : (s.entryAt (x - 1)).mNextEntry = b := by simpa using hp3
      have hbm : b ∈ 0 :: (A ++ (x - 1) :: b :: B2) := by simp
      obtain ⟨a1, a2⟩ := h5 b hbm
      have a3 := (h6 b a1).2 hbm
      rw [e]
      refine ⟨a1, ?_, ?_, a3, a2⟩
      · intro c; rw [c, hxd] at a3; exact absurd a3 (by simp)
      · intro c
        rw [List.nodup_append] at hnodup
        have := hnodup.2.1
        rw [List.nodup_cons] at this
        exact this.1 (by rw [← c]; exact List.mem_cons_self _ _)
  have hhead : ∀ b ∈ B.head?, (s.entryAt (x - 1)).mNextEntry = b ∧
      (s.entryAt (x - 1)).mNextEntry ≠ LAST_DELETED_ENTRY := by
    intro b hb
    cases B with
    | nil => simp at hb
    | cons b2 B2 =>
      simp only [List.head?_cons, Option.mem_def, Option.some.injEq] at hb
      subst hb
      have e : (s.entryAt (x - 1)).mNextEntry = b2 := by simpa using hp3
      refine ⟨e, ?_⟩
      rw [e]
      have := (h5 b2 (by simp)).1
      unfold LAST_DELETED_ENTRY
      omega
  generalize hnx : (s.entryAt (x - 1)).mNextEntry = nx at hn hhead
  generalize hs1 : s.Store x (((s.entryAt x).MarkAsDeleted true).MarkAsFirstEntry false) = s1
  have hs1e : ∀ i, s1.entryAt i = if i = x then
      ⟨(s.entryAt x).mPrevEntry, (s.entryAt x).mNextEntry, true, false, (s.entryAt x).mRawData⟩
      else s.entryAt i := by
    intro i
    rw [← hs1, entryAt_Store _ _ _ _ hx]
    rfl
  have hs1l : s1.mEntries.length = s.mEntries.length := by rw [← hs1, length_Store]
  have hs1c : s1.mEntriesCount = s.mEntriesCount := by rw [← hs1, Store_mEntriesCount]
  have hs1f : s1.mFirstFreeEntry = s.mFirstFreeEntry := by rw [← hs1, Store_mFirstFreeEntry]
  have hs1n : s1.entryAt (x - 1) = s.entryAt (x - 1) := by rw [hs1e, if_neg hne1]
  have hs1x : ∀ i, i ≠ x → s1.entryAt i = s.entryAt i := by
    intro i c; rw [hs1e, if_neg c]
  obtain ⟨s2, hrun, hl2, hc2, hf2, he2⟩ := AddToFreeListPrev_run s1 x nx
    (by rw [hs1l]; exact hb1) (by rw [hs1l]; exact hx) hxp
    (by rw [hs1n]; exact (h5 _ (List.mem_cons_of_mem _ hmem)).2)
    (by rw [hs1n]; exact hnx)
    (by
      rcases hn with c | ⟨a1, a2, a3, a4, a5⟩
      · exact Or.inl c
      · exact Or.inr ⟨by rw [hs1l]; exact a1, a2, a3, by rw [hs1x nx a2]; exact a4,
          by rw [hs1x nx a2]; exact a5⟩)
  have hall : ∀ i, s2.entryAt i =
      if i = nx ∧ nx ≠ LAST_DELETED_ENTRY then { s.entryAt i with mPrevEntry := x }
      else if i = x then ⟨x - 1, nx, true, false, (s.entryAt x).mRawData⟩
      else if i = x - 1 then { s.entryAt (x - 1) with mNextEntry := x }
      else s.entryAt i := by
    intro i
    rw [he2 i, hs1n, hs1e x, if_pos rfl]
    by_cases c0 : i = nx ∧ nx ≠ LAST_DELETED_ENTRY
    · rw [if_pos c0, if_pos c0]
      have : i ≠ x := by
        rcases hn with c | c
        · exact absurd c c0.2
        · rw [c0.1]; exact c.2.1
      rw [hs1x i this]
    · rw [if_neg c0, if_neg c0]
      by_cases c1 : i = x
      · rw [if_pos c1, if_pos c1]
      · rw [if_neg c1, if_neg c1, hs1x i c1]
  have hnxx : ¬ (x = nx ∧ nx ≠ LAST_DELETED_ENTRY) := by
    rintro ⟨c1, c2⟩
    exact (hn.resolve_left c2).2.1 c1.symm
  have hnxx1 : ¬ (x - 1 = nx ∧ nx ≠ LAST_DELETED_ENTRY) := by
    rintro ⟨c1, c2⟩
    exact (hn.resolve_left c2).2.2.1 c1.symm
  have hlast : (A ++ [x - 1]).getLastD 0 = x - 1 := by simp
  have hsplit : A ++ (x - 1) :: B = (A ++ [x - 1]) ++ B := by simp
  refine ⟨s2, A ++ [x - 1], B, hsplit, ?_, ?_, by rw [hl2, hs1l], ?_⟩
  · unfold AddToFreeList
    simp only [bind, Except.bind]
    rw [assert_true _ (by rw [decide_eq_true_eq, h1]; exact hx), RetriveItem_lt _ _ hx]
    dsimp only
    rw [assert_true _ (by simpa [IsDeleted] using hxd)]
    dsimp only
    rw [hs1, hs1c, h1, if_neg hx1, if_pos hxp, RetriveItem_lt _ _ (by rw [hs1l]; exact hx1lt)]
    dsimp only
    rw [if_pos (by rw [hs1n]; exact hnd)]
    exact hrun
  · rw [hsplit] at hinv0
    refine Inv_insert s s2 (A ++ [x - 1]) B x hinv0 hx hxd (by rw [hl2, hs1l])
      (by rw [hc2, hs1c]) ?_ ?_ ?_ ?_ ?_ ?_ ?_ ?_ ?_ ?_
    · rw [hf2, hs1f, if_neg (by simp)]
    · intro i
      rw [hall i]
      split_ifs with c0 c1 c2
      · rfl
      · rw [c1]
      · rw [c2]
      · rfl
    · intro i
      rw [hall i]
      by_cases c0 : i = nx ∧ nx ≠ LAST_DELETED_ENTRY
      · have : i ≠ x := fun c => hnxx ⟨c ▸ c0.1, c0.2⟩
        rw [if_pos c0, if_neg this]
      · rw [if_neg c0]
        by_cases c1 : i = x
        · rw [if_pos c1, if_pos c1]
        · rw [if_neg c1, if_neg c1]
          by_cases c2 : i = x - 1
          · rw [if_pos c2, c2]
          · rw [if_neg c2]
    · intro i
      rw [hall i]
      by_cases c0 : i = nx ∧ nx ≠ LAST_DELETED_ENTRY
      · have : i ≠ x := fun c => hnxx ⟨c ▸ c0.1, c0.2⟩
        rw [if_pos c0, if_neg this]
      · rw [if_neg c0]
        by_cases c1 : i = x
        · rw [if_pos c1, if_pos c1]
        · rw [if_neg c1, if_neg c1]
          by_cases c2 : i = x - 1
          · rw [if_pos c2, c2]
          · rw [if_neg c2]
    · intro i c0 c1
      rw [hlast] at c0
      rw [hall i, if_neg c1, if_neg c0]
      split_ifs <;> rfl
    · intro i c1 c2
      have c0 : ¬ (i = nx ∧ nx ≠ LAST_DELETED_ENTRY) := by
        rintro ⟨a1, a2⟩
        cases B with
        | nil => exact a2 (by simpa [hnx] using hp3)
        | cons b B2 =>
          have := (hhead b (by simp)).1
          exact c2 b (by simp) (by rw [a1, this])
      rw [hall i, if_neg c0, if_neg c1]
      split_ifs with c3
      · rw [c3]
      · rfl
    · rw [hlast, hall, if_neg hnxx1, if_neg hne1, if_pos rfl]
    · rw [hlast, hall, if_neg hnxx, if_pos rfl]
    · rw [hlast, hall, if_neg hnxx, if_pos rfl, hnx]
    · intro b hb
      obtain ⟨a1, a2⟩ := hhead b hb
      rw [hall, if_pos ⟨a1.symm, a2⟩]
  · intro i c1 c2
    have c0 : ¬ (i = nx ∧ nx ≠ LAST_DELETED_ENTRY) := by
      rintro ⟨a1, a2⟩
      have := (hn.resolve_left a2).2.2.2.1
      rw [← a1, c2] at this
      exact absurd this (by simp)
    have c3 : i ≠ x - 1 := by
      intro c; rw [c, hnd] at c2; exact absurd c2 (by simp)
    rw [hall i, if_neg c0, if_neg c1, if_neg c3]

end VariableSizeStore
end pastra
end whais
namespace whais
namespace pastra
namespace VariableSizeStore

open StoreEntry

/-- `AddToFreeList` on a live entry without a deleted neighbour that counts:
the entry joins the list of free entries at its front. -/
theorem AddToFreeList_front (s : VariableSizeStore) (free : List Nat) (x : Nat)
    (hinv : s.Inv free) (hxd : (s.entryAt x).mDeleted = false) (hx : x < s.mEntries.length)
    (hnext : x + 1 < s.mEntries.length → (s.entryAt (x + 1)).mDeleted = false)
    (hprev : ¬ x + 1 < s.mEntries.length → 1 < x → (s.entryAt (x - 1)).mDeleted = false) :
    ∃ s2 A B, free = A ++ B ∧ s.AddToFreeList x = .ok s2 ∧ s2.Inv (A ++ x :: B) ∧
      s2.mEntries.length = s.mEntries.length ∧
      (∀ i, i ≠ x → (s.entryAt i).mDeleted = false → s2.entryAt i = s.entryAt i) := by
  obtain ⟨hb1, hb2⟩ := Inv_bounds s free hinv
  have hinv0 := hinv
  obtain ⟨h1, h2, h3, h4, h5, h6, h7, h8⟩ := hinv
  have h0m : (0 : Nat) ∈ 0 :: free := List.mem_cons_self _ _
  have h0del := (h6 0 hb2).2 h0m
  have h0fst := (h5 0 h0m).2
  have hx0 : x ≠ 0 := by
    intro c; rw [c, h0del] at hxd; exact absurd hxd (by simp)
  have hf : s.mFirstFreeEntry = LAST_DELETED_ENTRY ∨
      (s.mFirstFreeEntry < s.mEntries.length ∧ s.mFirstFreeEntry ≠ 0 ∧ s.mFirstFreeEntry ≠ x ∧
        (s.entryAt s.mFirstFreeEntry).mDeleted = true ∧
        (s.entryAt s.mFirstFreeEntry).mFirst = false) := by
    rcases Inv_first s _ hinv0 with c | ⟨rest, c, -⟩
    · exact Or.inl c.2
    · right
      have hm : s.mFirstFreeEntry ∈ 0 :: free := by rw [c]; simp
      obtain ⟨a1, a2⟩ := h5 _ hm
      have a3 := (h6 _ a1).2 hm
      refine ⟨a1, ?_, ?_, a3, a2⟩
      · intro c0
        rw [c, List.nodup_cons] at h4
        apply h4.1
        rw [c0]
        exact List.mem_cons_self _ _
      · intro c0; rw [c0, hxd] at a3; exact absurd a3 (by simp)
  have hhead : ∀ b ∈ free.head?, s.mFirstFreeEntry = b ∧
      s.mFirstFreeEntry ≠ LAST_DELETED_ENTRY := by
    intro b hb
    rcases Inv_first s _ hinv0 with c | ⟨rest, c, c2⟩
    · rw [c.1] at hb; simp at hb
    · rw [c] at hb
      simp only [List.head?_cons, Option.mem_def, Option.some.injEq] at hb
      exact ⟨hb, c2⟩
  have hempty : free = [] → s.mFirstFreeEntry = LAST_DELETED_ENTRY := by
    intro c
    rcases Inv_first s _ hinv0 with c1 | ⟨rest, c1, -⟩
    · exact c1.2
    · rw [c] at c1; simp at c1
  generalize hs1 : s.Store x (((s.entryAt x).MarkAsDeleted true).MarkAsFirstEntry false) = s1
  have hs1e : ∀ i, s1.entryAt i = if i = x then
      ⟨(s.entryAt x).mPrevEntry, (s.entryAt x).mNextEntry, true, false, (s.entryAt x).mRawData⟩
      else s.entryAt i := by
    intro i
    rw [← hs1, entryAt_Store _ _ _ _ hx]
    rfl
  have hs1l : s1.mEntries.length = s.mEntries.length := by rw [← hs1, length_Store]
  have hs1c : s1.mEntriesCount = s.mEntriesCount := by rw [← hs1, Store_mEntriesCount]
  have hs1f : s1.mFirstFreeEntry = s.mFirstFreeEntry := by rw [← hs1, Store_mFirstFreeEntry]
  have hs1x : ∀ i, i ≠ x → s1.entryAt i = s.entryAt i := by
    intro i c; rw [hs1e, if_neg c]
  obtain ⟨s2, hrun, hl2, hc2, hf2, he2⟩ := AddToFreeListFront_run s1 x
    (by rw [hs1l]; exact hb1) (by rw [hs1l]; exact hx) hx0
    (by rw [hs1x 0 (Ne.symm hx0)]; exact h0del) (by rw [hs1x 0 (Ne.symm hx0)]; exact h0fst)
    (by
      rw [hs1f]
      rcases hf with c | ⟨a1, a2, a3, a4, a5⟩
      · exact Or.inl c
      · exact Or.inr ⟨by rw [hs1l]; exact a1, a2, a3, by rw [hs1x _ a3]; exact a4,
          by rw [hs1x _ a3]; exact a5⟩)
  have hfx : ¬ (x = s.mFirstFreeEntry ∧ s.mFirstFreeEntry ≠ LAST_DELETED_ENTRY) := by
    rintro ⟨c1, c2⟩
    exact (hf.resolve_left c2).2.2.1 c1.symm
  have hall : ∀ i, s2.entryAt i =
      if i = 0 then { s.entryAt 0 with mNextEntry := x }
      else if i = x then ⟨0, s.mFirstFreeEntry, true, false, (s.entryAt x).mRawData⟩
      else if i = s.mFirstFreeEntry ∧ s.mFirstFreeEntry ≠ LAST_DELETED_ENTRY then
        { s.entryAt i with mPrevEntry := x }
      else s.entryAt i := by
    intro i
    rw [he2 i, hs1f, hs1x 0 (Ne.symm hx0), hs1e x, if_pos rfl]
    by_cases c0 : i = 0
    · rw [if_pos c0, if_pos c0]
    · rw [if_neg c0, if_neg c0]
      by_cases c1 : i = x
      · rw [if_pos c1, if_pos c1]
      · rw [if_neg c1, if_neg c1, hs1x i c1]
  have hcode : s.AddToFreeList x = s1.AddToFreeListFront x := by
    unfold AddToFreeList
    simp only [bind, Except.bind]
    rw [assert_true _ (by rw [decide_eq_true_eq, h1]; exact hx), RetriveItem_lt _ _ hx]
    dsimp only
    rw [assert_true _ (by simpa [IsDeleted] using hxd)]
    dsimp only
    rw [hs1, hs1c, h1]
    by_cases c : x + 1 < s.mEntries.length
    · have hne : x + 1 ≠ x := by omega
      rw [if_pos c, RetriveItem_lt _ _ (by rw [hs1l]; exact c)]
      dsimp only
      rw [if_neg (by rw [hs1x _ hne, IsDeleted, hnext c]; simp)]
    · rw [if_neg c]
      by_cases c2 : 1 < x
      · have hne : x - 1 ≠ x := by omega
        rw [if_pos c2, RetriveItem_lt _ _ (by rw [hs1l]; omega)]
        dsimp only
        rw [if_neg (by rw [hs1x _ hne, IsDeleted, hprev c c2]; simp)]
      · rw [if_neg c2]
  refine ⟨s2, [], free, rfl, by rw [hcode]; exact hrun, ?_, by rw [hl2, hs1l], ?_⟩
  · have hlast : ([] : List Nat).getLastD 0 = 0 := rfl
    refine Inv_insert s s2 [] free x hinv0 hx hxd (by rw [hl2, hs1l])
      (by rw [hc2, hs1c]) ?_ ?_ ?_ ?_ ?_ ?_ ?_ ?_ ?_ ?_
    · rw [hf2, if_pos rfl]
    · intro i
      rw [hall i]
      by_cases c0 : i = 0
      · rw [if_pos c0, c0]
      · rw [if_neg c0]
        by_cases c1 : i = x
        · rw [if_pos c1, c1]
        · rw [if_neg c1]
          by_cases c2 : i = s.mFirstFreeEntry ∧ s.mFirstFreeEntry ≠ LAST_DELETED_ENTRY
          · rw [if_pos c2]
          · rw [if_neg c2]
    · intro i
      rw [hall i]
      by_cases c0 : i = 0
      · have : i ≠ x := fun c => hx0 (c ▸ c0)
        rw [if_pos c0, if_neg this, c0]
      · rw [if_neg c0]
        by_cases c1 : i = x
        · rw [if_pos c1, if_pos c1]
        · rw [if_neg c1, if_neg c1]
          by_cases c2 : i = s.mFirstFreeEntry ∧ s.mFirstFreeEntry ≠ LAST_DELETED_ENTRY
          · rw [if_pos c2]
          · rw [if_neg c2]
    · intro i
      rw [hall i]
      by_cases c0 : i = 0
      · have : i ≠ x := fun c => hx0 (c ▸ c0)
        rw [if_pos c0, if_neg this, c0]
      · rw [if_neg c0]
        by_cases c1 : i = x
        · rw [if_pos c1, if_pos c1]
        · rw [if_neg c1, if_neg c1]
          by_cases c2 : i = s.mFirstFreeEntry ∧ s.mFirstFreeEntry ≠ LAST_DELETED_ENTRY
          · rw [if_pos c2]
          · rw [if_neg c2]
    · intro i c0 c1
      rw [hlast] at c0
      rw [hall i, if_neg c0, if_neg c1]
      by_cases c2 : i = s.mFirstFreeEntry ∧ s.mFirstFreeEntry ≠ LAST_DELETED_ENTRY
      · rw [if_pos c2]
      · rw [if_neg c2]
    · intro i c1 c2
      have c3 : ¬ (i = s.mFirstFreeEntry ∧ s.mFirstFreeEntry ≠ LAST_DELETED_ENTRY) := by
        rintro ⟨a1, a2⟩
        cases hfr : free with
        | nil => exact a2 (hempty hfr)
        | cons b B2 =>
          rw [hfr] at c2 hhead
          have := (hhead b (by simp)).1
          exact c2 b (by simp) (by rw [a1, this])
      rw [hall i, if_neg c1, if_neg c3]
      by_cases c0 : i = 0
      · rw [if_pos c0, c0]
      · rw [if_neg c0]
    · rw [hlast, hall, if_pos rfl]
    · rw [hlast, hall, if_neg hx0, if_pos rfl]
    · rw [hlast, hall, if_neg hx0, if_pos rfl, h8]
    · intro b hb
      obtain ⟨a1, a2⟩ := hhead b hb
      have hb0 : b ≠ 0 := by rw [← a1]; exact (hf.resolve_left a2).2.1
      have hbx : b ≠ x := by rw [← a1]; exact (hf.resolve_left a2).2.2.1
      rw [hall, if_neg hb0, if_neg hbx, if_pos ⟨a1.symm, a2⟩]
  · intro i c1 c2
    have c0 : i ≠ 0 := by
      intro c; rw [c, h0del] at c2; exact absurd c2 (by simp)
    have c3 : ¬ (i = s.mFirstFreeEntry ∧ s.mFirstFreeEntry ≠ LAST_DELETED_ENTRY) := by
      rintro ⟨a1, a2⟩
      have := (hf.resolve_left a2).2.2.2.1
      rw [← a1, c2] at this
      exact absurd this (by simp)
    rw [hall i, if_neg c0, if_neg c1, if_neg c3]

/-- `AddToFreeList` on a live entry returns: the entry is deleted and has joined
the list of free entries, the other live entries are as they were. -/
theorem AddToFreeList_spec (s : VariableSizeStore) (free : List Nat) (x : Nat)
    (hinv : s.Inv free) (hx : x < s.mEntries.length) (hxd : (s.entryAt x).mDeleted = false) :
    ∃ s2 A B, free = A ++ B ∧ s.AddToFreeList x = .ok s2 ∧ s2.Inv (A ++ x :: B) ∧
      s2.mEntries.length = s.mEntries.length ∧
      (∀ i, i ≠ x → (s.entryAt i).mDeleted = false → s2.entryAt i = s.entryAt i) := by
  by_cases c : x + 1 < s.mEntries.length
  · cases hd : (s.entryAt (x + 1)).mDeleted with
    | true => exact AddToFreeList_next s free x hinv hxd c hd
    | false =>
      exact AddToFreeList_front s free x hinv hxd hx (fun _ => hd) (fun h => absurd c h)
  · by_cases c2 : 1 < x
    · cases hd : (s.entryAt (x - 1)).mDeleted with
      | true => exact AddToFreeList_prev s free x hinv hxd hx c c2 hd
      | false =>
        exact AddToFreeList_front s free x hinv hxd hx (fun h => absurd h c) (fun _ _ => hd)
    · exact AddToFreeList_front s free x hinv hxd hx (fun h => absurd h c)
        (fun _ h => absurd h c2)

end VariableSizeStore
end pastra
end whais
namespace whais
namespace pastra
namespace VariableSizeStore

open StoreEntry

/-- A chain has no more entries than the store. -/
theorem IsChain_length_le (s : VariableSizeStore) (hlen : s.mEntries.length < 2 ^ 58)
    (ids : List Nat) (r : Nat) (h : s.IsChain r ids) : ids.length ≤ s.mEntries.length := by
  have hnd := IsChain_nodup s hlen ids r h
  have hsub : ids.toFinset ⊆ Finset.range s.mEntries.length := by
    intro i hi
    rw [List.mem_toFinset] at hi
    exact Finset.mem_range.2 (IsChain_mem s ids r h i hi).1
  have := Finset.card_le_card hsub
  rw [List.toFinset_card_of_nodup hnd, Finset.card_range] at this
  exact this

/-- The loop of `RemoveRecord` on the chain `ids`, with enough fuel: it
returns, the heap invariant holds with the entries of the chain among the free
entries, and the live entries outside the chain are as they were. -/
theorem RemoveRecordLoop_spec (ids : List Nat) : ∀ (fuel : Nat) (s : VariableSizeStore)
    (free : List Nat) (r : Nat), s.Inv free → s.IsChain r ids → ids.length < fuel →
    ∃ s2 free2, RemoveRecordLoop fuel s r = .ok s2 ∧ s2.Inv free2 ∧
      List.Perm free2 (ids ++ free) ∧ s2.mEntries.length = s.mEntries.length ∧
      (∀ i, i ∉ ids → (s.entryAt i).mDeleted = false → s2.entryAt i = s.entryAt i) := by
  induction ids with
  | nil =>
    intro fuel s free r hinv hchain hf
    obtain ⟨f, rfl⟩ : ∃ f, fuel = f + 1 := ⟨fuel - 1, by omega⟩
    rw [IsChain_nil] at hchain
    refine ⟨s, free, ?_, hinv, List.Perm.refl _, rfl, fun _ _ _ => rfl⟩
    rw [RemoveRecordLoop]
    simp only [bind, Except.bind]
    rw [if_neg (fun c => c hchain)]
  | cons x rest ih =>
    intro fuel s free r hinv hchain hf
    obtain ⟨f, rfl⟩ : ∃ f, fuel = f + 1 := ⟨fuel - 1, by omega⟩
    obtain ⟨hb1, hb2⟩ := Inv_bounds s free hinv
    have hnd := IsChain_nodup s hb1 _ r hchain
    have hchain0 := hchain
    rw [IsChain_cons] at hchain
    obtain ⟨hr, hx, hxd, hrest⟩ := hchain
    subst hr
    obtain ⟨s1, A, B, hfree, hadd, hinv1, hl1, hkeep1⟩ := AddToFreeList_spec s free r hinv hx hxd
    have hrest1 : s1.IsChain (s.entryAt r).mNextEntry rest := by
      apply IsChain_frame s s1 rest _ hrest (by rw [hl1])
      intro i hi
      have hir : i ≠ r := by
        intro c
        rw [List.nodup_cons] at hnd
        exact hnd.1 (c ▸ hi)
      rw [hkeep1 i hir (IsChain_mem s _ _ hrest i hi).2]
      exact ⟨rfl, rfl⟩
    obtain ⟨s2, free2, hloop, hinv2, hperm, hl2, hkeep2⟩ :=
      ih f s1 (A ++ r :: B) _ hinv1 hrest1 (by simp at hf; omega)
    refine ⟨s2, free2, ?_, hinv2, ?_, by rw [hl2, hl1], ?_⟩
    · rw [RemoveRecordLoop]
      simp only [bind, Except.bind]
      rw [if_pos (by unfold LAST_CHAINED_ENTRY; omega), RetriveItem_lt _ _ hx]
      dsimp only
      rw [assert_true _ (by simpa [IsDeleted] using hxd)]
      dsimp only
      rw [hadd]
      exact hloop
    · refine hperm.trans ?_
      rw [hfree]
      have h1 : List.Perm (A ++ r :: B) (r :: (A ++ B)) := List.perm_middle
      exact (List.Perm.append_left rest h1).trans List.perm_middle
    · intro i hi hd
      have hir : i ≠ r := fun c => hi (c ▸ List.mem_cons_self _ _)
      have hirest : i ∉ rest := fun c => hi (List.mem_cons_of_mem _ c)
      have e1 := hkeep1 i hir hd
      rw [hkeep2 i hirest (by rw [e1]; exact hd), e1]

/-- `RemoveRecord` on a record with the chain `ids`. -/
theorem RemoveRecord_spec (s : VariableSizeStore) (free ids : List Nat) (r : Nat)
    (hinv : s.Inv free) (hchain : s.IsChain r ids) (hids : ids ≠ [])
    (hfirst : (s.entryAt r).mFirst = true) :
    ∃ s2 free2, s.RemoveRecord r = .ok s2 ∧ s2.Inv free2 ∧
      List.Perm free2 (ids ++ free) ∧ s2.mEntries.length = s.mEntries.length ∧
      (∀ i, i ∉ ids → (s.entryAt i).mDeleted = false → s2.entryAt i = s.entryAt i) := by
  obtain ⟨hb1, hb2⟩ := Inv_bounds s free hinv
  have hle := IsChain_length_le s hb1 ids r hchain
  obtain ⟨s2, free2, hloop, rest⟩ := RemoveRecordLoop_spec ids (s.mEntries.length + 1) s free r
    hinv hchain (by omega)
  refine ⟨s2, free2, ?_, rest⟩
  cases ids with
  | nil => exact absurd rfl hids
  | cons x rest =>
    rw [IsChain_cons] at hchain
    obtain ⟨hr, hx, hxd, -⟩ := hchain
    subst hr
    unfold RemoveRecord
    simp only [bind, Except.bind]
    rw [RetriveItem_lt _ _ hx]
    dsimp only
    rw [assert_true _ (by simpa [IsDeleted] using hxd),
      assert_true _ (by simpa [IsFirstEntry] using hfirst)]
    exact hloop

end VariableSizeStore
end pastra
end whais
namespace whais
namespace pastra
namespace VariableSizeStore

open StoreEntry

/-- A new reference count in the first entry of a record leaves the heap
invariant and the chains as they are. -/
theorem SetPrevEntry_spec (s : VariableSizeStore) (free ids : List Nat) (r count : Nat)
    (hinv : s.Inv free) (hchain : s.IsChain r ids) (hids : ids ≠ []) (hc : count < 2 ^ 64) :
    r < s.mEntries.length ∧ (s.entryAt r).mDeleted = false ∧
    (s.Store r ((s.entryAt r).SetPrevEntry count)).Inv free ∧
    (s.Store r ((s.entryAt r).SetPrevEntry count)).IsChain r ids ∧
    (s.Store r ((s.entryAt r).SetPrevEntry count)).entryAt r
      = { s.entryAt r with mPrevEntry := count } ∧
    (s.Store r ((s.entryAt r).SetPrevEntry count)).mEntries.length = s.mEntries.length := by
  cases ids with
  | nil => exact absurd rfl hids
  | cons x rest =>
    have hchain0 := hchain
    rw [IsChain_cons] at hchain
    obtain ⟨hr, hx, hxd, -⟩ := hchain
    subst hr
    have hsame : (s.Store r ((s.entryAt r).SetPrevEntry count)).entryAt r
        = { s.entryAt r with mPrevEntry := count } := by
      rw [entryAt_Store_same _ _ _ hx, SetPrevEntry_lt _ _ hc]
    have hr0 : r ∉ 0 :: free := by
      intro hm
      rw [(hinv.2.2.2.2.2.1 r hx).2 hm] at hxd
      exact absurd hxd (by simp)
    refine ⟨hx, hxd, ?_, ?_, hsame, length_Store _ _ _⟩
    · refine Inv_frame s _ free hinv (length_Store _ _ _) (Store_mEntriesCount _ _ _)
        (Store_mFirstFreeEntry _ _ _) ?_ ?_
      · intro i hi
        have c1 : i ≠ r := fun e => hr0 (e ▸ hi)
        exact entryAt_Store_ne s r i _ c1
      · intro i hi hnot
        by_cases c1 : i = r
        · rw [c1, hsame]
          exact ⟨hxd, hinv.2.2.1 r hx⟩
        · rw [entryAt_Store_ne s r i _ c1]
          refine ⟨?_, hinv.2.2.1 i hi⟩
          cases hd : (s.entryAt i).mDeleted with
          | false => rfl
          | true => exact absurd ((hinv.2.2.2.2.2.1 i hi).1 hd) hnot
    · apply IsChain_frame s _ _ r hchain0 (by rw [length_Store])
      intro i _
      by_cases c1 : i = r
      · rw [c1, hsame]; exact ⟨rfl, rfl⟩
      · rw [entryAt_Store_ne s r i _ c1]; exact ⟨rfl, rfl⟩

/-- `IncrementRecordRef` on a record with `count` references. -/
theorem IncrementRecordRef_spec (s : VariableSizeStore) (free ids : List Nat) (r count : Nat)
    (hinv : s.Inv free) (hchain : s.IsChain r ids) (hids : ids ≠ [])
    (hfirst : (s.entryAt r).mFirst = true) (href : (s.entryAt r).mPrevEntry = count)
    (h0 : 0 < count) (hc : count + 1 < 2 ^ 64) :
    ∃ s2, s.IncrementRecordRef r = .ok s2 ∧ s2.Inv free ∧ s2.IsChain r ids ∧
      (s2.entryAt r).mFirst = true ∧ (s2.entryAt r).mPrevEntry = count + 1 ∧
      s2.mEntries.length = s.mEntries.length := by
  obtain ⟨hx, hxd, h1, h2, h3, h4⟩ := SetPrevEntry_spec s free ids r (count + 1) hinv hchain hids hc
  refine ⟨_, ?_, h1, h2, by rw [h3]; exact hfirst, by rw [h3], h4⟩
  unfold IncrementRecordRef
  simp only [bind, Except.bind]
  rw [RetriveItem_lt _ _ hx]
  dsimp only
  rw [assert_true _ (by simpa [IsFirstEntry] using hfirst),
    assert_true _ (by simpa [IsDeleted] using hxd),
    assert_true _ (by rw [decide_eq_true_eq, PrevEntry, href]; exact h0)]
  dsimp only
  rw [PrevEntry, href]

/-- `DecrementRecordRef` on a record with more than one reference. -/
theorem DecrementRecordRef_live (s : VariableSizeStore) (free ids : List Nat) (r count : Nat)
    (hinv : s.Inv free) (hchain : s.IsChain r ids) (hids : ids ≠ [])
    (hfirst : (s.entryAt r).mFirst = true) (href : (s.entryAt r).mPrevEntry = count)
    (h1 : 1 < count) (hc : count < 2 ^ 64) :
    ∃ s2, s.DecrementRecordRef r = .ok s2 ∧ s2.Inv free ∧ s2.IsChain r ids ∧
      (s2.entryAt r).mFirst = true ∧ (s2.entryAt r).mPrevEntry = count - 1 ∧
      s2.mEntries.length = s.mEntries.length := by
  obtain ⟨hx, hxd, h1', h2, h3, h4⟩ := SetPrevEntry_spec s free ids r (count - 1) hinv hchain hids
    (by omega)
  refine ⟨_, ?_, h1', h2, by rw [h3]; exact hfirst, by rw [h3], h4⟩
  unfold DecrementRecordRef
  simp only [bind, Except.bind]
  rw [RetriveItem_lt _ _ hx]
  dsimp only
  rw [assert_true _ (by simpa [IsFirstEntry] using hfirst),
    assert_true _ (by simpa [IsDeleted] using hxd),
    assert_true _ (by rw [decide_eq_true_eq, PrevEntry, href]; omega)]
  dsimp only
  rw [PrevEntry, href, if_neg (by omega)]

/-- `DecrementRecordRef` on a record with one reference: the record is
removed. -/
theorem DecrementRecordRef_last (s : VariableSizeStore) (free ids : List Nat) (r : Nat)
    (hinv : s.Inv free) (hchain : s.IsChain r ids) (hids : ids ≠ [])
    (hfirst : (s.entryAt r).mFirst = true) (href : (s.entryAt r).mPrevEntry = 1) :
    ∃ s2 free2, s.DecrementRecordRef r = .ok s2 ∧ s2.Inv free2 ∧
      List.Perm free2 (ids ++ free) ∧ s2.mEntries.length = s.mEntries.length := by
  obtain ⟨hx, hxd, h1, h2, h3, h4⟩ := SetPrevEntry_spec s free ids r 0 hinv hchain hids
    (by omega)
  obtain ⟨s2, free2, hrem, hinv2, hperm, hl2, -⟩ := RemoveRecord_spec _ free ids r h1 h2 hids
    (by rw [h3]; exact hfirst)
  refine ⟨s2, free2, ?_, hinv2, hperm, by rw [hl2, h4]⟩
  unfold DecrementRecordRef
  simp only [bind, Except.bind]
  rw [RetriveItem_lt _ _ hx]
  dsimp only
  rw [assert_true _ (by simpa [IsFirstEntry] using hfirst),
    assert_true _ (by simpa [IsDeleted] using hxd),
    assert_true _ (by rw [decide_eq_true_eq, PrevEntry, href]; omega)]
  dsimp only
  rw [PrevEntry, href, if_pos (by omega)]
  exact hrem

theorem callTimes_zero (call : VariableSizeStore → Nat → Except StoreFailure VariableSizeStore)
    (s : VariableSizeStore) (r : Nat) : callTimes call 0 s r = .ok s := rfl

theorem callTimes_succ (call : VariableSizeStore → Nat → Except StoreFailure VariableSizeStore)
    (s s2 : VariableSizeStore) (r n : Nat) (h : call s r = .ok s2) :
    callTimes call (n + 1) s r = callTimes call n s2 r := by
  rw [callTimes, h]

/-- `k` calls of `IncrementRecordRef` on a record with `count` references. -/
theorem IncrementRecordRef_times (free ids : List Nat) (r : Nat) : ∀ (k : Nat)
    (s : VariableSizeStore) (count : Nat), s.Inv free → s.IsChain r ids → ids ≠ [] →
    (s.entryAt r).mFirst = true → (s.entryAt r).mPrevEntry = count → 0 < count →
    count + k < 2 ^ 64 →
    ∃ s2, callTimes IncrementRecordRef k s r = .ok s2 ∧ s2.Inv free ∧ s2.IsChain r ids ∧
      (s2.entryAt r).mFirst = true ∧ (s2.entryAt r).mPrevEntry = count + k ∧
      s2.mEntries.length = s.mEntries.length := by
  intro k
  induction k with
  | zero =>
    intro s count hinv hchain _ hfirst href _ _
    exact ⟨s, rfl, hinv, hchain, hfirst, href, rfl⟩
  | succ k ih =>
    intro s count hinv hchain hids hfirst href h0 hc
    obtain ⟨s1, hcall, a1, a2, a3, a4, a5⟩ :=
      IncrementRecordRef_spec s free ids r count hinv hchain hids hfirst href h0 (by omega)
    obtain ⟨s2, hrest, b1, b2, b3, b4, b5⟩ := ih s1 (count + 1) a1 a2 hids a3 a4 (by omega)
      (by omega)
    exact ⟨s2, by rw [callTimes_succ _ _ _ _ _ hcall]; exact hrest, b1, b2, b3,
      by rw [b4]; omega, by rw [b5, a5]⟩

/-- `k` calls of `DecrementRecordRef` on a record with more than `k`
references. -/
theorem DecrementRecordRef_times (free ids : List Nat) (r : Nat) : ∀ (k : Nat)
    (s : VariableSizeStore) (count : Nat), s.Inv free → s.IsChain r ids → ids ≠ [] →
    (s.entryAt r).mFirst = true → (s.entryAt r).mPrevEntry = count → k < count →
    count < 2 ^ 64 →
    ∃ s2, callTimes DecrementRecordRef k s r = .ok s2 ∧ s2.Inv free ∧ s2.IsChain r ids ∧
      (s2.entryAt r).mFirst = true ∧ (s2.entryAt r).mPrevEntry = count - k ∧
      s2.mEntries.length = s.mEntries.length := by
  intro k
  induction k with
  | zero =>
    intro s count hinv hchain _ hfirst href _ _
    exact ⟨s, rfl, hinv, hchain, hfirst, href, rfl⟩
  | succ k ih =>
    intro s count hinv hchain hids hfirst href h0 hc
    obtain ⟨s1, hcall, a1, a2, a3, a4, a5⟩ :=
      DecrementRecordRef_live s free ids r count hinv hchain hids hfirst href (by omega) hc
    obtain ⟨s2, hrest, b1, b2, b3, b4, b5⟩ := ih s1 (count - 1) a1 a2 hids a3 a4 (by omega)
      (by omega)
    exact ⟨s2, by rw [callTimes_succ _ _ _ _ _ hcall]; exact hrest, b1, b2, b3,
      by rw [b4]; omega, by rw [b5, a5]⟩

/-- As many calls of `DecrementRecordRef` as the record has references: the
record is removed. -/
theorem DecrementRecordRef_all (free ids : List Nat) (r : Nat) : ∀ (k : Nat)
    (s : VariableSizeStore), s.Inv free → s.IsChain r ids → ids ≠ [] →
    (s.entryAt r).mFirst = true → (s.entryAt r).mPrevEntry = k + 1 → k + 1 < 2 ^ 64 →
    ∃ s2 free2, callTimes DecrementRecordRef (k + 1) s r = .ok s2 ∧ s2.Inv free2 ∧
      List.Perm free2 (ids ++ free) ∧ s2.mEntries.length = s.mEntries.length := by
  intro k
  induction k with
  | zero =>
    intro s hinv hchain hids hfirst href _
    obtain ⟨s2, free2, hcall, a1, a2, a3⟩ :=
      DecrementRecordRef_last s free ids r hinv hchain hids hfirst href
    exact ⟨s2, free2, by rw [callTimes_succ _ _ _ _ _ hcall]; rfl, a1, a2, a3⟩
  | succ k ih =>
    intro s hinv hchain hids hfirst href hc
    obtain ⟨s1, hcall, a1, a2, a3, a4, a5⟩ :=
      DecrementRecordRef_live s free ids r (k + 1 + 1) hinv hchain hids hfirst href (by omega) hc
    obtain ⟨s2, free2, hrest, b1, b2, b3⟩ := ih s1 a1 a2 hids a3 (by rw [a4]; omega) (by omega)
    exact ⟨s2, free2, by rw [callTimes_succ _ _ _ _ _ hcall]; exact hrest, b1, b2,
      by rw [b3, a5]⟩

end VariableSizeStore
end pastra
end whais
namespace whais
namespace pastra

open StoreEntry

/-- C12: in every state of the heap invariant, for a record `r` as `AddRecord`
returns it (chain `ids`, first entry marked, reference count 1) and every `n`
below `2 ^ 64 - 1`: `n` calls of `IncrementRecordRef` and then `n + 1` calls of
`DecrementRecordRef` all return; the first entry of the record is not deleted
after any of these calls but the last one; after the last one every entry of the
chain is deleted and is in the list of free entries, which the invariant links
from entry 0 on; and `Size()` is what it was before the calls. -/
theorem VariableSizeStore.references_then_release (s : VariableSizeStore)
    (free ids : List Nat) (r n : Nat) (hinv : s.Inv free) (hchain : s.IsChain r ids)
    (hids : ids ≠ []) (hfirst : (s.entryAt r).IsFirstEntry = true)
    (href : (s.entryAt r).PrevEntry = 1) (hn : n + 1 < 2 ^ 64) :
    (∀ k, k ≤ n → ∃ sk, VariableSizeStore.callTimes VariableSizeStore.IncrementRecordRef k s r
        = .ok sk ∧ (sk.entryAt r).IsDeleted = false) ∧
    ∃ sn, VariableSizeStore.callTimes VariableSizeStore.IncrementRecordRef n s r = .ok sn ∧
      (∀ j, j ≤ n → ∃ sj, VariableSizeStore.callTimes VariableSizeStore.DecrementRecordRef j sn r
          = .ok sj ∧ (sj.entryAt r).IsDeleted = false) ∧
      ∃ s2 free2, VariableSizeStore.callTimes VariableSizeStore.DecrementRecordRef (n + 1) sn r
          = .ok s2 ∧ s2.Inv free2 ∧
        (∀ i ∈ ids, (s2.entryAt i).IsDeleted = true ∧ i ∈ free2) ∧ s2.Size = s.Size := by
  have hrmem : r ∈ ids := by
    cases ids with
    | nil => exact absurd rfl hids
    | cons x rest =>
      rw [VariableSizeStore.IsChain_cons] at hchain
      rw [hchain.1]
      exact List.mem_cons_self _ _
  constructor
  · intro k hk
    obtain ⟨sk, h1, -, h3, -⟩ := VariableSizeStore.IncrementRecordRef_times free ids r k s 1
      hinv hchain hids hfirst href (by omega) (by omega)
    exact ⟨sk, h1, (VariableSizeStore.IsChain_mem sk _ _ h3 r hrmem).2⟩
  · obtain ⟨sn, h1, h2, h3, h4, h5, h6⟩ := VariableSizeStore.IncrementRecordRef_times free ids r
      n s 1 hinv hchain hids hfirst href (by omega) (by omega)
    refine ⟨sn, h1, ?_, ?_⟩
    · intro j hj
      obtain ⟨sj, a1, -, a3, -⟩ := VariableSizeStore.DecrementRecordRef_times free ids r j sn
        (1 + n) h2 h3 hids h4 h5 (by omega) (by omega)
      exact ⟨sj, a1, (VariableSizeStore.IsChain_mem sj _ _ a3 r hrmem).2⟩
    · obtain ⟨s2, free2, b1, b2, b3, b4⟩ := VariableSizeStore.DecrementRecordRef_all free ids r
        n sn h2 h3 hids h4 (by rw [h5]; omega) hn
      refine ⟨s2, free2, b1, b2, ?_, ?_⟩
      · intro i hi
        have hm : i ∈ free2 := b3.symm.subset (List.mem_append_left _ hi)
        have hlt := (b2.2.2.2.2.1 i (List.mem_cons_of_mem _ hm)).1
        exact ⟨(b2.2.2.2.2.2.1 i hlt).2 (List.mem_cons_of_mem _ hm), hm⟩
      · unfold VariableSizeStore.Size
        rw [b4, h6]

/-- C12 (witness): the record of the fixture, with 2 calls of
`IncrementRecordRef` and 3 of `DecrementRecordRef`. -/
theorem VariableSizeStore.references_then_release_witness :
    (∀ k, k ≤ 2 → ∃ sk, VariableSizeStore.callTimes VariableSizeStore.IncrementRecordRef k
        VariableSizeStore.oneRecordHeap 1 = .ok sk ∧ (sk.entryAt 1).IsDeleted = false) ∧
    ∃ sn, VariableSizeStore.callTimes VariableSizeStore.IncrementRecordRef 2
        VariableSizeStore.oneRecordHeap 1 = .ok sn ∧
      (∀ j, j ≤ 2 → ∃ sj, VariableSizeStore.callTimes VariableSizeStore.DecrementRecordRef j sn 1
          = .ok sj ∧ (sj.entryAt 1).IsDeleted = false) ∧
      ∃ s2 free2, VariableSizeStore.callTimes VariableSizeStore.DecrementRecordRef (2 + 1) sn 1
          = .ok s2 ∧ s2.Inv free2 ∧
        (∀ i ∈ [1], (s2.entryAt i).IsDeleted = true ∧ i ∈ free2) ∧
        s2.Size = VariableSizeStore.oneRecordHeap.Size :=
  VariableSizeStore.references_then_release VariableSizeStore.oneRecordHeap [] [1] 1 2
    (by decide) (by decide) (by decide) (by decide) (by decide) (by decide)

end pastra
end whais
namespace whais
namespace pastra

open StoreEntry

/-- C13 (counterexample): on the fresh heap two records of one entry are added,
entries 1 and 2, and freed in that order by `DecrementRecordRef`; the chain of
the record freed last is entry 2, and the next `AddRecord` of one byte returns
entry 1, with a chain of entry 1 alone. -/
theorem VariableSizeStore.last_freed_not_reused :
    (do
      let (s1, r1) ← VariableSizeStore.Init.AddRecord [1]
      let (s2, r2) ← s1.AddRecord [2]
      let s3 ← s2.DecrementRecordRef r1
      let s4 ← s3.DecrementRecordRef r2
      let (s5, r3) ← s4.AddRecord [3]
      pure (r1, r2, decide (s3.IsChain r2 [2]), r3, decide (s5.IsChain r3 [1]))) =
    (.ok (1, 2, true, 1, true) : Except StoreFailure (Nat × Nat × Bool × Nat × Bool)) := by
  decide

/-- C13 (amended): in a state of the heap invariant without a free entry, when
the last `DecrementRecordRef` has freed the record `r` with the chain `ids`, the
next `AddRecord` (of less than `2 ^ 32 - 48` bytes) returns one of the entries
`ids` for the first entry of the new record; it returns `r` when `r` is entry 1,
which is the first record of a fresh heap. -/
theorem VariableSizeStore.freed_entries_are_reused (s : VariableSizeStore) (ids : List Nat)
    (r : Nat) (buffer : List Byte) (hinv : s.Inv []) (hchain : s.IsChain r ids)
    (hids : ids ≠ []) (hfirst : (s.entryAt r).IsFirstEntry = true)
    (href : (s.entryAt r).PrevEntry = 1) (hlen : buffer.length + 48 ≤ 2 ^ 32)
    (hroom : (s.mEntries.length + buffer.length + 2) * sizeofEntry < 2 ^ 64) :
    ∃ s1 s2 r2, s.DecrementRecordRef r = .ok s1 ∧ s1.AddRecord buffer = .ok (s2, r2) ∧
      r2 ∈ ids ∧ (r = 1 → r2 = r) := by
  obtain ⟨s1, free1, h1, h2, h3, h4⟩ :=
    VariableSizeStore.DecrementRecordRef_last s [] ids r hinv hchain hids hfirst href
  rw [List.append_nil] at h3
  obtain ⟨s2, free2, r2, rest, a1, -, -, -, -, -, -, -, -, -, -, a12, a13, -⟩ :=
    VariableSizeStore.AddRecord_spec s1 free1 buffer h2 hlen (by rw [h4]; exact hroom)
  have hne : free1 ≠ [] := by
    intro c
    rw [c] at h3
    exact hids (List.Perm.nil_eq h3).symm
  refine ⟨s1, s2, r2, h1, a1, h3.subset (a12 hne), ?_⟩
  intro hr
  have hrm : (1 : Nat) ∈ ids := by
    cases ids with
    | nil => exact absurd rfl hids
    | cons x rest =>
      rw [VariableSizeStore.IsChain_cons] at hchain
      rw [← hchain.1, hr]
      exact List.mem_cons_self _ _
  have hm : (1 : Nat) ∈ 0 :: free1 := List.mem_cons_of_mem _ (h3.symm.subset hrm)
  have hlt := (h2.2.2.2.2.1 1 hm).1
  rw [hr]
  exact a13 hlt ((h2.2.2.2.2.2.1 1 hlt).2 hm)

/-- C13 (witness): the record of the fixture, on a heap that was fresh, freed
and followed by an `AddRecord` of 48 bytes. -/
theorem VariableSizeStore.freed_entries_are_reused_witness :
    ∃ s1 s2 r2, VariableSizeStore.oneRecordHeap.DecrementRecordRef 1 = .ok s1 ∧
      s1.AddRecord (List.replicate 48 9 : List Byte) = .ok (s2, r2) ∧
      r2 ∈ [1] ∧ (1 = 1 → r2 = 1) :=
  VariableSizeStore.freed_entries_are_reused VariableSizeStore.oneRecordHeap [1] 1
    (List.replicate 48 9 : List Byte) (by decide) (by decide) (by decide) (by decide)
    (by decide) (by decide) (by decide)

end pastra
end whais
namespace whais
namespace pastra

open StoreEntry

/-- C14 (failing input): the source heap holds the record of entries 1 and 2,
96 bytes 1, and the record of entries 3 and 4, 96 bytes 2. `GetRecord(3, 48,
10)` on the source returns ten bytes 2; `AddRecord(sourceStore, 3, 48, 10)` on
a fresh heap returns a record whose first ten bytes are 1, those of the second
entry of the other record. -/
theorem VariableSizeStore.copy_from_later_entry :
    VariableSizeStore.twoRecordsHeap.IsChain 3 [3, 4] ∧
    VariableSizeStore.twoRecordsHeap.GetRecord 3 48 10 = .ok (List.replicate 10 2) ∧
    ((VariableSizeStore.Init.AddRecordFromStore VariableSizeStore.twoRecordsHeap 3 48 10).bind
      fun result => result.1.GetRecord result.2 0 10) = .ok (List.replicate 10 1) := by
  decide

end pastra
end whais
namespace whais
namespace pastra

/-- The characters that `validate_field_name` lets pass are the letters, the
digits and the underscore. -/
theorem identChar_iff (c : Char) :
    (('a' ≤ c ∧ c ≤ 'z') ∨ ('A' ≤ c ∧ c ≤ 'Z') ∨ ('0' ≤ c ∧ c ≤ '9') ∨ c = '_') ↔
      (c.isAlphanum = true ∨ c = '_') := by
  simp only [Char.isAlphanum, Char.isAlpha, Char.isUpper, Char.isLower, Char.isDigit,
    Bool.or_eq_true, Bool.and_eq_true, decide_eq_true_eq, Char.le_def, UInt32.le_def]
  constructor
  · rintro (h | h | h | h)
    · exact Or.inl (Or.inl (Or.inr h))
    · exact Or.inl (Or.inl (Or.inl h))
    · exact Or.inl (Or.inr h)
    · exact Or.inr h
  · rintro ((((h | h) | h)) | h)
    · exact Or.inr (Or.inl h)
    · exact Or.inl h
    · exact Or.inr (Or.inr (Or.inl h))
    · exact Or.inr (Or.inr (Or.inr h))

end pastra
end whais

namespace whais
namespace pastra

/-- What `validate_field_name` returns: `true` when every character is a letter,
a digit or an underscore, the exception or `false` if not. -/
theorem validate_field_name_spec (failException : Bool) : ∀ (name : List Char),
    validate_field_name name failException =
      if ∀ c ∈ name, c.isAlphanum = true ∨ c = '_' then .ok true
      else if failException then .error .FIELD_NAME_INVALID else .ok false := by
  intro name
  induction name with
  | nil => simp [validate_field_name]
  | cons c rest ih =>
    rw [validate_field_name]
    by_cases hc : (('a' ≤ c ∧ c ≤ 'z') ∨ ('A' ≤ c ∧ c ≤ 'Z') ∨ ('0' ≤ c ∧ c ≤ '9') ∨ c = '_')
    · rw [if_neg (not_not.2 hc), ih]
      have hc2 := (identChar_iff c).1 hc
      by_cases hr : ∀ c ∈ rest, c.isAlphanum = true ∨ c = '_'
      · have hall : ∀ d ∈ c :: rest, d.isAlphanum = true ∨ d = '_' := by
          intro d hd
          rcases List.mem_cons.1 hd with e | e
          · rw [e]; exact hc2
          · exact hr d e
        rw [if_pos hr, if_pos hall]
      · have hall : ¬ ∀ d ∈ c :: rest, d.isAlphanum = true ∨ d = '_' :=
          fun h => hr (fun d hd => h d (List.mem_cons_of_mem _ hd))
        rw [if_neg hr, if_neg hall]
    · have hall : ¬ ∀ d ∈ c :: rest, d.isAlphanum = true ∨ d = '_' :=
        fun h => hc ((identChar_iff c).2 (h c (List.mem_cons_self _ _)))
      rw [if_pos hc, if_neg hall]

/-- C17 (failing input): `validate_field_name` accepts the empty name, which does
not match `[A-Za-z0-9_]+`, with and without exceptions; a name is accepted when
each of its characters is a letter, a digit or an underscore, and is rejected
with `FIELD_NAME_INVALID`, or with `false` when exceptions are disabled, if
not. -/
theorem validate_field_name_accepts_empty (name : List Char) :
    validate_field_name [] true = .ok true ∧ validate_field_name [] false = .ok true ∧
    ¬ IsIdentifier [] ∧
    (validate_field_name name true = .ok true ↔ ∀ c ∈ name, c.isAlphanum = true ∨ c = '_') ∧
    ((¬ ∀ c ∈ name, c.isAlphanum = true ∨ c = '_') ↔
      validate_field_name name true = .error .FIELD_NAME_INVALID) ∧
    ((¬ ∀ c ∈ name, c.isAlphanum = true ∨ c = '_') ↔
      validate_field_name name false = .ok false) := by
  refine ⟨rfl, rfl, fun h => h.1 rfl, ?_, ?_, ?_⟩
  · rw [validate_field_name_spec]
    by_cases h : ∀ c ∈ name, c.isAlphanum = true ∨ c = '_'
    · rw [if_pos h]
      exact ⟨fun _ => h, fun _ => rfl⟩
    · rw [if_neg h, if_pos rfl]
      exact ⟨fun c => (by cases c), fun c => absurd c h⟩
  · rw [validate_field_name_spec]
    by_cases h : ∀ c ∈ name, c.isAlphanum = true ∨ c = '_'
    · rw [if_pos h]
      exact ⟨fun c => absurd h c, fun c => by cases c⟩
    · rw [if_neg h, if_pos rfl]
      exact ⟨fun _ => rfl, fun _ => h⟩
  · rw [validate_field_name_spec]
    by_cases h : ∀ c ∈ name, c.isAlphanum = true ∨ c = '_'
    · rw [if_pos h]
      exact ⟨fun c => absurd h c, fun c => by cases c⟩
    · rw [if_neg h, if_neg (by decide)]
      exact ⟨fun _ => rfl, fun _ => h⟩

/-- The test of the arguments of `create_table_file` and of the constructor
of `TemporalTable`: a null pointer to the descriptors (and any count) or a
count of 0 gives `OPER_NOT_SUPPORTED` before anything is created. -/
theorem create_table_without_fields (P : TableParams) (tableHeader : List Byte)
    (maxFileSize fieldsCount : Nat) (inoutFields : Option (List DBSFieldDescriptor)) :
    create_table_file P tableHeader maxFileSize none fieldsCount = .error .OPER_NOT_SUPPORTED ∧
    create_table_file P tableHeader maxFileSize inoutFields 0 = .error .OPER_NOT_SUPPORTED ∧
    TemporalTable_new P none fieldsCount = .error .OPER_NOT_SUPPORTED ∧
    TemporalTable_new P inoutFields 0 = .error .OPER_NOT_SUPPORTED := by
  refine ⟨rfl, ?_, rfl, ?_⟩
  · cases inoutFields with
    | none => rfl
    | some fields => simp [create_table_file]
  · cases inoutFields with
    | none => rfl
    | some fields => simp [TemporalTable_new]

/-- The loop of `validate_field_descriptors` throws `FIELD_NAME_INVALID` or
`FIELD_TYPE_INVALID` if it throws. -/
theorem validate_field_descriptors_loop_error (P : TableParams) :
    ∀ (fields : List DBSFieldDescriptor) (e : DBSFailure),
    validate_field_descriptors_loop P fields = .error e →
    e = .FIELD_NAME_INVALID ∨ e = .FIELD_TYPE_INVALID := by
  intro fields
  induction fields with
  | nil => intro e h; simp [validate_field_descriptors_loop] at h
  | cons field rest ih =>
    intro e h
    rw [validate_field_descriptors_loop] at h
    simp only [bind, Except.bind] at h
    rw [validate_field_name_spec] at h
    by_cases hn : ∀ c ∈ field.name, c.isAlphanum = true ∨ c = '_'
    · rw [if_pos hn] at h
      dsimp only at h
      split at h
      · left; injection h with h; exact h.symm
      · split at h
        · right; injection h with h; exact h.symm
        · split at h
          · right; injection h with h; exact h.symm
          · exact ih e h
    · rw [if_neg hn] at h
      simp only [if_true] at h
      left; injection h with h; exact h.symm

/-- With valid names, two of them the same, the loop of
`validate_field_descriptors` throws `FIELD_NAME_INVALID`, or `FIELD_TYPE_INVALID`
for a field before the first one whose name comes again. -/
theorem validate_field_descriptors_loop_dup (P : TableParams) :
    ∀ (fields : List DBSFieldDescriptor),
    (∀ field ∈ fields, validate_field_name field.name = .ok true) →
    ¬ (fields.map fun field => field.name).Nodup →
    validate_field_descriptors_loop P fields = .error .FIELD_NAME_INVALID ∨
      validate_field_descriptors_loop P fields = .error .FIELD_TYPE_INVALID := by
  intro fields
  induction fields with
  | nil => intro _ h; exact absurd List.nodup_nil h
  | cons field rest ih =>
    intro hv hd
    rw [validate_field_descriptors_loop]
    simp only [bind, Except.bind]
    rw [hv field (List.mem_cons_self _ _)]
    dsimp only
    by_cases hany : rest.any (fun other => other.name = field.name) = true
    · left; rw [if_pos hany]
    · rw [if_neg hany]
      split
      · right; rfl
      · split
        · right; rfl
        · apply ih (fun f hf => hv f (List.mem_cons_of_mem _ hf))
          intro hnd
          apply hd
          rw [List.map_cons, List.nodup_cons]
          refine ⟨?_, hnd⟩
          intro hm
          apply hany
          obtain ⟨other, ho, he⟩ := List.mem_map.1 hm
          rw [List.any_eq_true]
          exact ⟨other, ho, by simpa using he⟩

/-- C16 (failing input): for the fields `field_1`, `field_2`, `field_1` of the test
`validate_field_descriptors` throws `FIELD_NAME_INVALID`; for every array of
fields with valid names, two of them the same, it throws `FIELD_NAME_INVALID` or
`FIELD_TYPE_INVALID`; it never throws `FIELD_NAME_DUPLICATED`. -/
theorem duplicated_name_is_invalid_name (P : TableParams) (fields : List DBSFieldDescriptor)
    (inoutFields : Option (List DBSFieldDescriptor)) (fieldsCount type : Nat) (isArray : Bool) :
    validate_field_descriptors P (some [⟨"field_1".toList, type, isArray⟩,
      ⟨"field_2".toList, type, isArray⟩, ⟨"field_1".toList, type, isArray⟩]) 3
      = .error .FIELD_NAME_INVALID ∧
    (((∀ field ∈ fields, validate_field_name field.name = .ok true) ∧
        fields ≠ [] ∧ ¬ (fields.map fun field => field.name).Nodup) →
      validate_field_descriptors P (some fields) fields.length = .error .FIELD_NAME_INVALID ∨
      validate_field_descriptors P (some fields) fields.length = .error .FIELD_TYPE_INVALID) ∧
    validate_field_descriptors P inoutFields fieldsCount ≠ .error .FIELD_NAME_DUPLICATED := by
  refine ⟨?_, ?_, ?_⟩
  · simp only [validate_field_descriptors, List.length_cons, List.length_nil]
    rw [if_neg (by decide), if_neg (by decide)]
    simp only [List.take, validate_field_descriptors_loop, bind, Except.bind]
    rw [show validate_field_name "field_1".toList = .ok true by decide]
    dsimp only
    rw [if_pos (by simp)]
  · rintro ⟨hv, hne, hd⟩
    have hl : fields.length ≠ 0 := fun c => hne (List.length_eq_zero.1 c)
    simp only [validate_field_descriptors]
    rw [if_neg hl, if_neg (by omega), List.take_length]
    exact validate_field_descriptors_loop_dup P fields hv hd
  · intro h
    cases inoutFields with
    | none => simp [validate_field_descriptors] at h
    | some fs =>
      simp only [validate_field_descriptors] at h
      split at h
      · simp at h
      · split at h
        · simp at h
        · rcases validate_field_descriptors_loop_error P _ _ h with c | c <;> simp at c

end pastra
end whais

namespace whais
namespace pastra

theorem leBytes_length (count : Nat) : ∀ value, (leBytes count value).length = count := by
  induction count with
  | zero => intro _; rfl
  | succ n ih => intro value; rw [leBytes, List.length_cons, ih]

/-- A header laid out field by field has 128 bytes. -/
theorem headerLayout_length (fieldsCount descriptorsSize rowsCount maxFileSize mainTableSize
    varStorageSize btRoot btHead rowSize flags : Nat) :
    (headerLayout fieldsCount descriptorsSize rowsCount maxFileSize mainTableSize
      varStorageSize btRoot btHead rowSize flags).length = 128 := by
  simp only [headerLayout, List.length_append, leBytes_length, List.length_replicate,
    PS_TABLE_SIGNATURE, List.length_cons, List.length_nil]

/-- A file of 128 bytes is read as its header. -/
theorem ReadAt_header (f : File) (h : f.length = 128) : f.ReadAt 0 PS_HEADER_SIZE = some f := by
  unfold File.ReadAt PS_HEADER_SIZE
  rw [if_pos (by omega), List.drop_zero, List.take_of_length_le (by omega)]

/-- The header part of `InitFromFile` on a file whose first 128 bytes are
`tableHdr`: wrong signature, impossible lengths, `MODIFIED` flag, or the header
fields. -/
theorem InitFromFileHeader_spec (P : TableParams) (mainTableFile : File) (tableHdr : List Byte)
    (hread : mainTableFile.ReadAt 0 PS_HEADER_SIZE = some tableHdr) :
    (tableHdr.take PS_TABLES_SIG_LEN ≠ PS_TABLE_SIGNATURE →
      PersistentTable.InitFromFileHeader P mainTableFile = .error .TABLE_INVALID) ∧
    (tableHdr.take PS_TABLES_SIG_LEN = PS_TABLE_SIGNATURE →
      (load_le_int32 tableHdr PS_TABLE_FIELDS_COUNT_OFF = 0 ∨
        load_le_int32 tableHdr PS_TABLE_ELEMS_SIZE_OFF <
          P.sizeofFieldDescriptor * load_le_int32 tableHdr PS_TABLE_FIELDS_COUNT_OFF ∨
        load_le_int64 tableHdr PS_TABLE_MAINTABLE_SIZE_OFF < PS_HEADER_SIZE) →
      PersistentTable.InitFromFileHeader P mainTableFile = .error .TABLE_INVALID) ∧
    (tableHdr.take PS_TABLES_SIG_LEN = PS_TABLE_SIGNATURE →
      ¬ (load_le_int32 tableHdr PS_TABLE_FIELDS_COUNT_OFF = 0 ∨
        load_le_int32 tableHdr PS_TABLE_ELEMS_SIZE_OFF <
          P.sizeofFieldDescriptor * load_le_int32 tableHdr PS_TABLE_FIELDS_COUNT_OFF ∨
        load_le_int64 tableHdr PS_TABLE_MAINTABLE_SIZE_OFF < PS_HEADER_SIZE) →
      (load_le_int32 tableHdr PS_TABLE_FLAGS_OFF &&& PS_TABLE_MODIFIED_MASK ≠ 0 →
        PersistentTable.InitFromFileHeader P mainTableFile = .error .TABLE_IN_USE) ∧
      (¬ load_le_int32 tableHdr PS_TABLE_FLAGS_OFF &&& PS_TABLE_MODIFIED_MASK ≠ 0 →
        ∃ table size, PersistentTable.InitFromFileHeader P mainTableFile = .ok (table, size))) := by
  refine ⟨?_, ?_, ?_⟩
  · intro h
    unfold PersistentTable.InitFromFileHeader
    rw [hread]
    dsimp only
    rw [if_pos h]
  · intro h h2
    unfold PersistentTable.InitFromFileHeader
    rw [hread]
    dsimp only
    rw [if_neg (not_not.2 h), if_pos h2]
  · intro h h2
    constructor
    · intro h3
      unfold PersistentTable.InitFromFileHeader
      rw [hread]
      dsimp only
      rw [if_neg (not_not.2 h), if_neg h2, if_pos h3]
    · intro h3
      unfold PersistentTable.InitFromFileHeader
      rw [hread]
      dsimp only
      rw [if_neg (not_not.2 h), if_neg h2, if_neg h3]
      exact ⟨_, _, rfl⟩

/-- What follows the header part in `InitFromFile` does not throw a
`DBSException`. -/
theorem InitFromFile_rest (P : TableParams) (mainTableFile : File) (rest : List File)
    (table : PersistentTable) (size : Nat)
    (h : PersistentTable.InitFromFileHeader P mainTableFile = .ok (table, size)) :
    PersistentTable.InitFromFile P (mainTableFile :: rest) ≠ .error .TABLE_IN_USE ∧
    PersistentTable.InitFromFile P (mainTableFile :: rest) ≠ .error .TABLE_INVALID := by
  unfold PersistentTable.InitFromFile
  simp only [bind, Except.bind]
  rw [h]
  dsimp only
  split
  · exact ⟨by simp, by simp⟩
  · split
    · exact ⟨by simp, by simp⟩
    · split
      · exact ⟨by simp, by simp⟩
      · exact ⟨by simp, by simp⟩

/-- C20: for a table file of 128 bytes at least whose header has the
signature, a fields count that is not 0, a length of the descriptors of
`fieldsCount * sizeof (FieldDescriptor)` at least and a size of the main table
of 128 at least, `InitFromFile` throws `TABLE_IN_USE` if and only if the
`MODIFIED` bit of the flags is set; with another signature it throws
`TABLE_INVALID`. -/
theorem PersistentTable.in_use_iff_modified (P : TableParams) (mainTableFile : File)
    (rest : List File) (tableHdr : List Byte)
    (hread : mainTableFile.ReadAt 0 PS_HEADER_SIZE = some tableHdr) :
    (tableHdr.take PS_TABLES_SIG_LEN ≠ PS_TABLE_SIGNATURE →
      PersistentTable.InitFromFile P (mainTableFile :: rest) = .error .TABLE_INVALID) ∧
    (tableHdr.take PS_TABLES_SIG_LEN = PS_TABLE_SIGNATURE →
      load_le_int32 tableHdr PS_TABLE_FIELDS_COUNT_OFF ≠ 0 →
      load_le_int32 tableHdr PS_TABLE_ELEMS_SIZE_OFF ≥
        P.sizeofFieldDescriptor * load_le_int32 tableHdr PS_TABLE_FIELDS_COUNT_OFF →
      load_le_int64 tableHdr PS_TABLE_MAINTABLE_SIZE_OFF ≥ PS_HEADER_SIZE →
      (PersistentTable.InitFromFile P (mainTableFile :: rest) = .error .TABLE_IN_USE ↔
        (load_le_int32 tableHdr PS_TABLE_FLAGS_OFF).testBit 0 = true)) := by
  obtain ⟨h1, -, h3⟩ := InitFromFileHeader_spec P mainTableFile tableHdr hread
  have hbit : (load_le_int32 tableHdr PS_TABLE_FLAGS_OFF).testBit 0 = true ↔
      load_le_int32 tableHdr PS_TABLE_FLAGS_OFF &&& PS_TABLE_MODIFIED_MASK ≠ 0 := by
    rw [show PS_TABLE_MODIFIED_MASK = 1 from rfl, Nat.and_one_is_mod, Nat.testBit_zero]
    simp only [decide_eq_true_eq]
    omega
  constructor
  · intro h
    unfold PersistentTable.InitFromFile
    simp only [bind, Except.bind]
    rw [h1 h]
  · intro hs hc hd hm
    have hn : ¬ (load_le_int32 tableHdr PS_TABLE_FIELDS_COUNT_OFF = 0 ∨
        load_le_int32 tableHdr PS_TABLE_ELEMS_SIZE_OFF <
          P.sizeofFieldDescriptor * load_le_int32 tableHdr PS_TABLE_FIELDS_COUNT_OFF ∨
        load_le_int64 tableHdr PS_TABLE_MAINTABLE_SIZE_OFF < PS_HEADER_SIZE) := by
      rintro (c | c | c)
      · exact hc c
      · omega
      · omega
    obtain ⟨h4, h5⟩ := h3 hs hn
    rw [hbit]
    constructor
    · intro hres
      by_contra hb
      obtain ⟨table, size, hok⟩ := h5 (not_not.2 hb)
      exact (InitFromFile_rest P mainTableFile rest table size hok).1 hres
    · intro hb
      unfold PersistentTable.InitFromFile
      simp only [bind, Except.bind]
      rw [h4 hb]

/-- C20 (witness): a table file of 128 bytes, the signature followed by a
fields count of 1, with the flags 1. -/
theorem PersistentTable.in_use_iff_modified_witness :
    ((headerLayout 1 16 0 4096 128 0 0 0 8 1).take PS_TABLES_SIG_LEN ≠ PS_TABLE_SIGNATURE →
      PersistentTable.InitFromFile ⟨0, 18, 20, 256, 16, fun _ _ => 8, 0, 128, fun _ _ => []⟩
        (headerLayout 1 16 0 4096 128 0 0 0 8 1 :: []) = .error .TABLE_INVALID) ∧
    ((headerLayout 1 16 0 4096 128 0 0 0 8 1).take PS_TABLES_SIG_LEN = PS_TABLE_SIGNATURE →
      load_le_int32 (headerLayout 1 16 0 4096 128 0 0 0 8 1) PS_TABLE_FIELDS_COUNT_OFF ≠ 0 →
      load_le_int32 (headerLayout 1 16 0 4096 128 0 0 0 8 1) PS_TABLE_ELEMS_SIZE_OFF ≥
        (⟨0, 18, 20, 256, 16, fun _ _ => 8, 0, 128, fun _ _ => []⟩ : TableParams
          ).sizeofFieldDescriptor *
          load_le_int32 (headerLayout 1 16 0 4096 128 0 0 0 8 1) PS_TABLE_FIELDS_COUNT_OFF →
      load_le_int64 (headerLayout 1 16 0 4096 128 0 0 0 8 1) PS_TABLE_MAINTABLE_SIZE_OFF ≥
        PS_HEADER_SIZE →
      (PersistentTable.InitFromFile ⟨0, 18, 20, 256, 16, fun _ _ => 8, 0, 128, fun _ _ => []⟩
          (headerLayout 1 16 0 4096 128 0 0 0 8 1 :: []) = .error .TABLE_IN_USE ↔
        (load_le_int32 (headerLayout 1 16 0 4096 128 0 0 0 8 1) PS_TABLE_FLAGS_OFF).testBit 0
          = true)) :=
  PersistentTable.in_use_iff_modified ⟨0, 18, 20, 256, 16, fun _ _ => 8, 0, 128, fun _ _ => []⟩
    (headerLayout 1 16 0 4096 128 0 0 0 8 1) [] (headerLayout 1 16 0 4096 128 0 0 0 8 1)
    (ReadAt_header _ (headerLayout_length 1 16 0 4096 128 0 0 0 8 1))

end pastra
end whais

namespace whais
namespace pastra

theorem memcpy_append_left (A R new : List Byte) (o : Nat) :
    memcpy (A ++ R) (A.length + o) new = A ++ memcpy R o new := by
  unfold memcpy
  rw [List.take_append, Nat.add_assoc, List.drop_append, List.append_assoc, List.append_assoc,
    List.append_assoc]

/-- A `memcpy` that fills segment `k` of a buffer made of segments. -/
theorem memcpy_flatten (new : List Byte) : ∀ (segs : List (List Byte)) (k off : Nat),
    k < segs.length → off = ((segs.take k).flatten).length →
    new.length = (segs.getD k []).length →
    memcpy segs.flatten off new = (segs.set k new).flatten := by
  intro segs
  induction segs with
  | nil => intro k off hk; simp at hk
  | cons s rest ih =>
    intro k off hk hoff hlen
    cases k with
    | zero =>
      simp only [List.take_zero, List.flatten_nil, List.length_nil] at hoff
      simp only [List.getD_cons_zero] at hlen
      subst hoff
      simp only [List.set_cons_zero, List.flatten_cons]
      unfold memcpy
      rw [List.take_zero, List.nil_append, Nat.zero_add, hlen, List.drop_left]
    | succ k =>
      simp only [List.take_succ_cons, List.flatten_cons, List.length_append] at hoff
      simp only [List.getD_cons_succ] at hlen
      simp only [List.set_cons_succ, List.flatten_cons]
      rw [hoff, memcpy_append_left, ih k _ (by simpa using hk) rfl hlen]

/-- A list of 128 bytes is made of segments of 8, 4, 4, 8, 8, 8, 8, 4, 4, 4, 4
and 64 bytes. -/
theorem header_segments (l : List Byte) (h : l.length = 128) :
    ∃ s0 s1 s2 s3 s4 s5 s6 s7 s8 s9 s10 s11 : List Byte,
      l = [s0, s1, s2, s3, s4, s5, s6, s7, s8, s9, s10, s11].flatten ∧
      s0.length = 8 ∧ s1.length = 4 ∧ s2.length = 4 ∧ s3.length = 8 ∧ s4.length = 8 ∧
      s5.length = 8 ∧ s6.length = 8 ∧ s7.length = 4 ∧ s8.length = 4 ∧ s9.length = 4 ∧
      s10.length = 4 ∧ s11.length = 64 := by
  refine ⟨l.take 8, (l.drop 8).take 4, (l.drop 12).take 4, (l.drop 16).take 8,
    (l.drop 24).take 8, (l.drop 32).take 8, (l.drop 40).take 8, (l.drop 48).take 4,
    (l.drop 52).take 4, (l.drop 56).take 4, (l.drop 60).take 4, l.drop 64, ?_, ?_⟩
  · have step : ∀ a n : Nat, (l.drop a).take n ++ l.drop (a + n) = l.drop a := by
      intro a n
      rw [← List.drop_drop, List.take_append_drop]
    simp only [List.flatten_cons, List.flatten_nil, List.append_nil]
    rw [step 60 4, step 56 4, step 52 4, step 48 4, step 40 8, step 32 8, step 24 8, step 16 8,
      step 12 4, step 8 4, List.take_append_drop]
  · simp only [List.length_take, List.length_drop, h]
    refine ⟨?_, ?_, ?_, ?_, ?_, ?_, ?_, ?_, ?_, ?_, ?_, ?_⟩ <;> first | omega | decide

end pastra
end whais

namespace whais
namespace pastra

/-- The header that `create_table_file` builds is laid out field by field,
whatever the buffer held. -/
theorem create_table_file_header_eq (P : TableParams) (tableHeader : List Byte)
    (fieldsCount descriptorsSize rowSize maxFileSize mainTableSize : Nat)
    (hlen : tableHeader.length = 128) :
    create_table_file_header P tableHeader fieldsCount descriptorsSize rowSize maxFileSize
      mainTableSize =
    headerLayout fieldsCount descriptorsSize 0 maxFileSize mainTableSize 0 P.NIL_NODE P.NIL_NODE
      rowSize 0 := by
  obtain ⟨s0, s1, s2, s3, s4, s5, s6, s7, s8, s9, s10, s11, rfl, h0, h1, h2, h3, h4, h5, h6, h7,
    h8, h9, h10, h11⟩ := header_segments tableHeader hlen
  unfold create_table_file_header store_le_int32 store_le_int64
  dsimp only
  rw [memcpy_flatten PS_TABLE_SIGNATURE _ 0 0]
  rotate_left
  · simp
  · simp
  · simp [h0, PS_TABLE_SIGNATURE]
  simp only [List.set_cons_zero]
  rw [memcpy_flatten _ _ 1 PS_TABLE_FIELDS_COUNT_OFF]
  rotate_left
  · simp
  · simp [PS_TABLE_FIELDS_COUNT_OFF, PS_TABLE_SIGNATURE, leBytes_length, PS_HEADER_SIZE, h0, h1, h2, h3, h4, h5, h6, h7, h8, h9, h10, h11]
  · simp [leBytes_length, PS_RESEVED_FOR_FUTURE_LEN, PS_HEADER_SIZE, PS_RESEVED_FOR_FUTURE_OFF,
      h0, h1, h2, h3, h4, h5, h6, h7, h8, h9, h10, h11]
  simp only [List.set_cons_zero, List.set_cons_succ]
  rw [memcpy_flatten _ _ 2 PS_TABLE_ELEMS_SIZE_OFF]
  rotate_left
  · simp
  · simp [PS_TABLE_ELEMS_SIZE_OFF, PS_TABLE_SIGNATURE, leBytes_length, PS_HEADER_SIZE, h0, h1, h2, h3, h4, h5, h6, h7, h8, h9, h10, h11]
  · simp [leBytes_length, PS_RESEVED_FOR_FUTURE_LEN, PS_HEADER_SIZE, PS_RESEVED_FOR_FUTURE_OFF,
      h0, h1, h2, h3, h4, h5, h6, h7, h8, h9, h10, h11]
  simp only [List.set_cons_zero, List.set_cons_succ]
  rw [memcpy_flatten _ _ 3 PS_TABLE_ROWS_COUNT_OFF]
  rotate_left
  · simp
  · simp [PS_TABLE_ROWS_COUNT_OFF, PS_TABLE_SIGNATURE, leBytes_length, PS_HEADER_SIZE, h0, h1, h2, h3, h4, h5, h6, h7, h8, h9, h10, h11]
  · simp [leBytes_length, PS_RESEVED_FOR_FUTURE_LEN, PS_HEADER_SIZE, PS_RESEVED_FOR_FUTURE_OFF,
      h0, h1, h2, h3, h4, h5, h6, h7, h8, h9, h10, h11]
  simp only [List.set_cons_zero, List.set_cons_succ]
  rw [memcpy_flatten _ _ 6 PS_TABLE_VARSTORAGE_SIZE_OFF]
  rotate_left
  · simp
  · simp [PS_TABLE_VARSTORAGE_SIZE_OFF, PS_TABLE_SIGNATURE, leBytes_length, PS_HEADER_SIZE, h0, h1, h2, h3, h4, h5, h6, h7, h8, h9, h10, h11]
  · simp [leBytes_length, PS_RESEVED_FOR_FUTURE_LEN, PS_HEADER_SIZE, PS_RESEVED_FOR_FUTURE_OFF,
      h0, h1, h2, h3, h4, h5, h6, h7, h8, h9, h10, h11]
  simp only [List.set_cons_zero, List.set_cons_succ]
  rw [memcpy_flatten _ _ 9 PS_TABLE_ROW_SIZE_OFF]
  rotate_left
  · simp
  · simp [PS_TABLE_ROW_SIZE_OFF, PS_TABLE_SIGNATURE, leBytes_length, PS_HEADER_SIZE, h0, h1, h2, h3, h4, h5, h6, h7, h8, h9, h10, h11]
  · simp [leBytes_length, PS_RESEVED_FOR_FUTURE_LEN, PS_HEADER_SIZE, PS_RESEVED_FOR_FUTURE_OFF,
      h0, h1, h2, h3, h4, h5, h6, h7, h8, h9, h10, h11]
  simp only [List.set_cons_zero, List.set_cons_succ]
  rw [memcpy_flatten _ _ 7 PS_TABLE_BT_ROOT_OFF]
  rotate_left
  · simp
  · simp [PS_TABLE_BT_ROOT_OFF, PS_TABLE_SIGNATURE, leBytes_length, PS_HEADER_SIZE, h0, h1, h2, h3, h4, h5, h6, h7, h8, h9, h10, h11]
  · simp [leBytes_length, PS_RESEVED_FOR_FUTURE_LEN, PS_HEADER_SIZE, PS_RESEVED_FOR_FUTURE_OFF,
      h0, h1, h2, h3, h4, h5, h6, h7, h8, h9, h10, h11]
  simp only [List.set_cons_zero, List.set_cons_succ]
  rw [memcpy_flatten _ _ 8 PS_TABLE_BT_HEAD_OFF]
  rotate_left
  · simp
  · simp [PS_TABLE_BT_HEAD_OFF, PS_TABLE_SIGNATURE, leBytes_length, PS_HEADER_SIZE, h0, h1, h2, h3, h4, h5, h6, h7, h8, h9, h10, h11]
  · simp [leBytes_length, PS_RESEVED_FOR_FUTURE_LEN, PS_HEADER_SIZE, PS_RESEVED_FOR_FUTURE_OFF,
      h0, h1, h2, h3, h4, h5, h6, h7, h8, h9, h10, h11]
  simp only [List.set_cons_zero, List.set_cons_succ]
  rw [memcpy_flatten _ _ 4 PS_TABLE_MAX_FILE_SIZE_OFF]
  rotate_left
  · simp
  · simp [PS_TABLE_MAX_FILE_SIZE_OFF, PS_TABLE_SIGNATURE, leBytes_length, PS_HEADER_SIZE, h0, h1, h2, h3, h4, h5, h6, h7, h8, h9, h10, h11]
  · simp [leBytes_length, PS_RESEVED_FOR_FUTURE_LEN, PS_HEADER_SIZE, PS_RESEVED_FOR_FUTURE_OFF,
      h0, h1, h2, h3, h4, h5, h6, h7, h8, h9, h10, h11]
  simp only [List.set_cons_zero, List.set_cons_succ]
  rw [memcpy_flatten _ _ 5 PS_TABLE_MAINTABLE_SIZE_OFF]
  rotate_left
  · simp
  · simp [PS_TABLE_MAINTABLE_SIZE_OFF, PS_TABLE_SIGNATURE, leBytes_length, PS_HEADER_SIZE, h0, h1, h2, h3, h4, h5, h6, h7, h8, h9, h10, h11]
  · simp [leBytes_length, PS_RESEVED_FOR_FUTURE_LEN, PS_HEADER_SIZE, PS_RESEVED_FOR_FUTURE_OFF,
      h0, h1, h2, h3, h4, h5, h6, h7, h8, h9, h10, h11]
  simp only [List.set_cons_zero, List.set_cons_succ]
  rw [memcpy_flatten _ _ 10 PS_TABLE_FLAGS_OFF]
  rotate_left
  · simp
  · simp [PS_TABLE_FLAGS_OFF, PS_TABLE_SIGNATURE, leBytes_length, PS_HEADER_SIZE, h0, h1, h2, h3, h4, h5, h6, h7, h8, h9, h10, h11]
  · simp [leBytes_length, PS_RESEVED_FOR_FUTURE_LEN, PS_HEADER_SIZE, PS_RESEVED_FOR_FUTURE_OFF,
      h0, h1, h2, h3, h4, h5, h6, h7, h8, h9, h10, h11]
  simp only [List.set_cons_zero, List.set_cons_succ]
  rw [memcpy_flatten _ _ 11 PS_RESEVED_FOR_FUTURE_OFF]
  rotate_left
  · simp
  · simp [PS_RESEVED_FOR_FUTURE_OFF, PS_TABLE_SIGNATURE, leBytes_length, PS_HEADER_SIZE, h0, h1, h2, h3, h4, h5, h6, h7, h8, h9, h10, h11]
  · simp [leBytes_length, PS_RESEVED_FOR_FUTURE_LEN, PS_HEADER_SIZE, PS_RESEVED_FOR_FUTURE_OFF,
      h0, h1, h2, h3, h4, h5, h6, h7, h8, h9, h10, h11]
  simp only [List.set_cons_zero, List.set_cons_succ]
  simp only [headerLayout, List.flatten_cons, List.flatten_nil, List.append_nil,
    List.append_assoc, PS_RESEVED_FOR_FUTURE_LEN, PS_HEADER_SIZE, PS_RESEVED_FOR_FUTURE_OFF]

/-- The header that `MakeHeaderPersistent` builds is laid out field by field,
whatever the array held. -/
theorem MakeHeaderPersistent_header_eq (t : PersistentTable) (tableHeader : List Byte)
    (hlen : tableHeader.length = 128) :
    PersistentTable.MakeHeaderPersistent_header t tableHeader =
    headerLayout t.mFieldsCount t.mDescriptorsSize t.mRowsCount t.mMaxFileSize t.mTableData.Size
      (match t.mVSData with
       | some mVSData => mVSData.Size
       | none => 0) t.mRootNode t.mUnallocatedHead t.mRowSize
      (if t.mRowModified then PS_TABLE_MODIFIED_MASK else 0) := by
  obtain ⟨s0, s1, s2, s3, s4, s5, s6, s7, s8, s9, s10, s11, rfl, h0, h1, h2, h3, h4, h5, h6, h7,
    h8, h9, h10, h11⟩ := header_segments tableHeader hlen
  unfold PersistentTable.MakeHeaderPersistent_header store_le_int32 store_le_int64
  dsimp only
  rw [memcpy_flatten PS_TABLE_SIGNATURE _ 0 0]
  rotate_left
  · simp
  · simp
  · simp [h0, PS_TABLE_SIGNATURE]
  simp only [List.set_cons_zero]
  rw [memcpy_flatten _ _ 1 PS_TABLE_FIELDS_COUNT_OFF]
  rotate_left
  · simp
  · simp [PS_TABLE_FIELDS_COUNT_OFF, PS_TABLE_SIGNATURE, leBytes_length, PS_HEADER_SIZE, h0, h1, h2, h3, h4, h5, h6, h7, h8, h9, h10, h11]
  · simp [leBytes_length, PS_RESEVED_FOR_FUTURE_LEN, PS_HEADER_SIZE, PS_RESEVED_FOR_FUTURE_OFF,
      h0, h1, h2, h3, h4, h5, h6, h7, h8, h9, h10, h11]
  simp only [List.set_cons_zero, List.set_cons_succ]
  rw [memcpy_flatten _ _ 2 PS_TABLE_ELEMS_SIZE_OFF]
  rotate_left
  · simp
  · simp [PS_TABLE_ELEMS_SIZE_OFF, PS_TABLE_SIGNATURE, leBytes_length, PS_HEADER_SIZE, h0, h1, h2, h3, h4, h5, h6, h7, h8, h9, h10, h11]
  · simp [leBytes_length, PS_RESEVED_FOR_FUTURE_LEN, PS_HEADER_SIZE, PS_RESEVED_FOR_FUTURE_OFF,
      h0, h1, h2, h3, h4, h5, h6, h7, h8, h9, h10, h11]
  simp only [List.set_cons_zero, List.set_cons_succ]
  rw [memcpy_flatten _ _ 3 PS_TABLE_ROWS_COUNT_OFF]
  rotate_left
  · simp
  · simp [PS_TABLE_ROWS_COUNT_OFF, PS_TABLE_SIGNATURE, leBytes_length, PS_HEADER_SIZE, h0, h1, h2, h3, h4, h5, h6, h7, h8, h9, h10, h11]
  · simp [leBytes_length, PS_RESEVED_FOR_FUTURE_LEN, PS_HEADER_SIZE, PS_RESEVED_FOR_FUTURE_OFF,
      h0, h1, h2, h3, h4, h5, h6, h7, h8, h9, h10, h11]
  simp only [List.set_cons_zero, List.set_cons_succ]
  rw [memcpy_flatten _ _ 9 PS_TABLE_ROW_SIZE_OFF]
  rotate_left
  · simp
  · simp [PS_TABLE_ROW_SIZE_OFF, PS_TABLE_SIGNATURE, leBytes_length, PS_HEADER_SIZE, h0, h1, h2, h3, h4, h5, h6, h7, h8, h9, h10, h11]
  · simp [leBytes_length, PS_RESEVED_FOR_FUTURE_LEN, PS_HEADER_SIZE, PS_RESEVED_FOR_FUTURE_OFF,
      h0, h1, h2, h3, h4, h5, h6, h7, h8, h9, h10, h11]
  simp only [List.set_cons_zero, List.set_cons_succ]
  rw [memcpy_flatten _ _ 7 PS_TABLE_BT_ROOT_OFF]
  rotate_left
  · simp
  · simp [PS_TABLE_BT_ROOT_OFF, PS_TABLE_SIGNATURE, leBytes_length, PS_HEADER_SIZE, h0, h1, h2, h3, h4, h5, h6, h7, h8, h9, h10, h11]
  · simp [leBytes_length, PS_RESEVED_FOR_FUTURE_LEN, PS_HEADER_SIZE, PS_RESEVED_FOR_FUTURE_OFF,
      h0, h1, h2, h3, h4, h5, h6, h7, h8, h9, h10, h11]
  simp only [List.set_cons_zero, List.set_cons_succ]
  rw [memcpy_flatten _ _ 8 PS_TABLE_BT_HEAD_OFF]
  rotate_left
  · simp
  · simp [PS_TABLE_BT_HEAD_OFF, PS_TABLE_SIGNATURE, leBytes_length, PS_HEADER_SIZE, h0, h1, h2, h3, h4, h5, h6, h7, h8, h9, h10, h11]
  · simp [leBytes_length, PS_RESEVED_FOR_FUTURE_LEN, PS_HEADER_SIZE, PS_RESEVED_FOR_FUTURE_OFF,
      h0, h1, h2, h3, h4, h5, h6, h7, h8, h9, h10, h11]
  simp only [List.set_cons_zero, List.set_cons_succ]
  rw [memcpy_flatten _ _ 4 PS_TABLE_MAX_FILE_SIZE_OFF]
  rotate_left
  · simp
  · simp [PS_TABLE_MAX_FILE_SIZE_OFF, PS_TABLE_SIGNATURE, leBytes_length, PS_HEADER_SIZE, h0, h1, h2, h3, h4, h5, h6, h7, h8, h9, h10, h11]
  · simp [leBytes_length, PS_RESEVED_FOR_FUTURE_LEN, PS_HEADER_SIZE, PS_RESEVED_FOR_FUTURE_OFF,
      h0, h1, h2, h3, h4, h5, h6, h7, h8, h9, h10, h11]
  simp only [List.set_cons_zero, List.set_cons_succ]
  rw [memcpy_flatten _ _ 5 PS_TABLE_MAINTABLE_SIZE_OFF]
  rotate_left
  · simp
  · simp [PS_TABLE_MAINTABLE_SIZE_OFF, PS_TABLE_SIGNATURE, leBytes_length, PS_HEADER_SIZE, h0, h1, h2, h3, h4, h5, h6, h7, h8, h9, h10, h11]
  · simp [leBytes_length, PS_RESEVED_FOR_FUTURE_LEN, PS_HEADER_SIZE, PS_RESEVED_FOR_FUTURE_OFF,
      h0, h1, h2, h3, h4, h5, h6, h7, h8, h9, h10, h11]
  simp only [List.set_cons_zero, List.set_cons_succ]
  rw [memcpy_flatten _ _ 10 PS_TABLE_FLAGS_OFF]
  rotate_left
  · simp
  · simp [PS_TABLE_FLAGS_OFF, PS_TABLE_SIGNATURE, leBytes_length, PS_HEADER_SIZE, h0, h1, h2, h3, h4, h5, h6, h7, h8, h9, h10, h11]
  · simp [leBytes_length, PS_RESEVED_FOR_FUTURE_LEN, PS_HEADER_SIZE, PS_RESEVED_FOR_FUTURE_OFF,
      h0, h1, h2, h3, h4, h5, h6, h7, h8, h9, h10, h11]
  simp only [List.set_cons_zero, List.set_cons_succ]
  rw [memcpy_flatten _ _ 6 PS_TABLE_VARSTORAGE_SIZE_OFF]
  rotate_left
  · simp
  · simp [PS_TABLE_VARSTORAGE_SIZE_OFF, PS_TABLE_SIGNATURE, leBytes_length, PS_HEADER_SIZE, h0, h1, h2, h3, h4, h5, h6, h7, h8, h9, h10, h11]
  · simp [leBytes_length, PS_RESEVED_FOR_FUTURE_LEN, PS_HEADER_SIZE, PS_RESEVED_FOR_FUTURE_OFF,
      h0, h1, h2, h3, h4, h5, h6, h7, h8, h9, h10, h11]
  simp only [List.set_cons_zero, List.set_cons_succ]
  rw [memcpy_flatten _ _ 11 PS_RESEVED_FOR_FUTURE_OFF]
  rotate_left
  · simp
  · simp [PS_RESEVED_FOR_FUTURE_OFF, PS_TABLE_SIGNATURE, leBytes_length, PS_HEADER_SIZE, h0, h1, h2, h3, h4, h5, h6, h7, h8, h9, h10, h11]
  · simp [leBytes_length, PS_RESEVED_FOR_FUTURE_LEN, PS_HEADER_SIZE, PS_RESEVED_FOR_FUTURE_OFF,
      h0, h1, h2, h3, h4, h5, h6, h7, h8, h9, h10, h11]
  simp only [List.set_cons_zero, List.set_cons_succ]
  simp only [headerLayout, List.flatten_cons, List.flatten_nil, List.append_nil,
    List.append_assoc, PS_RESEVED_FOR_FUTURE_LEN, PS_HEADER_SIZE, PS_RESEVED_FOR_FUTURE_OFF]
  rewrite [Nat.zero_or]
  rfl

end pastra
end whais

namespace whais
namespace pastra

theorem getD_append_add (A B : List Byte) (i : Nat) :
    (A ++ B).getD (A.length + i) 0 = B.getD i 0 := by
  rw [List.getD_eq_getElem?_getD, List.getD_eq_getElem?_getD,
    List.getElem?_append_right (Nat.le_add_right _ _), Nat.add_sub_cancel_left]

theorem load_le_int32_skip (A B : List Byte) (off : Nat) :
    load_le_int32 (A ++ B) (A.length + off) = load_le_int32 B off := by
  unfold load_le_int32
  simp only [Nat.add_assoc, getD_append_add]

theorem load_le_int64_skip (A B : List Byte) (off : Nat) :
    load_le_int64 (A ++ B) (A.length + off) = load_le_int64 B off := by
  unfold load_le_int64
  simp only [Nat.add_assoc, getD_append_add]

theorem load_le_int32_leBytes (v : Nat) (B : List Byte) (h : v < 2 ^ 32) :
    load_le_int32 (leBytes 4 v ++ B) 0 = v := by
  unfold load_le_int32
  simp only [leBytes, List.cons_append, List.nil_append, Nat.zero_add, List.getD_cons_zero,
    List.getD_cons_succ]
  omega

theorem load_le_int64_leBytes (v : Nat) (B : List Byte) (h : v < 2 ^ 64) :
    load_le_int64 (leBytes 8 v ++ B) 0 = v := by
  unfold load_le_int64
  simp only [leBytes, List.cons_append, List.nil_append, Nat.zero_add, List.getD_cons_zero,
    List.getD_cons_succ]
  omega

/-- A 32-bit load of segment `k` of a buffer made of segments. -/
theorem load_le_int32_flatten (v : Nat) (hv : v < 2 ^ 32) : ∀ (segs : List (List Byte))
    (k off : Nat), segs[k]? = some (leBytes 4 v) → off = ((segs.take k).flatten).length →
    load_le_int32 segs.flatten off = v := by
  intro segs
  induction segs with
  | nil => intro k off hk; simp at hk
  | cons s rest ih =>
    intro k off hk hoff
    cases k with
    | zero =>
      simp only [List.take_zero, List.flatten_nil, List.length_nil] at hoff
      simp only [List.getElem?_cons_zero, Option.some.injEq] at hk
      rw [hoff, List.flatten_cons, hk, load_le_int32_leBytes v _ hv]
    | succ k =>
      simp only [List.take_succ_cons, List.flatten_cons, List.length_append] at hoff
      simp only [List.getElem?_cons_succ] at hk
      rw [hoff, List.flatten_cons, load_le_int32_skip, ih k _ hk rfl]

/-- A 64-bit load of segment `k` of a buffer made of segments. -/
theorem load_le_int64_flatten (v : Nat) (hv : v < 2 ^ 64) : ∀ (segs : List (List Byte))
    (k off : Nat), segs[k]? = some (leBytes 8 v) → off = ((segs.take k).flatten).length →
    load_le_int64 segs.flatten off = v := by
  intro segs
  induction segs with
  | nil => intro k off hk; simp at hk
  | cons s rest ih =>
    intro k off hk hoff
    cases k with
    | zero =>
      simp only [List.take_zero, List.flatten_nil, List.length_nil] at hoff
      simp only [List.getElem?_cons_zero, Option.some.injEq] at hk
      rw [hoff, List.flatten_cons, hk, load_le_int64_leBytes v _ hv]
    | succ k =>
      simp only [List.take_succ_cons, List.flatten_cons, List.length_append] at hoff
      simp only [List.getElem?_cons_succ] at hk
      rw [hoff, List.flatten_cons, load_le_int64_skip, ih k _ hk rfl]

/-- The loads of `InitFromFile` on a header laid out field by field return the
fields. -/
theorem headerLayout_loads (fieldsCount descriptorsSize rowsCount maxFileSize mainTableSize
    varStorageSize btRoot btHead rowSize flags : Nat) (rest : List Byte) :
    load_le_int32 (headerLayout fieldsCount descriptorsSize rowsCount maxFileSize mainTableSize
      varStorageSize btRoot btHead rowSize flags ++ rest) PS_TABLE_FIELDS_COUNT_OFF
      = fieldsCount % 2 ^ 32 ∧
    load_le_int32 (headerLayout fieldsCount descriptorsSize rowsCount maxFileSize mainTableSize
      varStorageSize btRoot btHead rowSize flags ++ rest) PS_TABLE_ELEMS_SIZE_OFF
      = descriptorsSize % 2 ^ 32 ∧
    load_le_int64 (headerLayout fieldsCount descriptorsSize rowsCount maxFileSize mainTableSize
      varStorageSize btRoot btHead rowSize flags ++ rest) PS_TABLE_ROWS_COUNT_OFF
      = rowsCount % 2 ^ 64 ∧
    load_le_int64 (headerLayout fieldsCount descriptorsSize rowsCount maxFileSize mainTableSize
      varStorageSize btRoot btHead rowSize flags ++ rest) PS_TABLE_MAX_FILE_SIZE_OFF
      = maxFileSize % 2 ^ 64 ∧
    load_le_int64 (headerLayout fieldsCount descriptorsSize rowsCount maxFileSize mainTableSize
      varStorageSize btRoot btHead rowSize flags ++ rest) PS_TABLE_MAINTABLE_SIZE_OFF
      = mainTableSize % 2 ^ 64 ∧
    load_le_int64 (headerLayout fieldsCount descriptorsSize rowsCount maxFileSize mainTableSize
      varStorageSize btRoot btHead rowSize flags ++ rest) PS_TABLE_VARSTORAGE_SIZE_OFF
      = varStorageSize % 2 ^ 64 ∧
    load_le_int32 (headerLayout fieldsCount descriptorsSize rowsCount maxFileSize mainTableSize
      varStorageSize btRoot btHead rowSize flags ++ rest) PS_TABLE_BT_ROOT_OFF
      = btRoot % 2 ^ 32 ∧
    load_le_int32 (headerLayout fieldsCount descriptorsSize rowsCount maxFileSize mainTableSize
      varStorageSize btRoot btHead rowSize flags ++ rest) PS_TABLE_BT_HEAD_OFF
      = btHead % 2 ^ 32 ∧
    load_le_int32 (headerLayout fieldsCount descriptorsSize rowsCount maxFileSize mainTableSize
      varStorageSize btRoot btHead rowSize flags ++ rest) PS_TABLE_ROW_SIZE_OFF
      = rowSize % 2 ^ 32 ∧
    load_le_int32 (headerLayout fieldsCount descriptorsSize rowsCount maxFileSize mainTableSize
      varStorageSize btRoot btHead rowSize flags ++ rest) PS_TABLE_FLAGS_OFF
      = flags % 2 ^ 32 := by
  have hL : headerLayout fieldsCount descriptorsSize rowsCount maxFileSize mainTableSize
      varStorageSize btRoot btHead rowSize flags ++ rest =
      [PS_TABLE_SIGNATURE, leBytes 4 (fieldsCount % 2 ^ 32), leBytes 4 (descriptorsSize % 2 ^ 32),
        leBytes 8 (rowsCount % 2 ^ 64), leBytes 8 (maxFileSize % 2 ^ 64),
        leBytes 8 (mainTableSize % 2 ^ 64), leBytes 8 (varStorageSize % 2 ^ 64),
        leBytes 4 (btRoot % 2 ^ 32), leBytes 4 (btHead % 2 ^ 32), leBytes 4 (rowSize % 2 ^ 32),
        leBytes 4 (flags % 2 ^ 32), List.replicate 64 0, rest].flatten := by
    simp only [headerLayout, List.flatten_cons, List.flatten_nil, List.append_nil,
      List.append_assoc]
  have h32 : ∀ v : Nat, v % 2 ^ 32 < 2 ^ 32 := fun v => Nat.mod_lt _ (by decide)
  have h64 : ∀ v : Nat, v % 2 ^ 64 < 2 ^ 64 := fun v => Nat.mod_lt _ (by decide)
  rw [hL]
  refine ⟨load_le_int32_flatten _ (h32 _) _ 1 _ rfl ?_, load_le_int32_flatten _ (h32 _) _ 2 _ rfl ?_,
    load_le_int64_flatten _ (h64 _) _ 3 _ rfl ?_, load_le_int64_flatten _ (h64 _) _ 4 _ rfl ?_,
    load_le_int64_flatten _ (h64 _) _ 5 _ rfl ?_, load_le_int64_flatten _ (h64 _) _ 6 _ rfl ?_,
    load_le_int32_flatten _ (h32 _) _ 7 _ rfl ?_, load_le_int32_flatten _ (h32 _) _ 8 _ rfl ?_,
    load_le_int32_flatten _ (h32 _) _ 9 _ rfl ?_, load_le_int32_flatten _ (h32 _) _ 10 _ rfl ?_⟩
  all_goals
    simp [PS_TABLE_SIGNATURE, leBytes_length, PS_TABLE_FIELDS_COUNT_OFF, PS_TABLE_ELEMS_SIZE_OFF,
      PS_TABLE_ROWS_COUNT_OFF, PS_TABLE_MAX_FILE_SIZE_OFF, PS_TABLE_MAINTABLE_SIZE_OFF,
      PS_TABLE_VARSTORAGE_SIZE_OFF, PS_TABLE_BT_ROOT_OFF, PS_TABLE_BT_HEAD_OFF,
      PS_TABLE_ROW_SIZE_OFF, PS_TABLE_FLAGS_OFF]

end pastra
end whais

namespace whais
namespace pastra

/-- The size of the main table stored again in a header laid out field by
field. -/
theorem store_mainTableSize (fieldsCount descriptorsSize rowsCount maxFileSize mainTableSize
    varStorageSize btRoot btHead rowSize flags size : Nat) :
    store_le_int64 size (headerLayout fieldsCount descriptorsSize rowsCount maxFileSize
      mainTableSize varStorageSize btRoot btHead rowSize flags) PS_TABLE_MAINTABLE_SIZE_OFF =
    headerLayout fieldsCount descriptorsSize rowsCount maxFileSize size varStorageSize btRoot
      btHead rowSize flags := by
  have hL : ∀ m, headerLayout fieldsCount descriptorsSize rowsCount maxFileSize m
      varStorageSize btRoot btHead rowSize flags =
      [PS_TABLE_SIGNATURE, leBytes 4 (fieldsCount % 2 ^ 32), leBytes 4 (descriptorsSize % 2 ^ 32),
        leBytes 8 (rowsCount % 2 ^ 64), leBytes 8 (maxFileSize % 2 ^ 64),
        leBytes 8 (m % 2 ^ 64), leBytes 8 (varStorageSize % 2 ^ 64),
        leBytes 4 (btRoot % 2 ^ 32), leBytes 4 (btHead % 2 ^ 32), leBytes 4 (rowSize % 2 ^ 32),
        leBytes 4 (flags % 2 ^ 32), List.replicate 64 0].flatten := by
    intro m
    simp only [headerLayout, List.flatten_cons, List.flatten_nil, List.append_nil,
      List.append_assoc]
  rw [hL, hL, store_le_int64, memcpy_flatten _ _ 5 PS_TABLE_MAINTABLE_SIZE_OFF]
  · simp only [List.set_cons_zero, List.set_cons_succ]
  · simp
  · simp [PS_TABLE_MAINTABLE_SIZE_OFF, PS_TABLE_SIGNATURE, leBytes_length]
  · simp [leBytes_length]

/-- A file written at offset 0 starts with what was written. -/
theorem take_WriteAt_zero (f : File) (buffer : List Byte) (n : Nat) (h : buffer.length = n) :
    (f.WriteAt 0 buffer).take n = buffer := by
  unfold File.WriteAt
  rw [List.take_zero, List.nil_append, Nat.zero_sub, List.replicate_zero, List.nil_append,
    List.take_append_of_le_length (by omega), List.take_of_length_le (by omega)]

/-- The table file that `create_table_file` returns starts with a header laid
out field by field. -/
theorem create_table_file_take (P : TableParams) (tableHeader : List Byte)
    (maxFileSize fieldsCount : Nat) (inoutFields : Option (List DBSFieldDescriptor))
    (file : File) (hlen : tableHeader.length = 128)
    (h : create_table_file P tableHeader maxFileSize inoutFields fieldsCount = .ok file) :
    ∃ descriptorsSize rowSize mainTableSize, file.take 128 =
      headerLayout fieldsCount descriptorsSize 0 maxFileSize mainTableSize 0 P.NIL_NODE P.NIL_NODE
        rowSize 0 := by
  unfold create_table_file at h
  cases inoutFields with
  | none => simp at h
  | some fields =>
    simp only [bind, Except.bind] at h
    split at h
    · simp at h
    · split at h
      · simp at h
      · split at h
        · simp at h
        · split at h
          · simp at h
          · rename_i v hv
            obtain ⟨sorted, rowSize, fieldsDesc, names⟩ := v
            dsimp only at h
            split at h
            · simp at h
            · injection h with h
              rw [create_table_file_header_eq P tableHeader _ _ _ _ _ hlen,
                store_mainTableSize] at h
              rw [← h]
              exact ⟨_, _, _, take_WriteAt_zero _ _ 128 (headerLayout_length _ _ _ _ _ _ _ _ _ _)⟩

/-- C19 (counterexample): the reserved bytes of the header are 64, not 60; with
60 of them the fields of the claim fill 124 bytes of the 128, and the header
that `create_table_file` builds ends with 64 bytes 0. -/
theorem header_reserved_bytes :
    PS_RESEVED_FOR_FUTURE_LEN = 64 ∧ PS_RESEVED_FOR_FUTURE_OFF = 64 ∧ PS_HEADER_SIZE = 128 ∧
    8 + 4 + 4 + 8 + 8 + 8 + 8 + 4 + 4 + 4 + 4 + 60 = 124 ∧
    (create_table_file_header ⟨0, 18, 20, 256, 16, fun _ _ => 8, 0, 128, fun _ _ => []⟩
      (List.replicate 128 0xAA) 1 18 9 4096 128).drop 64 = List.replicate 64 0 := by
  decide

end pastra
end whais

namespace whais
namespace pastra

/-- C19 (amended): the header that `create_table_file` and
`MakeHeaderPersistent` build in a buffer of 128 bytes, and that `create_table_file`
leaves at the start of the table file, consists, in this order and each integer
with its lowest byte first, of the signature `PASTRATB` (8 bytes), the fields
count (4), the length of the descriptors area (4), the row count (8), the
maximum file size (8), the size of the main table (8), the size of the variable
heap (8), the root (4) and the head (4) of the tree of removed rows, the row
size (4), the flags (4) and 64 reserved bytes 0, which fill the bytes
`[0, 128)`; the loads of `InitFromFile` at the offsets of the fields return
the fields. -/
theorem table_header_layout (P : TableParams) (t : PersistentTable) (tableHeader rest : List Byte)
    (inoutFields : Option (List DBSFieldDescriptor))
    (fieldsCount descriptorsSize rowsCount maxFileSize mainTableSize varStorageSize btRoot btHead
      rowSize flags : Nat)
    (hlen : tableHeader.length = PS_HEADER_SIZE) :
    create_table_file_header P tableHeader fieldsCount descriptorsSize rowSize maxFileSize
        mainTableSize =
      headerLayout fieldsCount descriptorsSize 0 maxFileSize mainTableSize 0 P.NIL_NODE
        P.NIL_NODE rowSize 0 ∧
    (∀ file, create_table_file P tableHeader maxFileSize inoutFields fieldsCount = .ok file →
      ∃ descriptorsSize2 rowSize2 mainTableSize2, file.take 128 =
        headerLayout fieldsCount descriptorsSize2 0 maxFileSize mainTableSize2 0 P.NIL_NODE
          P.NIL_NODE rowSize2 0) ∧
    PersistentTable.MakeHeaderPersistent_header t tableHeader =
      headerLayout t.mFieldsCount t.mDescriptorsSize t.mRowsCount t.mMaxFileSize
        t.mTableData.Size
        (match t.mVSData with
         | some mVSData => mVSData.Size
         | none => 0) t.mRootNode t.mUnallocatedHead t.mRowSize
        (if t.mRowModified then PS_TABLE_MODIFIED_MASK else 0) ∧
    (headerLayout fieldsCount descriptorsSize rowsCount maxFileSize mainTableSize
      varStorageSize btRoot btHead rowSize flags).length = 128 ∧
    8 + 4 + 4 + 8 + 8 + 8 + 8 + 4 + 4 + 4 + 4 + 64 = 128 ∧
    load_le_int32 (headerLayout fieldsCount descriptorsSize rowsCount maxFileSize mainTableSize
      varStorageSize btRoot btHead rowSize flags ++ rest) PS_TABLE_FIELDS_COUNT_OFF
      = fieldsCount % 2 ^ 32 ∧
    load_le_int32 (headerLayout fieldsCount descriptorsSize rowsCount maxFileSize mainTableSize
      varStorageSize btRoot btHead rowSize flags ++ rest) PS_TABLE_ELEMS_SIZE_OFF
      = descriptorsSize % 2 ^ 32 ∧
    load_le_int64 (headerLayout fieldsCount descriptorsSize rowsCount maxFileSize mainTableSize
      varStorageSize btRoot btHead rowSize flags ++ rest) PS_TABLE_ROWS_COUNT_OFF
      = rowsCount % 2 ^ 64 ∧
    load_le_int64 (headerLayout fieldsCount descriptorsSize rowsCount maxFileSize mainTableSize
      varStorageSize btRoot btHead rowSize flags ++ rest) PS_TABLE_MAX_FILE_SIZE_OFF
      = maxFileSize % 2 ^ 64 ∧
    load_le_int64 (headerLayout fieldsCount descriptorsSize rowsCount maxFileSize mainTableSize
      varStorageSize btRoot btHead rowSize flags ++ rest) PS_TABLE_MAINTABLE_SIZE_OFF
      = mainTableSize % 2 ^ 64 ∧
    load_le_int64 (headerLayout fieldsCount descriptorsSize rowsCount maxFileSize mainTableSize
      varStorageSize btRoot btHead rowSize flags ++ rest) PS_TABLE_VARSTORAGE_SIZE_OFF
      = varStorageSize % 2 ^ 64 ∧
    load_le_int32 (headerLayout fieldsCount descriptorsSize rowsCount maxFileSize mainTableSize
      varStorageSize btRoot btHead rowSize flags ++ rest) PS_TABLE_BT_ROOT_OFF
      = btRoot % 2 ^ 32 ∧
    load_le_int32 (headerLayout fieldsCount descriptorsSize rowsCount maxFileSize mainTableSize
      varStorageSize btRoot btHead rowSize flags ++ rest) PS_TABLE_BT_HEAD_OFF
      = btHead % 2 ^ 32 ∧
    load_le_int32 (headerLayout fieldsCount descriptorsSize rowsCount maxFileSize mainTableSize
      varStorageSize btRoot btHead rowSize flags ++ rest) PS_TABLE_ROW_SIZE_OFF
      = rowSize % 2 ^ 32 ∧
    load_le_int32 (headerLayout fieldsCount descriptorsSize rowsCount maxFileSize mainTableSize
      varStorageSize btRoot btHead rowSize flags ++ rest) PS_TABLE_FLAGS_OFF
      = flags % 2 ^ 32 :=
  ⟨create_table_file_header_eq P tableHeader _ _ _ _ _ hlen,
    fun file h => create_table_file_take P tableHeader _ _ _ file hlen h,
    MakeHeaderPersistent_header_eq t tableHeader hlen,
    headerLayout_length _ _ _ _ _ _ _ _ _ _, rfl,
    headerLayout_loads _ _ _ _ _ _ _ _ _ _ rest⟩

/-- C19 (witness): a buffer of 128 bytes `0xAA`, for a table of one field. -/
theorem table_header_layout_witness :
    (List.replicate 128 0xAA : List Byte).length = PS_HEADER_SIZE ∧
    create_table_file_header ⟨0, 18, 20, 256, 16, fun _ _ => 8, 0, 128, fun _ _ => []⟩
        (List.replicate 128 0xAA) 1 18 9 4096 128 =
      headerLayout 1 18 0 4096 128 0 0 0 9 0 :=
  ⟨List.length_replicate _ _,
    (table_header_layout ⟨0, 18, 20, 256, 16, fun _ _ => 8, 0, 128, fun _ _ => []⟩
      ⟨1, 18, 0, 0, 9, 0, 0, 4096, [], ⟨4096, []⟩, none, false, false⟩
      (List.replicate 128 0xAA) [] none 1 18 0 4096 128 0 0 0 9 0
      (List.length_replicate _ _)).1⟩

end pastra
end whais

namespace whais
namespace pastra

/-- The sizes of the first `k` fields. -/
theorem sum_take_succ (size : DBSFieldDescriptor → Nat) : ∀ (l : List DBSFieldDescriptor) (k : Nat)
    (f : DBSFieldDescriptor), l[k]? = some f →
    ((l.take (k + 1)).map size).sum = ((l.take k).map size).sum + size f := by
  intro l
  induction l with
  | nil => intro k f h; simp at h
  | cons x rest ih =>
    intro k f h
    cases k with
    | zero =>
      simp only [List.getElem?_cons_zero, Option.some.injEq] at h
      simp [h]
    | succ k =>
      simp only [List.getElem?_cons_succ] at h
      simp only [List.take_succ_cons, List.map_cons, List.sum_cons, ih k f h]
      omega

theorem sum_take_mono (size : DBSFieldDescriptor → Nat) (l : List DBSFieldDescriptor) :
    ∀ (k j : Nat), k ≤ j → ((l.take k).map size).sum ≤ ((l.take j).map size).sum := by
  intro k j hkj
  have hsplit : l.take j = l.take k ++ (l.take j).drop k := by
    have := List.take_append_drop k (l.take j)
    rw [List.take_take, Nat.min_eq_left hkj] at this
    exact this.symm
  rw [hsplit, List.map_append, List.sum_append]
  omega

theorem sum_take_le (size : DBSFieldDescriptor → Nat) (l : List DBSFieldDescriptor) (k : Nat) :
    ((l.take k).map size).sum ≤ (l.map size).sum := by
  have := sum_take_mono size l k (max k l.length) (Nat.le_max_left _ _)
  rw [List.take_of_length_le (Nat.le_max_right _ _)] at this
  exact this

/-- The loop of `normalize_fields` on fields with names that are not empty,
where neither the index nor the row size leaves 32 bits: field `k` of the loop
gets the null bit `i + k` and the row offset after the fields before it. -/
theorem normalize_fields_loop_spec (P : TableParams) : ∀ (fields : List DBSFieldDescriptor)
    (i outRowsSize fieldNameOff : Nat),
    (∀ f ∈ fields, f.name ≠ [] ∧ f.name.length + 1 < 2 ^ 32) →
    i + fields.length < 2 ^ 32 →
    outRowsSize + (fields.map fun f => P.SerializerSize f.type f.isArray).sum < 2 ^ 32 →
    ∃ fieldsDesc names, normalize_fields_loop P fields i outRowsSize fieldNameOff =
        .ok (outRowsSize + (fields.map fun f => P.SerializerSize f.type f.isArray).sum,
          fieldsDesc, names) ∧
      fieldsDesc.length = fields.length ∧
      ∀ k d, fieldsDesc[k]? = some d → d.mNullBitIndex = i + k ∧
        d.mRowDataOff = outRowsSize +
          ((fields.take k).map fun f => P.SerializerSize f.type f.isArray).sum ∧
        ∀ f, fields[k]? = some f →
          d.mType = f.type ||| (if f.isArray then P.PS_TABLE_ARRAY_MASK else 0) := by
  intro fields
  induction fields with
  | nil =>
    intro i r off _ _ _
    refine ⟨[], [], ?_, rfl, ?_⟩
    · simp [normalize_fields_loop]
    · intro k d h; simp at h
  | cons field rest ih =>
    intro i r off hn hi hr
    obtain ⟨hne, hlen⟩ := hn field (List.mem_cons_self _ _)
    have hpos : 0 < field.name.length := List.length_pos.2 hne
    simp only [List.map_cons, List.sum_cons, List.length_cons] at hr hi
    obtain ⟨descs, names, hrun, hl, hk⟩ := ih ((i + 1) % 2 ^ 32)
      ((r + P.SerializerSize field.type field.isArray) % 2 ^ 32)
      ((off + (field.name.length + 1) % 2 ^ 32) % 2 ^ 32)
      (fun f hf => hn f (List.mem_cons_of_mem _ hf))
      (by rw [Nat.mod_eq_of_lt (by omega)]; omega)
      (by rw [Nat.mod_eq_of_lt (by omega)]; omega)
    rw [Nat.mod_eq_of_lt (show r + P.SerializerSize field.type field.isArray < 2 ^ 32 by omega)]
      at hrun hk
    rw [Nat.mod_eq_of_lt (show i + 1 < 2 ^ 32 by omega)] at hrun hk
    refine ⟨⟨i, r, off, field.type ||| (if field.isArray then P.PS_TABLE_ARRAY_MASK else 0), 0, 0⟩
      :: descs, field.name :: names, ?_, by rw [List.length_cons, List.length_cons, hl], ?_⟩
    · rw [normalize_fields_loop]
      simp only [bind, Except.bind]
      rw [if_neg (by rw [Nat.mod_eq_of_lt hlen]; omega),
        Nat.mod_eq_of_lt (show r + P.SerializerSize field.type field.isArray < 2 ^ 32 by omega),
        Nat.mod_eq_of_lt (show i + 1 < 2 ^ 32 by omega), hrun]
      simp only [List.map_cons, List.sum_cons, Nat.add_assoc]
    · intro k d h
      cases k with
      | zero =>
        simp only [List.getElem?_cons_zero, Option.some.injEq] at h
        rw [← h]
        refine ⟨rfl, by simp, ?_⟩
        intro f hf
        simp only [List.getElem?_cons_zero, Option.some.injEq] at hf
        rw [← hf]
      | succ k =>
        simp only [List.getElem?_cons_succ] at h
        obtain ⟨a, b, c⟩ := hk k d h
        rw [a, b]
        simp only [List.take_succ_cons, List.map_cons, List.sum_cons]
        refine ⟨by omega, by omega, ?_⟩
        intro f hf
        simp only [List.getElem?_cons_succ] at hf
        exact c f hf


theorem normalize_fields_run (P : TableParams) (fields : List DBSFieldDescriptor)
    (hne : fields ≠ [])
    (hnames : ∀ f ∈ fields, f.name ≠ [] ∧ f.name.length + 1 < 2 ^ 32)
    (hnd : (fields.map fun f => f.name).Nodup)
    (hcount : fields.length + 7 < 2 ^ 32)
    (hsize : (fields.length + 7) / 8 +
      (fields.map fun f => P.SerializerSize f.type f.isArray).sum < 2 ^ 32) :
    ∃ fieldsDesc names, normalize_fields P fields =
        .ok (sortFields fields, (fields.length + 7) / 8 +
          (fields.map fun f => P.SerializerSize f.type f.isArray).sum, fieldsDesc, names) ∧
      (sortFields fields).Perm fields ∧
      fieldsDesc.length = fields.length ∧
      ∀ k d, fieldsDesc[k]? = some d → d.mNullBitIndex = k ∧
        d.mRowDataOff = (fields.length + 7) / 8 +
          (((sortFields fields).take k).map fun f => P.SerializerSize f.type f.isArray).sum ∧
        ∀ f, (sortFields fields)[k]? = some f →
          d.mType = f.type ||| (if f.isArray then P.PS_TABLE_ARRAY_MASK else 0) := by
  have hperm : (sortFields fields).Perm fields := List.perm_insertionSort _ _
  have hsum : ((sortFields fields).map fun f => P.SerializerSize f.type f.isArray).sum =
      (fields.map fun f => P.SerializerSize f.type f.isArray).sum :=
    (hperm.map _).sum_eq
  have hpos : 0 < fields.length := List.length_pos.2 hne
  obtain ⟨descs, names, hrun, hl, hk⟩ := normalize_fields_loop_spec P (sortFields fields) 0
    ((fields.length + 7) / 8) (P.sizeofFieldDescriptor * fields.length % 2 ^ 32)
    (fun f hf => hnames f (hperm.subset hf))
    (by rw [hperm.length_eq]; omega)
    (by rw [hsum]; exact hsize)
  refine ⟨descs, names, ?_, hperm, by rw [hl, hperm.length_eq], ?_⟩
  · unfold normalize_fields
    simp only [bind, Except.bind]
    rw [Nat.mod_eq_of_lt (show fields.length < 2 ^ 32 by omega),
      Nat.mod_eq_of_lt hcount, if_neg (by omega), if_neg (not_not.2 hnd), hrun, hsum]
  · intro k d h
    obtain ⟨a, b, c⟩ := hk k d h
    exact ⟨by rw [a, Nat.zero_add], b, c⟩

end pastra
end whais

namespace whais
namespace pastra

/-- C18: for a list of `n > 0` fields with names that are not empty and differ
from each other (within the 32 bits of the counters: `n + 7`, the length of
every name with its NUL, and the row size), `normalize_fields` returns the
fields in another order with `n` descriptors and the row size
`(n + 7) / 8 + Σ Size`; descriptor `i` describes field `i` of that order; the
null bit indices of two descriptors differ and are smaller than
`8 * ((n + 7) / 8)`; the range `[RowDataOff, RowDataOff + Size)` of every field
starts at or after byte `(n + 7) / 8` and ends at or before the row size, and
no byte is in the ranges of two fields. -/
theorem normalize_fields_row_layout (P : TableParams) (fields : List DBSFieldDescriptor)
    (hne : fields ≠ [])
    (hnames : ∀ f ∈ fields, f.name ≠ [] ∧ f.name.length + 1 < 2 ^ 32)
    (hnd : (fields.map fun f => f.name).Nodup)
    (hcount : fields.length + 7 < 2 ^ 32)
    (hsize : (fields.length + 7) / 8 +
      (fields.map fun f => P.SerializerSize f.type f.isArray).sum < 2 ^ 32) :
    ∃ (sorted : List DBSFieldDescriptor) (rowSize : Nat) (fieldsDesc : List FieldDescriptor)
        (names : List (List Char)),
      normalize_fields P fields = .ok (sorted, rowSize, fieldsDesc, names) ∧
      sorted.Perm fields ∧ fieldsDesc.length = fields.length ∧
      rowSize = (fields.length + 7) / 8 +
        (fields.map fun f => P.SerializerSize f.type f.isArray).sum ∧
      (∀ (i : Nat) (di : FieldDescriptor) (fi : DBSFieldDescriptor),
        fieldsDesc[i]? = some di → sorted[i]? = some fi →
        di.mType = fi.type ||| (if fi.isArray then P.PS_TABLE_ARRAY_MASK else 0)) ∧
      (∀ (i j : Nat) (di dj : FieldDescriptor),
        fieldsDesc[i]? = some di → fieldsDesc[j]? = some dj → i ≠ j →
        di.mNullBitIndex ≠ dj.mNullBitIndex) ∧
      (∀ (i : Nat) (di : FieldDescriptor), fieldsDesc[i]? = some di →
        di.mNullBitIndex < 8 * ((fields.length + 7) / 8)) ∧
      (∀ (i : Nat) (di : FieldDescriptor) (fi : DBSFieldDescriptor),
        fieldsDesc[i]? = some di → sorted[i]? = some fi →
        (fields.length + 7) / 8 ≤ di.mRowDataOff ∧
        di.mRowDataOff + P.SerializerSize fi.type fi.isArray ≤ rowSize) ∧
      (∀ (i j : Nat) (di dj : FieldDescriptor) (fi fj : DBSFieldDescriptor),
        fieldsDesc[i]? = some di → fieldsDesc[j]? = some dj →
        sorted[i]? = some fi → sorted[j]? = some fj → i ≠ j →
        ∀ b, ¬ (di.mRowDataOff ≤ b ∧ b < di.mRowDataOff + P.SerializerSize fi.type fi.isArray ∧
          dj.mRowDataOff ≤ b ∧ b < dj.mRowDataOff + P.SerializerSize fj.type fj.isArray)) := by
  obtain ⟨descs, names, hrun, hperm, hl, hk⟩ :=
    normalize_fields_run P fields hne hnames hnd hcount hsize
  have hsum : ((sortFields fields).map fun f => P.SerializerSize f.type f.isArray).sum =
      (fields.map fun f => P.SerializerSize f.type f.isArray).sum :=
    (hperm.map _).sum_eq
  have hend : ∀ i j fi, (sortFields fields)[i]? = some fi → i < j →
      (((sortFields fields).take i).map fun f => P.SerializerSize f.type f.isArray).sum +
        P.SerializerSize fi.type fi.isArray ≤
      (((sortFields fields).take j).map fun f => P.SerializerSize f.type f.isArray).sum := by
    intro i j fi hfi hij
    rw [← sum_take_succ (fun f => P.SerializerSize f.type f.isArray) _ i fi hfi]
    exact sum_take_mono _ _ _ _ hij
  refine ⟨sortFields fields, _, descs, names, hrun, hperm, hl, rfl, ?_, ?_, ?_, ?_, ?_⟩
  · intro i di fi hdi hfi
    exact (hk i di hdi).2.2 fi hfi
  · intro i j di dj hdi hdj hij
    rw [(hk i di hdi).1, (hk j dj hdj).1]
    exact hij
  · intro i di hdi
    rw [(hk i di hdi).1]
    have hi : i < descs.length := (List.getElem?_eq_some.1 hdi).1
    omega
  · intro i di fi hdi hfi
    rw [(hk i di hdi).2.1]
    have h1 := hend i (i + 1) fi hfi (Nat.lt_succ_self i)
    have h2 := sum_take_le (fun f => P.SerializerSize f.type f.isArray) (sortFields fields) (i + 1)
    rw [hsum] at h2
    constructor
    · omega
    · omega
  · intro i j di dj fi fj hdi hdj hfi hfj hij b
    rw [(hk i di hdi).2.1, (hk j dj hdj).2.1]
    rcases Nat.lt_or_gt_of_ne hij with h | h
    · have := hend i j fi hfi h
      omega
    · have := hend j i fj hfj h
      omega

/-- C18 (witness): two fields of 8 bytes each, named `b` and `a`: a row of
17 bytes. -/
theorem normalize_fields_row_layout_witness :
    ([⟨['b'], 5, false⟩, ⟨['a'], 6, false⟩] : List DBSFieldDescriptor) ≠ [] ∧
    (([⟨['b'], 5, false⟩, ⟨['a'], 6, false⟩] : List DBSFieldDescriptor).map
      fun f => f.name).Nodup ∧
    ∃ (sorted : List DBSFieldDescriptor) (rowSize : Nat) (fieldsDesc : List FieldDescriptor)
        (names : List (List Char)),
      normalize_fields ⟨0, 18, 20, 256, 16, fun _ _ => 8, 0, 128, fun _ _ => []⟩
        [⟨['b'], 5, false⟩, ⟨['a'], 6, false⟩] = .ok (sorted, rowSize, fieldsDesc, names) ∧
      fieldsDesc.length = 2 ∧ rowSize = 17 :=
  ⟨by decide, by decide,
    match normalize_fields_row_layout ⟨0, 18, 20, 256, 16, fun _ _ => 8, 0, 128, fun _ _ => []⟩
      [⟨['b'], 5, false⟩, ⟨['a'], 6, false⟩] (by decide) (by decide) (by decide) (by decide)
      (by decide) with
    | ⟨sorted, rowSize, fieldsDesc, names, h1, _, h3, h4, _⟩ =>
      ⟨sorted, rowSize, fieldsDesc, names, h1, h3, h4⟩⟩

end pastra
end whais
namespace whais

theorem DBool_order : NullsFirstOrder DBool.IsNull DBool.lt DBool.eq DBool.le DBool.ne DBool.gt
    DBool.ge := by
  constructor
  · rintro ⟨_ | _, _ | _⟩ <;> decide
  · rintro ⟨_ | _, _ | _⟩ ⟨_ | _, _ | _⟩ ⟨_ | _, _ | _⟩ <;> decide
  all_goals rintro ⟨_ | _, _ | _⟩ ⟨_ | _, _ | _⟩ <;> decide

theorem DInteger_order (T : IntegerType) : NullsFirstOrder (DInteger.IsNull (T := T))
    DInteger.lt DInteger.eq DInteger.le DInteger.ne DInteger.gt DInteger.ge := by
  constructor
  · rintro ⟨a, _ | _⟩ <;> simp [DInteger.lt, DInteger.IsNull]
  · rintro ⟨a, _ | _⟩ ⟨b, _ | _⟩ ⟨c, _ | _⟩ <;> simp [DInteger.lt, DInteger.IsNull]
    omega
  · rintro ⟨a, _ | _⟩ ⟨b, _ | _⟩ <;> simp [DInteger.lt, DInteger.eq, DInteger.IsNull]
    omega
  · rintro ⟨a, _ | _⟩ ⟨b, _ | _⟩ <;> simp [DInteger.lt, DInteger.eq, DInteger.IsNull]
    omega
  · rintro ⟨a, _ | _⟩ ⟨b, _ | _⟩ <;> simp [DInteger.lt, DInteger.eq, DInteger.IsNull]
    omega
  · rintro ⟨a, _ | _⟩ ⟨b, _ | _⟩ <;> simp [DInteger.lt, DInteger.eq, DInteger.IsNull]
    omega
  · rintro ⟨a, _ | _⟩ ⟨b, _ | _⟩ <;> simp [DInteger.lt, DInteger.eq, DInteger.IsNull]
  · rintro ⟨a, _ | _⟩ ⟨b, _ | _⟩ <;> simp [DInteger.lt, DInteger.eq, DInteger.IsNull]
  · intro a b; simp [DInteger.le]
  · rintro ⟨a, _ | _⟩ ⟨b, _ | _⟩ <;>
      simp [DInteger.gt, DInteger.le, DInteger.lt, DInteger.eq, DInteger.IsNull]
    omega
  · rintro ⟨a, _ | _⟩ ⟨b, _ | _⟩ <;>
      simp [DInteger.ge, DInteger.lt, DInteger.eq, DInteger.IsNull]
    omega
  · intro a b; simp [DInteger.ne]


/-- The operators of a value struct whose `lt` and `eq` compare a key in a
linear order, after the null flags. -/
theorem NullsFirstOrder.of_key {α K : Type} [LinearOrder K] (IsNull : α → Bool) (key : α → K)
    (lt eq le ne gt ge : α → α → Bool)
    (hlt : ∀ a b, lt a b = true ↔ (IsNull a = true ∧ IsNull b = false) ∨
      (IsNull a = false ∧ IsNull b = false ∧ key a < key b))
    (heq : ∀ a b, eq a b = true ↔ (IsNull a = true ∧ IsNull b = true) ∨
      (IsNull a = false ∧ IsNull b = false ∧ key a = key b))
    (hle : ∀ a b, le a b = (lt a b || eq a b)) (hne : ∀ a b, ne a b = !(eq a b))
    (hgt : ∀ a b, gt a b = !(le a b)) (hge : ∀ a b, ge a b = !(lt a b)) :
    NullsFirstOrder IsNull lt eq le ne gt ge := by
  have total : ∀ a b, lt a b = true ∨ eq a b = true ∨ lt b a = true := by
    intro a b
    rw [hlt, heq, hlt]
    rcases Bool.eq_false_or_eq_true (IsNull a) with ha | ha <;>
      rcases Bool.eq_false_or_eq_true (IsNull b) with hb | hb <;>
      simp only [ha, hb, true_and, and_true, and_false, false_and, or_false, false_or, or_true,
        true_or, Bool.true_eq_false, Bool.false_eq_true]
    exact lt_trichotomy (key a) (key b)
  have lt_not_eq : ∀ a b, lt a b = true → eq a b = false := by
    intro a b
    rw [Bool.eq_false_iff, Ne, hlt, heq]
    rcases Bool.eq_false_or_eq_true (IsNull a) with ha | ha <;>
      rcases Bool.eq_false_or_eq_true (IsNull b) with hb | hb <;>
      simp only [ha, hb, true_and, and_true, and_false, false_and, or_false, false_or, or_true,
        true_or, Bool.true_eq_false, Bool.false_eq_true, not_false_eq_true, implies_true,
        false_implies]
    exact fun h => ne_of_lt h
  have lt_asymm2 : ∀ a b, lt a b = true → lt b a = false := by
    intro a b
    rw [Bool.eq_false_iff, Ne, hlt, hlt]
    rcases Bool.eq_false_or_eq_true (IsNull a) with ha | ha <;>
      rcases Bool.eq_false_or_eq_true (IsNull b) with hb | hb <;>
      simp only [ha, hb, true_and, and_true, and_false, false_and, or_false, false_or, or_true,
        true_or, Bool.true_eq_false, Bool.false_eq_true, not_false_eq_true, implies_true,
        false_implies]
    exact fun h => not_lt_of_gt h
  have eq_not_gt : ∀ a b, eq a b = true → lt b a = false := by
    intro a b
    rw [Bool.eq_false_iff, Ne, hlt, heq]
    rcases Bool.eq_false_or_eq_true (IsNull a) with ha | ha <;>
      rcases Bool.eq_false_or_eq_true (IsNull b) with hb | hb <;>
      simp only [ha, hb, true_and, and_true, and_false, false_and, or_false, false_or, or_true,
        true_or, Bool.true_eq_false, Bool.false_eq_true, not_false_eq_true, implies_true,
        false_implies]
    exact fun h => h ▸ lt_irrefl _
  refine ⟨?_, ?_, total, lt_not_eq, lt_asymm2, eq_not_gt, ?_, ?_, ?_, ?_, ?_, ?_⟩
  · intro a
    rw [Bool.eq_false_iff, Ne, hlt]
    rintro (⟨h1, h2⟩ | ⟨_, _, h3⟩)
    · rw [h1] at h2; exact Bool.noConfusion h2
    · exact lt_irrefl _ h3
  · intro a b c hab hbc
    rw [hlt] at hab hbc ⊢
    rcases hab with ⟨h1, h2⟩ | ⟨h1, h2, h3⟩
    · rcases hbc with ⟨h4, _⟩ | ⟨_, h5, _⟩
      · rw [h2] at h4; exact Bool.noConfusion h4
      · exact Or.inl ⟨h1, h5⟩
    · rcases hbc with ⟨h4, _⟩ | ⟨_, h5, h6⟩
      · rw [h2] at h4; exact Bool.noConfusion h4
      · exact Or.inr ⟨h1, h5, lt_trans h3 h6⟩
  · intro a b ha hb
    rw [hlt]
    exact Or.inl ⟨ha, hb⟩
  · intro a b ha hb
    rw [heq]
    exact Or.inl ⟨ha, hb⟩
  · intro a b
    rw [hle, Bool.or_eq_true]
  · intro a b
    rw [hgt, hle, Bool.not_eq_true', Bool.or_eq_false_iff]
    constructor
    · rintro ⟨h1, h2⟩
      rcases total a b with h | h | h
      · rw [h] at h1; exact Bool.noConfusion h1
      · rw [h] at h2; exact Bool.noConfusion h2
      · exact h
    · intro h
      exact ⟨lt_asymm2 b a h, eq_not_gt a b |>.mt (by rw [h]; exact Bool.noConfusion) |>
        Bool.eq_false_iff.2⟩
  · intro a b
    rw [hge, Bool.not_eq_true']
    constructor
    · intro h1
      rcases total a b with h | h | h
      · rw [h] at h1; exact Bool.noConfusion h1
      · exact Or.inr h
      · exact Or.inl h
    · rintro (h | h)
      · exact lt_asymm2 b a h
      · rw [Bool.eq_false_iff]
        intro h2
        have := lt_not_eq a b h2
        rw [h] at this
        exact Bool.noConfusion this
  · intro a b
    rw [hne, Bool.not_eq_true']

theorem DDate_order : NullsFirstOrder DDate.IsNull DDate.lt DDate.eq DDate.le DDate.ne DDate.gt
    DDate.ge := by
  refine NullsFirstOrder.of_key DDate.IsNull
    (fun a => toLex (a.mYear, toLex (a.mMonth, a.mDay))) _ _ _ _ _ _ ?_ ?_
    (fun _ _ => rfl) (fun _ _ => rfl) (fun _ _ => rfl) (fun _ _ => rfl)
  · rintro ⟨y, m, d, _ | _⟩ ⟨y2, m2, d2, _ | _⟩ <;>
      simp only [DDate.lt, DDate.IsNull, Prod.Lex.lt_iff] <;> simp
  · rintro ⟨y, m, d, _ | _⟩ ⟨y2, m2, d2, _ | _⟩ <;>
      simp [DDate.eq, DDate.IsNull, and_assoc]

theorem DDateTime_order : NullsFirstOrder DDateTime.IsNull DDateTime.lt DDateTime.eq
    DDateTime.le DDateTime.ne DDateTime.gt DDateTime.ge := by
  refine NullsFirstOrder.of_key DDateTime.IsNull
    (fun a => toLex (a.mYear, toLex (a.mMonth, toLex (a.mDay, toLex (a.mHour,
      toLex (a.mMinutes, a.mSeconds))))))
    _ _ _ _ _ _ ?_ ?_ (fun _ _ => rfl) (fun _ _ => rfl) (fun _ _ => rfl) (fun _ _ => rfl)
  · rintro ⟨y, m, d, h, mi, se, _ | _⟩ ⟨y2, m2, d2, h2, mi2, se2, _ | _⟩ <;>
      simp only [DDateTime.lt, DDateTime.IsNull, Prod.Lex.lt_iff] <;> simp
  · rintro ⟨y, m, d, h, mi, se, _ | _⟩ ⟨y2, m2, d2, h2, mi2, se2, _ | _⟩ <;>
      simp [DDateTime.eq, DDateTime.IsNull, and_assoc]

theorem DHiresTime_order : NullsFirstOrder DHiresTime.IsNull DHiresTime.lt DHiresTime.eq
    DHiresTime.le DHiresTime.ne DHiresTime.gt DHiresTime.ge := by
  refine NullsFirstOrder.of_key DHiresTime.IsNull
    (fun a => toLex (a.mYear, toLex (a.mMonth, toLex (a.mDay, toLex (a.mHour,
      toLex (a.mMinutes, toLex (a.mSeconds, a.mMicrosec)))))))
    _ _ _ _ _ _ ?_ ?_ (fun _ _ => rfl) (fun _ _ => rfl) (fun _ _ => rfl) (fun _ _ => rfl)
  · rintro ⟨us, y, m, d, h, mi, se, _ | _⟩ ⟨us2, y2, m2, d2, h2, mi2, se2, _ | _⟩ <;>
      simp only [DHiresTime.lt, DHiresTime.IsNull, Prod.Lex.lt_iff] <;> simp
  · rintro ⟨us, y, m, d, h, mi, se, _ | _⟩ ⟨us2, y2, m2, d2, h2, mi2, se2, _ | _⟩ <;>
      simp [DHiresTime.eq, DHiresTime.IsNull, and_assoc]

/-- C29: for `DBool`, `DDate`, `DDateTime`, `DHiresTime` and the eight integer
structs `DInt8`, ..., `DUInt64`, `operator<` is irreflexive and transitive, of
`a < b`, `a == b` and `b < a` exactly one holds, a null value is below every
value that is not null and two null values are equal, and `<=`, `>`, `>=` and
`!=` are what `<` and `==` make them. -/
theorem scalar_values_nulls_first_order :
    NullsFirstOrder DBool.IsNull DBool.lt DBool.eq DBool.le DBool.ne DBool.gt DBool.ge ∧
    NullsFirstOrder DDate.IsNull DDate.lt DDate.eq DDate.le DDate.ne DDate.gt DDate.ge ∧
    NullsFirstOrder DDateTime.IsNull DDateTime.lt DDateTime.eq DDateTime.le DDateTime.ne
      DDateTime.gt DDateTime.ge ∧
    NullsFirstOrder DHiresTime.IsNull DHiresTime.lt DHiresTime.eq DHiresTime.le DHiresTime.ne
      DHiresTime.gt DHiresTime.ge ∧
    ∀ T : IntegerType, NullsFirstOrder (DInteger.IsNull (T := T)) DInteger.lt DInteger.eq
      DInteger.le DInteger.ne DInteger.gt DInteger.ge :=
  ⟨DBool_order, DDate_order, DDateTime_order, DHiresTime_order, DInteger_order⟩

end whais
/-! ## The wire form of the values: lemmas on `printf`, `read_integer` and the dates -/

namespace whais
namespace Utf8Translator
open pastra

theorem decimalAux_append : ∀ (fuel n : Nat) (acc : List Byte),
    decimalAux fuel n acc = decimalAux fuel n [] ++ acc := by
  intro fuel
  induction fuel with
  | zero => intro n acc; rfl
  | succ fuel ih =>
    intro n acc
    unfold decimalAux
    by_cases h : n < 10
    · rw [if_pos h, if_pos h]; rfl
    · rw [if_neg h, if_neg h, ih (n / 10) ((48 + n % 10) :: acc), ih (n / 10) [48 + n % 10],
        List.append_assoc]
      rfl

theorem decimalAux_fuel : ∀ (fuel1 fuel2 n : Nat) (acc : List Byte), n < fuel1 → n < fuel2 →
    decimalAux fuel1 n acc = decimalAux fuel2 n acc := by
  intro fuel1
  induction fuel1 with
  | zero => intro fuel2 n acc h; omega
  | succ fuel1 ih =>
    intro fuel2 n acc h1 h2
    cases fuel2 with
    | zero => omega
    | succ fuel2 =>
      unfold decimalAux
      by_cases h : n < 10
      · rw [if_pos h, if_pos h]
      · rw [if_neg h, if_neg h]
        exact ih fuel2 (n / 10) _ (by omega) (by omega)

theorem decimal_lt (n : Nat) (h : n < 10) : decimal n = [48 + n] := by
  unfold decimal decimalAux
  rw [if_pos h]

theorem decimal_ge (n : Nat) (h : 10 ≤ n) : decimal n = decimal (n / 10) ++ [48 + n % 10] := by
  unfold decimal
  rw [decimalAux, if_neg (by omega), decimalAux_append,
    decimalAux_fuel n (n / 10 + 1) (n / 10) [] (by omega) (by omega)]

theorem decimal_digits (n : Nat) : ∀ c ∈ decimal n, 48 ≤ (c : Nat) ∧ (c : Nat) ≤ 57 := by
  induction n using Nat.strong_induction_on with
  | _ n ih =>
    by_cases h : n < 10
    · rw [decimal_lt n h]
      intro c hc
      rw [List.mem_singleton] at hc
      subst hc
      show (48 : Nat) ≤ 48 + n ∧ 48 + n ≤ (57 : Nat)
      omega
    · rw [decimal_ge n (by omega)]
      intro c hc
      rcases List.mem_append.1 hc with hc | hc
      · exact ih (n / 10) (by omega) c hc
      · rw [List.mem_singleton] at hc
        subst hc
        show (48 : Nat) ≤ 48 + n % 10 ∧ 48 + n % 10 ≤ (57 : Nat)
        omega

theorem decimal_length_pos (n : Nat) : 0 < (decimal n).length := by
  by_cases h : n < 10
  · rw [decimal_lt n h]; exact Nat.one_pos
  · rw [decimal_ge n (by omega), List.length_append]
    exact Nat.lt_of_lt_of_le Nat.one_pos (Nat.le_add_left _ _)

theorem decimal_length_le (n : Nat) : (decimal n).length ≤ n + 1 := by
  induction n using Nat.strong_induction_on with
  | _ n ih =>
    by_cases h : n < 10
    · rw [decimal_lt n h]
      exact Nat.succ_le_succ (Nat.zero_le _)
    · rw [decimal_ge n (by omega), List.length_append]
      have := ih (n / 10) (by omega)
      simp only [List.length_singleton]
      omega

theorem wrap64_of_range (x : Int) (h1 : -(2 ^ 63) ≤ x) (h2 : x < 2 ^ 63) : wrap64 x = x := by
  unfold wrap64 IntegerType.convert
  simp only [IntegerType.signed, IntegerType.bits, if_true]
  omega

/-- The loop over digits followed by a character that is no digit. -/
theorem readDigits_append (rest : List Byte)
    (hrest : ∀ c ∈ rest.head?, ¬ (48 ≤ (c : Nat) ∧ (c : Nat) ≤ 57)) :
    ∀ (l : List Byte) (result : Int) (count : Nat) (precision : Int),
    (∀ c ∈ l, 48 ≤ (c : Nat) ∧ (c : Nat) ≤ 57) →
    ∃ precision2, readDigits (l ++ rest) result count precision =
      (l.foldl (fun (r : Int) (d : Byte) => wrap64 (wrap64 (r * 10) + ((d : Int) - 48))) result,
        count + l.length, precision2, rest) := by
  intro l
  induction l with
  | nil =>
    intro result count precision _
    refine ⟨precision, ?_⟩
    cases rest with
    | nil => rfl
    | cons c rest =>
      rw [List.nil_append, readDigits, if_neg (hrest c (by simp))]
      rfl
  | cons d l ih =>
    intro result count precision h
    obtain ⟨p2, hp⟩ := ih (wrap64 (wrap64 (result * 10) + ((d : Int) - 48))) (count + 1)
      (wrap64 (precision * 10)) (fun c hc => h c (List.mem_cons_of_mem _ hc))
    refine ⟨p2, ?_⟩
    rw [List.cons_append, readDigits, if_pos (h d (List.mem_cons_self _ _)), hp,
      List.foldl_cons, List.length_cons]
    congr 2
    omega

theorem foldl_decimal (n : Nat) (h : n < 2 ^ 63) :
    (decimal n).foldl (fun (r : Int) (d : Byte) => wrap64 (wrap64 (r * 10) + ((d : Int) - 48))) 0 = n := by
  induction n using Nat.strong_induction_on with
  | _ n ih =>
    by_cases h10 : n < 10
    · rw [decimal_lt n h10, List.foldl_cons, List.foldl_nil, Int.zero_mul,
        wrap64_of_range 0 (by omega) (by omega)]
      have hc : (((48 + n : Nat) : Int) - 48) = n := by omega
      rw [Int.zero_add, hc, wrap64_of_range _ (by omega) (by omega)]
    · rw [decimal_ge n (by omega), List.foldl_append, ih (n / 10) (by omega) (by omega),
        List.foldl_cons, List.foldl_nil,
        wrap64_of_range (((n / 10 : Nat) : Int) * 10) (by omega) (by omega)]
      have hc : ((n / 10 : Nat) : Int) * 10 + (((48 + n % 10 : Nat) : Int) - 48) = n := by omega
      rw [hc, wrap64_of_range _ (by omega) (by omega)]

theorem printf_d_length_pos (v : Int) : 0 < (printf_d v).length := by
  unfold printf_d
  split
  · exact Nat.succ_pos _
  · exact decimal_length_pos _

theorem printf_d_length_le (v : Int) : (printf_d v).length ≤ v.natAbs + 2 := by
  unfold printf_d
  have := decimal_length_le v.natAbs
  split
  · rw [List.length_cons]; omega
  · omega

theorem head_decimal (n : Nat) (rest : List Byte) :
    48 ≤ ((decimal n ++ rest).getD 0 0 : Nat) ∧ ((decimal n ++ rest).getD 0 0 : Nat) ≤ 57 := by
  have hpos := decimal_length_pos n
  have hd := decimal_digits n
  cases hdec : decimal n with
  | nil => rw [hdec] at hpos; exact absurd hpos (Nat.lt_irrefl 0)
  | cons c l =>
    rw [hdec] at hd
    exact hd c (List.mem_cons_self _ _)

/-- `read_integer` on what `%d` prints, before a character that is no digit. -/
theorem read_integer_printf_d (v : Int) (rest : List Byte)
    (hrest : ∀ c ∈ rest.head?, ¬ (48 ≤ (c : Nat) ∧ (c : Nat) ≤ 57)) (h1 : -(2 ^ 63) < v)
    (h2 : v < 2 ^ 63)
    (hlen : (printf_d v).length < 2 ^ 32) :
    read_integer (printf_d v ++ rest) = (v, (printf_d v).length) := by
  unfold read_integer
  by_cases hv : v < 0
  · have hp : printf_d v = 45 :: decimal v.natAbs := by unfold printf_d; rw [if_pos hv]
    rw [hp] at hlen ⊢
    have hhead := head_decimal v.natAbs rest
    obtain ⟨p2, hrun⟩ := readDigits_append rest hrest (decimal v.natAbs) 0 1 1 (decimal_digits _)
    simp only [List.cons_append, List.getD_cons_zero, if_true, List.drop_succ_cons, List.drop_zero]
    have hdigit : ¬ ((decimal v.natAbs ++ rest).getD 0 0 < 48 ∨
        (decimal v.natAbs ++ rest).getD 0 0 > 57) := by
      rintro (h | h)
      · exact absurd hhead.1 (Nat.not_le_of_lt h)
      · exact absurd hhead.2 (Nat.not_le_of_lt h)
    rw [if_neg hdigit, hrun, foldl_decimal _ (by omega)]
    simp only [List.length_cons] at hlen ⊢
    rw [wrap64_of_range _ (by omega) (by omega), Nat.mod_eq_of_lt (by omega)]
    refine Prod.ext ?_ ?_
    · show ((v.natAbs : Int)) * -1 = v
      omega
    · show 1 + (decimal v.natAbs).length = (decimal v.natAbs).length + 1
      omega
  · have hp : printf_d v = decimal v.natAbs := by unfold printf_d; rw [if_neg hv]
    rw [hp] at hlen ⊢
    have hhead := head_decimal v.natAbs rest
    obtain ⟨p2, hrun⟩ := readDigits_append rest hrest (decimal v.natAbs) 0 0 1 (decimal_digits _)
    have h45 : ¬ ((decimal v.natAbs ++ rest).getD 0 0 = 45) := by
      intro h
      rw [h] at hhead
      exact absurd hhead.1 (by decide)
    rw [if_neg h45, hrun, foldl_decimal _ (by omega)]
    simp only
    rw [Nat.zero_add, Nat.mod_eq_of_lt hlen]
    refine Prod.ext ?_ rfl
    show ((v.natAbs : Int)) = v
    omega

end Utf8Translator
end whais

namespace whais
namespace Utf8Translator
open pastra

theorem getD_append_sep (pre l rest : List Byte) (sep : Byte) :
    (pre ++ (l ++ sep :: rest)).getD (pre.length + l.length) 0 = sep := by
  rw [← List.append_assoc, List.getD_eq_getElem?_getD,
    List.getElem?_append_right (by rw [List.length_append]),
    List.length_append, Nat.sub_self]
  simp

theorem head_printf_d (v : Int) (rest : List Byte) : (printf_d v ++ rest).getD 0 0 ≠ 0 := by
  unfold printf_d
  split
  · simp
  · have := (head_decimal v.natAbs rest).1
    intro h
    rw [h] at this
    exact absurd this (by decide)

/-- One component of a date: the number that `%d` printed is read back, and the
position moves past the separator. -/
theorem readComponent_spec (utf8Src pre rest : List Byte) (v : Int) (sep : Byte)
    (srcSize result : Nat) (hsrc : utf8Src = pre ++ (printf_d v ++ sep :: rest))
    (hpos : result = pre.length) (hsep : ¬ (48 ≤ (sep : Nat) ∧ (sep : Nat) ≤ 57))
    (h1 : -(2 ^ 63) < v) (h2 : v < 2 ^ 63)
    (hsize : result + (printf_d v).length + 1 ≤ srcSize)
    (h32 : result + (printf_d v).length + 1 < 2 ^ 32) :
    readComponent utf8Src srcSize result sep = some (result + (printf_d v).length + 1, v) := by
  have hlen := printf_d_length_pos v
  unfold readComponent
  rw [hsrc, hpos, List.drop_left,
    read_integer_printf_d v (sep :: rest) (by simpa using hsep) h1 h2 (by omega)]
  simp only
  have hc : ¬ ((printf_d v).length = 0 ∨ sep ≠ sep ∨
      pre.length + (printf_d v).length + 1 > srcSize) := by
    rintro (h | h | h)
    · omega
    · exact h rfl
    · omega
  rw [Nat.mod_eq_of_lt (by omega), getD_append_sep, Nat.mod_eq_of_lt (by omega), if_neg hc]

theorem WriteText_spec (maxSize : Nat) (text : List Byte) (h32 : text.length < 2 ^ 32)
    (h : (WriteText maxSize text).2 ≠ 0) :
    WriteText maxSize text = (text ++ [0], text.length + 1) ∧ text.length < maxSize := by
  unfold WriteText snprintf at h ⊢
  simp only at h ⊢
  rw [Nat.mod_eq_of_lt h32] at h ⊢
  by_cases hm : text.length ≥ maxSize
  · rw [if_pos hm] at h
    exact absurd rfl h
  · rw [if_neg hm, if_neg (by omega), List.take_of_length_le (by omega)]
    exact ⟨rfl, by omega⟩

theorem convert_int32 (v : Int) (h1 : -(2 ^ 31) ≤ v) (h2 : v < 2 ^ 31) :
    IntegerType.int32.convert v = v := by
  unfold IntegerType.convert
  simp only [IntegerType.signed, IntegerType.bits, if_true]
  omega

theorem convert_int16_range (v : Int) (h : IntegerType.int16.convert v = v) :
    -(2 ^ 15) ≤ v ∧ v < 2 ^ 15 := by
  unfold IntegerType.convert at h
  simp only [IntegerType.signed, IntegerType.bits, if_true] at h
  omega

theorem convert_uint8 (n : Nat) (h : n < 256) : (IntegerType.uint8.convert n).toNat = n := by
  unfold IntegerType.convert
  simp only [IntegerType.signed, IntegerType.bits, Bool.false_eq_true, if_false]
  omega

theorem convert_uint32 (n : Nat) (h : n < 2 ^ 32) :
    (IntegerType.uint32.convert n).toNat = n := by
  unfold IntegerType.convert
  simp only [IntegerType.signed, IntegerType.bits, Bool.false_eq_true, if_false]
  omega

end Utf8Translator
end whais

namespace whais
namespace Utf8Translator
open pastra

theorem Read_Write_DBSDate (V : ValueParams) (v : DDate) (maxSize srcSize : Nat)
    (hnull : v.mIsNull = false) (hvalid : DDate.make V v.mYear v.mMonth v.mDay = .ok v)
    (hm : v.mMonth < 256) (hd : v.mDay < 256)
    (hw : (Write_DBSDate maxSize v).2 ≠ 0) (hs : (Write_DBSDate maxSize v).2 ≤ srcSize) :
    Read_DBSDate V (Write_DBSDate maxSize v).1 srcSize =
      .ok ((Write_DBSDate maxSize v).2, some v) := by
  obtain ⟨y, m, d, n⟩ := v
  simp only at hnull hvalid hm hd
  subst hnull
  have hy : -(2 ^ 15) ≤ y ∧ y < 2 ^ 15 := by
    unfold DDate.make at hvalid
    by_cases c : IntegerType.int16.convert y = y ∧ V.is_valid_date y m d = true
    · exact convert_int16_range y c.1
    · rw [if_neg c] at hvalid
      exact Except.noConfusion hvalid
  have ly : (printf_d y).length ≤ 32770 := by
    have := printf_d_length_le y
    omega
  have lm : (printf_d (m : Int)).length ≤ 258 := by
    have := printf_d_length_le (m : Int)
    rw [Int.natAbs_ofNat] at this
    omega
  have ld : (printf_d (d : Int)).length ≤ 258 := by
    have := printf_d_length_le (d : Int)
    rw [Int.natAbs_ofNat] at this
    omega
  have py := printf_d_length_pos y
  have pm := printf_d_length_pos (m : Int)
  have pd := printf_d_length_pos (d : Int)
  have hmax : maxSize ≠ 0 := by
    intro c
    rw [c] at hw
    exact hw rfl
  have hwrite : Write_DBSDate maxSize ⟨y, m, d, false⟩ =
      WriteText maxSize (printf_d y ++ [47] ++ printf_d m ++ [47] ++ printf_d d) := by
    unfold Write_DBSDate
    rw [if_neg hmax]
    rfl
  rw [hwrite] at hw hs ⊢
  have hlen : (printf_d y ++ [47] ++ printf_d m ++ [47] ++ printf_d d).length =
      (printf_d y).length + 1 + (printf_d m).length + 1 + (printf_d d).length := by
    simp only [List.length_append, List.length_singleton]
  obtain ⟨hout, hfit⟩ := WriteText_spec maxSize _ (by rw [hlen]; omega) hw
  rw [hout] at hs ⊢
  simp only at hs ⊢
  rw [hlen] at hs ⊢
  rw [hlen] at hfit
  clear hw hlen hout
  have e0 : printf_d y ++ [47] ++ printf_d m ++ [47] ++ printf_d d ++ [0] =
      [] ++ (printf_d y ++ 47 :: (printf_d m ++ 47 :: (printf_d d ++ [0]))) := by
    simp
  have e1 : printf_d y ++ [47] ++ printf_d m ++ [47] ++ printf_d d ++ [0] =
      (printf_d y ++ [47]) ++ (printf_d m ++ 47 :: (printf_d d ++ [0])) := by
    simp
  have e2 : printf_d y ++ [47] ++ printf_d m ++ [47] ++ printf_d d ++ [0] =
      (printf_d y ++ [47] ++ printf_d m ++ [47]) ++ (printf_d d ++ 0 :: []) := by
    simp
  have c0 := readComponent_spec _ [] _ y 47 srcSize 0 e0 rfl (by decide) (by omega) (by omega)
    (by omega) (by omega)
  have c1 := readComponent_spec _ (printf_d y ++ [47]) _ (m : Int) 47 srcSize
    (0 + (printf_d y).length + 1) e1 (by simp only [List.length_append, List.length_singleton]; omega) (by decide) (by omega) (by omega)
    (by omega) (by omega)
  have c2 := readComponent_spec _ (printf_d y ++ [47] ++ printf_d m ++ [47]) _ (d : Int) 0 srcSize
    (0 + (printf_d y).length + 1 + (printf_d m).length + 1) e2 (by simp only [List.length_append, List.length_singleton]; omega) (by decide)
    (by omega) (by omega) (by omega) (by omega)
  unfold Read_DBSDate
  rw [if_neg (by omega), if_neg (by rw [e0, List.nil_append]; exact head_printf_d y _)]
  simp only [c0, c1, c2]
  rewrite [convert_int32 y (by omega) (by omega), convert_uint8 m hm, convert_uint8 d hd, hvalid]
  simp only [Nat.zero_add]

end Utf8Translator
end whais

namespace whais
namespace Utf8Translator
open pastra

theorem Read_Write_DBSDateTime (V : ValueParams) (v : DDateTime) (maxSize srcSize : Nat)
    (hnull : v.mIsNull = false)
    (hvalid : DDateTime.make V v.mYear v.mMonth v.mDay v.mHour v.mMinutes v.mSeconds = .ok v)
    (hm : v.mMonth < 256) (hd : v.mDay < 256) (hho : v.mHour < 256) (hmi : v.mMinutes < 256) (hse : v.mSeconds < 256)
    (hw : (Write_DBSDateTime maxSize v).2 ≠ 0) (hsize : (Write_DBSDateTime maxSize v).2 ≤ srcSize) :
    Read_DBSDateTime V (Write_DBSDateTime maxSize v).1 srcSize =
      .ok ((Write_DBSDateTime maxSize v).2, some v) := by
  obtain ⟨y, m, d, ho, mi, se, n⟩ := v
  simp only at hnull hvalid hm hd hho hmi hse
  subst hnull
  have hy : -(2 ^ 15) ≤ y ∧ y < 2 ^ 15 := by
    unfold DDateTime.make at hvalid
    by_cases c : IntegerType.int16.convert y = y ∧ V.is_valid_datetime y m d ho mi se = true
    · exact convert_int16_range y c.1
    · rw [if_neg c] at hvalid
      exact Except.noConfusion hvalid
  rw [show Write_DBSDateTime maxSize ⟨y, m, d, ho, mi, se, false⟩ =
      (if maxSize = 0 then ([], 0) else WriteText maxSize (printf_d y ++ [47] ++ printf_d (m : Int) ++ [47] ++ printf_d (d : Int) ++ [32] ++ printf_d (ho : Int) ++ [58] ++ printf_d (mi : Int) ++ [58] ++ printf_d (se : Int))) from rfl] at hw hsize ⊢
  have hmax : maxSize ≠ 0 := by
    intro c
    rw [c] at hw
    exact hw rfl
  rw [if_neg hmax] at hw hsize ⊢
  have l0 : (printf_d y).length ≤ 32770 := by
    have := printf_d_length_le y
    omega
  have p0 := printf_d_length_pos (y)
  have l1 : (printf_d (m : Int)).length ≤ 258 := by
    have := printf_d_length_le (m : Int)
    rw [Int.natAbs_ofNat] at this
    omega
  have p1 := printf_d_length_pos ((m : Int))
  have l2 : (printf_d (d : Int)).length ≤ 258 := by
    have := printf_d_length_le (d : Int)
    rw [Int.natAbs_ofNat] at this
    omega
  have p2 := printf_d_length_pos ((d : Int))
  have l3 : (printf_d (ho : Int)).length ≤ 258 := by
    have := printf_d_length_le (ho : Int)
    rw [Int.natAbs_ofNat] at this
    omega
  have p3 := printf_d_length_pos ((ho : Int))
  have l4 : (printf_d (mi : Int)).length ≤ 258 := by
    have := printf_d_length_le (mi : Int)
    rw [Int.natAbs_ofNat] at this
    omega
  have p4 := printf_d_length_pos ((mi : Int))
  have l5 : (printf_d (se : Int)).length ≤ 258 := by
    have := printf_d_length_le (se : Int)
    rw [Int.natAbs_ofNat] at this
    omega
  have p5 := printf_d_length_pos ((se : Int))
  have hlen : (printf_d y ++ [47] ++ printf_d (m : Int) ++ [47] ++ printf_d (d : Int) ++ [32] ++ printf_d (ho : Int) ++ [58] ++ printf_d (mi : Int) ++ [58] ++ printf_d (se : Int)).length =
      (printf_d y).length + 1 + (printf_d (m : Int)).length + 1 + (printf_d (d : Int)).length + 1 + (printf_d (ho : Int)).length + 1 + (printf_d (mi : Int)).length + 1 + (printf_d (se : Int)).length := by
    simp only [List.length_append, List.length_singleton]
  obtain ⟨hout, hfit⟩ := WriteText_spec maxSize _ (by rw [hlen]; omega) hw
  rw [hout] at hsize ⊢
  simp only at hsize ⊢
  rw [hlen] at hsize ⊢
  rw [hlen] at hfit
  clear hw hlen hout
  have e0 : printf_d y ++ [47] ++ printf_d (m : Int) ++ [47] ++ printf_d (d : Int) ++ [32] ++ printf_d (ho : Int) ++ [58] ++ printf_d (mi : Int) ++ [58] ++ printf_d (se : Int) ++ [0] =
      [] ++ (printf_d y ++ 47 :: (printf_d (m : Int) ++ 47 :: (printf_d (d : Int) ++ 32 :: (printf_d (ho : Int) ++ 58 :: (printf_d (mi : Int) ++ 58 :: (printf_d (se : Int) ++ [0])))))) := by
    simp
  have e1 : printf_d y ++ [47] ++ printf_d (m : Int) ++ [47] ++ printf_d (d : Int) ++ [32] ++ printf_d (ho : Int) ++ [58] ++ printf_d (mi : Int) ++ [58] ++ printf_d (se : Int) ++ [0] =
      (printf_d y ++ [47]) ++ (printf_d (m : Int) ++ 47 :: (printf_d (d : Int) ++ 32 :: (printf_d (ho : Int) ++ 58 :: (printf_d (mi : Int) ++ 58 :: (printf_d (se : Int) ++ [0]))))) := by
    simp
  have e2 : printf_d y ++ [47] ++ printf_d (m : Int) ++ [47] ++ printf_d (d : Int) ++ [32] ++ printf_d (ho : Int) ++ [58] ++ printf_d (mi : Int) ++ [58] ++ printf_d (se : Int) ++ [0] =
      (printf_d y ++ [47] ++ printf_d (m : Int) ++ [47]) ++ (printf_d (d : Int) ++ 32 :: (printf_d (ho : Int) ++ 58 :: (printf_d (mi : Int) ++ 58 :: (printf_d (se : Int) ++ [0])))) := by
    simp
  have e3 : printf_d y ++ [47] ++ printf_d (m : Int) ++ [47] ++ printf_d (d : Int) ++ [32] ++ printf_d (ho : Int) ++ [58] ++ printf_d (mi : Int) ++ [58] ++ printf_d (se : Int) ++ [0] =
      (printf_d y ++ [47] ++ printf_d (m : Int) ++ [47] ++ printf_d (d : Int) ++ [32]) ++ (printf_d (ho : Int) ++ 58 :: (printf_d (mi : Int) ++ 58 :: (printf_d (se : Int) ++ [0]))) := by
    simp
  have e4 : printf_d y ++ [47] ++ printf_d (m : Int) ++ [47] ++ printf_d (d : Int) ++ [32] ++ printf_d (ho : Int) ++ [58] ++ printf_d (mi : Int) ++ [58] ++ printf_d (se : Int) ++ [0] =
      (printf_d y ++ [47] ++ printf_d (m : Int) ++ [47] ++ printf_d (d : Int) ++ [32] ++ printf_d (ho : Int) ++ [58]) ++ (printf_d (mi : Int) ++ 58 :: (printf_d (se : Int) ++ [0])) := by
    simp
  have e5 : printf_d y ++ [47] ++ printf_d (m : Int) ++ [47] ++ printf_d (d : Int) ++ [32] ++ printf_d (ho : Int) ++ [58] ++ printf_d (mi : Int) ++ [58] ++ printf_d (se : Int) ++ [0] =
      (printf_d y ++ [47] ++ printf_d (m : Int) ++ [47] ++ printf_d (d : Int) ++ [32] ++ printf_d (ho : Int) ++ [58] ++ printf_d (mi : Int) ++ [58]) ++ (printf_d (se : Int) ++ [0]) := by
    simp
  have c0 := readComponent_spec _ [] _ y 47 srcSize
    (0) e0 rfl (by decide) (by omega) (by omega) (by omega) (by omega)
  have c1 := readComponent_spec _ (printf_d y ++ [47]) _ (m : Int) 47 srcSize
    (0 + (printf_d y).length + 1) e1 (by simp only [List.length_append, List.length_singleton]; omega) (by decide) (by omega) (by omega) (by omega) (by omega)
  have c2 := readComponent_spec _ (printf_d y ++ [47] ++ printf_d (m : Int) ++ [47]) _ (d : Int) 32 srcSize
    (0 + (printf_d y).length + 1 + (printf_d (m : Int)).length + 1) e2 (by simp only [List.length_append, List.length_singleton]; omega) (by decide) (by omega) (by omega) (by omega) (by omega)
  have c3 := readComponent_spec _ (printf_d y ++ [47] ++ printf_d (m : Int) ++ [47] ++ printf_d (d : Int) ++ [32]) _ (ho : Int) 58 srcSize
    (0 + (printf_d y).length + 1 + (printf_d (m : Int)).length + 1 + (printf_d (d : Int)).length + 1) e3 (by simp only [List.length_append, List.length_singleton]; omega) (by decide) (by omega) (by omega) (by omega) (by omega)
  have c4 := readComponent_spec _ (printf_d y ++ [47] ++ printf_d (m : Int) ++ [47] ++ printf_d (d : Int) ++ [32] ++ printf_d (ho : Int) ++ [58]) _ (mi : Int) 58 srcSize
    (0 + (printf_d y).length + 1 + (printf_d (m : Int)).length + 1 + (printf_d (d : Int)).length + 1 + (printf_d (ho : Int)).length + 1) e4 (by simp only [List.length_append, List.length_singleton]; omega) (by decide) (by omega) (by omega) (by omega) (by omega)
  have c5 := readComponent_spec _ (printf_d y ++ [47] ++ printf_d (m : Int) ++ [47] ++ printf_d (d : Int) ++ [32] ++ printf_d (ho : Int) ++ [58] ++ printf_d (mi : Int) ++ [58]) _ (se : Int) 0 srcSize
    (0 + (printf_d y).length + 1 + (printf_d (m : Int)).length + 1 + (printf_d (d : Int)).length + 1 + (printf_d (ho : Int)).length + 1 + (printf_d (mi : Int)).length + 1) e5 (by simp only [List.length_append, List.length_singleton]; omega) (by decide) (by omega) (by omega) (by omega) (by omega)
  unfold Read_DBSDateTime
  rw [if_neg (by omega), if_neg (by rw [e0, List.nil_append]; exact head_printf_d y _)]
  simp only [c0, c1, c2, c3, c4, c5]
  rewrite [convert_int32 y (by omega) (by omega), convert_uint8 m hm, convert_uint8 d hd, convert_uint8 ho hho, convert_uint8 mi hmi, convert_uint8 se hse, hvalid]
  simp only [Nat.zero_add]

end Utf8Translator
end whais

namespace whais
namespace Utf8Translator
open pastra

theorem Read_Write_DBSHiresTime (V : ValueParams) (v : DHiresTime) (maxSize srcSize : Nat)
    (hnull : v.mIsNull = false)
    (hvalid : DHiresTime.make V v.mYear v.mMonth v.mDay v.mHour v.mMinutes v.mSeconds v.mMicrosec = .ok v)
    (hm : v.mMonth < 256) (hd : v.mDay < 256) (hho : v.mHour < 256) (hmi : v.mMinutes < 256) (hse : v.mSeconds < 256) (hus : v.mMicrosec < 1000000)
    (hw : (Write_DBSHiresTime maxSize v).2 ≠ 0) (hsize : (Write_DBSHiresTime maxSize v).2 ≤ srcSize) :
    Read_DBSHiresTime V (Write_DBSHiresTime maxSize v).1 srcSize =
      .ok ((Write_DBSHiresTime maxSize v).2, some v) := by
  obtain ⟨us, y, m, d, ho, mi, se, n⟩ := v
  simp only at hnull hvalid hm hd hho hmi hse hus
  subst hnull
  have hy : -(2 ^ 15) ≤ y ∧ y < 2 ^ 15 := by
    unfold DHiresTime.make at hvalid
    by_cases c : IntegerType.int16.convert y = y ∧ V.is_valid_hiresdate y m d ho mi se us = true
    · exact convert_int16_range y c.1
    · rw [if_neg c] at hvalid
      exact Except.noConfusion hvalid
  have u3 : us < 2 ^ 32 := by omega
  have u1 : -(2 ^ 63) < (us : Int) := by omega
  have u2 : (us : Int) < 2 ^ 63 := by omega
  have hcus : IntegerType.int32.convert (us : Int) = (us : Int) :=
    convert_int32 _ (by omega) (by omega)
  rw [show Write_DBSHiresTime maxSize ⟨us, y, m, d, ho, mi, se, false⟩ =
      (if maxSize = 0 then ([], 0) else WriteText maxSize (printf_d y ++ [47] ++ printf_d (m : Int) ++ [47] ++ printf_d (d : Int) ++ [32] ++ printf_d (ho : Int) ++ [58] ++ printf_d (mi : Int) ++ [58] ++ printf_d (se : Int) ++ [46] ++ printf_d (IntegerType.int32.convert (us : Int)))) from rfl] at hw hsize ⊢
  have hmax : maxSize ≠ 0 := by
    intro c
    rw [c] at hw
    exact hw rfl
  rw [if_neg hmax] at hw hsize ⊢
  rw [hcus] at hw hsize ⊢
  have l0 : (printf_d y).length ≤ 32770 := by
    have := printf_d_length_le y
    omega
  have p0 := printf_d_length_pos (y)
  have l1 : (printf_d (m : Int)).length ≤ 258 := by
    have := printf_d_length_le (m : Int)
    rw [Int.natAbs_ofNat] at this
    omega
  have p1 := printf_d_length_pos ((m : Int))
  have l2 : (printf_d (d : Int)).length ≤ 258 := by
    have := printf_d_length_le (d : Int)
    rw [Int.natAbs_ofNat] at this
    omega
  have p2 := printf_d_length_pos ((d : Int))
  have l3 : (printf_d (ho : Int)).length ≤ 258 := by
    have := printf_d_length_le (ho : Int)
    rw [Int.natAbs_ofNat] at this
    omega
  have p3 := printf_d_length_pos ((ho : Int))
  have l4 : (printf_d (mi : Int)).length ≤ 258 := by
    have := printf_d_length_le (mi : Int)
    rw [Int.natAbs_ofNat] at this
    omega
  have p4 := printf_d_length_pos ((mi : Int))
  have l5 : (printf_d (se : Int)).length ≤ 258 := by
    have := printf_d_length_le (se : Int)
    rw [Int.natAbs_ofNat] at this
    omega
  have p5 := printf_d_length_pos ((se : Int))
  have l6 : (printf_d (us : Int)).length ≤ 1000002 := by
    have := printf_d_length_le (us : Int)
    rw [Int.natAbs_ofNat] at this
    omega
  have p6 := printf_d_length_pos ((us : Int))
  have hlen : (printf_d y ++ [47] ++ printf_d (m : Int) ++ [47] ++ printf_d (d : Int) ++ [32] ++ printf_d (ho : Int) ++ [58] ++ printf_d (mi : Int) ++ [58] ++ printf_d (se : Int) ++ [46] ++ printf_d (us : Int)).length =
      (printf_d y).length + 1 + (printf_d (m : Int)).length + 1 + (printf_d (d : Int)).length + 1 + (printf_d (ho : Int)).length + 1 + (printf_d (mi : Int)).length + 1 + (printf_d (se : Int)).length + 1 + (printf_d (us : Int)).length := by
    simp only [List.length_append, List.length_singleton]
  obtain ⟨hout, hfit⟩ := WriteText_spec maxSize _ (by rw [hlen]; omega) hw
  rw [hout] at hsize ⊢
  simp only at hsize ⊢
  rw [hlen] at hsize ⊢
  rw [hlen] at hfit
  clear hw hlen hout
  have e0 : printf_d y ++ [47] ++ printf_d (m : Int) ++ [47] ++ printf_d (d : Int) ++ [32] ++ printf_d (ho : Int) ++ [58] ++ printf_d (mi : Int) ++ [58] ++ printf_d (se : Int) ++ [46] ++ printf_d (us : Int) ++ [0] =
      [] ++ (printf_d y ++ 47 :: (printf_d (m : Int) ++ 47 :: (printf_d (d : Int) ++ 32 :: (printf_d (ho : Int) ++ 58 :: (printf_d (mi : Int) ++ 58 :: (printf_d (se : Int) ++ 46 :: (printf_d (us : Int) ++ [0]))))))) := by
    simp
  have e1 : printf_d y ++ [47] ++ printf_d (m : Int) ++ [47] ++ printf_d (d : Int) ++ [32] ++ printf_d (ho : Int) ++ [58] ++ printf_d (mi : Int) ++ [58] ++ printf_d (se : Int) ++ [46] ++ printf_d (us : Int) ++ [0] =
      (printf_d y ++ [47]) ++ (printf_d (m : Int) ++ 47 :: (printf_d (d : Int) ++ 32 :: (printf_d (ho : Int) ++ 58 :: (printf_d (mi : Int) ++ 58 :: (printf_d (se : Int) ++ 46 :: (printf_d (us : Int) ++ [0])))))) := by
    simp
  have e2 : printf_d y ++ [47] ++ printf_d (m : Int) ++ [47] ++ printf_d (d : Int) ++ [32] ++ printf_d (ho : Int) ++ [58] ++ printf_d (mi : Int) ++ [58] ++ printf_d (se : Int) ++ [46] ++ printf_d (us : Int) ++ [0] =
      (printf_d y ++ [47] ++ printf_d (m : Int) ++ [47]) ++ (printf_d (d : Int) ++ 32 :: (printf_d (ho : Int) ++ 58 :: (printf_d (mi : Int) ++ 58 :: (printf_d (se : Int) ++ 46 :: (printf_d (us : Int) ++ [0]))))) := by
    simp
  have e3 : printf_d y ++ [47] ++ printf_d (m : Int) ++ [47] ++ printf_d (d : Int) ++ [32] ++ printf_d (ho : Int) ++ [58] ++ printf_d (mi : Int) ++ [58] ++ printf_d (se : Int) ++ [46] ++ printf_d (us : Int) ++ [0] =
      (printf_d y ++ [47] ++ printf_d (m : Int) ++ [47] ++ printf_d (d : Int) ++ [32]) ++ (printf_d (ho : Int) ++ 58 :: (printf_d (mi : Int) ++ 58 :: (printf_d (se : Int) ++ 46 :: (printf_d (us : Int) ++ [0])))) := by
    simp
  have e4 : printf_d y ++ [47] ++ printf_d (m : Int) ++ [47] ++ printf_d (d : Int) ++ [32] ++ printf_d (ho : Int) ++ [58] ++ printf_d (mi : Int) ++ [58] ++ printf_d (se : Int) ++ [46] ++ printf_d (us : Int) ++ [0] =
      (printf_d y ++ [47] ++ printf_d (m : Int) ++ [47] ++ printf_d (d : Int) ++ [32] ++ printf_d (ho : Int) ++ [58]) ++ (printf_d (mi : Int) ++ 58 :: (printf_d (se : Int) ++ 46 :: (printf_d (us : Int) ++ [0]))) := by
    simp
  have e5 : printf_d y ++ [47] ++ printf_d (m : Int) ++ [47] ++ printf_d (d : Int) ++ [32] ++ printf_d (ho : Int) ++ [58] ++ printf_d (mi : Int) ++ [58] ++ printf_d (se : Int) ++ [46] ++ printf_d (us : Int) ++ [0] =
      (printf_d y ++ [47] ++ printf_d (m : Int) ++ [47] ++ printf_d (d : Int) ++ [32] ++ printf_d (ho : Int) ++ [58] ++ printf_d (mi : Int) ++ [58]) ++ (printf_d (se : Int) ++ 46 :: (printf_d (us : Int) ++ [0])) := by
    simp
  have e6 : printf_d y ++ [47] ++ printf_d (m : Int) ++ [47] ++ printf_d (d : Int) ++ [32] ++ printf_d (ho : Int) ++ [58] ++ printf_d (mi : Int) ++ [58] ++ printf_d (se : Int) ++ [46] ++ printf_d (us : Int) ++ [0] =
      (printf_d y ++ [47] ++ printf_d (m : Int) ++ [47] ++ printf_d (d : Int) ++ [32] ++ printf_d (ho : Int) ++ [58] ++ printf_d (mi : Int) ++ [58] ++ printf_d (se : Int) ++ [46]) ++ (printf_d (us : Int) ++ [0]) := by
    simp
  have c0 := readComponent_spec _ [] _ y 47 srcSize
    (0) e0 rfl (by decide) (by omega) (by omega) (by omega) (by omega)
  have c1 := readComponent_spec _ (printf_d y ++ [47]) _ (m : Int) 47 srcSize
    (0 + (printf_d y).length + 1) e1 (by simp only [List.length_append, List.length_singleton]; omega) (by decide) (by omega) (by omega) (by omega) (by omega)
  have c2 := readComponent_spec _ (printf_d y ++ [47] ++ printf_d (m : Int) ++ [47]) _ (d : Int) 32 srcSize
    (0 + (printf_d y).length + 1 + (printf_d (m : Int)).length + 1) e2 (by simp only [List.length_append, List.length_singleton]; omega) (by decide) (by omega) (by omega) (by omega) (by omega)
  have c3 := readComponent_spec _ (printf_d y ++ [47] ++ printf_d (m : Int) ++ [47] ++ printf_d (d : Int) ++ [32]) _ (ho : Int) 58 srcSize
    (0 + (printf_d y).length + 1 + (printf_d (m : Int)).length + 1 + (printf_d (d : Int)).length + 1) e3 (by simp only [List.length_append, List.length_singleton]; omega) (by decide) (by omega) (by omega) (by omega) (by omega)
  have c4 := readComponent_spec _ (printf_d y ++ [47] ++ printf_d (m : Int) ++ [47] ++ printf_d (d : Int) ++ [32] ++ printf_d (ho : Int) ++ [58]) _ (mi : Int) 58 srcSize
    (0 + (printf_d y).length + 1 + (printf_d (m : Int)).length + 1 + (printf_d (d : Int)).length + 1 + (printf_d (ho : Int)).length + 1) e4 (by simp only [List.length_append, List.length_singleton]; omega) (by decide) (by omega) (by omega) (by omega) (by omega)
  have c5 := readComponent_spec _ (printf_d y ++ [47] ++ printf_d (m : Int) ++ [47] ++ printf_d (d : Int) ++ [32] ++ printf_d (ho : Int) ++ [58] ++ printf_d (mi : Int) ++ [58]) _ (se : Int) 46 srcSize
    (0 + (printf_d y).length + 1 + (printf_d (m : Int)).length + 1 + (printf_d (d : Int)).length + 1 + (printf_d (ho : Int)).length + 1 + (printf_d (mi : Int)).length + 1) e5 (by simp only [List.length_append, List.length_singleton]; omega) (by decide) (by omega) (by omega) (by omega) (by omega)
  have c6 := readComponent_spec _ (printf_d y ++ [47] ++ printf_d (m : Int) ++ [47] ++ printf_d (d : Int) ++ [32] ++ printf_d (ho : Int) ++ [58] ++ printf_d (mi : Int) ++ [58] ++ printf_d (se : Int) ++ [46]) _ (us : Int) 0 srcSize
    (0 + (printf_d y).length + 1 + (printf_d (m : Int)).length + 1 + (printf_d (d : Int)).length + 1 + (printf_d (ho : Int)).length + 1 + (printf_d (mi : Int)).length + 1 + (printf_d (se : Int)).length + 1) e6 (by simp only [List.length_append, List.length_singleton]; omega) (by decide) u1 u2 (by omega) (by omega)
  unfold Read_DBSHiresTime
  rw [if_neg (by omega), if_neg (by rw [e0, List.nil_append]; exact head_printf_d y _)]
  simp only [c0, c1, c2, c3, c4, c5, c6]
  rewrite [convert_int32 y (by omega) (by omega), convert_uint8 m hm, convert_uint8 d hd, convert_uint8 ho hho, convert_uint8 mi hmi, convert_uint8 se hse, convert_uint32 us u3, hvalid]
  simp only [Nat.zero_add]

end Utf8Translator
end whais
namespace whais
namespace Utf8Translator
open pastra

theorem decimal_length_bound (k : Nat) : ∀ (n : Nat), n < 10 ^ (k + 1) →
    (decimal n).length ≤ k + 1 := by
  induction k with
  | zero =>
    intro n h
    rw [decimal_lt n (by omega)]
    simp
  | succ k ih =>
    intro n h
    by_cases c : n < 10
    · rw [decimal_lt n c]
      simp
    · rw [decimal_ge n (by omega), List.length_append, List.length_singleton]
      have : n / 10 < 10 ^ (k + 1) := by
        rw [Nat.div_lt_iff_lt_mul (by omega)]
        rw [Nat.pow_succ] at h
        exact h
      have := ih (n / 10) this
      omega

theorem printf_d_length_bound (k : Nat) (v : Int) (h : v.natAbs < 10 ^ (k + 1)) :
    (printf_d v).length ≤ k + 2 := by
  have := decimal_length_bound k v.natAbs h
  unfold printf_d
  split
  · rw [List.length_cons]; omega
  · omega

/-- A text that fits into the buffer with its NUL is written whole. -/
theorem WriteText_fits (maxSize : Nat) (text : List Byte) (h32 : text.length < 2 ^ 32)
    (h : text.length < maxSize) : (WriteText maxSize text).2 ≠ 0 := by
  unfold WriteText snprintf
  simp only
  rw [Nat.mod_eq_of_lt h32, if_neg (by omega)]
  simp

theorem Write_DBSDate_fits (V : ValueParams) (v : DDate) (maxSize : Nat)
    (hnull : v.mIsNull = false) (hvalid : DDate.make V v.mYear v.mMonth v.mDay = .ok v)
    (hm : v.mMonth < 256) (hd : v.mDay < 256) (hbig : 15 ≤ maxSize) :
    (Write_DBSDate maxSize v).2 ≠ 0 := by
  obtain ⟨y, m, d, n⟩ := v
  simp only at hnull hvalid hm hd
  subst hnull
  have hy : -(2 ^ 15) ≤ y ∧ y < 2 ^ 15 := by
    unfold DDate.make at hvalid
    by_cases c : IntegerType.int16.convert y = y ∧ V.is_valid_date y m d = true
    · exact convert_int16_range y c.1
    · rw [if_neg c] at hvalid
      exact Except.noConfusion hvalid
  have ly := printf_d_length_bound 4 y (by omega)
  have lm := printf_d_length_bound 2 (m : Int) (by rw [Int.natAbs_ofNat]; omega)
  have ld := printf_d_length_bound 2 (d : Int) (by rw [Int.natAbs_ofNat]; omega)
  have pm : (printf_d (m : Int)).length ≤ 3 := by
    unfold printf_d
    rw [if_neg (by omega)]
    exact decimal_length_bound 2 _ (by rw [Int.natAbs_ofNat]; omega)
  have pd : (printf_d (d : Int)).length ≤ 3 := by
    unfold printf_d
    rw [if_neg (by omega)]
    exact decimal_length_bound 2 _ (by rw [Int.natAbs_ofNat]; omega)
  unfold Write_DBSDate
  rw [if_neg (by omega)]
  have hn : (DDate.IsNull ⟨y, m, d, false⟩) = false := rfl
  rw [hn]
  simp only [Bool.false_eq_true, if_false]
  apply WriteText_fits
  · simp only [List.length_append, List.length_singleton]; omega
  · simp only [List.length_append, List.length_singleton]; omega


theorem printf_d_byte (n : Nat) (h : n < 256) : (printf_d (n : Int)).length ≤ 3 := by
  unfold printf_d
  rw [if_neg (by omega)]
  exact decimal_length_bound 2 _ (by rw [Int.natAbs_ofNat]; omega)

theorem Write_DBSDateTime_fits (V : ValueParams) (v : DDateTime) (maxSize : Nat)
    (hnull : v.mIsNull = false)
    (hvalid : DDateTime.make V v.mYear v.mMonth v.mDay v.mHour v.mMinutes v.mSeconds = .ok v)
    (hm : v.mMonth < 256) (hd : v.mDay < 256) (hho : v.mHour < 256) (hmi : v.mMinutes < 256)
    (hse : v.mSeconds < 256) (hbig : 27 ≤ maxSize) :
    (Write_DBSDateTime maxSize v).2 ≠ 0 := by
  obtain ⟨y, m, d, ho, mi, se, n⟩ := v
  simp only at hnull hvalid hm hd hho hmi hse
  subst hnull
  have hy : -(2 ^ 15) ≤ y ∧ y < 2 ^ 15 := by
    unfold DDateTime.make at hvalid
    by_cases c : IntegerType.int16.convert y = y ∧ V.is_valid_datetime y m d ho mi se = true
    · exact convert_int16_range y c.1
    · rw [if_neg c] at hvalid
      exact Except.noConfusion hvalid
  have ly := printf_d_length_bound 4 y (by omega)
  have l1 := printf_d_byte m hm
  have l2 := printf_d_byte d hd
  have l3 := printf_d_byte ho hho
  have l4 := printf_d_byte mi hmi
  have l5 := printf_d_byte se hse
  unfold Write_DBSDateTime
  rw [if_neg (by omega)]
  have hn : (DDateTime.IsNull ⟨y, m, d, ho, mi, se, false⟩) = false := rfl
  rw [hn]
  simp only [Bool.false_eq_true, if_false]
  apply WriteText_fits
  · simp only [List.length_append, List.length_singleton]; omega
  · simp only [List.length_append, List.length_singleton]; omega

theorem Write_DBSHiresTime_fits (V : ValueParams) (v : DHiresTime) (maxSize : Nat)
    (hnull : v.mIsNull = false)
    (hvalid : DHiresTime.make V v.mYear v.mMonth v.mDay v.mHour v.mMinutes v.mSeconds
      v.mMicrosec = .ok v)
    (hm : v.mMonth < 256) (hd : v.mDay < 256) (hho : v.mHour < 256) (hmi : v.mMinutes < 256)
    (hse : v.mSeconds < 256) (hus : v.mMicrosec < 1000000) (hbig : 34 ≤ maxSize) :
    (Write_DBSHiresTime maxSize v).2 ≠ 0 := by
  obtain ⟨us, y, m, d, ho, mi, se, n⟩ := v
  simp only at hnull hvalid hm hd hho hmi hse hus
  subst hnull
  have hy : -(2 ^ 15) ≤ y ∧ y < 2 ^ 15 := by
    unfold DHiresTime.make at hvalid
    by_cases c : IntegerType.int16.convert y = y ∧ V.is_valid_hiresdate y m d ho mi se us = true
    · exact convert_int16_range y c.1
    · rw [if_neg c] at hvalid
      exact Except.noConfusion hvalid
  have hcus : IntegerType.int32.convert (us : Int) = (us : Int) :=
    convert_int32 _ (by omega) (by omega)
  have ly := printf_d_length_bound 4 y (by omega)
  have l1 := printf_d_byte m hm
  have l2 := printf_d_byte d hd
  have l3 := printf_d_byte ho hho
  have l4 := printf_d_byte mi hmi
  have l5 := printf_d_byte se hse
  have l6 : (printf_d (us : Int)).length ≤ 6 := by
    unfold printf_d
    rw [if_neg (by omega)]
    exact decimal_length_bound 5 _ (by rw [Int.natAbs_ofNat]; omega)
  unfold Write_DBSHiresTime
  rw [if_neg (by omega)]
  have hn : (DHiresTime.IsNull ⟨us, y, m, d, ho, mi, se, false⟩) = false := rfl
  rw [hn]
  simp only [Bool.false_eq_true, if_false]
  rw [hcus]
  apply WriteText_fits
  · simp only [List.length_append, List.length_singleton]; omega
  · simp only [List.length_append, List.length_singleton]; omega

/-- C24: the bytes that `Utf8Translator::Write` produces for a valid date,
datetime or hirestime (any year of 16 bits, negative ones included, any count
of microseconds the constructor accepts) in a buffer of 15, 27 or 34 bytes or
more, the longest text of each type with its NUL, are read back by
`Utf8Translator::Read` as the same value, and the count of bytes it consumes
is the count written, which is not 0;
`hirestime(1999, 12, 31, 23, 59, 59, 999999)` is written as the 26 characters
`1999/12/31 23:59:59.999999` and the NUL, 27 bytes. -/
theorem date_values_wire_round_trip (V : ValueParams) :
    (∀ (v : DDate) (maxSize srcSize : Nat), v.mIsNull = false →
      DDate.make V v.mYear v.mMonth v.mDay = .ok v → v.mMonth < 256 → v.mDay < 256 →
      15 ≤ maxSize → (Write_DBSDate maxSize v).2 ≤ srcSize →
      (Write_DBSDate maxSize v).2 ≠ 0 ∧
      Read_DBSDate V (Write_DBSDate maxSize v).1 srcSize =
        .ok ((Write_DBSDate maxSize v).2, some v)) ∧
    (∀ (v : DDateTime) (maxSize srcSize : Nat), v.mIsNull = false →
      DDateTime.make V v.mYear v.mMonth v.mDay v.mHour v.mMinutes v.mSeconds = .ok v →
      v.mMonth < 256 → v.mDay < 256 → v.mHour < 256 → v.mMinutes < 256 → v.mSeconds < 256 →
      27 ≤ maxSize → (Write_DBSDateTime maxSize v).2 ≤ srcSize →
      (Write_DBSDateTime maxSize v).2 ≠ 0 ∧
      Read_DBSDateTime V (Write_DBSDateTime maxSize v).1 srcSize =
        .ok ((Write_DBSDateTime maxSize v).2, some v)) ∧
    (∀ (v : DHiresTime) (maxSize srcSize : Nat), v.mIsNull = false →
      DHiresTime.make V v.mYear v.mMonth v.mDay v.mHour v.mMinutes v.mSeconds v.mMicrosec
        = .ok v →
      v.mMonth < 256 → v.mDay < 256 → v.mHour < 256 → v.mMinutes < 256 → v.mSeconds < 256 →
      v.mMicrosec < 1000000 →
      34 ≤ maxSize → (Write_DBSHiresTime maxSize v).2 ≤ srcSize →
      (Write_DBSHiresTime maxSize v).2 ≠ 0 ∧
      Read_DBSHiresTime V (Write_DBSHiresTime maxSize v).1 srcSize =
        .ok ((Write_DBSHiresTime maxSize v).2, some v)) ∧
    Write_DBSHiresTime 27 ⟨999999, 1999, 12, 31, 23, 59, 59, false⟩ =
      ([49, 57, 57, 57, 47, 49, 50, 47, 51, 49, 32, 50, 51, 58, 53, 57, 58, 53, 57, 46,
        57, 57, 57, 57, 57, 57, 0], 27) :=
  ⟨fun v maxSize srcSize h1 h2 h3 h4 h5 h6 =>
      ⟨Write_DBSDate_fits V v maxSize h1 h2 h3 h4 h5,
        Read_Write_DBSDate V v maxSize srcSize h1 h2 h3 h4
          (Write_DBSDate_fits V v maxSize h1 h2 h3 h4 h5) h6⟩,
    fun v maxSize srcSize h1 h2 h3 h4 h5 h6 h7 h8 h9 =>
      ⟨Write_DBSDateTime_fits V v maxSize h1 h2 h3 h4 h5 h6 h7 h8,
        Read_Write_DBSDateTime V v maxSize srcSize h1 h2 h3 h4 h5 h6 h7
          (Write_DBSDateTime_fits V v maxSize h1 h2 h3 h4 h5 h6 h7 h8) h9⟩,
    fun v maxSize srcSize h1 h2 h3 h4 h5 h6 h7 h8 h9 h10 =>
      ⟨Write_DBSHiresTime_fits V v maxSize h1 h2 h3 h4 h5 h6 h7 h8 h9,
        Read_Write_DBSHiresTime V v maxSize srcSize h1 h2 h3 h4 h5 h6 h7 h8
          (Write_DBSHiresTime_fits V v maxSize h1 h2 h3 h4 h5 h6 h7 h8 h9) h10⟩,
    by decide⟩

/-- The hirestime of the example, with a year below zero, goes through the wire
and comes back, whatever the constructor of the dates accepts. -/
theorem date_values_wire_round_trip_witness :
    (Write_DBSHiresTime 64 ⟨999999, -1999, 12, 31, 23, 59, 59, false⟩).2 ≠ 0 ∧
    Read_DBSHiresTime ⟨fun _ _ _ => true, fun _ _ _ _ _ _ => true,
        fun _ _ _ _ _ _ _ => true, fun _ => 1, fun _ => (1, 0)⟩
      (Write_DBSHiresTime 64 ⟨999999, -1999, 12, 31, 23, 59, 59, false⟩).1 64 =
      .ok ((Write_DBSHiresTime 64 ⟨999999, -1999, 12, 31, 23, 59, 59, false⟩).2,
        some ⟨999999, -1999, 12, 31, 23, 59, 59, false⟩) :=
  (date_values_wire_round_trip ⟨fun _ _ _ => true, fun _ _ _ _ _ _ => true,
        fun _ _ _ _ _ _ _ => true, fun _ => 1, fun _ => (1, 0)⟩).2.2.1
    ⟨999999, -1999, 12, 31, 23, 59, 59, false⟩ 64 64 rfl rfl (by decide) (by decide)
    (by decide) (by decide) (by decide) (by decide) (by decide) (by decide)


set_option maxRecDepth 100000 in
/-- C25: the value `2 ^ 63` of the type of 64 bits without sign is written as
its 19 digits and the NUL, 20 bytes, and the function `Read` of the same type
refuses these bytes: it returns 0 and stores no value; `read_integer` holds the
number in a `D_INT64`, where it is negative. -/
theorem uint64_above_int64_not_read_back :
    Write_DBSInt 32 (DInteger.ofValue (2 ^ 63) : DUInt64) =
      ([57, 50, 50, 51, 51, 55, 50, 48, 51, 54, 56, 53, 52, 55, 55, 53, 56, 48, 56, 0], 20) ∧
    Read_DBSInt .uint64
      (Write_DBSInt 32 (DInteger.ofValue (2 ^ 63) : DUInt64)).1 32 = (0, none) := by
  constructor <;> decide

/-- C26: the real 1.05, whose fractional part is 50000 of the 1000000 units of
the precision, is written as `1.5` and the NUL, and these bytes are read as the
real 1.5, fractional part 500000. -/
theorem real_with_leading_zero_not_read_back :
    Write_DBSReal 16 (DReal.ofValue (REAL_T.make 1 5 100) : DReal 1000000) =
      .ok ([49, 46, 53, 0], 4) ∧
    (DReal.ofValue (REAL_T.make 1 5 100) : DReal 1000000).mValue.Fractional = 50000 ∧
    Read_DBSReal 1000000 [49, 46, 53, 0] 4 = (4, some ⟨⟨1, 500000⟩, false⟩) := by
  refine ⟨by decide, by decide, by decide⟩

end Utf8Translator
end whais
namespace whais
namespace Utf8Translator
open pastra

theorem stripZeros_spec : ∀ (fuel : Nat) (f : Int), 0 < f → f.natAbs ≤ fuel →
    0 < stripZeros fuel f ∧ stripZeros fuel f % 10 ≠ 0 ∧
      ∃ k : Nat, f = stripZeros fuel f * 10 ^ k := by
  intro fuel
  induction fuel with
  | zero =>
    intro f h0 h1
    omega
  | succ fuel ih =>
    intro f h0 h1
    unfold stripZeros
    by_cases hz : f % 10 = 0
    · rw [if_pos hz]
      obtain ⟨a, b, k, c⟩ := ih (f / 10) (by omega) (by omega)
      refine ⟨a, b, k + 1, ?_⟩
      rw [pow_succ, ← Int.mul_assoc, ← c]
      omega
    · rw [if_neg hz]
      exact ⟨h0, hz, 0, by rw [pow_zero, Int.mul_one]⟩

theorem printf_d_of_nonneg (v : Int) (h : 0 ≤ v) : printf_d v = decimal v.natAbs := by
  unfold printf_d
  rw [if_neg (by omega)]

theorem snprintf_fit (size : Nat) (text : List Byte) (h : text.length < size) :
    snprintf size text = (text ++ [0], text.length) := by
  unfold snprintf
  rw [if_neg (by omega), List.take_of_length_le (by omega)]

/-- The bytes of `Write` for a real: the sign, the digits of the integer part,
the point, the digits of the fractional part without its zeros at the end. -/
theorem Write_DBSReal_spec {PRECISION : Nat} (maxSize : Nat) (v : DReal PRECISION)
    (hnull : v.mIsNull = false)
    (hsign : (0 ≤ v.mValue.mIntPart ∧ 0 ≤ v.mValue.mFracPart) ∨
      (v.mValue.mIntPart ≤ 0 ∧ v.mValue.mFracPart ≤ 0))
    (hi : v.mValue.mIntPart.natAbs < 2 ^ 63) (hf : v.mValue.mFracPart.natAbs < 2 ^ 63)
    (h32 : maxSize < 2 ^ 32)
    (hfit : ((if v.mValue.mIntPart < 0 ∨ v.mValue.mFracPart < 0 then [45] else []) ++
      decimal v.mValue.mIntPart.natAbs ++ [46] ++
      decimal (stripZeros v.mValue.mFracPart.natAbs v.mValue.mFracPart.natAbs).natAbs).length
        < maxSize) :
    Write_DBSReal maxSize v = .ok
      ((if v.mValue.mIntPart < 0 ∨ v.mValue.mFracPart < 0 then [45] else []) ++
        decimal v.mValue.mIntPart.natAbs ++ [46] ++
        decimal (stripZeros v.mValue.mFracPart.natAbs v.mValue.mFracPart.natAbs).natAbs ++ [0],
      ((if v.mValue.mIntPart < 0 ∨ v.mValue.mFracPart < 0 then [45] else []) ++
        decimal v.mValue.mIntPart.natAbs ++ [46] ++
        decimal (stripZeros v.mValue.mFracPart.natAbs v.mValue.mFracPart.natAbs).natAbs).length
        + 1) := by
  obtain ⟨⟨i, f⟩, n⟩ := v
  simp only at hnull hsign hi hf hfit ⊢
  subst hnull
  have pi := decimal_length_pos i.natAbs
  have hstrip : ∀ g : Int, 0 ≤ g → g.natAbs = f.natAbs →
      printf_d (if g > 0 then stripZeros g.natAbs g else g) =
        decimal (stripZeros f.natAbs f.natAbs).natAbs := by
    intro g hg hgf
    have hgeq : g = (f.natAbs : Int) := by omega
    by_cases hpos : g > 0
    · rw [if_pos hpos, printf_d_of_nonneg _ (le_of_lt (stripZeros_spec _ g hpos le_rfl).1),
        hgf, hgeq]
    · have hg0 : g = 0 := by omega
      have hf0 : f.natAbs = 0 := by omega
      rw [if_neg hpos, hg0, hf0]
      rfl
  unfold Write_DBSReal DReal.IsNull REAL_T.Integer REAL_T.Fractional
  simp only [Bool.false_eq_true, if_false]
  by_cases hneg : i < 0 ∨ f < 0
  · rw [if_pos hneg] at hfit ⊢
    have hi0 : i ≤ 0 := by omega
    have hf0 : f ≤ 0 := by omega
    have h1 : wrap64 (-i) = (i.natAbs : Int) := by
      rw [wrap64_of_range _ (by omega) (by omega)]
      omega
    have h2 : wrap64 (-f) = (f.natAbs : Int) := by
      rw [wrap64_of_range _ (by omega) (by omega)]
      omega
    simp only [hneg, if_true, h1, h2]
    rw [hstrip (f.natAbs : Int) (by omega) (by omega),
      printf_d_of_nonneg _ (Int.ofNat_nonneg _), Int.natAbs_ofNat]
    generalize decimal (stripZeros f.natAbs ↑f.natAbs).natAbs = fd at hfit ⊢
    generalize decimal i.natAbs = id at hfit pi ⊢
    simp only [List.length_append, List.length_cons, List.length_nil] at hfit
    have hlen : (id ++ [46] ++ fd).length = id.length + 1 + fd.length := by
      simp only [List.length_append, List.length_cons, List.length_nil]
    rw [snprintf_fit (maxSize - 1) (id ++ [46] ++ fd) (by rw [hlen]; omega)]
    simp only
    rw [hlen, Nat.mod_eq_of_lt (by omega)]
    simp only [List.length_append, List.length_cons, List.length_nil]
    have c1 : ¬ (0 + 1 + (id.length + (0 + 1) + fd.length + (0 + 1)) - 1 ≠
        1 + (id.length + 1 + fd.length)) := by omega
    have c2 : ¬ (1 + (id.length + 1 + fd.length) ≥ maxSize) := by omega
    rw [if_neg c1, if_neg c2]
    simp [Nat.add_comm, Nat.add_left_comm]
    omega
  · rw [if_neg hneg] at hfit ⊢
    have hi0 : 0 ≤ i := by omega
    have hf0 : 0 ≤ f := by omega
    simp only [hneg, if_false]
    rw [hstrip f hf0 rfl, printf_d_of_nonneg _ hi0]
    generalize decimal (stripZeros f.natAbs ↑f.natAbs).natAbs = fd at hfit ⊢
    generalize decimal i.natAbs = id at hfit pi ⊢
    simp only [List.length_append, List.length_cons, List.length_nil, List.nil_append] at hfit
    have hlen : (id ++ [46] ++ fd).length = id.length + 1 + fd.length := by
      simp only [List.length_append, List.length_cons, List.length_nil]
    rw [snprintf_fit maxSize (id ++ [46] ++ fd) (by rw [hlen]; omega)]
    simp only [List.nil_append]
    rw [hlen, Nat.mod_eq_of_lt (by omega)]
    simp only [List.length_append, List.length_cons, List.length_nil]
    have c1 : ¬ (id.length + (0 + 1) + fd.length + (0 + 1) - 1 ≠
        0 + (id.length + 1 + fd.length)) := by omega
    have c2 : ¬ (0 + (id.length + 1 + fd.length) ≥ maxSize) := by omega
    rw [if_neg c1, if_neg c2]
    simp [Nat.add_comm, Nat.add_left_comm]
    omega

/-- C27: what `Write` stores for a real or richreal that is not null, with parts
of one sign and below `2 ^ 63` and a buffer with room for the text: the sign
`-` first for a negative number, the digits of the integer part, the point, the
digits of the fractional part after the loop that divides it by 10 while it
ends in 0, and the NUL; the result counts the NUL. The fractional part has at
least one digit, and the last one is 0 only when the part is 0. So 1.500 is
written `1.5`, 0.0 is written `0.0` and -0.1 is written `-0.1`, at both
precisions. -/
theorem real_wire_form_without_trailing_zeros {PRECISION : Nat} (maxSize : Nat)
    (v : DReal PRECISION) (hnull : v.mIsNull = false)
    (hsign : (0 ≤ v.mValue.mIntPart ∧ 0 ≤ v.mValue.mFracPart) ∨
      (v.mValue.mIntPart ≤ 0 ∧ v.mValue.mFracPart ≤ 0))
    (hi : v.mValue.mIntPart.natAbs < 2 ^ 63) (hf : v.mValue.mFracPart.natAbs < 2 ^ 63)
    (h32 : maxSize < 2 ^ 32)
    (hfit : ((if v.mValue.mIntPart < 0 ∨ v.mValue.mFracPart < 0 then [45] else []) ++
      decimal v.mValue.mIntPart.natAbs ++ [46] ++
      decimal (stripZeros v.mValue.mFracPart.natAbs v.mValue.mFracPart.natAbs).natAbs).length
        < maxSize) :
    Write_DBSReal maxSize v = .ok
      ((if v.mValue.mIntPart < 0 ∨ v.mValue.mFracPart < 0 then [45] else []) ++
        decimal v.mValue.mIntPart.natAbs ++ [46] ++
        decimal (stripZeros v.mValue.mFracPart.natAbs v.mValue.mFracPart.natAbs).natAbs ++ [0],
      ((if v.mValue.mIntPart < 0 ∨ v.mValue.mFracPart < 0 then [45] else []) ++
        decimal v.mValue.mIntPart.natAbs ++ [46] ++
        decimal (stripZeros v.mValue.mFracPart.natAbs v.mValue.mFracPart.natAbs).natAbs).length
        + 1) ∧
    0 < (decimal
      (stripZeros v.mValue.mFracPart.natAbs v.mValue.mFracPart.natAbs).natAbs).length ∧
    (v.mValue.mFracPart ≠ 0 →
      stripZeros v.mValue.mFracPart.natAbs v.mValue.mFracPart.natAbs % 10 ≠ 0 ∧
      ∃ k : Nat, (v.mValue.mFracPart.natAbs : Int) =
        stripZeros v.mValue.mFracPart.natAbs v.mValue.mFracPart.natAbs * 10 ^ k) ∧
    (v.mValue.mFracPart = 0 →
      stripZeros v.mValue.mFracPart.natAbs v.mValue.mFracPart.natAbs = 0) ∧
    Write_DBSReal 16 (DReal.ofValue (REAL_T.make 1 500 1000) : DReal 1000000) =
      .ok ([49, 46, 53, 0], 4) ∧
    Write_DBSReal 16 (DReal.ofValue (REAL_T.make 0 0 1) : DReal 1000000) =
      .ok ([48, 46, 48, 0], 4) ∧
    Write_DBSReal 16 (DReal.ofValue (REAL_T.make 0 (-1) 10) : DReal 1000000) =
      .ok ([45, 48, 46, 49, 0], 5) ∧
    Write_DBSReal 16 (DReal.ofValue (REAL_T.make 1 500 1000) : DReal 100000000000000) =
      .ok ([49, 46, 53, 0], 4) ∧
    Write_DBSReal 16 (DReal.ofValue (REAL_T.make 0 0 1) : DReal 100000000000000) =
      .ok ([48, 46, 48, 0], 4) ∧
    Write_DBSReal 16 (DReal.ofValue (REAL_T.make 0 (-1) 10) : DReal 100000000000000) =
      .ok ([45, 48, 46, 49, 0], 5) := by
  refine ⟨Write_DBSReal_spec maxSize v hnull hsign hi hf h32 hfit, decimal_length_pos _,
    ?_, ?_, by decide, by decide, by decide, by decide, by decide, by decide⟩
  · intro h0
    have h := stripZeros_spec v.mValue.mFracPart.natAbs (v.mValue.mFracPart.natAbs : Int)
      (by omega) (by rw [Int.natAbs_ofNat])
    exact ⟨h.2.1, h.2.2⟩
  · intro h0
    rw [h0]
    rfl

/-- The real with integer part 12 and fractional part 34000 of precision 1000000
in a buffer of 16 bytes: the five characters `12.34` and the NUL, 6 bytes; the
fractional part is written without its zeros at the end and without the zero
after the point. -/
theorem real_wire_form_without_trailing_zeros_witness :
    Write_DBSReal 16 (⟨⟨12, 34000⟩, false⟩ : DReal 1000000) =
      .ok ([49, 50, 46, 51, 52, 0], 6) :=
  (real_wire_form_without_trailing_zeros 16 (⟨⟨12, 34000⟩, false⟩ : DReal 1000000) rfl
    (Or.inl ⟨by decide, by decide⟩) (by decide) (by decide) (by decide) (by decide)).1

end Utf8Translator

/-- C28: the constructor `DChar(codePoint)` throws `INVALID_UNICODE_CHAR` exactly
for a surrogate, U+D800 to U+DFFF, and for a code point above U+10FFFF, and
builds a value for every other code point; U+0001, U+D7FF, U+E000 and U+10FFFF
are accepted, the code point 0 gives the null value, and a character that
`Utf8Translator::Read` returns holds neither a surrogate nor a code point above
U+10FFFF. -/
theorem char_constructor_refuses_surrogates (V : ValueParams) :
    (∀ codePoint : Nat, DChar.ofCodePoint codePoint = .error .INVALID_UNICODE_CHAR ↔
      (0xD800 ≤ codePoint ∧ codePoint ≤ 0xDFFF) ∨ codePoint > 0x10FFFF) ∧
    (∀ codePoint : Nat, (∃ c, DChar.ofCodePoint codePoint = .ok c) ↔
      ¬ ((0xD800 ≤ codePoint ∧ codePoint ≤ 0xDFFF) ∨ codePoint > 0x10FFFF)) ∧
    DChar.ofCodePoint 0x0001 = .ok ⟨0x0001, false⟩ ∧
    DChar.ofCodePoint 0xD7FF = .ok ⟨0xD7FF, false⟩ ∧
    DChar.ofCodePoint 0xE000 = .ok ⟨0xE000, false⟩ ∧
    DChar.ofCodePoint 0x10FFFF = .ok ⟨0x10FFFF, false⟩ ∧
    DChar.ofCodePoint 0 = .ok DChar.null ∧
    (∀ (utf8Src : List pastra.Byte) (srcSize n : Nat) (c : DChar),
      Utf8Translator.Read_DBSChar V utf8Src srcSize = .ok (n, some c) →
      ¬ (0xD800 ≤ c.mValue ∧ c.mValue ≤ 0xDFFF) ∧ c.mValue ≤ 0x10FFFF) := by
  have hcases : ∀ codePoint : Nat,
      ((0xD800 ≤ codePoint ∧ codePoint ≤ 0xDFFF) ∨ codePoint > 0x10FFFF →
        DChar.ofCodePoint codePoint = .error .INVALID_UNICODE_CHAR) ∧
      (¬ ((0xD800 ≤ codePoint ∧ codePoint ≤ 0xDFFF) ∨ codePoint > 0x10FFFF) →
        DChar.ofCodePoint codePoint = .ok ⟨codePoint, if codePoint ≠ 0 then false else true⟩) := by
    intro codePoint
    unfold DChar.ofCodePoint DChar.UTF_LAST_CODEPOINT DChar.UTF16_EXTRA_BYTE_MIN
      DChar.UTF16_EXTRA_BYTE_MAX
    constructor
    · intro h
      rw [if_pos (by omega)]
    · intro h
      rw [if_neg (by omega)]
  refine ⟨?_, ?_, rfl, rfl, rfl, rfl, rfl, ?_⟩
  · intro codePoint
    constructor
    · intro h
      by_contra hc
      rw [(hcases codePoint).2 hc] at h
      exact Except.noConfusion h
    · exact (hcases codePoint).1
  · intro codePoint
    constructor
    · rintro ⟨c, h⟩ hc
      rw [(hcases codePoint).1 hc] at h
      exact Except.noConfusion h
    · intro hc
      exact ⟨_, (hcases codePoint).2 hc⟩
  · intro utf8Src srcSize n c h
    unfold Utf8Translator.Read_DBSChar at h
    rcases hd : V.decode_utf8_char utf8Src with ⟨size, ch⟩
    rw [hd] at h
    simp only at h
    split_ifs at h
    all_goals first
      | exact Option.noConfusion (Prod.mk.inj (Except.ok.inj h)).2
      | (have hc := Option.some.inj (Prod.mk.inj (Except.ok.inj h)).2
         rw [← hc]
         exact ⟨by decide, by decide⟩)
      | (by_cases hc : (0xD800 ≤ ch % 2 ^ 32 ∧ ch % 2 ^ 32 ≤ 0xDFFF) ∨ ch % 2 ^ 32 > 0x10FFFF
         · rw [(hcases _).1 hc] at h
           exact Except.noConfusion h
         · rw [(hcases _).2 hc] at h
           have hv := Option.some.inj (Prod.mk.inj (Except.ok.inj h)).2
           rw [← hv]
           simp only
           omega)

/-- The bytes `A` and NUL are read as the character U+0041. -/
theorem char_constructor_refuses_surrogates_witness :
    ¬ (0xD800 ≤ (⟨65, false⟩ : DChar).mValue ∧ (⟨65, false⟩ : DChar).mValue ≤ 0xDFFF) ∧
      (⟨65, false⟩ : DChar).mValue ≤ 0x10FFFF :=
  (char_constructor_refuses_surrogates ⟨fun _ _ _ => true, fun _ _ _ _ _ _ => true,
      fun _ _ _ _ _ _ _ => true, fun _ => 1, fun _ => (1, 65)⟩).2.2.2.2.2.2.2
    [65, 0] 2 2 ⟨65, false⟩ rfl

end whais
namespace whais
namespace pastra

/-- C30 (failing input): from the empty container of unit size 4, a `Write` of
one byte at 0 and a `Write` of one byte at 4 both return; the container then has
a first unit of one byte, not of four, and `Size()` returns 5 for files that
hold 2 bytes together. -/
theorem FileContainer.gap_after_partial_first_unit :
    FileContainer.Write ⟨4, []⟩ 0 [1] = .ok ⟨4, [[1]]⟩ ∧
    FileContainer.Write ⟨4, [[1]]⟩ 4 [9] = .ok ⟨4, [[1], [9]]⟩ ∧
    ¬ FileContainer.UnitSizeInvariant ⟨4, [[1], [9]]⟩ ∧
    FileContainer.Size ⟨4, [[1], [9]]⟩ = 5 ∧
    (([[1], [9]] : List File).map List.length).sum = 2 := by
  decide

namespace TemporalContainer

theorem flatWrite_length_max (l : List Byte) (pos : Nat) (buffer : List Byte) (h : pos ≤ l.length) :
    (flatWrite l pos buffer).length = max l.length (pos + buffer.length) := by
  unfold flatWrite
  simp only [List.length_append, List.length_take, List.length_drop]
  omega

/-- A `Write` that ends within the first cache of a container in state 1 does
not allocate the second cache. -/
theorem Write_state1_small (t : TemporalContainer) (toPos : Nat) (buffer : List Byte)
    (h1 : t.Inv1) (hto : toPos ≤ t.Size) (hsmall : toPos + buffer.length ≤ t.mCacheSize) :
    ∃ t2, t.Write toPos buffer = .ok t2 ∧ t2.mCache_2 = none := by
  obtain ⟨hf, hc, hs1, he1, hs2, he2⟩ := h1
  unfold Write
  rw [if_neg (by omega)]
  by_cases hlen : buffer.length = 0
  · rw [hlen]
    unfold WriteLoop
    simp only [hlen, gt_iff_lt, Nat.lt_irrefl, if_false]
    exact ⟨t, rfl, hc⟩
  · have hfuel : 2 * buffer.length + 1 = (2 * buffer.length - 1 + 1) + 1 := by omega
    rw [hfuel]
    unfold WriteLoop
    simp only
    rw [if_pos (by omega), if_pos (by omega)]
    have hmin : min buffer.length (t.mCacheStartPos_1 + t.mCacheSize - toPos) = buffer.length := by
      omega
    rw [hmin, List.drop_length]
    unfold WriteLoop
    simp only [List.length_nil, gt_iff_lt, Nat.lt_irrefl, if_false]
    exact ⟨_, rfl, hc⟩

/-- After a `Colapse` that leaves no spill file, a second cache holds bytes
past the first cache. -/
theorem Colapse_cache_2 (t t2 : TemporalContainer) (l : List Byte) (fromPos toPos : Nat)
    (h : t.Inv) (hr : t.Refines l) (hrun : t.Colapse fromPos toPos = .ok t2)
    (hf2 : t2.mFileContainer = none) (hc2 : t2.mCache_2.isSome) :
    t2.mCacheSize < t2.mCacheEndPos_2 := by
  unfold Colapse at hrun
  simp only at hrun
  by_cases hb : toPos < fromPos ∨ t.Size < toPos
  · rw [if_pos hb] at hrun
    exact Except.noConfusion hrun
  rw [if_neg hb] at hrun
  have hft : fromPos ≤ toPos := by omega
  have hto : toPos ≤ l.length := by rw [hr.1]; omega
  cases hfile : t.mFileContainer with
  | none =>
    by_cases hc : t.mCache_2.isSome
    · obtain ⟨t1, hrun1, _, _, hf1, _, _⟩ := ColapseContent_state2 t l fromPos toPos h hfile hc hr hft hto
      rw [hrun1] at hrun
      simp only at hrun
      rw [ColapseRefill_none t1 fromPos hf1] at hrun
      have ht : t1 = t2 := Except.ok.inj hrun
      subst ht
      unfold ColapseContent at hrun1
      rw [hfile] at hrun1
      simp only [hc, if_true] at hrun1
      by_cases hA : t.mCacheStartPos_1 = 0 ∧ t.mCacheEndPos_1 = t.mCacheSize ∧
          t.mCacheStartPos_2 = t.mCacheSize ∧ t.mCacheEndPos_2 ≤ 2 * t.mCacheSize ∧
          t.Size = t.mCacheEndPos_2
      · rw [if_pos hA] at hrun1
        cases hloop : ColapseLoop (t.Size - toPos + 1) t fromPos toPos t.Size with
        | error e =>
          rw [hloop] at hrun1
          exact Except.noConfusion hrun1
        | ok t0 =>
          rw [hloop] at hrun1
          simp only at hrun1
          by_cases hA2 : toPos ≤ t0.mCacheEndPos_2
          · rw [if_pos hA2] at hrun1
            by_cases hle : t0.mCacheEndPos_2 - (toPos - fromPos) ≤ t0.mCacheSize
            · rw [if_pos hle] at hrun1
              have ht := Except.ok.inj hrun1
              rw [← ht] at hc2
              exact absurd hc2 (by simp)
            · rw [if_neg hle] at hrun1
              have ht := Except.ok.inj hrun1
              rw [← ht]
              simp only
              omega
          · rw [if_neg hA2] at hrun1
            exact Except.noConfusion hrun1
      · rw [if_neg hA] at hrun1
        exact Except.noConfusion hrun1
    · unfold ColapseContent at hrun
      rw [hfile] at hrun
      simp only [hc, Bool.false_eq_true, if_false] at hrun
      by_cases hA : t.Size = t.mCacheEndPos_1 ∧ (t.Size = 0 ∨ t.mDirtyCache_1 = true)
      · rw [if_pos hA] at hrun
        simp only at hrun
        rw [ColapseRefill_none _ fromPos rfl] at hrun
        have ht := Except.ok.inj hrun
        rw [← ht] at hc2
        exact absurd hc2 hc
      · rw [if_neg hA] at hrun
        exact Except.noConfusion hrun
  | some file =>
    rcases ColapseContent_state3 t l file fromPos toPos t.Size h hfile hr hft hto with
      ⟨t1, file2, cache_2, hrun1, hf1, hc1, _, _, _, _, _, hd1, hd2, _, _⟩ | herr
    swap
    · rw [herr] at hrun
      exact Except.noConfusion hrun
    rw [hrun1] at hrun
    simp only at hrun
    unfold ColapseRefill at hrun
    rw [hf1] at hrun
    simp only at hrun
    rw [hc1] at hrun
    by_cases h2 : file2.Size ≤ 2 * t1.mCacheSize
    · rw [if_pos h2] at hrun
      by_cases h3 : file2.Size > t1.mCacheSize
      · rw [if_pos h3, if_pos (show (some cache_2).isSome = true from rfl)] at hrun
        cases hread : file2.Read t1.mCacheSize (file2.Size - t1.mCacheSize) with
        | error e =>
          rw [hread] at hrun
          exact Except.noConfusion hrun
        | ok data =>
          rw [hread] at hrun
          simp only at hrun
          cases hread2 : file2.Read 0 (min file2.Size t1.mCacheSize - 0) with
          | error e =>
            rw [hread2] at hrun
            exact Except.noConfusion hrun
          | ok data2 =>
            rw [hread2] at hrun
            have ht := Except.ok.inj hrun
            rw [← ht]
            exact h3
      · rw [if_neg h3] at hrun
        simp only [Option.isSome_some, if_true] at hrun
        cases hread2 : file2.Read 0 (min file2.Size t1.mCacheSize - 0) with
        | error e =>
          rw [hread2] at hrun
          exact Except.noConfusion hrun
        | ok data2 =>
          rw [hread2] at hrun
          have ht := Except.ok.inj hrun
          rw [← ht] at hc2
          exact absurd hc2 (by simp)
    · rw [if_neg h2, if_pos (show (some cache_2).isSome = true ∧ t1.mDirtyCache_1 = false ∧
        t1.mDirtyCache_2 = false from ⟨rfl, hd1, hd2⟩)] at hrun
      by_cases h0 : t1.mCacheSize = 0
      · rw [if_pos h0] at hrun
        exact Except.noConfusion hrun
      · rw [if_neg h0] at hrun
        cases hread : file2.Read 0 (t1.mCacheSize - 0) with
        | error e =>
          rw [hread] at hrun
          exact Except.noConfusion hrun
        | ok data =>
          rw [hread] at hrun
          simp only at hrun
          split at hrun
          · exact Except.noConfusion hrun
          · have ht := Except.ok.inj hrun
            rw [← ht] at hf2
            simp only at hf2
            exact Option.noConfusion hf2

/-- A spill file that a `Colapse` leaves holds more than two caches. -/
theorem Colapse_file (t t2 : TemporalContainer) (l : List Byte) (fromPos toPos : Nat)
    (file : FileContainer)
    (h : t.Inv) (hr : t.Refines l) (hrun : t.Colapse fromPos toPos = .ok t2)
    (hf2 : t2.mFileContainer = some file) :
    2 * t2.mCacheSize < file.Size := by
  unfold Colapse at hrun
  simp only at hrun
  by_cases hb : toPos < fromPos ∨ t.Size < toPos
  · rw [if_pos hb] at hrun
    exact Except.noConfusion hrun
  rw [if_neg hb] at hrun
  have hft : fromPos ≤ toPos := by omega
  have hto : toPos ≤ l.length := by rw [hr.1]; omega
  cases hfile : t.mFileContainer with
  | none =>
    by_cases hc : t.mCache_2.isSome
    · obtain ⟨t1, hrun1, _, _, hf1, _, _⟩ :=
        ColapseContent_state2 t l fromPos toPos h hfile hc hr hft hto
      rw [hrun1] at hrun
      simp only at hrun
      rw [ColapseRefill_none t1 fromPos hf1] at hrun
      have ht : t1 = t2 := Except.ok.inj hrun
      rw [ht, hf2] at hf1
      exact Option.noConfusion hf1
    · unfold ColapseContent at hrun
      rw [hfile] at hrun
      simp only [hc, Bool.false_eq_true, if_false] at hrun
      by_cases hA : t.Size = t.mCacheEndPos_1 ∧ (t.Size = 0 ∨ t.mDirtyCache_1 = true)
      · rw [if_pos hA] at hrun
        simp only at hrun
        rw [ColapseRefill_none _ fromPos rfl] at hrun
        have ht := Except.ok.inj hrun
        rw [← ht] at hf2
        exact Option.noConfusion hf2
      · rw [if_neg hA] at hrun
        exact Except.noConfusion hrun
  | some file0 =>
    rcases ColapseContent_state3 t l file0 fromPos toPos t.Size h hfile hr hft hto with
      ⟨t1, file2, cache_2, hrun1, hf1, hc1, _, _, _, _, _, hd1, hd2, _, _⟩ | herr
    swap
    · rw [herr] at hrun
      exact Except.noConfusion hrun
    rw [hrun1] at hrun
    simp only at hrun
    unfold ColapseRefill at hrun
    rw [hf1] at hrun
    simp only at hrun
    rw [hc1] at hrun
    by_cases h2 : file2.Size ≤ 2 * t1.mCacheSize
    · rw [if_pos h2] at hrun
      split at hrun
      · exact Except.noConfusion hrun
      · split at hrun
        · exact Except.noConfusion hrun
        · have ht := Except.ok.inj hrun
          rw [← ht] at hf2
          exact Option.noConfusion hf2
    · rw [if_neg h2, if_pos (show (some cache_2).isSome = true ∧ t1.mDirtyCache_1 = false ∧
        t1.mDirtyCache_2 = false from ⟨rfl, hd1, hd2⟩)] at hrun
      by_cases h0 : t1.mCacheSize = 0
      · rw [if_pos h0] at hrun
        exact Except.noConfusion hrun
      · rw [if_neg h0] at hrun
        split at hrun
        · exact Except.noConfusion hrun
        · split at hrun
          · exact Except.noConfusion hrun
          · have ht := Except.ok.inj hrun
            rw [← ht] at hf2 ⊢
            simp only at hf2 ⊢
            have hfe := Option.some.inj hf2
            rw [← hfe]
            omega

/-- The two statements on the spill file and the second cache follow from the
invariant when the sizes at the borders of the states are excluded. -/
theorem states_of_Inv (t : TemporalContainer) (h : t.Inv)
    (hA : t.mFileContainer = none → t.mCache_2.isSome → t.mCacheSize < t.Size)
    (hB : t.mFileContainer.isSome → 2 * t.mCacheSize < t.Size) :
    (t.mFileContainer.isSome ↔ 2 * t.mCacheSize < t.Size) ∧
    (t.mCache_2.isSome ↔ t.mCacheSize < t.Size) ∧
    t.mCacheStartPos_1 % t.mCacheSize = 0 ∧ t.mCacheStartPos_2 % t.mCacheSize = 0 ∧
    (t.mCache_2.isSome → t.mCacheStartPos_1 ≠ t.mCacheStartPos_2) := by
  obtain ⟨hC, hS, hc1, h1 | h2 | h3⟩ := h
  · obtain ⟨hf, hc2, hs1, he1, hs2, he2⟩ := h1
    have hsz := Size_of_none t hf
    rw [hf, hc2, hs1, hs2]
    refine ⟨⟨fun c => absurd c (by simp), fun c => by omega⟩,
      ⟨fun c => absurd c (by simp), fun c => by omega⟩, Nat.zero_mod _, Nat.zero_mod _,
      fun c => absurd c (by simp)⟩
  · obtain ⟨hf, ⟨cache_2, hc2, hl2⟩, hs1, he1, hs2, he2, he2b⟩ := h2
    have hsz := Size_of_none t hf
    have hA2 := hA hf (by rw [hc2]; rfl)
    rw [hf, hc2, hs1, hs2]
    refine ⟨⟨fun c => absurd c (by simp), fun c => by omega⟩,
      ⟨fun _ => hA2, fun _ => rfl⟩, Nat.zero_mod _, Nat.mod_self _, fun _ => by omega⟩
  · obtain ⟨file, cache_2, hf, hc2, hl2, hfS, hinv, hlen, hne, hok1, hok2⟩ := h3
    have hB2 := hB (by rw [hf]; rfl)
    rw [hf, hc2]
    exact ⟨⟨fun _ => hB2, fun _ => rfl⟩, ⟨fun _ => by omega, fun _ => rfl⟩, hok1.1, hok2.1,
      fun _ => hne⟩

/-- A `Write` that returns keeps the invariant, follows the flat byte array and
leaves the spill file and the second cache as the new size asks. -/
theorem Write_states (t t2 : TemporalContainer) (l : List Byte) (toPos : Nat)
    (buffer : List Byte) (h : t.Inv) (hr : t.Refines l)
    (h1 : t.mFileContainer.isSome ↔ 2 * t.mCacheSize < t.Size)
    (h2 : t.mCache_2.isSome ↔ t.mCacheSize < t.Size)
    (hrun : t.Write toPos buffer = .ok t2) :
    t2.Inv ∧ t2.Refines (flatWrite l toPos buffer) ∧ t2.mCacheSize = t.mCacheSize ∧
    (t2.mFileContainer = none → t2.mCache_2.isSome → t2.mCacheSize < t2.Size) ∧
    (t2.mFileContainer.isSome → 2 * t2.mCacheSize < t2.Size) := by
  have hto : toPos ≤ t.Size := by
    unfold Write at hrun
    by_cases c : toPos > t.Size
    · rw [if_pos c] at hrun
      exact Except.noConfusion hrun
    · omega
  have hto2 : toPos ≤ l.length := by rw [hr.1]; exact hto
  obtain ⟨t3, hw, hinv, hr2, hC, hS, hkeep, hkeep2⟩ := Write_refines t l toPos buffer h hr hto2
  rw [hrun] at hw
  have ht := Except.ok.inj hw
  subst ht
  have hlen := flatWrite_length_max l toPos buffer hto2
  have hsz : t2.Size = max t.Size (toPos + buffer.length) := by
    rw [← hr2.1, hlen, hr.1]
  refine ⟨hinv, hr2, hC, ?_, ?_⟩
  · intro hf2 hc2
    rw [hC]
    by_cases hc : t.mCache_2.isSome
    · have := h2.1 hc
      omega
    · by_cases hsmall : toPos + buffer.length ≤ t.mCacheSize
      · have hinv1 : t.Inv1 := by
          obtain ⟨_, _, _, i1 | i2 | i3⟩ := h
          · exact i1
          · obtain ⟨_, ⟨c2, hc2b, _⟩, _⟩ := i2
            rw [hc2b] at hc
            exact absurd rfl hc
          · obtain ⟨_, c2, _, hc2b, _⟩ := i3
            rw [hc2b] at hc
            exact absurd rfl hc
        obtain ⟨t4, hw4, hnone⟩ := Write_state1_small t toPos buffer hinv1 hto hsmall
        rw [hrun] at hw4
        have ht4 := Except.ok.inj hw4
        rw [← ht4] at hnone
        rw [hnone] at hc2
        exact absurd hc2 (by simp)
      · omega
  · intro hf2
    rw [hC]
    by_cases hf : t.mFileContainer.isSome
    · have := h1.1 hf
      omega
    · by_cases hsmall : toPos + buffer.length ≤ 2 * t.mCacheSize
      · have hnone : t.mFileContainer = none := by
          cases hfc : t.mFileContainer with
          | none => rfl
          | some f =>
            rw [hfc] at hf
            exact absurd rfl hf
        rw [hkeep hsmall hnone] at hf2
        exact absurd hf2 (by simp)
      · omega

/-- A `Colapse` that returns keeps the invariant, follows the flat byte array and
leaves the spill file and the second cache as the new size asks. -/
theorem Colapse_states (t t2 : TemporalContainer) (l : List Byte) (fromPos toPos : Nat)
    (h : t.Inv) (hr : t.Refines l) (hrun : t.Colapse fromPos toPos = .ok t2) :
    t2.Inv ∧ t2.Refines (flatColapse l fromPos toPos) ∧ t2.mCacheSize = t.mCacheSize ∧
    (t2.mFileContainer = none → t2.mCache_2.isSome → t2.mCacheSize < t2.Size) ∧
    (t2.mFileContainer.isSome → 2 * t2.mCacheSize < t2.Size) := by
  have hb : ¬ (toPos < fromPos ∨ t.Size < toPos) := by
    intro c
    unfold Colapse at hrun
    simp only at hrun
    rw [if_pos c] at hrun
    exact Except.noConfusion hrun
  have hft : fromPos ≤ toPos := by omega
  have hto : toPos ≤ l.length := by rw [hr.1]; omega
  obtain ⟨hinv, hr2, hC, hS⟩ := Colapse_refines t t2 l fromPos toPos h hr hft hto hrun
  refine ⟨hinv, hr2, hC, ?_, ?_⟩
  · intro hf2 hc2
    have := Colapse_cache_2 t t2 l fromPos toPos h hr hrun hf2 hc2
    rw [Size_of_none t2 hf2]
    omega
  · intro hf2
    cases hfc : t2.mFileContainer with
    | none =>
      rw [hfc] at hf2
      exact absurd hf2 (by simp)
    | some file =>
      have := Colapse_file t t2 l fromPos toPos file h hr hrun hfc
      unfold Size
      rw [hfc]
      simp only
      omega

/-- The states a container goes through under calls of `Write` and `Colapse`
that return. -/
theorem after_states (ops : List Op) : ∀ (t t2 : TemporalContainer) (l : List Byte),
    t.Inv → t.Refines l →
    (t.mFileContainer = none → t.mCache_2.isSome → t.mCacheSize < t.Size) →
    (t.mFileContainer.isSome → 2 * t.mCacheSize < t.Size) →
    (∀ op ∈ ops, ∀ a b, op ≠ Op.Read a b) → t.after ops = .ok t2 →
    t2.Inv ∧ t2.Refines (flatAfter l ops) ∧ t2.mCacheSize = t.mCacheSize ∧
    (t2.mFileContainer = none → t2.mCache_2.isSome → t2.mCacheSize < t2.Size) ∧
    (t2.mFileContainer.isSome → 2 * t2.mCacheSize < t2.Size) := by
  induction ops with
  | nil =>
    intro t t2 l h hr hA hB _ hrun
    have ht : t = t2 := Except.ok.inj hrun
    subst ht
    exact ⟨h, hr, rfl, hA, hB⟩
  | cons op ops ih =>
    intro t t2 l h hr hA hB hops hrun
    have hst := states_of_Inv t h hA hB
    have hops2 : ∀ op ∈ ops, ∀ a b, op ≠ Op.Read a b :=
      fun o ho => hops o (List.mem_cons_of_mem _ ho)
    unfold TemporalContainer.after at hrun
    cases op with
    | Write toPos buffer =>
      unfold call at hrun
      simp only at hrun
      cases hw : t.Write toPos buffer with
      | error e =>
        rw [hw] at hrun
        exact Except.noConfusion hrun
      | ok t1 =>
        rw [hw] at hrun
        simp only at hrun
        obtain ⟨i1, r1, c1, a1, b1⟩ := Write_states t t1 l toPos buffer h hr hst.1 hst.2.1 hw
        obtain ⟨i2, r2, c2, a2, b2⟩ := ih t1 t2 _ i1 r1 a1 b1 hops2 hrun
        exact ⟨i2, r2, c2.trans c1, a2, b2⟩
    | Read fromPos size => exact absurd rfl (hops _ (List.mem_cons_self _ _) fromPos size)
    | Colapse fromPos toPos =>
      unfold call at hrun
      simp only at hrun
      cases hw : t.Colapse fromPos toPos with
      | error e =>
        rw [hw] at hrun
        exact Except.noConfusion hrun
      | ok t1 =>
        rw [hw] at hrun
        simp only at hrun
        obtain ⟨i1, r1, c1, a1, b1⟩ := Colapse_states t t1 l fromPos toPos h hr hw
        obtain ⟨i2, r2, c2, a2, b2⟩ := ih t1 t2 _ i1 r1 a1 b1 hops2 hrun
        exact ⟨i2, r2, c2.trans c1, a2, b2⟩

/-- A file container whose unit size is 0 takes no write: `Write` divides by the
unit size. -/
theorem fileWrite_unit_zero (files : List File) (toPos : Nat) (buffer : List Byte) :
    fileWrite ⟨0, files⟩ toPos buffer = .error .UNDEFINED := by
  unfold fileWrite FileContainer.Write
  rw [FileContainer.WriteAux, if_pos rfl]

/-- Where `settings.mMaxFileSize` is a multiple of `2 ^ 32`, a `FillCache`
that returns on a container without a spill file has made none, and does the
same whatever the setting is. -/
theorem FillCache_no_file (t t2 : TemporalContainer) (p m : Nat)
    (hf : t.mFileContainer = none) (hM : t.mMaxFileSize % 2 ^ 32 = 0)
    (h : t.FillCache p = .ok t2) :
    t2.mFileContainer = none ∧ t2.mMaxFileSize = t.mMaxFileSize ∧
    FillCache { t with mMaxFileSize := m } p = .ok { t2 with mMaxFileSize := m } := by
  obtain ⟨fo, cache_1, c2o, s1, e1, s2, e2, C, d1, d2, lu, S⟩ := t
  dsimp only at hf hM
  subst hf
  unfold FillCache at h ⊢
  dsimp only at h ⊢
  by_cases c0 : C = 0
  · rw [if_pos c0] at h
    cases h
  rw [if_neg c0] at h ⊢
  by_cases c1 : s1 = p - p % C
  · rw [if_pos c1] at h ⊢
    cases h
    exact ⟨rfl, rfl, rfl⟩
  rw [if_neg c1] at h ⊢
  by_cases c2 : c2o.isSome ∧ s2 = p - p % C
  · rw [if_pos c2] at h ⊢
    cases h
    exact ⟨rfl, rfl, rfl⟩
  rw [if_neg c2] at h ⊢
  by_cases c3 : c2o.isNone ∧ p - p % C = C
  · rw [if_pos c3] at h ⊢
    cases h
    exact ⟨rfl, rfl, rfl⟩
  rw [if_neg c3, hM, fileWrite_unit_zero] at h
  cases h

theorem WriteLoop_no_file (fuel : Nat) : ∀ (t t2 : TemporalContainer) (toPos : Nat)
    (buffer : List Byte) (m : Nat), t.mFileContainer = none → t.mMaxFileSize % 2 ^ 32 = 0 →
    WriteLoop fuel t toPos buffer = .ok t2 →
    t2.mFileContainer = none ∧ t2.mMaxFileSize = t.mMaxFileSize ∧
    WriteLoop fuel { t with mMaxFileSize := m } toPos buffer
      = .ok { t2 with mMaxFileSize := m } := by
  induction fuel with
  | zero =>
    intro t t2 toPos buffer m _ _ h
    rw [WriteLoop] at h
    cases h
  | succ fuel ih =>
    intro t t2 toPos buffer m hf hM h
    rw [WriteLoop] at h ⊢
    dsimp only at h ⊢
    by_cases c0 : buffer.length > 0
    · rw [if_pos c0] at h ⊢
      by_cases c1 : t.mCacheStartPos_1 ≤ toPos ∧ toPos < t.mCacheStartPos_1 + t.mCacheSize
      · rw [if_pos c1] at h ⊢
        refine ih _ t2 _ _ m ?_ ?_ h
        · exact hf
        · exact hM
      · rw [if_neg c1] at h ⊢
        by_cases c2 : t.mCache_2.isSome ∧
            (t.mCacheStartPos_2 ≤ toPos ∧ toPos < t.mCacheStartPos_2 + t.mCacheSize)
        · rw [if_pos c2] at h ⊢
          refine ih _ t2 _ _ m ?_ ?_ h
          · exact hf
          · exact hM
        · rw [if_neg c2] at h ⊢
          cases hfc : t.FillCache toPos with
          | error e =>
            rw [hfc] at h
            cases h
          | ok t1 =>
            rw [hfc] at h
            dsimp only at h
            obtain ⟨hf1, hM1, hsim⟩ := FillCache_no_file t t1 toPos m hf hM hfc
            rw [hsim]
            dsimp only
            obtain ⟨a, b, c⟩ := ih t1 t2 toPos buffer m hf1 (by rw [hM1]; exact hM) h
            exact ⟨a, by rw [b, hM1], c⟩
    · rw [if_neg c0] at h ⊢
      cases h
      exact ⟨hf, rfl, rfl⟩

theorem Write_no_file (t t2 : TemporalContainer) (toPos : Nat) (buffer : List Byte) (m : Nat)
    (hf : t.mFileContainer = none) (hM : t.mMaxFileSize % 2 ^ 32 = 0)
    (h : t.Write toPos buffer = .ok t2) :
    t2.mFileContainer = none ∧ t2.mMaxFileSize = t.mMaxFileSize ∧
    Write { t with mMaxFileSize := m } toPos buffer = .ok { t2 with mMaxFileSize := m } := by
  unfold Write at h ⊢
  have hsz : Size { t with mMaxFileSize := m } = t.Size := rfl
  rw [hsz]
  by_cases c : toPos > t.Size
  · rw [if_pos c] at h
    cases h
  · rw [if_neg c] at h ⊢
    exact WriteLoop_no_file _ t t2 toPos buffer m hf hM h

theorem ReadLoop_no_file (fuel : Nat) : ∀ (t t2 : TemporalContainer) (fromPos size : Nat)
    (bytes : List Byte) (m : Nat), t.mFileContainer = none → t.mMaxFileSize % 2 ^ 32 = 0 →
    ReadLoop fuel t fromPos size = .ok (t2, bytes) →
    t2.mFileContainer = none ∧ t2.mMaxFileSize = t.mMaxFileSize ∧
    ReadLoop fuel { t with mMaxFileSize := m } fromPos size
      = .ok ({ t2 with mMaxFileSize := m }, bytes) := by
  induction fuel with
  | zero =>
    intro t t2 fromPos size bytes m _ _ h
    rw [ReadLoop] at h
    cases h
  | succ fuel ih =>
    intro t t2 fromPos size bytes m hf hM h
    rw [ReadLoop] at h ⊢
    dsimp only at h ⊢
    by_cases c0 : size > 0
    · rw [if_pos c0] at h ⊢
      by_cases c1 : t.mCacheStartPos_1 ≤ fromPos ∧ fromPos < t.mCacheEndPos_1
      · rw [if_pos c1] at h ⊢
        cases hr : ReadLoop fuel t (fromPos + min size (t.mCacheEndPos_1 - fromPos))
            (size - min size (t.mCacheEndPos_1 - fromPos)) with
        | error e =>
          rw [hr] at h
          cases h
        | ok r =>
          obtain ⟨t1, rest⟩ := r
          rw [hr] at h
          dsimp only at h
          cases h
          obtain ⟨a, b, c⟩ := ih t _ _ _ _ m hf hM hr
          rw [c]
          exact ⟨a, b, rfl⟩
      · rw [if_neg c1] at h ⊢
        by_cases c2 : t.mCache_2.isSome ∧
            (t.mCacheStartPos_2 ≤ fromPos ∧ fromPos < t.mCacheEndPos_2)
        · rw [if_pos c2] at h ⊢
          cases hr : ReadLoop fuel t (fromPos + min size (t.mCacheEndPos_2 - fromPos))
              (size - min size (t.mCacheEndPos_2 - fromPos)) with
          | error e =>
            rw [hr] at h
            cases h
          | ok r =>
            obtain ⟨t1, rest⟩ := r
            rw [hr] at h
            dsimp only at h
            cases h
            obtain ⟨a, b, c⟩ := ih t _ _ _ _ m hf hM hr
            rw [c]
            exact ⟨a, b, rfl⟩
        · rw [if_neg c2] at h ⊢
          cases hfc : t.FillCache fromPos with
          | error e =>
            rw [hfc] at h
            cases h
          | ok t1 =>
            rw [hfc] at h
            dsimp only at h
            obtain ⟨hf1, hM1, hsim⟩ := FillCache_no_file t t1 fromPos m hf hM hfc
            rw [hsim]
            dsimp only
            obtain ⟨a, b, c⟩ := ih t1 t2 fromPos size bytes m hf1 (by rw [hM1]; exact hM) h
            exact ⟨a, by rw [b, hM1], c⟩
    · rw [if_neg c0] at h ⊢
      cases h
      exact ⟨hf, rfl, rfl⟩

theorem Read_no_file (t t2 : TemporalContainer) (fromPos size : Nat) (bytes : List Byte)
    (m : Nat) (hf : t.mFileContainer = none) (hM : t.mMaxFileSize % 2 ^ 32 = 0)
    (h : t.Read fromPos size = .ok (t2, bytes)) :
    t2.mFileContainer = none ∧ t2.mMaxFileSize = t.mMaxFileSize ∧
    Read { t with mMaxFileSize := m } fromPos size
      = .ok ({ t2 with mMaxFileSize := m }, bytes) := by
  unfold Read at h ⊢
  have hsz : Size { t with mMaxFileSize := m } = t.Size := rfl
  rw [hsz]
  by_cases c : (fromPos + size) % 2 ^ 64 > t.Size
  · rw [if_pos c] at h
    cases h
  · rw [if_neg c] at h ⊢
    exact ReadLoop_no_file _ t t2 fromPos size bytes m hf hM h

theorem ColapseLoop_no_file (fuel : Nat) : ∀ (t t2 : TemporalContainer)
    (tempFrom tempTo containerSize m : Nat), t.mFileContainer = none →
    t.mMaxFileSize % 2 ^ 32 = 0 →
    ColapseLoop fuel t tempFrom tempTo containerSize = .ok t2 →
    t2.mFileContainer = none ∧ t2.mMaxFileSize = t.mMaxFileSize ∧
    ColapseLoop fuel { t with mMaxFileSize := m } tempFrom tempTo containerSize
      = .ok { t2 with mMaxFileSize := m } := by
  induction fuel with
  | zero =>
    intro t t2 tempFrom tempTo containerSize m _ _ h
    rw [ColapseLoop] at h
    cases h
  | succ fuel ih =>
    intro t t2 tempFrom tempTo containerSize m hf hM h
    rw [ColapseLoop] at h ⊢
    dsimp only at h ⊢
    by_cases c0 : tempTo < containerSize
    · rw [if_pos c0] at h ⊢
      generalize hs : (if tempTo + 128 > containerSize then containerSize - tempTo else 128) = s
        at h ⊢
      cases hr : t.Read tempTo s with
      | error e =>
        rw [hr] at h
        cases h
      | ok r =>
        obtain ⟨t1, stepBuffer⟩ := r
        rw [hr] at h
        dsimp only at h
        obtain ⟨hf1, hM1, hsim1⟩ := Read_no_file t t1 tempTo s stepBuffer m hf hM hr
        rw [hsim1]
        dsimp only
        cases hw : t1.Write tempFrom stepBuffer with
        | error e =>
          rw [hw] at h
          cases h
        | ok t3 =>
          rw [hw] at h
          dsimp only at h
          obtain ⟨hf3, hM3, hsim3⟩ := Write_no_file t1 t3 tempFrom stepBuffer m hf1
            (by rw [hM1]; exact hM) hw
          rw [hsim3]
          dsimp only
          obtain ⟨a, b, c⟩ := ih t3 t2 _ _ containerSize m hf3 (by rw [hM3, hM1]; exact hM) h
          exact ⟨a, by rw [b, hM3, hM1], c⟩
    · rw [if_neg c0] at h ⊢
      cases h
      exact ⟨hf, rfl, rfl⟩

theorem Colapse_no_file (t t2 : TemporalContainer) (fromPos toPos m : Nat)
    (hf : t.mFileContainer = none) (hM : t.mMaxFileSize % 2 ^ 32 = 0)
    (h : t.Colapse fromPos toPos = .ok t2) :
    t2.mFileContainer = none ∧ t2.mMaxFileSize = t.mMaxFileSize ∧
    Colapse { t with mMaxFileSize := m } fromPos toPos = .ok { t2 with mMaxFileSize := m } := by
  have hsz : Size { t with mMaxFileSize := m } = t.Size := rfl
  unfold Colapse at h ⊢
  dsimp only at h ⊢
  rw [hsz]
  generalize t.Size = n at h ⊢
  clear hsz
  obtain ⟨fo, cache_1, c2o, s1, e1, s2, e2, C, d1, d2, lu, S⟩ := t
  dsimp only at hf hM h ⊢
  subst hf
  by_cases c : toPos < fromPos ∨ n < toPos
  · rw [if_pos c] at h
    cases h
  rw [if_neg c] at h ⊢
  unfold ColapseContent at h ⊢
  dsimp only at h ⊢
  by_cases c2 : c2o.isSome
  · rw [if_pos c2] at h ⊢
    by_cases hA : s1 = 0 ∧ e1 = C ∧ s2 = C ∧ e2 ≤ 2 * C ∧ n = e2
    · rw [if_pos hA] at h ⊢
      cases hl : ColapseLoop (n - toPos + 1)
          ⟨none, cache_1, c2o, s1, e1, s2, e2, C, d1, d2, lu, S⟩ fromPos toPos n with
      | error e =>
        rw [hl] at h
        cases h
      | ok t1 =>
        rw [hl] at h
        dsimp only at h
        obtain ⟨hf1, hM1, hsim1⟩ := ColapseLoop_no_file _ _ t1 fromPos toPos n m rfl hM hl
        dsimp only at hsim1 hM1
        rw [hsim1]
        dsimp only
        by_cases hA2 : toPos ≤ t1.mCacheEndPos_2
        · rw [if_pos hA2] at h ⊢
          by_cases hle : t1.mCacheEndPos_2 - (toPos - fromPos) ≤ t1.mCacheSize
          · rw [if_pos hle] at h ⊢
            rw [hf1] at h ⊢
            dsimp only at h ⊢
            rw [ColapseRefill_none _ fromPos rfl] at h
            cases h
            rw [ColapseRefill_none _ fromPos rfl]
            exact ⟨rfl, hM1, rfl⟩
          · rw [if_neg hle] at h ⊢
            rw [hf1] at h ⊢
            dsimp only at h ⊢
            rw [ColapseRefill_none _ fromPos rfl] at h
            cases h
            rw [ColapseRefill_none _ fromPos rfl]
            exact ⟨rfl, hM1, rfl⟩
        · rw [if_neg hA2] at h
          cases h
    · rw [if_neg hA] at h
      cases h
  · rw [if_neg c2] at h ⊢
    by_cases hA : n = e1 ∧ (n = 0 ∨ d1 = true)
    · rw [if_pos hA] at h ⊢
      dsimp only at h ⊢
      rw [ColapseRefill_none _ fromPos rfl] at h
      cases h
      rw [ColapseRefill_none _ fromPos rfl]
      exact ⟨rfl, rfl, rfl⟩
    · rw [if_neg hA] at h
      cases h

theorem after_no_file (ops : List Op) : ∀ (t t2 : TemporalContainer) (m : Nat),
    t.mFileContainer = none → t.mMaxFileSize % 2 ^ 32 = 0 →
    (∀ op ∈ ops, ∀ a b, op ≠ Op.Read a b) → t.after ops = .ok t2 →
    TemporalContainer.after { t with mMaxFileSize := m } ops
      = .ok { t2 with mMaxFileSize := m } := by
  induction ops with
  | nil =>
    intro t t2 m _ _ _ h
    unfold TemporalContainer.after at h ⊢
    cases h
    rfl
  | cons op ops ih =>
    intro t t2 m hf hM hops h
    have hops2 : ∀ op ∈ ops, ∀ a b, op ≠ Op.Read a b :=
      fun o ho => hops o (List.mem_cons_of_mem _ ho)
    unfold TemporalContainer.after at h ⊢
    cases op with
    | Write toPos buffer =>
      unfold call at h ⊢
      dsimp only at h ⊢
      cases hw : t.Write toPos buffer with
      | error e =>
        rw [hw] at h
        cases h
      | ok t1 =>
        rw [hw] at h
        dsimp only at h
        obtain ⟨hf1, hM1, hsim⟩ := Write_no_file t t1 toPos buffer m hf hM hw
        rw [hsim]
        dsimp only
        exact ih t1 t2 m hf1 (by rw [hM1]; exact hM) hops2 h
    | Read fromPos size => exact absurd rfl (hops _ (List.mem_cons_self _ _) fromPos size)
    | Colapse fromPos toPos =>
      unfold call at h ⊢
      dsimp only at h ⊢
      cases hw : t.Colapse fromPos toPos with
      | error e =>
        rw [hw] at h
        cases h
      | ok t1 =>
        rw [hw] at h
        dsimp only at h
        obtain ⟨hf1, hM1, hsim⟩ := Colapse_no_file t t1 fromPos toPos m hf hM hw
        rw [hsim]
        dsimp only
        exact ih t1 t2 m hf1 (by rw [hM1]; exact hM) hops2 h

/-- C31: in every state that a temporal container with a cache of `C > 0` bytes
(and a positive unit size for its spill file) reaches from the empty container
by calls of `Write` and `Colapse` that return, `Size()` is the size of the flat
byte array after the same calls, the spill file exists exactly when the size is
above `2 * C`, the second cache is allocated exactly when the size is above `C`,
both cache windows start at multiples of `C`, and the windows of two caches
differ. -/
theorem states_follow_size (reservedMemory maxFileSize : Nat) (ops : List Op)
    (t : TemporalContainer) (hC : 0 < reservedMemory / 2) (hS : 0 < maxFileSize)
    (hops : ∀ op ∈ ops, ∀ a b, op ≠ Op.Read a b)
    (hrun : (New reservedMemory maxFileSize).after ops = .ok t) :
    t.mCacheSize = reservedMemory / 2 ∧ t.Size = (flatAfter [] ops).length ∧
    (t.mFileContainer.isSome ↔ 2 * t.mCacheSize < t.Size) ∧
    (t.mCache_2.isSome ↔ t.mCacheSize < t.Size) ∧
    t.mCacheStartPos_1 % t.mCacheSize = 0 ∧ t.mCacheStartPos_2 % t.mCacheSize = 0 ∧
    (t.mCache_2.isSome → t.mCacheStartPos_1 ≠ t.mCacheStartPos_2) := by
  by_cases hunit : 0 < maxFileSize % 2 ^ 32
  · obtain ⟨i, r, c, a, b⟩ := after_states ops (New reservedMemory maxFileSize) t []
      (New_Inv reservedMemory maxFileSize hC hunit) (New_Refines reservedMemory maxFileSize)
      (fun _ c => absurd c (by simp [New])) (fun c => absurd c (by simp [New])) hops hrun
    exact ⟨c, r.1.symm, states_of_Inv t i a b⟩
  · have hsim := after_no_file ops (New reservedMemory maxFileSize) t 1 rfl
      (by show maxFileSize % 2 ^ 32 = 0; omega) hops hrun
    obtain ⟨i, r, c, a, b⟩ := after_states ops (New reservedMemory 1)
      { t with mMaxFileSize := 1 } [] (New_Inv reservedMemory 1 hC (by decide))
      (New_Refines reservedMemory 1)
      (fun _ c => absurd c (by simp [New])) (fun c => absurd c (by simp [New])) hops hsim
    have hst := states_of_Inv { t with mMaxFileSize := 1 } i a b
    exact ⟨c, r.1.symm, hst⟩

/-- A cache of 2 bytes: after 2, 3, 4 and 5 bytes are written and after 3 of the
5 bytes are removed; after one byte of 5 is removed the container of 4 bytes has
no spill file. -/
theorem states_follow_size_witness :
    ((New 4 16).after [.Write 0 [1, 2]]).toOption.map
        (fun t => (t.mFileContainer.isSome, t.mCache_2.isSome)) = some (false, false) ∧
    ((New 4 16).after [.Write 0 [1, 2, 3]]).toOption.map
        (fun t => (t.mFileContainer.isSome, t.mCache_2.isSome)) = some (false, true) ∧
    ((New 4 16).after [.Write 0 [1, 2, 3, 4]]).toOption.map
        (fun t => (t.mFileContainer.isSome, t.mCache_2.isSome)) = some (false, true) ∧
    ((New 4 16).after [.Write 0 [1, 2, 3, 4, 5]]).toOption.map
        (fun t => (t.mFileContainer.isSome, t.mCache_2.isSome)) = some (true, true) ∧
    ((New 4 16).after [.Write 0 [1, 2, 3, 4, 5], .Colapse 0 3]).toOption.map
        (fun t => (t.mFileContainer.isSome, t.mCache_2.isSome)) = some (false, false) ∧
    (match (New 4 16).after [.Write 0 [1, 2, 3, 4, 5], .Colapse 1 2] with
      | .ok t => t.Size = 4 ∧ (t.mFileContainer.isSome ↔ 2 * t.mCacheSize < t.Size)
      | .error _ => False) := by
  refine ⟨by decide, by decide, by decide, by decide, by decide, ?_⟩
  have hs : ((New 4 16).after [.Write 0 [1, 2, 3, 4, 5], .Colapse 1 2]).toBool = true := by
    decide
  split
  · next t ht =>
    have h := states_follow_size 4 16 [.Write 0 [1, 2, 3, 4, 5], .Colapse 1 2] t (by decide)
      (by decide)
      (fun op hop a b => by
        rcases List.mem_cons.1 hop with rfl | hop
        · exact fun c => Op.noConfusion c
        · rcases List.mem_cons.1 hop with rfl | hop
          · exact fun c => Op.noConfusion c
          · exact absurd hop (List.not_mem_nil _)) ht
    exact ⟨h.2.1, h.2.2.1⟩
  · next e he =>
    rw [he] at hs
    exact Bool.noConfusion hs

end TemporalContainer
end pastra
end whais
namespace whais

/-- C36 (failing input): the fields `a`, `b`, `c` declared in this order give
the list `c`, `b`, `a`, and declared in the order `b`, `c`, `a` they give the
list `c`, `a`, `b`: neither list is in alphabetical order and the two differ. -/
theorem compiler.field_list_follows_declaration_order :
    (compiler.declare_fields [[97], [98], [99]]).map (fun fields => fields.map (·.label)) =
      some [[99], [98], [97]] ∧
    (compiler.declare_fields [[98], [99], [97]]).map (fun fields => fields.map (·.label)) =
      some [[99], [97], [98]] := by
  decide

/-- C37 (failing input): `operator<` answers that 0 is less than -1, and
`operator>=` that 0 is not at least -1; the two values are the numbers 0 and -1
in two's complement. -/
theorem WE_I128.zero_less_than_minus_one :
    (WE_I128.ofInt64 0).toInt = 0 ∧ (WE_I128.ofInt64 (-1)).toInt = -1 ∧
    (WE_I128.ofInt64 0).lt (WE_I128.ofInt64 (-1)) = true ∧
    (WE_I128.ofInt64 0).le (WE_I128.ofInt64 (-1)) = true ∧
    (WE_I128.ofInt64 0).gt (WE_I128.ofInt64 (-1)) = false ∧
    (WE_I128.ofInt64 0).ge (WE_I128.ofInt64 (-1)) = false ∧
    (WE_I128.ofInt64 (-1)).lt (WE_I128.ofInt64 0) = true := by
  decide

/-- C39 (failing input): after the procedure `abc` alone is added, which gets
the index 0, `GetProcedure` for the name `ab` of length 2 returns the index 0,
not `INVALID_ENTRY`. -/
theorem prima.ProcedureManager.shorter_name_is_found :
    (prima.ProcedureManager.AddProcedure ⟨[], []⟩ [97, 98, 99] 3 1 0 0 0).map
        (fun r => (r.2, r.1.m_Identifiers, r.1.GetProcedure [97, 98, 99] 3,
          r.1.GetProcedure [97, 98] 2)) =
      some (0, [97, 98, 99, 0], 0, 0) ∧
    prima.ProcedureManager.INVALID_ENTRY ≠ 0 := by
  decide

/-- C40 (failing input): whatever the size of a node and the count of nodes in
the container, `AllocateNode` returns 1; with the root in node 1 of a container
of two nodes, the node that the next call allocates is node 1 again, which
`LoadNode` reads from the container instead of adding a node. -/
theorem pastra.RepairTableNodeManager.allocates_node_one (RAW_NODE_SIZE count : Nat) :
    pastra.RepairTableNodeManager.AllocateNode (RAW_NODE_SIZE + 1)
      (count * (RAW_NODE_SIZE + 1)) = .ok 1 ∧
    pastra.RepairTableNodeManager.AllocateNode 4 8 = .ok 1 ∧
    pastra.RepairTableNodeManager.LoadNode 4 [1, 2, 3, 4, 5, 6, 7, 8] 1 [0, 0, 0, 0] =
      .ok ([1, 2, 3, 4, 5, 6, 7, 8], [5, 6, 7, 8]) := by
  refine ⟨?_, by decide, by decide⟩
  unfold pastra.RepairTableNodeManager.AllocateNode pastra.RepairTableNodeManager.NodeRawSize
  rw [if_neg (Nat.succ_ne_zero _), if_neg (by simp), Nat.div_self (Nat.succ_pos _)]

end whais

/-! ## The division of `WE_I128` -/

namespace whais
namespace WE_I128

set_option maxRecDepth 100000 in
/-- C38 (code_bug): `2 ^ 64` divided by `-2 ^ 127`, with any number of turns
allowed to the loop of `devide64`. Both operands are values of 128 bits, the
divisor is not zero and the dividend is not `-2 ^ 127`. `operator/` gives `-1`
and `operator%` gives `2 ^ 64 - 2 ^ 127`: the remainder of a positive dividend is
negative, where the truncating division gives the quotient 0 and the remainder
`2 ^ 64`. The negation of the divisor is the divisor itself, and `devide`
compares the remainder with it as with a negative number. -/
theorem division_by_least_value :
    toInt ⟨1, 0⟩ = 2 ^ 64 ∧ toInt ⟨2 ^ 63, 0⟩ = -2 ^ 127 ∧
    neg ⟨2 ^ 63, 0⟩ = ⟨2 ^ 63, 0⟩ ∧
    (∀ fuel, div fuel ⟨1, 0⟩ ⟨2 ^ 63, 0⟩ = some ⟨2 ^ 64 - 1, 2 ^ 64 - 1⟩) ∧
    (∀ fuel, mod fuel ⟨1, 0⟩ ⟨2 ^ 63, 0⟩ = some ⟨2 ^ 63 + 1, 0⟩) ∧
    toInt ⟨2 ^ 64 - 1, 2 ^ 64 - 1⟩ = -1 ∧ toInt ⟨2 ^ 63 + 1, 0⟩ = 2 ^ 64 - 2 ^ 127 ∧
    toInt ⟨2 ^ 63 + 1, 0⟩ < 0 ∧ Int.tdiv (2 ^ 64) (-2 ^ 127) = 0 ∧
    Int.tmod (2 ^ 64) (-2 ^ 127) = 2 ^ 64 := by
  refine ⟨by decide, by decide, by decide, fun _ => rfl, fun _ => rfl,
    by decide, by decide, by decide, by decide, by decide⟩

end WE_I128
end whais
namespace whais
namespace pastra

open StoreEntry

/-- C33 (failing input): five records of one entry are added to the fresh
heap, entries 1 to 5, and records 2 and 5 are freed in that order, so the list
of free entries is 5, 2. Record 3 then grows by an entry: `AllocateEntry(3)`
finds entry 4 in use, does not look at entry 2, which is free, and takes entry
5, the head of the list, where the comment of the code and the claim give the
free neighbour, entry 2. -/
theorem VariableSizeStore.free_previous_neighbour_skipped :
    (do
      let (s1, _) ← VariableSizeStore.Init.AddRecord [1]
      let (s2, r2) ← s1.AddRecord [2]
      let (s3, r3) ← s2.AddRecord [3]
      let (s4, r4) ← s3.AddRecord [4]
      let (s5, r5) ← s4.AddRecord [5]
      let s6 ← s5.DecrementRecordRef r2
      let s7 ← s6.DecrementRecordRef r5
      let (_, n) ← s7.AllocateEntry r3
      pure (decide ((r2, r3, r4, r5) = (2, 3, 4, 5) ∧ s7.Inv [5, 2] ∧ s7.IsChain 3 [3]),
        (s7.entryAt 4).mDeleted, (s7.entryAt 2).mDeleted, s7.mFirstFreeEntry, n)) =
    (.ok (true, false, true, 5, 5) : Except StoreFailure (Bool × Bool × Bool × Nat × Nat)) := by
  decide

/-- What `AllocateEntry` returns: in a state of the heap invariant with room for one more
entry, `AllocateEntry(prev)` for the last entry `prev` of a chain (so `prev >= 1`) returns
`prev + 1` when that entry is free; when `prev + 1` lies beyond the end of the
heap it returns `prev - 1` if `prev > 1` and that entry is free; in every other
case with a free entry it returns the head of the list of free entries; the
heap grows, by one entry of 64 bytes, exactly when there is no free entry, and
the new entry is the one returned. -/
theorem VariableSizeStore.allocate_prefers_neighbour (s : VariableSizeStore) (free : List Nat)
    (prev : Nat) (h : s.Inv free) (hroom : (s.mEntries.length + 1) * sizeofEntry < 2 ^ 64)
    (hlt : prev < s.mEntries.length)
    (hlive : (s.entryAt prev).mDeleted = false)
    (htail : (s.entryAt prev).mNextEntry = LAST_CHAINED_ENTRY) :
    ∃ s2 n, s.AllocateEntry prev = .ok (s2, n) ∧
      (prev + 1 < s.mEntries.length → (s.entryAt (prev + 1)).mDeleted = true → n = prev + 1) ∧
      (¬ prev + 1 < s.mEntries.length → 1 < prev → (s.entryAt (prev - 1)).mDeleted = true →
        n = prev - 1) ∧
      (¬ (prev + 1 < s.mEntries.length ∧ (s.entryAt (prev + 1)).mDeleted = true) →
        ¬ (¬ prev + 1 < s.mEntries.length ∧ 1 < prev ∧
          (s.entryAt (prev - 1)).mDeleted = true) →
        free ≠ [] → free.head? = some n) ∧
      (free = [] → n = s.mEntries.length ∧ s2.mEntries.length = s.mEntries.length + 1 ∧
        s2.Size = s.Size + 64) ∧
      (free ≠ [] → n ∈ free ∧ s2.mEntries.length = s.mEntries.length ∧ s2.Size = s.Size) := by
  obtain ⟨s2, free2, n, a1, -, -, -, -, -, -, -, -, -, -, -, -, a13, a14, a15, a16, a17⟩ :=
    VariableSizeStore.AllocateEntry_spec s free prev h hroom (Or.inr ⟨hlt, hlive, htail⟩)
  refine ⟨s2, n, a1, a15, a16, ?_, ?_, ?_⟩
  · intro c1 c2 hne
    have hn := a17 c1 c2 hne
    obtain ⟨-, -, -, -, -, -, h7, h8⟩ := h
    cases free with
    | nil => exact absurd rfl hne
    | cons b rest =>
      rw [VariableSizeStore.FreeLinks_cons] at h7
      rw [hn, h8, h7.1]
      rfl
  · intro he
    obtain ⟨-, b, c⟩ := a13 he
    refine ⟨b, c, ?_⟩
    unfold VariableSizeStore.Size
    rw [c]
    unfold sizeofEntry
    omega
  · intro hne
    obtain ⟨b, -, c⟩ := a14 hne
    refine ⟨b, c, ?_⟩
    unfold VariableSizeStore.Size
    rw [c]


end pastra
end whais

/-! ## The chains of all the records of the heap -/

namespace whais
namespace pastra
namespace VariableSizeStore

open StoreEntry

theorem Linked_cons (s : VariableSizeStore) (a b : Nat) (rest : List Nat) :
    s.Linked (a :: b :: rest) ↔ ((s.entryAt b).mFirst = false ∧ (s.entryAt b).mPrevEntry = a ∧
      s.Linked (b :: rest)) := Iff.rfl

/-- An entry of a chain is its first entry or the next entry of one of its
entries. -/
theorem IsChain_pred (s : VariableSizeStore) (ids : List Nat) : ∀ (e : Nat), s.IsChain e ids →
    ∀ j ∈ ids, j = e ∨ ∃ p ∈ ids, p < s.mEntries.length ∧ (s.entryAt p).mDeleted = false ∧
      (s.entryAt p).mNextEntry = j := by
  induction ids with
  | nil => intro e _ j hj; exact absurd hj (List.not_mem_nil _)
  | cons x rest ih =>
    intro e h j hj
    rw [IsChain_cons] at h
    obtain ⟨h1, h2, h3, h4⟩ := h
    rcases List.mem_cons.1 hj with c | c
    · exact Or.inl (c.trans h1.symm)
    · rcases ih _ h4 j c with d | ⟨p, hp, d⟩
      · exact Or.inr ⟨x, List.mem_cons_self _ _, h2, h3, d.symm⟩
      · exact Or.inr ⟨p, List.mem_cons_of_mem _ hp, d⟩

/-- The next entry of an entry of a chain that has one is no end of a chain. -/
theorem IsChain_ne_last (s : VariableSizeStore) (hlen : s.mEntries.length < 2 ^ 58)
    (x : Nat) (rest : List Nat) (e : Nat) (h : s.IsChain e (x :: rest)) :
    e = x ∧ e ≠ LAST_CHAINED_ENTRY := by
  rw [IsChain_cons] at h
  refine ⟨h.1, ?_⟩
  rw [h.1]
  have := h.2.1
  unfold LAST_CHAINED_ENTRY
  omega

theorem Linked_of_Mirror (s : VariableSizeStore) (hlen : s.mEntries.length < 2 ^ 58)
    (hm : s.Mirror) : ∀ (ids : List Nat) (e : Nat), s.IsChain e ids → s.Linked ids := by
  intro ids
  induction ids with
  | nil => intro e _; trivial
  | cons x rest ih =>
    intro e h
    cases rest with
    | nil => trivial
    | cons b rest2 =>
      rw [IsChain_cons] at h
      obtain ⟨h1, h2, h3, h4⟩ := h
      obtain ⟨e1, e2⟩ := IsChain_ne_last s hlen b rest2 _ h4
      obtain ⟨m1, m2⟩ := hm x h2 h3 e2
      rw [e1] at m1 m2
      exact (Linked_cons s x b rest2).2 ⟨m1, m2, ih _ h4⟩

theorem Linked_next (s : VariableSizeStore) : ∀ (L : List Nat) (e : Nat), s.IsChain e L →
    s.Linked L → ∀ i ∈ L, (s.entryAt i).mNextEntry ≠ LAST_CHAINED_ENTRY →
    (s.entryAt (s.entryAt i).mNextEntry).mFirst = false ∧
    (s.entryAt (s.entryAt i).mNextEntry).mPrevEntry = i := by
  intro L
  induction L with
  | nil => intro e _ _ i hi; exact absurd hi (List.not_mem_nil _)
  | cons x rest ih =>
    intro e h hl i hi hn
    rw [IsChain_cons] at h
    obtain ⟨h1, h2, h3, h4⟩ := h
    cases rest with
    | nil =>
      rw [IsChain_nil] at h4
      rw [List.mem_singleton.1 hi] at hn
      exact absurd h4 hn
    | cons b rest2 =>
      have hb : (s.entryAt x).mNextEntry = b := by
        rw [IsChain_cons] at h4; exact h4.1
      obtain ⟨l1, l2, l3⟩ := (Linked_cons s x b rest2).1 hl
      rcases List.mem_cons.1 hi with c | c
      · rw [c, hb]; exact ⟨l1, l2⟩
      · exact ih _ h4 l3 i c hn

/-- A chain that starts outside the chain of a record stays outside it. -/
theorem IsChain_avoids (s : VariableSizeStore) (hlen : s.mEntries.length < 2 ^ 58)
    (hm : s.Mirror) (r : Nat) (ids : List Nat) (hchain : s.IsChain r ids)
    (hfirst : ids ≠ [] → (s.entryAt r).mFirst = true) :
    ∀ (ids2 : List Nat) (i : Nat), s.IsChain i ids2 → i ∉ ids → ∀ x ∈ ids2, x ∉ ids := by
  intro ids2
  induction ids2 with
  | nil => intro i _ _ x hx; exact absurd hx (List.not_mem_nil _)
  | cons y rest ih =>
    intro i h hi x hx
    have h0 := h
    rw [IsChain_cons] at h
    obtain ⟨h1, h2, h3, h4⟩ := h
    rcases List.mem_cons.1 hx with c | c
    · rw [c, ← h1]; exact hi
    · refine ih _ h4 ?_ x c
      intro hmem
      cases rest with
      | nil => exact absurd c (List.not_mem_nil _)
      | cons b rest2 =>
        obtain ⟨e1, e2⟩ := IsChain_ne_last s hlen b rest2 _ h4
        obtain ⟨m1, m2⟩ := hm y h2 h3 e2
        rcases IsChain_pred s ids r hchain _ hmem with d | ⟨p, hp, p1, p2, p3⟩
        · rw [d, hfirst (List.ne_nil_of_mem hmem)] at m1
          exact absurd m1 (by simp)
        · have q := (hm p p1 p2 (by rw [p3]; exact e2)).2
          rw [p3, m2] at q
          exact hi (by rw [h1, q]; exact hp)

/-- Entries with the same links and marks make the same chains. -/
theorem LiveChains_frame (s s2 : VariableSizeStore) (hl : s2.mEntries.length = s.mEntries.length)
    (h : ∀ i, (s2.entryAt i).mDeleted = (s.entryAt i).mDeleted ∧
      (s2.entryAt i).mNextEntry = (s.entryAt i).mNextEntry) (hL : s.LiveChains) :
    s2.LiveChains := by
  intro i hi hd
  obtain ⟨ids, hc⟩ := hL i (hl ▸ hi) (by rw [← (h i).1]; exact hd)
  exact ⟨ids, IsChain_frame s s2 ids i hc (by rw [hl]) (fun j _ => h j)⟩

/-- A change of the previous entry of first entries of records, which is their
count of references, or of the bytes of entries keeps `Mirror`. -/
theorem Mirror_frame (s s2 : VariableSizeStore) (hl : s2.mEntries.length = s.mEntries.length)
    (h : ∀ i, (s2.entryAt i).mDeleted = (s.entryAt i).mDeleted ∧
      (s2.entryAt i).mNextEntry = (s.entryAt i).mNextEntry ∧
      (s2.entryAt i).mFirst = (s.entryAt i).mFirst ∧
      ((s.entryAt i).mFirst = false → (s2.entryAt i).mPrevEntry = (s.entryAt i).mPrevEntry))
    (hM : s.Mirror) : s2.Mirror := by
  intro i hi hd hn
  rw [(h i).2.1] at hn ⊢
  obtain ⟨m1, m2⟩ := hM i (hl ▸ hi) (by rw [← (h i).1]; exact hd) hn
  rw [(h _).2.2.1, (h _).2.2.2 m1]
  exact ⟨m1, m2⟩

end VariableSizeStore
end pastra
end whais

namespace whais
namespace pastra
namespace VariableSizeStore

open StoreEntry

theorem IsChain_of_mem (s : VariableSizeStore) (L : List Nat) : ∀ (e : Nat), s.IsChain e L →
    ∀ i ∈ L, ∃ ids, s.IsChain i ids := by
  induction L with
  | nil => intro e _ i hi; exact absurd hi (List.not_mem_nil _)
  | cons x rest ih =>
    intro e h i hi
    have h0 := h
    rw [IsChain_cons] at h
    rcases List.mem_cons.1 hi with c | c
    · exact ⟨x :: rest, by rw [c]; rw [h.1] at h0; exact h0⟩
    · exact ih _ h.2.2.2 i c

/-- The invariants of the chains in a store `s2` that differs from `s` in the
entries of one chain and in entries that were not in use. -/
theorem HeapInv_transfer (s s2 : VariableSizeStore) (e e2 : Nat) (ids L : List Nat)
    (hlen : s.mEntries.length < 2 ^ 58) (hle : s.mEntries.length ≤ s2.mEntries.length)
    (hL : s.LiveChains) (hM : s.Mirror)
    (hchain : s.IsChain e ids) (hfirst : ids ≠ [] → (s.entryAt e).mFirst = true)
    (hchain2 : s2.IsChain e2 L) (hlinked : s2.Linked L)
    (F1 : ∀ i, i < s.mEntries.length → (s.entryAt i).mDeleted = false → i ∉ ids →
      s2.entryAt i = s.entryAt i)
    (F2 : ∀ i, i < s2.mEntries.length → (s2.entryAt i).mDeleted = false →
      i ∈ L ∨ (i < s.mEntries.length ∧ (s.entryAt i).mDeleted = false ∧ i ∉ ids)) :
    s2.LiveChains ∧ s2.Mirror ∧
      (∀ i ids2, i ∉ ids → s.IsChain i ids2 → s2.IsChain i ids2) := by
  have K : ∀ i ids2, i ∉ ids → s.IsChain i ids2 → s2.IsChain i ids2 := by
    intro i ids2 hi hc
    apply IsChain_frame s s2 ids2 i hc hle
    intro j hj
    have hj2 := IsChain_avoids s hlen hM e ids hchain hfirst ids2 i hc hi j hj
    obtain ⟨a, b⟩ := IsChain_mem s ids2 i hc j hj
    rw [F1 j a b hj2]
    exact ⟨rfl, rfl⟩
  refine ⟨?_, ?_, K⟩
  · intro i hi hd
    rcases F2 i hi hd with c | ⟨c1, c2, c3⟩
    · exact IsChain_of_mem s2 L e2 hchain2 i c
    · obtain ⟨ids2, hc⟩ := hL i c1 c2
      exact ⟨ids2, K i ids2 c3 hc⟩
  · intro i hi hd hn
    rcases F2 i hi hd with c | ⟨c1, c2, c3⟩
    · exact Linked_next s2 L e2 hchain2 hlinked i c hn
    · rw [F1 i c1 c2 c3] at hn ⊢
      obtain ⟨m1, m2⟩ := hM i c1 c2 hn
      obtain ⟨ids2, hc⟩ := hL i c1 c2
      cases ids2 with
      | nil =>
        rw [IsChain_nil] at hc
        unfold LAST_CHAINED_ENTRY at hc
        omega
      | cons y rest =>
        have hc0 := hc
        rw [IsChain_cons] at hc
        obtain ⟨h1, h2, h3, h4⟩ := hc
        cases rest with
        | nil =>
          rw [IsChain_nil, ← h1] at h4
          exact absurd h4 hn
        | cons b rest2 =>
          have hb := h4
          rw [IsChain_cons] at hb
          obtain ⟨b1, b2, b3, -⟩ := hb
          rw [← h1] at b1
          have hb4 : b ∉ ids := IsChain_avoids s hlen hM e ids hchain hfirst _ i hc0 c3 b
            (List.mem_cons_of_mem _ (List.mem_cons_self _ _))
          rw [b1, F1 b b2 b3 hb4, ← b1]
          exact ⟨m1, m2⟩

theorem Linked_snoc (s s2 : VariableSizeStore) (p n : Nat)
    (hn1 : (s2.entryAt n).mFirst = false) (hn2 : (s2.entryAt n).mPrevEntry = p) :
    ∀ (pre2 : List Nat), s.Linked (pre2 ++ [p]) →
    (∀ i ∈ pre2 ++ [p], (s2.entryAt i).mFirst = (s.entryAt i).mFirst ∧
      (s2.entryAt i).mPrevEntry = (s.entryAt i).mPrevEntry) →
    s2.Linked (pre2 ++ [p, n]) := by
  intro pre2
  induction pre2 with
  | nil => intro _ _; exact (Linked_cons s2 p n []).2 ⟨hn1, hn2, trivial⟩
  | cons a rest ih =>
    intro hl hf
    cases rest with
    | nil =>
      obtain ⟨l1, l2, -⟩ := (Linked_cons s a p []).1 hl
      have hp := hf p (by simp)
      exact (Linked_cons s2 a p [n]).2 ⟨by rw [hp.1]; exact l1, by rw [hp.2]; exact l2,
        (Linked_cons s2 p n []).2 ⟨hn1, hn2, trivial⟩⟩
    | cons b rest2 =>
      obtain ⟨l1, l2, l3⟩ := (Linked_cons s a b (rest2 ++ [p])).1 hl
      have hp := hf b (by simp)
      exact (Linked_cons s2 a b (rest2 ++ [p, n])).2 ⟨by rw [hp.1]; exact l1,
        by rw [hp.2]; exact l2, ih l3 (fun i hi => hf i (List.mem_cons_of_mem _ hi))⟩

/-- An entry in use after `AllocateEntry` is the entry allocated or was in use
before. -/
theorem AllocateEntry_live_back (s s2 : VariableSizeStore) (free free2 : List Nat) (n : Nat)
    (hinv : s.Inv free) (hinv2 : s2.Inv free2)
    (hE : free = [] → free2 = [] ∧ n = s.mEntries.length ∧
      s2.mEntries.length = s.mEntries.length + 1)
    (hNE : free ≠ [] → n ∈ free ∧ free2 = free.erase n ∧
      s2.mEntries.length = s.mEntries.length)
    (i : Nat) (hi : i < s2.mEntries.length) (hd : (s2.entryAt i).mDeleted = false)
    (hin : i ≠ n) : i < s.mEntries.length ∧ (s.entryAt i).mDeleted = false := by
  have hdel2 : i ∉ 0 :: free2 := by
    intro hm
    rw [(hinv2.2.2.2.2.2.1 i hi).2 hm] at hd
    exact absurd hd (by simp)
  have hlt : i < s.mEntries.length := by
    by_cases c : free = []
    · obtain ⟨-, a2, a3⟩ := hE c
      omega
    · rw [← (hNE c).2.2]; exact hi
  refine ⟨hlt, ?_⟩
  cases hds : (s.entryAt i).mDeleted with
  | false => rfl
  | true =>
    exfalso
    have hm := (hinv.2.2.2.2.2.1 i hlt).1 hds
    apply hdel2
    rcases List.mem_cons.1 hm with c | c
    · rw [c]; exact List.mem_cons_self _ _
    · have hne : free ≠ [] := List.ne_nil_of_mem c
      rw [(hNE hne).2.1]
      exact List.mem_cons_of_mem _ ((List.mem_erase_of_ne hin).2 c)

/-- `AllocateEntry` for a new last entry of the chain of a record. -/
theorem AllocateEntry_next_live (s : VariableSizeStore) (free pre2 : List Nat) (r prev : Nat)
    (hinv : s.Inv free) (hroom : (s.mEntries.length + 1) * sizeofEntry < 2 ^ 64)
    (hL : s.LiveChains) (hM : s.Mirror) (hchain : s.IsChain r (pre2 ++ [prev]))
    (hfirst : (s.entryAt r).mFirst = true) :
    ∃ s2 n, s.AllocateEntry prev = .ok (s2, n) ∧ s2.LiveChains ∧ s2.Mirror ∧
      (∀ i ids2, i ∉ pre2 ++ [prev] → s.IsChain i ids2 → s2.IsChain i ids2) ∧
      (n < s.mEntries.length → (s.entryAt n).mDeleted = true) ∧
      (s2.entryAt r).mFirst = true := by
  obtain ⟨hb1, hb2⟩ := Inv_bounds s free hinv
  obtain ⟨hplt, hpdel, hpnext⟩ := IsChain_last s prev pre2 r hchain
  obtain ⟨s1, free1, x, halloc, hinv1, hl1, hl2, hxlt, hx0, hxdel, hkeep, hxd, hxn, hxp, hxf, hpn,
    hE, hNE, -⟩ := AllocateEntry_spec s free prev hinv hroom (Or.inr ⟨hplt, hpdel, hpnext⟩)
  have hprev0 : 0 < prev := by
    rcases Nat.eq_zero_or_pos prev with e | e
    · rw [e, (hinv.2.2.2.2.2.1 0 hb2).2 (List.mem_cons_self _ _)] at hpdel
      exact absurd hpdel (by simp)
    · exact e
  have hnodup := IsChain_nodup s hb1 _ r hchain
  have hpnotin : prev ∉ pre2 := by
    intro hm
    rw [List.nodup_append] at hnodup
    exact hnodup.2.2 hm (List.mem_singleton_self _)
  have hkeep2 : ∀ i ∈ pre2, s1.entryAt i = s.entryAt i := by
    intro i hi
    obtain ⟨a, b⟩ := IsChain_mem s _ _ hchain i (List.mem_append_left _ hi)
    exact hkeep i a b (fun e => hpnotin (e ▸ hi))
  have hchain1 : s1.IsChain r (pre2 ++ [prev, x]) := by
    apply IsChain_snoc s s1 prev x pre2 r hchain hl1
    · intro i hi; rw [hkeep2 i hi]; exact ⟨rfl, rfl⟩
    · rw [hpn hprev0]; exact hpdel
    · rw [hpn hprev0]
    · exact hxlt
    · exact hxd
    · exact hxn
  have hfields : ∀ i ∈ pre2 ++ [prev], (s1.entryAt i).mFirst = (s.entryAt i).mFirst ∧
      (s1.entryAt i).mPrevEntry = (s.entryAt i).mPrevEntry := by
    intro i hi
    rcases List.mem_append.1 hi with e | e
    · rw [hkeep2 i e]; exact ⟨rfl, rfl⟩
    · rw [List.mem_singleton.1 e, hpn hprev0]; exact ⟨rfl, rfl⟩
  have hlinked : s1.Linked (pre2 ++ [prev, x]) :=
    Linked_snoc s s1 prev x (by rw [hxf]; simp; omega) hxp pre2
      (Linked_of_Mirror s hb1 hM _ r hchain) hfields
  have happ : pre2 ++ [prev, x] = (pre2 ++ [prev]) ++ [x] := by simp
  have hr : r ∈ pre2 ++ [prev] := by
    cases pre2 with
    | nil =>
      rw [List.nil_append, IsChain_cons] at hchain
      rw [hchain.1]; simp
    | cons a rest =>
      rw [List.cons_append, IsChain_cons] at hchain
      rw [hchain.1]; simp
  obtain ⟨t1, t2, t3⟩ := HeapInv_transfer s s1 r r (pre2 ++ [prev]) (pre2 ++ [prev, x]) hb1 hl1
    hL hM hchain (fun _ => hfirst) hchain1 hlinked
    (fun i a b c => hkeep i a b (fun e => c (by rw [e]; simp)))
    (fun i a b => by
      by_cases c : i ∈ pre2 ++ [prev, x]
      · exact Or.inl c
      · have cx : i ≠ x := fun e => c (by rw [e]; simp)
        obtain ⟨d1, d2⟩ := AllocateEntry_live_back s s1 free free1 x hinv hinv1 hE hNE i a b cx
        refine Or.inr ⟨d1, d2, fun e => c ?_⟩
        rw [happ]
        exact List.mem_append_left _ e)
  exact ⟨s1, x, halloc, t1, t2, t3, hxdel, by rw [(hfields r hr).1]; exact hfirst⟩

/-- `AllocateEntry` for the first entry of a new record. -/
theorem AllocateEntry_first_live (s : VariableSizeStore) (free : List Nat)
    (hinv : s.Inv free) (hroom : (s.mEntries.length + 1) * sizeofEntry < 2 ^ 64)
    (hL : s.LiveChains) (hM : s.Mirror) :
    ∃ s2 n, s.AllocateEntry 0 = .ok (s2, n) ∧ s2.LiveChains ∧ s2.Mirror ∧
      (∀ i ids2, s.IsChain i ids2 → s2.IsChain i ids2) ∧
      (n < s.mEntries.length → (s.entryAt n).mDeleted = true) := by
  obtain ⟨hb1, hb2⟩ := Inv_bounds s free hinv
  obtain ⟨s1, free1, x, halloc, hinv1, hl1, hl2, hxlt, hx0, hxdel, hkeep, hxd, hxn, hxp, hxf, hpn,
    hE, hNE, -⟩ := AllocateEntry_spec s free 0 hinv hroom (Or.inl rfl)
  have hchain1 : s1.IsChain x [x] := by
    rw [IsChain_cons, IsChain_nil]
    exact ⟨rfl, hxlt, hxd, hxn⟩
  have h0 : ∀ i, i < s.mEntries.length → (s.entryAt i).mDeleted = false → i ≠ 0 := by
    intro i _ b e
    rw [e, (hinv.2.2.2.2.2.1 0 hb2).2 (List.mem_cons_self _ _)] at b
    exact absurd b (by simp)
  obtain ⟨t1, t2, t3⟩ := HeapInv_transfer s s1 LAST_CHAINED_ENTRY x [] [x] hb1 hl1
    hL hM ((IsChain_nil s _).2 rfl) (fun c => absurd rfl c) hchain1 trivial
    (fun i a b _ => hkeep i a b (h0 i a b))
    (fun i a b => by
      by_cases c : i = x
      · exact Or.inl (by rw [c]; simp)
      · obtain ⟨d1, d2⟩ := AllocateEntry_live_back s s1 free free1 x hinv hinv1 hE hNE i a b c
        exact Or.inr ⟨d1, d2, List.not_mem_nil _⟩)
  exact ⟨s1, x, halloc, t1, t2, fun i ids2 => t3 i ids2 (List.not_mem_nil _), hxdel⟩

end VariableSizeStore
end pastra
end whais

namespace whais
namespace pastra
namespace VariableSizeStore

open StoreEntry

/-- New bytes in an entry in use leave the invariant of the free entries, the
links and the marks as they are. -/
theorem Store_data (s1 : VariableSizeStore) (free1 : List Nat) (x : Nat) (e : StoreEntry)
    (hinv1 : s1.Inv free1) (hxlt : x < s1.mEntries.length)
    (hxdel : (s1.entryAt x).mDeleted = false)
    (he1 : e.mPrevEntry = (s1.entryAt x).mPrevEntry)
    (he2 : e.mNextEntry = (s1.entryAt x).mNextEntry)
    (he3 : e.mDeleted = (s1.entryAt x).mDeleted)
    (he4 : e.mFirst = (s1.entryAt x).mFirst)
    (he6 : e.mRawData.length = 48) :
    (s1.Store x e).Inv free1 ∧
    ∀ i, (((s1.Store x e).entryAt i).mDeleted = (s1.entryAt i).mDeleted ∧
      ((s1.Store x e).entryAt i).mNextEntry = (s1.entryAt i).mNextEntry) ∧
      ((s1.Store x e).entryAt i).mFirst = (s1.entryAt i).mFirst ∧
      ((s1.Store x e).entryAt i).mPrevEntry = (s1.entryAt i).mPrevEntry := by
  have hx0 : x ∉ 0 :: free1 := by
    intro hm
    rw [(hinv1.2.2.2.2.2.1 x hxlt).2 hm] at hxdel
    exact absurd hxdel (by simp)
  constructor
  · refine Inv_frame s1 _ free1 hinv1 (length_Store _ _ _) (Store_mEntriesCount _ _ _)
      (Store_mFirstFreeEntry _ _ _) ?_ ?_
    · intro i hi
      have c1 : i ≠ x := fun e => hx0 (e ▸ hi)
      exact entryAt_Store_ne s1 x i e c1
    · intro i hi hnot
      by_cases c1 : i = x
      · rw [c1, entryAt_Store_same s1 x e hxlt, he3]
        exact ⟨hxdel, he6⟩
      · rw [entryAt_Store_ne s1 x i e c1]
        refine ⟨?_, hinv1.2.2.1 i hi⟩
        cases hd : (s1.entryAt i).mDeleted with
        | false => rfl
        | true => exact absurd ((hinv1.2.2.2.2.2.1 i hi).1 hd) hnot
  · intro i
    by_cases c1 : i = x
    · rw [c1, entryAt_Store_same s1 x e hxlt]
      exact ⟨⟨he3, he2⟩, he4, he1⟩
    · rw [entryAt_Store_ne s1 x i e c1]
      exact ⟨⟨rfl, rfl⟩, rfl, rfl⟩

/-- The second loop of `UpdateRecord` keeps the chains of the heap: those that
start outside the record are the same, and `Mirror` holds of the new entries. -/
theorem UpdateRecordWrite_live (fuel : Nat) : ∀ (s : VariableSizeStore) (free pre post : List Nat)
    (r prev offset : Nat) (buffer : List Byte),
    s.Inv free → s.IsChain r (pre ++ post) →
    (post = [] → pre ≠ [] ∧ prev = pre.getLastD 0 ∧ offset = 0) →
    offset < 48 → buffer.length + 48 ≤ 2 ^ 32 →
    (s.mEntries.length + buffer.length + 1) * sizeofEntry < 2 ^ 64 →
    buffer.length < fuel → s.LiveChains → s.Mirror → (s.entryAt r).mFirst = true →
    ∃ s2, UpdateRecordWrite fuel s (post.headD LAST_CHAINED_ENTRY) prev offset buffer = .ok s2 ∧
      s2.LiveChains ∧ s2.Mirror ∧
      (∀ i ids2, i ∉ pre ++ post → s.IsChain i ids2 → s2.IsChain i ids2) := by
  induction fuel with
  | zero => intro s free pre post r prev offset buffer _ _ _ _ _ _ hf; omega
  | succ f ih =>
    intro s free pre post r prev offset buffer hinv hchain hpost ho hlen hroom hf hL hM hfirst
    by_cases hb : buffer = []
    · subst hb
      exact ⟨s, UpdateRecordWrite_nil _ _ _ _ _, hL, hM, fun _ _ _ h => h⟩
    · have hbl : 0 < buffer.length := List.length_pos.2 hb
      obtain ⟨hs1, hs2⟩ := Inv_bounds s free hinv
      obtain ⟨s1, free1, x, rest1, added1, halloc, hinv1, hchain1, hsplit, ha1, hpe, hpne, hdata1,
        hfl1, hle1, hle2, hfree1⟩ :=
        UpdateRecordWrite_alloc s free pre post r prev offset buffer.length hinv hchain hpost
          hroom hbl
      have hstep : s1.LiveChains ∧ s1.Mirror ∧
          (∀ i ids2, i ∉ pre ++ post → s.IsChain i ids2 → s1.IsChain i ids2) ∧
          (x ∈ added1 → x < s.mEntries.length → (s.entryAt x).mDeleted = true) ∧
          (s1.entryAt r).mFirst = true := by
        cases post with
        | cons y rest =>
          have hy := (IsChain_mem s _ _ hchain y
            (List.mem_append_right _ (List.mem_cons_self _ _))).1
          rw [List.headD_cons, if_neg (by unfold LAST_CHAINED_ENTRY; omega)] at halloc
          obtain ⟨e1, e2⟩ := Prod.mk.inj (Except.ok.inj halloc)
          subst e1
          refine ⟨hL, hM, fun _ _ _ h => h, ?_, hfirst⟩
          intro hx
          rw [hpne (by simp)] at hx
          exact absurd hx (List.not_mem_nil _)
        | nil =>
          obtain ⟨hpre, hprev, -⟩ := hpost rfl
          obtain ⟨pre2, p, rfl⟩ : ∃ pre2 p, pre = pre2 ++ [p] :=
            ⟨pre.dropLast, pre.getLast hpre, (List.dropLast_append_getLast hpre).symm⟩
          have hp : prev = p := by rw [hprev]; simp
          subst hp
          rw [List.append_nil] at hchain
          obtain ⟨s3, n, hA, t1, t2, t3, t4, t5⟩ := AllocateEntry_next_live s free pre2 r prev hinv
            (by unfold sizeofEntry at *; omega) hL hM hchain hfirst
          rw [List.headD_nil, if_pos rfl, hA] at halloc
          obtain ⟨e1, e2⟩ := Prod.mk.inj (Except.ok.inj halloc)
          subst e1 e2
          exact ⟨t1, t2, by simpa using t3, fun _ => t4, t5⟩
      obtain ⟨hL1, hM1, hK1, hnew, hfirst1⟩ := hstep
      obtain ⟨hb1, hb2⟩ := Inv_bounds s1 free1 hinv1
      obtain ⟨hxlt, hxdel⟩ := IsChain_mem s1 _ _ hchain1 x
        (List.mem_append_right _ (List.mem_cons_self _ _))
      have hxdata : (s1.entryAt x).mRawData.length = 48 := hinv1.2.2.1 x hxlt
      obtain ⟨x2, rest2, hdrop, hchx⟩ := IsChain_drop s1 pre.length _ r hchain1 (by simp)
      rw [List.drop_left] at hdrop
      obtain ⟨ex, er⟩ := List.cons.inj hdrop
      subst ex er
      rw [IsChain_cons] at hchx
      have hnext := IsChain_head s1 _ _ hchx.2.2.2
      rw [UpdateRecordWrite_step f s s1 _ prev offset x buffer hb halloc hxlt hxdel hxdata ho hlen]
      generalize hc : min buffer.length (48 - offset) = c
      have hcl : (buffer.take c).length = c := by rw [List.length_take]; omega
      generalize he : (⟨(s1.entryAt x).mPrevEntry, (s1.entryAt x).mNextEntry,
        (s1.entryAt x).mDeleted, (s1.entryAt x).mFirst,
        memcpy (s1.entryAt x).mRawData offset (buffer.take c)⟩ : StoreEntry) = e
      have he1 : e.mPrevEntry = (s1.entryAt x).mPrevEntry := by rw [← he]
      have he2 : e.mNextEntry = (s1.entryAt x).mNextEntry := by rw [← he]
      have he3 : e.mDeleted = (s1.entryAt x).mDeleted := by rw [← he]
      have he4 : e.mFirst = (s1.entryAt x).mFirst := by rw [← he]
      have he5 : e.mRawData = memcpy (s1.entryAt x).mRawData offset (buffer.take c) := by rw [← he]
      have he6 : e.mRawData.length = 48 := by
        rw [he5, memcpy_length _ _ _ (by rw [hcl]; omega), hxdata]
      obtain ⟨hinv2, hkeep⟩ := Store_data s1 free1 x e hinv1 hxlt hxdel he1 he2 he3 he4 he6
      have hL2 : (s1.Store x e).LiveChains :=
        LiveChains_frame s1 _ (length_Store _ _ _) (fun i => (hkeep i).1) hL1
      have hM2 : (s1.Store x e).Mirror :=
        Mirror_frame s1 _ (length_Store _ _ _)
          (fun i => ⟨(hkeep i).1.1, (hkeep i).1.2, (hkeep i).2.1, fun _ => (hkeep i).2.2⟩) hM1
      have hchain2 : (s1.Store x e).IsChain r (pre ++ x :: rest1) :=
        IsChain_frame s1 _ _ r hchain1 (by rw [length_Store]) (fun i _ => (hkeep i).1)
      have hK2 : ∀ i ids2, i ∉ pre ++ post → s.IsChain i ids2 →
          (s1.Store x e).IsChain i ids2 := by
        intro i ids2 hi h
        exact IsChain_frame s1 _ _ i (hK1 i ids2 hi h) (by rw [length_Store])
          (fun j _ => (hkeep j).1)
      obtain ⟨f2, hf2⟩ : ∃ f2, f = f2 + 1 := ⟨f - 1, by omega⟩
      have hmod : (offset + c) % 48 = if c = 48 - offset then 0 else offset + c := by
        split
        · next c1 => rw [c1]; have : offset + (48 - offset) = 48 := by omega
                     rw [this]
        · next c1 => exact Nat.mod_eq_of_lt (by omega)
      rw [hnext]
      by_cases hd : buffer.drop c = []
      · rw [hd, hf2, UpdateRecordWrite_nil]
        exact ⟨_, rfl, hL2, hM2, hK2⟩
      · have hdl : 0 < (buffer.drop c).length := List.length_pos.2 hd
        rw [List.length_drop] at hdl
        have hc48 : c = 48 - offset := by omega
        rw [hmod, if_pos hc48]
        obtain ⟨s2, h1, h2, h3, h4⟩ :=
          ih (s1.Store x e) free1 (pre ++ [x]) rest1 r x 0 (buffer.drop c) hinv2
            (by rw [List.append_assoc]; exact hchain2)
            (fun _ => ⟨by simp, by simp, rfl⟩) (by omega)
            (by rw [List.length_drop]; omega)
            (by rw [List.length_drop, length_Store]; unfold sizeofEntry at *; omega)
            (by rw [List.length_drop]; omega) hL2 hM2
            (by rw [(hkeep r).2.1]; exact hfirst1)
        refine ⟨s2, h1, h2, h3, ?_⟩
        intro i ids2 hi h
        refine h4 i ids2 ?_ (hK2 i ids2 hi h)
        intro hm
        have hm2 : i ∈ pre ++ (post ++ added1) := by
          rw [hsplit]; simpa using hm
        rcases List.mem_append.1 hm2 with c1 | c1
        · exact hi (List.mem_append_left _ c1)
        · rcases List.mem_append.1 c1 with c2 | c2
          · exact hi (List.mem_append_right _ c2)
          · have hp : post = [] := by
              by_contra c3
              rw [hpne c3] at c2
              exact absurd c2 (List.not_mem_nil _)
            have hix : i = x := by
              rw [hpe hp] at c2
              exact List.mem_singleton.1 c2
            have hxa : x ∈ added1 := by rw [hpe hp]; simp
            cases ids2 with
            | nil =>
              rw [IsChain_nil] at h
              rw [hix] at h
              unfold LAST_CHAINED_ENTRY at h
              omega
            | cons y rest =>
              rw [IsChain_cons] at h
              obtain ⟨g1, g2, g3, -⟩ := h
              rw [← g1, hix] at g2 g3
              rw [hnew hxa g2] at g3
              exact absurd g3 (by simp)

/-- `UpdateRecord` keeps the chains of the heap. -/
theorem UpdateRecord_live (s : VariableSizeStore) (free ids : List Nat) (r offset : Nat)
    (buffer : List Byte) (hinv : s.Inv free) (hchain : s.IsChain r ids) (hids : ids ≠ [])
    (ho : offset ≤ 48 * ids.length) (hlen : buffer.length + 48 ≤ 2 ^ 32)
    (hroom : (s.mEntries.length + buffer.length + 1) * sizeofEntry < 2 ^ 64)
    (hL : s.LiveChains) (hM : s.Mirror) (hfirst : (s.entryAt r).mFirst = true) :
    ∃ s2, s.UpdateRecord r offset buffer = .ok s2 ∧ s2.LiveChains ∧ s2.Mirror ∧
      (∀ i ids2, i ∉ ids → s.IsChain i ids2 → s2.IsChain i ids2) := by
  obtain ⟨hb1, hb2⟩ := Inv_bounds s free hinv
  have hskip := UpdateRecordSkip_spec s hb1 ids r r offset (offset / 48 + 1) hchain ho (by omega)
  have hsplit : ids.take (offset / 48) ++ ids.drop (offset / 48) = ids := List.take_append_drop _ _
  have hpost : ids.drop (offset / 48) = [] →
      ids.take (offset / 48) ≠ [] ∧ (ids.take (offset / 48)).getLastD r =
        (ids.take (offset / 48)).getLastD 0 ∧ offset % 48 = 0 := by
    intro hd
    have hl := congrArg List.length hd
    rw [List.length_drop, List.length_nil] at hl
    have hne : ids.take (offset / 48) ≠ [] := by
      rw [hd, List.append_nil] at hsplit
      rw [hsplit]; exact hids
    exact ⟨hne, getLastD_of_ne_nil _ _ _ hne, by omega⟩
  have hrun : s.UpdateRecord r offset buffer =
      UpdateRecordWrite (buffer.length + 1) s ((ids.drop (offset / 48)).headD LAST_CHAINED_ENTRY)
        ((ids.take (offset / 48)).getLastD r) (offset % 48) buffer := by
    unfold UpdateRecord
    rw [show offset / StoreEntry.Size = offset / 48 from rfl, hskip]
    rfl
  rw [hrun]
  obtain ⟨s2, h1, h2, h3, h4⟩ :=
    UpdateRecordWrite_live (buffer.length + 1) s free (ids.take (offset / 48))
      (ids.drop (offset / 48)) r ((ids.take (offset / 48)).getLastD r) (offset % 48) buffer hinv
      (by rw [hsplit]; exact hchain) hpost (Nat.mod_lt _ (by omega)) hlen hroom (by omega)
      hL hM hfirst
  rw [hsplit] at h4
  exact ⟨s2, h1, h2, h3, h4⟩

end VariableSizeStore
end pastra
end whais

namespace whais
namespace pastra
namespace VariableSizeStore

open StoreEntry

/-- `AddRecord` keeps the chains of the heap. -/
theorem AddRecord_live (s : VariableSizeStore) (free : List Nat) (buffer : List Byte)
    (hinv : s.Inv free) (hlen : buffer.length + 48 ≤ 2 ^ 32)
    (hroom : (s.mEntries.length + buffer.length + 2) * sizeofEntry < 2 ^ 64)
    (hL : s.LiveChains) (hM : s.Mirror) :
    ∃ s2 r, s.AddRecord buffer = .ok (s2, r) ∧ s2.LiveChains ∧ s2.Mirror ∧
      (∀ i ids2, s.IsChain i ids2 → s2.IsChain i ids2) := by
  obtain ⟨s1, free1, n, halloc, hinv1, hl1, hl2, hnlt, hn0, -, -, hnd, hnn, -, hnf, -, hE, hNE, -⟩ :=
    AllocateEntry_spec s free 0 hinv (by unfold sizeofEntry at *; omega) (Or.inl rfl)
  obtain ⟨s3, n3, hA, t1, t2, t3, t4⟩ := AllocateEntry_first_live s free hinv
    (by unfold sizeofEntry at *; omega) hL hM
  rw [halloc] at hA
  obtain ⟨e1, e2⟩ := Prod.mk.inj (Except.ok.inj hA)
  subst e1 e2
  obtain ⟨hb1, hb2⟩ := Inv_bounds s1 free1 hinv1
  generalize he : (⟨1, LAST_CHAINED_ENTRY, false, true, (s1.entryAt n).mRawData⟩ : StoreEntry) = e
  have he2 : e.mNextEntry = LAST_CHAINED_ENTRY := by rw [← he]
  have he3 : e.mDeleted = false := by rw [← he]
  have he4 : e.mFirst = true := by rw [← he]
  have he5 : e.mRawData = (s1.entryAt n).mRawData := by rw [← he]
  have hnf2 : (s1.entryAt n).mFirst = true := by rw [hnf]; simp
  have hn0b : n ∉ 0 :: free1 := by
    intro hm
    rw [(hinv1.2.2.2.2.2.1 n hnlt).2 hm] at hnd
    exact absurd hnd (by simp)
  have hinv2 : (s1.Store n e).Inv free1 := by
    refine Inv_frame s1 _ free1 hinv1 (length_Store _ _ _) (Store_mEntriesCount _ _ _)
      (Store_mFirstFreeEntry _ _ _) ?_ ?_
    · intro i hi
      have c1 : i ≠ n := fun e => hn0b (e ▸ hi)
      exact entryAt_Store_ne s1 n i e c1
    · intro i hi hnot
      by_cases c1 : i = n
      · rw [c1, entryAt_Store_same s1 n e hnlt, he3, he5]
        exact ⟨rfl, hinv1.2.2.1 n hnlt⟩
      · rw [entryAt_Store_ne s1 n i e c1]
        refine ⟨?_, hinv1.2.2.1 i hi⟩
        cases hd : (s1.entryAt i).mDeleted with
        | false => rfl
        | true => exact absurd ((hinv1.2.2.2.2.2.1 i hi).1 hd) hnot
  have hsame := entryAt_Store_same s1 n e hnlt
  have hkeep : ∀ i, ((s1.Store n e).entryAt i).mDeleted = (s1.entryAt i).mDeleted ∧
      ((s1.Store n e).entryAt i).mNextEntry = (s1.entryAt i).mNextEntry ∧
      ((s1.Store n e).entryAt i).mFirst = (s1.entryAt i).mFirst ∧
      ((s1.entryAt i).mFirst = false →
        ((s1.Store n e).entryAt i).mPrevEntry = (s1.entryAt i).mPrevEntry) := by
    intro i
    by_cases c1 : i = n
    · rw [c1, hsame, he3, he2, he4, hnd, hnn, hnf2]
      exact ⟨rfl, rfl, rfl, fun c => absurd c (by simp)⟩
    · rw [entryAt_Store_ne s1 n i e c1]
      exact ⟨rfl, rfl, rfl, fun _ => rfl⟩
  have hL2 : (s1.Store n e).LiveChains :=
    LiveChains_frame s1 _ (length_Store _ _ _) (fun i => ⟨(hkeep i).1, (hkeep i).2.1⟩) t1
  have hM2 : (s1.Store n e).Mirror := Mirror_frame s1 _ (length_Store _ _ _) hkeep t2
  have hK2 : ∀ i ids2, s.IsChain i ids2 → (s1.Store n e).IsChain i ids2 := by
    intro i ids2 h
    exact IsChain_frame s1 _ _ i (t3 i ids2 h) (by rw [length_Store])
      (fun j _ => ⟨(hkeep j).1, (hkeep j).2.1⟩)
  have hchain2 : (s1.Store n e).IsChain n [n] := by
    rw [IsChain_cons, IsChain_nil, length_Store, hsame]
    exact ⟨rfl, hnlt, he3, he2⟩
  have hrun : s.AddRecord buffer =
      if n ≠ 0 ∧ buffer.length > 0 then
        ((s1.Store n e).UpdateRecord n 0 buffer).bind fun s3 => .ok (s3, n)
      else .ok (s1.Store n e, n) := by
    unfold AddRecord
    simp only [bind]
    rw [halloc]
    simp only [Except.bind]
    rw [RetriveItem_lt _ _ hnlt]
    dsimp only
    rw [AddRecord_entry, he]
  rw [hrun]
  by_cases hb : buffer = []
  · subst hb
    rw [if_neg (by simp)]
    exact ⟨_, n, rfl, hL2, hM2, hK2⟩
  · have hbl : 0 < buffer.length := List.length_pos.2 hb
    rw [if_pos ⟨hn0, hbl⟩]
    obtain ⟨s2, h1, h2, h3, h4⟩ :=
      UpdateRecord_live (s1.Store n e) free1 [n] n 0 buffer hinv2 hchain2 (by simp) (by simp) hlen
        (by rw [length_Store]; unfold sizeofEntry at *; omega) hL2 hM2 (by rw [hsame, he4])
    rw [h1]
    refine ⟨s2, n, rfl, h2, h3, ?_⟩
    intro i ids2 h
    refine h4 i ids2 ?_ (hK2 i ids2 h)
    intro hm
    have hin : i = n := List.mem_singleton.1 hm
    cases ids2 with
    | nil =>
      rw [IsChain_nil, hin] at h
      unfold LAST_CHAINED_ENTRY at h
      omega
    | cons y rest =>
      rw [IsChain_cons] at h
      obtain ⟨g1, g2, g3, -⟩ := h
      rw [← g1, hin] at g2 g3
      rw [t4 g2] at g3
      exact absurd g3 (by simp)

/-- A new count of references in the first entry of a record keeps the chains
of the heap. -/
theorem SetPrevEntry_live (s : VariableSizeStore) (free ids : List Nat) (r count : Nat)
    (hinv : s.Inv free) (hchain : s.IsChain r ids) (hids : ids ≠ []) (hc : count < 2 ^ 64)
    (hfirst : (s.entryAt r).mFirst = true) (hL : s.LiveChains) (hM : s.Mirror) :
    (s.Store r ((s.entryAt r).SetPrevEntry count)).LiveChains ∧
    (s.Store r ((s.entryAt r).SetPrevEntry count)).Mirror ∧
    (∀ i ids2, s.IsChain i ids2 →
      (s.Store r ((s.entryAt r).SetPrevEntry count)).IsChain i ids2) := by
  obtain ⟨hx, hxd, h1, h2, h3, h4⟩ := SetPrevEntry_spec s free ids r count hinv hchain hids hc
  have hkeep : ∀ i, ((s.Store r ((s.entryAt r).SetPrevEntry count)).entryAt i).mDeleted
        = (s.entryAt i).mDeleted ∧
      ((s.Store r ((s.entryAt r).SetPrevEntry count)).entryAt i).mNextEntry
        = (s.entryAt i).mNextEntry ∧
      ((s.Store r ((s.entryAt r).SetPrevEntry count)).entryAt i).mFirst = (s.entryAt i).mFirst ∧
      ((s.entryAt i).mFirst = false →
        ((s.Store r ((s.entryAt r).SetPrevEntry count)).entryAt i).mPrevEntry
          = (s.entryAt i).mPrevEntry) := by
    intro i
    by_cases c1 : i = r
    · rw [c1, h3]
      exact ⟨rfl, rfl, rfl, fun c => by rw [hfirst] at c; exact absurd c (by simp)⟩
    · rw [entryAt_Store_ne s r i _ c1]
      exact ⟨rfl, rfl, rfl, fun _ => rfl⟩
  refine ⟨LiveChains_frame s _ h4 (fun i => ⟨(hkeep i).1, (hkeep i).2.1⟩) hL,
    Mirror_frame s _ h4 hkeep hM, ?_⟩
  intro i ids2 h
  exact IsChain_frame s _ _ i h (by rw [h4]) (fun j _ => ⟨(hkeep j).1, (hkeep j).2.1⟩)

/-- `RemoveRecord` keeps the chains of the other records. -/
theorem RemoveRecord_live (s : VariableSizeStore) (free ids : List Nat) (r : Nat)
    (hinv : s.Inv free) (hchain : s.IsChain r ids) (hids : ids ≠ [])
    (hfirst : (s.entryAt r).mFirst = true) (hL : s.LiveChains) (hM : s.Mirror) :
    ∃ s2 free2, s.RemoveRecord r = .ok s2 ∧ s2.Inv free2 ∧ List.Perm free2 (ids ++ free) ∧
      s2.LiveChains ∧ s2.Mirror ∧
      (∀ i ids2, i ∉ ids → s.IsChain i ids2 → s2.IsChain i ids2) := by
  obtain ⟨hb1, hb2⟩ := Inv_bounds s free hinv
  obtain ⟨s2, free2, hrem, hinv2, hperm, hl2, hframe⟩ :=
    RemoveRecord_spec s free ids r hinv hchain hids hfirst
  obtain ⟨t1, t2, t3⟩ := HeapInv_transfer s s2 r LAST_CHAINED_ENTRY ids [] hb1 (by rw [hl2])
    hL hM hchain (fun _ => hfirst) ((IsChain_nil s2 _).2 rfl) trivial
    (fun i _ b c => hframe i c b)
    (fun i a b => by
      have hdel2 : i ∉ 0 :: free2 := by
        intro hm
        rw [(hinv2.2.2.2.2.2.1 i a).2 hm] at b
        exact absurd b (by simp)
      have hlt : i < s.mEntries.length := by rw [← hl2]; exact a
      have hi1 : i ∉ ids := fun c =>
        hdel2 (List.mem_cons_of_mem _ (hperm.symm.subset (List.mem_append_left _ c)))
      refine Or.inr ⟨hlt, ?_, hi1⟩
      cases hds : (s.entryAt i).mDeleted with
      | false => rfl
      | true =>
        exfalso
        apply hdel2
        rcases List.mem_cons.1 ((hinv.2.2.2.2.2.1 i hlt).1 hds) with c | c
        · rw [c]; exact List.mem_cons_self _ _
        · exact List.mem_cons_of_mem _ (hperm.symm.subset (List.mem_append_right _ c)))
  exact ⟨s2, free2, hrem, hinv2, hperm, t1, t2, t3⟩

/-- The first entry of a record is no entry of the chain of another record. -/
theorem first_outside (s : VariableSizeStore) (hM : s.Mirror) (r r2 : Nat) (ids : List Nat)
    (hlen : s.mEntries.length < 2 ^ 58)
    (hchain : s.IsChain r ids) (hne : r2 ≠ r) (hfirst : (s.entryAt r2).mFirst = true) :
    r2 ∉ ids := by
  intro hm
  rcases IsChain_pred s ids r hchain r2 hm with d | ⟨p, -, p1, p2, p3⟩
  · exact hne d
  · have hlt := (IsChain_mem s ids r hchain r2 hm).1
    have q := (hM p p1 p2 (by rw [p3]; unfold LAST_CHAINED_ENTRY; omega)).1
    rw [p3, hfirst] at q
    exact absurd q (by simp)

theorem Init_HeapInv : Init.HeapInv [] := by
  refine ⟨Init_Inv, ?_, ?_⟩
  · intro i hi hd
    rw [(Init_Inv.2.2.2.2.2.1 i hi).2 (by
      have : Init.mEntries.length = 1 := rfl
      rw [this] at hi
      have : i = 0 := by omega
      rw [this]; exact List.mem_cons_self _ _)] at hd
    exact absurd hd (by simp)
  · intro i hi hd
    rw [(Init_Inv.2.2.2.2.2.1 i hi).2 (by
      have : Init.mEntries.length = 1 := rfl
      rw [this] at hi
      have : i = 0 := by omega
      rw [this]; exact List.mem_cons_self _ _)] at hd
    exact absurd hd (by simp)

end VariableSizeStore
end pastra
end whais

namespace whais
namespace pastra
namespace VariableSizeStore

open StoreEntry

/-- Within the sizes that the `uint_t` parameters of `StoreEntry::Write` hold,
the operations of the heap keep its invariant `HeapInv`, which holds of the new
heap. `HeapInv s free` says that the free entries, followed from
entry 0 by their next entries, are the list `free` without repetition, which
ends in `LAST_DELETED_ENTRY`, that entry 0 and the entries of `free` are the
deleted entries, that the previous entries mirror the next entries, that
`mFirstFreeEntry` is the next entry of entry 0, and that from every entry in
use the next entries stay on entries in use and reach `LAST_CHAINED_ENTRY`.
`AddRecord`, `UpdateRecord` of a record within or at the end of its bytes,
`IncrementRecordRef` and `DecrementRecordRef` of a record with references
return, and `HeapInv` holds of the heap they return. The record added has no
more entries than one, or than the 48th part of its size rounded up; the
record updated has no more entries than before, or than the 48th part of the
end of the bytes written rounded up; every other record keeps its entries.
So the entry whose next entry is `LAST_CHAINED_ENTRY` is reached from the
first entry of a record after less than `max 1 ⌈size / 48⌉` steps. -/
theorem operations_keep_heap_invariant :
    Init.HeapInv [] ∧
    (∀ (s : VariableSizeStore) (free : List Nat) (buffer : List Byte), s.HeapInv free →
      buffer.length + 48 ≤ 2 ^ 32 →
      (s.mEntries.length + buffer.length + 2) * sizeofEntry < 2 ^ 64 →
      ∃ s2 free2 r rest, s.AddRecord buffer = .ok (s2, r) ∧ s2.HeapInv free2 ∧
        s2.IsChain r (r :: rest) ∧ (s2.entryAt r).mFirst = true ∧
        (r :: rest).length ≤ max 1 ((buffer.length + 47) / 48) ∧
        (∀ r2 ids2, s.IsChain r2 ids2 → s2.IsChain r2 ids2)) ∧
    (∀ (s : VariableSizeStore) (free ids : List Nat) (r offset : Nat) (buffer : List Byte),
      s.HeapInv free → s.IsChain r ids → ids ≠ [] → (s.entryAt r).mFirst = true →
      offset ≤ 48 * ids.length → buffer.length + 48 ≤ 2 ^ 32 →
      (s.mEntries.length + buffer.length + 1) * sizeofEntry < 2 ^ 64 →
      ∃ s2 free2 added, s.UpdateRecord r offset buffer = .ok s2 ∧ s2.HeapInv free2 ∧
        s2.IsChain r (ids ++ added) ∧ (s2.entryAt r).mFirst = true ∧
        (ids ++ added).length ≤ max ids.length ((offset + buffer.length + 47) / 48) ∧
        s.OtherRecordsKept s2 r) ∧
    (∀ (s : VariableSizeStore) (free ids : List Nat) (r count : Nat),
      s.HeapInv free → s.IsChain r ids → ids ≠ [] → (s.entryAt r).mFirst = true →
      (s.entryAt r).mPrevEntry = count → 0 < count → count + 1 < 2 ^ 64 →
      ∃ s2, s.IncrementRecordRef r = .ok s2 ∧ s2.HeapInv free ∧
        (∀ r2 ids2, s.IsChain r2 ids2 → s2.IsChain r2 ids2)) ∧
    (∀ (s : VariableSizeStore) (free ids : List Nat) (r count : Nat),
      s.HeapInv free → s.IsChain r ids → ids ≠ [] → (s.entryAt r).mFirst = true →
      (s.entryAt r).mPrevEntry = count → 1 < count → count < 2 ^ 64 →
      ∃ s2, s.DecrementRecordRef r = .ok s2 ∧ s2.HeapInv free ∧
        (∀ r2 ids2, s.IsChain r2 ids2 → s2.IsChain r2 ids2)) ∧
    (∀ (s : VariableSizeStore) (free ids : List Nat) (r : Nat),
      s.HeapInv free → s.IsChain r ids → ids ≠ [] → (s.entryAt r).mFirst = true →
      (s.entryAt r).mPrevEntry = 1 →
      ∃ s2 free2, s.DecrementRecordRef r = .ok s2 ∧ s2.HeapInv free2 ∧
        List.Perm free2 (ids ++ free) ∧ s.OtherRecordsKept s2 r) := by
  refine ⟨Init_HeapInv, ?_, ?_, ?_, ?_, ?_⟩
  · intro s free buffer ⟨hinv, hL, hM⟩ hlen hroom
    obtain ⟨s2, free2, r, rest, hrun, hinv2, hchain2, -, hf, -, -, -, hb, -⟩ :=
      AddRecord_spec s free buffer hinv hlen hroom
    obtain ⟨s3, r3, hrun3, l1, l2, l3⟩ := AddRecord_live s free buffer hinv hlen hroom hL hM
    rw [hrun] at hrun3
    obtain ⟨e1, e2⟩ := Prod.mk.inj (Except.ok.inj hrun3)
    subst e1 e2
    refine ⟨s2, free2, r, rest, hrun, ⟨hinv2, l1, l2⟩, hchain2, hf, ?_, l3⟩
    rw [List.length_cons]
    rcases Nat.eq_zero_or_pos rest.length with c | c
    · rw [c]; exact Nat.le_max_left _ _
    · have := hb (List.length_pos.1 c)
      exact Nat.le_trans (by omega) (Nat.le_max_right _ _)
  · intro s free ids r offset buffer ⟨hinv, hL, hM⟩ hchain hids hfirst ho hlen hroom
    obtain ⟨hb1, -⟩ := Inv_bounds s free hinv
    obtain ⟨s2, free2, added, hrun, hinv2, hchain2, hfl, -, -, hadd, -⟩ :=
      UpdateRecord_spec s free ids r offset buffer hinv hchain hids ho hlen hroom
    obtain ⟨s3, hrun3, l1, l2, l3⟩ :=
      UpdateRecord_live s free ids r offset buffer hinv hchain hids ho hlen hroom hL hM hfirst
    rw [hrun] at hrun3
    have e1 := Except.ok.inj hrun3
    subst e1
    have hr : r ∈ ids := by
      cases ids with
      | nil => exact absurd rfl hids
      | cons x rest =>
        rw [IsChain_cons] at hchain
        rw [hchain.1]; exact List.mem_cons_self _ _
    refine ⟨s2, free2, added, hrun, ⟨hinv2, l1, l2⟩, hchain2,
      by rw [(hfl r hr).1]; exact hfirst, ?_,
      fun r2 ids2 hne hf2 hc => l3 r2 ids2 (first_outside s hM r r2 ids hb1 hchain hne hf2) hc⟩
    by_cases ha : added = []
    · rw [ha, List.append_nil]; exact Nat.le_max_left _ _
    · have := hadd ha
      exact Nat.le_trans (by omega) (Nat.le_max_right _ _)
  · intro s free ids r count ⟨hinv, hL, hM⟩ hchain hids hfirst href h0 hc
    obtain ⟨hx, hxd, h1, h2, h3, h4⟩ :=
      SetPrevEntry_spec s free ids r (count + 1) hinv hchain hids hc
    obtain ⟨l1, l2, l3⟩ :=
      SetPrevEntry_live s free ids r (count + 1) hinv hchain hids hc hfirst hL hM
    refine ⟨_, ?_, ⟨h1, l1, l2⟩, l3⟩
    unfold IncrementRecordRef
    simp only [bind, Except.bind]
    rw [RetriveItem_lt _ _ hx]
    dsimp only
    rw [assert_true _ (by simpa [IsFirstEntry] using hfirst),
      assert_true _ (by simpa [IsDeleted] using hxd),
      assert_true _ (by rw [decide_eq_true_eq, PrevEntry, href]; exact h0)]
    dsimp only
    rw [PrevEntry, href]
  · intro s free ids r count ⟨hinv, hL, hM⟩ hchain hids hfirst href h0 hc
    obtain ⟨hx, hxd, h1, h2, h3, h4⟩ :=
      SetPrevEntry_spec s free ids r (count - 1) hinv hchain hids (by omega)
    obtain ⟨l1, l2, l3⟩ :=
      SetPrevEntry_live s free ids r (count - 1) hinv hchain hids (by omega) hfirst hL hM
    refine ⟨_, ?_, ⟨h1, l1, l2⟩, l3⟩
    unfold DecrementRecordRef
    simp only [bind, Except.bind]
    rw [RetriveItem_lt _ _ hx]
    dsimp only
    rw [assert_true _ (by simpa [IsFirstEntry] using hfirst),
      assert_true _ (by simpa [IsDeleted] using hxd),
      assert_true _ (by rw [decide_eq_true_eq, PrevEntry, href]; omega)]
    dsimp only
    rw [PrevEntry, href, if_neg (by omega)]
  · intro s free ids r ⟨hinv, hL, hM⟩ hchain hids hfirst href
    obtain ⟨hb1, -⟩ := Inv_bounds s free hinv
    obtain ⟨hx, hxd, h1, h2, h3, h4⟩ :=
      SetPrevEntry_spec s free ids r 0 hinv hchain hids (by omega)
    obtain ⟨l1, l2, l3⟩ :=
      SetPrevEntry_live s free ids r 0 hinv hchain hids (by omega) hfirst hL hM
    obtain ⟨s2, free2, hrem, hinv2, hperm, m1, m2, m3⟩ :=
      RemoveRecord_live _ free ids r h1 h2 hids (by rw [h3]; exact hfirst) l1 l2
    refine ⟨s2, free2, ?_, ⟨hinv2, m1, m2⟩, hperm,
      fun r2 ids2 hne hf2 hc =>
        m3 r2 ids2 (first_outside s hM r r2 ids hb1 hchain hne hf2) (l3 r2 ids2 hc)⟩
    unfold DecrementRecordRef
    simp only [bind, Except.bind]
    rw [RetriveItem_lt _ _ hx]
    dsimp only
    rw [assert_true _ (by simpa [IsFirstEntry] using hfirst),
      assert_true _ (by simpa [IsDeleted] using hxd),
      assert_true _ (by rw [decide_eq_true_eq, PrevEntry, href]; omega)]
    dsimp only
    rw [PrevEntry, href, if_pos (by omega)]
    exact hrem

/-- On the new heap a record of 100 bytes is added, `HeapInv` holds of the
heap returned, and the record has no more than three entries. -/
theorem operations_keep_heap_invariant_witness :
    ∃ s2 free2 r rest, Init.AddRecord (List.replicate 100 7 : List Byte) = .ok (s2, r) ∧
      s2.HeapInv free2 ∧ s2.IsChain r (r :: rest) ∧ (s2.entryAt r).mFirst = true ∧
      (r :: rest).length ≤ max 1 (((List.replicate 100 7 : List Byte).length + 47) / 48) ∧
      (∀ r2 ids2, Init.IsChain r2 ids2 → s2.IsChain r2 ids2) :=
  operations_keep_heap_invariant.2.1 Init [] (List.replicate 100 7 : List Byte)
    operations_keep_heap_invariant.1 (by simp) (by simp [Init, sizeofEntry])

end VariableSizeStore
end pastra
end whais

/-! ## Sizes that do not fit the `uint_t` parameters of `StoreEntry::Write` -/

namespace whais
namespace pastra
namespace VariableSizeStore

open StoreEntry

/-- A turn of the second loop of `UpdateRecord` whose count of bytes is a
multiple of `2 ^ 32`: `StoreEntry::Write` takes the count as 0, writes nothing,
and the assertion on `chunkSize` fails. -/
theorem UpdateRecordWrite_count_zero (fuel : Nat) (s : VariableSizeStore) (x prev : Nat)
    (buffer : List Byte) (hx : x < s.mEntries.length) (hd : (s.entryAt x).mDeleted = false)
    (hxl : x ≠ LAST_CHAINED_ENTRY)
    (hlen : buffer.length % 2 ^ 32 = 0) (hpos : 0 < buffer.length) :
    UpdateRecordWrite (fuel + 1) s x prev 0 buffer = .error .UNDEFINED := by
  rw [UpdateRecordWrite]
  simp only [bind]
  rw [if_pos hpos, if_neg hxl]
  simp only [Except.bind]
  rw [RetriveItem_lt _ _ hx]
  dsimp only
  rw [assert_true _ (by simpa [IsDeleted] using hd)]
  dsimp only
  unfold StoreEntry.Write
  simp only [hlen, Nat.zero_mod, Nat.add_zero, StoreEntry.Size, ENTRY_SIZE]
  simp [assert]

/-- A turn of the second loop of `UpdateRecord` at offset 1 with `2 ^ 32 - 1`
bytes: in `StoreEntry::Write` the sum `count + offset` wraps to 0, the count is
not cut to the 47 bytes left in the entry, and the copy leaves the entry. -/
theorem UpdateRecordWrite_overrun (fuel : Nat) (s : VariableSizeStore) (x prev : Nat)
    (buffer : List Byte) (hx : x < s.mEntries.length) (hd : (s.entryAt x).mDeleted = false)
    (hxl : x ≠ LAST_CHAINED_ENTRY) (hdata : (s.entryAt x).mRawData.length = 48)
    (hlen : buffer.length = 2 ^ 32 - 1) :
    UpdateRecordWrite (fuel + 1) s x prev 1 buffer = .error .UNDEFINED := by
  rw [UpdateRecordWrite]
  simp only [bind]
  rw [if_pos (by omega), if_neg hxl]
  simp only [Except.bind]
  rw [RetriveItem_lt _ _ hx]
  dsimp only
  rw [assert_true _ (by simpa [IsDeleted] using hd)]
  dsimp only
  unfold StoreEntry.Write
  simp only [hlen, hdata, StoreEntry.Size, ENTRY_SIZE]
  simp


/-- `AddRecord` of a buffer whose size is a multiple of `2 ^ 32`. -/
theorem AddRecord_count_zero (s : VariableSizeStore) (free : List Nat) (buffer : List Byte)
    (hinv : s.Inv free) (hroom : (s.mEntries.length + 1) * sizeofEntry < 2 ^ 64)
    (hlen : buffer.length % 2 ^ 32 = 0) (hpos : 0 < buffer.length) :
    s.AddRecord buffer = .error .UNDEFINED := by
  obtain ⟨s1, free1, n, halloc, hinv1, hl1, hl2, hnlt, hn0, -, -, hnd, -⟩ :=
    AllocateEntry_spec s free 0 hinv hroom (Or.inl rfl)
  obtain ⟨hb1, hb2⟩ := Inv_bounds s1 free1 hinv1
  generalize he : (⟨1, LAST_CHAINED_ENTRY, false, true, (s1.entryAt n).mRawData⟩ : StoreEntry) = e
  have he2 : e.mNextEntry = LAST_CHAINED_ENTRY := by rw [← he]
  have he3 : e.mDeleted = false := by rw [← he]
  have hsame := entryAt_Store_same s1 n e hnlt
  have hchain2 : (s1.Store n e).IsChain n [n] := by
    rw [IsChain_cons, IsChain_nil, length_Store, hsame]
    exact ⟨rfl, hnlt, he3, he2⟩
  have hrun : s.AddRecord buffer =
      if n ≠ 0 ∧ buffer.length > 0 then
        ((s1.Store n e).UpdateRecord n 0 buffer).bind fun s3 => .ok (s3, n)
      else .ok (s1.Store n e, n) := by
    unfold AddRecord
    simp only [bind]
    rw [halloc]
    simp only [Except.bind]
    rw [RetriveItem_lt _ _ hnlt]
    dsimp only
    rw [AddRecord_entry, he]
  have hskip := UpdateRecordSkip_spec (s1.Store n e) (by rw [length_Store]; exact hb1) [n] n n 0 1
    hchain2 (by simp) (by omega)
  have hupd : (s1.Store n e).UpdateRecord n 0 buffer = .error .UNDEFINED := by
    unfold UpdateRecord
    rw [show 0 / StoreEntry.Size + 1 = 1 from rfl, hskip]
    exact UpdateRecordWrite_count_zero _ _ n _ buffer (by rw [length_Store]; exact hnlt)
      (by rw [hsame]; exact he3) (by unfold LAST_CHAINED_ENTRY; omega) hlen hpos
  rw [hrun, if_pos ⟨hn0, hpos⟩, hupd]
  rfl

/-- `UpdateRecord` at offset 1 of a record with `2 ^ 32 - 1` bytes. -/
theorem UpdateRecord_overrun (s : VariableSizeStore) (free : List Nat) (r : Nat)
    (rest : List Nat) (buffer : List Byte) (hinv : s.Inv free)
    (hchain : s.IsChain r (r :: rest)) (hlen : buffer.length = 2 ^ 32 - 1) :
    s.UpdateRecord r 1 buffer = .error .UNDEFINED := by
  obtain ⟨hb1, hb2⟩ := Inv_bounds s free hinv
  have hskip := UpdateRecordSkip_spec s hb1 (r :: rest) r r 1 1 hchain
    (by rw [List.length_cons]; omega) (by omega)
  obtain ⟨hx, hd⟩ := IsChain_mem s _ _ hchain r (List.mem_cons_self _ _)
  unfold UpdateRecord
  rw [show 1 / StoreEntry.Size + 1 = 1 from rfl, hskip]
  exact UpdateRecordWrite_overrun _ s r _ buffer hx hd (by unfold LAST_CHAINED_ENTRY; omega)
    (hinv.2.2.1 r hx) hlen

end VariableSizeStore
end pastra
end whais

namespace whais
namespace pastra

open StoreEntry

/-- C11 (failing input): `AddRecord` of `2 ^ 32` bytes on the fresh heap. The
entry of the record is allocated, and the first turn of the loop of
`UpdateRecord` passes the size to `StoreEntry::Write`, whose parameter `count`
is a `uint_t`: the count is 0, nothing is written, `chunkSize` is 0 and the
assertion `chunkSize > 0` fails (without the assertion the loop never ends, the
size left staying what it was). No record of `2 ^ 32 / 48` entries rounded up
is made. -/
theorem VariableSizeStore.add_record_of_size_two_pow_32 :
    VariableSizeStore.Init.AddRecord (List.replicate (2 ^ 32) 0) = .error .UNDEFINED :=
  VariableSizeStore.AddRecord_count_zero VariableSizeStore.Init [] _
    VariableSizeStore.Init_Inv (by decide) (by rw [List.length_replicate, Nat.mod_self])
    (by rw [List.length_replicate]; exact Nat.pos_pow_of_pos 32 (by decide))

/-- C32 (failing input): the heap with the record of entry 1 alone satisfies the
invariant, and `UpdateRecord` of that record at offset 1 with `2 ^ 32 - 1` bytes
passes offset and size to `StoreEntry::Write`, whose parameters are `uint_t`:
`count + offset` wraps to 0, the count is not cut to the 47 bytes left in the
entry, and the copy of `2 ^ 32 - 1` bytes runs over the end of the entry into
what follows it in the cache of entries. -/
theorem VariableSizeStore.update_record_overruns_entry :
    VariableSizeStore.oneRecordHeap.Inv [] ∧
    VariableSizeStore.oneRecordHeap.IsChain 1 [1] ∧
    (VariableSizeStore.oneRecordHeap.entryAt 1).mFirst = true ∧
    VariableSizeStore.oneRecordHeap.UpdateRecord 1 1 (List.replicate (2 ^ 32 - 1) 0)
      = .error .UNDEFINED := by
  have hinv : VariableSizeStore.oneRecordHeap.Inv [] := by decide
  have hchain : VariableSizeStore.oneRecordHeap.IsChain 1 [1] := by decide
  exact ⟨hinv, hchain, by decide,
    VariableSizeStore.UpdateRecord_overrun _ [] 1 [] _ hinv hchain
      (by rw [List.length_replicate])⟩

end pastra
end whais
namespace whais
namespace pastra

/-- C35 (failing input): a field of type `T_BOOL` without an index, null bit 0
clear, whose byte no validator accepts: the row is written back as it was, the
null bit clear, and the callback is not called. With an index on the field the
null bit is set. -/
theorem RepairTable_scalar_without_index_not_validated :
    repairFixture.ValidateBuffer 1 [7] = false ∧
    RepairTable_field repairFixture ⟨0, 1, 0, 1, 0, 0⟩ false [0, 7] = .ok ([0, 7], false, []) ∧
    RepairTable_field repairFixture ⟨0, 1, 0, 1, 4, 1⟩ true [0, 7] =
      .ok ([1, 7], true, [⟨.FIX_INFO, 4, [0]⟩]) := by
  decide

set_option maxRecDepth 100000 in
/-- C22 (failing input): the header records `2 ^ 32 + 1` rows of one byte and
the container of the rows holds 3 bytes in one file; with a callback that
answers yes, the count of rows is set to 1 and the container is cut to one byte,
where the minimum of `2 ^ 32 + 1` and `3 / 1` is 3. -/
theorem RepairTable_row_count_of_32_bits :
    load_le_int64 wideRowCountHeader PS_TABLE_ROWS_COUNT_OFF = 2 ^ 32 + 1 ∧
    load_le_int32 wideRowCountHeader PS_TABLE_ROW_SIZE_OFF = 1 ∧
    RepairTable_rows (fun _ => true) 4 wideRowCountHeader [[1, 2, 3]] =
      (.ok (some (store_le_int64 1 wideRowCountHeader PS_TABLE_ROWS_COUNT_OFF, ⟨4, [[1]]⟩)),
        [⟨.FIX_QUESTION, 1, []⟩, ⟨.INFORMATION, 2, [1]⟩]) ∧
    load_le_int64 (store_le_int64 1 wideRowCountHeader PS_TABLE_ROWS_COUNT_OFF)
      PS_TABLE_ROWS_COUNT_OFF = 1 := by
  decide

end pastra
end whais
namespace whais
namespace pastra

theorem layoutFrom_snd (size : FieldDescriptor → Nat) : ∀ (fields : List FieldDescriptor)
    (i offset : Nat), (layoutFrom size fields i offset).2 = offset + (fields.map size).sum := by
  intro fields
  induction fields with
  | nil => intro i offset; simp [layoutFrom]
  | cons field rest ih =>
    intro i offset
    simp only [layoutFrom, List.map_cons, List.sum_cons]
    rw [ih]
    omega

theorem layoutFrom_fst_cons (size : FieldDescriptor → Nat) (field : FieldDescriptor)
    (rest : List FieldDescriptor) (i offset : Nat) :
    (layoutFrom size (field :: rest) i offset).1 =
      { field with mNullBitIndex := i, mRowDataOff := offset } ::
        (layoutFrom size rest (i + 1) (offset + size field)).1 := rfl

theorem layoutFrom_snd_cons (size : FieldDescriptor → Nat) (field : FieldDescriptor)
    (rest : List FieldDescriptor) (i offset : Nat) :
    (layoutFrom size (field :: rest) i offset).2 =
      (layoutFrom size rest (i + 1) (offset + size field)).2 := rfl

/-- What the layout of the specification holds at position `k`. -/
theorem layoutFrom_getElem? (size : FieldDescriptor → Nat) : ∀ (fields : List FieldDescriptor)
    (i offset k : Nat) (d : FieldDescriptor), (layoutFrom size fields i offset).1[k]? = some d →
    ∃ field, fields[k]? = some field ∧
      d = { field with mNullBitIndex := i + k,
                       mRowDataOff := offset + ((fields.take k).map size).sum } := by
  intro fields
  induction fields with
  | nil =>
    intro i offset k d h
    simp [layoutFrom] at h
  | cons field rest ih =>
    intro i offset k d h
    rw [layoutFrom_fst_cons] at h
    cases k with
    | zero =>
      simp only [List.getElem?_cons_zero, Option.some.injEq] at h
      exact ⟨field, List.getElem?_cons_zero, by rw [← h]; simp⟩
    | succ k =>
      simp only [List.getElem?_cons_succ] at h
      obtain ⟨f, hf, hd⟩ := ih (i + 1) (offset + size field) k d h
      refine ⟨f, by simpa using hf, ?_⟩
      rw [hd]
      simp only [List.take_succ_cons, List.map_cons, List.sum_cons]
      congr 1 <;> omega

/-- A descriptor array that has the layout of the specification is its own
layout. -/
theorem layoutFrom_fixed (size : FieldDescriptor → Nat) : ∀ (fields : List FieldDescriptor)
    (i offset : Nat),
    (∀ k d, fields[k]? = some d → d.mNullBitIndex = i + k ∧
      d.mRowDataOff = offset + ((fields.take k).map size).sum) →
    (layoutFrom size fields i offset).1 = fields := by
  intro fields
  induction fields with
  | nil => intro i offset _; rfl
  | cons field rest ih =>
    intro i offset h
    rw [layoutFrom_fst_cons]
    have h0 := h 0 field List.getElem?_cons_zero
    simp only [Nat.add_zero, List.take_zero, List.map_nil, List.sum_nil] at h0
    have hrest := ih (i + 1) (offset + size field) (by
      intro k d hk
      have := h (k + 1) d (by simpa using hk)
      simp only [List.take_succ_cons, List.map_cons, List.sum_cons] at this
      constructor <;> omega)
    rw [hrest]
    congr 1
    obtain ⟨a, b, c, d, e, f⟩ := field
    simp only at h0
    rw [h0.1, h0.2]

/-- The loop of `repair_table_fields` with a callback that answers yes. -/
theorem repair_table_fields_loop_yes (R : RepairParams) :
    ∀ (fields : List FieldDescriptor) (i rowSize : Nat),
    i + fields.length < 2 ^ 32 →
    rowSize + (fields.map fun field => R.P.SerializerSize (R.GET_BASE_TYPE field.mType)
      (R.IS_ARRAY field.mType)).sum < 2 ^ 32 →
    ∃ calls, repair_table_fields_loop R (fun _ => true) fields i rowSize =
        ((layoutFrom (fun field => R.P.SerializerSize (R.GET_BASE_TYPE field.mType)
            (R.IS_ARRAY field.mType)) fields i rowSize).1,
          (layoutFrom (fun field => R.P.SerializerSize (R.GET_BASE_TYPE field.mType)
            (R.IS_ARRAY field.mType)) fields i rowSize).2, calls) ∧
      ((layoutFrom (fun field => R.P.SerializerSize (R.GET_BASE_TYPE field.mType)
            (R.IS_ARRAY field.mType)) fields i rowSize).1 = fields →
        ∀ c ∈ calls, c.type ≠ .FIX_QUESTION) := by
  intro fields
  induction fields with
  | nil =>
    intro i rowSize _ _
    exact ⟨[], rfl, fun _ c hc => absurd hc (List.not_mem_nil _)⟩
  | cons field rest ih =>
    intro i rowSize hi hsize
    simp only [List.map_cons, List.sum_cons, List.length_cons] at hi hsize
    obtain ⟨calls, hrun, hq⟩ := ih (i + 1)
      (rowSize + R.P.SerializerSize (R.GET_BASE_TYPE field.mType) (R.IS_ARRAY field.mType))
      (by omega) (by omega)
    have hf1 : (if field.mNullBitIndex ≠ i then { field with mNullBitIndex := i } else field) =
        { field with mNullBitIndex := i } := by
      by_cases c : field.mNullBitIndex ≠ i
      · rw [if_pos c]
      · rw [if_neg c]
        have c2 : field.mNullBitIndex = i := by omega
        rw [← c2]
    have hf2 : (if ({ field with mNullBitIndex := i } : FieldDescriptor).mRowDataOff ≠ rowSize
        then { field with mNullBitIndex := i, mRowDataOff := rowSize }
        else { field with mNullBitIndex := i }) =
        { field with mNullBitIndex := i, mRowDataOff := rowSize } := by
      by_cases c : ({ field with mNullBitIndex := i } : FieldDescriptor).mRowDataOff ≠ rowSize
      · rw [if_pos c]
      · rw [if_neg c]
        have c2 : field.mRowDataOff = rowSize := by
          simp only at c
          omega
        rw [← c2]
    unfold repair_table_fields_loop
    simp only [Bool.true_eq_false, and_false, if_false]
    rw [hf1, hf2]
    simp only
    rw [Nat.mod_eq_of_lt (by omega : i + 1 < 2 ^ 32), Nat.mod_eq_of_lt (by omega), hrun]
    refine ⟨_, rfl, ?_⟩
    intro hfix c hc
    rw [layoutFrom_fst_cons] at hfix
    have hhead := (List.cons.inj hfix).1
    have htail := (List.cons.inj hfix).2
    have hn : field.mNullBitIndex = i := by rw [← hhead]
    have ho : field.mRowDataOff = rowSize := by rw [← hhead]
    rcases List.mem_append.1 hc with h1 | h1
    · rcases List.mem_append.1 h1 with h2 | h2
      · rw [if_neg (by omega)] at h2
        exact absurd h2 (List.not_mem_nil _)
      · rw [if_neg (by omega)] at h2
        rw [List.mem_singleton] at h2
        rw [h2]
        exact fun e => FIX_ERROR_TYPE.noConfusion e
    · exact hq htail c h1

/-- C34: with a callback that answers yes, `repair_table_fields` leaves the
descriptor array in the layout of the specification (field `i` has the null bit
index `i` and the row offset `ceil(n / 8)` plus the serialized sizes of the
fields before it, its other members are kept) and returns the row size
`ceil(n / 8)` plus the sizes of all the fields, for `n` fields with `n + 7` and
the row size below `2 ^ 32`; an array that has this layout is left as it is and
no question is asked; and the descriptors that `normalize_fields` produces at the
creation of a table have this layout, with the row size of `normalize_fields`,
when the macros `GET_BASE_TYPE` and `IS_ARRAY` give back the type and the array
mark that the descriptor was built from. -/
theorem repair_table_fields_layout (R : RepairParams) (fields : List FieldDescriptor)
    (hcount : fields.length + 7 < 2 ^ 32) (hsize : (specLayout R fields).2 < 2 ^ 32) :
    (∃ calls, repair_table_fields R (fun _ => true) fields fields.length =
        ((specLayout R fields).1, (specLayout R fields).2, calls) ∧
      ((specLayout R fields).1 = fields → ∀ c ∈ calls, c.type ≠ .FIX_QUESTION)) ∧
    (specLayout R fields).2 = (fields.length + 7) / 8 +
      (fields.map fun field => R.P.SerializerSize (R.GET_BASE_TYPE field.mType)
        (R.IS_ARRAY field.mType)).sum ∧
    (∀ (i : Nat) (d : FieldDescriptor), (specLayout R fields).1[i]? = some d →
      ∃ field, fields[i]? = some field ∧
        d = { field with
          mNullBitIndex := i
          mRowDataOff := (fields.length + 7) / 8 +
            ((fields.take i).map fun field => R.P.SerializerSize (R.GET_BASE_TYPE field.mType)
              (R.IS_ARRAY field.mType)).sum }) ∧
    (∀ (created : List DBSFieldDescriptor) (sorted : List DBSFieldDescriptor) (rowSize : Nat)
        (names : List (List Char)),
      (∀ f ∈ created, f.name ≠ [] ∧ f.name.length + 1 < 2 ^ 32) →
      (created.map fun f => f.name).Nodup →
      created.length + 7 < 2 ^ 32 →
      (created.length + 7) / 8 +
        (created.map fun f => R.P.SerializerSize f.type f.isArray).sum < 2 ^ 32 →
      (∀ f ∈ created,
        R.GET_BASE_TYPE (f.type ||| (if f.isArray then R.P.PS_TABLE_ARRAY_MASK else 0)) = f.type ∧
        R.IS_ARRAY (f.type ||| (if f.isArray then R.P.PS_TABLE_ARRAY_MASK else 0)) = f.isArray) →
      normalize_fields R.P created = .ok (sorted, rowSize, fields, names) →
      specLayout R fields = (fields, rowSize)) := by
  have hsnd := layoutFrom_snd (fun field => R.P.SerializerSize (R.GET_BASE_TYPE field.mType)
    (R.IS_ARRAY field.mType)) fields 0 ((fields.length + 7) / 8)
  have hsize2 := hsize
  unfold specLayout at hsize2
  rw [hsnd] at hsize2
  refine ⟨?_, hsnd, ?_, ?_⟩
  · obtain ⟨calls, hrun, hq⟩ := repair_table_fields_loop_yes R fields 0
      ((fields.length + 7) / 8) (by omega) hsize2
    refine ⟨calls, ?_, hq⟩
    unfold repair_table_fields specLayout
    rw [List.take_length, Nat.mod_eq_of_lt hcount, hrun, List.drop_length]
    simp only [List.append_nil]
  · intro i d h
    obtain ⟨field, hf, hd⟩ := layoutFrom_getElem? _ fields 0 ((fields.length + 7) / 8) i d h
    rw [Nat.zero_add] at hd
    exact ⟨field, hf, hd⟩
  · intro created sorted rowSize names hnames hnd hclen hcsize hdec hnorm
    have hne : created ≠ [] := by
      intro c
      rw [c] at hnorm
      simp [normalize_fields] at hnorm
    obtain ⟨fieldsDesc, names2, hrun, hperm, hlen, hprop⟩ :=
      normalize_fields_run R.P created hne hnames hnd hclen hcsize
    rw [hrun] at hnorm
    have hinj := Except.ok.inj hnorm
    have e1 : sortFields created = sorted := (Prod.mk.inj hinj).1
    have e2 := (Prod.mk.inj (Prod.mk.inj hinj).2).1
    have e3 : fieldsDesc = fields := (Prod.mk.inj (Prod.mk.inj (Prod.mk.inj hinj).2).2).1
    subst e1 e3
    have hslen : (sortFields created).length = created.length := hperm.length_eq
    have hmap : (fieldsDesc.map fun field => R.P.SerializerSize (R.GET_BASE_TYPE field.mType)
        (R.IS_ARRAY field.mType)) =
        ((sortFields created).map fun f => R.P.SerializerSize f.type f.isArray) := by
      apply List.ext_getElem?
      intro k
      rw [List.getElem?_map, List.getElem?_map]
      cases hk : fieldsDesc[k]? with
      | none =>
        have : (sortFields created)[k]? = none := by
          rw [List.getElem?_eq_none_iff] at hk ⊢
          omega
        rw [this]
        rfl
      | some d =>
        have hklt : k < (sortFields created).length := by
          have := (List.getElem?_eq_some_iff.1 hk).1
          omega
        have hsk : (sortFields created)[k]? = some ((sortFields created)[k]) :=
          List.getElem?_eq_getElem hklt
        have hty := (hprop k d hk).2.2 _ hsk
        have hmem : (sortFields created)[k] ∈ created :=
          hperm.subset (List.getElem_mem hklt)
        rw [hsk]
        simp only [Option.map_some', Option.some.injEq]
        rw [hty, (hdec _ hmem).1, (hdec _ hmem).2]
    have hfix := layoutFrom_fixed (fun field => R.P.SerializerSize (R.GET_BASE_TYPE field.mType)
      (R.IS_ARRAY field.mType)) fieldsDesc 0 ((fieldsDesc.length + 7) / 8) (by
        intro k d hk
        have hp := hprop k d hk
        rw [List.map_take, hmap, ← List.map_take, hlen, Nat.zero_add]
        exact ⟨hp.1, hp.2.1⟩)
    have hsum : (specLayout R fieldsDesc).2 = rowSize := by
      show (layoutFrom (fun field => R.P.SerializerSize (R.GET_BASE_TYPE field.mType)
        (R.IS_ARRAY field.mType)) fieldsDesc 0 ((fieldsDesc.length + 7) / 8)).2 = rowSize
      rw [hsnd, hmap, ← e2, hlen, (hperm.map _).sum_eq]
    exact Prod.ext hfix hsum

/-- Two descriptors with a wrong null bit index and wrong row offsets in the
fixture, where a field takes one byte: the offsets become 1 and 2, the row size
3. -/
theorem repair_table_fields_layout_witness :
    ∃ calls, repair_table_fields repairFixture (fun _ => true)
        [⟨5, 9, 32, 1, 0, 0⟩, ⟨7, 7, 34, 2, 0, 0⟩] 2 =
      ([⟨0, 1, 32, 1, 0, 0⟩, ⟨1, 2, 34, 2, 0, 0⟩], 3, calls) :=
  match (repair_table_fields_layout repairFixture [⟨5, 9, 32, 1, 0, 0⟩, ⟨7, 7, 34, 2, 0, 0⟩]
    (by decide) (by decide)).1 with
  | ⟨calls, h, _⟩ => ⟨calls, h⟩

end pastra
end whais
namespace whais
namespace pastra

/-- The calls of the callback in `repair_table_fields`: none is critical, and
after a question that is refused the function returns `NOT_FIXED`. -/
theorem repair_table_fields_loop_calls (R : RepairParams) (fixCallback : FIX_ERROR_CALLBACK) :
    ∀ (fields : List FieldDescriptor) (i rowSize : Nat),
    (∀ c ∈ (repair_table_fields_loop R fixCallback fields i rowSize).2.2,
      c.type ≠ .CRITICAL) ∧
    (∀ c ∈ (repair_table_fields_loop R fixCallback fields i rowSize).2.2,
      c.type = .FIX_QUESTION → fixCallback c = false →
      (repair_table_fields_loop R fixCallback fields i rowSize).2.1 = 0) := by
  intro fields
  induction fields with
  | nil =>
    intro i rowSize
    simp [repair_table_fields_loop]
  | cons field rest ih =>
    intro i rowSize
    unfold repair_table_fields_loop
    simp only
    by_cases c1 : field.mNullBitIndex ≠ i ∧ fixCallback ⟨.FIX_QUESTION, 1, [i]⟩ = false
    · rw [if_pos c1]
      simp
    · rw [if_neg c1]
      by_cases c2 : (if field.mNullBitIndex ≠ i then { field with mNullBitIndex := i }
          else field).mRowDataOff ≠ rowSize ∧ fixCallback ⟨.FIX_QUESTION, 2, [i, rowSize]⟩ = false
      · rw [if_pos c2]
        constructor
        · intro c hc
          rcases List.mem_append.1 hc with h | h
          · split_ifs at h
            · rw [List.mem_singleton] at h
              rw [h]
              exact fun e => FIX_ERROR_TYPE.noConfusion e
            · exact absurd h (List.not_mem_nil _)
          · rw [List.mem_singleton] at h
            rw [h]
            exact fun e => FIX_ERROR_TYPE.noConfusion e
        · intro _ _ _ _
          rfl
      · rw [if_neg c2]
        obtain ⟨ih1, ih2⟩ := ih ((i + 1) % 2 ^ 32) ((rowSize + R.P.SerializerSize
          (R.GET_BASE_TYPE (if (if field.mNullBitIndex ≠ i then { field with mNullBitIndex := i }
              else field).mRowDataOff ≠ rowSize then
            { (if field.mNullBitIndex ≠ i then { field with mNullBitIndex := i }
              else field) with mRowDataOff := rowSize }
            else (if field.mNullBitIndex ≠ i then { field with mNullBitIndex := i }
              else field)).mType)
          (R.IS_ARRAY (if (if field.mNullBitIndex ≠ i then { field with mNullBitIndex := i }
              else field).mRowDataOff ≠ rowSize then
            { (if field.mNullBitIndex ≠ i then { field with mNullBitIndex := i }
              else field) with mRowDataOff := rowSize }
            else (if field.mNullBitIndex ≠ i then { field with mNullBitIndex := i }
              else field)).mType)) % 2 ^ 32)
        have hhead : ∀ c ∈ (if field.mNullBitIndex ≠ i then [(⟨.FIX_QUESTION, 1, [i]⟩ : FixCall)]
            else []) ++
            [if (if field.mNullBitIndex ≠ i then { field with mNullBitIndex := i }
              else field).mRowDataOff ≠ rowSize then (⟨.FIX_QUESTION, 2, [i, rowSize]⟩ : FixCall)
              else ⟨.INFORMATION, 3, [i, rowSize]⟩],
            c.type ≠ .CRITICAL ∧ (c.type = .FIX_QUESTION → fixCallback c = true) := by
          intro c hc
          rcases List.mem_append.1 hc with h | h
          · by_cases d : field.mNullBitIndex ≠ i
            · rw [if_pos d, List.mem_singleton] at h
              rw [h]
              refine ⟨fun e => FIX_ERROR_TYPE.noConfusion e, fun _ => ?_⟩
              by_contra e
              exact c1 ⟨d, by simpa using e⟩
            · rw [if_neg d] at h
              exact absurd h (List.not_mem_nil _)
          · rw [List.mem_singleton] at h
            by_cases d : (if field.mNullBitIndex ≠ i then { field with mNullBitIndex := i }
                else field).mRowDataOff ≠ rowSize
            · rw [if_pos d] at h
              rw [h]
              refine ⟨fun e => FIX_ERROR_TYPE.noConfusion e, fun _ => ?_⟩
              by_contra e
              exact c2 ⟨d, by simpa using e⟩
            · rw [if_neg d] at h
              rw [h]
              exact ⟨fun e => FIX_ERROR_TYPE.noConfusion e, fun e => FIX_ERROR_TYPE.noConfusion e⟩
        constructor
        · intro c hc
          rcases List.mem_append.1 hc with h | h
          · exact (hhead c h).1
          · exact ih1 c h
        · intro c hc hq hno
          rcases List.mem_append.1 hc with h | h
          · rw [(hhead c h).2 hq] at hno
            exact Bool.noConfusion hno
          · exact ih2 c h hq hno

theorem repair_name_check_calls (fixCallback : FIX_ERROR_CALLBACK) (descriptors : List Byte)
    (field : FieldDescriptor) (i nameOffset : Nat) :
    ∀ c ∈ (repair_name_check fixCallback descriptors field i nameOffset).2,
      c.type = .CRITICAL ∨ (c.type = .FIX_QUESTION ∧ fixCallback c = false) →
      (repair_name_check fixCallback descriptors field i nameOffset).1 = .ok none := by
  unfold repair_name_check
  simp only
  by_cases c1 : field.mNameOffset ≠ nameOffset
  · rw [if_pos c1]
    by_cases c2 : fixCallback ⟨.FIX_QUESTION, 5, [i, nameOffset]⟩ = false
    · rw [if_pos c2]
      intro _ _ _
      rfl
    · rw [if_neg c2]
      have hask : ∀ c : FixCall, c = ⟨.FIX_QUESTION, 5, [i, nameOffset]⟩ →
          ¬ (c.type = .CRITICAL ∨ (c.type = .FIX_QUESTION ∧ fixCallback c = false)) := by
        intro c hc
        rw [hc]
        rintro (h | h)
        · exact FIX_ERROR_TYPE.noConfusion h
        · exact c2 h.2
      cases strlen descriptors nameOffset with
      | none =>
        intro c hc hb
        exact absurd hb (hask c (List.mem_singleton.1 hc))
      | some length =>
        simp only
        cases validate_field_name (cstring descriptors nameOffset) with
        | error e =>
          intro c hc hb
          exact absurd hb (hask c (List.mem_singleton.1 hc))
        | ok b =>
          cases b with
          | true =>
            intro c hc hb
            simp only [List.mem_cons, List.mem_singleton, List.not_mem_nil, or_false] at hc
            rcases hc with h | h
            · exact absurd hb (hask c h)
            · rw [h] at hb
              rcases hb with h2 | h2
              · exact FIX_ERROR_TYPE.noConfusion h2
              · exact FIX_ERROR_TYPE.noConfusion h2.1
          | false =>
            intro _ _ _
            rfl
  · rw [if_neg c1]
    intro c hc
    exact absurd hc (List.not_mem_nil _)

theorem repair_name_next_calls (R : RepairParams) (fixCallback : FIX_ERROR_CALLBACK)
    (descriptors : List Byte) (descSize : Nat) (field : FieldDescriptor) (nameOffset : Nat) :
    ∀ c ∈ (repair_name_next R descriptors descSize field nameOffset).2,
      c.type = .CRITICAL ∨ (c.type = .FIX_QUESTION ∧ fixCallback c = false) →
      (repair_name_next R descriptors descSize field nameOffset).1 = .ok none := by
  have hinfo : ∀ c : FixCall, c = ⟨.INFORMATION, 8, [nameOffset, field.mType]⟩ →
      ¬ (c.type = .CRITICAL ∨ (c.type = .FIX_QUESTION ∧ fixCallback c = false)) := by
    intro c hc
    rw [hc]
    rintro (h | h)
    · exact FIX_ERROR_TYPE.noConfusion h
    · exact FIX_ERROR_TYPE.noConfusion h.1
  unfold repair_name_next
  cases field_type_to_text R field.mType with
  | error e =>
    intro c hc
    exact absurd hc (List.not_mem_nil _)
  | ok u =>
    simp only
    cases strlen descriptors nameOffset with
    | none =>
      intro c hc hb
      exact absurd hb (hinfo c (List.mem_singleton.1 hc))
    | some length =>
      simp only
      by_cases c1 : (nameOffset + (length + 1)) % 2 ^ 32 > descSize
      · rw [if_pos c1]
        intro _ _ _
        rfl
      · rw [if_neg c1]
        intro c hc hb
        exact absurd hb (hinfo c (List.mem_singleton.1 hc))

/-- The calls of the callback in the loop over the names: after a critical
message or a question that is refused the function returns `false`. -/
theorem repair_names_loop_calls (R : RepairParams) (fixCallback : FIX_ERROR_CALLBACK)
    (descriptors : List Byte) (descSize : Nat) : ∀ (fields : List FieldDescriptor)
    (i nameOffset : Nat),
    ∀ c ∈ (repair_names_loop R fixCallback descriptors descSize fields i nameOffset).2,
      c.type = .CRITICAL ∨ (c.type = .FIX_QUESTION ∧ fixCallback c = false) →
      (repair_names_loop R fixCallback descriptors descSize fields i nameOffset).1 = .ok none := by
  intro fields
  induction fields with
  | nil =>
    intro i nameOffset c hc
    exact absurd hc (List.not_mem_nil _)
  | cons field rest ih =>
    intro i nameOffset
    have h1 := repair_name_check_calls fixCallback descriptors field i nameOffset
    unfold repair_names_loop
    rcases hck : repair_name_check fixCallback descriptors field i nameOffset with ⟨r1, calls⟩
    rw [hck] at h1
    simp only at h1
    cases r1 with
    | error e =>
      intro c hc hb
      exact absurd (h1 c hc hb) (fun e => Except.noConfusion e)
    | ok o1 =>
      cases o1 with
      | none =>
        intro _ _ _
        rfl
      | some field1 =>
        simp only
        have h2 := repair_name_next_calls R fixCallback descriptors descSize field1 nameOffset
        rcases hnx : repair_name_next R descriptors descSize field1 nameOffset with ⟨r2, calls1⟩
        rw [hnx] at h2
        simp only at h2
        cases r2 with
        | error e =>
          intro c hc hb
          rcases List.mem_append.1 hc with h | h
          · exact Option.noConfusion (Except.ok.inj (h1 c h hb))
          · exact absurd (h2 c h hb) (fun e => Except.noConfusion e)
        | ok o2 =>
          cases o2 with
          | none =>
            intro _ _ _
            rfl
          | some nameOffset2 =>
            simp only
            have h3 := ih ((i + 1) % 2 ^ 32) nameOffset2
            rcases hlp : repair_names_loop R fixCallback descriptors descSize rest
              ((i + 1) % 2 ^ 32) nameOffset2 with ⟨r3, calls2⟩
            rw [hlp] at h3
            simp only at h3
            have hpre : ∀ c ∈ calls ++ calls1,
                ¬ (c.type = .CRITICAL ∨ (c.type = .FIX_QUESTION ∧ fixCallback c = false)) := by
              intro c hc hb
              rcases List.mem_append.1 hc with h | h
              · have := h1 c h hb
                exact Option.noConfusion (Except.ok.inj this)
              · have := h2 c h hb
                exact Option.noConfusion (Except.ok.inj this)
            cases r3 with
            | error e =>
              intro c hc hb
              rcases List.mem_append.1 hc with h | h
              · exact absurd hb (hpre c h)
              · exact absurd (h3 c h hb) (fun e => Except.noConfusion e)
            | ok o3 =>
              cases o3 with
              | none =>
                intro _ _ _
                rfl
              | some res =>
                intro c hc hb
                rcases List.mem_append.1 hc with h | h
                · exact absurd hb (hpre c h)
                · have := h3 c h hb
                  exact Option.noConfusion (Except.ok.inj this)

theorem repair_table_header_write_abort (R : RepairParams) (maxFileSize : Nat)
    (disk : TableDisk) (tableFile : File) (header descriptors : List Byte)
    (fds : List FieldDescriptor) (fileSize : Nat) :
    (repair_table_header_write R maxFileSize disk tableFile header descriptors fds fileSize).2 ≠
        .ok true →
      (repair_table_header_write R maxFileSize disk tableFile header descriptors fds fileSize).1 =
        disk := by
  unfold repair_table_header_write
  simp only
  split
  · intro _; rfl
  · split
    · intro _; rfl
    · intro h; exact absurd rfl h

/-- The middle and the end of `repair_table_header`: the files are as they were
when the function does not return `true`, and it returns `false` after a
critical message or a question that is refused. -/
theorem repair_table_header_fields_abort (R : RepairParams) (fixCallback : FIX_ERROR_CALLBACK)
    (maxFileSize : Nat) (disk : TableDisk) (tableFile : File) (header descriptors : List Byte)
    (fieldsCount descSize fileSize : Nat) :
    ((repair_table_header_fields R fixCallback maxFileSize disk tableFile header descriptors
        fieldsCount descSize fileSize).2.1 ≠ .ok true →
      (repair_table_header_fields R fixCallback maxFileSize disk tableFile header descriptors
        fieldsCount descSize fileSize).1 = disk) ∧
    (∀ c ∈ (repair_table_header_fields R fixCallback maxFileSize disk tableFile header
        descriptors fieldsCount descSize fileSize).2.2,
      c.type = .CRITICAL ∨ (c.type = .FIX_QUESTION ∧ fixCallback c = false) →
      (repair_table_header_fields R fixCallback maxFileSize disk tableFile header descriptors
        fieldsCount descSize fileSize).2.1 = .ok false) := by
  have h1 := repair_names_loop_calls R fixCallback descriptors descSize
    (R.loadDescriptors descriptors fieldsCount) 0
    (fieldsCount * R.P.sizeofFieldDescriptor % 2 ^ 32)
  unfold repair_table_header_fields
  rcases hlp : repair_names_loop R fixCallback descriptors descSize
    (R.loadDescriptors descriptors fieldsCount) 0
    (fieldsCount * R.P.sizeofFieldDescriptor % 2 ^ 32) with ⟨r1, calls⟩
  rw [hlp] at h1
  simp only at h1
  cases r1 with
  | error e =>
    refine ⟨fun _ => rfl, ?_⟩
    intro c hc hb
    exact absurd (h1 c hc hb) (fun e => Except.noConfusion e)
  | ok o1 =>
    cases o1 with
    | none => exact ⟨fun _ => rfl, fun _ _ _ => rfl⟩
    | some res =>
      obtain ⟨fds, nameOffset⟩ := res
      simp only
      have hpre : ∀ c ∈ calls,
          ¬ (c.type = .CRITICAL ∨ (c.type = .FIX_QUESTION ∧ fixCallback c = false)) := by
        intro c hc hb
        exact Option.noConfusion (Except.ok.inj (h1 c hc hb))
      by_cases c1 : nameOffset ≠ descSize
      · rw [if_pos c1]
        exact ⟨fun _ => rfl, fun _ _ _ => rfl⟩
      · rw [if_neg c1]
        have h2 := repair_table_fields_loop_calls R fixCallback (fds.take fieldsCount) 0
          ((fieldsCount + 7) % 2 ^ 32 / 8)
        have hrep : (repair_table_fields R fixCallback fds fieldsCount).2 =
            (repair_table_fields_loop R fixCallback (fds.take fieldsCount) 0
              ((fieldsCount + 7) % 2 ^ 32 / 8)).2 := by
          unfold repair_table_fields
          rfl
        rw [← hrep] at h2
        have hpre2 : (repair_table_fields R fixCallback fds fieldsCount).2.1 ≠ 0 →
            ∀ c ∈ calls ++ (repair_table_fields R fixCallback fds fieldsCount).2.2,
            ¬ (c.type = .CRITICAL ∨ (c.type = .FIX_QUESTION ∧ fixCallback c = false)) := by
          intro hne c hc hb
          rcases List.mem_append.1 hc with h | h
          · exact hpre c h hb
          · rcases hb with hb | hb
            · exact h2.1 c h hb
            · exact hne (h2.2 c h hb.1 hb.2)
        by_cases c2 : (repair_table_fields R fixCallback fds fieldsCount).2.1 = 0
        · rw [if_pos c2]
          exact ⟨fun _ => rfl, fun _ _ _ => rfl⟩
        · rw [if_neg c2]
          by_cases c3 : (repair_table_fields R fixCallback fds fieldsCount).2.1 ≠
              load_le_int32 header PS_TABLE_ROW_SIZE_OFF
          · rw [if_pos c3]
            by_cases c4 : fixCallback ⟨.FIX_QUESTION, 11,
                [load_le_int32 header PS_TABLE_ROW_SIZE_OFF,
                  (repair_table_fields R fixCallback fds fieldsCount).2.1]⟩ = false
            · rw [if_pos c4]
              exact ⟨fun _ => rfl, fun _ _ _ => rfl⟩
            · rw [if_neg c4]
              refine ⟨repair_table_header_write_abort R maxFileSize disk tableFile _ descriptors
                _ fileSize, ?_⟩
              intro c hc hb
              rcases List.mem_append.1 hc with h | h
              · exact absurd hb (hpre2 c2 c h)
              · rw [List.mem_singleton] at h
                rw [h] at hb
                rcases hb with hb | hb
                · exact FIX_ERROR_TYPE.noConfusion hb
                · exact absurd hb.2 c4
          · rw [if_neg c3]
            refine ⟨repair_table_header_write_abort R maxFileSize disk tableFile _ descriptors
              _ fileSize, ?_⟩
            intro c hc hb
            rcases List.mem_append.1 hc with h | h
            · exact absurd hb (hpre2 c2 c h)
            · rw [List.mem_singleton] at h
              rw [h] at hb
              rcases hb with hb | hb
              · exact FIX_ERROR_TYPE.noConfusion hb
              · exact FIX_ERROR_TYPE.noConfusion hb.1

/-- What `repair_table_header` does when it does not return `true` (it returns
`false` or throws): the table file and the files of the two containers are as
they were. It returns `false` when the table file has less than 128 bytes, when
the signature is missing, when the count of the fields is 0 or above 65535 or
the descriptors have no room for the names, when the file is shorter than the
32-bit sum of the sizes of its header and descriptors, after every critical
message, and after every question that the callback refuses. -/
theorem repair_table_header_aborts (R : RepairParams) (fixCallback : FIX_ERROR_CALLBACK)
    (maxFileSize : Nat) (disk : TableDisk) :
    ((repair_table_header R fixCallback maxFileSize disk).2.1 ≠ .ok true →
      (repair_table_header R fixCallback maxFileSize disk).1 = disk) ∧
    (∀ tableFile, disk.table.file 0 = some tableFile → tableFile.Size < PS_HEADER_SIZE →
      (repair_table_header R fixCallback maxFileSize disk).2.1 = .ok false) ∧
    (∀ tableFile, disk.table.file 0 = some tableFile → PS_HEADER_SIZE ≤ tableFile.Size →
      tableFile.take 8 ≠ PS_TABLE_SIGNATURE →
      (repair_table_header R fixCallback maxFileSize disk).2.1 = .ok false) ∧
    (∀ tableFile, disk.table.file 0 = some tableFile → PS_HEADER_SIZE ≤ tableFile.Size →
      tableFile.take 8 = PS_TABLE_SIGNATURE → R.P.RAW_NODE_SIZE ≠ 0 →
      (load_le_int32 (tableFile.take PS_HEADER_SIZE) PS_TABLE_FIELDS_COUNT_OFF = 0 ∨
        load_le_int32 (tableFile.take PS_HEADER_SIZE) PS_TABLE_FIELDS_COUNT_OFF > 0xFFFF ∨
        load_le_int32 (tableFile.take PS_HEADER_SIZE) PS_TABLE_FIELDS_COUNT_OFF *
            R.P.sizeofFieldDescriptor ≥
          load_le_int32 (tableFile.take PS_HEADER_SIZE) PS_TABLE_ELEMS_SIZE_OFF ∨
        tableFile.Size < (PS_HEADER_SIZE +
          load_le_int32 (tableFile.take PS_HEADER_SIZE) PS_TABLE_ELEMS_SIZE_OFF) % 2 ^ 32) →
      (repair_table_header R fixCallback maxFileSize disk).2.1 = .ok false) ∧
    (∀ c ∈ (repair_table_header R fixCallback maxFileSize disk).2.2,
      c.type = .CRITICAL ∨ (c.type = .FIX_QUESTION ∧ fixCallback c = false) →
      (repair_table_header R fixCallback maxFileSize disk).2.1 = .ok false) := by
  have hsig : ∀ tableFile : File, (tableFile.take PS_HEADER_SIZE).take PS_TABLE_SIGNATURE.length =
      tableFile.take 8 := by
    intro tableFile
    rw [List.take_take]
    rfl
  unfold repair_table_header
  cases hfile : disk.table.file 0 with
  | none =>
    refine ⟨fun _ => rfl, ?_, ?_, ?_, ?_⟩
    · intro tableFile h
      exact Option.noConfusion h
    · intro tableFile h
      exact Option.noConfusion h
    · intro tableFile h
      exact Option.noConfusion h
    · intro c hc
      exact absurd hc (List.not_mem_nil _)
  | some file =>
    simp only
    by_cases c1 : file.Size < PS_HEADER_SIZE
    · rw [if_pos c1]
      exact ⟨fun _ => rfl, fun _ _ _ => rfl, fun _ _ _ _ => rfl, fun _ _ _ _ _ _ => rfl,
        fun _ _ _ => rfl⟩
    · rw [if_neg c1]
      rw [hsig file]
      by_cases c2 : file.take 8 ≠ PS_TABLE_SIGNATURE
      · rw [if_pos c2]
        exact ⟨fun _ => rfl, fun _ _ _ => rfl, fun _ _ _ _ => rfl, fun _ _ _ _ _ _ => rfl,
          fun _ _ _ => rfl⟩
      · rw [if_neg c2]
        by_cases c3 : R.P.RAW_NODE_SIZE = 0
        · rw [if_pos c3]
          refine ⟨fun _ => rfl, ?_, ?_, ?_, ?_⟩
          · intro tableFile h hs
            rw [← Option.some.inj h] at hs
            exact absurd hs c1
          · intro tableFile h _ hs
            rw [← Option.some.inj h] at hs
            exact absurd hs c2
          · intro tableFile _ _ _ h0
            exact absurd c3 h0
          · intro c hc
            exact absurd hc (List.not_mem_nil _)
        · rw [if_neg c3]
          by_cases c4 : load_le_int32 (file.take PS_HEADER_SIZE) PS_TABLE_FIELDS_COUNT_OFF = 0 ∨
              load_le_int32 (file.take PS_HEADER_SIZE) PS_TABLE_FIELDS_COUNT_OFF > 0xFFFF ∨
              load_le_int32 (file.take PS_HEADER_SIZE) PS_TABLE_FIELDS_COUNT_OFF *
                R.P.sizeofFieldDescriptor ≥
              load_le_int32 (file.take PS_HEADER_SIZE) PS_TABLE_ELEMS_SIZE_OFF
          · rw [if_pos c4]
            exact ⟨fun _ => rfl, fun _ _ _ => rfl, fun _ _ _ _ => rfl, fun _ _ _ _ _ _ => rfl,
              fun _ _ _ => rfl⟩
          · rw [if_neg c4]
            by_cases c5 : file.Size < (PS_HEADER_SIZE +
                load_le_int32 (file.take PS_HEADER_SIZE) PS_TABLE_ELEMS_SIZE_OFF) % 2 ^ 32
            · rw [if_pos c5]
              exact ⟨fun _ => rfl, fun _ _ _ => rfl, fun _ _ _ _ => rfl,
                fun _ _ _ _ _ _ => rfl, fun _ _ _ => rfl⟩
            · rw [if_neg c5]
              have hrest : ∀ tableFile, disk.table.file 0 = some tableFile →
                  PS_HEADER_SIZE ≤ tableFile.Size →
                  tableFile.take 8 = PS_TABLE_SIGNATURE → R.P.RAW_NODE_SIZE ≠ 0 →
                  (load_le_int32 (tableFile.take PS_HEADER_SIZE) PS_TABLE_FIELDS_COUNT_OFF = 0 ∨
                    load_le_int32 (tableFile.take PS_HEADER_SIZE) PS_TABLE_FIELDS_COUNT_OFF
                      > 0xFFFF ∨
                    load_le_int32 (tableFile.take PS_HEADER_SIZE) PS_TABLE_FIELDS_COUNT_OFF *
                        R.P.sizeofFieldDescriptor ≥
                      load_le_int32 (tableFile.take PS_HEADER_SIZE) PS_TABLE_ELEMS_SIZE_OFF ∨
                    tableFile.Size < (PS_HEADER_SIZE +
                      load_le_int32 (tableFile.take PS_HEADER_SIZE) PS_TABLE_ELEMS_SIZE_OFF)
                        % 2 ^ 32) → False := by
                intro tableFile h _ _ _ hbad
                rw [hfile] at h
                rw [← Option.some.inj h] at hbad
                rcases hbad with hb | hb | hb | hb
                · exact absurd (Or.inl hb) c4
                · exact absurd (Or.inr (Or.inl hb)) c4
                · exact absurd (Or.inr (Or.inr hb)) c4
                · exact absurd hb c5
              cases hread : File.ReadAt file PS_HEADER_SIZE
                  (load_le_int32 (file.take PS_HEADER_SIZE) PS_TABLE_ELEMS_SIZE_OFF) with
              | none =>
                refine ⟨fun _ => rfl, ?_, ?_, ?_, ?_⟩
                · intro tableFile h hs
                  rw [← Option.some.inj h] at hs
                  exact absurd hs c1
                · intro tableFile h _ hs
                  rw [← Option.some.inj h] at hs
                  exact absurd hs c2
                · intro tableFile h h1 h2 h3 hbad
                  exact absurd (hrest tableFile (by rw [hfile, h]) h1 h2 h3 hbad) id
                · intro c hc
                  exact absurd hc (List.not_mem_nil _)
              | some descriptors =>
                obtain ⟨h1, h2⟩ := repair_table_header_fields_abort R fixCallback maxFileSize
                  disk file (file.take PS_HEADER_SIZE) descriptors
                  (load_le_int32 (file.take PS_HEADER_SIZE) PS_TABLE_FIELDS_COUNT_OFF)
                  (load_le_int32 (file.take PS_HEADER_SIZE) PS_TABLE_ELEMS_SIZE_OFF)
                  ((PS_HEADER_SIZE + load_le_int32 (file.take PS_HEADER_SIZE)
                    PS_TABLE_ELEMS_SIZE_OFF + R.P.RAW_NODE_SIZE - 1) % 2 ^ 32 /
                    R.P.RAW_NODE_SIZE * R.P.RAW_NODE_SIZE % 2 ^ 32)
                refine ⟨h1, ?_, ?_, ?_, h2⟩
                · intro tableFile h hs
                  rw [← Option.some.inj h] at hs
                  exact absurd hs c1
                · intro tableFile h _ hs
                  rw [← Option.some.inj h] at hs
                  exact absurd hs c2
                · intro tableFile h h1 h2 h3 hbad
                  exact absurd (hrest tableFile (by rw [hfile, h]) h1 h2 h3 hbad) id

set_option maxRecDepth 100000 in
/-- C23 (failing input): the table file of 128 bytes whose header has the
signature, one field and `2 ^ 32 - 1` as the size of the descriptors is shorter
than its header and descriptors. The sum of the test of `repair_table_header`
wraps around to 127: no critical message is given and `false` is not returned;
the function goes on to read `2 ^ 32 - 1` bytes of descriptors from the file and
leaves by the failure of that read. -/
theorem repair_table_header_descriptors_past_end :
    wideDescriptorsFile.Size = 128 ∧
    wideDescriptorsFile.take 8 = PS_TABLE_SIGNATURE ∧
    load_le_int32 (wideDescriptorsFile.take PS_HEADER_SIZE) PS_TABLE_FIELDS_COUNT_OFF = 1 ∧
    load_le_int32 (wideDescriptorsFile.take PS_HEADER_SIZE) PS_TABLE_ELEMS_SIZE_OFF
      = 2 ^ 32 - 1 ∧
    wideDescriptorsFile.Size < PS_HEADER_SIZE +
      load_le_int32 (wideDescriptorsFile.take PS_HEADER_SIZE) PS_TABLE_ELEMS_SIZE_OFF ∧
    repair_table_header repairFixture (fun _ => true) 4 ⟨[some wideDescriptorsFile], []⟩
      = (⟨[some wideDescriptorsFile], []⟩, .error (.CONTAINER .UNDEFINED), []) := by
  decide

end pastra
end whais
